import Mathlib

/-!
# xyzdev/reflect: the JSON document model, parser and serializer

A shallow embedding of `src/json.hpp` and `src/json.cpp`.

* A `char` is modelled by its unsigned byte value, a natural number below 256;
  a `std::string` is a list of such values (`JString`).  Every comparison the
  source makes between characters selects the same bytes whether `char` is
  signed or not.
* A `double` is modelled by `Number` (sign, integer mantissa, binary exponent,
  or an infinity, or NaN), with `std::stod` and `operator<<` modelled from the
  behaviour of the C and C++ libraries.
* `std::map<String, Element>` is an association list kept in strictly
  ascending key order, `std::vector<Element>` a list.
* A data member the source leaves uninitialised (`_number` and `_boolean` in
  most constructors, a local `char in` before the first read) has the value
  `0` / `false` in the model.
-/

namespace xyz.json

/-! ## Characters and strings -/

/-- The typedef `String` (`std::string`): a sequence of bytes. -/
abbrev JString := List Nat

/-- The bytes of a string literal of the source. -/
def lit (s : String) : JString := s.toList.map Char.toNat

/-- Every element is a byte value. -/
def IsBytes (s : JString) : Prop := ∀ b ∈ s, b < 256

/-- Comparison `a < b` of `std::string`: lexicographic on unsigned bytes, a proper
prefix being smaller. -/
def strLess : JString → JString → Bool
  | [], [] => false
  | [], _ :: _ => true
  | _ :: _, [] => false
  | a :: as, b :: bs => if a < b then true else if b < a then false else strLess as bs

/-! ## Numbers: the model of `double` -/

/-- A `double`.  `finite neg m e` is the value `(-1)^neg * m * 2^e`; the values the
library functions below return have `m` odd, or `m = 0` and `e = 0`. -/
inductive Number where
  | finite (neg : Bool) (m : Nat) (e : Int)
  | infinite (neg : Bool)
  | nan
  deriving DecidableEq

namespace Number

/-- The value `0.0`, also the model of an uninitialised `double`. -/
def zero : Number := .finite false 0 0

/-- Native `==` on `double`: NaN equals nothing, the two zeros are equal. -/
def eq : Number → Number → Bool
  | .finite n1 m1 e1, .finite n2 m2 e2 =>
    let lo := min e1 e2
    let a := m1 * 2 ^ (e1 - lo).toNat
    let b := m2 * 2 ^ (e2 - lo).toNat
    a == b && (a == 0 || n1 == n2)
  | .infinite n1, .infinite n2 => n1 == n2
  | _, _ => false

/-- The function `std::isfinite`. -/
def isfinite : Number → Bool
  | .finite _ _ _ => true
  | _ => false

/-- The conversion of a `double` to `bool` (`!number()` is its negation): false
exactly for the two zeros. -/
def toBool : Number → Bool
  | .finite _ m _ => m != 0
  | _ => true

end Number

/-- Decimal digits of `n` as characters, most significant first; `fuel` bounds
the number of digits. -/
def decDigits : Nat → Nat → List Nat
  | 0, _ => []
  | fuel + 1, n => if n < 10 then [48 + n] else decDigits fuel (n / 10) ++ [48 + n % 10]

/-- Decimal digits of `n` as characters. -/
def decimal (n : Nat) : List Nat := decDigits (n + 1) n

/-- Remove the trailing `'0'` characters. -/
def stripZeros (ds : List Nat) : List Nat :=
  (ds.reverse.dropWhile (fun d => d == 48)).reverse

/-- Least `k ≥ start` with `num * 10^k ≥ den`, searched for `fuel` steps. -/
def scaleUp : Nat → Nat → Nat → Nat → Nat
  | 0, _, _, k => k
  | fuel + 1, num, den, k => if den ≤ num * 10 ^ k then k else scaleUp fuel num den (k + 1)

/-- Quotient `a / b` rounded to the nearest integer, ties to even. -/
def roundHalfEven (a b : Nat) : Nat :=
  let q := a / b
  let r := a % b
  if b < 2 * r || (2 * r == b && q % 2 == 1) then q + 1 else q

/-- The six significant decimal digits and the decimal exponent of the
positive rational `num / den`, as the conversion `%e` with precision 5
computes them: `(N, X)` with `100000 ≤ N < 1000000` and
`num / den ≈ N * 10^(X - 5)`. -/
def sixDigits (num den : Nat) : Nat × Int :=
  let x0 : Int :=
    if den ≤ num then ((decimal (num / den)).length : Int) - 1
    else - (scaleUp den num den 1 : Int)
  let n := if x0 ≤ 5 then roundHalfEven (num * 10 ^ (5 - x0).toNat) den
           else roundHalfEven num (den * 10 ^ (x0 - 5).toNat)
  if n = 1000000 then (100000, x0 + 1) else (n, x0)

/-- Text of a positive rational in the style `%g` with precision 6, the default
format of `operator<<` for a `double`. -/
def showPositive (num den : Nat) : List Nat :=
  let (n, x) := sixDigits num den
  let ds := decimal n
  if x < -4 ∨ 6 ≤ x then
    let frac := stripZeros (ds.drop 1)
    let mant := ds.take 1 ++ (if frac = [] then [] else 46 :: frac)
    let ex := decimal x.natAbs
    mant ++ [101, if x < 0 then 45 else 43] ++ (if ex.length < 2 then 48 :: ex else ex)
  else if 0 ≤ x then
    let frac := stripZeros (ds.drop (x.toNat + 1))
    ds.take (x.toNat + 1) ++ (if frac = [] then [] else 46 :: frac)
  else
    [48, 46] ++ List.replicate ((-x).toNat - 1) 48 ++ stripZeros ds

/-- Output of `stream << num` for a `double` with the stream's default flags
(`%g`, precision 6). -/
def showNumber : Number → List Nat
  | .finite neg m e =>
    (if neg then [45] else []) ++
      (if m = 0 then [48]
       else if 0 ≤ e then showPositive (m * 2 ^ e.toNat) 1
       else showPositive m (2 ^ (-e).toNat))
  | .infinite neg => (if neg then [45] else []) ++ lit "inf"
  | .nan => lit "nan"

/-- Result of `std::stod(text, &read)`. -/
inductive StodResult where
  | ok (val : Number) (read : Nat)
  | invalid_argument
  | out_of_range
  deriving DecidableEq

/-- The character is a decimal digit. -/
def isDigit (c : Nat) : Bool := decide (48 ≤ c) && decide (c ≤ 57)

/-- Split off the leading decimal digits. -/
def spanDigits : List Nat → List Nat × List Nat
  | [] => ([], [])
  | c :: rest =>
    if isDigit c then ((spanDigits rest).1.cons c, (spanDigits rest).2) else ([], c :: rest)

/-- Value of a sequence of decimal digit characters. -/
def digitsVal (ds : List Nat) : Nat := ds.foldl (fun a d => 10 * a + (d - 48)) 0

/-- Write `m * 2^e` with an odd mantissa (at most `fuel` halvings). -/
def oddMantissa : Nat → Nat → Int → Nat × Int
  | 0, m, e => (m, e)
  | fuel + 1, m, e => if m % 2 = 0 ∧ m ≠ 0 then oddMantissa fuel (m / 2) (e + 1) else (m, e)

/-- Floor of the binary logarithm of `n` (`0` for `n < 2`), by at most `fuel`
halvings. -/
def log2Floor : Nat → Nat → Nat
  | 0, _ => 0
  | fuel + 1, n => if n < 2 then 0 else log2Floor fuel (n / 2) + 1

/-- The `double` nearest to the positive rational `num / den` (round to nearest,
ties to even), or `none` when the library reports a range error: the value
overflows, or it is below the least normal number and not representable. -/
def nearestDouble (num den : Nat) : Option (Nat × Int) :=
  let est : Int := (log2Floor num num : Int) - (log2Floor den den : Int)
  let b : Int :=
    if 0 ≤ est then (if den * 2 ^ est.toNat ≤ num then est else est - 1)
    else (if den ≤ num * 2 ^ (-est).toNat then est else est - 1)
  let e : Int := max (b - 52) (-1074)
  let a := if 0 ≤ e then num else num * 2 ^ (-e).toNat
  let d := if 0 ≤ e then den * 2 ^ e.toNat else den
  let m := roundHalfEven a d
  if 971 < e ∨ (e = 971 ∧ m = 2 ^ 53) then none
  else if m < 2 ^ 52 ∧ a % d ≠ 0 then none
  else some (oddMantissa 64 m e)

/-- The function `std::stod(text, &read)` on the texts `parseNumber` can
accumulate: an optional sign, decimal digits with an optional point, an
optional exponent.  (White space, hexadecimal notation and the words `inf` and
`nan`, which the library also reads, need a character outside the class
`[0-9+-.eE]` and cannot occur.) -/
def stod (text : List Nat) : StodResult :=
  let neg := text.head? = some 45
  let t0 := if text.head? = some 45 ∨ text.head? = some 43 then text.drop 1 else text
  let (ip, r1) := spanDigits t0
  let (fp, r2) := if r1.head? = some 46 then spanDigits (r1.drop 1) else ([], r1)
  if ip = [] ∧ fp = [] then .invalid_argument
  else
    let r3 := if r2.head? = some 101 ∨ r2.head? = some 69 then r2.drop 1 else r2
    let eneg := r3.head? = some 45
    let r4 := if r3.head? = some 45 ∨ r3.head? = some 43 then r3.drop 1 else r3
    let (ep, r5) := spanDigits r4
    let hasExp := (r2.head? = some 101 ∨ r2.head? = some 69) ∧ ep ≠ []
    let rest := if hasExp then r5 else r2
    let ex : Int := if hasExp then (if eneg then - (digitsVal ep : Int) else digitsVal ep) else 0
    let k : Int := ex - fp.length
    let mant := digitsVal (ip ++ fp)
    let read := text.length - rest.length
    if mant = 0 then .ok (.finite neg 0 0) read
    else
      match (if 0 ≤ k then nearestDouble (mant * 10 ^ k.toNat) 1
             else nearestDouble mant (10 ^ (-k).toNat)) with
      | some (m, e) => .ok (.finite neg m e) read
      | none => .out_of_range

/-! ## The document model (`json.hpp`) -/

/-- The enumeration `Element::Type`, in the order of its values `0 .. 5`. -/
inductive ElemType where
  | NULL_VALUE | OBJECT | ARRAY | STRING | NUMBER | BOOLEAN
  deriving DecidableEq

/-- The class `Element`: the type tag and the five backing stores, all of them
present whatever the tag is. -/
inductive Element where
  | mk (type : ElemType) (_object : List (JString × Element)) (_array : List Element)
      (_string : JString) (_number : Number) (_boolean : Bool)

/-- The typedef `Object` (`std::map<String, Element>`), entries in ascending key order. -/
abbrev JObject := List (JString × Element)

/-- The typedef `Array` (`std::vector<Element>`). -/
abbrev JArray := List Element

namespace Element

/-- Data member `type`. -/
def type : Element → ElemType
  | .mk t _ _ _ _ _ => t

/-- Data member `_object`. -/
def _object : Element → JObject
  | .mk _ o _ _ _ _ => o

/-- Data member `_array`. -/
def _array : Element → JArray
  | .mk _ _ a _ _ _ => a

/-- Data member `_string`. -/
def _string : Element → JString
  | .mk _ _ _ s _ _ => s

/-- Data member `_number`. -/
def _number : Element → Number
  | .mk _ _ _ _ n _ => n

/-- Data member `_boolean`. -/
def _boolean : Element → Bool
  | .mk _ _ _ _ _ b => b

/-- Constructors `Element()` and `Element(Type type)`: only the tag is set. -/
def ofType (t : ElemType) : Element := .mk t [] [] [] Number.zero false

/-- Constructor `Element(bool boolean)`. -/
def ofBool (b : Bool) : Element := .mk .BOOLEAN [] [] [] Number.zero b

/-- Constructor `Element(Number number)`. -/
def ofNumber (n : Number) : Element := .mk .NUMBER [] [] [] n false

/-- Constructors `Element(const String &str)` and `Element(const char *str)`. -/
def ofString (s : JString) : Element := .mk .STRING [] [] s Number.zero false

/-- Member `getType`. -/
def getType (e : Element) : ElemType := e.type

/-- Member `isPrimitive`. -/
def isPrimitive (e : Element) : Bool := e.type != .OBJECT && e.type != .ARRAY

/-- Member `isNull`. -/
def isNull (e : Element) : Bool := e.type == .NULL_VALUE

/-- Member `isObject`. -/
def isObject (e : Element) : Bool := e.type == .OBJECT

/-- Member `isArray`. -/
def isArray (e : Element) : Bool := e.type == .ARRAY

/-- Member `isString`. -/
def isString (e : Element) : Bool := e.type == .STRING

/-- Member `isNumber`. -/
def isNumber (e : Element) : Bool := e.type == .NUMBER

/-- Member `isBoolean`. -/
def isBoolean (e : Element) : Bool := e.type == .BOOLEAN

end Element

/-- The name table of `Element::getTypeName`, indexed by the tag. -/
def typeName : ElemType → String
  | .NULL_VALUE => "NULL"
  | .OBJECT => "OBJECT"
  | .ARRAY => "ARRAY"
  | .STRING => "STRING"
  | .NUMBER => "NUMBER"
  | .BOOLEAN => "BOOLEAN"

/-- The class `TypeError`: a fixed message (`msg`, a null pointer when absent) and
the coded expected type (`NULL_VALUE` when a message is given). -/
structure TypeError where
  msg : Option String
  expected : ElemType
  deriving DecidableEq

namespace TypeError

/-- Constructor `TypeError(const char *msg)`. -/
def ofMsg (m : String) : TypeError := ⟨some m, .NULL_VALUE⟩

/-- Constructor `TypeError(Element::Type expected)`. -/
def ofType (t : ElemType) : TypeError := ⟨none, t⟩

/-- Member `what`: the message when there is one, else the entry of the table
`typeNames` for the expected type. -/
def what (e : TypeError) : String :=
  match e.msg with
  | some m => m
  | none =>
    match e.expected with
    | .NULL_VALUE => "TypeError: Expected NULL"
    | .OBJECT => "TypeError: Expected OBJECT"
    | .ARRAY => "TypeError: Expected ARRAY"
    | .STRING => "TypeError: Expected STRING"
    | .NUMBER => "TypeError: Expected NUMBER"
    | .BOOLEAN => "TypeError: Expected BOOLEAN"

end TypeError

/-- The class `SyntaxError`: message, line number and offending character. -/
structure SyntaxError where
  msg : String
  line : Int
  chr : Nat
  deriving DecidableEq

namespace Element

/-- Member `getTypeName`; the tag of the model is always one of the six values, so
the range check of the source never fails. -/
def getTypeName (e : Element) : Except TypeError String := .ok (typeName e.type)

/-- Accessor `object()`. -/
def object (e : Element) : Except TypeError JObject :=
  if e.type ≠ .OBJECT then .error (TypeError.ofType .OBJECT) else .ok e._object

/-- Accessor `array()`. -/
def array (e : Element) : Except TypeError JArray :=
  if e.type ≠ .ARRAY then .error (TypeError.ofType .ARRAY) else .ok e._array

/-- Accessor `str()`. -/
def str (e : Element) : Except TypeError JString :=
  if e.type ≠ .STRING then .error (TypeError.ofType .STRING) else .ok e._string

/-- Accessor `number()`. -/
def number (e : Element) : Except TypeError Number :=
  if e.type ≠ .NUMBER then .error (TypeError.ofType .NUMBER) else .ok e._number

/-- Accessor `boolean()`. -/
def boolean (e : Element) : Except TypeError Bool :=
  if e.type ≠ .BOOLEAN then .error (TypeError.ofType .BOOLEAN) else .ok e._boolean

/-- Member `empty`.  The accessors `boolean()` and `number()` are only reached
behind the matching type test, so they cannot throw. -/
def empty (e : Element) : Bool :=
  e.isNull ||
  (e.isBoolean && !e._boolean) ||
  (e.isNumber && !e._number.toBool) ||
  (e._object.isEmpty && e._array.isEmpty && e._string.isEmpty)

mutual
/-- Assignment `*this = r` for `this != &r`.  Copying a container copies its
elements with the copy constructor, which is itself an assignment to a fresh
`Element`; the source copies through a temporary when `*this` has the type of
`r` already, which gives the same store. -/
def assign (self : Element) : Element → Element
  | .mk rtype robject rarray rstring rnumber rboolean =>
    if rtype = .OBJECT then
      .mk rtype (copyObject robject) [] [] self._number self._boolean
    else if rtype = .ARRAY then
      .mk rtype [] (copyArray rarray) [] self._number self._boolean
    else if rtype ≠ .NULL_VALUE then
      .mk rtype [] [] rstring rnumber rboolean
    else
      .mk rtype [] [] [] self._number self._boolean
/-- Copy of a `std::vector<Element>`. -/
def copyArray : List Element → List Element
  | [] => []
  | x :: rest => assign (ofType .NULL_VALUE) x :: copyArray rest
/-- Copy of a `std::map<String, Element>`. -/
def copyObject : List (JString × Element) → List (JString × Element)
  | [] => []
  | (k, x) :: rest => (k, assign (ofType .NULL_VALUE) x) :: copyObject rest
end

/-- Copy constructor `Element(const Element &r)`. -/
def copy (r : Element) : Element := assign (ofType .NULL_VALUE) r

/-- Constructor `Element(const Object &object)`. -/
def ofObject (o : JObject) : Element := .mk .OBJECT (copyObject o) [] [] Number.zero false

/-- Constructor `Element(const Array &array)`. -/
def ofArray (a : JArray) : Element := .mk .ARRAY [] (copyArray a) [] Number.zero false

mutual
/-- Equality `operator ==`. -/
def eq : Element → Element → Bool
  | .mk t1 o1 a1 s1 n1 b1, .mk t2 o2 a2 s2 n2 b2 =>
    if t1 ≠ t2 ∧ ¬ (t1 = .NUMBER ∧ t2 = .NUMBER) then false
    else if t1 = .NULL_VALUE then true
    else if t1 = .OBJECT then eqObject o1 o2
    else if t1 = .ARRAY then eqArray a1 a2
    else if t1 = .NUMBER then n1.eq n2
    else if t1 = .BOOLEAN then b1 == b2
    else s1 == s2
/-- Equality of `std::vector<Element>`: same size and equal elements by position. -/
def eqArray : List Element → List Element → Bool
  | [], [] => true
  | x :: xs, y :: ys => eq x y && eqArray xs ys
  | _, _ => false
/-- Equality of `std::map<String, Element>`: same size and equal entries (key and
value) in iteration order. -/
def eqObject : List (JString × Element) → List (JString × Element) → Bool
  | [], [] => true
  | (k1, x) :: xs, (k2, y) :: ys => (k1 == k2 && eq x y) && eqObject xs ys
  | _, _ => false
end

/-- Member `swap`; `same` tells whether `this == &r`.  Returns the new `*this` and
the new `r`. -/
def swap (same : Bool) (self r : Element) : Element × Element :=
  if same then (self, r)
  else
    let so := r.type = .OBJECT ∨ self.type = .OBJECT
    let sa := r.type = .ARRAY ∨ self.type = .ARRAY
    let ss := r.type = .STRING ∨ self.type = .STRING
    (.mk r.type (if so then r._object else self._object) (if sa then r._array else self._array)
        (if ss then r._string else self._string) r._number r._boolean,
     .mk self.type (if so then self._object else r._object) (if sa then self._array else r._array)
        (if ss then self._string else r._string) self._number self._boolean)

end Element

/-! ## `std::map` operations -/

/-- The expression `object[key]` of `std::map` followed by a modification of the
entry through the returned reference: a missing entry is first inserted with
a default-constructed `Element`. -/
def mapModify (k : JString) (f : Element → Element) : JObject → JObject
  | [] => [(k, f (Element.ofType .NULL_VALUE))]
  | (k1, x) :: rest =>
    if strLess k k1 then (k, f (Element.ofType .NULL_VALUE)) :: (k1, x) :: rest
    else if strLess k1 k then (k1, x) :: mapModify k f rest
    else (k1, f x) :: rest

/-- Lookup of a key in a `std::map`. -/
def mapFind (k : JString) : JObject → Option Element
  | [] => none
  | (k1, x) :: rest =>
    if strLess k k1 then none
    else if strLess k1 k then mapFind k rest
    else some x

/-! ## The parser (`json.cpp`) -/

/-- Result of a scanning function: its value and the unread rest of the stream, or
the `SyntaxError` it throws. -/
abbrev Scan (α : Type) := Except SyntaxError (α × List Nat)

/-- The function `isspace` of the C locale, which `std::stoi` uses to skip
leading white space. -/
def isSpace (c : Nat) : Bool := c == 32 || (decide (9 ≤ c) && decide (c ≤ 13))

/-- Value of a hexadecimal digit character. -/
def hexVal (c : Nat) : Option Nat :=
  if 48 ≤ c ∧ c ≤ 57 then some (c - 48)
  else if 97 ≤ c ∧ c ≤ 102 then some (c - 87)
  else if 65 ≤ c ∧ c ≤ 70 then some (c - 55)
  else none

/-- Read the leading hexadecimal digits: their value and their number. -/
def spanHex : List Nat → Nat → Nat → Nat × Nat
  | [], acc, n => (acc, n)
  | c :: rest, acc, n =>
    match hexVal c with
    | some d => spanHex rest (16 * acc + d) (n + 1)
    | none => (acc, n)

/-- The call `std::stoi(buf, &pos, 16)` on a short buffer: `none` when it throws
`std::invalid_argument`, else the value and `pos`.  As `strtol` does, it skips
white space, reads an optional sign and an optional prefix `0x` or `0X`, then
the longest run of hexadecimal digits. -/
def stoi16 (buf : List Nat) : Option (Int × Nat) :=
  let t0 := buf.dropWhile isSpace
  let neg := t0.head? = some 45
  let t1 := if t0.head? = some 45 ∨ t0.head? = some 43 then t0.drop 1 else t0
  let pre := t1.head? = some 48 ∧ ((t1.drop 1).head? = some 120 ∨ (t1.drop 1).head? = some 88)
  let t2 := if pre then t1.drop 2 else t1
  let (v, n) := spanHex t2 0 0
  if n = 0 then
    (if pre then some (0, buf.length - t1.length + 1) else none)
  else some (if neg then - (v : Int) else v, buf.length - t2.length + n)

/-- The part of `parseHexChar` that follows the read of four characters into `buf`. -/
def parseHexBuf (buf : List Nat) (line : Int) : Except SyntaxError Nat :=
  match stoi16 buf with
  | none => .error ⟨"Invalid character escape sequence.", line, buf.headD 32⟩
  | some (val, pos) =>
    if val < 0 ∨ pos ≠ 4 then .error ⟨"Invalid character escape sequence.", line, buf.headD 32⟩
    else if val > 0xff then
      .error ⟨"Escape sequence above Latin-1 not implemented.", line, buf.headD 32⟩
    else .ok (val.toNat % 256)

/-- The function `parseHexChar`. -/
def parseHexChar (stream : List Nat) (line : Int) : Scan Nat :=
  match stream with
  | b0 :: b1 :: b2 :: b3 :: rest =>
    match parseHexBuf [b0, b1, b2, b3] line with
    | .ok v => .ok (v, rest)
    | .error e => .error e
  | _ =>
    .error ⟨"Unexpected end of file while reading character escape sequence.", line,
      stream.headD 32⟩

/-- The test of `parseString` for a raw control character. -/
def isControl (c : Nat) : Bool :=
  (decide (0x00 ≤ c) && decide (c ≤ 0x1f)) || c == 0x7f || (decide (0x80 ≤ c) && decide (c ≤ 0x9f))

/-- The loop of `parseString`: `escaped` and `os` are its locals, `last` is the local
`in` (the character read last, reported when the input ends). -/
def parseStringLoop (line : Int) : List Nat → Bool → List Nat → Nat → Scan JString
  | [], _, _, last => .error ⟨"Unexpected end of file while parsing string.", line, last⟩
  | c :: rest, true, os, _ =>
    if c = '\\'.toNat then parseStringLoop line rest false (os ++ ['\\'.toNat]) c
    else if c = '"'.toNat then parseStringLoop line rest false (os ++ ['"'.toNat]) c
    else if c = 'n'.toNat then parseStringLoop line rest false (os ++ [10]) c
    else if c = 'r'.toNat then parseStringLoop line rest false (os ++ [13]) c
    else if c = 't'.toNat then parseStringLoop line rest false (os ++ [9]) c
    else if c = 'f'.toNat then parseStringLoop line rest false (os ++ [12]) c
    else if c = 'b'.toNat then parseStringLoop line rest false (os ++ [8]) c
    else if c = '/'.toNat then parseStringLoop line rest false (os ++ ['/'.toNat]) c
    else if c = 'u'.toNat then
      match rest with
      | b0 :: b1 :: b2 :: b3 :: rest4 =>
        match parseHexBuf [b0, b1, b2, b3] line with
        | .ok v => parseStringLoop line rest4 false (os ++ [v]) c
        | .error e => .error e
      | _ =>
        .error ⟨"Unexpected end of file while reading character escape sequence.", line,
          rest.headD 32⟩
    else .error ⟨"Illegal string escape sequence", line, c⟩
  | c :: rest, false, os, _ =>
    if c = '"'.toNat then .ok (os, rest)
    else if c = '\\'.toNat then parseStringLoop line rest true os c
    else if isControl c then .error ⟨"Control character in string.", line, c⟩
    else parseStringLoop line rest false (os ++ [c]) c

/-- The function `parseString`: reads the content of a string up to and including
the closing quote; the opening quote has been consumed. -/
def parseString (stream : List Nat) (line : Int) : Scan JString :=
  parseStringLoop line stream false [] 0

/-- The characters `parseNumber` accumulates: `[0-9+-.eE]`. -/
def isNumberChar (c : Nat) : Bool :=
  !((decide (c < '0'.toNat) || decide (c > '9'.toNat)) && c != '-'.toNat && c != '+'.toNat
    && c != '.'.toNat && c != 'e'.toNat && c != 'E'.toNat)

/-- The loop of `parseNumber`: the accumulated text, `extra` and the unread rest. -/
def parseNumberLoop : List Nat → List Nat → List Nat × Nat × List Nat
  | [], os => (os, ' '.toNat, [])
  | c :: rest, os => if isNumberChar c then parseNumberLoop rest (os ++ [c]) else (os, c, rest)

/-- The function `parseNumber`.  The first component is `num` as the function
leaves it (it is written before the length test); the second is the character
read past the end of the number (`' '` when the input ended) with the unread
rest, or the error. -/
def parseNumber (stream : List Nat) (first : Nat) (num : Number) (line : Int) :
    Number × Scan Nat :=
  match parseNumberLoop stream [first] with
  | (os, extra, rest) =>
    match stod os with
    | .ok val read =>
      if read ≠ os.length then (val, .error ⟨"Illegal number format.", line, first⟩)
      else (val, .ok (extra, rest))
    | .invalid_argument => (num, .error ⟨"Failed to parse number", line, first⟩)
    | .out_of_range => (num, .error ⟨"Failed to parse number, value out of range", line, first⟩)

/-- The functions `parseNull`, `parseTrue` and `parseFalse`: read as many characters
as the literal `word` has after its first and compare; `msg` is the message of
the error, whose character is `v[1]`. -/
def parseWord (word : JString) (msg : String) (stream : List Nat) (line : Int) : Scan Unit :=
  if stream.length < word.length - 1 ∨ word.take 1 ++ stream.take (word.length - 1) ≠ word then
    .error ⟨msg, line, stream.headD ' '.toNat⟩
  else .ok ((), stream.drop (word.length - 1))

/-- The function `parseNull`. -/
def parseNull (stream : List Nat) (line : Int) : Scan Unit :=
  parseWord (lit "null") "Expected \"null\"" stream line

/-- The function `parseFalse`. -/
def parseFalse (stream : List Nat) (line : Int) : Scan Unit :=
  parseWord (lit "false") "Expected \"false\"" stream line

/-- The function `parseTrue`. -/
def parseTrue (stream : List Nat) (line : Int) : Scan Unit :=
  parseWord (lit "true") "Expected \"true\"" stream line

/-- The function `parsePrimitive`.  The first component is `el` as the function
leaves it, also when it throws; the second is the returned character with the
rest of the stream, or the error. -/
def parsePrimitive (stream : List Nat) (first : Nat) (el : Element) (line : Int) :
    Element × Scan Nat :=
  if first = 'n'.toNat then
    match parseNull stream line with
    | .error e => (el, .error e)
    | .ok (_, rest) => (el.assign (Element.ofType .NULL_VALUE), .ok (' '.toNat, rest))
  else if first = 't'.toNat then
    match parseTrue stream line with
    | .error e => (el, .error e)
    | .ok (_, rest) => (el.assign (Element.ofBool true), .ok (' '.toNat, rest))
  else if first = 'f'.toNat then
    match parseFalse stream line with
    | .error e => (el, .error e)
    | .ok (_, rest) => (el.assign (Element.ofBool false), .ok (' '.toNat, rest))
  else if first = '"'.toNat then
    match el.assign (Element.ofType .STRING) with
    | .mk t o a s n b =>
      match parseString stream line with
      | .error e => (.mk t o a s n b, .error e)
      | .ok (str, rest) => (.mk t o a str n b, .ok (' '.toNat, rest))
  else if first = '-'.toNat ∨ ('0'.toNat ≤ first ∧ first ≤ '9'.toNat) then
    match el.assign (Element.ofType .NUMBER) with
    | .mk t o a s n b =>
      match parseNumber stream first n line with
      | (num, r) => (.mk t o a s num b, r)
  else
    (el, .error ⟨"Primitive must be one of null, true, false, number or quoted string.", line,
      first⟩)

/-- The loop of `skipLineComment`: skip to the end of the line; the line break
advances the line number. -/
def skipToEol : List Nat → Int → Int × List Nat
  | [], line => (line, [])
  | c :: rest, line => if c = 10 ∨ c = 13 then (line + 1, rest) else skipToEol rest line

/-- The function `skipLineComment`: the new line number and the unread rest. -/
def skipLineComment (stream : List Nat) (line : Int) : Scan Int :=
  match stream with
  | [] => .error ⟨"Expected second '/' to begin line comment.", line, 0⟩
  | c :: rest =>
    if c ≠ '/'.toNat then .error ⟨"Expected second '/' to begin line comment.", line, c⟩
    else .ok (skipToEol rest line)

/-- The enumeration `State` of `deserialize`. -/
inductive State where
  | S_PRE_ELEMENT | S_PRE_KEY | S_PRE_SEP | S_POST_ELEMENT
  deriving DecidableEq

/-- One step from an `Element` to a child held in one of its stores. -/
inductive Step where
  | index (i : Nat)
  | member (k : JString)
  deriving DecidableEq

/-- An `Element*` into the tree under `root`: the steps that lead from the root to
the node. -/
abbrev NodePtr := List Step

/-- Dereference a pointer; `none` when it is dangling. -/
def deref : Element → NodePtr → Option Element
  | e, [] => some e
  | e, .index i :: p =>
    match e._array.get? i with
    | some c => deref c p
    | none => none
  | e, .member k :: p =>
    match mapFind k e._object with
    | some c => deref c p
    | none => none

/-- Replace the element at position `i`. -/
def listSet : List Element → Nat → Element → List Element
  | [], _, _ => []
  | _ :: rest, 0, v => v :: rest
  | x :: rest, i + 1, v => x :: listSet rest i v

/-- Replace the value of an existing key. -/
def mapSet : JObject → JString → Element → JObject
  | [], _, _ => []
  | (k1, x) :: rest, k, v =>
    if strLess k k1 then (k1, x) :: rest
    else if strLess k1 k then (k1, x) :: mapSet rest k v
    else (k1, v) :: rest

/-- Write through a pointer: the tree with the pointee replaced by `v`; `none` when
the pointer is dangling. -/
def store : Element → NodePtr → Element → Option Element
  | _, [], v => some v
  | .mk t o a s n b, .index i :: p, v =>
    match a.get? i with
    | some c =>
      match store c p v with
      | some c1 => some (.mk t o (listSet a i c1) s n b)
      | none => none
    | none => none
  | .mk t o a s n b, .member k :: p, v =>
    match mapFind k o with
    | some c =>
      match store c p v with
      | some c1 => some (.mk t (mapSet o k c1) a s n b)
      | none => none
    | none => none

/-- The object that the reference `r` of `*this = r` is bound to: an element of
the tree of `*this` (the pointer leads to it from `*this`; the empty pointer is
`*this` itself, `this == &r`), or an element that is no part of `*this`. -/
inductive Rhs where
  | part (p : NodePtr)
  | other (r : Element)

/-- What `*this = r` leaves: the values of `*this` and of `r` afterwards, or
undefined behaviour. -/
inductive Assigned where
  | value (self r : Element)
  | undefined

/-- Assignment operator `operator =`.  With `this == &r` it returns at once.  When
`r` is an element held in `_object` or `_array` of `*this`, at any depth, every
branch destroys it before the last statement `type = r.type` reads it: each
branch replaces or clears both containers (`_object.swap(tmp)` and
`_array.swap(tmp)` hand the old container to `tmp`, which is destroyed at the end
of its block; the others are `_object = r._object`, `_array = r._array`,
`_object.clear()`, `_array.clear()`), so `r.type` is read from an object whose
lifetime has ended.  Otherwise `*this` gets the members of `r` as in `assign`,
and `r`, a `const` reference to an object apart from `*this`, is not written. -/
def Element.operator_assign (self : Element) : Rhs → Assigned
  | .part [] => .value self self
  | .part (_ :: _) => .undefined
  | .other r => .value (self.assign r) r

/-- The local variables of `deserialize(std::istream&, Element&)` together with the
unread part of the stream and the caller's `root`; the stack `nodes` has its
top first. -/
structure Parser where
  stream : List Nat
  state : State
  root : Element
  nodes : List NodePtr
  key : JString
  line : Int
  in_ : Nat

/-- How one pass through the loop body ends. -/
inductive Next where
  | continue_ (p : Parser)
  | redo (p : Parser)
  | throw (e : SyntaxError) (p : Parser)
  | undefined

/-- The statements of case `S_PRE_ELEMENT` that follow the choice of the node: the
value that starts with the character `in` goes to `*nodes.top()`. -/
def beginValue (p : Parser) : Next :=
  match p.nodes with
  | [] => .undefined
  | top :: below =>
    match deref p.root top with
    | none => .undefined
    | some el =>
      if p.in_ = '['.toNat then
        match store p.root top (el.assign (Element.ofType .ARRAY)) with
        | none => .undefined
        | some root => .continue_ { p with root := root, state := .S_PRE_ELEMENT }
      else if p.in_ = '{'.toNat then
        match store p.root top (el.assign (Element.ofType .OBJECT)) with
        | none => .undefined
        | some root => .continue_ { p with root := root, state := .S_PRE_KEY }
      else
        match parsePrimitive p.stream p.in_ (el.assign (Element.ofType .NULL_VALUE)) p.line with
        | (el1, .error e) =>
          match store p.root top el1 with
          | none => .undefined
          | some root => .throw e { p with root := root }
        | (el1, .ok (extra, rest)) =>
          match store p.root top el1 with
          | none => .undefined
          | some root =>
            .redo { p with root := root, stream := rest, in_ := extra, nodes := below,
                           state := .S_POST_ELEMENT }

/-- Case `S_PRE_ELEMENT` of the switch. -/
def preElement (p : Parser) : Next :=
  match p.nodes with
  | [] => .undefined
  | top :: _ =>
    match deref p.root top with
    | none => .undefined
    | some el =>
      if el.isNull then beginValue p
      else if el.isArray then
        if p.in_ = ']'.toNat then .redo { p with state := .S_POST_ELEMENT }
        else
          match el with
          | .mk t o a s n b =>
            match store p.root top
                (.mk t o (a ++ [Element.copy (Element.ofType .NULL_VALUE)]) s n b) with
            | none => .undefined
            | some root =>
              beginValue { p with root := root, nodes := (top ++ [.index a.length]) :: p.nodes }
      else if el.isObject then
        match el with
        | .mk t o a s n b =>
          match store p.root top
              (.mk t (mapModify p.key (fun x => x.assign (Element.ofType .NULL_VALUE)) o)
                a s n b) with
          | none => .undefined
          | some root =>
            beginValue { p with root := root, nodes := (top ++ [.member p.key]) :: p.nodes }
      else beginValue p

/-- Case `S_POST_ELEMENT` of the switch. -/
def postElement (p : Parser) : Next :=
  match p.nodes with
  | [] => .throw ⟨"Input after end.", p.line, p.in_⟩ p
  | top :: below =>
    match deref p.root top with
    | none => .undefined
    | some el =>
      if p.in_ = ','.toNat then
        .continue_ { p with state := if el.isArray then .S_PRE_ELEMENT else .S_PRE_KEY }
      else if p.in_ = ']'.toNat then
        if !el.isArray then .throw ⟨"Token ']' is illegal inside object.", p.line, p.in_⟩ p
        else .continue_ { p with nodes := below, state := .S_POST_ELEMENT }
      else if p.in_ = '}'.toNat then
        if !el.isObject then .throw ⟨"Token '\x7d' is illegal inside array.", p.line, p.in_⟩ p
        else .continue_ { p with nodes := below, state := .S_POST_ELEMENT }
      else .throw ⟨"Expected ',' or closing bracket.", p.line, p.in_⟩ p

/-- The body of the loop of `deserialize` from the label `redo` on: it ends the
iteration (`continue` or the `break` of the switch), jumps back to `redo`, or
throws. -/
def body (p : Parser) : Next :=
  if p.in_ = '/'.toNat then
    match skipLineComment p.stream p.line with
    | .error e => .throw e p
    | .ok (line, rest) => .continue_ { p with stream := rest, line := line }
  else
    let q : Parser :=
      if p.in_ = '\n'.toNat ∨ p.in_ = '\r'.toNat then { p with line := p.line + 1 } else p
    if q.in_ = ' '.toNat ∨ q.in_ = '\r'.toNat ∨ q.in_ = '\n'.toNat ∨ q.in_ = '\t'.toNat then
      .continue_ q
    else
      match q.state with
      | .S_PRE_KEY =>
        if q.in_ = '"'.toNat then
          match parseString q.stream q.line with
          | .error e => .throw e q
          | .ok (key, rest) => .continue_ { q with key := key, stream := rest, state := .S_PRE_SEP }
        else if q.in_ = '}'.toNat then .redo { q with state := .S_POST_ELEMENT }
        else .throw ⟨"Expected key or closing bracket.", q.line, q.in_⟩ q
      | .S_PRE_SEP =>
        if q.in_ ≠ ':'.toNat then
          .throw ⟨"Expected ':' separating key and value.", q.line, q.in_⟩ q
        else .continue_ { q with state := .S_PRE_ELEMENT }
      | .S_PRE_ELEMENT => preElement q
      | .S_POST_ELEMENT => postElement q

/-- How a run of the parser ends: normally, by a `SyntaxError` (with the state at
the throw), by undefined behaviour (the top of an empty stack or a dangling
pointer is used), or the model runs out of fuel. -/
inductive Outcome where
  | done (p : Parser)
  | throw (e : SyntaxError) (p : Parser)
  | undefined
  | outOfFuel

mutual
/-- The loop `while(stream.read(&in, 1))` of `deserialize`, from its head. -/
def whileRead : Nat → Parser → Outcome
  | 0, _ => .outOfFuel
  | fuel + 1, p =>
    match p.stream with
    | [] => .done p
    | c :: rest => redo fuel { p with in_ := c, stream := rest }
/-- The loop of `deserialize`, from the label `redo`. -/
def redo : Nat → Parser → Outcome
  | 0, _ => .outOfFuel
  | fuel + 1, p =>
    match body p with
    | .continue_ q => whileRead fuel q
    | .redo q => redo fuel q
    | .throw e q => .throw e q
    | .undefined => .undefined
end

/-- The function `deserialize(std::istream &stream, Element &root)`.  Every pass
through the loop head reads a character and the label `redo` is reached at
most twice for a character, so the fuel is never used up. -/
def deserializeStream (stream : List Nat) (root : Element) : Outcome :=
  match whileRead (3 * stream.length + 1)
      { stream := stream, state := .S_PRE_ELEMENT,
        root := root.assign (Element.ofType .NULL_VALUE), nodes := [[]], key := [],
        line := 1, in_ := 0 } with
  | .done p =>
    if ¬ (p.state = .S_POST_ELEMENT ∧ p.nodes = []) then
      .throw ⟨"Unexpected end of file.", p.line, p.in_⟩ p
    else .done p
  | r => r

/-- Result of `deserialize(const String &str)`. -/
inductive ParseResult where
  | value (el : Element)
  | syntaxError (e : SyntaxError)
  | undefined
  | outOfFuel

/-- The function `deserialize(const String &str)`; the local `el` is returned
without a copy (a copy would be `==` to it). -/
def deserialize (str : JString) : ParseResult :=
  match deserializeStream str (Element.ofType .NULL_VALUE) with
  | .done p => .value p.root
  | .throw e _ => .syntaxError e
  | .undefined => .undefined
  | .outOfFuel => .outOfFuel

/-! ## The serializer (`json.cpp`) -/

/-- Character of a hexadecimal digit, lowercase. -/
def hexChar (d : Nat) : Nat := if d < 10 then 48 + d else 87 + d

/-- Hexadecimal digits of `n`, most significant first; `fuel` bounds their number. -/
def hexDigits : Nat → Nat → List Nat
  | 0, _ => []
  | fuel + 1, n => if n < 16 then [hexChar n] else hexDigits fuel (n / 16) ++ [hexChar (n % 16)]

/-- Output of `stream << std::setfill('0') << std::setw(4) << std::hex << code`. -/
def showHex4 (code : Nat) : List Nat :=
  List.replicate (4 - (hexDigits (code + 1) code).length) '0'.toNat ++ hexDigits (code + 1) code

/-- What the loop of `serializeString` writes for one character. -/
def serializeChar (c : Nat) : List Nat :=
  if c = '\\'.toNat then lit "\\\\"
  else if c = '"'.toNat then lit "\\\""
  else if c = '\n'.toNat then lit "\\n"
  else if c = '\r'.toNat then lit "\\r"
  else if c = '\t'.toNat then lit "\\t"
  else if c = 12 then lit "\\f"
  else if c = 8 then lit "\\b"
  else if (0x00 ≤ c ∧ c ≤ 0x1f) ∨ c = 0x7f ∨ (0x80 ≤ c ∧ c ≤ 0x9f) ∨ (0x80 ≤ c ∧ c ≤ 0xff) then
    lit "\\u" ++ showHex4 c
  else [c]

/-- The loop of `serializeString` over the characters of the string. -/
def serializeChars : JString → List Nat
  | [] => []
  | c :: rest => serializeChar c ++ serializeChars rest

/-- The function `serializeString`; it is called for a node of type `STRING` only,
so `node.str()` does not throw. -/
def serializeString (node : Element) : List Nat :=
  ['"'.toNat] ++ serializeChars node._string ++ ['"'.toNat]

/-- The key `node.object().rbegin()->first` of the last entry. -/
def lastKey : JObject → JString
  | [] => []
  | [(k, _)] => k
  | _ :: rest => lastKey rest

/-- The string `String(n, ' ')`. -/
def spaces (n : Int) : List Nat := List.replicate n.toNat ' '.toNat

mutual
/-- The function `serialize(std::ostream &stream, const Element &node, int indent)`:
the characters written to the stream. -/
def serialize : Element → Int → List Nat
  | .mk t o a s n b, indent =>
    if t = .NULL_VALUE then lit "null"
    else if t = .BOOLEAN then (if b then lit "true" else lit "false")
    else if t = .STRING then serializeString (.mk t [] [] s n b)
    else if t = .NUMBER then (if n.isfinite then showNumber n else lit "null")
    else if t = .OBJECT then
      if o.isEmpty then lit "\x7b\x7d"
      else
        ['{'.toNat] ++ (if indent < 0 then [' '.toNat] else ['\n'.toNat])
          ++ serializeMembers o (lastKey o) indent
          ++ spaces (if indent < 0 then 0 else indent) ++ ['}'.toNat]
    else
      if a.isEmpty then lit "[]"
      else
        ['['.toNat] ++ (if indent < 0 then [' '.toNat] else ['\n'.toNat])
          ++ serializeItems a indent
          ++ (if indent < 0 then [] else spaces (if indent < 0 then 0 else indent))
          ++ [']'.toNat]
/-- The loop of `serialize` over the entries of an `Object`; `last` is the key of the
last entry. -/
def serializeMembers : List (JString × Element) → JString → Int → List Nat
  | [], _, _ => []
  | (k, x) :: rest, last, indent =>
    spaces (if indent < 0 then 0 else indent + 2) ++ ['"'.toNat] ++ k ++ lit "\": "
      ++ serialize x (if indent < 0 then -2 else indent + 2)
      ++ (if k ≠ last then [','.toNat] else [])
      ++ (if indent < 0 then [' '.toNat] else ['\n'.toNat])
      ++ serializeMembers rest last indent
/-- The loop of `serialize` over the elements of an `Array`; the element before
which nothing is left is the last one. -/
def serializeItems : List Element → Int → List Nat
  | [], _ => []
  | x :: rest, indent =>
    (if indent < 0 then [] else spaces (if indent < 0 then 0 else indent + 2))
      ++ serialize x (if indent < 0 then -2 else indent + 2)
      ++ (if rest.isEmpty then [] else [','.toNat])
      ++ (if indent < 0 then [' '.toNat] else ['\n'.toNat])
      ++ serializeItems rest indent
end

/-- The function `serialize(const Element &node, bool indent)`. -/
def serializeToString (node : Element) (indent : Bool) : List Nat :=
  serialize node (if indent then 0 else -1)

/-! ## Reference renderings, written from the specification -/

/-- The escape of one byte of a string, as the specification words it: the named
escapes, `\u00` with two lowercase hexadecimal digits for the other bytes
outside the printable 7-bit range, the byte itself otherwise. -/
def escapedByte (c : Nat) : List Nat :=
  if c = 0x5C then lit "\\\\"
  else if c = 0x22 then lit "\\\""
  else if c = 0x0A then lit "\\n"
  else if c = 0x0D then lit "\\r"
  else if c = 0x09 then lit "\\t"
  else if c = 0x0C then lit "\\f"
  else if c = 0x08 then lit "\\b"
  else if c ≤ 0x1F ∨ c = 0x7F ∨ (0x80 ≤ c ∧ c ≤ 0xFF) then
    lit "\\u00" ++ [hexChar (c / 16), hexChar (c % 16)]
  else [c]

/-! ## Well-formed values and structural equality -/

/-- The keys of the entries are in strictly ascending order: the invariant of a
`std::map`. -/
def keysAscending : JObject → Bool
  | [] => true
  | [_] => true
  | (k1, _) :: (k2, x) :: rest => strLess k1 k2 && keysAscending ((k2, x) :: rest)

mutual
/-- Every `_object` store of the tree is a `std::map`: its keys are strictly
ascending. -/
def Element.wellFormed : Element → Bool
  | .mk _ o a _ _ _ => keysAscending o && wellFormedMembers o && wellFormedItems a
/-- All elements of a vector are well-formed. -/
def wellFormedItems : List Element → Bool
  | [] => true
  | x :: rest => x.wellFormed && wellFormedItems rest
/-- All values of a map are well-formed. -/
def wellFormedMembers : List (JString × Element) → Bool
  | [] => true
  | (_, x) :: rest => x.wellFormed && wellFormedMembers rest
end

/-- Structural equality, as the specification words it: the same active variant
and, for Boolean, Number and String, equal payloads (native `==` for Number);
for Array, equal length and equal elements by position; for Object, the same
key set with equal values under each key. -/
inductive StructEq : Element → Element → Prop
  | null {a b : Element} : a.type = .NULL_VALUE → b.type = .NULL_VALUE → StructEq a b
  | boolean {a b : Element} :
    a.type = .BOOLEAN → b.type = .BOOLEAN → a._boolean = b._boolean → StructEq a b
  | number {a b : Element} :
    a.type = .NUMBER → b.type = .NUMBER → a._number.eq b._number = true → StructEq a b
  | string {a b : Element} :
    a.type = .STRING → b.type = .STRING → a._string = b._string → StructEq a b
  | array {a b : Element} :
    a.type = .ARRAY → b.type = .ARRAY → a._array.length = b._array.length →
    (∀ i x y, a._array.get? i = some x → b._array.get? i = some y → StructEq x y) →
    StructEq a b
  | object {a b : Element} :
    a.type = .OBJECT → b.type = .OBJECT →
    (∀ k, (∃ x, (k, x) ∈ a._object) ↔ (∃ y, (k, y) ∈ b._object)) →
    (∀ k x y, (k, x) ∈ a._object → (k, y) ∈ b._object → StructEq x y) →
    StructEq a b

/-! ## Sample documents -/

/-- The object `{"a": true, "b": ["x", 5]}`. -/
def sampleObject : Element :=
  .mk .OBJECT
    [([97], .mk .BOOLEAN [] [] [] Number.zero true),
     ([98], .mk .ARRAY [] [.mk .STRING [] [] [120] Number.zero false,
        .mk .NUMBER [] [] [] (.finite false 5 0) false] [] Number.zero false)]
    [] [] Number.zero false

/-- The stores other than the one of the active variant are empty. -/
def Element.inactiveEmpty : Element → Bool
  | .mk t o a s _ _ =>
    (t == .OBJECT || o.isEmpty) && (t == .ARRAY || a.isEmpty) && (t == .STRING || s.isEmpty)

/-- The texts joined with a separator between neighbours. -/
def joinWith (sep : List Nat) : List (List Nat) → List Nat
  | [] => []
  | [x] => x
  | x :: y :: rest => x ++ sep ++ joinWith sep (y :: rest)

mutual
/-- The compact rendering, as the specification words it: the literals for Null
and Boolean, `{}` and `[]` for the empty containers, and for the others the
entries joined by `", "` between `"[ "` and `" ]"` or `"{ "` and `" }"`.
Strings and numbers are rendered as `serialize` renders them. -/
def compactText : Element → List Nat
  | .mk t o a s n b =>
    match t with
    | .NULL_VALUE => lit "null"
    | .BOOLEAN => if b then lit "true" else lit "false"
    | .STRING => serializeString (.mk t [] [] s n b)
    | .NUMBER => if n.isfinite then showNumber n else lit "null"
    | .OBJECT =>
      if o.isEmpty then lit "\x7b\x7d"
      else lit "\x7b " ++ joinWith (lit ", ") (compactMembers o) ++ lit " \x7d"
    | .ARRAY =>
      if a.isEmpty then lit "[]"
      else lit "[ " ++ joinWith (lit ", ") (compactItems a) ++ lit " ]"
/-- The compact renderings of the elements, in positional order. -/
def compactItems : List Element → List (List Nat)
  | [] => []
  | x :: rest => compactText x :: compactItems rest
/-- The compact renderings `"key": value` of the entries, in the order of the map. -/
def compactMembers : List (JString × Element) → List (List Nat)
  | [] => []
  | (k, x) :: rest => ([0x22] ++ k ++ lit "\": " ++ compactText x) :: compactMembers rest
end

mutual
/-- The indented rendering of a value at nesting depth `d`, as the specification
words it: a non-empty container is its opening bracket, a newline, each entry
on a line of its own behind `2 * (d + 1)` spaces, a comma after every entry but
the last, and the closing bracket on a line of its own behind `2 * d` spaces.
Empty containers and primitives are rendered as in compact mode. -/
def indentedText : Nat → Element → List Nat
  | d, .mk t o a s n b =>
    match t with
    | .NULL_VALUE => lit "null"
    | .BOOLEAN => if b then lit "true" else lit "false"
    | .STRING => serializeString (.mk t [] [] s n b)
    | .NUMBER => if n.isfinite then showNumber n else lit "null"
    | .OBJECT =>
      if o.isEmpty then lit "\x7b\x7d"
      else lit "\x7b\n" ++ joinWith (lit ",\n") (indentedMembers d o) ++ lit "\n"
        ++ List.replicate (2 * d) 0x20 ++ lit "\x7d"
    | .ARRAY =>
      if a.isEmpty then lit "[]"
      else lit "[\n" ++ joinWith (lit ",\n") (indentedItems d a) ++ lit "\n"
        ++ List.replicate (2 * d) 0x20 ++ lit "]"
/-- The lines of the elements of an array at depth `d`. -/
def indentedItems : Nat → List Element → List (List Nat)
  | _, [] => []
  | d, x :: rest =>
    (List.replicate (2 * (d + 1)) 0x20 ++ indentedText (d + 1) x) :: indentedItems d rest
/-- The lines `"key": value` of the entries of an object at depth `d`. -/
def indentedMembers : Nat → List (JString × Element) → List (List Nat)
  | _, [] => []
  | d, (k, x) :: rest =>
    (List.replicate (2 * (d + 1)) 0x20 ++ [0x22] ++ k ++ lit "\": " ++ indentedText (d + 1) x)
      :: indentedMembers d rest
end

/-! ## Values whose serialized text reads back -/

/-- The key can be written between quotes as it is: it holds no double quote, no
backslash and no byte the string scanner rejects as a control character. -/
def plainKey (k : JString) : Bool :=
  k.all (fun c => c != 34 && c != 92 && !isControl c)

/-- The number `std::stod` returns for the printed text of `n`; `n` itself where
it returns none. -/
def reread (n : Number) : Number :=
  match stod (showNumber n) with
  | .ok v _ => v
  | _ => n

/-- The printed text of the number is read as a number: the number is finite and
`std::stod` reads all of its text. -/
def numberReads (n : Number) : Bool :=
  n.isfinite && decide (stod (showNumber n) = .ok (reread n) (showNumber n).length)

/-- No two entries have the same key. -/
def keysDistinct : JObject → Bool
  | [] => true
  | (k, _) :: rest => rest.all (fun q => q.1 != k) && keysDistinct rest

mutual
/-- The conditions under which the text of a value reads back: strings are byte
strings, the texts of numbers are read, the keys of an object are plain and distinct. -/
def Element.readable : Element → Bool
  | .mk t o a s n _ =>
    match t with
    | .NULL_VALUE => true
    | .BOOLEAN => true
    | .STRING => s.all (fun c => decide (c < 256))
    | .NUMBER => numberReads n
    | .ARRAY => readableItems a
    | .OBJECT => keysDistinct o && readableMembers o
/-- All elements are readable. -/
def readableItems : List Element → Bool
  | [] => true
  | x :: rest => x.readable && readableItems rest
/-- All entries have a plain key and a readable value. -/
def readableMembers : List (JString × Element) → Bool
  | [] => true
  | (k, x) :: rest => plainKey k && x.readable && readableMembers rest
end

/-- What the parser does to enter a value under `key` in an object: `object[key] =
Element()`, then the value is written through the pointer to the entry. -/
def mapInsert (k : JString) (v : Element) (o : JObject) : JObject :=
  mapSet (mapModify k (fun x => x.assign (Element.ofType .NULL_VALUE)) o) k v

mutual
/-- The value the parser builds from the text of a value: the active payload in
stores that are otherwise empty, a number as its printed text is read, the
entries of an object entered one by one in the order of the text. -/
def Element.parsed : Element → Element
  | .mk t o a s n b =>
    match t with
    | .NULL_VALUE => .mk .NULL_VALUE [] [] [] Number.zero false
    | .BOOLEAN => .mk .BOOLEAN [] [] [] Number.zero b
    | .STRING => .mk .STRING [] [] s Number.zero false
    | .NUMBER => .mk .NUMBER [] [] [] (reread n) false
    | .ARRAY => .mk .ARRAY [] (parsedItems a) [] Number.zero false
    | .OBJECT => .mk .OBJECT (parsedMembers o []) [] [] Number.zero false
/-- The elements the parser builds from the texts of the elements. -/
def parsedItems : List Element → List Element
  | [] => []
  | x :: rest => x.parsed :: parsedItems rest
/-- The map the parser builds from the texts of the entries, starting from `acc`. -/
def parsedMembers : List (JString × Element) → JObject → JObject
  | [], acc => acc
  | (k, x) :: rest, acc => parsedMembers rest (mapInsert k x.parsed acc)
end

/-! ## Runs of the parser -/

/-- Continue the loop of `deserialize` after a pass through its body. -/
def Next.run (fuel : Nat) : Next → Outcome
  | .continue_ q => whileRead fuel q
  | .redo q => xyz.json.redo fuel q
  | .throw e q => .throw e q
  | .undefined => .undefined

/-- The loop, entered at its head in state `p`, ends with `r`. -/
def Halts (p : Parser) (r : Outcome) : Prop :=
  ∃ fuel, whileRead fuel p = r ∧ r ≠ .outOfFuel

/-- The loop, continued after a pass through the body that ended as `nx`, ends
with `r`. -/
def HaltsNext (nx : Next) (r : Outcome) : Prop :=
  ∃ fuel, nx.run fuel = r ∧ r ≠ .outOfFuel

/-- The characters the loop of `deserialize` skips as white space. -/
def isWhite (c : Nat) : Bool := c == 32 || c == 13 || c == 10 || c == 9

/-- Whatever the loop ends with from state `q`, it ends with from state `p`: the
run from `p` comes to `q`. -/
def Leads (p q : Parser) : Prop := ∀ r, Halts q r → Halts p r

/-- The run continued after a pass through the body that ended as `nx` comes to
the loop head in state `q`. -/
def LeadsNext (nx : Next) (q : Parser) : Prop := ∀ r, Halts q r → HaltsNext nx r

/-- The text that follows a number does not continue it: it is empty or starts
with a character outside the class `[0-9+-.eE]`. -/
def endsNumber (rest : List Nat) : Prop := ∀ c r, rest = c :: r → isNumberChar c = false

/-- The parser reads the text of `x`, written at `indent`, into the node
`*nodes.top()`: entered with the first character of the text in `in` and the
node still holding a fresh `Element`, it comes to the loop head behind the
text with the node holding `x.parsed` and popped off the stack. -/
def ValueParses (x : Element) (indent : Int) : Prop :=
  ∀ (c : Nat) (cs rest : List Nat), serialize x indent = c :: cs → endsNumber rest →
  ∀ (st : State) (root : Element) (slot : NodePtr) (below : List NodePtr) (key : JString)
    (line : Int),
    deref root slot = some (Element.ofType .NULL_VALUE) →
    ∃ root1 key1 line1 c1, store root slot x.parsed = some root1 ∧
      LeadsNext (beginValue ⟨cs ++ rest, st, root, slot :: below, key, line, c⟩)
        ⟨rest, .S_POST_ELEMENT, root1, below, key1, line1, c1⟩

/-- The parser reads the text of the elements `xs` of an array, written at
`indent`, into the array on top of the stack. -/
def ItemsParse (xs : List Element) (indent : Int) : Prop :=
  ∀ (rest : List Nat) (root : Element) (slot : NodePtr) (below : List NodePtr) (key : JString)
    (line : Int) (c0 : Nat) (o : JObject) (done : JArray) (s : JString) (n : Number) (b : Bool),
    deref root slot = some (.mk .ARRAY o done s n b) →
    ∃ root1 key1 line1 c1,
      store root slot (.mk .ARRAY o (done ++ parsedItems xs) s n b) = some root1 ∧
      Leads ⟨serializeItems xs indent ++ rest, .S_PRE_ELEMENT, root, slot :: below, key, line, c0⟩
        ⟨rest, .S_POST_ELEMENT, root1, slot :: below, key1, line1, c1⟩

/-- The parser reads the text of the entries `ms` of an object, written at
`indent` with `last` as the key that gets no comma, into the object on top of
the stack, which has none of their keys yet. -/
def MembersParse (ms : JObject) (last : JString) (indent : Int) : Prop :=
  ∀ (rest : List Nat) (root : Element) (slot : NodePtr) (below : List NodePtr) (key : JString)
    (line : Int) (c0 : Nat) (done : JObject) (a : JArray) (s : JString) (n : Number) (b : Bool),
    deref root slot = some (.mk .OBJECT done a s n b) →
    (∀ k x, (k, x) ∈ ms → mapFind k done = none) →
    ∃ root1 key1 line1 c1,
      store root slot (.mk .OBJECT (parsedMembers ms done) a s n b) = some root1 ∧
      Leads ⟨serializeMembers ms last indent ++ rest, .S_PRE_KEY, root, slot :: below, key, line,
          c0⟩
        ⟨rest, .S_POST_ELEMENT, root1, slot :: below, key1, line1, c1⟩

/-! ## Decidable equality of documents -/

mutual
/-- Equality of two `Element`s, member by member, is decidable. -/
def Element.decEq : (x y : Element) → Decidable (x = y)
  | .mk t1 o1 a1 s1 n1 b1, .mk t2 o2 a2 s2 n2 b2 =>
    if ht : t1 = t2 then
      match decEqMembers o1 o2 with
      | isTrue ho =>
        match decEqItems a1 a2 with
        | isTrue ha =>
          if hs : s1 = s2 then
            if hn : n1 = n2 then
              if hb : b1 = b2 then isTrue (by rw [ht, ho, ha, hs, hn, hb])
              else isFalse (fun h => hb (by cases h; rfl))
            else isFalse (fun h => hn (by cases h; rfl))
          else isFalse (fun h => hs (by cases h; rfl))
        | isFalse ha => isFalse (fun h => ha (by cases h; rfl))
      | isFalse ho => isFalse (fun h => ho (by cases h; rfl))
    else isFalse (fun h => ht (by cases h; rfl))
/-- Equality of two vectors of `Element`s is decidable. -/
def decEqItems : (xs ys : List Element) → Decidable (xs = ys)
  | [], [] => isTrue rfl
  | [], _ :: _ => isFalse (fun h => by cases h)
  | _ :: _, [] => isFalse (fun h => by cases h)
  | x :: xs, y :: ys =>
    match Element.decEq x y with
    | isTrue h1 =>
      match decEqItems xs ys with
      | isTrue h2 => isTrue (by rw [h1, h2])
      | isFalse h2 => isFalse (fun h => h2 (by cases h; rfl))
    | isFalse h1 => isFalse (fun h => h1 (by cases h; rfl))
/-- Equality of two maps is decidable. -/
def decEqMembers : (xs ys : List (JString × Element)) → Decidable (xs = ys)
  | [], [] => isTrue rfl
  | [], _ :: _ => isFalse (fun h => by cases h)
  | _ :: _, [] => isFalse (fun h => by cases h)
  | (k1, x) :: xs, (k2, y) :: ys =>
    if hk : k1 = k2 then
      match Element.decEq x y with
      | isTrue h1 =>
        match decEqMembers xs ys with
        | isTrue h2 => isTrue (by rw [hk, h1, h2])
        | isFalse h2 => isFalse (fun h => h2 (by cases h; rfl))
      | isFalse h1 => isFalse (fun h => h1 (by cases h; rfl))
    else isFalse (fun h => hk (by cases h; rfl))
end

instance : DecidableEq Element := Element.decEq

deriving instance DecidableEq for ParseResult

/-! ## The `std::map` invariant along a run of the parser -/

/-- The tree the pass leaves behind has a `std::map` for every object store. -/
def Next.wellFormed : Next → Bool
  | .continue_ q => q.root.wellFormed
  | .redo q => q.root.wellFormed
  | .throw _ q => q.root.wellFormed
  | .undefined => true

/-- The tree the run leaves behind has a `std::map` for every object store. -/
def Outcome.wellFormed : Outcome → Bool
  | .done q => q.root.wellFormed
  | .throw _ q => q.root.wellFormed
  | .undefined => true
  | .outOfFuel => true

/-! ## Conditions on the numbers of a value -/

mutual
/-- Every number in the active payloads of the tree satisfies `P`. -/
def Element.allNumbers (P : Number → Bool) : Element → Bool
  | .mk t o a _ n _ =>
    match t with
    | .NUMBER => P n
    | .ARRAY => allNumbersItems P a
    | .OBJECT => allNumbersMembers P o
    | _ => true
/-- Every number in the elements satisfies `P`. -/
def allNumbersItems (P : Number → Bool) : List Element → Bool
  | [] => true
  | x :: rest => x.allNumbers P && allNumbersItems P rest
/-- Every number in the values of the entries satisfies `P`. -/
def allNumbersMembers (P : Number → Bool) : List (JString × Element) → Bool
  | [] => true
  | (_, x) :: rest => x.allNumbers P && allNumbersMembers P rest
end

/-- The printed text of the number reads back as a number `==` to it. -/
def numberReadsBack (n : Number) : Bool := (reread n).eq n

/-- The number read from the printed text of `n` is printed as the same text. -/
def numberReprints (n : Number) : Bool :=
  (reread n).isfinite && decide (showNumber (reread n) = showNumber n)

/-- The entries with each value replaced by the value the parser builds from its
text. -/
def parsedEntries (o : JObject) : JObject := o.map (fun p => (p.1, p.2.parsed))

/-! ## Sample documents of the parser -/

/-- The value `deserialize` returns for `{"b": [1.5, "x\n", null], "a": true}`. -/
def sampleParsed : Element :=
  .mk .OBJECT
    [([97], .mk .BOOLEAN [] [] [] Number.zero true),
     ([98], .mk .ARRAY []
        [.mk .NUMBER [] [] [] (.finite false 3 (-1)) false,
         .mk .STRING [] [] [120, 10] Number.zero false,
         .mk .NULL_VALUE [] [] [] Number.zero false] [] Number.zero false)]
    [] [] Number.zero false

/-- The value `deserialize` returns for `[0.1234567, {"k": -2e10}]`. -/
def sampleNumbers : Element :=
  .mk .ARRAY []
    [.mk .NUMBER [] [] [] (.finite false 4447996384931129 (-55)) false,
     .mk .OBJECT [([107], .mk .NUMBER [] [] [] (.finite true 9765625 11) false)] [] []
       Number.zero false]
    [] Number.zero false

/-- Three members, under the keys `b`, `a` and `c`. -/
def sampleMembers : JObject :=
  [([98], Element.ofNumber (.finite false 1 0)),
   ([97], .mk .ARRAY [] [Element.ofBool true] [] Number.zero false),
   ([99], Element.ofType .NULL_VALUE)]

/-- The members of `sampleMembers` in another order: `c`, `b`, `a`. -/
def sampleMembersPermuted : JObject :=
  [([99], Element.ofType .NULL_VALUE),
   ([98], Element.ofNumber (.finite false 1 0)),
   ([97], .mk .ARRAY [] [Element.ofBool true] [] Number.zero false)]

/-! ## Line numbers -/

/-- The number of line-break bytes (`\n` or `\r`, each counted) in a text. -/
def lineBreaks (w : List Nat) : Nat := w.countP (fun c => c == 10 || c == 13)

/-- The state in which `deserialize` enters its loop on the text `s`. -/
def Parser.start (s : List Nat) : Parser :=
  ⟨s, .S_PRE_ELEMENT, Element.ofType .NULL_VALUE, [[]], [], 1, 0⟩

/-- The rest of a text behind its first line break, empty if it has none: what
`skipLineComment` leaves of the text when the comment is already open. -/
def dropLine (u : List Nat) : List Nat := (skipToEol u 0).2

/-- Two states of the parser with the same state of the machine, the same tree,
the same stack and the same key: they may differ in the unread text, the line
number and the character read last. -/
def Parser.alike (p q : Parser) : Prop :=
  q.state = p.state ∧ q.root = p.root ∧ q.nodes = p.nodes ∧ q.key = p.key

/-- How a pass through the loop body on a text with `u` behind it (`nx1`) follows
the pass on the text `t` alone, entered with the character `c` (`nx`): when
the pass on `t` goes on, the other goes on alike, with `u` behind the unread
text; or a comment ran to the end of `t` and on into `u`; or a number ran to
the end of `t` and the character read past it is the first of `u`. -/
def Next.Follows (u t : List Nat) (c : Nat) (nx nx1 : Next) : Prop :=
  match nx with
  | .throw _ _ => True
  | .undefined => True
  | .continue_ q =>
    match nx1 with
    | .continue_ q1 =>
      q.alike q1 ∧ q.stream <:+ t ∧
      (q1.stream = q.stream ++ u ∨
        (q.stream = [] ∧ q1.stream = dropLine u ∧ c = 47 ∧
          ∃ r, t = 47 :: r ∧ ∀ b ∈ r, b ≠ 10 ∧ b ≠ 13))
    | _ => False
  | .redo q =>
    match nx1 with
    | .redo q1 =>
      q.alike q1 ∧ q.stream <:+ t ∧ (q.in_ = 47 → 47 :: q.stream <:+ t) ∧
      ((q1.stream = q.stream ++ u ∧ q1.in_ = q.in_) ∨
        (q.stream = [] ∧ q.in_ = 32 ∧ u = q1.in_ :: q1.stream))
    | _ => False

/-- The last line of the text holds `//`: the text ends with `//` and characters
that are no line breaks.  (A text that ends within a comment is of this form.) -/
def endsInComment (s : List Nat) : Prop :=
  ∃ pre r, s = pre ++ 47 :: 47 :: r ∧ ∀ b ∈ r, b ≠ 10 ∧ b ≠ 13

/-- A text of white space and `//` comments only; the last comment may run to the
end of the text. -/
inductive Skippable : List Nat → Prop
  | nil : Skippable []
  | white (c : Nat) (rest : List Nat) : isWhite c = true → Skippable rest → Skippable (c :: rest)
  | comment (rest : List Nat) : Skippable (dropLine rest) → Skippable (47 :: 47 :: rest)

/-- A text of white space and `//` comments only, each comment ended by a line
break: what follows the text is outside a comment. -/
inductive Blank : List Nat → Prop
  | nil : Blank []
  | white (c : Nat) (rest : List Nat) : isWhite c = true → Blank rest → Blank (c :: rest)
  | comment (c : List Nat) (nl : Nat) (rest : List Nat) : (∀ b ∈ c, b ≠ 10 ∧ b ≠ 13) →
    (nl = 10 ∨ nl = 13) → Blank rest → Blank (47 :: 47 :: (c ++ nl :: rest))

/-! ## The numbers of a tree are finite -/

mutual
/-- Every `_number` member in the tree, active or not, is finite. -/
def Element.finiteNumbers : Element → Bool
  | .mk _ o a _ n _ => n.isfinite && finiteMembers o && finiteItems a
/-- Every `_number` member in the elements is finite. -/
def finiteItems : List Element → Bool
  | [] => true
  | x :: rest => x.finiteNumbers && finiteItems rest
/-- Every `_number` member in the values of the entries is finite. -/
def finiteMembers : List (JString × Element) → Bool
  | [] => true
  | (_, x) :: rest => x.finiteNumbers && finiteMembers rest
end

/-- The tree the pass leaves behind holds finite numbers only. -/
def Next.finiteNumbers : Next → Bool
  | .continue_ q => q.root.finiteNumbers
  | .redo q => q.root.finiteNumbers
  | .throw _ q => q.root.finiteNumbers
  | .undefined => true

/-- The tree the run leaves behind holds finite numbers only. -/
def Outcome.finiteNumbers : Outcome → Bool
  | .done q => q.root.finiteNumbers
  | .throw _ q => q.root.finiteNumbers
  | .undefined => true
  | .outOfFuel => true

/-! ## What the caller of `deserialize(std::istream &, Element &)` sees -/

/-- The state of `deserialize(std::istream &stream, Element &root)` when the loop
is entered: `root` has been assigned `Element::NULL_VALUE`. -/
def Parser.enter (s : List Nat) (root : Element) : Parser :=
  ⟨s, .S_PRE_ELEMENT, root.assign (Element.ofType .NULL_VALUE), [[]], [], 1, 0⟩

/-- The part of the stream that is left unread when the function returns. -/
def Outcome.unread : Outcome → Option (List Nat)
  | .done q => some q.stream
  | _ => none

/-- The caller's `root` when the function returns. -/
def Outcome.returned : Outcome → Option Element
  | .done q => some q.root
  | _ => none

/-- The `SyntaxError` the function throws. -/
def Outcome.thrown : Outcome → Option SyntaxError
  | .throw e _ => some e
  | _ => none

/-- The caller's `root` after the function has thrown. -/
def Outcome.rootAfterThrow : Outcome → Option Element
  | .throw _ q => some q.root
  | _ => none

/-- The tree after a pass through the loop body, when the pass is defined. -/
def Next.root : Next → Option Element
  | .continue_ q => some q.root
  | .redo q => some q.root
  | .throw _ q => some q.root
  | .undefined => none

/-- The tree when the loop has ended, when the run is defined. -/
def Outcome.root : Outcome → Option Element
  | .done q => some q.root
  | .throw _ q => some q.root
  | _ => none

/-! ## Type identifiers (`reflection.hpp`) -/

/-- The static variables behind `type_id`: the counter `lastId` of
`TypeIdGenerator::next`, and the static `id` of every instantiation of `type_id`
that has been called.  An instantiation is named by a number; the template is
declared `static`, so there is one instantiation for a type in a translation
unit. -/
structure TypeIds where
  lastId : Nat
  ids : List (Nat × Nat)

/-- The static variables at the start of the program. -/
def TypeIds.start : TypeIds := ⟨0, []⟩

/-- The function `TypeIdGenerator::next`: `return ++lastId;` on an `unsigned` of
32 bits. -/
def TypeIdGenerator.next (st : TypeIds) : Nat × TypeIds :=
  ((st.lastId + 1) % 2 ^ 32, { st with lastId := (st.lastId + 1) % 2 ^ 32 })

/-- The function `type_id<T>`: the first call initialises the static `id` with
`TypeIdGenerator::next()`, every call returns it. -/
def type_id (T : Nat) (st : TypeIds) : Nat × TypeIds :=
  match st.ids.lookup T with
  | some id => (id, st)
  | none =>
    ((TypeIdGenerator.next st).1,
      { (TypeIdGenerator.next st).2 with ids := (T, (TypeIdGenerator.next st).1) :: st.ids })

/-- The values that the calls `type_id<T>()` for the instantiations `calls`,
made in this order, return. -/
def typeIdCalls : List Nat → TypeIds → List Nat
  | [], _ => []
  | T :: rest, st => (type_id T st).1 :: typeIdCalls rest (type_id T st).2

/-- The instantiations in the order of their first request: `calls` without the
repetitions, behind those requested before (`seen`). -/
def firstRequests : List Nat → List Nat → List Nat
  | [], seen => seen
  | T :: rest, seen => firstRequests rest (if T ∈ seen then seen else seen ++ [T])

/-- A call `type_id<T>()` in the source of a program: the translation unit that
holds the call, and the type `T`. -/
structure TypeIdCall where
  unit : Nat
  type : Nat
  deriving DecidableEq

/-- The instantiation of `type_id` that a call runs.  The template is declared
`static`, it has internal linkage: every translation unit that includes
`reflection.hpp` instantiates `type_id<T>` for itself, with a static `id` of its
own, while `TypeIdGenerator::next`, a member function defined in its class, is
one function with one `lastId` in the whole program.  The instantiations are
numbered by the pairs of a translation unit and a type. -/
def TypeIdCall.instantiation (c : TypeIdCall) : Nat := Nat.pair c.unit c.type

/-- The values that the calls of a program return, made in this order from its
start. -/
def typeIdRun (calls : List TypeIdCall) : List Nat :=
  typeIdCalls (calls.map TypeIdCall.instantiation) TypeIds.start

/-! ## Calls of bound methods (`reflection.hpp`) -/

/-- A method bound by `MethodReflector<Result, Class, Args...>`.  For every
parameter, `params` holds the conversion `Reflector<arg_type>::write` of an
argument to a value of the parameter's type; `run` is the method on the
converted values and the state of `instance`, followed by
`Reflector<Result>::read`. -/
structure Method (β σ : Type) where
  params : List (Element → Except TypeError β)
  run : List β → σ → Except TypeError Element × σ

/-- The template parameter `Count` of the `Caller` that
`Binder<idx, Caller<count, ...>, Arg, Args...>::leaf_t` calls: every `Bind` adds
one to it, and the specialisation for `idx = 0` is the leaf.  `args` are the
parameter types `Arg, Args...` (the last case has no instantiation). -/
def Binder.leafCount {α : Type} : Nat → Nat → List α → Nat
  | 0, count, _ => count + 1
  | idx + 1, count, _ :: rest => Binder.leafCount idx (count + 1) rest
  | _ + 1, count, [] => count

/-- The template parameter `Count` of the `Caller` that `MethodReflector::call`
reaches: `Caller<0>` for a method without parameters, else the leaf of
`Binder<sizeof...(Args) - 1, Caller<0>, Args...>`. -/
def MethodReflector.count {α : Type} (args : List α) : Nat :=
  match args with
  | [] => 0
  | _ :: _ => Binder.leafCount (args.length - 1) 0 args

/-- The function `Caller<Count, Bindings...>::validate`. -/
def Caller.validate (count size : Nat) : Except TypeError Unit :=
  if size ≠ count then .error (TypeError.ofMsg "TypeError: Incorrect number of arguments.")
  else .ok ()

/-- The calls `Bindings::get(args) ...`: the binding of parameter number `i` of
`n` has `Idx = n - 1 - i` and converts `args[args.size() - (Idx + 1)]`.  The
conversions are made from left to right here, the source leaves their order
open. -/
def Caller.getAll {β : Type} (args : JArray) (n : Nat) :
    List (Element → Except TypeError β) → Nat → Except TypeError (List β)
  | [], _ => .ok []
  | write :: rest, i =>
    match write (args.getD (args.length - ((n - 1 - i) + 1)) (Element.ofType .NULL_VALUE)) with
    | .error e => .error e
    | .ok v =>
      match Caller.getAll args n rest (i + 1) with
      | .error e => .error e
      | .ok vs => .ok (v :: vs)

/-- The function `MethodReflector::call`, which ends in `Caller::inner::call`:
`validate(args.size())`, then the conversions of the arguments, then the
method. -/
def MethodReflector.call {β σ : Type} (m : Method β σ) (args : JArray) (inst : σ) :
    Except TypeError Element × σ :=
  match Caller.validate (MethodReflector.count m.params) args.length with
  | .error e => (.error e, inst)
  | .ok _ =>
    match Caller.getAll args m.params.length m.params 0 with
    | .error e => (.error e, inst)
    | .ok vs => m.run vs inst

/-! ## Line breaks in the written text -/

/-- The text holds no line feed and no carriage return. -/
def oneLine (t : List Nat) : Bool := t.all (fun c => c != 10 && c != 13)

mutual
/-- No key of an Object that is part of the value holds a line feed or a
carriage return. -/
def Element.oneLineKeys : Element → Bool
  | .mk t o a _ _ _ =>
    if t = .OBJECT then oneLineKeysMembers o
    else if t = .ARRAY then oneLineKeysItems a
    else true
/-- No key in the elements holds a line feed or a carriage return. -/
def oneLineKeysItems : List Element → Bool
  | [] => true
  | x :: rest => x.oneLineKeys && oneLineKeysItems rest
/-- No key of the entries or in their values holds a line feed or a carriage
return. -/
def oneLineKeysMembers : List (JString × Element) → Bool
  | [] => true
  | (k, x) :: rest => oneLine k && x.oneLineKeys && oneLineKeysMembers rest
end

/-! ## Floating-point literals, as the specification words them -/

/-- The parts of a floating-point literal: a sign (nothing, `+` or `-`), the
digits before the point, whether there is a point, the digits behind it, and
the exponent if there is one: its letter `e` or `E`, its sign and its digits. -/
structure Literal where
  sign : List Nat
  ip : List Nat
  point : Bool
  fp : List Nat
  ex : Option (Nat × List Nat × List Nat)
  deriving DecidableEq

/-- The text is nothing, `+` or `-`. -/
def isSign (s : List Nat) : Bool := s == [] || s == [43] || s == [45]

/-- The text of the literal. -/
def Literal.text (l : Literal) : List Nat :=
  l.sign ++ l.ip ++ (if l.point then 46 :: l.fp else []) ++
    (match l.ex with
     | none => []
     | some (c, s, d) => c :: (s ++ d))

/-- The parts make a literal: the mantissa has a digit, before or behind the
point, and the exponent, if there is one, has a digit. -/
def Literal.wf (l : Literal) : Bool :=
  isSign l.sign && l.ip.all isDigit && l.fp.all isDigit && (l.point || l.fp.isEmpty) &&
    (!l.ip.isEmpty || !l.fp.isEmpty) &&
    (match l.ex with
     | none => true
     | some (c, s, d) => (c == 101 || c == 69) && isSign s && !d.isEmpty && d.all isDigit)

/-- The text is in full a floating-point literal. -/
def FloatLiteral (t : List Nat) : Prop := ∃ l : Literal, l.wf = true ∧ l.text = t

/-- The text starts with a floating-point literal. -/
def LiteralPrefix (t : List Nat) : Prop :=
  ∃ (l : Literal) (rest : List Nat), l.wf = true ∧ t = l.text ++ rest

/-- The decimal exponent the literal is written with. -/
def Literal.exponent (l : Literal) : Int :=
  match l.ex with
  | none => 0
  | some (_, s, d) => if s = [45] then - (digitsVal d : Int) else digitsVal d

/-- The value of the literal: its digits as a decimal number, times the power
of ten of its exponent, with its sign. -/
def Literal.value (l : Literal) : ℚ :=
  (if l.sign = [45] then -1 else 1) * (digitsVal (l.ip ++ l.fp) : ℚ)
    * (10 : ℚ) ^ (l.exponent - (l.fp.length : Int))

/-! ## The literal `std::stod` reads -/

/-- The literal at the start of the text that `std::stod` reads, with the text
behind it; `none` when there is no digit where the mantissa should be. -/
def scanLiteral (text : List Nat) : Option (Literal × List Nat) :=
  let t0 := if text.head? = some 45 ∨ text.head? = some 43 then text.drop 1 else text
  let (ip, r1) := spanDigits t0
  let (fp, r2) := if r1.head? = some 46 then spanDigits (r1.drop 1) else ([], r1)
  if ip = [] ∧ fp = [] then none
  else
    let r3 := if r2.head? = some 101 ∨ r2.head? = some 69 then r2.drop 1 else r2
    let r4 := if r3.head? = some 45 ∨ r3.head? = some 43 then r3.drop 1 else r3
    let (ep, r5) := spanDigits r4
    if (r2.head? = some 101 ∨ r2.head? = some 69) ∧ ep ≠ [] then
      some (⟨text.take (text.length - t0.length), ip, r1.head? = some 46, fp,
        some (r2.headD 0, r3.take (r3.length - r4.length), ep)⟩, r5)
    else
      some (⟨text.take (text.length - t0.length), ip, r1.head? = some 46, fp, none⟩, r2)

/-- What `std::stod` returns when it has read the literal `l` of `read`
characters: the nearest `double`, or a range error. -/
def Literal.stodResult (l : Literal) (read : Nat) : StodResult :=
  if digitsVal (l.ip ++ l.fp) = 0 then .ok (.finite (l.sign = [45]) 0 0) read
  else
    match (if 0 ≤ l.exponent - (l.fp.length : Int) then
             nearestDouble
               (digitsVal (l.ip ++ l.fp) * 10 ^ (l.exponent - (l.fp.length : Int)).toNat) 1
           else
             nearestDouble (digitsVal (l.ip ++ l.fp))
               (10 ^ (-(l.exponent - (l.fp.length : Int))).toNat)) with
    | some (m, e) => .ok (.finite (l.sign = [45]) m e) read
    | none => .out_of_range

/-! ## The value of a `double`, as the specification words it -/

/-- The value of a finite `double` as a rational number (0 for the others). -/
def Number.toRat : Number → ℚ
  | .finite neg m e => (if neg then -1 else 1) * (m : ℚ) * (2 : ℚ) ^ e
  | _ => 0

/-- The rational number is the value of a finite `double`: its magnitude is
`M * 2^E` with a mantissa `M` below `2^53` and an exponent `E` from -1074 to
971. -/
def IsDouble (y : ℚ) : Prop :=
  ∃ (M : Nat) (E : Int), M < 2 ^ 53 ∧ -1074 ≤ E ∧ E ≤ 971 ∧ |y| = (M : ℚ) * (2 : ℚ) ^ E

/-- The `double` `v` is finite and no finite `double` is nearer to `x`. -/
def Nearest (x : ℚ) (v : Number) : Prop :=
  v.isfinite = true ∧ IsDouble v.toRat ∧ ∀ y : ℚ, IsDouble y → |x - v.toRat| ≤ |x - y|

/-! ## Inactive stores along a run of the parser -/

mutual
/-- The stores other than the one of the active variant are empty in every
`Element` of the tree. -/
def Element.tidy : Element → Bool
  | .mk t o a s _ _ =>
    (t == .OBJECT || o.isEmpty) && (t == .ARRAY || a.isEmpty) && (t == .STRING || s.isEmpty)
      && tidyMembers o && tidyItems a
/-- Every element of the vector is tidy. -/
def tidyItems : List Element → Bool
  | [] => true
  | x :: rest => x.tidy && tidyItems rest
/-- Every value of the entries is tidy. -/
def tidyMembers : List (JString × Element) → Bool
  | [] => true
  | (_, x) :: rest => x.tidy && tidyMembers rest
end

/-- The tree the pass leaves behind is tidy. -/
def Next.tidy : Next → Bool
  | .continue_ q => q.root.tidy
  | .redo q => q.root.tidy
  | .throw _ q => q.root.tidy
  | .undefined => true

/-- The tree the run leaves behind is tidy. -/
def Outcome.tidy : Outcome → Bool
  | .done q => q.root.tidy
  | .throw _ q => q.root.tidy
  | .undefined => true
  | .outOfFuel => true

/-! ## The first character of a value -/

/-- The character can start a value: a bracket that opens a container, a quote,
`-`, a digit, or the first letter of `null`, `true` or `false`. -/
def startsValue (c : Nat) : Bool :=
  c == 91 || c == 123 || c == 34 || c == 45 || isDigit c || c == 110 || c == 116 || c == 102

/-! ## Nested arrays -/

/-- The value of `n + 1` Arrays nested inside one another, built with the
constructors: the innermost is the empty Array, every other one holds the next
as its only element. -/
def nested : Nat → Element
  | 0 => Element.ofType .ARRAY
  | n + 1 => Element.ofArray [nested n]

/-! ## The values of the restricted round trip, as the specification words them -/

/-- The key holds no double quote, no backslash and no byte in `0x00`-`0x1F`,
`0x7F` or `0x80`-`0x9F`. -/
def keyAllowed (k : JString) : Bool :=
  k.all (fun c => c != 0x22 && c != 0x5C && !decide (c ≤ 0x1F) && c != 0x7F
    && !(decide (0x80 ≤ c) && decide (c ≤ 0x9F)))

/-- The printed text of the Number reads back as the same Number: `deserialize`
reads the text that `serialize` writes for it as a value `==` to it. -/
def numberRoundTrips (n : Number) : Bool :=
  match deserialize (serializeToString (Element.ofNumber n) false) with
  | .value D => D.eq (Element.ofNumber n)
  | _ => false

mutual
/-- The value is built from Null, Boolean, String (any bytes), Number, Array and
Object; every key of an Object in it is allowed and the printed text of every
Number in it reads back as the same Number. -/
def Element.restricted : Element → Bool
  | .mk t o a s n _ =>
    match t with
    | .NULL_VALUE => true
    | .BOOLEAN => true
    | .STRING => s.all (fun c => decide (c < 256))
    | .NUMBER => numberRoundTrips n
    | .ARRAY => restrictedItems a
    | .OBJECT => restrictedMembers o
/-- All elements are restricted. -/
def restrictedItems : List Element → Bool
  | [] => true
  | x :: rest => x.restricted && restrictedItems rest
/-- All entries have an allowed key and a restricted value. -/
def restrictedMembers : List (JString × Element) → Bool
  | [] => true
  | (k, x) :: rest => keyAllowed k && x.restricted && restrictedMembers rest
end

/-- The `double` with the value of the integer `k`. -/
def Number.ofInt (k : Int) : Number := .finite (decide (k < 0)) k.natAbs 0

/-! ## The stack of node pointers -/

/-- The stack `nodes` is sound: every pointer on it points into the tree, every
pointer is a prefix of those above it (it points to an ancestor), and the stack
is not empty unless the state is `S_POST_ELEMENT`. -/
def Parser.sound (p : Parser) : Prop :=
  p.nodes.Pairwise (fun a b => b <+: a) ∧
    (∀ ptr ∈ p.nodes, (deref p.root ptr).isSome = true) ∧
    (p.state ≠ .S_POST_ELEMENT → p.nodes ≠ [])

/-- The pass through the loop body has used no pointer that is dangling and not
the top of an empty stack, and leaves a sound stack. -/
def Next.sound : Next → Prop
  | .continue_ q => q.sound
  | .redo q => q.sound
  | .throw _ _ => True
  | .undefined => False

/-- The pointer at the bottom of the stack `nodes` is the pointer to the root. -/
def Rooted (nodes : List NodePtr) : Prop := ∀ x, nodes.getLast? = some x → x = []

/-- The pass through the loop body leaves the pointer to the root at the bottom of
the stack. -/
def Next.Rooted : Next → Prop
  | .continue_ q => xyz.json.Rooted q.nodes
  | .redo q => xyz.json.Rooted q.nodes
  | .throw _ _ => True
  | .undefined => True

/-! ## Decidable equality of the states of the parser -/

deriving instance DecidableEq for Parser

deriving instance DecidableEq for Outcome

/-! ## A value read into a member of an object -/

/-- The element `es` holds the value `rs`: it has the type and the three stores
of `rs`, and `_number` and `_boolean` of `rs` when `rs` is a String, a
Number or a Boolean.  (The assignment of a Null, an Array or an Object leaves
`_number` and `_boolean` of the target as they were; no accessor reads
them.) -/
def Element.holds (es rs : Element) : Prop :=
  es.type = rs.type ∧ es._object = rs._object ∧ es._array = rs._array ∧
  es._string = rs._string ∧
  ((rs.type = .STRING ∨ rs.type = .NUMBER ∨ rs.type = .BOOLEAN) →
    es._number = rs._number ∧ es._boolean = rs._boolean)

/-- The run `pe` reads a value into the node `slot` of its tree as the run `ps`
reads it into its root: the same unread text and state of the machine; the
stack of `pe` is the stack of `ps` below `slot`, on top of the stack `frame`;
the tree of `pe` is `base` with the node `slot` holding the root of `ps`;
and the key is the same wherever it is used. -/
def Framed (base : Element) (slot : NodePtr) (frame : List NodePtr) (ps pe : Parser) : Prop :=
  pe.stream = ps.stream ∧ pe.state = ps.state ∧
  pe.nodes = ps.nodes.map (fun p => slot ++ p) ++ frame ∧
  (∃ es, store base slot es = some pe.root ∧ es.holds ps.root) ∧
  (ps.nodes = [] → ps.state = .S_POST_ELEMENT) ∧
  (ps.key = pe.key ∨ (ps.state ≠ .S_PRE_SEP ∧ (ps.state = .S_PRE_ELEMENT →
    ∃ top rest el, ps.nodes = top :: rest ∧ deref ps.root top = some el ∧ el.isArray = true)))

/-- The run `pe` is about to read the value of the member `key0` of the object
`top` of its tree `root0`, the run `ps` is about to read a value into its
root: both skip the white space in front of the value. -/
def Entering (root0 : Element) (top : NodePtr) (below : List NodePtr) (key0 : JString)
    (ps pe : Parser) : Prop :=
  pe.stream = ps.stream ∧ ps.state = .S_PRE_ELEMENT ∧ pe.state = .S_PRE_ELEMENT ∧
  ps.root = Element.ofType .NULL_VALUE ∧ ps.nodes = [[]] ∧
  pe.root = root0 ∧ pe.nodes = top :: below ∧ pe.key = key0

/-- The two runs before or within the value of the member. -/
def Embedded (root0 root1 : Element) (top : NodePtr) (below : List NodePtr) (key0 : JString)
    (ps pe : Parser) : Prop :=
  Entering root0 top below key0 ps pe ∨
    Framed root1 (top ++ [.member key0]) (top :: below) ps pe

/-- A pass through the loop body of the run in the member (`nxe`) goes with the
pass of the run at the root (`nx`): when the latter goes on, the former goes
on in the same way; an error of the latter is none of the error
`Input after end.` with an empty stack. -/
def Next.Embedded (R : Parser → Parser → Prop) (nx nxe : Next) : Prop :=
  match nx with
  | .continue_ qs => ∃ qe, nxe = .continue_ qe ∧ R qs qe
  | .redo qs => ∃ qe, nxe = .redo qe ∧ R qs qe ∧ qe.in_ = qs.in_
  | .throw e q => q.nodes ≠ [] ∨ e.msg = "Expected second '/' to begin line comment."
  | .undefined => True

/-- The run ends before the value at the root is complete and followed by another
character. -/
def Outcome.early : Outcome → Prop
  | .throw e q => q.nodes ≠ [] ∨ e.msg = "Expected second '/' to begin line comment."
  | _ => True

/-! ## Object texts -/

/-- The text of one member of an object: white space and comments, the key
between quotes (`keyText` is the text behind the opening quote, up to the
closing quote), white space and comments, the colon and the text of the
value with the white space and the comments around it. -/
structure MemberText where
  before : List Nat
  keyText : List Nat
  between : List Nat
  valueText : List Nat

/-- The characters of the member. -/
def MemberText.text (m : MemberText) : List Nat :=
  m.before ++ 34 :: (m.keyText ++ (m.between ++ 58 :: m.valueText))

/-- The text of an object with the members `ms`. -/
def objectText (ms : List MemberText) : List Nat :=
  123 :: (joinWith [44] (ms.map MemberText.text) ++ [125])

/-- The member text `m` is the key `k` with the value `D`: `parseString` reads the
key text as `k`, `deserialize` reads the value text as `D`, and a `,` behind
the value text is no part of it (it is not swallowed by a comment). -/
def MemberText.reads (m : MemberText) (k : JString) (D : Element) : Prop :=
  Blank m.before ∧ parseString m.keyText 1 = .ok (k, []) ∧ Blank m.between ∧
  deserialize m.valueText = .value D ∧
  ∃ line, deserialize (m.valueText ++ [44]) = .syntaxError ⟨"Input after end.", line, 44⟩

/-- The value of the last of the members with the key `k`. -/
def lastValue (k : JString) : List (JString × Element) → Option Element
  | [] => none
  | (k1, D) :: rest =>
    match lastValue k rest with
    | some v => some v
    | none => if k1 = k then some D else none

/-- The entries of the object `o1` are those of `o` with the members `kvs` put in
one after the other, each as an element that holds the value. -/
def ObjectAfter : JObject → List (JString × Element) → JObject → Prop
  | o, [], o1 => o1 = o
  | o, (k, D) :: rest, o1 =>
    ∃ e : Element, e.holds D ∧ ObjectAfter (mapModify k (fun _ => e) o) rest o1

/-! # Theorems -/

/-! ## Typed accessors -/

/-- C8: each typed accessor returns the payload when the active variant is its
own and otherwise fails with the `TypeError` that carries its type as the
expected type; the text of that error is "TypeError: Expected " followed by the
name `getTypeName` gives a value of that variant.  The array accessor on a
String value fails with "TypeError: Expected ARRAY". -/
theorem typed_accessors (v : Element) :
    (v.object = if v.type = .OBJECT then .ok v._object else .error (TypeError.ofType .OBJECT)) ∧
    (v.array = if v.type = .ARRAY then .ok v._array else .error (TypeError.ofType .ARRAY)) ∧
    (v.str = if v.type = .STRING then .ok v._string else .error (TypeError.ofType .STRING)) ∧
    (v.number = if v.type = .NUMBER then .ok v._number else .error (TypeError.ofType .NUMBER)) ∧
    (v.boolean = if v.type = .BOOLEAN then .ok v._boolean
      else .error (TypeError.ofType .BOOLEAN)) ∧
    (∀ T : ElemType, (TypeError.ofType T).expected = T ∧
      (TypeError.ofType T).msg = none ∧
      (TypeError.ofType T).what = "TypeError: Expected " ++ typeName T ∧
      (v.type = T → v.getTypeName = .ok (typeName T))) ∧
    (Element.ofString (lit "str")).array = .error (TypeError.ofType .ARRAY) ∧
    (TypeError.ofType .ARRAY).what = "TypeError: Expected ARRAY" := by
  refine ⟨?_, ?_, ?_, ?_, ?_, ?_, ?_, ?_⟩
  · unfold Element.object; split <;> simp_all
  · unfold Element.array; split <;> simp_all
  · unfold Element.str; split <;> simp_all
  · unfold Element.number; split <;> simp_all
  · unfold Element.boolean; split <;> simp_all
  · intro T
    refine ⟨rfl, rfl, ?_, ?_⟩
    · cases T <;> rfl
    · intro h; simp [Element.getTypeName, h]
  · rfl
  · rfl

/-! ## Rendering of strings -/

theorem showHex4_byte (c : Nat) (h : c < 256) :
    showHex4 c = [48, 48, hexChar (c / 16), hexChar (c % 16)] := by
  unfold showHex4
  by_cases h16 : c < 16
  · have h0 : c / 16 = 0 := by omega
    have h1 : c % 16 = c := by omega
    simp [hexDigits, h16, h0, h1, hexChar]
  · have h2 : c / 16 < 16 := by omega
    obtain ⟨d, rfl⟩ : ∃ d, c = d + 1 := ⟨c - 1, by omega⟩
    simp [hexDigits, h16, h2]

theorem serializeChar_eq (c : Nat) (h : c < 256) : serializeChar c = escapedByte c := by
  unfold serializeChar escapedByte
  simp only [showHex4_byte c h]
  have e : lit "\\u" ++ [48, 48, hexChar (c / 16), hexChar (c % 16)]
      = lit "\\u00" ++ [hexChar (c / 16), hexChar (c % 16)] := rfl
  rw [e]
  have c1 : '\\'.toNat = 0x5C := rfl
  have c2 : '"'.toNat = 0x22 := rfl
  have c3 : '\n'.toNat = 0x0A := rfl
  have c4 : '\r'.toNat = 0x0D := rfl
  have c5 : '\t'.toNat = 0x09 := rfl
  rw [c1, c2, c3, c4, c5]
  repeat' split
  all_goals first | rfl | omega

theorem serializeChars_eq (s : JString) (h : IsBytes s) :
    serializeChars s = (s.map escapedByte).flatten := by
  induction s with
  | nil => rfl
  | cons c rest ih =>
    have hc : c < 256 := h c (List.mem_cons_self _ _)
    have hr : IsBytes rest := fun b hb => h b (List.mem_cons_of_mem _ hb)
    simp [serializeChars, serializeChar_eq c hc, ih hr]

/-- C4: a String value renders, at any indent (so in compact and in indented
mode alike), as a double quote, the escape of each byte in order, and a closing
double quote. -/
theorem string_rendering (s : JString) (o : JObject) (a : JArray) (n : Number) (b : Bool)
    (indent : Int) (h : IsBytes s) :
    serialize (.mk .STRING o a s n b) indent
      = [0x22] ++ (s.map escapedByte).flatten ++ [0x22] := by
  rw [serialize]
  simp [serializeString, Element._string, serializeChars_eq s h]

/-- C4 at the one-byte string `0xC4`: the text is `"\u00c4"` in both modes. -/
theorem string_rendering_witness :
    IsBytes [0xC4] ∧
    serialize (.mk .STRING [] [] [0xC4] Number.zero false) (-1) = lit "\"\\u00c4\"" ∧
    serialize (.mk .STRING [] [] [0xC4] Number.zero false) 0 = lit "\"\\u00c4\"" :=
  have hb : IsBytes [0xC4] := by intro b hb; simp at hb; omega
  ⟨hb, by rw [string_rendering _ _ _ _ _ _ hb]; rfl, by rw [string_rendering _ _ _ _ _ _ hb]; rfl⟩

/-! ## The order of keys -/

theorem strLess_irrefl (a : JString) : strLess a a = false := by
  induction a with
  | nil => rfl
  | cons x xs ih => simp [strLess, ih]

theorem strLess_asymm : ∀ (a b : JString), strLess a b = true → strLess b a = false
  | [], [], h => by simp [strLess] at h
  | [], _ :: _, _ => by simp [strLess]
  | _ :: _, [], h => by simp [strLess] at h
  | x :: xs, y :: ys, h => by
    simp only [strLess] at h ⊢
    by_cases h1 : x < y
    · have : ¬ y < x := by omega
      simp [this, h1]
    · by_cases h2 : y < x
      · simp [h1, h2] at h
      · simp [h1, h2] at h ⊢
        exact strLess_asymm xs ys h

theorem strLess_trans : ∀ (a b c : JString), strLess a b = true → strLess b c = true →
    strLess a c = true
  | [], _, [], _, h2 => by cases ‹JString› <;> simp [strLess] at h2
  | [], _, _ :: _, _, _ => by simp [strLess]
  | _ :: _, [], _, h1, _ => by simp [strLess] at h1
  | _ :: _, _ :: _, [], _, h2 => by simp [strLess] at h2
  | x :: xs, y :: ys, z :: zs, h1, h2 => by
    simp only [strLess] at h1 h2 ⊢
    by_cases hxy : x < y
    · by_cases hyz : y < z
      · have : x < z := by omega
        simp [this]
      · by_cases hzy : z < y
        · simp [hyz, hzy] at h2
        · have : x < z := by omega
          simp [this]
    · by_cases hyx : y < x
      · simp [hxy, hyx] at h1
      · simp [hxy, hyx] at h1
        have hxy' : x = y := by omega
        subst hxy'
        by_cases hyz : x < z
        · simp [hyz]
        · by_cases hzy : z < x
          · simp [hyz, hzy] at h2
          · simp [hyz, hzy] at h2 ⊢
            exact strLess_trans xs ys zs h1 h2

theorem strLess_total : ∀ (a b : JString), strLess a b = false → strLess b a = false → a = b
  | [], [], _, _ => rfl
  | [], _ :: _, h, _ => by simp [strLess] at h
  | _ :: _, [], _, h => by simp [strLess] at h
  | x :: xs, y :: ys, h1, h2 => by
    simp only [strLess] at h1 h2
    by_cases hxy : x < y
    · simp [hxy] at h1
    · by_cases hyx : y < x
      · simp [hyx] at h2
      · simp [hxy, hyx] at h1 h2
        have : x = y := by omega
        subst this
        rw [strLess_total xs ys h1 h2]

theorem keysAscending_tail {p : JString × Element} {rest : JObject}
    (h : keysAscending (p :: rest) = true) : keysAscending rest = true := by
  cases rest with
  | nil => rfl
  | cons q rest =>
    obtain ⟨k1, x⟩ := p
    obtain ⟨k2, y⟩ := q
    simp [keysAscending] at h
    exact h.2

theorem keysAscending_head_lt {k : JString} {x : Element} :
    ∀ {rest : JObject}, keysAscending ((k, x) :: rest) = true →
      ∀ k1 y, (k1, y) ∈ rest → strLess k k1 = true
  | [], _, _, _, hm => by simp at hm
  | (k2, z) :: rest, h, k1, y, hm => by
    simp [keysAscending] at h
    rcases List.mem_cons.1 hm with heq | hin
    · cases heq; exact h.1
    · exact strLess_trans _ _ _ h.1 (keysAscending_head_lt h.2 k1 y hin)

theorem keysAscending_cons {k : JString} {x : Element} {rest : JObject}
    (hr : keysAscending rest = true) (hlt : ∀ k1 y, (k1, y) ∈ rest → strLess k k1 = true) :
    keysAscending ((k, x) :: rest) = true := by
  cases rest with
  | nil => rfl
  | cons q rest =>
    obtain ⟨k2, y⟩ := q
    simp [keysAscending]
    exact ⟨hlt k2 y (List.mem_cons_self _ _), hr⟩

/-! ## Equality -/

theorem wellFormed_mk {t : ElemType} {o : JObject} {a : JArray} {s : JString} {n : Number}
    {b : Bool} (h : (Element.mk t o a s n b).wellFormed = true) :
    keysAscending o = true ∧ wellFormedMembers o = true ∧ wellFormedItems a = true := by
  rw [Element.wellFormed] at h
  simpa [Bool.and_eq_true, and_assoc] using h

theorem wellFormedItems_mem : ∀ {xs : List Element}, wellFormedItems xs = true →
    ∀ x ∈ xs, x.wellFormed = true
  | [], _, _, hx => by simp at hx
  | y :: ys, h, x, hx => by
    rw [wellFormedItems] at h
    simp only [Bool.and_eq_true] at h
    rcases List.mem_cons.1 hx with rfl | hin
    · exact h.1
    · exact wellFormedItems_mem h.2 x hin

theorem wellFormedMembers_mem : ∀ {xs : JObject}, wellFormedMembers xs = true →
    ∀ k x, (k, x) ∈ xs → x.wellFormed = true
  | [], _, _, _, hx => by simp at hx
  | (k1, y) :: ys, h, k, x, hx => by
    rw [wellFormedMembers] at h
    simp only [Bool.and_eq_true] at h
    rcases List.mem_cons.1 hx with heq | hin
    · cases heq; exact h.1
    · exact wellFormedMembers_mem h.2 k x hin

/-- Equal by position: the reading of `List.Forall₂` through indices. -/
theorem forall₂_get {R : Element → Element → Prop} {xs ys : List Element}
    (h : List.Forall₂ R xs ys) :
    xs.length = ys.length ∧ ∀ i x y, xs.get? i = some x → ys.get? i = some y → R x y := by
  induction h with
  | nil => exact ⟨rfl, fun i x y h => by simp at h⟩
  | cons hab _ ih =>
    obtain ⟨hl, hg⟩ := ih
    refine ⟨by simp [hl], ?_⟩
    intro i x y hx hy
    cases i with
    | zero =>
      simp only [List.get?_cons_zero, Option.some.injEq] at hx hy
      subst hx hy
      exact hab
    | succ i =>
      rw [List.get?_cons_succ] at hx hy
      exact hg i x y hx hy

theorem forall₂_of_get {R : Element → Element → Prop} :
    ∀ (xs ys : List Element), xs.length = ys.length →
      (∀ i x y, xs.get? i = some x → ys.get? i = some y → R x y) → List.Forall₂ R xs ys
  | [], [], _, _ => .nil
  | [], _ :: _, h, _ => by simp at h
  | _ :: _, [], h, _ => by simp at h
  | x :: xs, y :: ys, hl, hg =>
    .cons (hg 0 x y rfl rfl)
      (forall₂_of_get xs ys (by simpa using hl) (fun i a b ha hb => hg (i + 1) a b ha hb))

/-- Entries equal in iteration order, for maps with ascending keys, are entries
with the same key set and related values under each key. -/
theorem forall₂_by_key {R : Element → Element → Prop} {xs ys : JObject}
    (h : List.Forall₂ (fun p q => p.1 = q.1 ∧ R p.2 q.2) xs ys) :
    keysAscending xs = true → keysAscending ys = true →
      (∀ k, (∃ x, (k, x) ∈ xs) ↔ (∃ y, (k, y) ∈ ys)) ∧
      (∀ k x y, (k, x) ∈ xs → (k, y) ∈ ys → R x y) := by
  induction h with
  | nil => exact fun _ _ => ⟨fun k => by simp, fun k x y h => by simp at h⟩
  | @cons p q l1 l2 hpq _ ih =>
    intro h1 h2
    obtain ⟨k1, x1⟩ := p
    obtain ⟨k2, y2⟩ := q
    obtain ⟨hk, hR⟩ := hpq
    simp only at hk hR
    subst hk
    obtain ⟨hset, hval⟩ := ih (keysAscending_tail h1) (keysAscending_tail h2)
    refine ⟨?_, ?_⟩
    · intro k
      constructor
      · rintro ⟨x, hx⟩
        rcases List.mem_cons.1 hx with heq | hin
        · cases heq; exact ⟨y2, List.mem_cons_self _ _⟩
        · obtain ⟨y, hy⟩ := (hset k).1 ⟨x, hin⟩
          exact ⟨y, List.mem_cons_of_mem _ hy⟩
      · rintro ⟨y, hy⟩
        rcases List.mem_cons.1 hy with heq | hin
        · cases heq; exact ⟨x1, List.mem_cons_self _ _⟩
        · obtain ⟨x, hx⟩ := (hset k).2 ⟨y, hin⟩
          exact ⟨x, List.mem_cons_of_mem _ hx⟩
    · intro k x y hx hy
      rcases List.mem_cons.1 hx with heq | hin
      · cases heq
        rcases List.mem_cons.1 hy with heq2 | hin2
        · cases heq2; exact hR
        · have := keysAscending_head_lt h2 _ y hin2
          rw [strLess_irrefl] at this
          cases this
      · rcases List.mem_cons.1 hy with heq2 | hin2
        · cases heq2
          have := keysAscending_head_lt h1 _ x hin
          rw [strLess_irrefl] at this
          cases this
        · exact hval k x y hin hin2

/-- Maps with ascending keys, the same key set and related values under each key
have their entries related in iteration order. -/
theorem forall₂_of_by_key {R : Element → Element → Prop} :
    ∀ (xs ys : JObject), keysAscending xs = true → keysAscending ys = true →
      (∀ k, (∃ x, (k, x) ∈ xs) ↔ (∃ y, (k, y) ∈ ys)) →
      (∀ k x y, (k, x) ∈ xs → (k, y) ∈ ys → R x y) →
      List.Forall₂ (fun p q => p.1 = q.1 ∧ R p.2 q.2) xs ys
  | [], [], _, _, _, _ => .nil
  | [], (k, y) :: _, _, _, hset, _ => by
    have := (hset k).2 ⟨y, List.mem_cons_self _ _⟩
    simp at this
  | (k, x) :: _, [], _, _, hset, _ => by
    have := (hset k).1 ⟨x, List.mem_cons_self _ _⟩
    simp at this
  | (k1, x) :: xs, (k2, y) :: ys, h1, h2, hset, hval => by
    have hk : k1 = k2 := by
      obtain ⟨y1, hy1⟩ := (hset k1).1 ⟨x, List.mem_cons_self _ _⟩
      obtain ⟨x2, hx2⟩ := (hset k2).2 ⟨y, List.mem_cons_self _ _⟩
      rcases List.mem_cons.1 hy1 with heq | hin
      · cases heq; rfl
      · rcases List.mem_cons.1 hx2 with heq2 | hin2
        · cases heq2; rfl
        · have a := keysAscending_head_lt h2 k1 y1 hin
          have b := keysAscending_head_lt h1 k2 x2 hin2
          rw [strLess_asymm _ _ a] at b
          cases b
    subst hk
    refine .cons ⟨rfl, hval k1 x y (List.mem_cons_self _ _) (List.mem_cons_self _ _)⟩ ?_
    refine forall₂_of_by_key xs ys (keysAscending_tail h1) (keysAscending_tail h2) ?_ ?_
    · intro k
      constructor
      · rintro ⟨a, ha⟩
        obtain ⟨b, hb⟩ := (hset k).1 ⟨a, List.mem_cons_of_mem _ ha⟩
        rcases List.mem_cons.1 hb with heq | hin
        · cases heq
          have := keysAscending_head_lt h1 _ a ha
          rw [strLess_irrefl] at this
          cases this
        · exact ⟨b, hin⟩
      · rintro ⟨b, hb⟩
        obtain ⟨a, ha⟩ := (hset k).2 ⟨b, List.mem_cons_of_mem _ hb⟩
        rcases List.mem_cons.1 ha with heq | hin
        · cases heq
          have := keysAscending_head_lt h2 _ b hb
          rw [strLess_irrefl] at this
          cases this
        · exact ⟨a, hin⟩
    · intro k a b ha hb
      exact hval k a b (List.mem_cons_of_mem _ ha) (List.mem_cons_of_mem _ hb)

mutual
theorem eq_sound : ∀ (a b : Element), a.wellFormed = true → b.wellFormed = true →
    a.eq b = true → StructEq a b
  | .mk t1 o1 a1 s1 n1 b1, .mk t2 o2 a2 s2 n2 b2, w1, w2, h => by
    rw [Element.eq] at h
    obtain ⟨k1, m1, i1⟩ := wellFormed_mk w1
    obtain ⟨k2, m2, i2⟩ := wellFormed_mk w2
    have ho := eqObject_sound o1 o2 m1 m2
    have ha := eqArray_sound a1 a2 i1 i2
    cases t1 <;> cases t2 <;> simp at h
    · exact .null rfl rfl
    · obtain ⟨hset, hval⟩ := forall₂_by_key (ho h) k1 k2
      exact .object rfl rfl hset hval
    · obtain ⟨hl, hg⟩ := forall₂_get (ha h)
      exact .array rfl rfl hl hg
    · exact .string rfl rfl h
    · exact .number rfl rfl h
    · exact .boolean rfl rfl h
theorem eqArray_sound : ∀ (xs ys : List Element), wellFormedItems xs = true →
    wellFormedItems ys = true → Element.eqArray xs ys = true → List.Forall₂ StructEq xs ys
  | [], [], _, _, _ => .nil
  | x :: xs, y :: ys, w1, w2, h => by
    rw [Element.eqArray] at h
    rw [wellFormedItems] at w1 w2
    simp only [Bool.and_eq_true] at h w1 w2
    exact .cons (eq_sound x y w1.1 w2.1 h.1) (eqArray_sound xs ys w1.2 w2.2 h.2)
  | [], _ :: _, _, _, h => by simp [Element.eqArray] at h
  | _ :: _, [], _, _, h => by simp [Element.eqArray] at h
theorem eqObject_sound : ∀ (xs ys : JObject), wellFormedMembers xs = true →
    wellFormedMembers ys = true → Element.eqObject xs ys = true →
    List.Forall₂ (fun p q => p.1 = q.1 ∧ StructEq p.2 q.2) xs ys
  | [], [], _, _, _ => .nil
  | (k1, x) :: xs, (k2, y) :: ys, w1, w2, h => by
    rw [Element.eqObject] at h
    rw [wellFormedMembers] at w1 w2
    simp only [Bool.and_eq_true, beq_iff_eq] at h w1 w2
    exact .cons ⟨h.1.1, eq_sound x y w1.1 w2.1 h.1.2⟩ (eqObject_sound xs ys w1.2 w2.2 h.2)
  | [], _ :: _, _, _, h => by simp [Element.eqObject] at h
  | _ :: _, [], _, _, h => by simp [Element.eqObject] at h
end

theorem eqArray_of_forall₂ {xs ys : List Element}
    (h : List.Forall₂ (fun x y => x.eq y = true) xs ys) : Element.eqArray xs ys = true := by
  induction h with
  | nil => rw [Element.eqArray]
  | cons h _ ih => rw [Element.eqArray, h, ih]; rfl

theorem eqObject_of_forall₂ {xs ys : JObject}
    (h : List.Forall₂ (fun p q => p.1 = q.1 ∧ p.2.eq q.2 = true) xs ys) :
    Element.eqObject xs ys = true := by
  induction h with
  | nil => rw [Element.eqObject]
  | @cons p q l1 l2 h _ ih =>
    obtain ⟨k1, x⟩ := p
    obtain ⟨k2, y⟩ := q
    simp only at h
    rw [Element.eqObject, h.1, h.2, ih]
    simp

theorem eq_complete {a b : Element} (h : StructEq a b) :
    a.wellFormed = true → b.wellFormed = true → a.eq b = true := by
  induction h with
  | @null a b ha hb =>
    intro _ _
    obtain ⟨t1, o1, a1, s1, n1, b1⟩ := a
    obtain ⟨t2, o2, a2, s2, n2, b2⟩ := b
    simp only [Element.type] at ha hb
    subst ha hb
    rw [Element.eq]; simp
  | @boolean a b ha hb hp =>
    intro _ _
    obtain ⟨t1, o1, a1, s1, n1, b1⟩ := a
    obtain ⟨t2, o2, a2, s2, n2, b2⟩ := b
    simp only [Element.type, Element._boolean] at ha hb hp
    subst ha hb hp
    rw [Element.eq]; simp
  | @number a b ha hb hp =>
    intro _ _
    obtain ⟨t1, o1, a1, s1, n1, b1⟩ := a
    obtain ⟨t2, o2, a2, s2, n2, b2⟩ := b
    simp only [Element.type, Element._number] at ha hb hp
    subst ha hb
    rw [Element.eq]; simp [hp]
  | @string a b ha hb hp =>
    intro _ _
    obtain ⟨t1, o1, a1, s1, n1, b1⟩ := a
    obtain ⟨t2, o2, a2, s2, n2, b2⟩ := b
    simp only [Element.type, Element._string] at ha hb hp
    subst ha hb hp
    rw [Element.eq]; simp
  | @array a b ha hb hl _ ih =>
    intro w1 w2
    obtain ⟨t1, o1, a1, s1, n1, b1⟩ := a
    obtain ⟨t2, o2, a2, s2, n2, b2⟩ := b
    simp only [Element.type, Element._array] at ha hb hl ih
    subst ha hb
    obtain ⟨_, _, i1⟩ := wellFormed_mk w1
    obtain ⟨_, _, i2⟩ := wellFormed_mk w2
    rw [Element.eq]; simp
    apply eqArray_of_forall₂
    refine forall₂_of_get (R := fun x y => x.eq y = true) a1 a2 hl ?_
    intro i x y hx hy
    exact ih i x y hx hy (wellFormedItems_mem i1 x (List.get?_mem hx))
      (wellFormedItems_mem i2 y (List.get?_mem hy))
  | @object a b ha hb hset _ ih =>
    intro w1 w2
    obtain ⟨t1, o1, a1, s1, n1, b1⟩ := a
    obtain ⟨t2, o2, a2, s2, n2, b2⟩ := b
    simp only [Element.type, Element._object] at ha hb hset ih
    subst ha hb
    obtain ⟨k1, m1, _⟩ := wellFormed_mk w1
    obtain ⟨k2, m2, _⟩ := wellFormed_mk w2
    rw [Element.eq]; simp
    apply eqObject_of_forall₂
    refine forall₂_of_by_key (R := fun x y => x.eq y = true) o1 o2 k1 k2 hset ?_
    intro k x y hx hy
    exact ih k x y hx hy (wellFormedMembers_mem m1 k x hx) (wellFormedMembers_mem m2 k y hy)

theorem eq_of_type_ne (a b : Element) (h : a.type ≠ b.type) : a.eq b = false := by
  obtain ⟨t1, o1, a1, s1, n1, b1⟩ := a
  obtain ⟨t2, o2, a2, s2, n2, b2⟩ := b
  simp only [Element.type] at h
  rw [Element.eq]
  cases t1 <;> cases t2 <;> simp at h ⊢

/-- C9: `operator ==` is structural equality: on values whose object stores are
maps (ascending keys), `a == b` holds exactly when `a` and `b` are structurally
equal in the words of the specification, and two values of different variants
are never equal. -/
theorem eq_structural (a b : Element) (wa : a.wellFormed = true) (wb : b.wellFormed = true) :
    (a.eq b = true ↔ StructEq a b) ∧ (a.type ≠ b.type → a.eq b = false) :=
  ⟨⟨eq_sound a b wa wb, fun h => eq_complete h wa wb⟩, eq_of_type_ne a b⟩

/-- C9 at the sample object, compared with itself and with an array. -/
theorem eq_structural_witness :
    sampleObject.wellFormed = true ∧ StructEq sampleObject sampleObject ∧
    sampleObject.eq (Element.ofArray [sampleObject]) = false :=
  ⟨by decide, (eq_structural sampleObject sampleObject (by decide) (by decide)).1.1 (by decide),
    (eq_structural sampleObject (Element.ofArray [sampleObject]) (by decide) (by decide)).2
      (by decide)⟩

/-! ## Assignment -/

mutual
theorem assign_eq_left : ∀ (b a c : Element), (a.assign b).eq c = b.eq c
  | .mk t o xs s n bb, a, .mk t2 o2 xs2 s2 n2 b2 => by
    have ho := copyObject_eq_left o o2
    have ha := copyArray_eq_left xs xs2
    rw [Element.assign]
    cases t <;> cases t2 <;> simp [Element.eq, ho, ha]
theorem copyArray_eq_left : ∀ (xs ys : List Element),
    Element.eqArray (Element.copyArray xs) ys = Element.eqArray xs ys
  | [], ys => by rw [Element.copyArray]
  | x :: xs, [] => by rw [Element.copyArray]; simp [Element.eqArray]
  | x :: xs, y :: ys => by
    rw [Element.copyArray, Element.eqArray, Element.eqArray, assign_eq_left x _ y,
      copyArray_eq_left xs ys]
theorem copyObject_eq_left : ∀ (xs ys : JObject),
    Element.eqObject (Element.copyObject xs) ys = Element.eqObject xs ys
  | [], ys => by rw [Element.copyObject]
  | (k, x) :: xs, [] => by rw [Element.copyObject]; simp [Element.eqObject]
  | (k, x) :: xs, (k2, y) :: ys => by
    rw [Element.copyObject, Element.eqObject, Element.eqObject, assign_eq_left x _ y,
      copyObject_eq_left xs ys]
end

mutual
theorem assign_eq_right : ∀ (b a c : Element), c.eq (a.assign b) = c.eq b
  | .mk t o xs s n bb, a, .mk t2 o2 xs2 s2 n2 b2 => by
    have ho := copyObject_eq_right o o2
    have ha := copyArray_eq_right xs xs2
    rw [Element.assign]
    cases t <;> cases t2 <;> simp [Element.eq, ho, ha]
theorem copyArray_eq_right : ∀ (xs ys : List Element),
    Element.eqArray ys (Element.copyArray xs) = Element.eqArray ys xs
  | [], ys => by rw [Element.copyArray]
  | x :: xs, [] => by rw [Element.copyArray]; simp [Element.eqArray]
  | x :: xs, y :: ys => by
    rw [Element.copyArray, Element.eqArray, Element.eqArray, assign_eq_right x _ y,
      copyArray_eq_right xs ys]
theorem copyObject_eq_right : ∀ (xs ys : JObject),
    Element.eqObject ys (Element.copyObject xs) = Element.eqObject ys xs
  | [], ys => by rw [Element.copyObject]
  | (k, x) :: xs, [] => by rw [Element.copyObject]; simp [Element.eqObject]
  | (k, x) :: xs, (k2, y) :: ys => by
    rw [Element.copyObject, Element.eqObject, Element.eqObject, assign_eq_right x _ y,
      copyObject_eq_right xs ys]
end

/-- The members that `assign` gives `*this` from a source `b` whose inactive
stores are empty: the variant of `b` and its payload (the stored scalar or string
of `b`, the element-wise copy of its container; the result and `b` compare alike
with every value), and every store other than the active one is empty. -/
theorem assign_stores (a b : Element) (hb : b.inactiveEmpty = true) :
    (a.assign b).type = b.type ∧
    (∀ c, (a.assign b).eq c = b.eq c ∧ c.eq (a.assign b) = c.eq b) ∧
    (b.type = .OBJECT → (a.assign b)._object = Element.copyObject b._object) ∧
    (b.type = .ARRAY → (a.assign b)._array = Element.copyArray b._array) ∧
    (b.type = .STRING → (a.assign b)._string = b._string) ∧
    (b.type = .NUMBER → (a.assign b)._number = b._number) ∧
    (b.type = .BOOLEAN → (a.assign b)._boolean = b._boolean) ∧
    (a.assign b).inactiveEmpty = true := by
  refine ⟨?_, fun c => ⟨assign_eq_left b a c, assign_eq_right b a c⟩, ?_, ?_, ?_, ?_, ?_, ?_⟩
  all_goals
    obtain ⟨t, o, xs, s, n, bb⟩ := b
    rw [Element.assign]
    cases t <;>
      simp_all [Element.type, Element._object, Element._array, Element._string,
        Element._number, Element._boolean, Element.inactiveEmpty]

/-- C10: the assignment `a = b` has no defined result when `b` is an element held
in a container of `a`, at any depth: every branch of `operator =` destroys `b`
before `type = r.type` reads it, so `a` does not get the variant of `b` and `b`
does not stay as it was.  So it is for `a = a.object()["k"]` with `a` the Object
`{"k":{}}`, whose member `k` has empty inactive stores; assigned from an Object
`{}` apart from `a`, the same `a` becomes `{}`.  In the other cases the claim
holds: for any destination `a` and a source `b` that is no part of `a` and has
empty inactive stores, `a` gets the variant of `b` and its payload (the stored
scalar or string of `b`, the element-wise copy of its container; `a` and `b`
compare alike with every value), every store of `a` other than the active one is
empty and `b` is as before; self-assignment leaves the value as it is. -/
theorem assign_from_part :
    (∀ (a : Element) (st : Step) (p : NodePtr),
      a.operator_assign (.part (st :: p)) = .undefined) ∧
    (deref (Element.ofObject [([107], Element.ofObject [])]) [.member [107]]
        = some (Element.ofObject []) ∧
      (Element.ofObject []).inactiveEmpty = true ∧
      (Element.ofObject [([107], Element.ofObject [])]).operator_assign
          (.part [.member [107]]) = .undefined ∧
      (Element.ofObject [([107], Element.ofObject [])]).operator_assign
          (.other (Element.ofObject [])) = .value (Element.ofObject []) (Element.ofObject [])) ∧
    (∀ a b : Element, b.inactiveEmpty = true →
      ∃ x, a.operator_assign (.other b) = .value x b ∧
        x.type = b.type ∧
        (∀ c, x.eq c = b.eq c ∧ c.eq x = c.eq b) ∧
        (b.type = .OBJECT → x._object = Element.copyObject b._object) ∧
        (b.type = .ARRAY → x._array = Element.copyArray b._array) ∧
        (b.type = .STRING → x._string = b._string) ∧
        (b.type = .NUMBER → x._number = b._number) ∧
        (b.type = .BOOLEAN → x._boolean = b._boolean) ∧
        x.inactiveEmpty = true) ∧
    (∀ a : Element, a.operator_assign (.part []) = .value a a) :=
  ⟨fun _ _ _ => rfl, ⟨by rfl, by rfl, rfl, by rfl⟩,
    fun a b hb => ⟨a.assign b, rfl, assign_stores a b hb⟩, fun _ => rfl⟩

/-! ## Compact and indented rendering -/

theorem lastKey_cons (p : JString × Element) (q : JString × Element) (rest : JObject) :
    lastKey (p :: q :: rest) = lastKey (q :: rest) := by
  obtain ⟨k, x⟩ := p
  rw [lastKey]
  simp

theorem lastKey_mem : ∀ (p : JString × Element) (rest : JObject),
    ∃ y, (lastKey (p :: rest), y) ∈ p :: rest
  | (k, x), [] => ⟨x, by simp [lastKey]⟩
  | p, q :: rest => by
    obtain ⟨y, hy⟩ := lastKey_mem q rest
    rw [lastKey_cons]
    exact ⟨y, List.mem_cons_of_mem _ hy⟩

theorem key_ne_lastKey {k : JString} {x : Element} {q : JString × Element} {rest : JObject}
    (h : keysAscending ((k, x) :: q :: rest) = true) : k ≠ lastKey (q :: rest) := by
  obtain ⟨y, hy⟩ := lastKey_mem q rest
  have hlt := keysAscending_head_lt h _ y hy
  intro he
  rw [← he, strLess_irrefl] at hlt
  cases hlt

theorem wellFormedItems_cons {x : Element} {rest : List Element}
    (h : wellFormedItems (x :: rest) = true) :
    x.wellFormed = true ∧ wellFormedItems rest = true := by
  rw [wellFormedItems] at h
  simpa using h

theorem wellFormedMembers_cons {k : JString} {x : Element} {rest : JObject}
    (h : wellFormedMembers ((k, x) :: rest) = true) :
    x.wellFormed = true ∧ wellFormedMembers rest = true := by
  rw [wellFormedMembers] at h
  simpa using h

mutual
theorem serialize_compact : ∀ (x : Element) (i : Int), i < 0 → x.wellFormed = true →
    serialize x i = compactText x
  | .mk t o a s n b, i, hi, w => by
    obtain ⟨ka, wm, wi⟩ := wellFormed_mk w
    have hm := serializeMembers_compact o (lastKey o) i hi ka wm rfl
    have hitems := serializeItems_compact a i hi wi
    rw [serialize]
    cases t <;> simp [compactText]
    · cases o with
      | nil => simp
      | cons p rest => simp [hm (List.cons_ne_nil _ _), hi, spaces, lit]
    · cases a with
      | nil => simp
      | cons y rest => simp [hitems (List.cons_ne_nil _ _), hi, lit]
theorem serializeItems_compact : ∀ (xs : List Element) (i : Int), i < 0 →
    wellFormedItems xs = true → xs ≠ [] →
    serializeItems xs i = joinWith (lit ", ") (compactItems xs) ++ [0x20]
  | [], _, _, _, h => absurd rfl h
  | [x], i, hi, w, _ => by
    have hx := serialize_compact x (-2) (by omega) (wellFormedItems_cons w).1
    rw [serializeItems, serializeItems, compactItems, compactItems]
    simp [hi, hx, joinWith]
  | x :: y :: rest, i, hi, w, _ => by
    have hx := serialize_compact x (-2) (by omega) (wellFormedItems_cons w).1
    have hr := serializeItems_compact (y :: rest) i hi (wellFormedItems_cons w).2
      (List.cons_ne_nil _ _)
    rw [serializeItems, hr, compactItems, compactItems]
    simp [hi, hx, lit, compactItems, joinWith]
theorem serializeMembers_compact : ∀ (ms : JObject) (last : JString) (i : Int), i < 0 →
    keysAscending ms = true → wellFormedMembers ms = true → last = lastKey ms → ms ≠ [] →
    serializeMembers ms last i = joinWith (lit ", ") (compactMembers ms) ++ [0x20]
  | [], _, _, _, _, _, _, h => absurd rfl h
  | [(k, x)], last, i, hi, _, w, hl, _ => by
    have hx := serialize_compact x (-2) (by omega) (wellFormedMembers_cons w).1
    rw [serializeMembers, serializeMembers, compactMembers, compactMembers]
    simp [hi, hx, hl, lastKey, spaces, lit, joinWith]
  | (k, x) :: (k2, y) :: rest, last, i, hi, ka, w, hl, _ => by
    have hx := serialize_compact x (-2) (by omega) (wellFormedMembers_cons w).1
    rw [lastKey_cons] at hl
    have hr := serializeMembers_compact ((k2, y) :: rest) last i hi (keysAscending_tail ka)
      (wellFormedMembers_cons w).2 hl (List.cons_ne_nil _ _)
    have hne : k ≠ last := hl ▸ key_ne_lastKey ka
    rw [serializeMembers, hr, compactMembers, compactMembers]
    simp [hi, hx, hne, spaces, lit, joinWith]
end

/-- C5: compact serialization of a value whose object stores are maps equals
the reference rendering: the entries of a non-empty container, in the order of
the container, joined by `", "` between the bracket with one interior space on
each side. -/
theorem compact_rendering (x : Element) (w : x.wellFormed = true) :
    serializeToString x false = compactText x := by
  unfold serializeToString
  exact serialize_compact x (-1) (by decide) w

/-- C5 at an array that holds the same element three times, next to an object. -/
theorem compact_rendering_witness :
    (Element.ofArray [Element.ofNumber (.finite false 5 0), Element.ofNumber (.finite false 5 0),
      Element.ofNumber (.finite false 5 0), sampleObject]).wellFormed = true ∧
    serializeToString
      (Element.ofArray [Element.ofNumber (.finite false 5 0),
        Element.ofNumber (.finite false 5 0), Element.ofNumber (.finite false 5 0),
        sampleObject]) false
      = lit "[ 5, 5, 5, \x7b \"a\": true, \"b\": [ \"x\", 5 ] \x7d ]" :=
  ⟨by decide, (compact_rendering _ (by decide)).trans (by decide)⟩

theorem spaces_two_mul (d : Nat) : spaces (2 * (d : Int)) = List.replicate (2 * d) 0x20 := by
  unfold spaces
  have : (2 * (d : Int)).toNat = 2 * d := by omega
  rw [this]; rfl

mutual
theorem serialize_indented : ∀ (x : Element) (d : Nat), x.wellFormed = true →
    serialize x (2 * (d : Int)) = indentedText d x
  | .mk t o a s n b, d, w => by
    obtain ⟨ka, wm, wi⟩ := wellFormed_mk w
    have hm := serializeMembers_indented o (lastKey o) d ka wm rfl
    have hitems := serializeItems_indented a d wi
    have hd : ¬ (2 * (d : Int) < 0) := by omega
    rw [serialize]
    cases t <;> simp [indentedText]
    · cases o with
      | nil => simp
      | cons p rest => simp [hm (List.cons_ne_nil _ _), hd, spaces_two_mul, lit]
    · cases a with
      | nil => simp
      | cons y rest => simp [hitems (List.cons_ne_nil _ _), hd, spaces_two_mul, lit]
theorem serializeItems_indented : ∀ (xs : List Element) (d : Nat),
    wellFormedItems xs = true → xs ≠ [] →
    serializeItems xs (2 * (d : Int)) = joinWith (lit ",\n") (indentedItems d xs) ++ [0x0A]
  | [], _, _, h => absurd rfl h
  | [x], d, w, _ => by
    have hx := serialize_indented x (d + 1) (wellFormedItems_cons w).1
    have hd : ¬ (2 * (d : Int) < 0) := by omega
    have e : 2 * (d : Int) + 2 = 2 * ((d + 1 : Nat) : Int) := by push_cast; ring
    rw [serializeItems, serializeItems, indentedItems, indentedItems]
    simp only [hd, if_false, e, hx, spaces_two_mul]
    simp [joinWith]
  | x :: y :: rest, d, w, _ => by
    have hx := serialize_indented x (d + 1) (wellFormedItems_cons w).1
    have hr := serializeItems_indented (y :: rest) d (wellFormedItems_cons w).2
      (List.cons_ne_nil _ _)
    have hd : ¬ (2 * (d : Int) < 0) := by omega
    have e : 2 * (d : Int) + 2 = 2 * ((d + 1 : Nat) : Int) := by push_cast; ring
    rw [serializeItems, hr, indentedItems, indentedItems]
    simp only [hd, if_false, e, hx, spaces_two_mul]
    simp [joinWith, lit, indentedItems]
theorem serializeMembers_indented : ∀ (ms : JObject) (last : JString) (d : Nat),
    keysAscending ms = true → wellFormedMembers ms = true → last = lastKey ms → ms ≠ [] →
    serializeMembers ms last (2 * (d : Int))
      = joinWith (lit ",\n") (indentedMembers d ms) ++ [0x0A]
  | [], _, _, _, _, _, h => absurd rfl h
  | [(k, x)], last, d, _, w, hl, _ => by
    have hx := serialize_indented x (d + 1) (wellFormedMembers_cons w).1
    have hd : ¬ (2 * (d : Int) < 0) := by omega
    have e : 2 * (d : Int) + 2 = 2 * ((d + 1 : Nat) : Int) := by push_cast; ring
    rw [serializeMembers, serializeMembers, indentedMembers, indentedMembers]
    simp only [hd, if_false, e, hx, spaces_two_mul]
    simp [joinWith, hl, lastKey, lit]
  | (k, x) :: (k2, y) :: rest, last, d, ka, w, hl, _ => by
    have hx := serialize_indented x (d + 1) (wellFormedMembers_cons w).1
    rw [lastKey_cons] at hl
    have hr := serializeMembers_indented ((k2, y) :: rest) last d (keysAscending_tail ka)
      (wellFormedMembers_cons w).2 hl (List.cons_ne_nil _ _)
    have hne : k ≠ last := hl ▸ key_ne_lastKey ka
    have hd : ¬ (2 * (d : Int) < 0) := by omega
    have e : 2 * (d : Int) + 2 = 2 * ((d + 1 : Nat) : Int) := by push_cast; ring
    rw [serializeMembers, hr, indentedMembers, indentedMembers]
    simp only [hd, if_false, e, hx, spaces_two_mul]
    simp [joinWith, hne, lit]
end

/-- C6: indented serialization (root indent 0) of a value whose object stores
are maps equals the reference rendering at depth 0: every entry of a non-empty
container at depth `d` on its own line behind `2 * (d + 1)` spaces, commas
after all entries but the last, the closing bracket behind `2 * d` spaces. -/
theorem indented_rendering (x : Element) (w : x.wellFormed = true) :
    serializeToString x true = indentedText 0 x := by
  unfold serializeToString
  exact serialize_indented x 0 w

/-- C6 at the array `[null,"str",{},false,5]` of the test suite. -/
theorem indented_rendering_witness :
    (Element.ofArray [Element.ofType .NULL_VALUE, Element.ofString (lit "str"),
      Element.ofObject [], Element.ofBool false,
      Element.ofNumber (.finite false 5 0)]).wellFormed = true ∧
    serializeToString
      (Element.ofArray [Element.ofType .NULL_VALUE, Element.ofString (lit "str"),
        Element.ofObject [], Element.ofBool false, Element.ofNumber (.finite false 5 0)]) true
      = lit "[\n  null,\n  \"str\",\n  \x7b\x7d,\n  false,\n  5\n]" :=
  ⟨by decide, (indented_rendering _ (by decide)).trans (by decide)⟩

/-! ## The string scanner reads back what `serializeString` writes -/

set_option maxRecDepth 100000 in
theorem stoi16_hex_byte : ∀ c < 256,
    stoi16 [48, 48, hexChar (c / 16), hexChar (c % 16)] = some ((c : Int), 4) := by
  decide

theorem parseHexBuf_hex_byte (c : Nat) (h : c < 256) (line : Int) :
    parseHexBuf [48, 48, hexChar (c / 16), hexChar (c % 16)] line = .ok c := by
  unfold parseHexBuf
  rw [stoi16_hex_byte c h]
  have h1 : ¬ ((c : Int) < 0 ∨ (4 : Nat) ≠ 4) := by omega
  have h2 : ¬ ((c : Int) > 0xff) := by omega
  have h3 : (c : Int).toNat % 256 = c := by omega
  simp only [h1, h2, if_false, h3]

theorem parseStringLoop_escaped (line : Int) (c : Nat) (rest os : List Nat) (last : Nat)
    (hu : c ≠ 117) :
    parseStringLoop line (c :: rest) true os last =
      if c = 92 then parseStringLoop line rest false (os ++ [92]) c
      else if c = 34 then parseStringLoop line rest false (os ++ [34]) c
      else if c = 110 then parseStringLoop line rest false (os ++ [10]) c
      else if c = 114 then parseStringLoop line rest false (os ++ [13]) c
      else if c = 116 then parseStringLoop line rest false (os ++ [9]) c
      else if c = 102 then parseStringLoop line rest false (os ++ [12]) c
      else if c = 98 then parseStringLoop line rest false (os ++ [8]) c
      else if c = 47 then parseStringLoop line rest false (os ++ [47]) c
      else .error ⟨"Illegal string escape sequence", line, c⟩ := by
  rw [parseStringLoop.eq_def]
  simp [hu]

theorem parseStringLoop_unicode (line : Int) (b0 b1 b2 b3 v : Nat) (rest os : List Nat)
    (last : Nat) (h : parseHexBuf [b0, b1, b2, b3] line = .ok v) :
    parseStringLoop line (117 :: b0 :: b1 :: b2 :: b3 :: rest) true os last
      = parseStringLoop line rest false (os ++ [v]) 117 := by
  rw [parseStringLoop.eq_def]
  simp [h]

theorem parseStringLoop_plain (line : Int) (c : Nat) (rest os : List Nat) (last : Nat) :
    parseStringLoop line (c :: rest) false os last =
      if c = 34 then .ok (os, rest)
      else if c = 92 then parseStringLoop line rest true os c
      else if isControl c then .error ⟨"Control character in string.", line, c⟩
      else parseStringLoop line rest false (os ++ [c]) c := by
  rw [parseStringLoop.eq_def]
  simp

theorem parseStringLoop_named (line : Int) (e d : Nat) (rest os : List Nat) (last : Nat)
    (h : (e, d) ∈ [(92, 92), (34, 34), (110, 10), (114, 13), (116, 9), (102, 12), (98, 8)]) :
    parseStringLoop line (92 :: e :: rest) false os last
      = parseStringLoop line rest false (os ++ [d]) e := by
  simp only [List.mem_cons, Prod.mk.injEq, List.mem_singleton, List.not_mem_nil, or_false] at h
  rcases h with ⟨rfl, rfl⟩ | ⟨rfl, rfl⟩ | ⟨rfl, rfl⟩ | ⟨rfl, rfl⟩ | ⟨rfl, rfl⟩ | ⟨rfl, rfl⟩ |
    ⟨rfl, rfl⟩ <;>
  · rw [parseStringLoop_plain, parseStringLoop_escaped _ _ _ _ _ (by decide)]
    simp

theorem parseStringLoop_serializeChar (line : Int) (c : Nat) (hc : c < 256)
    (rest os : List Nat) (last : Nat) :
    ∃ last1, parseStringLoop line (serializeChar c ++ rest) false os last
      = parseStringLoop line rest false (os ++ [c]) last1 := by
  have e1 : lit "\\\\" = [92, 92] := rfl
  have e2 : lit "\\\"" = [92, 34] := rfl
  have e3 : lit "\\n" = [92, 110] := rfl
  have e4 : lit "\\r" = [92, 114] := rfl
  have e5 : lit "\\t" = [92, 116] := rfl
  have e6 : lit "\\f" = [92, 102] := rfl
  have e7 : lit "\\b" = [92, 98] := rfl
  have e8 : lit "\\u" = [92, 117] := rfl
  unfold serializeChar
  simp only [e1, e2, e3, e4, e5, e6, e7, e8, showHex4_byte c hc]
  have c1 : '\\'.toNat = 92 := rfl
  have c2 : '"'.toNat = 34 := rfl
  have c3 : '\n'.toNat = 10 := rfl
  have c4 : '\r'.toNat = 13 := rfl
  have c5 : '\t'.toNat = 9 := rfl
  rw [c1, c2, c3, c4, c5]
  by_cases h1 : c = 92
  · subst h1; exact ⟨_, parseStringLoop_named line 92 92 rest os last (by simp)⟩
  by_cases h2 : c = 34
  · subst h2; exact ⟨_, parseStringLoop_named line 34 34 rest os last (by simp)⟩
  by_cases h3 : c = 10
  · subst h3; exact ⟨_, parseStringLoop_named line 110 10 rest os last (by simp)⟩
  by_cases h4 : c = 13
  · subst h4; exact ⟨_, parseStringLoop_named line 114 13 rest os last (by simp)⟩
  by_cases h5 : c = 9
  · subst h5; exact ⟨_, parseStringLoop_named line 116 9 rest os last (by simp)⟩
  by_cases h6 : c = 12
  · subst h6; exact ⟨_, parseStringLoop_named line 102 12 rest os last (by simp)⟩
  by_cases h7 : c = 8
  · subst h7; exact ⟨_, parseStringLoop_named line 98 8 rest os last (by simp)⟩
  simp only [h1, h2, h3, h4, h5, h6, h7, if_false]
  split
  · refine ⟨117, ?_⟩
    simp only [List.cons_append, List.nil_append, parseStringLoop_plain]
    rw [parseStringLoop_unicode _ _ _ _ _ c _ _ _ (parseHexBuf_hex_byte c hc line)]
    simp
  · refine ⟨c, ?_⟩
    have hn : isControl c = false := by
      simp only [isControl, Bool.or_eq_false_iff, Bool.and_eq_false_iff, decide_eq_false_iff_not,
        beq_eq_false_iff_ne]
      omega
    simp [parseStringLoop_plain, hn, h1, h2]

/-- The scanner on the text `serializeString` writes after the opening quote. -/
theorem parseStringLoop_serializeChars (line : Int) :
    ∀ (s : JString), IsBytes s → ∀ (rest os : List Nat) (last : Nat),
      parseStringLoop line (serializeChars s ++ 34 :: rest) false os last = .ok (os ++ s, rest)
  | [], _, rest, os, last => by
    simp [serializeChars, parseStringLoop_plain]
  | c :: s, h, rest, os, last => by
    have hc : c < 256 := h c (List.mem_cons_self _ _)
    have hs : IsBytes s := fun b hb => h b (List.mem_cons_of_mem _ hb)
    obtain ⟨last1, e⟩ :=
      parseStringLoop_serializeChar line c hc (serializeChars s ++ 34 :: rest) os last
    rw [serializeChars, List.append_assoc, e, parseStringLoop_serializeChars line s hs]
    simp

/-! ## The loop of the parser: fuel -/

theorem whileRead_nil (n : Nat) (p : Parser) (h : p.stream = []) :
    whileRead (n + 1) p = .done p := by
  rw [whileRead]; simp [h]

theorem whileRead_cons (n : Nat) (p : Parser) (c : Nat) (rest : List Nat)
    (h : p.stream = c :: rest) :
    whileRead (n + 1) p = redo n { p with in_ := c, stream := rest } := by
  rw [whileRead]; simp [h]

theorem redo_succ (n : Nat) (p : Parser) : redo (n + 1) p = (body p).run n := by
  rw [redo]
  cases body p <;> rfl

/-- More fuel does not change a result. -/
theorem fuel_mono : ∀ (n : Nat),
    (∀ p r, whileRead n p = r → r ≠ .outOfFuel → whileRead (n + 1) p = r) ∧
    (∀ p r, redo n p = r → r ≠ .outOfFuel → redo (n + 1) p = r)
  | 0 => by
    constructor
    · intro p r h hr; rw [whileRead] at h; exact absurd h.symm hr
    · intro p r h hr; rw [redo] at h; exact absurd h.symm hr
  | n + 1 => by
    obtain ⟨ihw, ihr⟩ := fuel_mono n
    constructor
    · intro p r h hr
      cases hs : p.stream with
      | nil => rw [whileRead_nil _ _ hs] at h ⊢; exact h
      | cons c rest =>
        rw [whileRead_cons _ _ _ _ hs] at h ⊢
        exact ihr _ _ h hr
    · intro p r h hr
      rw [redo_succ] at h ⊢
      cases hb : body p with
      | continue_ q => rw [hb] at h; exact ihw _ _ h hr
      | redo q => rw [hb] at h; exact ihr _ _ h hr
      | throw e q => rw [hb] at h; exact h
      | undefined => rw [hb] at h; exact h

theorem whileRead_mono {n m : Nat} {p : Parser} {r : Outcome} (h : whileRead n p = r)
    (hr : r ≠ .outOfFuel) (hm : n ≤ m) : whileRead m p = r := by
  induction hm with
  | refl => exact h
  | step _ ih => exact (fuel_mono _).1 _ _ ih hr

theorem redo_mono {n m : Nat} {p : Parser} {r : Outcome} (h : redo n p = r)
    (hr : r ≠ .outOfFuel) (hm : n ≤ m) : redo m p = r := by
  induction hm with
  | refl => exact h
  | step _ ih => exact (fuel_mono _).2 _ _ ih hr

/-! ## The scanners consume input -/

theorem parseStringLoop_length (line : Int) : ∀ (n : Nat) (s : List Nat) (esc : Bool)
    (os : List Nat) (last : Nat) (str rest : List Nat), s.length ≤ n →
    parseStringLoop line s esc os last = .ok (str, rest) → rest.length < s.length
  | _, [], _, _, _, _, _, _, h => by
    rw [parseStringLoop] at h; cases h
  | 0, _ :: _, _, _, _, _, _, hn, _ => by simp at hn
  | n + 1, c :: s, false, os, last, str, rest, hn, h => by
    have hn1 : s.length ≤ n := by simpa using hn
    rw [parseStringLoop_plain] at h
    split at h
    · cases h; simp
    · split at h
      · have := parseStringLoop_length line n s true os c str rest hn1 h
        simp; omega
      · split at h
        · cases h
        · have := parseStringLoop_length line n s false _ c str rest hn1 h
          simp; omega
  | n + 1, c :: s, true, os, last, str, rest, hn, h => by
    have hn1 : s.length ≤ n := by simpa using hn
    by_cases hu : c = 117
    · subst hu
      match s, hn1, h with
      | b0 :: b1 :: b2 :: b3 :: s4, hn1, h =>
        cases hb : parseHexBuf [b0, b1, b2, b3] line with
        | error e =>
          rw [parseStringLoop.eq_def] at h
          simp [hb] at h
        | ok v =>
          rw [parseStringLoop_unicode _ _ _ _ _ v _ _ _ hb] at h
          have := parseStringLoop_length line n s4 false _ 117 str rest
            (by simp at hn1; omega) h
          simp; omega
      | [], _, h => rw [parseStringLoop.eq_def] at h; simp at h
      | [_], _, h => rw [parseStringLoop.eq_def] at h; simp at h
      | [_, _], _, h => rw [parseStringLoop.eq_def] at h; simp at h
      | [_, _, _], _, h => rw [parseStringLoop.eq_def] at h; simp at h
    · rw [parseStringLoop_escaped _ _ _ _ _ hu] at h
      repeat' split at h
      all_goals first
        | cases h
        | (have hl := parseStringLoop_length line n s false _ c str rest hn1 h
           simp; omega)

theorem parseString_length {line : Int} {s str rest : List Nat}
    (h : parseString s line = .ok (str, rest)) : rest.length < s.length :=
  parseStringLoop_length line s.length s false [] 0 str rest (Nat.le_refl _) h

theorem parseNumberLoop_length : ∀ (s os : List Nat),
    (parseNumberLoop s os).2.2.length ≤ s.length
  | [], os => by simp [parseNumberLoop]
  | c :: s, os => by
    rw [parseNumberLoop]
    split
    · have := parseNumberLoop_length s (os ++ [c])
      simp; omega
    · simp

theorem parseNumber_length {s : List Nat} {first : Nat} {num : Number} {line : Int}
    {num1 : Number} {extra : Nat} {rest : List Nat}
    (h : parseNumber s first num line = (num1, .ok (extra, rest))) :
    rest.length ≤ s.length := by
  unfold parseNumber at h
  have hl := parseNumberLoop_length s [first]
  rcases hp : parseNumberLoop s [first] with ⟨os, ex, r⟩
  rw [hp] at h hl
  simp only at h hl
  split at h
  · split at h
    · cases h
    · cases h; exact hl
  · cases h
  · cases h

theorem parseWord_length {word : JString} {msg : String} {s : List Nat} {line : Int}
    {rest : List Nat} (h : parseWord word msg s line = .ok ((), rest)) :
    rest.length ≤ s.length := by
  unfold parseWord at h
  split at h
  · cases h
  · cases h; simp

theorem parsePrimitive_length {s : List Nat} {first : Nat} {el el1 : Element} {line : Int}
    {extra : Nat} {rest : List Nat}
    (h : parsePrimitive s first el line = (el1, .ok (extra, rest))) :
    rest.length ≤ s.length := by
  unfold parsePrimitive at h
  split at h
  · cases hw : parseNull s line with
    | error e => rw [hw] at h; cases h
    | ok v => rw [hw] at h; obtain ⟨u, r⟩ := v; cases h; exact parseWord_length hw
  · split at h
    · cases hw : parseTrue s line with
      | error e => rw [hw] at h; cases h
      | ok v => rw [hw] at h; obtain ⟨u, r⟩ := v; cases h; exact parseWord_length hw
    · split at h
      · cases hw : parseFalse s line with
        | error e => rw [hw] at h; cases h
        | ok v => rw [hw] at h; obtain ⟨u, r⟩ := v; cases h; exact parseWord_length hw
      · split at h
        · rcases he : el.assign (Element.ofType .STRING) with ⟨t, o, a, ss, n, b⟩
          rw [he] at h
          simp only at h
          cases hw : parseString s line with
          | error e => rw [hw] at h; cases h
          | ok v =>
            rw [hw] at h; obtain ⟨u, r⟩ := v; cases h
            exact Nat.le_of_lt (parseString_length hw)
        · split at h
          · rcases he : el.assign (Element.ofType .NUMBER) with ⟨t, o, a, ss, n, b⟩
            rw [he] at h
            simp only at h
            rcases hw : parseNumber s first n line with ⟨num, r⟩
            rw [hw] at h
            simp only [Prod.mk.injEq] at h
            obtain ⟨_, h2⟩ := h
            subst h2
            exact parseNumber_length hw
          · cases h

theorem skipToEol_length : ∀ (s : List Nat) (line : Int),
    (skipToEol s line).2.length ≤ s.length
  | [], _ => by simp [skipToEol]
  | c :: s, line => by
    rw [skipToEol]
    split
    · simp
    · have := skipToEol_length s line
      simp; omega

theorem skipLineComment_length {s : List Nat} {line line1 : Int} {rest : List Nat}
    (h : skipLineComment s line = .ok (line1, rest)) : rest.length < s.length := by
  unfold skipLineComment at h
  cases s with
  | nil => cases h
  | cons c s =>
    simp only at h
    split at h
    · cases h
    · have := skipToEol_length s line
      simp only [Except.ok.injEq] at h
      rw [h] at this
      simp at this ⊢; omega

/-! ## One pass through the loop body never gives input back -/

theorem beginValue_stream (p : Parser) :
    (∀ q, beginValue p = .continue_ q → q.stream = p.stream) ∧
    (∀ q, beginValue p = .redo q →
      q.state = .S_POST_ELEMENT ∧ q.stream.length ≤ p.stream.length) := by
  unfold beginValue
  constructor
  · intro q h
    split at h
    · cases h
    · split at h
      · cases h
      · split at h
        · split at h
          · cases h
          · cases h; rfl
        · split at h
          · split at h
            · cases h
            · cases h; rfl
          · split at h
            · split at h <;> cases h
            · split at h <;> cases h
  · intro q h
    split at h
    · cases h
    · split at h
      · cases h
      · split at h
        · split at h <;> cases h
        · split at h
          · split at h <;> cases h
          · split at h
            · split at h <;> cases h
            · rename_i hpp
              split at h
              · cases h
              · cases h
                exact ⟨rfl, parsePrimitive_length hpp⟩

theorem preElement_stream (p : Parser) :
    (∀ q, preElement p = .continue_ q → q.stream = p.stream) ∧
    (∀ q, preElement p = .redo q →
      q.state = .S_POST_ELEMENT ∧ q.stream.length ≤ p.stream.length) := by
  unfold preElement
  constructor
  · intro q h
    split at h
    · cases h
    · split at h
      · cases h
      · split at h
        · have hb := (beginValue_stream _).1 q h
          exact hb
        · split at h
          · split at h
            · cases h
            · split at h
              split at h
              · cases h
              · have hb := (beginValue_stream _).1 q h
                exact hb
          · split at h
            · split at h
              split at h
              · cases h
              · have hb := (beginValue_stream _).1 q h
                exact hb
            · have hb := (beginValue_stream _).1 q h
              exact hb
  · intro q h
    split at h
    · cases h
    · split at h
      · cases h
      · split at h
        · have hb := (beginValue_stream _).2 q h
          exact hb
        · split at h
          · split at h
            · cases h; exact ⟨rfl, Nat.le_refl _⟩
            · split at h
              split at h
              · cases h
              · have hb := (beginValue_stream _).2 q h
                exact hb
          · split at h
            · split at h
              split at h
              · cases h
              · have hb := (beginValue_stream _).2 q h
                exact hb
            · have hb := (beginValue_stream _).2 q h
              exact hb

theorem postElement_stream (p : Parser) :
    (∀ q, postElement p = .continue_ q → q.stream = p.stream) ∧
    (∀ q, postElement p ≠ .redo q) := by
  unfold postElement
  constructor
  · intro q h
    split at h
    · cases h
    · split at h
      · cases h
      · split at h
        · cases h; rfl
        · split at h
          · split at h
            · cases h
            · cases h; rfl
          · split at h
            · split at h
              · cases h
              · cases h; rfl
            · cases h
  · intro q h
    split at h
    · cases h
    · split at h
      · cases h
      · split at h
        · cases h
        · split at h
          · split at h <;> cases h
          · split at h
            · split at h <;> cases h
            · cases h

theorem body_slash_ok {p : Parser} {line : Int} {rest : List Nat} (h : p.in_ = 47)
    (hs : skipLineComment p.stream p.line = .ok (line, rest)) :
    body p = .continue_ { p with stream := rest, line := line } := by
  have c1 : '/'.toNat = 47 := rfl
  simp [body, c1, h, hs]

theorem body_slash_error {p : Parser} {e : SyntaxError} (h : p.in_ = 47)
    (hs : skipLineComment p.stream p.line = .error e) : body p = .throw e p := by
  have c1 : '/'.toNat = 47 := rfl
  simp [body, c1, h, hs]

theorem body_white {p : Parser} (h : isWhite p.in_ = true) :
    body p = .continue_
      { p with line := if p.in_ = 10 ∨ p.in_ = 13 then p.line + 1 else p.line } := by
  have h1 : p.in_ = 32 ∨ p.in_ = 13 ∨ p.in_ = 10 ∨ p.in_ = 9 := by
    simp [isWhite] at h; omega
  obtain ⟨stream, state, root, nodes, key, line, c⟩ := p
  simp only at h1
  rcases h1 with h2 | h2 | h2 | h2 <;> subst h2 <;> simp [body]

theorem body_state {p : Parser} (h47 : p.in_ ≠ 47) (hw : isWhite p.in_ = false) :
    body p = match p.state with
      | .S_PRE_KEY =>
        if p.in_ = 34 then
          match parseString p.stream p.line with
          | .error e => .throw e p
          | .ok (key, rest) =>
            .continue_ { p with key := key, stream := rest, state := .S_PRE_SEP }
        else if p.in_ = 125 then .redo { p with state := .S_POST_ELEMENT }
        else .throw ⟨"Expected key or closing bracket.", p.line, p.in_⟩ p
      | .S_PRE_SEP =>
        if p.in_ ≠ 58 then
          .throw ⟨"Expected ':' separating key and value.", p.line, p.in_⟩ p
        else .continue_ { p with state := .S_PRE_ELEMENT }
      | .S_PRE_ELEMENT => preElement p
      | .S_POST_ELEMENT => postElement p := by
  have h1 : ¬ (p.in_ = 32 ∨ p.in_ = 13 ∨ p.in_ = 10 ∨ p.in_ = 9) := by
    simp [isWhite] at hw; omega
  have hnl : ¬ (p.in_ = 10 ∨ p.in_ = 13) := by omega
  unfold body
  simp only [Char.reduceToNat, h47, hnl, h1, if_false]

theorem body_stream (p : Parser) :
    (∀ q, body p = .continue_ q → q.stream.length ≤ p.stream.length) ∧
    (∀ q, body p = .redo q → q.state = .S_POST_ELEMENT ∧ q.stream.length ≤ p.stream.length ∧
      p.state ≠ .S_POST_ELEMENT) := by
  by_cases h47 : p.in_ = 47
  · cases hs : skipLineComment p.stream p.line with
    | error e =>
      rw [body_slash_error h47 hs]
      exact ⟨fun q h => (by cases h), fun q h => (by cases h)⟩
    | ok v =>
      obtain ⟨line, rest⟩ := v
      rw [body_slash_ok h47 hs]
      refine ⟨fun q h => ?_, fun q h => (by cases h)⟩
      cases h
      exact Nat.le_of_lt (skipLineComment_length hs)
  · cases hw : isWhite p.in_ with
    | true =>
      rw [body_white hw]
      exact ⟨fun q h => (by cases h; exact Nat.le_refl _), fun q h => (by cases h)⟩
    | false =>
      rw [body_state h47 hw]
      cases hst : p.state with
      | S_PRE_KEY =>
        simp only
        constructor
        · intro q h
          split at h
          · split at h
            · cases h
            · rename_i hs
              cases h
              exact Nat.le_of_lt (parseString_length hs)
          · split at h <;> cases h
        · intro q h
          split at h
          · split at h <;> cases h
          · split at h
            · cases h
              exact ⟨rfl, Nat.le_refl _, by decide⟩
            · cases h
      | S_PRE_SEP =>
        simp only
        constructor
        · intro q h
          split at h
          · cases h
          · cases h; exact Nat.le_refl _
        · intro q h
          split at h <;> cases h
      | S_PRE_ELEMENT =>
        simp only
        constructor
        · intro q h
          rw [(preElement_stream _).1 q h]
        · intro q h
          obtain ⟨h1, h2⟩ := (preElement_stream _).2 q h
          exact ⟨h1, h2, by decide⟩
      | S_POST_ELEMENT =>
        simp only
        constructor
        · intro q h
          rw [(postElement_stream _).1 q h]
        · intro q h
          exact absurd h ((postElement_stream _).2 q)

/-- With three units of fuel for every unread character and one more, the loop
never runs out of fuel. -/
theorem fuel_enough : ∀ (n : Nat),
    (∀ p, 3 * p.stream.length + 1 ≤ n → whileRead n p ≠ .outOfFuel) ∧
    (∀ p, 3 * p.stream.length + 3 ≤ n → redo n p ≠ .outOfFuel) ∧
    (∀ p, p.state = .S_POST_ELEMENT → 3 * p.stream.length + 2 ≤ n → redo n p ≠ .outOfFuel)
  | 0 => by
    refine ⟨?_, ?_, ?_⟩ <;> intro p <;> intros <;> omega
  | n + 1 => by
    obtain ⟨ihw, ihr, ihp⟩ := fuel_enough n
    refine ⟨?_, ?_, ?_⟩
    · intro p hn
      cases hs : p.stream with
      | nil => rw [whileRead_nil _ _ hs]; intro h; cases h
      | cons c rest =>
        rw [whileRead_cons _ _ _ _ hs]
        apply ihr
        rw [hs] at hn
        simp at hn ⊢
        omega
    · intro p hn
      rw [redo_succ]
      cases hb : body p with
      | continue_ q =>
        have := (body_stream p).1 q hb
        exact ihw q (by omega)
      | redo q =>
        obtain ⟨h1, h2, _⟩ := (body_stream p).2 q hb
        exact ihp q h1 (by omega)
      | throw e q => intro h; cases h
      | undefined => intro h; cases h
    · intro p hp hn
      rw [redo_succ]
      cases hb : body p with
      | continue_ q =>
        have := (body_stream p).1 q hb
        exact ihw q (by omega)
      | redo q =>
        obtain ⟨_, _, h3⟩ := (body_stream p).2 q hb
        exact absurd hp h3
      | throw e q => intro h; cases h
      | undefined => intro h; cases h

/-- What the loop does with enough fuel does not depend on the fuel. -/
theorem whileRead_of_halts {p : Parser} {r : Outcome} (h : Halts p r) {n : Nat}
    (hn : 3 * p.stream.length + 1 ≤ n) : whileRead n p = r := by
  obtain ⟨m, hm, hr⟩ := h
  rcases Nat.le_total m n with hle | hle
  · exact whileRead_mono hm hr hle
  · have h1 := (fuel_enough n).1 p hn
    have h2 := whileRead_mono (r := whileRead n p) rfl h1 hle
    rw [← h2, hm]

/-! ## Maps, vectors and pointers into the tree -/

theorem mapFind_mapModify (k : JString) (f : Element → Element) : ∀ (o : JObject),
    mapFind k (mapModify k f o) = some (f ((mapFind k o).getD (Element.ofType .NULL_VALUE)))
  | [] => by simp [mapModify, mapFind, strLess_irrefl]
  | (k1, x) :: rest => by
    rw [mapModify, mapFind]
    by_cases h1 : strLess k k1 = true
    · simp [h1, mapFind, strLess_irrefl]
    · by_cases h2 : strLess k1 k = true
      · simp [h1, h2, mapFind, mapFind_mapModify k f rest]
      · simp [h1, h2, mapFind]

theorem mapSet_mapModify (k : JString) (f : Element → Element) (v : Element) :
    ∀ (o : JObject), mapSet (mapModify k f o) k v = mapModify k (fun _ => v) o
  | [] => by simp [mapModify, mapSet, strLess_irrefl]
  | (k1, x) :: rest => by
    rw [mapModify, mapModify]
    by_cases h1 : strLess k k1 = true
    · simp [h1, mapSet, strLess_irrefl]
    · by_cases h2 : strLess k1 k = true
      · simp [h1, h2, mapSet, mapSet_mapModify k f v rest]
      · simp [h1, h2, mapSet]

theorem mapFind_mapSet (k : JString) (v : Element) : ∀ (o : JObject) (c : Element),
    mapFind k o = some c → mapFind k (mapSet o k v) = some v
  | [], _, h => by simp [mapFind] at h
  | (k1, x) :: rest, c, h => by
    rw [mapFind] at h
    rw [mapSet]
    by_cases h1 : strLess k k1 = true
    · simp [h1] at h
    · by_cases h2 : strLess k1 k = true
      · simp only [h1, h2, if_true, if_false, Bool.false_eq_true] at h ⊢
        rw [mapFind]
        simp only [h1, h2, if_true, if_false, Bool.false_eq_true]
        exact mapFind_mapSet k v rest c h
      · simp [h1, h2, mapFind]

theorem mapSet_mapSet (k : JString) (v w : Element) : ∀ (o : JObject),
    mapSet (mapSet o k v) k w = mapSet o k w
  | [] => by simp [mapSet]
  | (k1, x) :: rest => by
    rw [mapSet, mapSet]
    by_cases h1 : strLess k k1 = true
    · simp [h1, mapSet]
    · by_cases h2 : strLess k1 k = true
      · simp [h1, h2, mapSet, mapSet_mapSet k v w rest]
      · simp [h1, h2, mapSet]

theorem listSet_get (v : Element) : ∀ (a : List Element) (i : Nat) (c : Element),
    a.get? i = some c → (listSet a i v).get? i = some v
  | [], _, _, h => by simp at h
  | _ :: _, 0, _, _ => by simp [listSet]
  | x :: rest, i + 1, c, h => by
    rw [List.get?_cons_succ] at h
    rw [listSet, List.get?_cons_succ]
    exact listSet_get v rest i c h

theorem listSet_listSet (v w : Element) : ∀ (a : List Element) (i : Nat),
    listSet (listSet a i v) i w = listSet a i w
  | [], _ => by simp [listSet]
  | _ :: _, 0 => by simp [listSet]
  | x :: rest, i + 1 => by simp [listSet, listSet_listSet v w rest i]

theorem listSet_append_last (x v : Element) : ∀ (a : List Element),
    listSet (a ++ [x]) a.length v = a ++ [v]
  | [] => by simp [listSet]
  | y :: rest => by simp [listSet, listSet_append_last x v rest]

theorem get_append_last (x : Element) (a : List Element) :
    (a ++ [x]).get? a.length = some x := by
  simp

theorem deref_nil (e : Element) : deref e [] = some e := by
  rw [deref]

theorem deref_store (v : Element) : ∀ (p : NodePtr) (root r1 : Element),
    store root p v = some r1 → deref r1 p = some v
  | [], root, r1, h => by
    rw [store] at h
    cases h
    rw [deref]
  | .index i :: p, .mk t o a s n b, r1, h => by
    rw [store] at h
    cases hg : a.get? i with
    | none => simp only [hg] at h; cases h
    | some c =>
      cases hs : store c p v with
      | none => simp only [hg, hs] at h; cases h
      | some c1 =>
        simp only [hg, hs, Option.some.injEq] at h
        subst h
        rw [deref]
        simp only [Element._array]
        rw [listSet_get c1 a i c hg]
        exact deref_store v p c c1 hs
  | .member k :: p, .mk t o a s n b, r1, h => by
    rw [store] at h
    cases hg : mapFind k o with
    | none => simp only [hg] at h; cases h
    | some c =>
      cases hs : store c p v with
      | none => simp only [hg, hs] at h; cases h
      | some c1 =>
        simp only [hg, hs, Option.some.injEq] at h
        subst h
        rw [deref]
        simp only [Element._object]
        rw [mapFind_mapSet k c1 o c hg]
        exact deref_store v p c c1 hs

theorem store_store (v w : Element) : ∀ (p : NodePtr) (root r1 : Element),
    store root p v = some r1 → store r1 p w = store root p w
  | [], root, r1, _ => by rw [store, store]
  | .index i :: p, .mk t o a s n b, r1, h => by
    rw [store] at h
    cases hg : a.get? i with
    | none => simp only [hg] at h; cases h
    | some c =>
      cases hs : store c p v with
      | none => simp only [hg, hs] at h; cases h
      | some c1 =>
        simp only [hg, hs, Option.some.injEq] at h
        subst h
        rw [store, store, listSet_get c1 a i c hg]
        simp only [hg]
        rw [store_store v w p c c1 hs]
        cases store c p w <;> simp [listSet_listSet]
  | .member k :: p, .mk t o a s n b, r1, h => by
    rw [store] at h
    cases hg : mapFind k o with
    | none => simp only [hg] at h; cases h
    | some c =>
      cases hs : store c p v with
      | none => simp only [hg, hs] at h; cases h
      | some c1 =>
        simp only [hg, hs, Option.some.injEq] at h
        subst h
        rw [store, store, mapFind_mapSet k c1 o c hg]
        simp only [hg]
        rw [store_store v w p c c1 hs]
        cases store c p w <;> simp [mapSet_mapSet]

theorem store_of_deref (v : Element) : ∀ (p : NodePtr) (root e : Element),
    deref root p = some e → ∃ r1, store root p v = some r1
  | [], root, e, _ => ⟨v, by rw [store]⟩
  | .index i :: p, .mk t o a s n b, e, h => by
    rw [deref] at h
    simp only [Element._array] at h
    cases hg : a.get? i with
    | none => simp only [hg] at h; cases h
    | some c =>
      simp only [hg] at h
      obtain ⟨c1, hc1⟩ := store_of_deref v p c e h
      exact ⟨_, by rw [store]; simp only [hg, hc1]; rfl⟩
  | .member k :: p, .mk t o a s n b, e, h => by
    rw [deref] at h
    simp only [Element._object] at h
    cases hg : mapFind k o with
    | none => simp only [hg] at h; cases h
    | some c =>
      simp only [hg] at h
      obtain ⟨c1, hc1⟩ := store_of_deref v p c e h
      exact ⟨_, by rw [store]; simp only [hg, hc1]; rfl⟩

/-- Dereferencing a pointer to a child: first the parent, then one step. -/
theorem deref_snoc (st : Step) : ∀ (p : NodePtr) (root e : Element),
    deref root p = some e → deref root (p ++ [st]) = deref e [st]
  | [], root, e, h => by
    rw [deref] at h
    cases h
    rfl
  | .index i :: p, .mk t o a s n b, e, h => by
    rw [deref] at h
    simp only [Element._array] at h
    rw [List.cons_append, deref]
    simp only [Element._array]
    cases hg : a.get? i with
    | none => simp only [hg] at h; cases h
    | some c =>
      simp only [hg] at h ⊢
      exact deref_snoc st p c e h
  | .member k :: p, .mk t o a s n b, e, h => by
    rw [deref] at h
    simp only [Element._object] at h
    rw [List.cons_append, deref]
    simp only [Element._object]
    cases hg : mapFind k o with
    | none => simp only [hg] at h; cases h
    | some c =>
      simp only [hg] at h ⊢
      exact deref_snoc st p c e h

/-- Writing through a pointer to a child: the parent with the child replaced is
written through the pointer to the parent. -/
theorem store_snoc (st : Step) (v : Element) : ∀ (p : NodePtr) (root e e1 : Element),
    deref root p = some e → store e [st] v = some e1 →
    store root (p ++ [st]) v = store root p e1
  | [], root, e, e1, h, hs => by
    rw [deref] at h
    cases h
    rw [List.nil_append, hs, store]
  | .index i :: p, .mk t o a s n b, e, e1, h, hs => by
    rw [deref] at h
    simp only [Element._array] at h
    rw [List.cons_append, store, store]
    cases hg : a.get? i with
    | none => simp only [hg] at h; cases h
    | some c =>
      simp only [hg] at h ⊢
      rw [store_snoc st v p c e e1 h hs]
  | .member k :: p, .mk t o a s n b, e, e1, h, hs => by
    rw [deref] at h
    simp only [Element._object] at h
    rw [List.cons_append, store, store]
    cases hg : mapFind k o with
    | none => simp only [hg] at h; cases h
    | some c =>
      simp only [hg] at h ⊢
      rw [store_snoc st v p c e e1 h hs]

/-! ## Steps of the parser -/

theorem Leads.refl (p : Parser) : Leads p p := fun _ h => h

theorem Leads.trans {p q s : Parser} (h1 : Leads p q) (h2 : Leads q s) : Leads p s :=
  fun r h => h1 r (h2 r h)

/-- One character is read and the body ends as `nx`. -/
theorem leads_of_body (c : Nat) (rest : List Nat) {stream : List Nat} {st : State}
    {root : Element} {nodes : List NodePtr} {key : JString} {line : Int} {c0 : Nat}
    {q : Parser} (hs : stream = c :: rest)
    (h : LeadsNext (body ⟨rest, st, root, nodes, key, line, c⟩) q) :
    Leads ⟨stream, st, root, nodes, key, line, c0⟩ q := by
  intro r hr
  obtain ⟨n, hn, hne⟩ := h r hr
  refine ⟨n + 2, ?_, hne⟩
  rw [whileRead_cons (n + 1) _ c rest hs, redo_succ]
  exact hn

theorem leadsNext_continue {p q : Parser} (h : Leads p q) : LeadsNext (.continue_ p) q :=
  fun r hr => h r hr

theorem leadsNext_redo {p q : Parser} (h : LeadsNext (body p) q) : LeadsNext (.redo p) q := by
  intro r hr
  obtain ⟨n, hn, hne⟩ := h r hr
  exact ⟨n + 1, by simp only [Next.run]; rw [redo_succ]; exact hn, hne⟩

/-- The character handed back by `parsePrimitive` is dispatched as if it were
read next. -/
theorem leadsNext_lookahead (c : Nat) (rest : List Nat) (st : State) (root : Element)
    (nodes : List NodePtr) (key : JString) (line : Int) (c0 : Nat) :
    LeadsNext (.redo ⟨rest, st, root, nodes, key, line, c⟩)
      ⟨c :: rest, st, root, nodes, key, line, c0⟩ := by
  intro r hr
  obtain ⟨n, hn, hne⟩ := hr
  cases n with
  | zero => rw [whileRead] at hn; exact absurd hn.symm hne
  | succ m =>
    rw [whileRead_cons m _ c rest rfl] at hn
    exact ⟨m, hn, hne⟩

/-- White space is skipped in every state. -/
theorem leads_skip_white : ∀ (w : List Nat), (∀ c ∈ w, isWhite c = true) →
    ∀ (rest : List Nat) (st : State) (root : Element) (nodes : List NodePtr) (key : JString)
      (line : Int) (c0 : Nat),
    ∃ line1 c1, Leads ⟨w ++ rest, st, root, nodes, key, line, c0⟩
      ⟨rest, st, root, nodes, key, line1, c1⟩
  | [], _, rest, st, root, nodes, key, line, c0 => ⟨line, c0, Leads.refl _⟩
  | c :: w, hw, rest, st, root, nodes, key, line, c0 => by
    have hc : isWhite c = true := hw c (List.mem_cons_self _ _)
    obtain ⟨line1, c1, h⟩ := leads_skip_white w (fun d hd => hw d (List.mem_cons_of_mem _ hd))
      rest st root nodes key (if c = 10 ∨ c = 13 then line + 1 else line) c
    refine ⟨line1, c1, ?_⟩
    apply leads_of_body c (w ++ rest) rfl
    rw [body_white (by exact hc)]
    exact leadsNext_continue h

theorem beginValue_array {s : List Nat} {st : State} {root root1 el : Element}
    {top : NodePtr} {below : List NodePtr} {key : JString} {line : Int}
    (hd : deref root top = some el)
    (hs : store root top (el.assign (Element.ofType .ARRAY)) = some root1) :
    beginValue ⟨s, st, root, top :: below, key, line, 91⟩
      = .continue_ ⟨s, .S_PRE_ELEMENT, root1, top :: below, key, line, 91⟩ := by
  simp [beginValue, hd, hs]

theorem beginValue_object {s : List Nat} {st : State} {root root1 el : Element}
    {top : NodePtr} {below : List NodePtr} {key : JString} {line : Int}
    (hd : deref root top = some el)
    (hs : store root top (el.assign (Element.ofType .OBJECT)) = some root1) :
    beginValue ⟨s, st, root, top :: below, key, line, 123⟩
      = .continue_ ⟨s, .S_PRE_KEY, root1, top :: below, key, line, 123⟩ := by
  simp [beginValue, hd, hs]

theorem beginValue_primitive {s rest : List Nat} {st : State} {root root1 el el1 : Element}
    {top : NodePtr} {below : List NodePtr} {key : JString} {line : Int} {c extra : Nat}
    (h1 : c ≠ 91) (h2 : c ≠ 123) (hd : deref root top = some el)
    (hp : parsePrimitive s c (el.assign (Element.ofType .NULL_VALUE)) line
      = (el1, .ok (extra, rest)))
    (hs : store root top el1 = some root1) :
    beginValue ⟨s, st, root, top :: below, key, line, c⟩
      = .redo ⟨rest, .S_POST_ELEMENT, root1, below, key, line, extra⟩ := by
  simp [beginValue, hd, hs, h1, h2, hp]

theorem preElement_null {s : List Nat} {st : State} {root el : Element}
    {top : NodePtr} {below : List NodePtr} {key : JString} {line : Int} {c : Nat}
    (hd : deref root top = some el) (hn : el.isNull = true) :
    preElement ⟨s, st, root, top :: below, key, line, c⟩
      = beginValue ⟨s, st, root, top :: below, key, line, c⟩ := by
  simp [preElement, hd, hn]

theorem preElement_item {s : List Nat} {st : State} {root root1 : Element}
    {top : NodePtr} {below : List NodePtr} {key : JString} {line : Int} {c : Nat}
    {o : JObject} {a : JArray} {ss : JString} {n : Number} {b : Bool}
    (hd : deref root top = some (.mk .ARRAY o a ss n b)) (hc : c ≠ 93)
    (hs : store root top (.mk .ARRAY o (a ++ [Element.ofType .NULL_VALUE]) ss n b)
      = some root1) :
    preElement ⟨s, st, root, top :: below, key, line, c⟩
      = beginValue ⟨s, st, root1, (top ++ [.index a.length]) :: top :: below, key, line, c⟩ := by
  have e : Element.copy (Element.ofType .NULL_VALUE) = Element.ofType .NULL_VALUE := by
    simp [Element.copy, Element.ofType, Element.assign, Element._number, Element._boolean]
  simp [preElement, hd, hc, Element.isNull, Element.isArray, Element.type, e, hs]

theorem preElement_close {s : List Nat} {st : State} {root : Element}
    {top : NodePtr} {below : List NodePtr} {key : JString} {line : Int}
    {o : JObject} {a : JArray} {ss : JString} {n : Number} {b : Bool}
    (hd : deref root top = some (.mk .ARRAY o a ss n b)) :
    preElement ⟨s, st, root, top :: below, key, line, 93⟩
      = .redo ⟨s, .S_POST_ELEMENT, root, top :: below, key, line, 93⟩ := by
  simp [preElement, hd, Element.isNull, Element.isArray, Element.type]

theorem preElement_member {s : List Nat} {st : State} {root root1 : Element}
    {top : NodePtr} {below : List NodePtr} {key : JString} {line : Int} {c : Nat}
    {o : JObject} {a : JArray} {ss : JString} {n : Number} {b : Bool}
    (hd : deref root top = some (.mk .OBJECT o a ss n b))
    (hs : store root top
        (.mk .OBJECT (mapModify key (fun x => x.assign (Element.ofType .NULL_VALUE)) o) a ss n b)
      = some root1) :
    preElement ⟨s, st, root, top :: below, key, line, c⟩
      = beginValue ⟨s, st, root1, (top ++ [.member key]) :: top :: below, key, line, c⟩ := by
  simp [preElement, hd, Element.isNull, Element.isArray, Element.isObject, Element.type, hs]

theorem postElement_comma {s : List Nat} {st : State} {root el : Element}
    {top : NodePtr} {below : List NodePtr} {key : JString} {line : Int}
    (hd : deref root top = some el) :
    postElement ⟨s, st, root, top :: below, key, line, 44⟩
      = .continue_ ⟨s, if el.isArray then .S_PRE_ELEMENT else .S_PRE_KEY, root, top :: below,
          key, line, 44⟩ := by
  simp [postElement, hd]

theorem postElement_close_array {s : List Nat} {st : State} {root : Element}
    {top : NodePtr} {below : List NodePtr} {key : JString} {line : Int}
    {o : JObject} {a : JArray} {ss : JString} {n : Number} {b : Bool}
    (hd : deref root top = some (.mk .ARRAY o a ss n b)) :
    postElement ⟨s, st, root, top :: below, key, line, 93⟩
      = .continue_ ⟨s, .S_POST_ELEMENT, root, below, key, line, 93⟩ := by
  simp [postElement, hd, Element.isArray, Element.type]

theorem postElement_close_object {s : List Nat} {st : State} {root : Element}
    {top : NodePtr} {below : List NodePtr} {key : JString} {line : Int}
    {o : JObject} {a : JArray} {ss : JString} {n : Number} {b : Bool}
    (hd : deref root top = some (.mk .OBJECT o a ss n b)) :
    postElement ⟨s, st, root, top :: below, key, line, 125⟩
      = .continue_ ⟨s, .S_POST_ELEMENT, root, below, key, line, 125⟩ := by
  simp [postElement, hd, Element.isObject, Element.type]

/-! ## The scanners on the text of a primitive -/

theorem parseWord_literal (word : JString) (msg : String) (c : Nat) (cs rest : List Nat)
    (line : Int) (h : word = c :: cs) :
    parseWord word msg (cs ++ rest) line = .ok ((), rest) := by
  subst h
  unfold parseWord
  have h1 : ¬ ((cs ++ rest).length < (c :: cs).length - 1) := by simp
  simp [h1]

theorem parseStringLoop_plainKey (line : Int) : ∀ (k : JString), plainKey k = true →
    ∀ (rest os : List Nat) (last : Nat),
      parseStringLoop line (k ++ 34 :: rest) false os last = .ok (os ++ k, rest)
  | [], _, rest, os, last => by simp [parseStringLoop_plain]
  | c :: k, h, rest, os, last => by
    simp only [plainKey, List.all_cons, Bool.and_eq_true, bne_iff_ne, ne_eq,
      Bool.not_eq_true'] at h
    obtain ⟨⟨⟨h1, h2⟩, h3⟩, hk⟩ := h
    rw [List.cons_append, parseStringLoop_plain]
    simp only [h1, h2, h3, if_false, Bool.false_eq_true]
    rw [parseStringLoop_plainKey line k (by simpa [plainKey] using hk)]
    simp

theorem parseNumberLoop_text : ∀ (ds : List Nat), ds.all isNumberChar = true →
    ∀ (rest os : List Nat), endsNumber rest →
      parseNumberLoop (ds ++ rest) os
        = (os ++ ds, (rest.head?).getD 32, rest.drop 1)
  | [], _, [], os, _ => by simp [parseNumberLoop]
  | [], _, c :: r, os, he => by
    have := he c r rfl
    simp [parseNumberLoop, this]
  | d :: ds, h, rest, os, he => by
    simp only [List.all_cons, Bool.and_eq_true] at h
    rw [List.cons_append, parseNumberLoop]
    simp only [h.1, if_true]
    rw [parseNumberLoop_text ds h.2 rest _ he]
    simp

theorem parsePrimitive_null (rest : List Nat) (el : Element) (line : Int) :
    parsePrimitive (117 :: 108 :: 108 :: rest) 110 el line
      = (el.assign (Element.ofType .NULL_VALUE), .ok (32, rest)) := by
  have h : parseWord (lit "null") "Expected \"null\"" (117 :: 108 :: 108 :: rest) line
      = .ok ((), rest) :=
    parseWord_literal (lit "null") "Expected \"null\"" 110 [117, 108, 108] rest line rfl
  simp [parsePrimitive, parseNull, h]

theorem parsePrimitive_true (rest : List Nat) (el : Element) (line : Int) :
    parsePrimitive (114 :: 117 :: 101 :: rest) 116 el line
      = (el.assign (Element.ofBool true), .ok (32, rest)) := by
  have h : parseWord (lit "true") "Expected \"true\"" (114 :: 117 :: 101 :: rest) line
      = .ok ((), rest) :=
    parseWord_literal (lit "true") "Expected \"true\"" 116 [114, 117, 101] rest line rfl
  simp [parsePrimitive, parseTrue, h]

theorem parsePrimitive_false (rest : List Nat) (el : Element) (line : Int) :
    parsePrimitive (97 :: 108 :: 115 :: 101 :: rest) 102 el line
      = (el.assign (Element.ofBool false), .ok (32, rest)) := by
  have h : parseWord (lit "false") "Expected \"false\"" (97 :: 108 :: 115 :: 101 :: rest) line
      = .ok ((), rest) :=
    parseWord_literal (lit "false") "Expected \"false\"" 102 [97, 108, 115, 101] rest line rfl
  simp [parsePrimitive, parseFalse, h]

theorem parsePrimitive_string (s : JString) (hs : IsBytes s) (rest : List Nat)
    (el : Element) (line : Int) :
    parsePrimitive (serializeChars s ++ 34 :: rest) 34 el line
      = (.mk .STRING [] [] s Number.zero false, .ok (32, rest)) := by
  have h : parseString (serializeChars s ++ 34 :: rest) line = .ok (s, rest) := by
    unfold parseString
    rw [parseStringLoop_serializeChars line s hs]
    simp
  have e : el.assign (Element.ofType .STRING) = .mk .STRING [] [] [] Number.zero false := by
    simp [Element.ofType, Element.assign]
  simp [parsePrimitive, h, e]

/-! ## The text of a number -/

theorem decDigits_digits : ∀ (fuel n : Nat), ∀ c ∈ decDigits fuel n, isDigit c = true
  | 0, _, c, h => by simp [decDigits] at h
  | fuel + 1, n, c, h => by
    rw [decDigits] at h
    by_cases hn : n < 10
    · simp only [hn, if_true, List.mem_singleton] at h
      subst h
      simp only [isDigit, Bool.and_eq_true, decide_eq_true_eq]
      omega
    · simp only [hn, if_false, List.mem_append, List.mem_singleton] at h
      rcases h with h | h
      · exact decDigits_digits fuel (n / 10) c h
      · subst h
        simp only [isDigit, Bool.and_eq_true, decide_eq_true_eq]
        omega

theorem decimal_ne_nil (n : Nat) : decimal n ≠ [] := by
  unfold decimal
  rw [decDigits]
  split <;> simp

theorem stripZeros_subset (ds : List Nat) : ∀ c ∈ stripZeros ds, c ∈ ds := by
  intro c h
  unfold stripZeros at h
  rw [List.mem_reverse] at h
  exact List.mem_reverse.1 ((List.dropWhile_sublist _).subset h)

theorem isDigit_isNumberChar (c : Nat) (h : isDigit c = true) : isNumberChar c = true := by
  simp only [isDigit, Bool.and_eq_true, decide_eq_true_eq] at h
  have h1 : ¬ c < 48 := by omega
  have h2 : ¬ c > 57 := by omega
  simp [isNumberChar, h1, h2]

/-- The text of a positive number starts with a digit and lies within the class
`[0-9+-.eE]`. -/
theorem showPositive_chars (num den : Nat) :
    (∃ c cs, showPositive num den = c :: cs ∧ isDigit c = true) ∧
    ∀ c ∈ showPositive num den, isNumberChar c = true := by
  unfold showPositive
  rcases sixDigits num den with ⟨n, x⟩
  simp only
  have hd : ∀ c ∈ decimal n, isDigit c = true := decDigits_digits _ _
  have hnum : ∀ c ∈ decimal n, isNumberChar c = true :=
    fun c hc => isDigit_isNumberChar c (hd c hc)
  obtain ⟨d0, ds, hds⟩ := List.exists_cons_of_ne_nil (decimal_ne_nil n)
  have hd0 : isDigit d0 = true := hd d0 (by rw [hds]; exact List.mem_cons_self _ _)
  have hfrac : ∀ (k : Nat), ∀ c ∈ (if stripZeros ((decimal n).drop k) = [] then []
      else 46 :: stripZeros ((decimal n).drop k)), isNumberChar c = true := by
    intro k c hc
    split at hc
    · simp at hc
    · rcases List.mem_cons.1 hc with h | h
      · rw [h]; decide
      · exact hnum c (List.mem_of_mem_drop (stripZeros_subset _ c h))
  split
  · refine ⟨⟨d0, _, by rw [hds]; rfl, hd0⟩, ?_⟩
    intro c hc
    simp only [List.mem_append, List.mem_cons] at hc
    rcases hc with ((hc | hc) | hc) | hc
    · exact hnum c (List.mem_of_mem_take hc)
    · exact hfrac 1 c hc
    · rcases hc with hc | hc | hc
      · rw [hc]; decide
      · rw [hc]; split <;> decide
      · simp at hc
    · have hex : ∀ c ∈ decimal x.natAbs, isNumberChar c = true :=
        fun c h => isDigit_isNumberChar c (decDigits_digits _ _ c h)
      split at hc
      · rcases List.mem_cons.1 hc with h | h
        · rw [h]; decide
        · exact hex c h
      · exact hex c hc
  · split
    · refine ⟨⟨d0, _, by rw [hds]; rfl, hd0⟩, ?_⟩
      intro c hc
      rcases List.mem_append.1 hc with hc | hc
      · exact hnum c (List.mem_of_mem_take hc)
      · exact hfrac _ c hc
    · refine ⟨⟨48, _, rfl, by decide⟩, ?_⟩
      intro c hc
      simp only [List.mem_append, List.mem_cons, List.mem_replicate] at hc
      rcases hc with (hc | hc) | hc
      · rcases hc with hc | hc | hc
        · rw [hc]; decide
        · rw [hc]; decide
        · simp at hc
      · rw [hc.2]; decide
      · exact hnum c (stripZeros_subset _ c hc)

/-- The text of a finite number starts with `-` or a digit and lies within the
class `[0-9+-.eE]`. -/
theorem showNumber_chars (n : Number) (h : n.isfinite = true) :
    (∃ c cs, showNumber n = c :: cs ∧ (c = 45 ∨ isDigit c = true)) ∧
    ∀ c ∈ showNumber n, isNumberChar c = true := by
  cases n with
  | infinite s => simp [Number.isfinite] at h
  | nan => simp [Number.isfinite] at h
  | finite neg m e =>
    have key : (∃ c cs, (if m = 0 then [48]
          else if 0 ≤ e then showPositive (m * 2 ^ e.toNat) 1
          else showPositive m (2 ^ (-e).toNat)) = c :: cs ∧ isDigit c = true) ∧
        ∀ c ∈ (if m = 0 then [48]
          else if 0 ≤ e then showPositive (m * 2 ^ e.toNat) 1
          else showPositive m (2 ^ (-e).toNat)), isNumberChar c = true := by
      split
      · exact ⟨⟨48, [], rfl, by decide⟩, by simp; decide⟩
      · split
        · exact showPositive_chars _ _
        · exact showPositive_chars _ _
    obtain ⟨⟨c, cs, hc, hdig⟩, hall⟩ := key
    rw [showNumber]
    cases neg with
    | true =>
      refine ⟨⟨45, _, rfl, Or.inl rfl⟩, ?_⟩
      intro d hd
      rcases List.mem_append.1 hd with hd | hd
      · simp at hd; rw [hd]; decide
      · exact hall d hd
    | false =>
      refine ⟨⟨c, cs, by simpa using hc, Or.inr hdig⟩, ?_⟩
      intro d hd
      exact hall d (by simpa using hd)

/-- What `numberReads` gives: the number is finite, its text starts with `-` or a
digit and lies within the class `[0-9+-.eE]`, and `std::stod` reads all of it. -/
theorem numberReads_parts (n : Number) (hn : numberReads n = true) :
    n.isfinite = true ∧
    (∃ c cs, showNumber n = c :: cs ∧ (c = 45 ∨ isDigit c = true)) ∧
    (∀ c ∈ showNumber n, isNumberChar c = true) ∧
    stod (showNumber n) = .ok (reread n) (showNumber n).length := by
  simp only [numberReads, Bool.and_eq_true, decide_eq_true_eq] at hn
  exact ⟨hn.1, (showNumber_chars n hn.1).1, (showNumber_chars n hn.1).2, hn.2⟩

theorem parsePrimitive_number (n : Number) (hn : numberReads n = true) (c : Nat)
    (cs rest : List Nat) (hc : showNumber n = c :: cs) (he : endsNumber rest)
    (el : Element) (line : Int) :
    parsePrimitive (cs ++ rest) c el line
      = (.mk .NUMBER [] [] [] (reread n) false, .ok ((rest.head?).getD 32, rest.drop 1)) := by
  obtain ⟨_, ⟨c0, cs0, hc0, hhead⟩, hall, hstod⟩ := numberReads_parts n hn
  rw [hc] at hc0 hall hstod
  cases hc0
  have hcs : cs.all isNumberChar = true :=
    List.all_eq_true.2 (fun d hd => hall d (List.mem_cons_of_mem _ hd))
  have hl := parseNumberLoop_text cs hcs rest [c] he
  have e : el.assign (Element.ofType .NUMBER) = .mk .NUMBER [] [] [] Number.zero false := by
    simp [Element.ofType, Element.assign]
  have hfirst : c = 45 ∨ (48 ≤ c ∧ c ≤ 57) := by
    rcases hhead with h | h
    · exact Or.inl h
    · right; simpa [isDigit] using h
  have h1 : c ≠ 110 := by omega
  have h2 : c ≠ 116 := by omega
  have h3 : c ≠ 102 := by omega
  have h4 : c ≠ 34 := by omega
  simp [parsePrimitive, h1, h2, h3, h4, hfirst, e, parseNumber, hl, hstod]

/-! ## The parser on the text of a value -/

theorem assign_fresh_null :
    (Element.ofType .NULL_VALUE).assign (Element.ofType .NULL_VALUE)
      = Element.ofType .NULL_VALUE := by
  simp [Element.ofType, Element.assign, Element._number, Element._boolean]

theorem assign_fresh_bool (b : Bool) :
    (Element.ofType .NULL_VALUE).assign (Element.ofBool b)
      = .mk .BOOLEAN [] [] [] Number.zero b := by
  simp [Element.ofType, Element.ofBool, Element.assign]

theorem assign_fresh_array :
    (Element.ofType .NULL_VALUE).assign (Element.ofType .ARRAY)
      = .mk .ARRAY [] [] [] Number.zero false := by
  simp [Element.ofType, Element.assign, Element._number, Element._boolean, Element.copyArray]

theorem assign_fresh_object :
    (Element.ofType .NULL_VALUE).assign (Element.ofType .OBJECT)
      = .mk .OBJECT [] [] [] Number.zero false := by
  simp [Element.ofType, Element.assign, Element._number, Element._boolean, Element.copyObject]

/-- After a primitive the parser dispatches the blank that `parsePrimitive` returns
and comes to the loop head. -/
theorem leadsNext_blank (rest : List Nat) (root : Element) (nodes : List NodePtr)
    (key : JString) (line : Int) :
    LeadsNext (.redo ⟨rest, .S_POST_ELEMENT, root, nodes, key, line, 32⟩)
      ⟨rest, .S_POST_ELEMENT, root, nodes, key, line, 32⟩ := by
  apply leadsNext_redo
  rw [body_white (show isWhite 32 = true by decide)]
  exact leadsNext_continue (Leads.refl _)

theorem value_null (o : JObject) (a : JArray) (s : JString) (n : Number) (b : Bool)
    (indent : Int) : ValueParses (.mk .NULL_VALUE o a s n b) indent := by
  intro c cs rest hser _ st root slot below key line hd
  rw [serialize] at hser
  simp only [if_true] at hser
  have hl : lit "null" = [110, 117, 108, 108] := rfl
  rw [hl] at hser
  cases hser
  obtain ⟨root1, hs⟩ := store_of_deref (Element.ofType .NULL_VALUE) slot root _ hd
  refine ⟨root1, key, line, 32, ?_, ?_⟩
  · simpa [Element.parsed, Element.ofType] using hs
  · rw [beginValue_primitive (by decide) (by decide) hd
      (by rw [assign_fresh_null]; exact parsePrimitive_null rest _ line)
      (by rw [assign_fresh_null]; exact hs)]
    exact leadsNext_blank _ _ _ _ _

theorem value_boolean (o : JObject) (a : JArray) (s : JString) (n : Number) (b : Bool)
    (indent : Int) : ValueParses (.mk .BOOLEAN o a s n b) indent := by
  intro c cs rest hser _ st root slot below key line hd
  rw [serialize] at hser
  simp only [if_true, if_false, reduceCtorEq] at hser
  have hl1 : lit "true" = [116, 114, 117, 101] := rfl
  have hl2 : lit "false" = [102, 97, 108, 115, 101] := rfl
  rw [hl1, hl2] at hser
  obtain ⟨root1, hs⟩ := store_of_deref (.mk .BOOLEAN [] [] [] Number.zero b) slot root _ hd
  refine ⟨root1, key, line, 32, ?_, ?_⟩
  · simpa [Element.parsed] using hs
  · cases b
    · simp only [Bool.false_eq_true, if_false] at hser
      cases hser
      rw [beginValue_primitive (by decide) (by decide) hd
        (by rw [assign_fresh_null]; exact parsePrimitive_false rest _ line)
        (by rw [assign_fresh_bool]; exact hs)]
      exact leadsNext_blank _ _ _ _ _
    · simp only [if_true] at hser
      cases hser
      rw [beginValue_primitive (by decide) (by decide) hd
        (by rw [assign_fresh_null]; exact parsePrimitive_true rest _ line)
        (by rw [assign_fresh_bool]; exact hs)]
      exact leadsNext_blank _ _ _ _ _

theorem value_string (o : JObject) (a : JArray) (s : JString) (n : Number) (b : Bool)
    (indent : Int) (hr : (Element.mk .STRING o a s n b).readable = true) :
    ValueParses (.mk .STRING o a s n b) indent := by
  intro c cs rest hser _ st root slot below key line hd
  have hb : IsBytes s := by
    simp only [Element.readable, List.all_eq_true, decide_eq_true_eq] at hr
    exact hr
  rw [serialize] at hser
  simp only [if_true, if_false, reduceCtorEq, serializeString, Element._string] at hser
  have hq : '"'.toNat = 34 := rfl
  rw [hq] at hser
  simp only [List.singleton_append, List.cons_append, List.cons.injEq] at hser
  obtain ⟨hc, hcs⟩ := hser
  subst hc hcs
  obtain ⟨root1, hs⟩ := store_of_deref (.mk .STRING [] [] s Number.zero false) slot root _ hd
  refine ⟨root1, key, line, 32, ?_, ?_⟩
  · simpa [Element.parsed] using hs
  · rw [beginValue_primitive (by decide) (by decide) hd
      (by
        rw [List.append_assoc]
        exact parsePrimitive_string s hb rest _ line)
      hs]
    exact leadsNext_blank _ _ _ _ _

theorem value_number (o : JObject) (a : JArray) (s : JString) (n : Number) (b : Bool)
    (indent : Int) (hr : (Element.mk .NUMBER o a s n b).readable = true) :
    ValueParses (.mk .NUMBER o a s n b) indent := by
  intro c cs rest hser hend st root slot below key line hd
  have hn : numberReads n = true := by simpa [Element.readable] using hr
  obtain ⟨hfin, ⟨c0, cs0, hc0, hh0⟩, _, _⟩ := numberReads_parts n hn
  rw [serialize] at hser
  simp only [if_true, if_false, reduceCtorEq, hfin] at hser
  have hhead : c = 45 ∨ (48 ≤ c ∧ c ≤ 57) := by
    rw [hser] at hc0
    cases hc0
    rcases hh0 with h | h
    · exact Or.inl h
    · right; simpa [isDigit] using h
  obtain ⟨root1, hs⟩ := store_of_deref (.mk .NUMBER [] [] [] (reread n) false) slot root _ hd
  refine ⟨root1, key, line, (rest.head?).getD 32, ?_, ?_⟩
  · simpa [Element.parsed] using hs
  · rw [beginValue_primitive (by omega) (by omega) hd
      (parsePrimitive_number n hn c cs rest hser hend _ line) hs]
    cases rest with
    | nil => exact leadsNext_blank _ _ _ _ _
    | cons e r => exact leadsNext_lookahead e r _ _ _ _ _ _

/-- The text of a readable value starts with a character that begins a value. -/
theorem serialize_head (x : Element) (indent : Int) (hr : x.readable = true) :
    ∃ c cs, serialize x indent = c :: cs ∧ c ≠ 47 ∧ isWhite c = false ∧ c ≠ 93 := by
  obtain ⟨t, o, a, s, n, b⟩ := x
  rw [serialize]
  cases t
  · exact ⟨110, [117, 108, 108], by simp; rfl, by decide, by decide, by decide⟩
  · simp only [reduceCtorEq, if_false, if_true]
    cases o with
    | nil => exact ⟨123, [125], by simp; rfl, by decide, by decide, by decide⟩
    | cons p rest => exact ⟨123, _, by simp; rfl, by decide, by decide, by decide⟩
  · simp only [reduceCtorEq, if_false, if_true]
    cases a with
    | nil => exact ⟨91, [93], by simp; rfl, by decide, by decide, by decide⟩
    | cons p rest => exact ⟨91, _, by simp; rfl, by decide, by decide, by decide⟩
  · exact ⟨34, _, by simp [serializeString]; rfl, by decide, by decide, by decide⟩
  · have hn : numberReads n = true := by simpa [Element.readable] using hr
    obtain ⟨hfin, ⟨c, cs, hsn, hhead⟩, _, _⟩ := numberReads_parts n hn
    simp only [reduceCtorEq, if_false, if_true, hfin]
    simp only [isDigit, Bool.and_eq_true, decide_eq_true_eq] at hhead
    refine ⟨c, cs, hsn, by omega, ?_, by omega⟩
    simp only [isWhite, Bool.or_eq_false_iff, beq_eq_false_iff_ne]
    omega
  · cases b
    · exact ⟨102, [97, 108, 115, 101], by simp; rfl, by decide, by decide, by decide⟩
    · exact ⟨116, [114, 117, 101], by simp; rfl, by decide, by decide, by decide⟩

/-- A value at the root: the node on top of the stack is the fresh root. -/
theorem root_step {x : Element} {indent : Int} (hv : ValueParses x indent)
    (hr : x.readable = true) (rest : List Nat) (he : endsNumber rest) (root : Element)
    (slot : NodePtr) (below : List NodePtr) (key : JString) (line : Int) (c0 : Nat)
    (hd : deref root slot = some (Element.ofType .NULL_VALUE)) :
    ∃ root1 key1 line1 c1, store root slot x.parsed = some root1 ∧
      Leads ⟨serialize x indent ++ rest, .S_PRE_ELEMENT, root, slot :: below, key, line, c0⟩
        ⟨rest, .S_POST_ELEMENT, root1, below, key1, line1, c1⟩ := by
  obtain ⟨c, cs, hser, h47, hw, _⟩ := serialize_head x indent hr
  obtain ⟨root1, key1, line1, c1, hs, hl⟩ :=
    hv c cs rest hser he .S_PRE_ELEMENT root slot below key line hd
  refine ⟨root1, key1, line1, c1, hs, ?_⟩
  apply leads_of_body c (cs ++ rest) (by rw [hser]; rfl)
  rw [body_state (by exact h47) (by exact hw)]
  simp only
  rw [preElement_null hd (by rfl)]
  exact hl

/-- A value as the next element of the array on top of the stack. -/
theorem item_step {x : Element} {indent : Int} (hv : ValueParses x indent)
    (hr : x.readable = true) (rest : List Nat) (he : endsNumber rest) (root : Element)
    (slot : NodePtr) (below : List NodePtr) (key : JString) (line : Int) (c0 : Nat)
    (o : JObject) (done : JArray) (s : JString) (n : Number) (b : Bool)
    (hd : deref root slot = some (.mk .ARRAY o done s n b)) :
    ∃ root1 key1 line1 c1,
      store root slot (.mk .ARRAY o (done ++ [x.parsed]) s n b) = some root1 ∧
      Leads ⟨serialize x indent ++ rest, .S_PRE_ELEMENT, root, slot :: below, key, line, c0⟩
        ⟨rest, .S_POST_ELEMENT, root1, slot :: below, key1, line1, c1⟩ := by
  obtain ⟨c, cs, hser, h47, hw, h93⟩ := serialize_head x indent hr
  obtain ⟨roota, hsa⟩ := store_of_deref
    (.mk .ARRAY o (done ++ [Element.ofType .NULL_VALUE]) s n b) slot root _ hd
  have hda := deref_store _ slot root roota hsa
  have hdslot : deref roota (slot ++ [.index done.length]) = some (Element.ofType .NULL_VALUE) := by
    rw [deref_snoc _ slot roota _ hda, deref]
    simp only [Element._array, get_append_last]
    rw [deref]
  obtain ⟨root1, key1, line1, c1, hs, hl⟩ :=
    hv c cs rest hser he .S_PRE_ELEMENT roota (slot ++ [.index done.length]) (slot :: below)
      key line hdslot
  have hstore : store roota (slot ++ [.index done.length]) x.parsed
      = store root slot (.mk .ARRAY o (done ++ [x.parsed]) s n b) := by
    rw [store_snoc _ _ slot roota _ (.mk .ARRAY o (done ++ [x.parsed]) s n b) hda
      (by
        rw [store]
        simp only [get_append_last]
        rw [store]
        simp only [listSet_append_last])]
    exact store_store _ _ slot root roota hsa
  refine ⟨root1, key1, line1, c1, by rw [← hstore]; exact hs, ?_⟩
  apply leads_of_body c (cs ++ rest) (by rw [hser]; rfl)
  rw [body_state (by exact h47) (by exact hw)]
  simp only
  rw [preElement_item hd h93 hsa]
  exact hl

theorem mapInsert_fresh_slot (k : JString) (o : JObject) (h : mapFind k o = none) :
    mapFind k (mapModify k (fun x => x.assign (Element.ofType .NULL_VALUE)) o)
      = some (Element.ofType .NULL_VALUE) := by
  rw [mapFind_mapModify, h]
  simp only [Option.getD_none, assign_fresh_null]

/-- A value as the value of the entry `key` of the object on top of the stack. -/
theorem member_step {x : Element} {indent : Int} (hv : ValueParses x indent)
    (hr : x.readable = true) (rest : List Nat) (he : endsNumber rest) (root : Element)
    (slot : NodePtr) (below : List NodePtr) (key : JString) (line : Int) (c0 : Nat)
    (done : JObject) (a : JArray) (s : JString) (n : Number) (b : Bool)
    (hd : deref root slot = some (.mk .OBJECT done a s n b))
    (hfresh : mapFind key done = none) :
    ∃ root1 key1 line1 c1,
      store root slot (.mk .OBJECT (mapInsert key x.parsed done) a s n b) = some root1 ∧
      Leads ⟨serialize x indent ++ rest, .S_PRE_ELEMENT, root, slot :: below, key, line, c0⟩
        ⟨rest, .S_POST_ELEMENT, root1, slot :: below, key1, line1, c1⟩ := by
  obtain ⟨c, cs, hser, h47, hw, _⟩ := serialize_head x indent hr
  obtain ⟨roota, hsa⟩ := store_of_deref
    (.mk .OBJECT (mapModify key (fun x => x.assign (Element.ofType .NULL_VALUE)) done) a s n b)
    slot root _ hd
  have hda := deref_store _ slot root roota hsa
  have hdslot : deref roota (slot ++ [.member key]) = some (Element.ofType .NULL_VALUE) := by
    rw [deref_snoc _ slot roota _ hda, deref]
    simp only [Element._object, mapInsert_fresh_slot key done hfresh]
    rw [deref]
  obtain ⟨root1, key1, line1, c1, hs, hl⟩ :=
    hv c cs rest hser he .S_PRE_ELEMENT roota (slot ++ [.member key]) (slot :: below)
      key line hdslot
  have hstore : store roota (slot ++ [.member key]) x.parsed
      = store root slot (.mk .OBJECT (mapInsert key x.parsed done) a s n b) := by
    rw [store_snoc _ _ slot roota _ (.mk .OBJECT (mapInsert key x.parsed done) a s n b) hda
      (by
        rw [store]
        simp only [mapInsert_fresh_slot key done hfresh]
        rw [store]
        rfl)]
    exact store_store _ _ slot root roota hsa
  refine ⟨root1, key1, line1, c1, by rw [← hstore]; exact hs, ?_⟩
  apply leads_of_body c (cs ++ rest) (by rw [hser]; rfl)
  rw [body_state (by exact h47) (by exact hw)]
  simp only
  rw [preElement_member hd hsa]
  exact hl

theorem body_key {s rest : List Nat} {k : JString} {root : Element} {nodes : List NodePtr}
    {key : JString} {line : Int} (h : parseString s line = .ok (k, rest)) :
    body ⟨s, .S_PRE_KEY, root, nodes, key, line, 34⟩
      = .continue_ ⟨rest, .S_PRE_SEP, root, nodes, k, line, 34⟩ := by
  rw [body_state (show (34 : Nat) ≠ 47 by decide) (show isWhite 34 = false by decide)]
  simp [h]

theorem body_key_close (s : List Nat) (root : Element) (nodes : List NodePtr)
    (key : JString) (line : Int) :
    body ⟨s, .S_PRE_KEY, root, nodes, key, line, 125⟩
      = .redo ⟨s, .S_POST_ELEMENT, root, nodes, key, line, 125⟩ := by
  rw [body_state (show (125 : Nat) ≠ 47 by decide) (show isWhite 125 = false by decide)]
  simp

theorem body_sep (s : List Nat) (root : Element) (nodes : List NodePtr)
    (key : JString) (line : Int) :
    body ⟨s, .S_PRE_SEP, root, nodes, key, line, 58⟩
      = .continue_ ⟨s, .S_PRE_ELEMENT, root, nodes, key, line, 58⟩ := by
  rw [body_state (show (58 : Nat) ≠ 47 by decide) (show isWhite 58 = false by decide)]
  simp

theorem body_post (s : List Nat) (root : Element) (nodes : List NodePtr)
    (key : JString) (line : Int) (c : Nat) (h47 : c ≠ 47) (hw : isWhite c = false) :
    body ⟨s, .S_POST_ELEMENT, root, nodes, key, line, c⟩
      = postElement ⟨s, .S_POST_ELEMENT, root, nodes, key, line, c⟩ := by
  rw [body_state (by exact h47) (by exact hw)]

theorem body_pre (s : List Nat) (root : Element) (nodes : List NodePtr)
    (key : JString) (line : Int) (c : Nat) (h47 : c ≠ 47) (hw : isWhite c = false) :
    body ⟨s, .S_PRE_ELEMENT, root, nodes, key, line, c⟩
      = preElement ⟨s, .S_PRE_ELEMENT, root, nodes, key, line, c⟩ := by
  rw [body_state (by exact h47) (by exact hw)]

theorem endsNumber_cons (c : Nat) (r : List Nat) (h : isNumberChar c = false) :
    endsNumber (c :: r) := by
  intro d r1 he
  cases he
  exact h

theorem endsNumber_nil : endsNumber [] := by
  intro d r1 he
  cases he

theorem white_spaces (n : Int) : ∀ c ∈ spaces n, isWhite c = true := by
  intro c hc
  unfold spaces at hc
  rw [List.eq_of_mem_replicate hc]
  rfl

theorem mapFind_mapModify_ne (k k1 : JString) (f : Element → Element) (hne : k1 ≠ k) :
    ∀ (o : JObject), mapFind k1 (mapModify k f o) = mapFind k1 o
  | [] => by
    rw [mapModify, mapFind, mapFind]
    by_cases h1 : strLess k1 k = true
    · simp [h1]
    · by_cases h2 : strLess k k1 = true
      · simp [h1, h2, mapFind]
      · exact absurd (strLess_total k1 k (by simpa using h1) (by simpa using h2)) hne
  | (k2, x) :: rest => by
    rw [mapModify]
    by_cases h1 : strLess k k2 = true
    · simp only [h1, if_true]
      rw [mapFind, mapFind]
      by_cases h3 : strLess k1 k = true
      · have := strLess_trans _ _ _ h3 h1
        simp [h3, this]
      · by_cases h4 : strLess k k1 = true
        · simp [h3, h4, mapFind]
        · exact absurd (strLess_total k1 k (by simpa using h3) (by simpa using h4)) hne
    · by_cases h2 : strLess k2 k = true
      · simp only [h1, h2, if_true, if_false, Bool.false_eq_true]
        rw [mapFind, mapFind, mapFind_mapModify_ne k k1 f hne rest]
      · simp only [h1, h2, if_false, Bool.false_eq_true]
        have hk : k = k2 := strLess_total k k2 (by simpa using h1) (by simpa using h2)
        subst hk
        rw [mapFind, mapFind]
        by_cases h3 : strLess k1 k = true
        · simp [h3]
        · by_cases h4 : strLess k k1 = true
          · simp [h3, h4]
          · exact absurd (strLess_total k1 k (by simpa using h3) (by simpa using h4)) hne

theorem mapFind_mapInsert_ne (k k1 : JString) (v : Element) (hne : k1 ≠ k) (o : JObject) :
    mapFind k1 (mapInsert k v o) = mapFind k1 o := by
  unfold mapInsert
  rw [mapSet_mapModify, mapFind_mapModify_ne k k1 _ hne]

theorem serializeItems_cons (x : Element) (r : List Element) (indent : Int) (rest : List Nat) :
    serializeItems (x :: r) indent ++ rest
      = (if indent < 0 then [] else spaces (indent + 2))
        ++ (serialize x (if indent < 0 then -2 else indent + 2)
        ++ ((if r.isEmpty then [] else [44])
        ++ ((if indent < 0 then [32] else [10])
        ++ (serializeItems r indent ++ rest)))) := by
  rw [serializeItems]
  by_cases h : indent < 0 <;> simp [h, List.append_assoc]

theorem serializeMembers_cons (k : JString) (x : Element) (r : JObject) (last : JString)
    (indent : Int) (rest : List Nat) :
    serializeMembers ((k, x) :: r) last indent ++ rest
      = (if indent < 0 then [] else spaces (indent + 2))
        ++ (34 :: (k ++ (34 :: 58 :: 32 :: (serialize x (if indent < 0 then -2 else indent + 2)
        ++ ((if k ≠ last then [44] else [])
        ++ ((if indent < 0 then [32] else [10])
        ++ (serializeMembers r last indent ++ rest))))))) := by
  rw [serializeMembers]
  have hl : lit "\": " = [34, 58, 32] := rfl
  by_cases h : indent < 0 <;> simp [h, hl, List.append_assoc, spaces]

theorem white_indent (indent : Int) :
    ∀ c ∈ (if indent < 0 then ([] : List Nat) else spaces (indent + 2)), isWhite c = true := by
  intro c hc
  split at hc
  · simp at hc
  · exact white_spaces _ c hc

theorem white_break (indent : Int) :
    ∀ c ∈ (if indent < 0 then [32] else [10] : List Nat), isWhite c = true := by
  intro c hc
  split at hc <;> simp at hc <;> subst hc <;> rfl

theorem endsNumber_tail (b : Bool) (indent : Int) (rest : List Nat) :
    endsNumber ((if b then [] else [44]) ++ ((if indent < 0 then [32] else [10]) ++ rest)) := by
  cases b
  · exact endsNumber_cons _ _ (by decide)
  · by_cases h : indent < 0
    · simp only [h, if_true]; exact endsNumber_cons _ _ (by decide)
    · simp only [h, if_false]; exact endsNumber_cons _ _ (by decide)

/-- The elements of an array are read one after the other. -/
theorem items_cons {x : Element} {r : List Element} {indent : Int}
    (hv : ValueParses x (if indent < 0 then -2 else indent + 2)) (hr : x.readable = true)
    (hrest : r ≠ [] → ItemsParse r indent) : ItemsParse (x :: r) indent := by
  intro rest root slot below key line c0 o done s n b hd
  rw [serializeItems_cons]
  obtain ⟨line1, c1, hw0⟩ := leads_skip_white _ (white_indent indent)
    (serialize x (if indent < 0 then -2 else indent + 2)
      ++ ((if r.isEmpty then [] else [44])
      ++ ((if indent < 0 then [32] else [10]) ++ (serializeItems r indent ++ rest))))
    .S_PRE_ELEMENT root (slot :: below) key line c0
  obtain ⟨root1, key1, line2, c2, hs1, hitem⟩ := item_step hv hr
    ((if r.isEmpty then [] else [44])
      ++ ((if indent < 0 then [32] else [10]) ++ (serializeItems r indent ++ rest)))
    (endsNumber_tail _ _ _) root slot below key line1 c1 o done s n b hd
  have hd1 := deref_store _ slot root root1 hs1
  cases r with
  | nil =>
    obtain ⟨line3, c3, hw1⟩ := leads_skip_white _ (white_break indent) rest
      .S_POST_ELEMENT root1 (slot :: below) key1 line2 c2
    refine ⟨root1, key1, line3, c3, by simpa [parsedItems] using hs1, ?_⟩
    refine hw0.trans (hitem.trans ?_)
    simpa [serializeItems] using hw1
  | cons y ys =>
    obtain ⟨line3, c3, hw1⟩ := leads_skip_white _ (white_break indent)
      (serializeItems (y :: ys) indent ++ rest)
      .S_PRE_ELEMENT root1 (slot :: below) key1 line2 44
    obtain ⟨root2, key2, line4, c4, hs2, hnext⟩ := hrest (List.cons_ne_nil _ _) rest root1 slot
      below key1 line3 c3 o (done ++ [x.parsed]) s n b hd1
    refine ⟨root2, key2, line4, c4, ?_, ?_⟩
    · rw [store_store _ _ slot root root1 hs1] at hs2
      simpa [parsedItems, List.append_assoc] using hs2
    · refine hw0.trans (hitem.trans ?_)
      simp only [List.isEmpty_cons, Bool.false_eq_true, if_false, List.singleton_append]
      apply leads_of_body 44 _ rfl
      rw [body_post _ _ _ _ _ _ (by decide) (by decide), postElement_comma hd1]
      simp only [Element.isArray, Element.type, beq_self_eq_true, if_true]
      exact leadsNext_continue (hw1.trans hnext)

/-- The entries of an object are read one after the other. -/
theorem members_cons {k : JString} {x : Element} {r : JObject} {last : JString} {indent : Int}
    (hk : plainKey k = true)
    (hv : ValueParses x (if indent < 0 then -2 else indent + 2)) (hr : x.readable = true)
    (hdist : ∀ k1 y, (k1, y) ∈ r → k1 ≠ k)
    (hlast1 : r = [] → k = last) (hlast2 : r ≠ [] → k ≠ last)
    (hrest : r ≠ [] → MembersParse r last indent) : MembersParse ((k, x) :: r) last indent := by
  intro rest root slot below key line c0 done a s n b hd hfresh
  rw [serializeMembers_cons]
  obtain ⟨line1, c1, hw0⟩ := leads_skip_white _ (white_indent indent)
    (34 :: (k ++ (34 :: 58 :: 32 :: (serialize x (if indent < 0 then -2 else indent + 2)
      ++ ((if k ≠ last then [44] else [])
      ++ ((if indent < 0 then [32] else [10]) ++ (serializeMembers r last indent ++ rest)))))))
    .S_PRE_KEY root (slot :: below) key line c0
  have hkey : parseString (k ++ (34 :: 58 :: 32 ::
      (serialize x (if indent < 0 then -2 else indent + 2)
      ++ ((if k ≠ last then [44] else [])
      ++ ((if indent < 0 then [32] else [10]) ++ (serializeMembers r last indent ++ rest))))))
      line1 = .ok (k, 58 :: 32 :: (serialize x (if indent < 0 then -2 else indent + 2)
      ++ ((if k ≠ last then [44] else [])
      ++ ((if indent < 0 then [32] else [10])
      ++ (serializeMembers r last indent ++ rest))))) := by
    unfold parseString
    rw [parseStringLoop_plainKey line1 k hk]
    simp
  have hfk : mapFind k done = none := hfresh k x (List.mem_cons_self _ _)
  obtain ⟨root1, key1, line2, c2, hs1, hmem⟩ := member_step hv hr
    ((if k ≠ last then [44] else [])
      ++ ((if indent < 0 then [32] else [10]) ++ (serializeMembers r last indent ++ rest)))
    (by
      have := endsNumber_tail (decide (¬ k ≠ last)) indent
        (serializeMembers r last indent ++ rest)
      by_cases hkl : k = last <;> simpa [hkl] using this)
    root slot below k line1 32 done a s n b hd hfk
  have hd1 := deref_store _ slot root root1 hs1
  have hfront : Leads
      ⟨34 :: (k ++ (34 :: 58 :: 32 :: (serialize x (if indent < 0 then -2 else indent + 2)
        ++ ((if k ≠ last then [44] else [])
        ++ ((if indent < 0 then [32] else [10])
        ++ (serializeMembers r last indent ++ rest)))))),
        .S_PRE_KEY, root, slot :: below, key, line1, c1⟩
      ⟨(if k ≠ last then [44] else [])
        ++ ((if indent < 0 then [32] else [10]) ++ (serializeMembers r last indent ++ rest)),
        .S_POST_ELEMENT, root1, slot :: below, key1, line2, c2⟩ := by
    apply leads_of_body 34 _ rfl
    rw [body_key hkey]
    apply leadsNext_continue
    apply leads_of_body 58 _ rfl
    rw [body_sep]
    apply leadsNext_continue
    apply leads_of_body 32 _ rfl
    rw [body_white (show isWhite 32 = true by decide)]
    apply leadsNext_continue
    exact hmem
  cases r with
  | nil =>
    obtain ⟨line3, c3, hw1⟩ := leads_skip_white _ (white_break indent) rest
      .S_POST_ELEMENT root1 (slot :: below) key1 line2 c2
    refine ⟨root1, key1, line3, c3, by simpa [parsedMembers] using hs1, ?_⟩
    refine hw0.trans (hfront.trans ?_)
    simpa [serializeMembers, hlast1 rfl] using hw1
  | cons q qs =>
    have hne : k ≠ last := hlast2 (List.cons_ne_nil _ _)
    obtain ⟨line3, c3, hw1⟩ := leads_skip_white _ (white_break indent)
      (serializeMembers (q :: qs) last indent ++ rest)
      .S_PRE_KEY root1 (slot :: below) key1 line2 44
    obtain ⟨root2, key2, line4, c4, hs2, hnext⟩ := hrest (List.cons_ne_nil _ _) rest root1 slot
      below key1 line3 c3 (mapInsert k x.parsed done) a s n b hd1
      (by
        intro k1 y hy
        rw [mapFind_mapInsert_ne k k1 _ (hdist k1 y hy)]
        exact hfresh k1 y (List.mem_cons_of_mem _ hy))
    refine ⟨root2, key2, line4, c4, ?_, ?_⟩
    · rw [store_store _ _ slot root root1 hs1] at hs2
      simpa [parsedMembers] using hs2
    · refine hw0.trans (hfront.trans ?_)
      simp only [hne, ne_eq, not_false_eq_true, if_true, List.singleton_append]
      apply leads_of_body 44 _ rfl
      rw [body_post _ _ _ _ _ _ (by decide) (by decide), postElement_comma hd1]
      simp only [Element.isArray, Element.type, beq_iff_eq, reduceCtorEq, if_false]
      exact leadsNext_continue (hw1.trans hnext)

/-- An array: the bracket, its elements, the closing bracket. -/
theorem value_array (o : JObject) (a : JArray) (s : JString) (n : Number) (b : Bool)
    (indent : Int) (hitems : a ≠ [] → ItemsParse a indent) :
    ValueParses (.mk .ARRAY o a s n b) indent := by
  intro c cs rest hser _ st root slot below key line hd
  obtain ⟨roota, hsa⟩ := store_of_deref (.mk .ARRAY [] [] [] Number.zero false) slot root _ hd
  have hda := deref_store _ slot root roota hsa
  rw [serialize] at hser
  simp only [reduceCtorEq, if_false] at hser
  cases a with
  | nil =>
    have hl : lit "[]" = [91, 93] := rfl
    simp only [List.isEmpty_nil, if_true, hl, List.cons.injEq] at hser
    obtain ⟨hc, hcs⟩ := hser
    subst hc hcs
    refine ⟨roota, key, line, 93, by simpa [Element.parsed, parsedItems] using hsa, ?_⟩
    rw [beginValue_array hd (by rw [assign_fresh_array]; exact hsa)]
    apply leadsNext_continue
    apply leads_of_body 93 rest rfl
    rw [body_pre _ _ _ _ _ _ (by decide) (by decide), preElement_close hda]
    apply leadsNext_redo
    rw [body_post _ _ _ _ _ _ (by decide) (by decide), postElement_close_array hda]
    exact leadsNext_continue (Leads.refl _)
  | cons y ys =>
    have hb : '['.toNat = 91 := rfl
    have hb2 : ']'.toNat = 93 := rfl
    have hb3 : ' '.toNat = 32 := rfl
    have hb4 : '\n'.toNat = 10 := rfl
    simp only [List.isEmpty_cons, Bool.false_eq_true, if_false, hb, hb2, hb3, hb4,
      List.singleton_append, List.cons_append, List.cons.injEq] at hser
    obtain ⟨hc, hcs⟩ := hser
    subst hc hcs
    obtain ⟨line1, c1, hw0⟩ := leads_skip_white _ (white_break indent)
      (serializeItems (y :: ys) indent
        ++ ((if indent < 0 then [] else spaces (if indent < 0 then 0 else indent)) ++ (93 :: rest)))
      .S_PRE_ELEMENT roota (slot :: below) key line 91
    obtain ⟨root1, key1, line2, c2, hs1, hit⟩ := hitems (List.cons_ne_nil _ _)
      ((if indent < 0 then [] else spaces (if indent < 0 then 0 else indent)) ++ (93 :: rest))
      roota slot below key line1 c1 [] [] [] Number.zero false hda
    have hd1 := deref_store _ slot roota root1 hs1
    obtain ⟨line3, c3, hw1⟩ := leads_skip_white
      (if indent < 0 then [] else spaces (if indent < 0 then 0 else indent))
      (by
        intro d hdm
        split at hdm
        · simp at hdm
        · exact white_spaces _ d hdm)
      (93 :: rest) .S_POST_ELEMENT root1 (slot :: below) key1 line2 c2
    refine ⟨root1, key1, line3, 93, ?_, ?_⟩
    · rw [store_store _ _ slot root roota hsa] at hs1
      simpa [Element.parsed] using hs1
    · rw [beginValue_array hd (by rw [assign_fresh_array]; exact hsa)]
      apply leadsNext_continue
      have hfin : Leads ⟨93 :: rest, .S_POST_ELEMENT, root1, slot :: below, key1, line3, c3⟩
          ⟨rest, .S_POST_ELEMENT, root1, below, key1, line3, 93⟩ := by
        apply leads_of_body 93 rest rfl
        rw [body_post _ _ _ _ _ _ (by decide) (by decide), postElement_close_array hd1]
        exact leadsNext_continue (Leads.refl _)
      have hall := hw0.trans (hit.trans (hw1.trans hfin))
      simpa [List.append_assoc] using hall

/-- An object: the brace, its entries, the closing brace. -/
theorem value_object (o : JObject) (a : JArray) (s : JString) (n : Number) (b : Bool)
    (indent : Int) (hmembers : o ≠ [] → MembersParse o (lastKey o) indent) :
    ValueParses (.mk .OBJECT o a s n b) indent := by
  intro c cs rest hser _ st root slot below key line hd
  obtain ⟨roota, hsa⟩ := store_of_deref (.mk .OBJECT [] [] [] Number.zero false) slot root _ hd
  have hda := deref_store _ slot root roota hsa
  rw [serialize] at hser
  simp only [reduceCtorEq, if_false, if_true] at hser
  cases o with
  | nil =>
    have hl : lit "\x7b\x7d" = [123, 125] := rfl
    simp only [List.isEmpty_nil, if_true, hl, List.cons.injEq] at hser
    obtain ⟨hc, hcs⟩ := hser
    subst hc hcs
    refine ⟨roota, key, line, 125, by simpa [Element.parsed, parsedMembers] using hsa, ?_⟩
    rw [beginValue_object hd (by rw [assign_fresh_object]; exact hsa)]
    apply leadsNext_continue
    apply leads_of_body 125 rest rfl
    rw [body_key_close]
    apply leadsNext_redo
    rw [body_post _ _ _ _ _ _ (by decide) (by decide), postElement_close_object hda]
    exact leadsNext_continue (Leads.refl _)
  | cons y ys =>
    have hb : '{'.toNat = 123 := rfl
    have hb2 : '}'.toNat = 125 := rfl
    have hb3 : ' '.toNat = 32 := rfl
    have hb4 : '\n'.toNat = 10 := rfl
    simp only [List.isEmpty_cons, Bool.false_eq_true, if_false, hb, hb2, hb3, hb4,
      List.singleton_append, List.cons_append, List.cons.injEq] at hser
    obtain ⟨hc, hcs⟩ := hser
    subst hc hcs
    obtain ⟨line1, c1, hw0⟩ := leads_skip_white _ (white_break indent)
      (serializeMembers (y :: ys) (lastKey (y :: ys)) indent
        ++ (spaces (if indent < 0 then 0 else indent) ++ (125 :: rest)))
      .S_PRE_KEY roota (slot :: below) key line 123
    obtain ⟨root1, key1, line2, c2, hs1, hit⟩ := hmembers (List.cons_ne_nil _ _)
      (spaces (if indent < 0 then 0 else indent) ++ (125 :: rest))
      roota slot below key line1 c1 [] [] [] Number.zero false hda
      (by intro k x _; rfl)
    have hd1 := deref_store _ slot roota root1 hs1
    obtain ⟨line3, c3, hw1⟩ := leads_skip_white
      (spaces (if indent < 0 then 0 else indent)) (white_spaces _)
      (125 :: rest) .S_POST_ELEMENT root1 (slot :: below) key1 line2 c2
    refine ⟨root1, key1, line3, 125, ?_, ?_⟩
    · rw [store_store _ _ slot root roota hsa] at hs1
      simpa [Element.parsed] using hs1
    · rw [beginValue_object hd (by rw [assign_fresh_object]; exact hsa)]
      apply leadsNext_continue
      have hfin : Leads ⟨125 :: rest, .S_POST_ELEMENT, root1, slot :: below, key1, line3, c3⟩
          ⟨rest, .S_POST_ELEMENT, root1, below, key1, line3, 125⟩ := by
        apply leads_of_body 125 rest rfl
        rw [body_post _ _ _ _ _ _ (by decide) (by decide), postElement_close_object hd1]
        exact leadsNext_continue (Leads.refl _)
      have hall := hw0.trans (hit.trans (hw1.trans hfin))
      simpa [List.append_assoc] using hall

theorem readableItems_cons {x : Element} {r : List Element}
    (h : readableItems (x :: r) = true) : x.readable = true ∧ readableItems r = true := by
  rw [readableItems] at h
  simpa using h

theorem readableMembers_cons {k : JString} {x : Element} {r : JObject}
    (h : readableMembers ((k, x) :: r) = true) :
    plainKey k = true ∧ x.readable = true ∧ readableMembers r = true := by
  rw [readableMembers] at h
  simpa [and_assoc] using h

theorem keysDistinct_cons {k : JString} {x : Element} {r : JObject}
    (h : keysDistinct ((k, x) :: r) = true) :
    (∀ k1 y, (k1, y) ∈ r → k1 ≠ k) ∧ keysDistinct r = true := by
  rw [keysDistinct] at h
  simp only [Bool.and_eq_true, List.all_eq_true, bne_iff_ne, ne_eq] at h
  exact ⟨fun k1 y hy => h.1 (k1, y) hy, h.2⟩

mutual
/-- The parser reads the text of every readable value. -/
theorem value_parses : ∀ (x : Element) (indent : Int), x.readable = true →
    ValueParses x indent
  | .mk .NULL_VALUE o a s n b, indent, _ => value_null o a s n b indent
  | .mk .BOOLEAN o a s n b, indent, _ => value_boolean o a s n b indent
  | .mk .STRING o a s n b, indent, hr => value_string o a s n b indent hr
  | .mk .NUMBER o a s n b, indent, hr => value_number o a s n b indent hr
  | .mk .ARRAY o a s n b, indent, hr =>
    value_array o a s n b indent
      (fun hne => items_parse a indent (by simpa [Element.readable] using hr) hne)
  | .mk .OBJECT o a s n b, indent, hr =>
    value_object o a s n b indent
      (fun hne => members_parse o (lastKey o) indent
        (by simp only [Element.readable, Bool.and_eq_true] at hr; exact hr.2)
        (by simp only [Element.readable, Bool.and_eq_true] at hr; exact hr.1) rfl hne)
theorem items_parse : ∀ (xs : List Element) (indent : Int), readableItems xs = true →
    xs ≠ [] → ItemsParse xs indent
  | [], _, _, h => absurd rfl h
  | x :: r, indent, hr, _ =>
    items_cons (value_parses x _ (readableItems_cons hr).1) (readableItems_cons hr).1
      (fun hne => items_parse r indent (readableItems_cons hr).2 hne)
theorem members_parse : ∀ (ms : JObject) (last : JString) (indent : Int),
    readableMembers ms = true → keysDistinct ms = true → last = lastKey ms → ms ≠ [] →
    MembersParse ms last indent
  | [], _, _, _, _, _, h => absurd rfl h
  | [(k, x)], last, indent, hr, _, hl, _ =>
    members_cons (readableMembers_cons hr).1 (value_parses x _ (readableMembers_cons hr).2.1)
      (readableMembers_cons hr).2.1 (fun k1 y hy => by simp at hy)
      (fun _ => by rw [hl]; rfl) (fun h => absurd rfl h) (fun h => absurd rfl h)
  | (k, x) :: (k2, y) :: r, last, indent, hr, hd, hl, _ =>
    members_cons (readableMembers_cons hr).1 (value_parses x _ (readableMembers_cons hr).2.1)
      (readableMembers_cons hr).2.1 (keysDistinct_cons hd).1
      (fun h => by cases h)
      (fun _ => by
        rw [hl, lastKey_cons]
        obtain ⟨z, hz⟩ := lastKey_mem (k2, y) r
        exact fun he => (keysDistinct_cons hd).1 _ z hz he.symm)
      (fun hne => members_parse ((k2, y) :: r) last indent (readableMembers_cons hr).2.2
        (keysDistinct_cons hd).2 (by rw [hl, lastKey_cons]) hne)
end

/-- The root of the document: `deserialize` on the text of a readable value
returns the value the parser builds from it. -/
theorem deserialize_serialize (x : Element) (indent : Int) (hr : x.readable = true) :
    deserialize (serialize x indent) = .value x.parsed := by
  obtain ⟨root1, key1, line1, c1, hs, hl⟩ := root_step (value_parses x indent hr) hr []
    endsNumber_nil (Element.ofType .NULL_VALUE) [] [] [] 1 0 (deref_nil _)
  rw [store] at hs
  cases hs
  have hh : Halts ⟨serialize x indent ++ [], .S_PRE_ELEMENT, Element.ofType .NULL_VALUE, [[]],
      [], 1, 0⟩ (.done ⟨[], .S_POST_ELEMENT, x.parsed, [], key1, line1, c1⟩) :=
    hl _ ⟨1, whileRead_nil 0 _ rfl, by intro h; cases h⟩
  rw [List.append_nil] at hh
  have hw := whileRead_of_halts hh (n := 3 * (serialize x indent).length + 1) (Nat.le_refl _)
  unfold deserialize deserializeStream
  rw [assign_fresh_null, hw]
  simp

/-! ## C2: strings read back -/

/-- C2: for every byte string `s`, `parseString` on the text `serializeString`
writes for `s` behind its opening quote returns `s` and leaves what follows the
closing quote unread, whatever follows; hence `deserialize` on the serialized
text of the String `s`, in either mode, returns the String `s`, which is `==`
to it. -/
theorem string_round_trip (s : JString) (h : IsBytes s) :
    (∀ (rest : List Nat) (line : Int),
      parseString ((serializeString (Element.ofString s)).tail ++ rest) line = .ok (s, rest)) ∧
    (∀ indent : Bool,
      deserialize (serializeToString (Element.ofString s) indent) = .value (Element.ofString s)) ∧
    (Element.ofString s).eq (Element.ofString s) = true := by
  refine ⟨?_, ?_, ?_⟩
  · intro rest line
    have e := parseStringLoop_serializeChars line s h rest [] 0
    simpa [serializeString, Element.ofString, Element._string, parseString] using e
  · intro indent
    have hr : (Element.ofString s).readable = true := by
      simp only [Element.ofString, Element.readable, List.all_eq_true, decide_eq_true_eq]
      exact h
    have e := deserialize_serialize (Element.ofString s) (if indent then 0 else -1) hr
    simpa [serializeToString, Element.ofString, Element.parsed] using e
  · simp [Element.ofString, Element.eq]

/-- C2 at the string of the bytes `0x00`, `"`, `\`, newline, `0x7F`, `0xC4`, `0xFF`
and `a`. -/
theorem string_round_trip_witness :
    (∀ (rest : List Nat) (line : Int),
      parseString ((serializeString (Element.ofString [0, 34, 92, 10, 127, 196, 255, 97])).tail
        ++ rest) line = .ok ([0, 34, 92, 10, 127, 196, 255, 97], rest)) ∧
    (∀ indent : Bool,
      deserialize (serializeToString (Element.ofString [0, 34, 92, 10, 127, 196, 255, 97]) indent)
        = .value (Element.ofString [0, 34, 92, 10, 127, 196, 255, 97])) ∧
    (Element.ofString [0, 34, 92, 10, 127, 196, 255, 97]).eq
      (Element.ofString [0, 34, 92, 10, 127, 196, 255, 97]) = true :=
  string_round_trip [0, 34, 92, 10, 127, 196, 255, 97] (by unfold IsBytes; decide)

/-! ## Entering members in a `std::map` -/

theorem mapInsert_eq (k : JString) (v : Element) (o : JObject) :
    mapInsert k v o = mapModify k (fun _ => v) o := by
  rw [mapInsert, mapSet_mapModify]

theorem keysAscending_iff_pairwise : ∀ (o : JObject),
    keysAscending o = true ↔ o.Pairwise (fun p q => strLess p.1 q.1 = true)
  | [] => by simp [keysAscending]
  | [p] => by simp [keysAscending]
  | (k1, x) :: (k2, y) :: rest => by
    have ih := keysAscending_iff_pairwise ((k2, y) :: rest)
    constructor
    · intro h
      refine List.pairwise_cons.2 ⟨?_, ih.1 (keysAscending_tail h)⟩
      intro q hq
      exact keysAscending_head_lt h q.1 q.2 hq
    · intro h
      obtain ⟨h1, h2⟩ := List.pairwise_cons.1 h
      exact keysAscending_cons (ih.2 h2) (fun k1 y1 hm => h1 (k1, y1) hm)

theorem mapModify_keys_mem (k : JString) (f : Element → Element) : ∀ (o : JObject)
    (q : JString × Element), q ∈ mapModify k f o → q.1 = k ∨ ∃ y, (q.1, y) ∈ o
  | [], q, h => by
    simp only [mapModify, List.mem_singleton] at h
    left; rw [h]
  | (k1, x) :: rest, q, h => by
    rw [mapModify] at h
    by_cases h1 : strLess k k1 = true
    · simp only [h1, if_true] at h
      rcases List.mem_cons.1 h with rfl | h
      · exact Or.inl rfl
      rcases List.mem_cons.1 h with rfl | h
      · exact Or.inr ⟨x, List.mem_cons_self _ _⟩
      · exact Or.inr ⟨q.2, List.mem_cons_of_mem _ h⟩
    · by_cases h2 : strLess k1 k = true
      · simp only [h1, h2, if_true, if_false] at h
        rcases List.mem_cons.1 h with rfl | h
        · exact Or.inr ⟨x, List.mem_cons_self _ _⟩
        · rcases mapModify_keys_mem k f rest q h with e | ⟨y, hy⟩
          · exact Or.inl e
          · exact Or.inr ⟨y, List.mem_cons_of_mem _ hy⟩
      · have hk : k = k1 := strLess_total k k1 (by simpa using h1) (by simpa using h2)
        simp only [h1, h2, if_false] at h
        rcases List.mem_cons.1 h with rfl | h
        · exact Or.inl hk.symm
        · exact Or.inr ⟨q.2, List.mem_cons_of_mem _ h⟩

/-- The expression `object[key]` keeps the keys of a `std::map` in strictly
ascending order. -/
theorem keysAscending_mapModify (k : JString) (f : Element → Element) : ∀ (o : JObject),
    keysAscending o = true → keysAscending (mapModify k f o) = true
  | [], _ => by simp [mapModify, keysAscending]
  | (k1, x) :: rest, h => by
    rw [mapModify]
    by_cases h1 : strLess k k1 = true
    · simp only [h1, if_true]
      refine keysAscending_cons h ?_
      intro k2 y hm
      rcases List.mem_cons.1 hm with e | hin
      · cases e; exact h1
      · exact strLess_trans _ _ _ h1 (keysAscending_head_lt h k2 y hin)
    · by_cases h2 : strLess k1 k = true
      · simp only [h1, h2, if_true, if_false]
        refine keysAscending_cons (keysAscending_mapModify k f rest (keysAscending_tail h)) ?_
        intro k2 y hm
        rcases mapModify_keys_mem k f rest (k2, y) hm with e | ⟨z, hz⟩
        · simp only at e; rw [e]; exact h2
        · exact keysAscending_head_lt h k2 z hz
      · simp only [h1, h2, if_false]
        exact keysAscending_cons (keysAscending_tail h)
          (fun k2 y hm => keysAscending_head_lt h k2 y hm)

theorem wellFormedMembers_mapModify (k : JString) (f : Element → Element)
    (hf : ∀ x, x.wellFormed = true → (f x).wellFormed = true) : ∀ (o : JObject),
    wellFormedMembers o = true → wellFormedMembers (mapModify k f o) = true
  | [], _ => by
    have := hf (Element.ofType .NULL_VALUE) (by decide)
    simp [mapModify, wellFormedMembers, this]
  | (k1, x) :: rest, h => by
    obtain ⟨hx, hrest⟩ := wellFormedMembers_cons h
    have h0 := hf (Element.ofType .NULL_VALUE) (by decide)
    rw [mapModify]
    by_cases h1 : strLess k k1 = true
    · simp [h1, wellFormedMembers, h0, hx, hrest]
    · by_cases h2 : strLess k1 k = true
      · simp [h1, h2, wellFormedMembers, hx, wellFormedMembers_mapModify k f hf rest hrest]
      · simp [h1, h2, wellFormedMembers, hf x hx, hrest]

/-- Entries under different keys can be entered in either order. -/
theorem mapModify_comm (k1 k2 : JString) (v1 v2 : Element) (hne : k1 ≠ k2) : ∀ (o : JObject),
    mapModify k1 (fun _ => v1) (mapModify k2 (fun _ => v2) o)
      = mapModify k2 (fun _ => v2) (mapModify k1 (fun _ => v1) o)
  | [] => by
    simp only [mapModify]
    by_cases h1 : strLess k1 k2 = true
    · have h2 := strLess_asymm _ _ h1
      simp [h1, h2]
    · by_cases h2 : strLess k2 k1 = true
      · simp [h1, h2]
      · exact absurd (strLess_total k1 k2 (by simpa using h1) (by simpa using h2)) hne
  | (k, x) :: rest => by
    have ih := mapModify_comm k1 k2 v1 v2 hne rest
    have tri : ∀ a b : JString, strLess a b = true ∨ strLess b a = true ∨ a = b := by
      intro a b
      by_cases h1 : strLess a b = true
      · exact Or.inl h1
      · by_cases h2 : strLess b a = true
        · exact Or.inr (Or.inl h2)
        · exact Or.inr (Or.inr (strLess_total a b (by simpa using h1) (by simpa using h2)))
    rcases tri k1 k with a1 | a1 | a1 <;> rcases tri k2 k with a2 | a2 | a2 <;>
      rcases tri k1 k2 with a3 | a3 | a3
    all_goals first
      | exact absurd a3 hne
      | (subst a1; subst a2; exact absurd rfl hne)
      | skip
    all_goals
      try subst a1
      try subst a2
      have irr := strLess_irrefl
      try have b1 := strLess_asymm _ _ a1
      try have b2 := strLess_asymm _ _ a2
      try have b3 := strLess_asymm _ _ a3
      try have c1 := strLess_trans _ _ _ a1 a2
      try have c2 := strLess_trans _ _ _ a2 a1
      try have c3 := strLess_trans _ _ _ a3 a2
      try have c4 := strLess_trans _ _ _ a2 a3
      try have c5 := strLess_trans _ _ _ a1 a3
      try have c6 := strLess_trans _ _ _ a3 a1
      simp_all [mapModify]

/-! ## The parser keeps every object store a `std::map` -/

theorem mapFind_mem (k : JString) : ∀ (o : JObject) (c : Element),
    mapFind k o = some c → (k, c) ∈ o
  | [], _, h => by simp [mapFind] at h
  | (k1, x) :: rest, c, h => by
    rw [mapFind] at h
    by_cases h1 : strLess k k1 = true
    · simp [h1] at h
    · by_cases h2 : strLess k1 k = true
      · simp only [h1, h2, if_true, if_false] at h
        exact List.mem_cons_of_mem _ (mapFind_mem k rest c h)
      · have hk : k = k1 := strLess_total k k1 (by simpa using h1) (by simpa using h2)
        simp [h1, h2] at h
        rw [hk, h]
        exact List.mem_cons_self _ _

theorem deref_wellFormed : ∀ (p : NodePtr) (root e : Element), root.wellFormed = true →
    deref root p = some e → e.wellFormed = true
  | [], root, e, hw, h => by
    rw [deref] at h
    cases h
    exact hw
  | .index i :: p, .mk t o a s n b, e, hw, h => by
    rw [deref] at h
    simp only [Element._array] at h
    cases hg : a.get? i with
    | none => simp only [hg] at h; cases h
    | some c =>
      simp only [hg] at h
      exact deref_wellFormed p c e
        (wellFormedItems_mem (wellFormed_mk hw).2.2 c (List.get?_mem hg)) h
  | .member k :: p, .mk t o a s n b, e, hw, h => by
    rw [deref] at h
    simp only [Element._object] at h
    cases hg : mapFind k o with
    | none => simp only [hg] at h; cases h
    | some c =>
      simp only [hg] at h
      exact deref_wellFormed p c e
        (wellFormedMembers_mem (wellFormed_mk hw).2.1 k c (mapFind_mem k o c hg)) h

theorem wellFormedItems_listSet (v : Element) (hv : v.wellFormed = true) :
    ∀ (a : List Element) (i : Nat), wellFormedItems a = true →
      wellFormedItems (listSet a i v) = true
  | [], _, _ => by simp [listSet, wellFormedItems]
  | x :: rest, 0, h => by
    simp [listSet, wellFormedItems, hv, (wellFormedItems_cons h).2]
  | x :: rest, i + 1, h => by
    simp [listSet, wellFormedItems, (wellFormedItems_cons h).1,
      wellFormedItems_listSet v hv rest i (wellFormedItems_cons h).2]

theorem mapSet_keys_mem (k : JString) (v : Element) : ∀ (o : JObject)
    (q : JString × Element), q ∈ mapSet o k v → ∃ y, (q.1, y) ∈ o
  | [], q, h => by simp [mapSet] at h
  | (k1, x) :: rest, q, h => by
    rw [mapSet] at h
    by_cases h1 : strLess k k1 = true
    · simp only [h1, if_true] at h
      exact ⟨q.2, h⟩
    · by_cases h2 : strLess k1 k = true
      · simp only [h1, h2, if_true, if_false] at h
        rcases List.mem_cons.1 h with rfl | h
        · exact ⟨x, List.mem_cons_self _ _⟩
        · obtain ⟨y, hy⟩ := mapSet_keys_mem k v rest q h
          exact ⟨y, List.mem_cons_of_mem _ hy⟩
      · simp only [h1, h2, if_false] at h
        rcases List.mem_cons.1 h with rfl | h
        · exact ⟨x, List.mem_cons_self _ _⟩
        · exact ⟨q.2, List.mem_cons_of_mem _ h⟩

theorem keysAscending_mapSet (k : JString) (v : Element) : ∀ (o : JObject),
    keysAscending o = true → keysAscending (mapSet o k v) = true
  | [], _ => by simp [mapSet, keysAscending]
  | (k1, x) :: rest, h => by
    rw [mapSet]
    by_cases h1 : strLess k k1 = true
    · simpa [h1] using h
    · by_cases h2 : strLess k1 k = true
      · simp only [h1, h2, if_true, if_false]
        refine keysAscending_cons (keysAscending_mapSet k v rest (keysAscending_tail h)) ?_
        intro k2 y hm
        obtain ⟨z, hz⟩ := mapSet_keys_mem k v rest (k2, y) hm
        exact keysAscending_head_lt h k2 z hz
      · simp only [h1, h2, if_false]
        exact keysAscending_cons (keysAscending_tail h)
          (fun k2 y hm => keysAscending_head_lt h k2 y hm)

theorem wellFormedMembers_mapSet (k : JString) (v : Element) (hv : v.wellFormed = true) :
    ∀ (o : JObject), wellFormedMembers o = true → wellFormedMembers (mapSet o k v) = true
  | [], _ => by simp [mapSet, wellFormedMembers]
  | (k1, x) :: rest, h => by
    obtain ⟨hx, hrest⟩ := wellFormedMembers_cons h
    rw [mapSet]
    by_cases h1 : strLess k k1 = true
    · simpa [h1] using h
    · by_cases h2 : strLess k1 k = true
      · simp [h1, h2, wellFormedMembers, hx, wellFormedMembers_mapSet k v hv rest hrest]
      · simp [h1, h2, wellFormedMembers, hv, hrest]

theorem store_wellFormed (v : Element) (hv : v.wellFormed = true) :
    ∀ (p : NodePtr) (root r1 : Element), root.wellFormed = true →
      store root p v = some r1 → r1.wellFormed = true
  | [], root, r1, _, h => by
    rw [store] at h
    cases h
    exact hv
  | .index i :: p, .mk t o a s n b, r1, hw, h => by
    rw [store] at h
    obtain ⟨hk, hm, hi⟩ := wellFormed_mk hw
    cases hg : a.get? i with
    | none => simp only [hg] at h; cases h
    | some c =>
      simp only [hg] at h
      cases hs : store c p v with
      | none => simp only [hs] at h; cases h
      | some c1 =>
        simp only [hs, Option.some.injEq] at h
        have hc1 := store_wellFormed v hv p c c1 (wellFormedItems_mem hi c (List.get?_mem hg)) hs
        rw [← h, Element.wellFormed, hk, hm, wellFormedItems_listSet c1 hc1 a i hi]
        rfl
  | .member k :: p, .mk t o a s n b, r1, hw, h => by
    rw [store] at h
    obtain ⟨hk, hm, hi⟩ := wellFormed_mk hw
    cases hg : mapFind k o with
    | none => simp only [hg] at h; cases h
    | some c =>
      simp only [hg] at h
      cases hs : store c p v with
      | none => simp only [hs] at h; cases h
      | some c1 =>
        simp only [hs, Option.some.injEq] at h
        have hc1 := store_wellFormed v hv p c c1
          (wellFormedMembers_mem hm k c (mapFind_mem k o c hg)) hs
        rw [← h, Element.wellFormed, keysAscending_mapSet k c1 o hk,
          wellFormedMembers_mapSet k c1 hc1 o hm, hi]
        rfl

theorem assign_ofType_wellFormed (el : Element) (t : ElemType) :
    (el.assign (Element.ofType t)).wellFormed = true := by
  cases t <;> rfl

theorem assign_ofBool_wellFormed (el : Element) (b : Bool) :
    (el.assign (Element.ofBool b)).wellFormed = true := by
  rfl

theorem parsePrimitive_wellFormed (stream : List Nat) (first : Nat) (el : Element) (line : Int)
    (hw : el.wellFormed = true) : (parsePrimitive stream first el line).1.wellFormed = true := by
  unfold parsePrimitive
  split
  · split
    · exact hw
    · exact assign_ofType_wellFormed el .NULL_VALUE
  · split
    · split
      · exact hw
      · exact assign_ofBool_wellFormed el _
    · split
      · split
        · exact hw
        · exact assign_ofBool_wellFormed el _
      · split
        · have e : el.assign (Element.ofType .STRING)
              = .mk .STRING [] [] [] Number.zero false := by
            simp [Element.ofType, Element.assign]
          rw [e]
          cases parseString stream line with
          | error e => rfl
          | ok r => rfl
        · split
          · have e : el.assign (Element.ofType .NUMBER)
                = .mk .NUMBER [] [] [] Number.zero false := by
              simp [Element.ofType, Element.assign]
            rw [e]
            rfl
          · exact hw

theorem beginValue_wellFormed (p : Parser) (hw : p.root.wellFormed = true) :
    (beginValue p).wellFormed = true := by
  unfold beginValue
  cases hn : p.nodes with
  | nil => rfl
  | cons top below =>
    simp only
    cases hd : deref p.root top with
    | none => rfl
    | some el =>
      have hel := deref_wellFormed top p.root el hw hd
      simp only
      split
      · cases hs : store p.root top (el.assign (Element.ofType .ARRAY)) with
        | none => rfl
        | some r1 =>
          exact store_wellFormed _ (assign_ofType_wellFormed _ _) top p.root r1 hw hs
      · split
        · cases hs : store p.root top (el.assign (Element.ofType .OBJECT)) with
          | none => rfl
          | some r1 =>
            exact store_wellFormed _ (assign_ofType_wellFormed _ _) top p.root r1 hw hs
        · have hp := parsePrimitive_wellFormed p.stream p.in_
            (el.assign (Element.ofType .NULL_VALUE)) p.line (assign_ofType_wellFormed _ _)
          rcases hpp : parsePrimitive p.stream p.in_ (el.assign (Element.ofType .NULL_VALUE))
            p.line with ⟨el1, r⟩
          rw [hpp] at hp
          simp only at hp
          cases r with
          | error e =>
            simp only
            cases hs : store p.root top el1 with
            | none => rfl
            | some r1 => exact store_wellFormed _ hp top p.root r1 hw hs
          | ok q =>
            obtain ⟨extra, rest⟩ := q
            simp only
            cases hs : store p.root top el1 with
            | none => rfl
            | some r1 => exact store_wellFormed _ hp top p.root r1 hw hs

theorem wellFormedItems_append_fresh : ∀ (a : List Element), wellFormedItems a = true →
    wellFormedItems (a ++ [Element.copy (Element.ofType .NULL_VALUE)]) = true
  | [], _ => rfl
  | x :: rest, h => by
    rw [List.cons_append, wellFormedItems, (wellFormedItems_cons h).1,
      wellFormedItems_append_fresh rest (wellFormedItems_cons h).2]
    rfl

theorem preElement_wellFormed (p : Parser) (hw : p.root.wellFormed = true) :
    (preElement p).wellFormed = true := by
  unfold preElement
  cases hn : p.nodes with
  | nil => rfl
  | cons top below =>
    simp only
    cases hd : deref p.root top with
    | none => rfl
    | some el =>
      have hel := deref_wellFormed top p.root el hw hd
      obtain ⟨t, o, a, s, n, b⟩ := el
      obtain ⟨hk, hm, hi⟩ := wellFormed_mk hel
      simp only
      split
      · exact beginValue_wellFormed p hw
      · split
        · split
          · exact hw
          · cases hs : store p.root top
                (.mk t o (a ++ [Element.copy (Element.ofType .NULL_VALUE)]) s n b) with
            | none => rfl
            | some r1 =>
              refine beginValue_wellFormed _ ?_
              refine store_wellFormed _ ?_ top p.root r1 hw hs
              rw [Element.wellFormed, hk, hm, wellFormedItems_append_fresh a hi]
              rfl
        · split
          · cases hs : store p.root top
                (.mk t (mapModify p.key (fun x => x.assign (Element.ofType .NULL_VALUE)) o)
                  a s n b) with
            | none => rfl
            | some r1 =>
              refine beginValue_wellFormed _ ?_
              refine store_wellFormed _ ?_ top p.root r1 hw hs
              rw [Element.wellFormed, keysAscending_mapModify _ _ o hk,
                wellFormedMembers_mapModify _ _ (fun x _ => assign_ofType_wellFormed x _) o hm, hi]
              rfl
          · exact beginValue_wellFormed p hw

theorem postElement_wellFormed (p : Parser) (hw : p.root.wellFormed = true) :
    (postElement p).wellFormed = true := by
  unfold postElement
  cases hn : p.nodes with
  | nil => exact hw
  | cons top below =>
    simp only
    cases hd : deref p.root top with
    | none => rfl
    | some el =>
      simp only
      repeat' split
      all_goals exact hw

theorem body_wellFormed (p : Parser) (hw : p.root.wellFormed = true) :
    (body p).wellFormed = true := by
  unfold body
  split
  · cases skipLineComment p.stream p.line with
    | error e => exact hw
    | ok r => exact hw
  · have hq : (if p.in_ = '\n'.toNat ∨ p.in_ = '\r'.toNat then { p with line := p.line + 1 }
        else p).root.wellFormed = true := by
      split <;> exact hw
    simp only
    generalize (if p.in_ = '\n'.toNat ∨ p.in_ = '\r'.toNat then { p with line := p.line + 1 }
        else p) = q at hq
    split
    · exact hq
    · cases q.state with
      | S_PRE_ELEMENT => exact preElement_wellFormed q hq
      | S_POST_ELEMENT => exact postElement_wellFormed q hq
      | S_PRE_SEP =>
        simp only
        split <;> exact hq
      | S_PRE_KEY =>
        simp only
        split
        · cases parseString q.stream q.line with
          | error e => exact hq
          | ok r => exact hq
        · split <;> exact hq

theorem run_wellFormed : ∀ (fuel : Nat) (p : Parser), p.root.wellFormed = true →
    (whileRead fuel p).wellFormed = true ∧ (redo fuel p).wellFormed = true
  | 0, p, _ => ⟨by rw [whileRead]; rfl, by rw [redo]; rfl⟩
  | fuel + 1, p, hw => by
    constructor
    · rw [whileRead]
      cases hst : p.stream with
      | nil => exact hw
      | cons c rest => exact (run_wellFormed fuel { p with in_ := c, stream := rest } hw).2
    · rw [redo]
      have hb := body_wellFormed p hw
      cases hbody : body p with
      | continue_ q =>
        rw [hbody] at hb
        exact (run_wellFormed fuel q hb).1
      | redo q =>
        rw [hbody] at hb
        exact (run_wellFormed fuel q hb).2
      | throw e q =>
        rw [hbody] at hb
        exact hb
      | undefined => rfl

/-- Every object store of a value `deserialize` returns is a `std::map`: its keys
are in strictly ascending order, whatever the order of the members in the text. -/
theorem deserialize_wellFormed (s : JString) (D : Element) (h : deserialize s = .value D) :
    D.wellFormed = true := by
  unfold deserialize deserializeStream at h
  have hw := (run_wellFormed (3 * s.length + 1)
    { stream := s, state := .S_PRE_ELEMENT,
      root := (Element.ofType .NULL_VALUE).assign (Element.ofType .NULL_VALUE), nodes := [[]],
      key := [], line := 1, in_ := 0 } (by rfl)).1
  cases hr : whileRead (3 * s.length + 1)
    { stream := s, state := .S_PRE_ELEMENT,
      root := (Element.ofType .NULL_VALUE).assign (Element.ofType .NULL_VALUE), nodes := [[]],
      key := [], line := 1, in_ := 0 } with
  | done p =>
    rw [hr] at hw h
    by_cases hc : p.state = .S_POST_ELEMENT ∧ p.nodes = []
    · simp only [hc, and_self, not_true_eq_false, if_false, ParseResult.value.injEq] at h
      rw [← h]
      exact hw
    · simp [hc] at h
  | throw e q => rw [hr] at h; cases h
  | undefined => rw [hr] at h; cases h
  | outOfFuel => rw [hr] at h; cases h

/-! ## The map the parser builds from the members of an object -/

/-- The order in which members with distinct keys are entered does not matter. -/
theorem parsedMembers_perm {l1 l2 : JObject} (hp : l1.Perm l2) :
    (l1.map Prod.fst).Nodup → ∀ acc, parsedMembers l1 acc = parsedMembers l2 acc := by
  induction hp with
  | nil => intro _ _; rfl
  | @cons p l1 l2 _ ih =>
    intro hn acc
    obtain ⟨k, x⟩ := p
    rw [parsedMembers, parsedMembers]
    exact ih (List.nodup_cons.1 hn).2 _
  | swap p q l =>
    intro hn acc
    obtain ⟨k1, x⟩ := p
    obtain ⟨k2, y⟩ := q
    have hne : k2 ≠ k1 := by
      intro e
      have := (List.nodup_cons.1 hn).1
      simp [e] at this
    rw [parsedMembers, parsedMembers, parsedMembers, parsedMembers, mapInsert_eq, mapInsert_eq,
      mapInsert_eq, mapInsert_eq, mapModify_comm k2 k1 _ _ hne]
  | @trans l1 l2 l3 h1 _ ih1 ih2 =>
    intro hn acc
    rw [ih1 hn acc, ih2 (((h1.map Prod.fst).nodup_iff).1 hn) acc]

theorem keysDistinct_nodup : ∀ (o : JObject), keysDistinct o = true → (o.map Prod.fst).Nodup
  | [], _ => by simp
  | (k, x) :: rest, h => by
    obtain ⟨h1, h2⟩ := keysDistinct_cons h
    rw [List.map_cons, List.nodup_cons]
    refine ⟨?_, keysDistinct_nodup rest h2⟩
    intro hm
    obtain ⟨q, hq, e⟩ := List.mem_map.1 hm
    exact h1 q.1 q.2 hq e

theorem mapModify_append_last (k : JString) (f : Element → Element) : ∀ (acc : JObject),
    (∀ q ∈ acc, strLess q.1 k = true) →
    mapModify k f acc = acc ++ [(k, f (Element.ofType .NULL_VALUE))]
  | [], _ => by simp [mapModify]
  | (k1, x) :: rest, h => by
    have h1 : strLess k1 k = true := h (k1, x) (List.mem_cons_self _ _)
    have h2 := strLess_asymm _ _ h1
    rw [mapModify, mapModify_append_last k f rest (fun q hq => h q (List.mem_cons_of_mem _ hq))]
    simp [h1, h2]

/-- From the members of a `std::map`, in its order, the parser builds the map of
the same keys. -/
theorem parsedMembers_ascending : ∀ (o acc : JObject),
    ((acc ++ o).map Prod.fst).Pairwise (fun a b => strLess a b = true) →
    parsedMembers o acc = acc ++ parsedEntries o
  | [], acc, _ => by simp [parsedMembers, parsedEntries]
  | (k, x) :: rest, acc, h => by
    have hlt : ∀ q ∈ acc, strLess q.1 k = true := by
      intro q hq
      rw [List.map_append, List.pairwise_append] at h
      exact h.2.2 q.1 (List.mem_map_of_mem _ hq) k (by simp)
    rw [parsedMembers, mapInsert_eq, mapModify_append_last k _ acc hlt,
      parsedMembers_ascending rest (acc ++ [(k, x.parsed)]) (by simpa using h)]
    simp [parsedEntries]

theorem keysAscending_keys (o : JObject) (h : keysAscending o = true) :
    (o.map Prod.fst).Pairwise (fun a b => strLess a b = true) := by
  rw [List.pairwise_map]
  exact (keysAscending_iff_pairwise o).1 h

theorem parsed_object (o : JObject) (a : JArray) (s : JString) (n : Number) (b : Bool)
    (h : keysAscending o = true) :
    (Element.mk .OBJECT o a s n b).parsed
      = .mk .OBJECT (parsedEntries o) [] [] Number.zero false := by
  rw [Element.parsed, parsedMembers_ascending o [] (by simpa using keysAscending_keys o h)]
  rfl

theorem number_eq_refl (n : Number) (h : n.isfinite = true) : n.eq n = true := by
  cases n with
  | finite s m e => simp [Number.eq]
  | infinite s => simp [Number.isfinite] at h
  | nan => simp [Number.isfinite] at h

/-! ## The value read back, compared with the value written -/

mutual
theorem parsed_eq : ∀ (x : Element), x.wellFormed = true →
    x.allNumbers numberReadsBack = true → x.parsed.eq x = true
  | .mk t o a s n b, hw, hn => by
    obtain ⟨hk, hm, hi⟩ := wellFormed_mk hw
    cases t with
    | NULL_VALUE => simp [Element.parsed, Element.eq]
    | BOOLEAN => simp [Element.parsed, Element.eq]
    | STRING => simp [Element.parsed, Element.eq]
    | NUMBER =>
      have h : numberReadsBack n = true := by simpa [Element.allNumbers] using hn
      simpa [Element.parsed, Element.eq, numberReadsBack] using h
    | ARRAY =>
      have ha := parsedItems_eq a hi (by simpa [Element.allNumbers] using hn)
      simpa [Element.parsed, Element.eq] using ha
    | OBJECT =>
      have ho := parsedEntries_eq o hm (by simpa [Element.allNumbers] using hn)
      rw [parsed_object o a s n b hk]
      simpa [Element.eq] using ho
theorem parsedItems_eq : ∀ (xs : List Element), wellFormedItems xs = true →
    allNumbersItems numberReadsBack xs = true → Element.eqArray (parsedItems xs) xs = true
  | [], _, _ => by simp [parsedItems, Element.eqArray]
  | x :: rest, hw, hn => by
    rw [allNumbersItems, Bool.and_eq_true] at hn
    rw [parsedItems, Element.eqArray, parsed_eq x (wellFormedItems_cons hw).1 hn.1,
      parsedItems_eq rest (wellFormedItems_cons hw).2 hn.2]
    rfl
theorem parsedEntries_eq : ∀ (ms : JObject), wellFormedMembers ms = true →
    allNumbersMembers numberReadsBack ms = true → Element.eqObject (parsedEntries ms) ms = true
  | [], _, _ => by simp [parsedEntries, Element.eqObject]
  | (k, x) :: rest, hw, hn => by
    rw [allNumbersMembers, Bool.and_eq_true] at hn
    have h1 := parsed_eq x (wellFormedMembers_cons hw).1 hn.1
    have h2 := parsedEntries_eq rest (wellFormedMembers_cons hw).2 hn.2
    rw [parsedEntries] at h2 ⊢
    rw [List.map_cons, Element.eqObject, h1, h2]
    simp
end

theorem parsedItems_isEmpty (xs : List Element) : (parsedItems xs).isEmpty = xs.isEmpty := by
  cases xs <;> simp [parsedItems]

theorem lastKey_parsedEntries : ∀ (ms : JObject), lastKey (parsedEntries ms) = lastKey ms
  | [] => rfl
  | [(k, x)] => rfl
  | p :: q :: rest => by
    have ih := lastKey_parsedEntries (q :: rest)
    rw [parsedEntries] at ih ⊢
    rw [List.map_cons] at ih
    rw [List.map_cons, List.map_cons, lastKey_cons, lastKey_cons, ih]

mutual
theorem serialize_parsed : ∀ (x : Element) (indent : Int), x.wellFormed = true →
    x.readable = true → x.allNumbers numberReprints = true →
    serialize x.parsed indent = serialize x indent
  | .mk t o a s n b, indent, hw, hr, hn => by
    obtain ⟨hk, hm, hi⟩ := wellFormed_mk hw
    cases t with
    | NULL_VALUE => simp [Element.parsed, serialize]
    | BOOLEAN => simp [Element.parsed, serialize]
    | STRING => simp [Element.parsed, serialize, serializeString, Element._string]
    | NUMBER =>
      have h : numberReprints n = true := by simpa [Element.allNumbers] using hn
      have hf : n.isfinite = true := by
        have h2 : numberReads n = true := by simpa [Element.readable] using hr
        exact (numberReads_parts n h2).1
      simp only [numberReprints, Bool.and_eq_true, decide_eq_true_eq] at h
      simp [Element.parsed, serialize, h.1, h.2, hf]
    | ARRAY =>
      have ha := serializeItems_parsed a indent hi (by simpa [Element.readable] using hr)
        (by simpa [Element.allNumbers] using hn)
      simp [Element.parsed, serialize, ha, parsedItems_isEmpty]
    | OBJECT =>
      have hro : readableMembers o = true := by
        have := hr
        simp only [Element.readable, Bool.and_eq_true] at this
        exact this.2
      have ho := serializeMembers_parsed o (lastKey o) indent hm hro
        (by simpa [Element.allNumbers] using hn)
      rw [parsed_object o a s n b hk]
      have he : (parsedEntries o).isEmpty = o.isEmpty := by cases o <;> simp [parsedEntries]
      simp [serialize, ho, he, lastKey_parsedEntries]
theorem serializeItems_parsed : ∀ (xs : List Element) (indent : Int),
    wellFormedItems xs = true → readableItems xs = true →
    allNumbersItems numberReprints xs = true →
    serializeItems (parsedItems xs) indent = serializeItems xs indent
  | [], _, _, _, _ => by simp [parsedItems]
  | x :: rest, indent, hw, hr, hn => by
    rw [allNumbersItems, Bool.and_eq_true] at hn
    rw [parsedItems, serializeItems, serializeItems,
      serialize_parsed x _ (wellFormedItems_cons hw).1 (readableItems_cons hr).1 hn.1,
      serializeItems_parsed rest indent (wellFormedItems_cons hw).2 (readableItems_cons hr).2 hn.2,
      parsedItems_isEmpty]
theorem serializeMembers_parsed : ∀ (ms : JObject) (last : JString) (indent : Int),
    wellFormedMembers ms = true → readableMembers ms = true →
    allNumbersMembers numberReprints ms = true →
    serializeMembers (parsedEntries ms) last indent = serializeMembers ms last indent
  | [], _, _, _, _, _ => by simp [parsedEntries]
  | (k, x) :: rest, last, indent, hw, hr, hn => by
    rw [allNumbersMembers, Bool.and_eq_true] at hn
    have h1 := serialize_parsed x (if indent < 0 then -2 else indent + 2)
      (wellFormedMembers_cons hw).1 (readableMembers_cons hr).2.1 hn.1
    have h2 := serializeMembers_parsed rest last indent (wellFormedMembers_cons hw).2
      (readableMembers_cons hr).2.2 hn.2
    rw [parsedEntries] at h2 ⊢
    rw [List.map_cons, serializeMembers, serializeMembers, h1, h2]
end

/-! ## What `deserialize` returns is equal to itself -/

theorem stod_finite (t : List Nat) (v : Number) (r : Nat) (h : stod t = .ok v r) :
    v.isfinite = true := by
  unfold stod at h
  conv at h => lhs; zeta
  split at h
  split at h
  split at h
  · cases h
  · split at h
    split at h
    · cases h; rfl
    · split at h
      · cases h; rfl
      · cases h

theorem reread_finite (n : Number) (h : numberReads n = true) : (reread n).isfinite = true := by
  simp only [numberReads, Bool.and_eq_true, decide_eq_true_eq] at h
  exact stod_finite _ _ _ h.2

theorem allNumbersMembers_mapModify (P : Number → Bool) (k : JString) (v : Element)
    (hv : v.allNumbers P = true) : ∀ (o : JObject), allNumbersMembers P o = true →
    allNumbersMembers P (mapModify k (fun _ => v) o) = true
  | [], _ => by simp [mapModify, allNumbersMembers, hv]
  | (k1, x) :: rest, h => by
    rw [allNumbersMembers, Bool.and_eq_true] at h
    rw [mapModify]
    by_cases h1 : strLess k k1 = true
    · simp [h1, allNumbersMembers, hv, h.1, h.2]
    · by_cases h2 : strLess k1 k = true
      · simp [h1, h2, allNumbersMembers, h.1, allNumbersMembers_mapModify P k v hv rest h.2]
      · simp [h1, h2, allNumbersMembers, hv, h.2]

mutual
theorem parsed_finite : ∀ (x : Element), x.readable = true →
    x.parsed.allNumbers Number.isfinite = true
  | .mk t o a s n b, hr => by
    cases t with
    | NULL_VALUE => simp [Element.parsed, Element.allNumbers]
    | BOOLEAN => simp [Element.parsed, Element.allNumbers]
    | STRING => simp [Element.parsed, Element.allNumbers]
    | NUMBER =>
      have h : numberReads n = true := by simpa [Element.readable] using hr
      simpa [Element.parsed, Element.allNumbers] using reread_finite n h
    | ARRAY =>
      have ha := parsedItems_finite a (by simpa [Element.readable] using hr)
      simpa [Element.parsed, Element.allNumbers] using ha
    | OBJECT =>
      have hro : readableMembers o = true := by
        have := hr
        simp only [Element.readable, Bool.and_eq_true] at this
        exact this.2
      have ho := parsedMembers_finite o [] hro rfl
      simpa [Element.parsed, Element.allNumbers] using ho
theorem parsedItems_finite : ∀ (xs : List Element), readableItems xs = true →
    allNumbersItems Number.isfinite (parsedItems xs) = true
  | [], _ => by simp [parsedItems, allNumbersItems]
  | x :: rest, hr => by
    rw [parsedItems, allNumbersItems, parsed_finite x (readableItems_cons hr).1,
      parsedItems_finite rest (readableItems_cons hr).2]
    rfl
theorem parsedMembers_finite : ∀ (ms acc : JObject), readableMembers ms = true →
    allNumbersMembers Number.isfinite acc = true →
    allNumbersMembers Number.isfinite (parsedMembers ms acc) = true
  | [], acc, _, h => by simpa [parsedMembers] using h
  | (k, x) :: rest, acc, hr, h => by
    rw [parsedMembers, mapInsert_eq]
    exact parsedMembers_finite rest _ (readableMembers_cons hr).2.2
      (allNumbersMembers_mapModify _ k _ (parsed_finite x (readableMembers_cons hr).2.1) acc h)
end

mutual
theorem eq_self : ∀ (x : Element), x.allNumbers Number.isfinite = true → x.eq x = true
  | .mk t o a s n b, h => by
    cases t with
    | NULL_VALUE => simp [Element.eq]
    | BOOLEAN => simp [Element.eq]
    | STRING => simp [Element.eq]
    | NUMBER =>
      have hf : n.isfinite = true := by simpa [Element.allNumbers] using h
      simpa [Element.eq] using number_eq_refl n hf
    | ARRAY =>
      have ha := eqArray_self a (by simpa [Element.allNumbers] using h)
      simpa [Element.eq] using ha
    | OBJECT =>
      have ho := eqObject_self o (by simpa [Element.allNumbers] using h)
      simpa [Element.eq] using ho
theorem eqArray_self : ∀ (xs : List Element), allNumbersItems Number.isfinite xs = true →
    Element.eqArray xs xs = true
  | [], _ => by simp [Element.eqArray]
  | x :: rest, h => by
    rw [allNumbersItems, Bool.and_eq_true] at h
    rw [Element.eqArray, eq_self x h.1, eqArray_self rest h.2]
    rfl
theorem eqObject_self : ∀ (ms : JObject), allNumbersMembers Number.isfinite ms = true →
    Element.eqObject ms ms = true
  | [], _ => by simp [Element.eqObject]
  | (k, x) :: rest, h => by
    rw [allNumbersMembers, Bool.and_eq_true] at h
    rw [Element.eqObject, eq_self x h.1, eqObject_self rest h.2]
    simp
end

/-! ## The entries of the map the parser builds -/

theorem mapModify_perm (k : JString) (v : Element) : ∀ (acc : JObject),
    (∀ q ∈ acc, q.1 ≠ k) → (mapModify k (fun _ => v) acc).Perm ((k, v) :: acc)
  | [], _ => by simp [mapModify]
  | (k1, x) :: rest, h => by
    have hne : k1 ≠ k := h (k1, x) (List.mem_cons_self _ _)
    rw [mapModify]
    by_cases h1 : strLess k k1 = true
    · simp [h1]
    · by_cases h2 : strLess k1 k = true
      · simp only [h1, h2, if_true, if_false]
        exact ((mapModify_perm k v rest
          (fun q hq => h q (List.mem_cons_of_mem _ hq))).cons (k1, x)).trans
            (List.Perm.swap _ _ _)
      · exact absurd (strLess_total k k1 (by simpa using h1) (by simpa using h2)).symm hne

/-- The map built from members with distinct keys holds exactly these members. -/
theorem parsedMembers_entries : ∀ (ms acc : JObject), (ms.map Prod.fst).Nodup →
    (∀ q ∈ acc, ∀ p ∈ ms, q.1 ≠ p.1) →
    (parsedMembers ms acc).Perm (acc ++ parsedEntries ms)
  | [], acc, _, _ => by simp [parsedMembers, parsedEntries]
  | (k, x) :: rest, acc, hn, hd => by
    rw [List.map_cons, List.nodup_cons] at hn
    have hacc : ∀ q ∈ acc, q.1 ≠ k := fun q hq => hd q hq (k, x) (List.mem_cons_self _ _)
    have hp := mapModify_perm k x.parsed acc hacc
    have hd1 : ∀ q ∈ mapModify k (fun _ => x.parsed) acc, ∀ p ∈ rest, q.1 ≠ p.1 := by
      intro q hq p hpm
      rcases List.mem_cons.1 (hp.mem_iff.1 hq) with e | hin
      · rw [e]
        intro e2
        exact hn.1 (by rw [e2]; exact List.mem_map_of_mem _ hpm)
      · exact hd q hin p (List.mem_cons_of_mem _ hpm)
    rw [parsedMembers, mapInsert_eq]
    refine (parsedMembers_entries rest _ hn.2 hd1).trans ?_
    refine (List.Perm.append_right _ hp).trans ?_
    simp only [parsedEntries, List.map_cons, List.cons_append]
    exact (List.perm_middle).symm

/-! ## C1: the round trip -/

/-- C1 fails as stated: `deserialize` returns for the text `0.1234567` a Number
that `serialize` writes as `0.123457`, the six significant digits of the
stream's default precision, and that text reads back as a Number which is
not `==` to it. -/
theorem document_round_trip_counterexample :
    deserialize (lit "0.1234567")
      = .value (Element.ofNumber (.finite false 4447996384931129 (-55))) ∧
    serializeToString (Element.ofNumber (.finite false 4447996384931129 (-55))) false
      = lit "0.123457" ∧
    deserialize (serializeToString (Element.ofNumber (.finite false 4447996384931129 (-55))) false)
      = .value (Element.ofNumber (.finite false 8896014387140469 (-56))) ∧
    (Element.ofNumber (.finite false 8896014387140469 (-56))).eq
      (Element.ofNumber (.finite false 4447996384931129 (-55))) = false := by
  refine ⟨?_, ?_, ?_, ?_⟩ <;> decide!

/-- C1 (amended): for every value `D` that `deserialize` returns for some text,
whose strings are byte strings, whose object keys hold no double quote, no
backslash and no control byte, and whose numbers are printed as a text that
`std::stod` reads in full as a number `==` to the number printed:
`deserialize` on the compact and on the indented text of `D` returns a value
that is `==` to `D`. -/
theorem document_round_trip (s : JString) (D : Element) (indent : Bool)
    (hp : deserialize s = .value D) (hr : D.readable = true)
    (hn : D.allNumbers numberReadsBack = true) :
    ∃ D1, deserialize (serializeToString D indent) = .value D1 ∧ D1.eq D = true :=
  ⟨D.parsed, deserialize_serialize D _ hr, parsed_eq D (deserialize_wellFormed s D hp) hn⟩

/-- C1 (amended) at the value of `{"b": [1.5, "x\n", null], "a": true}`, written
with indentation. -/
theorem document_round_trip_witness :
    deserialize (lit "\x7b\"b\": [1.5, \"x\\n\", null], \"a\": true\x7d") = .value sampleParsed ∧
    sampleParsed.readable = true ∧ sampleParsed.allNumbers numberReadsBack = true ∧
    ∃ D1, deserialize (serializeToString sampleParsed true) = .value D1 ∧
      D1.eq sampleParsed = true :=
  ⟨by decide!, by decide!, by decide!,
    document_round_trip (lit "\x7b\"b\": [1.5, \"x\\n\", null], \"a\": true\x7d") sampleParsed true
      (by decide!) (by decide!) (by decide!)⟩

/-! ## C3: serializing what was read back -/

/-- C3 fails as stated: `deserialize` returns for the text `2.2250738585072014e-308`
the smallest normal double, `serialize` writes it as `2.22507e-308`, and on
that text `std::stod` reports a range error, which `parseNumber` turns into a
`SyntaxError`: there is no value to serialize again. -/
theorem reserialize_counterexample :
    deserialize (lit "2.2250738585072014e-308")
      = .value (Element.ofNumber (.finite false 1 (-1022))) ∧
    serializeToString (Element.ofNumber (.finite false 1 (-1022))) false = lit "2.22507e-308" ∧
    deserialize (serializeToString (Element.ofNumber (.finite false 1 (-1022))) false)
      = .syntaxError ⟨"Failed to parse number, value out of range", 1, 50⟩ := by
  refine ⟨?_, ?_, ?_⟩ <;> decide!

/-- C3 (amended): for every value `D` that `deserialize` returns for some text,
whose strings are byte strings, whose object keys hold no double quote, no
backslash and no control byte, and whose numbers are printed as a text that
`std::stod` reads in full as a number that is printed as the same text:
`deserialize` on the compact text of `D` returns a value, and the compact text
of that value is the compact text of `D`. -/
theorem reserialize_same (s : JString) (D : Element)
    (hp : deserialize s = .value D) (hr : D.readable = true)
    (hn : D.allNumbers numberReprints = true) :
    ∃ D1, deserialize (serializeToString D false) = .value D1 ∧
      serializeToString D1 false = serializeToString D false :=
  ⟨D.parsed, deserialize_serialize D _ hr,
    serialize_parsed D _ (deserialize_wellFormed s D hp) hr hn⟩

/-- C3 (amended) at the value of `[0.1234567, {"k": -2e10}]`, whose first number
does not read back as itself. -/
theorem reserialize_same_witness :
    deserialize (lit "[0.1234567, \x7b\"k\": -2e10\x7d]") = .value sampleNumbers ∧
    sampleNumbers.readable = true ∧ sampleNumbers.allNumbers numberReprints = true ∧
    ∃ D1, deserialize (serializeToString sampleNumbers false) = .value D1 ∧
      serializeToString D1 false = serializeToString sampleNumbers false :=
  ⟨by decide!, by decide!, by decide!,
    reserialize_same (lit "[0.1234567, \x7b\"k\": -2e10\x7d]") sampleNumbers
      (by decide!) (by decide!) (by decide!)⟩

/-- The defect behind both failures that are left out of the amended claims:
`serialize` writes the key of an entry between quotes as it is, without the
escapes of `serializeString`, so the text of the value of `{"a\"b":1}` is
`{ "a"b": 1 }`, which `deserialize` rejects. -/
theorem unescaped_key_not_read :
    deserialize (lit "\x7b\"a\\\"b\":1\x7d")
      = .value (.mk .OBJECT [(lit "a\"b", Element.ofNumber (.finite false 1 0))] [] []
          Number.zero false) ∧
    serializeToString (.mk .OBJECT [(lit "a\"b", Element.ofNumber (.finite false 1 0))] [] []
        Number.zero false) false = lit "\x7b \"a\"b\": 1 \x7d" ∧
    deserialize (lit "\x7b \"a\"b\": 1 \x7d")
      = .syntaxError ⟨"Expected ':' separating key and value.", 1, 98⟩ := by
  refine ⟨?_, ?_, ?_⟩ <;> decide!

/-! ## The order of the entries of an object -/

theorem readableMembers_iff : ∀ (ms : JObject),
    readableMembers ms = true ↔ ∀ p ∈ ms, plainKey p.1 = true ∧ p.2.readable = true
  | [] => by simp [readableMembers]
  | (k, x) :: rest => by
    rw [readableMembers, Bool.and_eq_true, Bool.and_eq_true, readableMembers_iff rest,
      List.forall_mem_cons]

theorem keysDistinct_iff_nodup : ∀ (o : JObject),
    keysDistinct o = true ↔ (o.map Prod.fst).Nodup
  | [] => by simp [keysDistinct]
  | (k, x) :: rest => by
    rw [keysDistinct, Bool.and_eq_true, keysDistinct_iff_nodup rest, List.map_cons,
      List.nodup_cons]
    simp only [List.all_eq_true, bne_iff_ne, ne_eq, List.mem_map, not_exists, not_and]

theorem readable_object_perm {ms1 ms2 : JObject} (hp : ms1.Perm ms2)
    (hr : (Element.mk .OBJECT ms1 [] [] Number.zero false).readable = true) :
    (Element.mk .OBJECT ms2 [] [] Number.zero false).readable = true := by
  simp only [Element.readable, Bool.and_eq_true] at hr ⊢
  refine ⟨?_, ?_⟩
  · rw [keysDistinct_iff_nodup] at hr ⊢
    exact ((hp.map Prod.fst).nodup_iff).1 hr.1
  · rw [readableMembers_iff] at hr ⊢
    exact fun p hpm => hr.2 p (hp.mem_iff.2 hpm)

/-- The texts that `serialize` writes for permuted members: `object[key]` keeps
the keys of the map in strictly ascending byte-wise order, every object store of
a value `deserialize` returns has its keys in that order, and `serialize` writes
the entries of the store in its order.
Consequently the texts of an object written with the same members (distinct
keys that need no escape, values that read back) in two different orders, each
compact or indented, parse to one and the same value: it is `==` to itself,
its entries are the given members with their values as parsed, its keys
ascend, and its compact text lists the entries in that order. -/
theorem object_key_order (ms1 ms2 : JObject) (i1 i2 : Bool) (hp : ms1.Perm ms2)
    (hr : (Element.mk .OBJECT ms1 [] [] Number.zero false).readable = true) :
    (∀ (k : JString) (f : Element → Element) (o : JObject),
      keysAscending o = true → keysAscending (mapModify k f o) = true) ∧
    (∀ (s : JString) (D : Element), deserialize s = .value D → D.wellFormed = true) ∧
    ∃ D, deserialize (serializeToString (.mk .OBJECT ms1 [] [] Number.zero false) i1) = .value D ∧
      deserialize (serializeToString (.mk .OBJECT ms2 [] [] Number.zero false) i2) = .value D ∧
      D.eq D = true ∧ D.type = .OBJECT ∧ keysAscending D._object = true ∧
      D._object.Perm (parsedEntries ms1) ∧
      serializeToString D false = compactText D := by
  have hn : (ms1.map Prod.fst).Nodup := by
    have := hr
    simp only [Element.readable, Bool.and_eq_true] at this
    exact (keysDistinct_iff_nodup ms1).1 this.1
  have h1 := deserialize_serialize (.mk .OBJECT ms1 [] [] Number.zero false)
    (if i1 then 0 else -1) hr
  have h2 := deserialize_serialize (.mk .OBJECT ms2 [] [] Number.zero false)
    (if i2 then 0 else -1) (readable_object_perm hp hr)
  have e : (Element.mk .OBJECT ms2 [] [] Number.zero false).parsed
      = (Element.mk .OBJECT ms1 [] [] Number.zero false).parsed := by
    simp only [Element.parsed]
    rw [parsedMembers_perm hp hn []]
  rw [e] at h2
  have hw := deserialize_wellFormed _ _ h1
  refine ⟨keysAscending_mapModify, deserialize_wellFormed, _, h1, h2,
    eq_self _ (parsed_finite _ hr), ?_, ?_, ?_, ?_⟩
  · simp [Element.parsed, Element.type]
  · have := (wellFormed_mk (t := .OBJECT) (o := parsedMembers ms1 []) (a := [])
      (s := []) (n := Number.zero) (b := false) (by simpa [Element.parsed] using hw)).1
    simpa [Element.parsed, Element._object] using this
  · have := parsedMembers_entries ms1 [] hn (by simp)
    simpa [Element.parsed, Element._object] using this
  · exact serialize_compact _ (-1) (by decide) hw

/-- The members `b`, `a`, `c` and the same members in the order `c`, `b`, `a`, the
first text compact and the second indented. -/
theorem object_key_order_witness :
    sampleMembers.Perm sampleMembersPermuted ∧
    (Element.mk .OBJECT sampleMembers [] [] Number.zero false).readable = true ∧
    ∃ D, deserialize (serializeToString (.mk .OBJECT sampleMembers [] [] Number.zero false) false)
        = .value D ∧
      deserialize (serializeToString (.mk .OBJECT sampleMembersPermuted [] [] Number.zero false)
        true) = .value D ∧
      D.eq D = true ∧ D.type = .OBJECT ∧ keysAscending D._object = true ∧
      D._object.Perm (parsedEntries sampleMembers) ∧
      serializeToString D false = compactText D :=
  ⟨((List.Perm.swap _ _ []).cons _).trans (List.Perm.swap _ _ _), by decide!,
    (object_key_order sampleMembers sampleMembersPermuted false true
      (((List.Perm.swap _ _ []).cons _).trans (List.Perm.swap _ _ _)) (by decide!)).2.2⟩

/-! ## C11: `swap` -/

/-- C11: for values `a` and `b` whose inactive stores are empty, `a.swap(b)`
leaves in `a` the value `b` was (type tag and all five stores) and in `b` the
value `a` was, so each has the variant and payload of the other and empty
inactive stores; a second swap restores both; `a.swap(a)` changes nothing. -/
theorem swap_exchanges (a b : Element) (ha : a.inactiveEmpty = true)
    (hb : b.inactiveEmpty = true) :
    Element.swap false a b = (b, a) ∧
    (Element.swap false a b).1.inactiveEmpty = true ∧
    (Element.swap false a b).2.inactiveEmpty = true ∧
    Element.swap false (Element.swap false a b).1 (Element.swap false a b).2 = (a, b) ∧
    Element.swap true a a = (a, a) := by
  have key : ∀ x y : Element, x.inactiveEmpty = true → y.inactiveEmpty = true →
      Element.swap false x y = (y, x) := by
    intro x y hx hy
    obtain ⟨t1, o1, a1, s1, n1, b1⟩ := x
    obtain ⟨t2, o2, a2, s2, n2, b2⟩ := y
    simp only [Element.inactiveEmpty, Bool.and_eq_true, Bool.or_eq_true, beq_iff_eq,
      List.isEmpty_iff] at hx hy
    cases t1 <;> cases t2 <;>
      simp_all [Element.swap, Element.type, Element._object, Element._array, Element._string,
        Element._number, Element._boolean]
  have e := key a b ha hb
  refine ⟨e, ?_, ?_, ?_, ?_⟩
  · rw [e]; exact hb
  · rw [e]; exact ha
  · rw [e]; exact key b a hb ha
  · simp [Element.swap]

/-- C11 at an Array and a String: the swap exchanges them, and a second swap
restores them. -/
theorem swap_exchanges_witness :
    (Element.ofArray [Element.ofBool true]).inactiveEmpty = true ∧
    (Element.ofString [120]).inactiveEmpty = true ∧
    Element.swap false (Element.ofArray [Element.ofBool true]) (Element.ofString [120])
      = (Element.ofString [120], Element.ofArray [Element.ofBool true]) :=
  ⟨by decide, by decide,
    (swap_exchanges (Element.ofArray [Element.ofBool true]) (Element.ofString [120])
      (by decide) (by decide)).1⟩

/-! ## C12: `empty` -/

/-- C12 fails on the code: the last disjunct of `empty()` tests the three
container stores without a test of the type, so `empty()` is true for the
Boolean `true` and for the Number `1`, whose stores are empty. -/
theorem empty_of_true_and_one :
    (Element.ofBool true).empty = true ∧ (Element.ofNumber (.finite false 1 0)).empty = true := by
  decide

/-! ## C13: a leading `+` -/

/-- C13 fails on the code: `parsePrimitive` hands only `-` and the digits to
`parseNumber`, so a `+` where a value starts is rejected, whatever follows
it; `deserialize` on `+1` throws the `SyntaxError` of `parsePrimitive` at line 1
with the character `+`, while `1` alone is read as the Number 1. -/
theorem leading_plus_rejected :
    (∀ rest : List Nat, deserialize (43 :: rest)
      = .syntaxError ⟨"Primitive must be one of null, true, false, number or quoted string.",
          1, 43⟩) ∧
    deserialize (lit "+1")
      = .syntaxError ⟨"Primitive must be one of null, true, false, number or quoted string.",
          1, 43⟩ ∧
    deserialize (lit "1") = .value (Element.ofNumber (.finite false 1 0)) := by
  have key : ∀ rest : List Nat, deserialize (43 :: rest)
      = .syntaxError ⟨"Primitive must be one of null, true, false, number or quoted string.",
          1, 43⟩ := by
    intro rest
    have hb : body ⟨rest, .S_PRE_ELEMENT, Element.ofType .NULL_VALUE, [[]], [], 1, 43⟩
        = .throw ⟨"Primitive must be one of null, true, false, number or quoted string.", 1, 43⟩
            ⟨rest, .S_PRE_ELEMENT, Element.ofType .NULL_VALUE, [[]], [], 1, 43⟩ := by
      rw [body_state (show (43 : Nat) ≠ 47 by decide) (show isWhite 43 = false by decide)]
      simp [preElement, beginValue, deref, store, parsePrimitive, Element.isNull, Element.ofType,
        Element.type, Element.assign, Element._number, Element._boolean]
    unfold deserialize deserializeStream
    rw [assign_fresh_null, List.length_cons,
      show 3 * (rest.length + 1) + 1 = (3 * rest.length + 2) + 1 + 1 by ring,
      whileRead_cons _ _ 43 rest rfl, redo_succ]
    simp only [hb, Next.run]
  exact ⟨key, key _, by decide!⟩

/-! ## The escape `\u` with four hexadecimal digits -/

theorem hexVal_some {c x : Nat} (h : hexVal c = some x) :
    ((48 ≤ c ∧ c ≤ 57) ∨ (97 ≤ c ∧ c ≤ 102) ∨ (65 ≤ c ∧ c ≤ 70)) ∧ x < 16 := by
  unfold hexVal at h
  split at h
  · cases h; omega
  · split at h
    · cases h; omega
    · split at h
      · cases h; omega
      · cases h

theorem isSpace_of_hexVal {c x : Nat} (h : hexVal c = some x) : isSpace c = false := by
  have := (hexVal_some h).1
  simp only [isSpace, Bool.or_eq_false_iff, Bool.and_eq_false_iff, beq_eq_false_iff_ne,
    decide_eq_false_iff_not]
  omega

/-- On four hexadecimal digits `std::stoi(buf, &pos, 16)` returns their value and
`pos == 4`. -/
theorem stoi16_hex4 {a b c d x y z w : Nat} (ha : hexVal a = some x) (hb : hexVal b = some y)
    (hc : hexVal c = some z) (hd : hexVal d = some w) :
    stoi16 [a, b, c, d] = some (((4096 * x + 256 * y + 16 * z + w : Nat) : Int), 4) := by
  have sa := isSpace_of_hexVal ha
  have ra := (hexVal_some ha).1
  have rb := (hexVal_some hb).1
  have h45 : a ≠ 45 := by omega
  have h43 : a ≠ 43 := by omega
  have hx1 : b ≠ 120 := by omega
  have hx2 : b ≠ 88 := by omega
  unfold stoi16
  simp only [List.dropWhile_cons, sa, Bool.false_eq_true, if_false, List.head?_cons,
    Option.some.injEq, h45, h43, or_self, List.drop_succ_cons, List.drop_zero, hx1, hx2, and_false,
    spanHex, ha, hb, hc, hd, List.length_cons, List.length_nil]
  simp only [Nat.reduceAdd, Nat.reduceEqDiff, if_false, Option.some.injEq, Prod.mk.injEq]
  refine ⟨?_, trivial⟩
  congr 1; ring

/-- The part of `parseHexChar` behind the read, on four hexadecimal digits: the
byte of their value, or the error for a value above `0xFF`. -/
theorem parseHexBuf_hex4 {a b c d x y z w : Nat} (ha : hexVal a = some x)
    (hb : hexVal b = some y) (hc : hexVal c = some z) (hd : hexVal d = some w) (line : Int) :
    parseHexBuf [a, b, c, d] line
      = if 255 < 4096 * x + 256 * y + 16 * z + w then
          .error ⟨"Escape sequence above Latin-1 not implemented.", line, a⟩
        else .ok (4096 * x + 256 * y + 16 * z + w) := by
  unfold parseHexBuf
  rw [stoi16_hex4 ha hb hc hd]
  simp only [List.headD_cons]
  have h0 : ¬ (((4096 * x + 256 * y + 16 * z + w : Nat) : Int) < 0 ∨ (4 : Nat) ≠ 4) := by omega
  rw [if_neg h0]
  by_cases hv : 255 < 4096 * x + 256 * y + 16 * z + w
  · rw [if_pos hv, if_pos (by omega)]
  · rw [if_neg hv, if_neg (by omega)]
    congr 1
    have : ((4096 * x + 256 * y + 16 * z + w : Nat) : Int).toNat
        = 4096 * x + 256 * y + 16 * z + w := Int.toNat_ofNat _
    rw [this]
    omega

/-! ## From a run of the loop to the result of `deserialize` -/

theorem deserialize_of_throw {s : List Nat} {e : SyntaxError} {q : Parser}
    (h : Halts (Parser.start s) (.throw e q)) : deserialize s = .syntaxError e := by
  have hw := whileRead_of_halts h (n := 3 * s.length + 1) (Nat.le_refl _)
  unfold Parser.start at hw
  unfold deserialize deserializeStream
  rw [assign_fresh_null, hw]

theorem deserialize_of_done {s : List Nat} {p : Parser}
    (h : Halts (Parser.start s) (.done p)) :
    deserialize s = if p.state = .S_POST_ELEMENT ∧ p.nodes = [] then .value p.root
      else .syntaxError ⟨"Unexpected end of file.", p.line, p.in_⟩ := by
  have hw := whileRead_of_halts h (n := 3 * s.length + 1) (Nat.le_refl _)
  unfold Parser.start at hw
  unfold deserialize deserializeStream
  rw [assign_fresh_null, hw]
  by_cases hc : p.state = .S_POST_ELEMENT ∧ p.nodes = []
  · simp [hc]
  · simp [hc]

/-- What `deserialize` returns comes from a run of the loop that ended. -/
theorem halts_of_deserialize (s : List Nat) :
    ∃ r, Halts (Parser.start s) r := by
  have hne := (fuel_enough (3 * s.length + 1)).1 (Parser.start s) (Nat.le_refl _)
  exact ⟨_, _, rfl, hne⟩

theorem halts_of_body_throw {c : Nat} {rest : List Nat} {st : State} {root : Element}
    {nodes : List NodePtr} {key : JString} {line : Int} {e : SyntaxError} {q : Parser} (c0 : Nat)
    (h : body ⟨rest, st, root, nodes, key, line, c⟩ = .throw e q) :
    Halts ⟨c :: rest, st, root, nodes, key, line, c0⟩ (.throw e q) := by
  refine ⟨2, ?_, by intro hh; cases hh⟩
  rw [whileRead_cons 1 _ c rest rfl, redo_succ]
  simp only [h, Next.run]

/-- White space is skipped, and the line number advances by the number of its
line-break bytes. -/
theorem leads_white_line : ∀ (w : List Nat), (∀ c ∈ w, isWhite c = true) →
    ∀ (rest : List Nat) (st : State) (root : Element) (nodes : List NodePtr) (key : JString)
      (line : Int) (c0 : Nat),
    ∃ c1, Leads ⟨w ++ rest, st, root, nodes, key, line, c0⟩
      ⟨rest, st, root, nodes, key, line + lineBreaks w, c1⟩
  | [], _, rest, st, root, nodes, key, line, c0 => by
    refine ⟨c0, ?_⟩
    simp only [lineBreaks, List.countP_nil, Nat.cast_zero, add_zero, List.nil_append]
    exact Leads.refl _
  | c :: w, hw, rest, st, root, nodes, key, line, c0 => by
    have hc : isWhite c = true := hw c (List.mem_cons_self _ _)
    obtain ⟨c1, h⟩ := leads_white_line w (fun d hd => hw d (List.mem_cons_of_mem _ hd))
      rest st root nodes key (if c = 10 ∨ c = 13 then line + 1 else line) c
    refine ⟨c1, ?_⟩
    have e : (if c = 10 ∨ c = 13 then line + 1 else line) + (lineBreaks w : Int)
        = line + (lineBreaks (c :: w) : Int) := by
      unfold lineBreaks
      rw [List.countP_cons]
      by_cases h1 : c = 10 ∨ c = 13
      · have : (c == 10 || c == 13) = true := by simpa using h1
        simp only [h1, if_true, this]
        push_cast
        ring
      · have : (c == 10 || c == 13) = false := by simpa using h1
        simp [h1, this]
    rw [e] at h
    apply leads_of_body c (w ++ rest) rfl
    rw [body_white (by exact hc)]
    exact leadsNext_continue h

/-- An error of the string scanner on a string that is the whole document, behind
white space: `deserialize` throws it, with the line the string starts on. -/
theorem string_error_at_start (w stream : List Nat) (hw : ∀ c ∈ w, isWhite c = true)
    (e : SyntaxError) (h : parseString stream (1 + lineBreaks w) = .error e) :
    deserialize (w ++ 34 :: stream) = .syntaxError e := by
  obtain ⟨c1, hl⟩ := leads_white_line w hw (34 :: stream) .S_PRE_ELEMENT
    (Element.ofType .NULL_VALUE) [[]] [] 1 0
  have hb : ∃ q, body ⟨stream, .S_PRE_ELEMENT, Element.ofType .NULL_VALUE, [[]], [],
      1 + lineBreaks w, 34⟩ = .throw e q := by
    rw [body_pre _ _ _ _ _ _ (by decide) (by decide),
      preElement_null (by rfl) (by rfl)]
    simp [beginValue, deref, store, parsePrimitive, h, Element.ofType, Element.assign]
  obtain ⟨q, hb⟩ := hb
  exact deserialize_of_throw (hl _ (halts_of_body_throw c1 hb))

/-- The string scanner reads through the text `serializeChars` writes, whatever
follows. -/
theorem parseStringLoop_through (line : Int) : ∀ (s : JString), IsBytes s →
    ∀ (rest os : List Nat) (last : Nat),
      ∃ last1, parseStringLoop line (serializeChars s ++ rest) false os last
        = parseStringLoop line rest false (os ++ s) last1
  | [], _, rest, os, last => ⟨last, by simp [serializeChars]⟩
  | c :: s, h, rest, os, last => by
    have hc : c < 256 := h c (List.mem_cons_self _ _)
    have hs : IsBytes s := fun b hb => h b (List.mem_cons_of_mem _ hb)
    obtain ⟨l1, e1⟩ := parseStringLoop_serializeChar line c hc (serializeChars s ++ rest) os last
    obtain ⟨l2, e2⟩ := parseStringLoop_through line s hs rest (os ++ [c]) l1
    refine ⟨l2, ?_⟩
    rw [serializeChars, List.append_assoc, e1, e2, List.append_assoc]
    rfl

/-! ## C14, C15, C16: escapes and raw bytes in a string -/

/-- A string that is the whole document: what `parseString` returns for it is the
value of the document. -/
theorem leads_string_at_start {stream rest : List Nat} {s : JString} {line : Int}
    (h : parseString stream line = .ok (s, rest)) (key : JString) (c0 : Nat) :
    Leads ⟨34 :: stream, .S_PRE_ELEMENT, Element.ofType .NULL_VALUE, [[]], key, line, c0⟩
      ⟨rest, .S_POST_ELEMENT, Element.ofString s, [], key, line, 32⟩ := by
  apply leads_of_body 34 stream rfl
  have hp : parsePrimitive stream 34
      ((Element.ofType .NULL_VALUE).assign (Element.ofType .NULL_VALUE)) line
      = (Element.ofString s, .ok (32, rest)) := by
    simp [parsePrimitive, h, Element.ofType, Element.assign, Element.ofString]
  rw [body_pre _ _ _ _ _ _ (by decide) (by decide),
    preElement_null (by rfl) (by rfl),
    beginValue_primitive (by decide) (by decide) (by rfl) hp (by rfl)]
  exact leadsNext_blank _ _ _ _ _

/-- C14 fails on the code: `std::stoi` skips white space, reads a sign and reads
the prefix `0x`, and `parseHexChar` only tests `val < 0` and `pos != 4`, so the
escapes `\u0x41`, `\u +41` and `\u-000`, none of them four hexadecimal digits,
are accepted and give the bytes `0x41`, `0x41` and `0x00`. -/
theorem escape_accepts_non_digits :
    deserialize (lit "\"\\u0x41\"") = .value (Element.ofString [0x41]) ∧
    deserialize (lit "\"\\u +41\"") = .value (Element.ofString [0x41]) ∧
    deserialize (lit "\"\\u-000\"") = .value (Element.ofString [0x00]) := by
  refine ⟨?_, ?_, ?_⟩ <;> decide!

/-- C15: for four hexadecimal digits whose value exceeds `0xFF`, the string
scanner, wherever it meets `\u` and these digits outside an escape, throws
"Escape sequence above Latin-1 not implemented." with the line it was called
with and the first digit; so does `parseHexChar` on the digits; and
`deserialize` on a document that is a string holding the escape, behind any
white space and any string content as `serializeString` writes it, throws
this error with the line the string is on. -/
theorem escape_above_latin1 (d1 d2 d3 d4 x1 x2 x3 x4 : Nat) (h1 : hexVal d1 = some x1)
    (h2 : hexVal d2 = some x2) (h3 : hexVal d3 = some x3) (h4 : hexVal d4 = some x4)
    (hv : 0xFF < 4096 * x1 + 256 * x2 + 16 * x3 + x4) :
    (∀ (line : Int) (rest : List Nat),
      parseHexChar (d1 :: d2 :: d3 :: d4 :: rest) line
        = .error ⟨"Escape sequence above Latin-1 not implemented.", line, d1⟩) ∧
    (∀ (line : Int) (rest os : List Nat) (last : Nat),
      parseStringLoop line (92 :: 117 :: d1 :: d2 :: d3 :: d4 :: rest) false os last
        = .error ⟨"Escape sequence above Latin-1 not implemented.", line, d1⟩) ∧
    (∀ (w s rest : List Nat), (∀ c ∈ w, isWhite c = true) → IsBytes s →
      deserialize (w ++ 34 :: (serializeChars s ++ 92 :: 117 :: d1 :: d2 :: d3 :: d4 :: rest))
        = .syntaxError ⟨"Escape sequence above Latin-1 not implemented.", 1 + lineBreaks w,
            d1⟩) := by
  have hb : ∀ line : Int, parseHexBuf [d1, d2, d3, d4] line
      = .error ⟨"Escape sequence above Latin-1 not implemented.", line, d1⟩ := by
    intro line
    rw [parseHexBuf_hex4 h1 h2 h3 h4, if_pos hv]
  have hloop : ∀ (line : Int) (rest os : List Nat) (last : Nat),
      parseStringLoop line (92 :: 117 :: d1 :: d2 :: d3 :: d4 :: rest) false os last
        = .error ⟨"Escape sequence above Latin-1 not implemented.", line, d1⟩ := by
    intro line rest os last
    rw [parseStringLoop_plain]
    simp only [show (92 : Nat) ≠ 34 by decide, if_false, if_true]
    rw [parseStringLoop]
    simp [hb]
  refine ⟨?_, hloop, ?_⟩
  · intro line rest
    simp [parseHexChar, hb]
  · intro w s rest hw hs
    apply string_error_at_start w _ hw
    obtain ⟨l1, e1⟩ := parseStringLoop_through (1 + lineBreaks w) s hs
      (92 :: 117 :: d1 :: d2 :: d3 :: d4 :: rest) [] 0
    rw [parseString, e1, hloop]

/-- C15 at the digits `0100`: the document `"\u0100"` fails at line 1. -/
theorem escape_above_latin1_witness :
    hexVal 48 = some 0 ∧ hexVal 49 = some 1 ∧ (0xFF < 4096 * 0 + 256 * 1 + 16 * 0 + 0) ∧
    deserialize (lit "\"\\u0100\"")
      = .syntaxError ⟨"Escape sequence above Latin-1 not implemented.", 1, 48⟩ :=
  ⟨by decide, by decide, by decide,
    (escape_above_latin1 48 49 48 48 0 1 0 0 (by decide) (by decide) (by decide) (by decide)
      (by decide)).2.2 [] [] [34] (by simp) (by intro b hb; cases hb)⟩

/-- C16: a raw byte in `0x00-0x1F`, `0x7F` or `0x80-0x9F` met by the string scanner
outside an escape makes it throw "Control character in string." with the
line it was called with, which the byte does not advance, and with the byte;
`deserialize` on a document that is a string holding such a byte, behind any
white space and any string content as `serializeString` writes it, throws
this error with the line the string starts on.  A byte in `0x20-0x7E` other
than the double quote and the backslash, and a byte in `0xA0-0xFF`, is
appended to the string unchanged; a document that is a quoted string of such
bytes is the String of these bytes. -/
theorem raw_string_bytes :
    (∀ b : Nat, (b ≤ 0x1F ∨ b = 0x7F ∨ (0x80 ≤ b ∧ b ≤ 0x9F)) →
      (∀ (line : Int) (rest os : List Nat) (last : Nat),
        parseStringLoop line (b :: rest) false os last
          = .error ⟨"Control character in string.", line, b⟩) ∧
      (∀ (w s rest : List Nat), (∀ c ∈ w, isWhite c = true) → IsBytes s →
        deserialize (w ++ 34 :: (serializeChars s ++ b :: rest))
          = .syntaxError ⟨"Control character in string.", 1 + lineBreaks w, b⟩)) ∧
    (∀ b : Nat, ((0x20 ≤ b ∧ b ≤ 0x7E ∧ b ≠ 0x22 ∧ b ≠ 0x5C) ∨ (0xA0 ≤ b ∧ b ≤ 0xFF)) →
      ∀ (line : Int) (rest os : List Nat) (last : Nat),
        parseStringLoop line (b :: rest) false os last
          = parseStringLoop line rest false (os ++ [b]) b) ∧
    (∀ s : JString,
      (∀ b ∈ s, (0x20 ≤ b ∧ b ≤ 0x7E ∧ b ≠ 0x22 ∧ b ≠ 0x5C) ∨ (0xA0 ≤ b ∧ b ≤ 0xFF)) →
      deserialize (34 :: (s ++ [34])) = .value (Element.ofString s)) ∧
    deserialize (lit "\"\n\"") = .syntaxError ⟨"Control character in string.", 1, 10⟩ ∧
    deserialize (lit "\"a\xa0~\"") = .value (Element.ofString [0x61, 0xA0, 0x7E]) := by
  have hctl : ∀ b : Nat, (b ≤ 0x1F ∨ b = 0x7F ∨ (0x80 ≤ b ∧ b ≤ 0x9F)) →
      ∀ (line : Int) (rest os : List Nat) (last : Nat),
        parseStringLoop line (b :: rest) false os last
          = .error ⟨"Control character in string.", line, b⟩ := by
    intro b hb line rest os last
    have h1 : b ≠ 34 := by omega
    have h2 : b ≠ 92 := by omega
    have h3 : isControl b = true := by
      simp only [isControl, Bool.or_eq_true, Bool.and_eq_true, decide_eq_true_eq, beq_iff_eq]
      omega
    rw [parseStringLoop_plain]
    simp [h1, h2, h3]
  have hplain : ∀ b : Nat,
      ((0x20 ≤ b ∧ b ≤ 0x7E ∧ b ≠ 0x22 ∧ b ≠ 0x5C) ∨ (0xA0 ≤ b ∧ b ≤ 0xFF)) →
      b ≠ 34 ∧ b ≠ 92 ∧ isControl b = false := by
    intro b hb
    refine ⟨by omega, by omega, ?_⟩
    simp only [isControl, Bool.or_eq_false_iff, Bool.and_eq_false_iff, decide_eq_false_iff_not,
      beq_eq_false_iff_ne]
    omega
  refine ⟨?_, ?_, ?_, ?_, ?_⟩
  · intro b hb
    refine ⟨hctl b hb, ?_⟩
    intro w s rest hw hs
    apply string_error_at_start w _ hw
    obtain ⟨l1, e1⟩ := parseStringLoop_through (1 + lineBreaks w) s hs (b :: rest) [] 0
    rw [parseString, e1, hctl b hb]
  · intro b hb line rest os last
    obtain ⟨h1, h2, h3⟩ := hplain b hb
    rw [parseStringLoop_plain]
    simp [h1, h2, h3]
  · intro s hs
    have hk : plainKey s = true := by
      simp only [plainKey, List.all_eq_true, Bool.and_eq_true, bne_iff_ne, ne_eq,
        Bool.not_eq_true']
      intro b hb
      obtain ⟨h1, h2, h3⟩ := hplain b (hs b hb)
      exact ⟨⟨h1, h2⟩, h3⟩
    have hp : parseString (s ++ [34]) 1 = .ok (s, []) := by
      rw [parseString, parseStringLoop_plainKey 1 s hk [] [] 0]
      simp
    have hl := leads_string_at_start hp [] 0
    have hh : Halts (Parser.start (34 :: (s ++ [34])))
        (.done ⟨[], .S_POST_ELEMENT, Element.ofString s, [], [], 1, 32⟩) :=
      hl _ ⟨1, whileRead_nil 0 _ rfl, by intro h; cases h⟩
    rw [deserialize_of_done hh]
    simp
  · decide!
  · decide!

/-! ## The scanning functions on a text with more text behind it -/

theorem parseHexBuf_line {buf : List Nat} {line : Int} {v : Nat}
    (h : parseHexBuf buf line = .ok v) (line1 : Int) : parseHexBuf buf line1 = .ok v := by
  unfold parseHexBuf at h ⊢
  cases hs : stoi16 buf with
  | none => rw [hs] at h; cases h
  | some r =>
    obtain ⟨val, pos⟩ := r
    rw [hs] at h
    simp only at h ⊢
    split at h
    · cases h
    · split at h
      · cases h
      · rename_i h1 h2
        rw [if_neg h1, if_neg h2]
        exact h

/-- A string the scanner reads to its closing quote is read the same way at any
line, whatever follows the quote; what it leaves is a suffix of its input. -/
theorem parseStringLoop_ext (line : Int) : ∀ (n : Nat) (t : List Nat) (esc : Bool)
    (os : List Nat) (last : Nat) (str rest : List Nat), t.length ≤ n →
    parseStringLoop line t esc os last = .ok (str, rest) →
    rest <:+ t ∧ ∀ (line1 : Int) (last1 : Nat) (u : List Nat),
      parseStringLoop line1 (t ++ u) esc os last1 = .ok (str, rest ++ u)
  | _, [], _, _, _, _, _, _, h => by
    rw [parseStringLoop] at h; cases h
  | 0, _ :: _, _, _, _, _, _, hn, _ => by simp at hn
  | n + 1, c :: s, false, os, last, str, rest, hn, h => by
    have hn1 : s.length ≤ n := by simpa using hn
    rw [parseStringLoop_plain] at h
    by_cases h34 : c = 34
    · rw [if_pos h34] at h
      cases h
      refine ⟨List.suffix_cons _ _, ?_⟩
      intro line1 last1 u
      rw [List.cons_append, parseStringLoop_plain, if_pos h34]
    · rw [if_neg h34] at h
      by_cases h92 : c = 92
      · rw [if_pos h92] at h
        obtain ⟨hs, he⟩ := parseStringLoop_ext line n s true os c str rest hn1 h
        refine ⟨hs.trans (List.suffix_cons _ _), ?_⟩
        intro line1 last1 u
        rw [List.cons_append, parseStringLoop_plain, if_neg h34, if_pos h92]
        exact he line1 c u
      · rw [if_neg h92] at h
        cases hc : isControl c with
        | true => rw [hc] at h; simp at h
        | false =>
          rw [hc] at h
          simp only [Bool.false_eq_true, if_false] at h
          obtain ⟨hs, he⟩ := parseStringLoop_ext line n s false _ c str rest hn1 h
          refine ⟨hs.trans (List.suffix_cons _ _), ?_⟩
          intro line1 last1 u
          rw [List.cons_append, parseStringLoop_plain, if_neg h34, if_neg h92, hc]
          simp only [Bool.false_eq_true, if_false]
          exact he line1 c u
  | n + 1, c :: s, true, os, last, str, rest, hn, h => by
    have hn1 : s.length ≤ n := by simpa using hn
    by_cases hu : c = 117
    · subst hu
      match s, hn1, h with
      | b0 :: b1 :: b2 :: b3 :: s4, hn1, h =>
        cases hb : parseHexBuf [b0, b1, b2, b3] line with
        | error e =>
          rw [parseStringLoop.eq_def] at h
          simp [hb] at h
        | ok v =>
          rw [parseStringLoop_unicode _ _ _ _ _ v _ _ _ hb] at h
          obtain ⟨hs, he⟩ := parseStringLoop_ext line n s4 false _ 117 str rest
            (by simp at hn1; omega) h
          refine ⟨hs.trans ?_, ?_⟩
          · exact ⟨[117, b0, b1, b2, b3], rfl⟩
          · intro line1 last1 u
            have e : (117 :: b0 :: b1 :: b2 :: b3 :: s4) ++ u
                = 117 :: b0 :: b1 :: b2 :: b3 :: (s4 ++ u) := rfl
            rw [e, parseStringLoop_unicode _ _ _ _ _ v _ _ _ (parseHexBuf_line hb line1)]
            exact he line1 117 u
      | [], _, h => rw [parseStringLoop.eq_def] at h; simp at h
      | [_], _, h => rw [parseStringLoop.eq_def] at h; simp at h
      | [_, _], _, h => rw [parseStringLoop.eq_def] at h; simp at h
      | [_, _, _], _, h => rw [parseStringLoop.eq_def] at h; simp at h
    · rw [parseStringLoop_escaped _ _ _ _ _ hu] at h
      have step : ∀ d : Nat, parseStringLoop line s false (os ++ [d]) c = .ok (str, rest) →
          rest <:+ c :: s ∧ ∀ (line1 : Int) (last1 : Nat) (u : List Nat),
            parseStringLoop line1 (s ++ u) false (os ++ [d]) last1 = .ok (str, rest ++ u) := by
        intro d hd
        obtain ⟨hs, he⟩ := parseStringLoop_ext line n s false _ c str rest hn1 hd
        exact ⟨hs.trans (List.suffix_cons _ _), he⟩
      repeat' split at h
      all_goals first
        | cases h
        | (obtain ⟨hs, he⟩ := step _ h
           refine ⟨hs, ?_⟩
           intro line1 last1 u
           rw [List.cons_append, parseStringLoop_escaped _ _ _ _ _ hu]
           simp only [*, if_true, if_false, Nat.reduceEqDiff])

theorem parseString_ext {t str rest : List Nat} {line : Int}
    (h : parseString t line = .ok (str, rest)) :
    rest <:+ t ∧ ∀ (line1 : Int) (u : List Nat),
      parseString (t ++ u) line1 = .ok (str, rest ++ u) := by
  obtain ⟨hs, he⟩ := parseStringLoop_ext line t.length t false [] 0 str rest (Nat.le_refl _) h
  exact ⟨hs, fun line1 u => he line1 0 u⟩

theorem skipToEol_rest : ∀ (t : List Nat) (line : Int), (skipToEol t line).2 = dropLine t
  | [], _ => rfl
  | c :: t, line => by
    unfold dropLine
    rw [skipToEol, skipToEol]
    by_cases h : c = 10 ∨ c = 13
    · rw [if_pos h, if_pos h]
    · rw [if_neg h, if_neg h, skipToEol_rest t line, skipToEol_rest t 0]

theorem dropLine_suffix : ∀ (t : List Nat), dropLine t <:+ t
  | [] => List.suffix_refl _
  | c :: t => by
    unfold dropLine
    rw [skipToEol]
    by_cases h : c = 10 ∨ c = 13
    · rw [if_pos h]; exact List.suffix_cons _ _
    · rw [if_neg h]
      exact (dropLine_suffix t).trans (List.suffix_cons _ _)

/-- A comment that is open at the start of `t ++ u` ends in `t` if `t` has a line
break, and else runs on into `u`. -/
theorem dropLine_append : ∀ (t u : List Nat),
    dropLine (t ++ u) = dropLine t ++ u ∨
    ((∀ b ∈ t, b ≠ 10 ∧ b ≠ 13) ∧ dropLine t = [] ∧ dropLine (t ++ u) = dropLine u)
  | [], u => Or.inr ⟨by simp, rfl, rfl⟩
  | c :: t, u => by
    by_cases h : c = 10 ∨ c = 13
    · left
      unfold dropLine
      rw [List.cons_append, skipToEol, skipToEol, if_pos h, if_pos h]
    · have e1 : dropLine (c :: t ++ u) = dropLine (t ++ u) := by
        unfold dropLine
        rw [List.cons_append, skipToEol, if_neg h, skipToEol_rest]
      have e2 : dropLine (c :: t) = dropLine t := by
        unfold dropLine
        rw [skipToEol, if_neg h, skipToEol_rest]
      rw [e1, e2]
      rcases dropLine_append t u with h1 | ⟨h1, h2, h3⟩
      · exact Or.inl h1
      · refine Or.inr ⟨?_, h2, h3⟩
        intro b hb
        rcases List.mem_cons.1 hb with rfl | hb
        · exact ⟨fun e => h (Or.inl e), fun e => h (Or.inr e)⟩
        · exact h1 b hb

theorem dropLine_plain : ∀ (c : List Nat), (∀ b ∈ c, b ≠ 10 ∧ b ≠ 13) →
    ∀ (nl : Nat) (rest : List Nat), nl = 10 ∨ nl = 13 → dropLine (c ++ nl :: rest) = rest
  | [], _, nl, rest, h => by
    unfold dropLine
    rw [List.nil_append, skipToEol, if_pos h]
  | b :: c, hc, nl, rest, h => by
    have hb := hc b (List.mem_cons_self _ _)
    have hne : ¬ (b = 10 ∨ b = 13) := fun e => e.elim hb.1 hb.2
    have ih := dropLine_plain c (fun d hd => hc d (List.mem_cons_of_mem _ hd)) nl rest h
    unfold dropLine at ih ⊢
    rw [List.cons_append, skipToEol, if_neg hne, skipToEol_rest]
    exact ih

theorem skipToEol_line_plain : ∀ (c : List Nat), (∀ b ∈ c, b ≠ 10 ∧ b ≠ 13) →
    ∀ (nl : Nat) (rest : List Nat) (line : Int), nl = 10 ∨ nl = 13 →
      skipToEol (c ++ nl :: rest) line = (line + 1, rest)
  | [], _, nl, rest, line, h => by
    rw [List.nil_append, skipToEol, if_pos h]
  | b :: c, hc, nl, rest, line, h => by
    have hb := hc b (List.mem_cons_self _ _)
    have hne : ¬ (b = 10 ∨ b = 13) := fun e => e.elim hb.1 hb.2
    rw [List.cons_append, skipToEol, if_neg hne]
    exact skipToEol_line_plain c (fun d hd => hc d (List.mem_cons_of_mem _ hd)) nl rest line h

/-- The loop of `parseNumber` on a text with more text behind it that does not
start with a character of a number: it stops where it stopped, or, if it
reached the end of the text, at the first character behind it. -/
theorem parseNumberLoop_ext (u : List Nat) (hu : endsNumber u) : ∀ (t os : List Nat),
    (parseNumberLoop t os).2.2 <:+ t ∧
    ((parseNumberLoop t os).2.1 = 47 → 47 :: (parseNumberLoop t os).2.2 <:+ t) ∧
    (parseNumberLoop (t ++ u) os
        = ((parseNumberLoop t os).1, (parseNumberLoop t os).2.1, (parseNumberLoop t os).2.2 ++ u) ∨
      ((parseNumberLoop t os).2.2 = [] ∧ (parseNumberLoop t os).2.1 = 32 ∧
        ∃ c v, u = c :: v ∧ parseNumberLoop (t ++ u) os = ((parseNumberLoop t os).1, c, v)))
  | [], os => by
    refine ⟨List.suffix_refl _, by simp [parseNumberLoop], ?_⟩
    cases u with
    | nil => left; simp [parseNumberLoop]
    | cons c v =>
      right
      have hc := hu c v rfl
      refine ⟨rfl, rfl, c, v, rfl, ?_⟩
      simp [parseNumberLoop, hc]
  | c :: t, os => by
    by_cases hc : isNumberChar c = true
    · obtain ⟨h1, h2, h3⟩ := parseNumberLoop_ext u hu t (os ++ [c])
      have e : parseNumberLoop (c :: t) os = parseNumberLoop t (os ++ [c]) := by
        rw [parseNumberLoop, if_pos hc]
      have e2 : parseNumberLoop (c :: t ++ u) os = parseNumberLoop (t ++ u) (os ++ [c]) := by
        rw [List.cons_append, parseNumberLoop, if_pos hc]
      rw [e, e2]
      exact ⟨h1.trans (List.suffix_cons _ _), fun h => (h2 h).trans (List.suffix_cons _ _), h3⟩
    · have e : parseNumberLoop (c :: t) os = (os, c, t) := by
        rw [parseNumberLoop, if_neg hc]
      have e2 : parseNumberLoop (c :: t ++ u) os = (os, c, t ++ u) := by
        rw [List.cons_append, parseNumberLoop, if_neg hc]
      rw [e, e2]
      refine ⟨List.suffix_cons _ _, ?_, Or.inl rfl⟩
      intro h
      simp only at h
      rw [h]

theorem parseWord_ext {word : JString} {msg : String} {t rest : List Nat} {line : Int}
    (h : parseWord word msg t line = .ok ((), rest)) :
    rest <:+ t ∧ ∀ (msg1 : String) (line1 : Int) (u : List Nat),
      parseWord word msg1 (t ++ u) line1 = .ok ((), rest ++ u) := by
  unfold parseWord at h
  split at h
  · cases h
  · rename_i hc
    cases h
    refine ⟨List.drop_suffix _ _, ?_⟩
    intro msg1 line1 u
    have hlen : word.length - 1 ≤ t.length := by
      by_contra hh
      exact hc (Or.inl (by omega))
    have hne : List.take 1 word ++ List.take (word.length - 1) t = word := by
      by_contra hh
      exact hc (Or.inr hh)
    unfold parseWord
    rw [if_neg, List.drop_append_of_le_length hlen]
    intro hh
    rcases hh with hh | hh
    · rw [List.length_append] at hh; omega
    · rw [List.take_append_of_le_length hlen] at hh
      exact hh hne

theorem parseNumber_ext (u : List Nat) (hu : endsNumber u) {t : List Nat} {first : Nat}
    {num num1 : Number} {line : Int} {extra : Nat} {rest : List Nat}
    (h : parseNumber t first num line = (num1, .ok (extra, rest))) :
    rest <:+ t ∧ (extra = 47 → 47 :: rest <:+ t) ∧
    ∀ line1 : Int,
      parseNumber (t ++ u) first num line1 = (num1, .ok (extra, rest ++ u)) ∨
      (rest = [] ∧ extra = 32 ∧
        ∃ c v, u = c :: v ∧ parseNumber (t ++ u) first num line1 = (num1, .ok (c, v))) := by
  obtain ⟨h1, h2, h3⟩ := parseNumberLoop_ext u hu t [first]
  unfold parseNumber at h
  rcases hp : parseNumberLoop t [first] with ⟨os, ex, r⟩
  rw [hp] at h h1 h2 h3
  simp only at h h1 h2 h3
  cases hs : stod os with
  | invalid_argument => rw [hs] at h; cases h
  | out_of_range => rw [hs] at h; cases h
  | ok val read =>
    rw [hs] at h
    simp only at h
    by_cases hr : read ≠ os.length
    · rw [if_pos hr] at h; cases h
    · rw [if_neg hr] at h
      cases h
      refine ⟨h1, h2, ?_⟩
      intro line1
      rcases h3 with h3 | ⟨e1, e2, c, v, e3, h3⟩
      · left
        unfold parseNumber
        rw [h3]
        simp only [hs, if_neg hr]
      · right
        refine ⟨e1, e2, c, v, e3, ?_⟩
        unfold parseNumber
        rw [h3]
        simp only [hs, if_neg hr]

/-- A primitive the parser reads is read the same way with more text behind it,
if that text does not start with a character of a number. -/
theorem parsePrimitive_ext (u : List Nat) (hu : endsNumber u) {t : List Nat} {first : Nat}
    {el el1 : Element} {line : Int} {extra : Nat} {rest : List Nat}
    (h : parsePrimitive t first el line = (el1, .ok (extra, rest))) :
    rest <:+ t ∧ (extra = 47 → 47 :: rest <:+ t) ∧
    ∀ line1 : Int,
      parsePrimitive (t ++ u) first el line1 = (el1, .ok (extra, rest ++ u)) ∨
      (rest = [] ∧ extra = 32 ∧
        ∃ c v, u = c :: v ∧ parsePrimitive (t ++ u) first el line1 = (el1, .ok (c, v))) := by
  unfold parsePrimitive at h
  split at h
  · rename_i hf
    cases hw : parseNull t line with
    | error e => rw [hw] at h; cases h
    | ok r =>
      rw [hw] at h
      obtain ⟨x, r⟩ := r
      cases h
      obtain ⟨hs, he⟩ := parseWord_ext hw
      refine ⟨hs, fun hh => absurd hh (by decide), fun line1 => Or.inl ?_⟩
      unfold parsePrimitive
      rw [if_pos hf]
      unfold parseNull
      rw [he]
  · rename_i hf1
    split at h
    · rename_i hf
      cases hw : parseTrue t line with
      | error e => rw [hw] at h; cases h
      | ok r =>
        rw [hw] at h
        obtain ⟨x, r⟩ := r
        cases h
        obtain ⟨hs, he⟩ := parseWord_ext hw
        refine ⟨hs, fun hh => absurd hh (by decide), fun line1 => Or.inl ?_⟩
        unfold parsePrimitive
        rw [if_neg hf1, if_pos hf]
        unfold parseTrue
        rw [he]
    · rename_i hf2
      split at h
      · rename_i hf
        cases hw : parseFalse t line with
        | error e => rw [hw] at h; cases h
        | ok r =>
          rw [hw] at h
          obtain ⟨x, r⟩ := r
          cases h
          obtain ⟨hs, he⟩ := parseWord_ext hw
          refine ⟨hs, fun hh => absurd hh (by decide), fun line1 => Or.inl ?_⟩
          unfold parsePrimitive
          rw [if_neg hf1, if_neg hf2, if_pos hf]
          unfold parseFalse
          rw [he]
      · rename_i hf3
        split at h
        · rename_i hf
          rcases hel : el.assign (Element.ofType .STRING) with ⟨ty, o, a, ss, n, b⟩
          rw [hel] at h
          simp only at h
          cases hw : parseString t line with
          | error e => rw [hw] at h; cases h
          | ok r =>
            rw [hw] at h
            obtain ⟨x, r⟩ := r
            cases h
            obtain ⟨hs, he⟩ := parseString_ext hw
            refine ⟨hs, fun hh => absurd hh (by decide), fun line1 => Or.inl ?_⟩
            unfold parsePrimitive
            rw [if_neg hf1, if_neg hf2, if_neg hf3, if_pos hf, hel]
            simp only [he]
        · rename_i hf4
          split at h
          · rename_i hf
            rcases hel : el.assign (Element.ofType .NUMBER) with ⟨ty, o, a, ss, n, b⟩
            rw [hel] at h
            simp only at h
            rcases hw : parseNumber t first n line with ⟨num, r⟩
            rw [hw] at h
            simp only [Prod.mk.injEq] at h
            obtain ⟨h1, h2⟩ := h
            subst h2
            obtain ⟨hs, hx, he⟩ := parseNumber_ext u hu hw
            refine ⟨hs, hx, ?_⟩
            intro line1
            rcases he line1 with he | ⟨e1, e2, c, v, e3, he⟩
            · left
              unfold parsePrimitive
              rw [if_neg hf1, if_neg hf2, if_neg hf3, if_neg hf4, if_pos hf, hel]
              simp only [he, h1]
            · right
              refine ⟨e1, e2, c, v, e3, ?_⟩
              unfold parsePrimitive
              rw [if_neg hf1, if_neg hf2, if_neg hf3, if_neg hf4, if_pos hf, hel]
              simp only [he, h1]
          · cases h

/-- A comment that is read is read with more text behind it as well: it ends
where it ended, or, if it ran to the end of the text, in the text behind. -/
theorem skipLineComment_ext {t rest : List Nat} {line line1 : Int}
    (h : skipLineComment t line = .ok (line1, rest)) (u : List Nat) (line2 : Int) :
    rest <:+ t ∧
    ∃ line3, (skipLineComment (t ++ u) line2 = .ok (line3, rest ++ u) ∨
      (rest = [] ∧ (∃ c, t = 47 :: c ∧ ∀ b ∈ c, b ≠ 10 ∧ b ≠ 13) ∧
        skipLineComment (t ++ u) line2 = .ok (line3, dropLine u))) := by
  unfold skipLineComment at h
  cases t with
  | nil => cases h
  | cons c t =>
    simp only at h
    by_cases hc : c ≠ '/'.toNat
    · rw [if_pos hc] at h; cases h
    · rw [if_neg hc] at h
      have hc47 : c = 47 := by
        have := not_not.1 hc
        simpa using this
      simp only [Except.ok.injEq] at h
      have hr : rest = dropLine t := by
        have := skipToEol_rest t line
        rw [h] at this
        exact this
      refine ⟨?_, (skipToEol (t ++ u) line2).1, ?_⟩
      · rw [hr]
        exact (dropLine_suffix t).trans (List.suffix_cons _ _)
      · have e : skipLineComment (c :: t ++ u) line2 = .ok (skipToEol (t ++ u) line2) := by
          unfold skipLineComment
          simp only [List.cons_append]
          rw [if_neg hc]
        have e2 : skipToEol (t ++ u) line2
            = ((skipToEol (t ++ u) line2).1, dropLine (t ++ u)) := by
          rw [← skipToEol_rest (t ++ u) line2]
        rw [e, e2]
        rcases dropLine_append t u with h1 | ⟨h1, h2, h3⟩
        · left
          rw [h1, hr]
        · right
          refine ⟨by rw [hr, h2], ⟨t, by rw [hc47], h1⟩, ?_⟩
          rw [h3]

/-! ## One pass through the loop body on a text with more text behind it -/

theorem beginValue_follows (u : List Nat) (hu : endsNumber u) (t : List Nat) (st st1 : State)
    (root : Element) (nodes : List NodePtr) (key : JString) (line line1 : Int) (c : Nat) :
    Next.Follows u t c (beginValue ⟨t, st, root, nodes, key, line, c⟩)
      (beginValue ⟨t ++ u, st1, root, nodes, key, line1, c⟩) := by
  unfold beginValue
  cases nodes with
  | nil => trivial
  | cons top below =>
    simp only
    cases hd : deref root top with
    | none => trivial
    | some el =>
      simp only
      by_cases h91 : c = '['.toNat
      · rw [if_pos h91, if_pos h91]
        cases hs : store root top (el.assign (Element.ofType .ARRAY)) with
        | none => trivial
        | some r =>
          simp only [Next.Follows, Parser.alike, List.suffix_refl, true_and, and_self, true_or]
      · rw [if_neg h91, if_neg h91]
        by_cases h123 : c = '{'.toNat
        · rw [if_pos h123, if_pos h123]
          cases hs : store root top (el.assign (Element.ofType .OBJECT)) with
          | none => trivial
          | some r =>
            simp only [Next.Follows, Parser.alike, List.suffix_refl, true_and, and_self, true_or]
        · rw [if_neg h123, if_neg h123]
          rcases hp : parsePrimitive t c (el.assign (Element.ofType .NULL_VALUE)) line
            with ⟨el1, res⟩
          cases res with
          | error e =>
            simp only
            cases store root top el1 <;> trivial
          | ok r =>
            obtain ⟨extra, rest⟩ := r
            obtain ⟨h1, h2, h3⟩ := parsePrimitive_ext u hu hp
            simp only
            cases hs : store root top el1 with
            | none => trivial
            | some r1 =>
              rcases h3 line1 with h3 | ⟨e1, e2, c1, v, e3, h3⟩
              · rw [h3]
                simp only [hs, Next.Follows, Parser.alike, true_and, and_self, true_or, and_true]
                exact ⟨h1, h2⟩
              · rw [h3]
                simp only [hs, Next.Follows, Parser.alike, true_and, and_self]
                refine ⟨h1, h2, Or.inr ⟨e1, e2, e3⟩⟩

theorem preElement_follows (u : List Nat) (hu : endsNumber u) (t : List Nat) (st st1 : State)
    (root : Element) (nodes : List NodePtr) (key : JString) (line line1 : Int) (c : Nat) :
    Next.Follows u t c (preElement ⟨t, st, root, nodes, key, line, c⟩)
      (preElement ⟨t ++ u, st1, root, nodes, key, line1, c⟩) := by
  unfold preElement
  cases nodes with
  | nil => trivial
  | cons top below =>
    simp only
    cases hd : deref root top with
    | none => trivial
    | some el =>
      obtain ⟨ty, o, a, s, n, b⟩ := el
      simp only
      split
      · exact beginValue_follows u hu t _ _ _ _ _ _ _ c
      · split
        · split
          · simp only [Next.Follows, Parser.alike, List.suffix_refl, true_and, and_self, true_or,
              and_true]
            rename_i h93
            intro h47
            rw [h93] at h47
            exact absurd h47 (by decide)
          · cases hs : store root top
                (.mk ty o (a ++ [Element.copy (Element.ofType .NULL_VALUE)]) s n b) with
            | none => trivial
            | some r1 => exact beginValue_follows u hu t _ _ _ _ _ _ _ c
        · split
          · cases hs : store root top
                (.mk ty (mapModify key (fun x => x.assign (Element.ofType .NULL_VALUE)) o)
                  a s n b) with
            | none => trivial
            | some r1 => exact beginValue_follows u hu t _ _ _ _ _ _ _ c
          · exact beginValue_follows u hu t _ _ _ _ _ _ _ c

theorem postElement_follows (u t : List Nat) (st st1 : State)
    (root : Element) (nodes : List NodePtr) (key : JString) (line line1 : Int) (c : Nat) :
    Next.Follows u t c (postElement ⟨t, st, root, nodes, key, line, c⟩)
      (postElement ⟨t ++ u, st1, root, nodes, key, line1, c⟩) := by
  unfold postElement
  cases nodes with
  | nil => trivial
  | cons top below =>
    simp only
    cases hd : deref root top with
    | none => trivial
    | some el =>
      simp only
      repeat' split
      all_goals first
        | trivial
        | simp only [Next.Follows, Parser.alike, List.suffix_refl, true_and, and_self, true_or,
            and_true]

/-- One pass through the loop body on a text with `u` behind it follows the pass
on the text alone. -/
theorem body_follows (u : List Nat) (hu : endsNumber u) (t : List Nat) (st : State)
    (root : Element) (nodes : List NodePtr) (key : JString) (line line1 : Int) (c : Nat) :
    Next.Follows u t c (body ⟨t, st, root, nodes, key, line, c⟩)
      (body ⟨t ++ u, st, root, nodes, key, line1, c⟩) := by
  by_cases h47 : c = 47
  · subst h47
    cases hs : skipLineComment t line with
    | error e =>
      rw [body_slash_error rfl hs]
      trivial
    | ok r =>
      obtain ⟨l2, rest⟩ := r
      obtain ⟨hsuf, l3, hx⟩ := skipLineComment_ext hs u line1
      rw [body_slash_ok rfl hs]
      rcases hx with hx | ⟨e1, e2, hx⟩
      · rw [body_slash_ok rfl hx]
        simp only [Next.Follows, Parser.alike, true_and, and_self, true_or, and_true]
        exact hsuf
      · rw [body_slash_ok rfl hx]
        simp only [Next.Follows, Parser.alike, true_and, and_self]
        exact ⟨hsuf, Or.inr ⟨e1, e2⟩⟩
  · cases hw : isWhite c with
    | true =>
      rw [body_white (by exact hw), body_white (by exact hw)]
      simp only [Next.Follows, Parser.alike, List.suffix_refl, true_and, and_self, true_or]
    | false =>
      rw [body_state (by exact h47) (by exact hw), body_state (by exact h47) (by exact hw)]
      cases st with
      | S_PRE_ELEMENT => exact preElement_follows u hu t _ _ root nodes key line line1 c
      | S_POST_ELEMENT => exact postElement_follows u t _ _ root nodes key line line1 c
      | S_PRE_SEP =>
        simp only
        split
        · trivial
        · simp only [Next.Follows, Parser.alike, List.suffix_refl, true_and, and_self, true_or]
      | S_PRE_KEY =>
        simp only
        split
        · cases hp : parseString t line with
          | error e => trivial
          | ok r =>
            obtain ⟨k, rest⟩ := r
            obtain ⟨hsuf, he⟩ := parseString_ext hp
            simp only [he line1 u, Next.Follows, Parser.alike, true_and, and_self, true_or,
              and_true]
            exact hsuf
        · split
          · rename_i h125
            simp only [Next.Follows, Parser.alike, List.suffix_refl, true_and, and_self, true_or,
              and_true]
            intro h
            exact absurd h h47
          · trivial

/-! ## The run of the loop on a text with more text behind it -/

theorem leads_of_redo {c : Nat} {rest : List Nat} {st : State} {root : Element}
    {nodes : List NodePtr} {key : JString} {line : Int} {c0 : Nat} {q : Parser}
    (h : LeadsNext (.redo ⟨rest, st, root, nodes, key, line, c⟩) q) :
    Leads ⟨c :: rest, st, root, nodes, key, line, c0⟩ q := by
  intro r hr
  obtain ⟨fuel, hf, hne⟩ := h r hr
  refine ⟨fuel + 1, ?_, hne⟩
  rw [whileRead_cons fuel _ c rest rfl]
  exact hf

theorem leadsNext_of_body {p q : Parser} {nx : Next} (hb : body p = nx)
    (h : LeadsNext nx q) : LeadsNext (.redo p) q := by
  apply leadsNext_redo
  rw [hb]
  exact h

/-- The run of the loop on a text of `s` that ends normally, followed on the same
text with `u` behind it: the run comes to the loop head in a like state with
`u` unread, or, when the text ended within a comment, with what the comment
leaves of `u`. -/
theorem run_follows (u : List Nat) (hu : endsNumber u) (s : List Nat) : ∀ (n : Nat),
    (∀ (t : List Nat) (st : State) (root : Element) (nodes : List NodePtr) (key : JString)
      (line line1 : Int) (c0 c1 : Nat) (r : Parser), t <:+ s →
      whileRead n ⟨t, st, root, nodes, key, line, c0⟩ = .done r →
      ∃ q, Leads ⟨t ++ u, st, root, nodes, key, line1, c1⟩ q ∧ r.alike q ∧
        (q.stream = u ∨ (q.stream = dropLine u ∧ endsInComment s))) ∧
    (∀ (t : List Nat) (st : State) (root : Element) (nodes : List NodePtr) (key : JString)
      (line line1 : Int) (c : Nat) (r : Parser), t <:+ s → (c = 47 → 47 :: t <:+ s) →
      redo n ⟨t, st, root, nodes, key, line, c⟩ = .done r →
      ∃ q, LeadsNext (.redo ⟨t ++ u, st, root, nodes, key, line1, c⟩) q ∧ r.alike q ∧
        (q.stream = u ∨ (q.stream = dropLine u ∧ endsInComment s)))
  | 0 => by
    constructor
    · intro t st root nodes key line line1 c0 c1 r _ h
      rw [whileRead] at h; cases h
    · intro t st root nodes key line line1 c r _ _ h
      rw [redo] at h; cases h
  | n + 1 => by
    obtain ⟨ihw, ihr⟩ := run_follows u hu s n
    constructor
    · intro t st root nodes key line line1 c0 c1 r hsuf h
      cases t with
      | nil =>
        rw [whileRead_nil n _ rfl] at h
        cases h
        exact ⟨⟨u, st, root, nodes, key, line1, c1⟩, Leads.refl _, ⟨rfl, rfl, rfl, rfl⟩,
          Or.inl rfl⟩
      | cons c t =>
        rw [whileRead_cons n _ c t rfl] at h
        obtain ⟨q, hl, ha, hq⟩ := ihr t st root nodes key line line1 c r
          ((List.suffix_cons c t).trans hsuf) (fun e => by rw [← e]; exact hsuf) h
        exact ⟨q, leads_of_redo hl, ha, hq⟩
    · intro t st root nodes key line line1 c r hsuf h47 h
      rw [redo_succ] at h
      have hf := body_follows u hu t st root nodes key line line1 c
      cases hb : body ⟨t, st, root, nodes, key, line, c⟩ with
      | throw e q => rw [hb] at h; cases h
      | undefined => rw [hb] at h; cases h
      | continue_ q =>
        rw [hb] at h hf
        simp only [Next.run] at h
        cases hb1 : body ⟨t ++ u, st, root, nodes, key, line1, c⟩ with
        | throw e q1 => rw [hb1] at hf; exact absurd hf (by simp [Next.Follows])
        | undefined => rw [hb1] at hf; exact absurd hf (by simp [Next.Follows])
        | redo q1 => rw [hb1] at hf; exact absurd hf (by simp [Next.Follows])
        | continue_ q1 =>
          rw [hb1] at hf
          simp only [Next.Follows] at hf
          obtain ⟨ha, hs1, halt⟩ := hf
          obtain ⟨t2, st2, root2, nodes2, key2, line2, c2⟩ := q
          obtain ⟨t3, st3, root3, nodes3, key3, line3, c3⟩ := q1
          obtain ⟨a1, a2, a3, a4⟩ := ha
          simp only at a1 a2 a3 a4 hs1 halt
          subst a1 a2 a3 a4
          rcases halt with e | ⟨e1, e2, e3, r0, e4, e5⟩
          · subst e
            obtain ⟨q, hl, ha, hq⟩ := ihw t2 st3 root3 nodes3 key3 line2 line3 c2 c3 r
              (hs1.trans hsuf) h
            exact ⟨q, leadsNext_of_body hb1 (leadsNext_continue hl), ha, hq⟩
          · subst e1 e2
            cases n with
            | zero => rw [whileRead] at h; cases h
            | succ m =>
              rw [whileRead_nil m _ rfl] at h
              cases h
              refine ⟨⟨dropLine u, st3, root3, nodes3, key3, line3, c3⟩,
                leadsNext_of_body hb1 (leadsNext_continue (Leads.refl _)),
                ⟨rfl, rfl, rfl, rfl⟩, Or.inr ⟨rfl, ?_⟩⟩
              obtain ⟨pre, hpre⟩ := h47 e3
              exact ⟨pre, r0, by rw [← hpre, e4], e5⟩
      | redo q =>
        rw [hb] at h hf
        simp only [Next.run] at h
        cases hb1 : body ⟨t ++ u, st, root, nodes, key, line1, c⟩ with
        | throw e q1 => rw [hb1] at hf; exact absurd hf (by simp [Next.Follows])
        | undefined => rw [hb1] at hf; exact absurd hf (by simp [Next.Follows])
        | continue_ q1 => rw [hb1] at hf; exact absurd hf (by simp [Next.Follows])
        | redo q1 =>
          rw [hb1] at hf
          simp only [Next.Follows] at hf
          obtain ⟨ha, hs1, hs47, halt⟩ := hf
          obtain ⟨t2, st2, root2, nodes2, key2, line2, c2⟩ := q
          obtain ⟨t3, st3, root3, nodes3, key3, line3, c3⟩ := q1
          obtain ⟨a1, a2, a3, a4⟩ := ha
          simp only at a1 a2 a3 a4 hs1 hs47 halt
          subst a1 a2 a3 a4
          rcases halt with ⟨e, e0⟩ | ⟨e1, e2, e3⟩
          · subst e e0
            obtain ⟨q, hl, ha, hq⟩ := ihr t2 st3 root3 nodes3 key3 line2 line3 c3 r
              (hs1.trans hsuf) (fun e => (hs47 e).trans hsuf) h
            exact ⟨q, leadsNext_of_body hb1 hl, ha, hq⟩
          · subst e1 e2
            cases n with
            | zero => rw [redo] at h; cases h
            | succ m =>
              rw [redo_succ, body_white (show isWhite 32 = true by decide)] at h
              simp only [Next.run] at h
              cases m with
              | zero => rw [whileRead] at h; cases h
              | succ k =>
                rw [whileRead_nil k _ rfl] at h
                cases h
                refine ⟨⟨u, st3, root3, nodes3, key3, line3, 0⟩, ?_, ⟨rfl, rfl, rfl, rfl⟩,
                  Or.inl rfl⟩
                apply leadsNext_of_body hb1
                rw [e3]
                exact leadsNext_lookahead c3 t3 st3 root3 nodes3 key3 line3 0

/-! ## White space and comments around a document -/

theorem deserialize_value {s : List Nat} {D : Element} (h : deserialize s = .value D) :
    ∃ r, whileRead (3 * s.length + 1) (Parser.start s) = .done r ∧
      r.state = .S_POST_ELEMENT ∧ r.nodes = [] ∧ r.root = D := by
  unfold deserialize deserializeStream at h
  rw [assign_fresh_null] at h
  unfold Parser.start
  cases hr : whileRead (3 * s.length + 1)
      ⟨s, .S_PRE_ELEMENT, Element.ofType .NULL_VALUE, [[]], [], 1, 0⟩ with
  | done p =>
    rw [hr] at h
    by_cases hc : p.state = .S_POST_ELEMENT ∧ p.nodes = []
    · simp only [hc, and_self, not_true_eq_false, if_false, ParseResult.value.injEq] at h
      exact ⟨p, rfl, hc.1, hc.2, h⟩
    · simp [hc] at h
  | throw e q => rw [hr] at h; cases h
  | undefined => rw [hr] at h; cases h
  | outOfFuel => rw [hr] at h; cases h

/-- A document that parses to `D`, read from any line with `u` behind it, where
`u` does not start with a character of a number: the run comes to the loop
head with the document complete, the value `D` and `u` unread, or, when the
last line of the document holds `//`, with what a comment leaves of `u`. -/
theorem follows_value {s : List Nat} {D : Element} (h : deserialize s = .value D)
    (u : List Nat) (hu : endsNumber u) (line1 : Int) (c1 : Nat) :
    ∃ q, Leads ⟨s ++ u, .S_PRE_ELEMENT, Element.ofType .NULL_VALUE, [[]], [], line1, c1⟩ q ∧
      q.state = .S_POST_ELEMENT ∧ q.nodes = [] ∧ q.root = D ∧
      (q.stream = u ∨ (q.stream = dropLine u ∧ endsInComment s)) := by
  obtain ⟨r, hr, h1, h2, h3⟩ := deserialize_value h
  unfold Parser.start at hr
  obtain ⟨q, hl, ha, hq⟩ := (run_follows u hu s (3 * s.length + 1)).1 s .S_PRE_ELEMENT
    (Element.ofType .NULL_VALUE) [[]] [] 1 line1 0 c1 r (List.suffix_refl _) hr
  obtain ⟨a1, a2, a3, a4⟩ := ha
  exact ⟨q, hl, by rw [a1, h1], by rw [a3, h2], by rw [a2, h3], hq⟩

theorem isNumberChar_of_white {c : Nat} (h : isWhite c = true) : isNumberChar c = false := by
  have h1 : c = 32 ∨ c = 13 ∨ c = 10 ∨ c = 9 := by
    simpa [isWhite, or_assoc] using h
  rcases h1 with h1 | h1 | h1 | h1 <;> subst h1 <;> decide

theorem skippable_endsNumber {t : List Nat} (h : Skippable t) : endsNumber t := by
  intro c r e
  cases h with
  | nil => cases e
  | white c1 rest hw _ => cases e; exact isNumberChar_of_white hw
  | comment rest _ => cases e; decide

theorem skippable_dropLine : ∀ {t : List Nat}, Skippable t → Skippable (dropLine t) := by
  intro t h
  induction h with
  | nil => exact Skippable.nil
  | white c rest hw hs ih =>
    by_cases hc : c = 10 ∨ c = 13
    · have e : dropLine (c :: rest) = rest := by
        unfold dropLine
        rw [skipToEol, if_pos hc]
      rw [e]
      exact hs
    · have e : dropLine (c :: rest) = dropLine rest := by
        unfold dropLine
        rw [skipToEol, if_neg hc, skipToEol_rest]
      rw [e]
      exact ih
  | comment rest hs ih =>
    have e : dropLine (47 :: 47 :: rest) = dropLine rest := by
      unfold dropLine
      rw [skipToEol, if_neg (by decide), skipToEol, if_neg (by decide), skipToEol_rest]
    rw [e]
    exact hs

theorem body_comment (rest : List Nat) (st : State) (root : Element) (nodes : List NodePtr)
    (key : JString) (line : Int) :
    body ⟨47 :: rest, st, root, nodes, key, line, 47⟩
      = .continue_ ⟨dropLine rest, st, root, nodes, key, (skipToEol rest line).1, 47⟩ := by
  have hs : skipLineComment (47 :: rest) line = .ok ((skipToEol rest line).1, dropLine rest) := by
    unfold skipLineComment
    simp only
    rw [if_neg (by decide), ← skipToEol_rest rest line]
  rw [body_slash_ok rfl hs]

/-- White space and comments are skipped in any state of the machine. -/
theorem skippable_halts {t : List Nat} (h : Skippable t) :
    ∀ (st : State) (root : Element) (nodes : List NodePtr) (key : JString) (line : Int)
      (c0 : Nat),
    ∃ line1 c1, Halts ⟨t, st, root, nodes, key, line, c0⟩
      (.done ⟨[], st, root, nodes, key, line1, c1⟩) := by
  induction h with
  | nil =>
    intro st root nodes key line c0
    exact ⟨line, c0, 1, whileRead_nil 0 _ rfl, by intro h; cases h⟩
  | white c rest hw _ ih =>
    intro st root nodes key line c0
    obtain ⟨line1, c1, hh⟩ := ih st root nodes key (if c = 10 ∨ c = 13 then line + 1 else line) c
    refine ⟨line1, c1, ?_⟩
    have hl : Leads ⟨c :: rest, st, root, nodes, key, line, c0⟩
        ⟨rest, st, root, nodes, key, if c = 10 ∨ c = 13 then line + 1 else line, c⟩ := by
      apply leads_of_body c rest rfl
      rw [body_white (by exact hw)]
      exact leadsNext_continue (Leads.refl _)
    exact hl _ hh
  | comment rest _ ih =>
    intro st root nodes key line c0
    obtain ⟨line1, c1, hh⟩ := ih st root nodes key (skipToEol rest line).1 47
    refine ⟨line1, c1, ?_⟩
    have hl : Leads ⟨47 :: 47 :: rest, st, root, nodes, key, line, c0⟩
        ⟨dropLine rest, st, root, nodes, key, (skipToEol rest line).1, 47⟩ := by
      apply leads_of_body 47 (47 :: rest) rfl
      rw [body_comment]
      exact leadsNext_continue (Leads.refl _)
    exact hl _ hh

/-- White space and complete comments before a text are skipped; the line number
advances by the number of line-break bytes in them. -/
theorem blank_leads {w : List Nat} (h : Blank w) :
    ∀ (rest : List Nat) (st : State) (root : Element) (nodes : List NodePtr) (key : JString)
      (line : Int) (c0 : Nat),
    ∃ c1, Leads ⟨w ++ rest, st, root, nodes, key, line, c0⟩
      ⟨rest, st, root, nodes, key, line + lineBreaks w, c1⟩ := by
  induction h with
  | nil =>
    intro rest st root nodes key line c0
    refine ⟨c0, ?_⟩
    simp only [lineBreaks, List.countP_nil, Nat.cast_zero, add_zero, List.nil_append]
    exact Leads.refl _
  | white c w hw _ ih =>
    intro rest st root nodes key line c0
    obtain ⟨c1, hl⟩ := ih rest st root nodes key (if c = 10 ∨ c = 13 then line + 1 else line) c
    refine ⟨c1, ?_⟩
    have e : (if c = 10 ∨ c = 13 then line + 1 else line) + (lineBreaks w : Int)
        = line + (lineBreaks (c :: w) : Int) := by
      unfold lineBreaks
      rw [List.countP_cons]
      by_cases h1 : c = 10 ∨ c = 13
      · have : (c == 10 || c == 13) = true := by simpa using h1
        simp only [h1, if_true, this]
        push_cast
        ring
      · have : (c == 10 || c == 13) = false := by simpa using h1
        simp [h1, this]
    rw [e] at hl
    apply leads_of_body c (w ++ rest) rfl
    rw [body_white (by exact hw)]
    exact leadsNext_continue hl
  | comment c nl w hc hnl _ ih =>
    intro rest st root nodes key line c0
    obtain ⟨c1, hl⟩ := ih rest st root nodes key (line + 1) 47
    refine ⟨c1, ?_⟩
    have e1 : lineBreaks (47 :: 47 :: (c ++ nl :: w)) = 1 + lineBreaks w := by
      unfold lineBreaks
      have h0 : List.countP (fun c => c == 10 || c == 13) c = 0 := by
        rw [List.countP_eq_zero]
        intro b hb
        have := hc b hb
        simp [this.1, this.2]
      have h1 : (nl == 10 || nl == 13) = true := by simpa using hnl
      rw [List.countP_cons, List.countP_cons, List.countP_append, List.countP_cons, h0, h1]
      simp
      omega
    have e2 : line + 1 + (lineBreaks w : Int)
        = line + (lineBreaks (47 :: 47 :: (c ++ nl :: w)) : Int) := by
      rw [e1]; push_cast; ring
    rw [e2] at hl
    have hb := body_comment ((c ++ nl :: w) ++ rest) st root nodes key line
    have e3 : (c ++ nl :: w) ++ rest = c ++ nl :: (w ++ rest) := by simp
    rw [e3, skipToEol_line_plain c hc nl (w ++ rest) line hnl] at hb
    have e4 : dropLine (c ++ nl :: (w ++ rest)) = w ++ rest :=
      dropLine_plain c hc nl (w ++ rest) hnl
    rw [e4] at hb
    apply leads_of_body 47 (47 :: (c ++ nl :: (w ++ rest))) (by simp)
    rw [hb]
    exact leadsNext_continue hl

/-- A document that parses to `D` parses to `D` behind white space and complete
comments and before white space and comments. -/
theorem deserialize_skip {s : List Nat} {D : Element} (h : deserialize s = .value D)
    {w1 w2 : List Nat} (h1 : Blank w1) (h2 : Skippable w2) :
    deserialize (w1 ++ (s ++ w2)) = .value D := by
  obtain ⟨c1, hl1⟩ := (blank_leads h1) (s ++ w2) .S_PRE_ELEMENT (Element.ofType .NULL_VALUE) [[]] [] 1 0
  obtain ⟨q, hl2, q1, q2, q3, hq⟩ := follows_value h w2 (skippable_endsNumber h2) (1 + lineBreaks w1) c1
  obtain ⟨t, st, root, nodes, key, line, c⟩ := q
  simp only at q1 q2 q3 hq
  subst q1 q2 q3
  have hsk : Skippable t := by
    rcases hq with e | ⟨e, _⟩
    · rw [e]; exact h2
    · rw [e]; exact (skippable_dropLine h2)
  obtain ⟨line2, c2, hh⟩ := (skippable_halts hsk) .S_POST_ELEMENT root [] key line c
  have := deserialize_of_done (hl1 _ (hl2 _ hh))
  simpa using this

theorem blank_of_white : ∀ (w : List Nat), (∀ c ∈ w, isWhite c = true) → Blank w
  | [], _ => Blank.nil
  | c :: w, h =>
    Blank.white c w (h c (List.mem_cons_self _ _))
      (blank_of_white w (fun d hd => h d (List.mem_cons_of_mem _ hd)))

theorem skippable_of_white : ∀ (w : List Nat), (∀ c ∈ w, isWhite c = true) → Skippable w
  | [], _ => Skippable.nil
  | c :: w, h =>
    Skippable.white c w (h c (List.mem_cons_self _ _))
      (skippable_of_white w (fun d hd => h d (List.mem_cons_of_mem _ hd)))

theorem dropLine_of_plain : ∀ (c : List Nat), (∀ b ∈ c, b ≠ 10 ∧ b ≠ 13) → dropLine c = []
  | [], _ => rfl
  | b :: c, h => by
    have hb := h b (List.mem_cons_self _ _)
    have hne : ¬ (b = 10 ∨ b = 13) := fun e => e.elim hb.1 hb.2
    have ih := dropLine_of_plain c (fun d hd => h d (List.mem_cons_of_mem _ hd))
    unfold dropLine at ih ⊢
    rw [skipToEol, if_neg hne, skipToEol_rest]
    exact ih

theorem skippable_of_comment (c : List Nat) (h : ∀ b ∈ c, b ≠ 10 ∧ b ≠ 13) :
    Skippable (47 :: 47 :: c) := by
  apply Skippable.comment
  rw [dropLine_of_plain c h]
  exact Skippable.nil

theorem blank_of_comment (c : List Nat) (h : ∀ b ∈ c, b ≠ 10 ∧ b ≠ 13) :
    Blank (47 :: 47 :: (c ++ [10])) :=
  Blank.comment c 10 [] h (Or.inl rfl) Blank.nil

/-! ## The parser builds finite numbers only -/

theorem finiteNumbers_mk {t : ElemType} {o : JObject} {a : JArray} {s : JString} {n : Number}
    {b : Bool} (h : (Element.mk t o a s n b).finiteNumbers = true) :
    n.isfinite = true ∧ finiteMembers o = true ∧ finiteItems a = true := by
  rw [Element.finiteNumbers] at h
  simp only [Bool.and_eq_true] at h
  exact ⟨h.1.1, h.1.2, h.2⟩

theorem finiteNumbers_of {t : ElemType} {o : JObject} {a : JArray} {s : JString} {n : Number}
    {b : Bool} (hn : n.isfinite = true) (ho : finiteMembers o = true)
    (ha : finiteItems a = true) : (Element.mk t o a s n b).finiteNumbers = true := by
  rw [Element.finiteNumbers, hn, ho, ha]
  rfl

theorem finiteItems_cons {x : Element} {rest : List Element}
    (h : finiteItems (x :: rest) = true) :
    x.finiteNumbers = true ∧ finiteItems rest = true := by
  rw [finiteItems] at h
  simpa using h

theorem finiteMembers_cons {k : JString} {x : Element} {rest : JObject}
    (h : finiteMembers ((k, x) :: rest) = true) :
    x.finiteNumbers = true ∧ finiteMembers rest = true := by
  rw [finiteMembers] at h
  simpa using h

theorem finiteItems_mem : ∀ {xs : List Element}, finiteItems xs = true →
    ∀ x ∈ xs, x.finiteNumbers = true
  | [], _, _, hx => by simp at hx
  | y :: ys, h, x, hx => by
    obtain ⟨h1, h2⟩ := finiteItems_cons h
    rcases List.mem_cons.1 hx with rfl | hin
    · exact h1
    · exact finiteItems_mem h2 x hin

theorem finiteMembers_mem : ∀ {xs : JObject}, finiteMembers xs = true →
    ∀ k x, (k, x) ∈ xs → x.finiteNumbers = true
  | [], _, _, _, hx => by simp at hx
  | (k1, y) :: ys, h, k, x, hx => by
    obtain ⟨h1, h2⟩ := finiteMembers_cons h
    rcases List.mem_cons.1 hx with heq | hin
    · cases heq; exact h1
    · exact finiteMembers_mem h2 k x hin

theorem deref_finiteNumbers : ∀ (p : NodePtr) (root e : Element),
    root.finiteNumbers = true → deref root p = some e → e.finiteNumbers = true
  | [], root, e, hw, h => by
    rw [deref] at h
    cases h
    exact hw
  | .index i :: p, .mk t o a s n b, e, hw, h => by
    rw [deref] at h
    simp only [Element._array] at h
    cases hg : a.get? i with
    | none => simp only [hg] at h; cases h
    | some c =>
      simp only [hg] at h
      exact deref_finiteNumbers p c e
        (finiteItems_mem (finiteNumbers_mk hw).2.2 c (List.get?_mem hg)) h
  | .member k :: p, .mk t o a s n b, e, hw, h => by
    rw [deref] at h
    simp only [Element._object] at h
    cases hg : mapFind k o with
    | none => simp only [hg] at h; cases h
    | some c =>
      simp only [hg] at h
      exact deref_finiteNumbers p c e
        (finiteMembers_mem (finiteNumbers_mk hw).2.1 k c (mapFind_mem k o c hg)) h

theorem finiteItems_listSet (v : Element) (hv : v.finiteNumbers = true) :
    ∀ (a : List Element) (i : Nat), finiteItems a = true → finiteItems (listSet a i v) = true
  | [], _, _ => by simp [listSet, finiteItems]
  | x :: rest, 0, h => by
    simp [listSet, finiteItems, hv, (finiteItems_cons h).2]
  | x :: rest, i + 1, h => by
    simp [listSet, finiteItems, (finiteItems_cons h).1,
      finiteItems_listSet v hv rest i (finiteItems_cons h).2]

theorem finiteMembers_mapSet (k : JString) (v : Element) (hv : v.finiteNumbers = true) :
    ∀ (o : JObject), finiteMembers o = true → finiteMembers (mapSet o k v) = true
  | [], _ => by simp [mapSet, finiteMembers]
  | (k1, x) :: rest, h => by
    obtain ⟨hx, hrest⟩ := finiteMembers_cons h
    rw [mapSet]
    by_cases h1 : strLess k k1 = true
    · simpa [h1] using h
    · by_cases h2 : strLess k1 k = true
      · simp [h1, h2, finiteMembers, hx, finiteMembers_mapSet k v hv rest hrest]
      · simp [h1, h2, finiteMembers, hv, hrest]

theorem finiteMembers_mapModify (k : JString) (f : Element → Element)
    (hf : ∀ x, x.finiteNumbers = true → (f x).finiteNumbers = true) : ∀ (o : JObject),
    finiteMembers o = true → finiteMembers (mapModify k f o) = true
  | [], _ => by
    have := hf (Element.ofType .NULL_VALUE) (by decide)
    simp [mapModify, finiteMembers, this]
  | (k1, x) :: rest, h => by
    obtain ⟨hx, hrest⟩ := finiteMembers_cons h
    have h0 := hf (Element.ofType .NULL_VALUE) (by decide)
    rw [mapModify]
    by_cases h1 : strLess k k1 = true
    · simp [h1, finiteMembers, h0, hx, hrest]
    · by_cases h2 : strLess k1 k = true
      · simp [h1, h2, finiteMembers, hx, finiteMembers_mapModify k f hf rest hrest]
      · simp [h1, h2, finiteMembers, hf x hx, hrest]

theorem store_finiteNumbers (v : Element) (hv : v.finiteNumbers = true) :
    ∀ (p : NodePtr) (root r1 : Element), root.finiteNumbers = true →
      store root p v = some r1 → r1.finiteNumbers = true
  | [], root, r1, _, h => by
    rw [store] at h
    cases h
    exact hv
  | .index i :: p, .mk t o a s n b, r1, hw, h => by
    rw [store] at h
    obtain ⟨hk, hm, hi⟩ := finiteNumbers_mk hw
    cases hg : a.get? i with
    | none => simp only [hg] at h; cases h
    | some c =>
      simp only [hg] at h
      cases hs : store c p v with
      | none => simp only [hs] at h; cases h
      | some c1 =>
        simp only [hs, Option.some.injEq] at h
        have hc1 := store_finiteNumbers v hv p c c1 (finiteItems_mem hi c (List.get?_mem hg)) hs
        rw [← h]
        exact finiteNumbers_of hk hm (finiteItems_listSet c1 hc1 a i hi)
  | .member k :: p, .mk t o a s n b, r1, hw, h => by
    rw [store] at h
    obtain ⟨hk, hm, hi⟩ := finiteNumbers_mk hw
    cases hg : mapFind k o with
    | none => simp only [hg] at h; cases h
    | some c =>
      simp only [hg] at h
      cases hs : store c p v with
      | none => simp only [hs] at h; cases h
      | some c1 =>
        simp only [hs, Option.some.injEq] at h
        have hc1 := store_finiteNumbers v hv p c c1
          (finiteMembers_mem hm k c (mapFind_mem k o c hg)) hs
        rw [← h]
        exact finiteNumbers_of hk (finiteMembers_mapSet k c1 hc1 o hm) hi

theorem assign_ofType_finiteNumbers (el : Element) (t : ElemType)
    (h : el.finiteNumbers = true) : (el.assign (Element.ofType t)).finiteNumbers = true := by
  obtain ⟨ty, o, a, s, n, b⟩ := el
  have hn := (finiteNumbers_mk h).1
  cases t <;>
    simp [Element.assign, Element.ofType, Element.finiteNumbers, finiteMembers, finiteItems,
      Element.copyObject, Element.copyArray, Element._number, Element._boolean, hn] <;>
    rfl

theorem assign_ofBool_finiteNumbers (el : Element) (b : Bool) :
    (el.assign (Element.ofBool b)).finiteNumbers = true := by
  rfl

theorem parseNumber_finite (stream : List Nat) (first : Nat) (num : Number) (line : Int)
    (h : num.isfinite = true) : (parseNumber stream first num line).1.isfinite = true := by
  unfold parseNumber
  rcases parseNumberLoop stream [first] with ⟨os, extra, rest⟩
  simp only
  cases hs : stod os with
  | invalid_argument => exact h
  | out_of_range => exact h
  | ok val read =>
    simp only
    split <;> exact stod_finite _ _ _ hs

theorem parsePrimitive_finiteNumbers (stream : List Nat) (first : Nat) (el : Element)
    (line : Int) (hw : el.finiteNumbers = true) :
    (parsePrimitive stream first el line).1.finiteNumbers = true := by
  unfold parsePrimitive
  split
  · split
    · exact hw
    · exact assign_ofType_finiteNumbers el .NULL_VALUE hw
  · split
    · split
      · exact hw
      · exact assign_ofBool_finiteNumbers el _
    · split
      · split
        · exact hw
        · exact assign_ofBool_finiteNumbers el _
      · split
        · have e : el.assign (Element.ofType .STRING)
              = .mk .STRING [] [] [] Number.zero false := by
            simp [Element.ofType, Element.assign]
          rw [e]
          cases parseString stream line with
          | error e => rfl
          | ok r => rfl
        · split
          · have e : el.assign (Element.ofType .NUMBER)
                = .mk .NUMBER [] [] [] Number.zero false := by
              simp [Element.ofType, Element.assign]
            rw [e]
            simp only
            exact finiteNumbers_of (parseNumber_finite stream first Number.zero line rfl) rfl rfl
          · exact hw

theorem beginValue_finiteNumbers (p : Parser) (hw : p.root.finiteNumbers = true) :
    (beginValue p).finiteNumbers = true := by
  unfold beginValue
  cases hn : p.nodes with
  | nil => rfl
  | cons top below =>
    simp only
    cases hd : deref p.root top with
    | none => rfl
    | some el =>
      have hel := deref_finiteNumbers top p.root el hw hd
      simp only
      split
      · cases hs : store p.root top (el.assign (Element.ofType .ARRAY)) with
        | none => rfl
        | some r1 =>
          exact store_finiteNumbers _ (assign_ofType_finiteNumbers _ _ hel) top p.root r1 hw hs
      · split
        · cases hs : store p.root top (el.assign (Element.ofType .OBJECT)) with
          | none => rfl
          | some r1 =>
            exact store_finiteNumbers _ (assign_ofType_finiteNumbers _ _ hel) top p.root r1 hw hs
        · have hp := parsePrimitive_finiteNumbers p.stream p.in_
            (el.assign (Element.ofType .NULL_VALUE)) p.line
            (assign_ofType_finiteNumbers _ _ hel)
          rcases hpp : parsePrimitive p.stream p.in_ (el.assign (Element.ofType .NULL_VALUE))
            p.line with ⟨el1, r⟩
          rw [hpp] at hp
          simp only at hp
          cases r with
          | error e =>
            simp only
            cases hs : store p.root top el1 with
            | none => rfl
            | some r1 => exact store_finiteNumbers _ hp top p.root r1 hw hs
          | ok q =>
            obtain ⟨extra, rest⟩ := q
            simp only
            cases hs : store p.root top el1 with
            | none => rfl
            | some r1 => exact store_finiteNumbers _ hp top p.root r1 hw hs

theorem finiteItems_append_fresh : ∀ (a : List Element), finiteItems a = true →
    finiteItems (a ++ [Element.copy (Element.ofType .NULL_VALUE)]) = true
  | [], _ => rfl
  | x :: rest, h => by
    rw [List.cons_append, finiteItems, (finiteItems_cons h).1,
      finiteItems_append_fresh rest (finiteItems_cons h).2]
    rfl

theorem preElement_finiteNumbers (p : Parser) (hw : p.root.finiteNumbers = true) :
    (preElement p).finiteNumbers = true := by
  unfold preElement
  cases hn : p.nodes with
  | nil => rfl
  | cons top below =>
    simp only
    cases hd : deref p.root top with
    | none => rfl
    | some el =>
      have hel := deref_finiteNumbers top p.root el hw hd
      obtain ⟨t, o, a, s, n, b⟩ := el
      obtain ⟨hk, hm, hi⟩ := finiteNumbers_mk hel
      simp only
      split
      · exact beginValue_finiteNumbers p hw
      · split
        · split
          · exact hw
          · cases hs : store p.root top
                (.mk t o (a ++ [Element.copy (Element.ofType .NULL_VALUE)]) s n b) with
            | none => rfl
            | some r1 =>
              refine beginValue_finiteNumbers _ ?_
              refine store_finiteNumbers _ ?_ top p.root r1 hw hs
              exact finiteNumbers_of hk hm (finiteItems_append_fresh a hi)
        · split
          · cases hs : store p.root top
                (.mk t (mapModify p.key (fun x => x.assign (Element.ofType .NULL_VALUE)) o)
                  a s n b) with
            | none => rfl
            | some r1 =>
              refine beginValue_finiteNumbers _ ?_
              refine store_finiteNumbers _ ?_ top p.root r1 hw hs
              exact finiteNumbers_of hk
                (finiteMembers_mapModify _ _
                  (fun x hx => assign_ofType_finiteNumbers x _ hx) o hm) hi
          · exact beginValue_finiteNumbers p hw

theorem postElement_finiteNumbers (p : Parser) (hw : p.root.finiteNumbers = true) :
    (postElement p).finiteNumbers = true := by
  unfold postElement
  cases hn : p.nodes with
  | nil => exact hw
  | cons top below =>
    simp only
    cases hd : deref p.root top with
    | none => rfl
    | some el =>
      simp only
      repeat' split
      all_goals exact hw

theorem body_finiteNumbers (p : Parser) (hw : p.root.finiteNumbers = true) :
    (body p).finiteNumbers = true := by
  unfold body
  split
  · cases skipLineComment p.stream p.line with
    | error e => exact hw
    | ok r => exact hw
  · have hq : (if p.in_ = '\n'.toNat ∨ p.in_ = '\r'.toNat then { p with line := p.line + 1 }
        else p).root.finiteNumbers = true := by
      split <;> exact hw
    simp only
    generalize (if p.in_ = '\n'.toNat ∨ p.in_ = '\r'.toNat then { p with line := p.line + 1 }
        else p) = q at hq
    split
    · exact hq
    · cases q.state with
      | S_PRE_ELEMENT => exact preElement_finiteNumbers q hq
      | S_POST_ELEMENT => exact postElement_finiteNumbers q hq
      | S_PRE_SEP =>
        simp only
        split <;> exact hq
      | S_PRE_KEY =>
        simp only
        split
        · cases parseString q.stream q.line with
          | error e => exact hq
          | ok r => exact hq
        · split <;> exact hq

theorem run_finiteNumbers : ∀ (fuel : Nat) (p : Parser), p.root.finiteNumbers = true →
    (whileRead fuel p).finiteNumbers = true ∧ (redo fuel p).finiteNumbers = true
  | 0, p, _ => ⟨by rw [whileRead]; rfl, by rw [redo]; rfl⟩
  | fuel + 1, p, hw => by
    constructor
    · rw [whileRead]
      cases hst : p.stream with
      | nil => exact hw
      | cons c rest =>
        exact (run_finiteNumbers fuel { p with in_ := c, stream := rest } hw).2
    · rw [redo]
      have hb := body_finiteNumbers p hw
      cases hbody : body p with
      | continue_ q =>
        rw [hbody] at hb
        exact (run_finiteNumbers fuel q hb).1
      | redo q =>
        rw [hbody] at hb
        exact (run_finiteNumbers fuel q hb).2
      | throw e q =>
        rw [hbody] at hb
        exact hb
      | undefined => rfl

mutual
theorem allNumbers_of_finiteNumbers : ∀ (x : Element), x.finiteNumbers = true →
    x.allNumbers Number.isfinite = true
  | .mk t o a s n b, h => by
    obtain ⟨hn, hm, hi⟩ := finiteNumbers_mk h
    cases t with
    | NULL_VALUE => simp [Element.allNumbers]
    | BOOLEAN => simp [Element.allNumbers]
    | STRING => simp [Element.allNumbers]
    | NUMBER => simpa [Element.allNumbers] using hn
    | ARRAY => simpa [Element.allNumbers] using allNumbersItems_of_finite a hi
    | OBJECT => simpa [Element.allNumbers] using allNumbersMembers_of_finite o hm
theorem allNumbersItems_of_finite : ∀ (xs : List Element), finiteItems xs = true →
    allNumbersItems Number.isfinite xs = true
  | [], _ => by simp [allNumbersItems]
  | x :: rest, h => by
    rw [allNumbersItems, allNumbers_of_finiteNumbers x (finiteItems_cons h).1,
      allNumbersItems_of_finite rest (finiteItems_cons h).2]
    rfl
theorem allNumbersMembers_of_finite : ∀ (ms : JObject), finiteMembers ms = true →
    allNumbersMembers Number.isfinite ms = true
  | [], _ => by simp [allNumbersMembers]
  | (k, x) :: rest, h => by
    rw [allNumbersMembers, allNumbers_of_finiteNumbers x (finiteMembers_cons h).1,
      allNumbersMembers_of_finite rest (finiteMembers_cons h).2]
    rfl
end

/-- Every number in a value `deserialize` returns is finite, so the value is `==`
to itself. -/
theorem deserialize_eq_self {s : List Nat} {D : Element} (h : deserialize s = .value D) :
    D.finiteNumbers = true ∧ D.eq D = true := by
  obtain ⟨r, hr, _, _, h3⟩ := deserialize_value h
  have hf := (run_finiteNumbers (3 * s.length + 1) (Parser.start s) (by rfl)).1
  rw [hr] at hf
  have hD : D.finiteNumbers = true := by rw [← h3]; exact hf
  exact ⟨hD, eq_self D (allNumbers_of_finiteNumbers D hD)⟩

/-! ## C17: white space around a document -/

/-- C17: for every text `s` that `deserialize` reads as the value `D` and all
texts `w1` and `w2` of spaces, tabs, carriage returns and line feeds,
`deserialize` on `w1 ++ s ++ w2` returns the value `D`, and `D == D` holds,
so that the two results compare equal with `operator ==`. -/
theorem whitespace_insensitive (s w1 w2 : List Nat) (D : Element)
    (h : deserialize s = .value D) (h1 : ∀ c ∈ w1, isWhite c = true)
    (h2 : ∀ c ∈ w2, isWhite c = true) :
    deserialize (w1 ++ s ++ w2) = .value D ∧ D.eq D = true := by
  rw [List.append_assoc]
  exact ⟨deserialize_skip h (blank_of_white w1 h1) (skippable_of_white w2 h2),
    (deserialize_eq_self h).2⟩

/-- C17 at the empty object: ` {} ` with a tab and a line break before it parses
to what `{}` parses to. -/
theorem whitespace_insensitive_witness :
    deserialize (lit "\x7b\x7d") = .value (Element.ofType .OBJECT) ∧
    (∀ c ∈ lit "\t\n ", isWhite c = true) ∧ (∀ c ∈ lit " \r", isWhite c = true) ∧
    deserialize (lit "\t\n " ++ lit "\x7b\x7d" ++ lit " \r") = .value (Element.ofType .OBJECT) ∧
    (Element.ofType .OBJECT).eq (Element.ofType .OBJECT) = true :=
  ⟨by decide!, by decide, by decide,
    whitespace_insensitive (lit "\x7b\x7d") (lit "\t\n ") (lit " \r") _ (by decide!) (by decide)
      (by decide)⟩

/-! ## C18: comments around a document -/

/-- C18: for every text `s` that `deserialize` reads as the value `D` and all
comment texts `c1` and `c2` without line feed and carriage return,
`deserialize` returns the value `D` on `"//" ++ c1 ++ "\n" ++ s`, on
`s ++ "//" ++ c2`, where the comment ends with the input, and on the text with
both comments; and `D == D` holds, so that the results compare equal with
`operator ==`. -/
theorem comment_skipping (s c1 c2 : List Nat) (D : Element)
    (h : deserialize s = .value D) (h1 : ∀ b ∈ c1, b ≠ 10 ∧ b ≠ 13)
    (h2 : ∀ b ∈ c2, b ≠ 10 ∧ b ≠ 13) :
    deserialize (lit "//" ++ c1 ++ lit "\n" ++ s) = .value D ∧
    deserialize (s ++ lit "//" ++ c2) = .value D ∧
    deserialize (lit "//" ++ c1 ++ lit "\n" ++ s ++ lit "//" ++ c2) = .value D ∧
    D.eq D = true := by
  have e1 : lit "//" ++ c1 ++ lit "\n" ++ s = (47 :: 47 :: (c1 ++ [10])) ++ (s ++ []) := by
    simp [lit]
  have e2 : s ++ lit "//" ++ c2 = [] ++ (s ++ 47 :: 47 :: c2) := by
    simp [lit]
  have e3 : lit "//" ++ c1 ++ lit "\n" ++ s ++ lit "//" ++ c2
      = (47 :: 47 :: (c1 ++ [10])) ++ (s ++ 47 :: 47 :: c2) := by
    simp [lit]
  rw [e3, e1, e2]
  exact ⟨deserialize_skip h (blank_of_comment c1 h1) Skippable.nil,
    deserialize_skip h Blank.nil (skippable_of_comment c2 h2),
    deserialize_skip h (blank_of_comment c1 h1) (skippable_of_comment c2 h2),
    (deserialize_eq_self h).2⟩

/-- C18 at the text `[null//\n]` with the comments ` x` and the empty comment: the
text `// x\n[null//\n]//` parses to the Array that holds one Null. -/
theorem comment_skipping_witness :
    deserialize (lit "[null//\n]")
      = .value (.mk .ARRAY [] [Element.ofType .NULL_VALUE] [] Number.zero false) ∧
    (∀ b ∈ lit " x", b ≠ 10 ∧ b ≠ 13) ∧
    deserialize (lit "// x\n[null//\n]//")
      = .value (.mk .ARRAY [] [Element.ofType .NULL_VALUE] [] Number.zero false) :=
  ⟨by decide!, by decide,
    (comment_skipping (lit "[null//\n]") (lit " x") [] _ (by decide!) (by decide)
      (by intro b hb; cases hb)).2.2.1⟩

/-! ## C19: the end of the input -/

/-- C19: when the loop of `deserialize` reaches the end of the input in a state
other than `S_POST_ELEMENT` with an empty stack (a value, a key or a `:` is
awaited, or an Array or Object is still on the stack), `deserialize` throws
"Unexpected end of file."; it returns a value only from `S_POST_ELEMENT` with
an empty stack.  The empty input and every input of white space and comments
only fail in this way, and so do `{`, `[1`, `[[]`, `{"a"`, `{"a":` and
`{"a":1,`. -/
theorem unexpected_end :
    (∀ (s : List Nat) (p : Parser), Halts (Parser.start s) (.done p) →
      (p.state ≠ .S_POST_ELEMENT ∨ p.nodes ≠ []) →
      deserialize s = .syntaxError ⟨"Unexpected end of file.", p.line, p.in_⟩) ∧
    (∀ (s : List Nat) (D : Element), deserialize s = .value D →
      ∃ p, Halts (Parser.start s) (.done p) ∧ p.state = .S_POST_ELEMENT ∧ p.nodes = [] ∧
        p.root = D) ∧
    (∀ w : List Nat, Skippable w →
      ∃ line c, deserialize w = .syntaxError ⟨"Unexpected end of file.", line, c⟩) ∧
    deserialize [] = .syntaxError ⟨"Unexpected end of file.", 1, 0⟩ ∧
    deserialize (lit " \n// x") = .syntaxError ⟨"Unexpected end of file.", 2, 47⟩ ∧
    deserialize (lit "\x7b") = .syntaxError ⟨"Unexpected end of file.", 1, 123⟩ ∧
    deserialize (lit "[1") = .syntaxError ⟨"Unexpected end of file.", 1, 32⟩ ∧
    deserialize (lit "[[]") = .syntaxError ⟨"Unexpected end of file.", 1, 93⟩ ∧
    deserialize (lit "\x7b\"a\"") = .syntaxError ⟨"Unexpected end of file.", 1, 34⟩ ∧
    deserialize (lit "\x7b\"a\":") = .syntaxError ⟨"Unexpected end of file.", 1, 58⟩ ∧
    deserialize (lit "\x7b\"a\":1,") = .syntaxError ⟨"Unexpected end of file.", 1, 44⟩ := by
  refine ⟨?_, ?_, ?_, ?_, ?_, ?_, ?_, ?_, ?_, ?_, ?_⟩
  · intro s p hh hp
    rw [deserialize_of_done hh, if_neg]
    intro hc
    rcases hp with hp | hp
    · exact hp hc.1
    · exact hp hc.2
  · intro s D h
    obtain ⟨r, hr, h1, h2, h3⟩ := deserialize_value h
    exact ⟨r, ⟨_, hr, by intro hh; cases hh⟩, h1, h2, h3⟩
  · intro w hw
    obtain ⟨line1, c1, hh⟩ := (skippable_halts hw) .S_PRE_ELEMENT (Element.ofType .NULL_VALUE) [[]] [] 1 0
    refine ⟨line1, c1, ?_⟩
    have := deserialize_of_done (s := w) hh
    simpa using this
  all_goals decide!

/-! ## C20: input after the document -/

/-- C20 fails as stated: behind the document `1` the content `2` continues the
number, and `12` is read as the Number 12; behind the document `{}` the
content `/x` is taken for the start of a comment, and the error is that of
`skipLineComment`. -/
theorem input_after_end_counterexample :
    deserialize (lit "1") = .value (Element.ofNumber (.finite false 1 0)) ∧
    deserialize (lit "12") = .value (Element.ofNumber (.finite false 3 2)) ∧
    deserialize (lit "\x7b\x7d") = .value (Element.ofType .OBJECT) ∧
    deserialize (lit "\x7b\x7d/x")
      = .syntaxError ⟨"Expected second '/' to begin line comment.", 1, 120⟩ := by
  refine ⟨?_, ?_, ?_, ?_⟩ <;> decide!

theorem not_endsInComment_of_no_slash {d : List Nat} (h : ∀ b ∈ d, b ≠ 47) :
    ¬ endsInComment d := by
  rintro ⟨pre, r, e, _⟩
  exact h 47 (by rw [e]; simp) rfl

theorem blank_endsNumber_append {w : List Nat} (hw : Blank w) {x : Nat} (rest : List Nat)
    (hn : w = [] → isNumberChar x = false) : endsNumber (w ++ x :: rest) := by
  intro c r e
  cases hw with
  | nil =>
    simp only [List.nil_append, List.cons.injEq] at e
    rw [← e.1]
    exact hn rfl
  | white c1 w1 h1 _ =>
    simp only [List.cons_append, List.cons.injEq] at e
    rw [← e.1]
    exact isNumberChar_of_white h1
  | comment c1 nl w1 _ _ _ =>
    simp only [List.cons_append, List.cons.injEq] at e
    rw [← e.1]
    decide

/-! ## The stream and the caller's root -/

/-- The loop ends normally only at the end of the stream. -/
theorem run_done_stream : ∀ (n : Nat),
    (∀ p q, whileRead n p = .done q → q.stream = []) ∧
    (∀ p q, redo n p = .done q → q.stream = [])
  | 0 => by
    constructor
    · intro p q h
      rw [whileRead] at h
      cases h
    · intro p q h
      rw [redo] at h
      cases h
  | n + 1 => by
    constructor
    · intro p q h
      rw [whileRead] at h
      cases hs : p.stream with
      | nil =>
        rw [hs] at h
        simp only [Outcome.done.injEq] at h
        rw [← h]
        exact hs
      | cons c rest =>
        rw [hs] at h
        exact (run_done_stream n).2 _ q h
    · intro p q h
      rw [redo] at h
      cases hb : body p with
      | continue_ p1 => rw [hb] at h; exact (run_done_stream n).1 _ q h
      | redo p1 => rw [hb] at h; exact (run_done_stream n).2 _ q h
      | throw e p1 => rw [hb] at h; cases h
      | undefined => rw [hb] at h; cases h

theorem stream_of_done {s : List Nat} {root : Element} {p : Parser}
    (h : Halts (Parser.enter s root) (.done p)) (h1 : p.state = .S_POST_ELEMENT)
    (h2 : p.nodes = []) : deserializeStream s root = .done p := by
  have hw := whileRead_of_halts h (n := 3 * s.length + 1) (Nat.le_refl _)
  unfold Parser.enter at hw
  unfold deserializeStream
  rw [hw]
  simp [h1, h2]

theorem stream_of_throw {s : List Nat} {root : Element} {e : SyntaxError} {q : Parser}
    (h : Halts (Parser.enter s root) (.throw e q)) : deserializeStream s root = .throw e q := by
  have hw := whileRead_of_halts h (n := 3 * s.length + 1) (Nat.le_refl _)
  unfold Parser.enter at hw
  unfold deserializeStream
  rw [hw]

/-- When `deserialize(stream, root)` returns, the loop has ended in
`S_POST_ELEMENT` with an empty stack. -/
theorem stream_returned {s : List Nat} {root D : Element}
    (h : (deserializeStream s root).returned = some D) :
    ∃ p, whileRead (3 * s.length + 1) (Parser.enter s root) = .done p ∧
      p.state = .S_POST_ELEMENT ∧ p.nodes = [] ∧ p.root = D ∧
      deserializeStream s root = .done p := by
  unfold deserializeStream at h ⊢
  unfold Parser.enter
  cases hr : whileRead (3 * s.length + 1)
      ⟨s, .S_PRE_ELEMENT, root.assign (Element.ofType .NULL_VALUE), [[]], [], 1, 0⟩ with
  | done p =>
    rw [hr] at h
    by_cases hc : p.state = .S_POST_ELEMENT ∧ p.nodes = []
    · simp only [hc, and_self, not_true_eq_false, if_false, Outcome.returned,
        Option.some.injEq] at h
      refine ⟨p, rfl, hc.1, hc.2, h, ?_⟩
      simp [hc]
    · simp [hc, Outcome.returned] at h
  | throw e q => rw [hr] at h; cases h
  | undefined => rw [hr] at h; cases h
  | outOfFuel => rw [hr] at h; cases h

/-- A stream content that `deserialize(stream, root)` reads to its end, read with
`u` behind it, where `u` does not start with a character of a number: the run
comes to the loop head with the document complete and `u` unread, or, when the
last line of the document holds `//`, with what a comment leaves of `u`. -/
theorem follows_stream {s : List Nat} {root D : Element}
    (h : (deserializeStream s root).returned = some D) (u : List Nat) (hu : endsNumber u) :
    ∃ q, Leads (Parser.enter (s ++ u) root) q ∧
      q.state = .S_POST_ELEMENT ∧ q.nodes = [] ∧ q.root = D ∧
      (q.stream = u ∨ (q.stream = dropLine u ∧ endsInComment s)) := by
  obtain ⟨r, hr, h1, h2, h3, _⟩ := stream_returned h
  unfold Parser.enter at hr ⊢
  obtain ⟨q, hl, ha, hq⟩ := (run_follows u hu s (3 * s.length + 1)).1 s .S_PRE_ELEMENT
    (root.assign (Element.ofType .NULL_VALUE)) [[]] [] 1 1 0 0 r (List.suffix_refl _) hr
  obtain ⟨a1, a2, a3, a4⟩ := ha
  exact ⟨q, hl, by rw [a1, h1], by rw [a3, h2], by rw [a2, h3], hq⟩

/-! ## C21: what `deserialize(stream, root)` leaves unread -/

/-- C21 fails as stated: behind the document `{}` a space is read too, and
nothing is left unread; behind the document `{}` an `x` makes the function
throw "Input after end."; behind the document `1` a `2` is read as part of the
number. -/
theorem stream_remainder_counterexample :
    (deserializeStream (lit "\x7b\x7d") (Element.ofType .NULL_VALUE)).returned
      = some (Element.ofType .OBJECT) ∧
    (deserializeStream (lit "\x7b\x7d ") (Element.ofType .NULL_VALUE)).returned
      = some (Element.ofType .OBJECT) ∧
    (deserializeStream (lit "\x7b\x7d ") (Element.ofType .NULL_VALUE)).unread = some [] ∧
    (deserializeStream (lit "\x7b\x7dx") (Element.ofType .NULL_VALUE)).thrown
      = some ⟨"Input after end.", 1, 120⟩ ∧
    (deserializeStream (lit "1") (Element.ofType .NULL_VALUE)).returned
      = some (Element.ofNumber (.finite false 1 0)) ∧
    (deserializeStream (lit "12") (Element.ofType .NULL_VALUE)).returned
      = some (Element.ofNumber (.finite false 3 2)) := by
  refine ⟨?_, ?_, ?_, ?_, ?_, ?_⟩ <;> decide!

/-- C21 (amended): `deserialize(stream, root)` reads the stream to its end.  For
every stream content `d` on which it returns with the value `D` in `root`,
nothing is left unread; with white space and `//` comments `r` behind `d` it
returns with the same value and nothing is left unread; with other content
behind `d` (white space and complete comments `w`, then a byte `x` that is
neither white space nor `/` nor, directly behind `d`, a character of a number,
where the last line of `d` holds no `//`) it throws "Input after end." with the
byte `x`. -/
theorem stream_read_to_end (d r : List Nat) (root D : Element)
    (h : (deserializeStream d root).returned = some D) (hr : Skippable r) :
    (deserializeStream d root).unread = some [] ∧
    (deserializeStream (d ++ r) root).returned = some D ∧
    (deserializeStream (d ++ r) root).unread = some [] ∧
    (∀ (w rest : List Nat) (x : Nat), ¬ endsInComment d → Blank w → isWhite x = false →
      x ≠ 47 → (w = [] → isNumberChar x = false) →
      ∃ line, (deserializeStream (d ++ (w ++ x :: rest)) root).thrown
        = some ⟨"Input after end.", line, x⟩) := by
  have key : ∃ q, deserializeStream (d ++ r) root = .done q ∧ q.root = D ∧ q.stream = [] := by
    obtain ⟨q, hl, q1, q2, q3, hq⟩ := follows_stream h r (skippable_endsNumber hr)
    obtain ⟨t, st, root1, nodes, key, line, c⟩ := q
    simp only at q1 q2 q3 hq
    subst q1 q2 q3
    have hsk : Skippable t := by
      rcases hq with e | ⟨e, _⟩
      · rw [e]; exact hr
      · rw [e]; exact (skippable_dropLine hr)
    obtain ⟨line2, c2, hh⟩ := (skippable_halts hsk) .S_POST_ELEMENT root1 [] key line c
    exact ⟨_, stream_of_done (hl _ hh) rfl rfl, rfl, rfl⟩
  obtain ⟨q, e1, e2, e3⟩ := key
  refine ⟨?_, ?_, ?_, ?_⟩
  · obtain ⟨p, hp, _, _, _, he⟩ := stream_returned h
    rw [he, Outcome.unread, (run_done_stream _).1 _ p hp]
  · rw [e1, Outcome.returned, e2]
  · rw [e1, Outcome.unread, e3]
  · intro w rest x hd hw hx h47 hn
    obtain ⟨q, hl, q1, q2, q3, hq⟩ :=
      follows_stream h (w ++ x :: rest) (blank_endsNumber_append hw rest hn)
    obtain ⟨t, st, root1, nodes, key, line, c⟩ := q
    simp only at q1 q2 q3 hq
    subst q1 q2 q3
    have ht : t = w ++ x :: rest := by
      rcases hq with e | ⟨_, e⟩
      · exact e
      · exact absurd e hd
    subst ht
    obtain ⟨c1, hl2⟩ := (blank_leads hw) (x :: rest) .S_POST_ELEMENT root1 [] key line c
    refine ⟨line + lineBreaks w, ?_⟩
    have hb : body ⟨rest, .S_POST_ELEMENT, root1, [], key, line + lineBreaks w, x⟩
        = .throw ⟨"Input after end.", line + lineBreaks w, x⟩
            ⟨rest, .S_POST_ELEMENT, root1, [], key, line + lineBreaks w, x⟩ := by
      rw [body_post _ _ _ _ _ _ h47 hx]
      rfl
    rw [stream_of_throw (hl _ (hl2 _ (halts_of_body_throw c1 hb)))]
    rfl

/-- C21 (amended) at the document `{}` with a caller's `root` that holds `true`:
behind it ` // c` is read to the end, and `x` makes the function throw. -/
theorem stream_read_to_end_witness :
    (deserializeStream (lit "\x7b\x7d") (Element.ofBool true)).returned
      = some (.mk .OBJECT [] [] [] Number.zero true) ∧
    Skippable (lit " // c") ∧
    (deserializeStream (lit "\x7b\x7d" ++ lit " // c") (Element.ofBool true)).returned
      = some (.mk .OBJECT [] [] [] Number.zero true) ∧
    (deserializeStream (lit "\x7b\x7d" ++ lit " // c") (Element.ofBool true)).unread = some [] ∧
    (∃ line, (deserializeStream (lit "\x7b\x7d" ++ ([] ++ 120 :: [])) (Element.ofBool true)).thrown
      = some ⟨"Input after end.", line, 120⟩) :=
  have hr : Skippable (lit " // c") :=
    Skippable.white 32 _ (by decide) (skippable_of_comment (lit " c") (by decide))
  have h := stream_read_to_end (lit "\x7b\x7d") (lit " // c") (Element.ofBool true)
    (.mk .OBJECT [] [] [] Number.zero true) (by decide!) hr
  ⟨by decide!, hr, h.2.1, h.2.2.1,
    h.2.2.2 [] [] 120 (not_endsInComment_of_no_slash (by decide)) Blank.nil (by decide)
      (by decide) (fun _ => by decide)⟩

/-! ## C22: the caller's root after a failure -/

/-- A write through a pointer below the root leaves the type of the root. -/
theorem store_type (v : Element) : ∀ (p : NodePtr) (root r1 : Element), p ≠ [] →
    store root p v = some r1 → r1.type = root.type
  | [], _, _, h, _ => absurd rfl h
  | .index i :: p, .mk t o a s n b, r1, _, h => by
    rw [store] at h
    cases hc : a.get? i with
    | none => rw [hc] at h; cases h
    | some c =>
      rw [hc] at h
      simp only at h
      cases hs : store c p v with
      | none => rw [hs] at h; cases h
      | some c1 =>
        rw [hs] at h
        cases h
        rfl
  | .member k :: p, .mk t o a s n b, r1, _, h => by
    rw [store] at h
    cases hc : mapFind k o with
    | none => rw [hc] at h; cases h
    | some c =>
      rw [hc] at h
      simp only at h
      cases hs : store c p v with
      | none => rw [hs] at h; cases h
      | some c1 =>
        rw [hs] at h
        cases h
        rfl

theorem beginValue_rootType (p : Parser) (top : NodePtr) (below : List NodePtr)
    (hn : p.nodes = top :: below) (ht : top ≠ []) :
    ∀ r, (beginValue p).root = some r → r.type = p.root.type := by
  intro r hr
  unfold beginValue at hr
  rw [hn] at hr
  simp only at hr
  cases hd : deref p.root top with
  | none => rw [hd] at hr; cases hr
  | some el =>
    rw [hd] at hr
    simp only at hr
    split at hr
    · cases hs : store p.root top (el.assign (Element.ofType .ARRAY)) with
      | none => rw [hs] at hr; cases hr
      | some r1 =>
        rw [hs] at hr
        cases hr
        exact store_type _ top p.root _ ht hs
    · split at hr
      · cases hs : store p.root top (el.assign (Element.ofType .OBJECT)) with
        | none => rw [hs] at hr; cases hr
        | some r1 =>
          rw [hs] at hr
          cases hr
          exact store_type _ top p.root _ ht hs
      · rcases hpp : parsePrimitive p.stream p.in_ (el.assign (Element.ofType .NULL_VALUE))
          p.line with ⟨el1, res⟩
        rw [hpp] at hr
        cases res with
        | error e =>
          simp only at hr
          cases hs : store p.root top el1 with
          | none => rw [hs] at hr; cases hr
          | some r1 =>
            rw [hs] at hr
            cases hr
            exact store_type _ top p.root _ ht hs
        | ok q =>
          obtain ⟨extra, rest⟩ := q
          simp only at hr
          cases hs : store p.root top el1 with
          | none => rw [hs] at hr; cases hr
          | some r1 =>
            rw [hs] at hr
            cases hr
            exact store_type _ top p.root _ ht hs

/-- Once the root is an Array or an Object, case `S_PRE_ELEMENT` leaves its
type. -/
theorem preElement_rootType (p : Parser)
    (hc : p.root.type = .ARRAY ∨ p.root.type = .OBJECT) :
    ∀ r, (preElement p).root = some r → r.type = p.root.type := by
  intro r hr
  obtain ⟨stream, state, root, nodes, key, line, c⟩ := p
  simp only at hc ⊢
  cases nodes with
  | nil => simp [preElement, Next.root] at hr
  | cons top below =>
    cases hd : deref root top with
    | none => simp [preElement, hd, Next.root] at hr
    | some el =>
      obtain ⟨t, o, a, ss, n, b⟩ := el
      have hnil : top = [] → t = .ARRAY ∨ t = .OBJECT := by
        intro e
        subst e
        rw [deref_nil] at hd
        cases hd
        exact hc
      cases t with
      | ARRAY =>
        by_cases h93 : c = 93
        · subst h93
          rw [preElement_close hd] at hr
          cases hr
          rfl
        · obtain ⟨root1, hs⟩ := store_of_deref
            (.mk .ARRAY o (a ++ [Element.ofType .NULL_VALUE]) ss n b) top root _ hd
          rw [preElement_item hd h93 hs] at hr
          have h1 := beginValue_rootType
            ⟨stream, state, root1, (top ++ [.index a.length]) :: top :: below, key, line, c⟩
            _ _ rfl (by simp) r hr
          rw [h1]
          simp only
          by_cases htop : top = []
          · subst htop
            rw [store] at hs
            cases hs
            rw [deref_nil] at hd
            cases hd
            rfl
          · exact store_type _ top root root1 htop hs
      | OBJECT =>
        obtain ⟨root1, hs⟩ := store_of_deref
          (.mk .OBJECT (mapModify key (fun x => x.assign (Element.ofType .NULL_VALUE)) o)
            a ss n b) top root _ hd
        rw [preElement_member hd hs] at hr
        have h1 := beginValue_rootType
          ⟨stream, state, root1, (top ++ [.member key]) :: top :: below, key, line, c⟩
          _ _ rfl (by simp) r hr
        rw [h1]
        simp only
        by_cases htop : top = []
        · subst htop
          rw [store] at hs
          cases hs
          rw [deref_nil] at hd
          cases hd
          rfl
        · exact store_type _ top root root1 htop hs
      | NULL_VALUE =>
        have htop : top ≠ [] := fun e => by
          rcases hnil e with h | h <;> cases h
        rw [preElement_null hd (by rfl)] at hr
        exact beginValue_rootType _ top below rfl htop r hr
      | STRING =>
        have htop : top ≠ [] := fun e => by
          rcases hnil e with h | h <;> cases h
        have e0 : preElement ⟨stream, state, root, top :: below, key, line, c⟩
            = beginValue ⟨stream, state, root, top :: below, key, line, c⟩ := by
          simp [preElement, hd, Element.isNull, Element.isArray, Element.isObject, Element.type]
        rw [e0] at hr
        exact beginValue_rootType _ top below rfl htop r hr
      | NUMBER =>
        have htop : top ≠ [] := fun e => by
          rcases hnil e with h | h <;> cases h
        have e0 : preElement ⟨stream, state, root, top :: below, key, line, c⟩
            = beginValue ⟨stream, state, root, top :: below, key, line, c⟩ := by
          simp [preElement, hd, Element.isNull, Element.isArray, Element.isObject, Element.type]
        rw [e0] at hr
        exact beginValue_rootType _ top below rfl htop r hr
      | BOOLEAN =>
        have htop : top ≠ [] := fun e => by
          rcases hnil e with h | h <;> cases h
        have e0 : preElement ⟨stream, state, root, top :: below, key, line, c⟩
            = beginValue ⟨stream, state, root, top :: below, key, line, c⟩ := by
          simp [preElement, hd, Element.isNull, Element.isArray, Element.isObject, Element.type]
        rw [e0] at hr
        exact beginValue_rootType _ top below rfl htop r hr

theorem postElement_root (p : Parser) : ∀ r, (postElement p).root = some r → r = p.root := by
  intro r hr
  unfold postElement at hr
  cases hn : p.nodes with
  | nil =>
    rw [hn] at hr
    cases hr
    rfl
  | cons top below =>
    rw [hn] at hr
    simp only at hr
    cases hd : deref p.root top with
    | none => rw [hd] at hr; cases hr
    | some el =>
      rw [hd] at hr
      simp only at hr
      repeat' split at hr
      all_goals cases hr; rfl

/-- Once the root is an Array or an Object, a pass through the loop body leaves
its type. -/
theorem body_rootType (p : Parser) (hc : p.root.type = .ARRAY ∨ p.root.type = .OBJECT) :
    ∀ r, (body p).root = some r → r.type = p.root.type := by
  intro r hr
  unfold body at hr
  split at hr
  · cases hs : skipLineComment p.stream p.line with
    | error e => rw [hs] at hr; cases hr; rfl
    | ok v => rw [hs] at hr; cases hr; rfl
  · simp only at hr
    have hq : (if p.in_ = '\n'.toNat ∨ p.in_ = '\r'.toNat then { p with line := p.line + 1 }
        else p).root = p.root := by
      split <;> rfl
    generalize (if p.in_ = '\n'.toNat ∨ p.in_ = '\r'.toNat then { p with line := p.line + 1 }
        else p) = q at hq hr
    rw [← hq] at hc ⊢
    split at hr
    · cases hr; rfl
    · cases hst : q.state with
      | S_PRE_ELEMENT =>
        rw [hst] at hr
        exact preElement_rootType q hc r hr
      | S_POST_ELEMENT =>
        rw [hst] at hr
        rw [postElement_root q r hr]
      | S_PRE_SEP =>
        rw [hst] at hr
        simp only at hr
        split at hr <;> (cases hr; rfl)
      | S_PRE_KEY =>
        rw [hst] at hr
        simp only at hr
        split at hr
        · cases hs : parseString q.stream q.line with
          | error e => rw [hs] at hr; cases hr; rfl
          | ok v => rw [hs] at hr; cases hr; rfl
        · split at hr <;> (cases hr; rfl)

/-- Once the root is an Array or an Object, it is one of this type when the loop
ends, normally or by a `SyntaxError`. -/
theorem run_rootType : ∀ (n : Nat) (p : Parser),
    (p.root.type = .ARRAY ∨ p.root.type = .OBJECT) →
    (∀ r, (whileRead n p).root = some r → r.type = p.root.type) ∧
    (∀ r, (redo n p).root = some r → r.type = p.root.type)
  | 0, p, _ => by
    constructor
    · intro r hr
      rw [whileRead] at hr
      cases hr
    · intro r hr
      rw [redo] at hr
      cases hr
  | n + 1, p, hc => by
    constructor
    · intro r hr
      rw [whileRead] at hr
      cases hs : p.stream with
      | nil =>
        rw [hs] at hr
        cases hr
        rfl
      | cons c rest =>
        rw [hs] at hr
        exact (run_rootType n { p with in_ := c, stream := rest } hc).2 r hr
    · intro r hr
      rw [redo] at hr
      cases hb : body p with
      | continue_ q =>
        rw [hb] at hr
        have hq := body_rootType p hc q.root (by rw [hb]; rfl)
        rw [← hq]
        exact (run_rootType n q (by rw [hq]; exact hc)).1 r hr
      | redo q =>
        rw [hb] at hr
        have hq := body_rootType p hc q.root (by rw [hb]; rfl)
        rw [← hq]
        exact (run_rootType n q (by rw [hq]; exact hc)).2 r hr
      | throw e q =>
        rw [hb] at hr
        cases hr
        exact body_rootType p hc q.root (by rw [hb]; rfl)
      | undefined =>
        rw [hb] at hr
        cases hr

/-- C22 fails as stated: on the stream content `[1 x` the function throws and
leaves the Array with the element 1 in the caller's `root`; on `[[true,` it
leaves the Array that holds the Array with `true`. -/
theorem failed_parse_counterexample :
    (deserializeStream (lit "[1 x") (Element.ofType .NULL_VALUE)).thrown
      = some ⟨"Expected ',' or closing bracket.", 1, 120⟩ ∧
    (deserializeStream (lit "[1 x") (Element.ofType .NULL_VALUE)).rootAfterThrow
      = some (.mk .ARRAY [] [Element.ofNumber (.finite false 1 0)] [] Number.zero false) ∧
    (deserializeStream (lit "[[true,") (Element.ofType .NULL_VALUE)).thrown
      = some ⟨"Unexpected end of file.", 1, 44⟩ ∧
    (deserializeStream (lit "[[true,") (Element.ofType .NULL_VALUE)).rootAfterThrow
      = some (.mk .ARRAY [] [.mk .ARRAY [] [Element.ofBool true] [] Number.zero false] []
          Number.zero false) := by
  refine ⟨?_, ?_, ?_, ?_⟩ <;> decide!

/-- C22 (amended): `deserialize(stream, root)` builds the tree in the caller's
`root`, and a failure leaves there what has been built.  For every stream
content whose first byte behind white space and complete comments is `[` or
`{` and on which the function throws a `SyntaxError`, `root` is an Array or an
Object afterwards, not Null.  `deserialize(str)` returns no value then: it
throws the same error. -/
theorem failed_parse_keeps_tree (w rest : List Nat) (c : Nat) (root : Element)
    (e : SyntaxError) (hw : Blank w) (hc : c = 91 ∨ c = 123)
    (h : (deserializeStream (w ++ c :: rest) root).thrown = some e) :
    (∃ T, (deserializeStream (w ++ c :: rest) root).rootAfterThrow = some T ∧
      T.type = (if c = 91 then .ARRAY else .OBJECT)) ∧
    (root = Element.ofType .NULL_VALUE → deserialize (w ++ c :: rest) = .syntaxError e) := by
  constructor
  · obtain ⟨c1, hl⟩ := (blank_leads hw) (c :: rest) .S_PRE_ELEMENT
      (root.assign (Element.ofType .NULL_VALUE)) [[]] [] 1 0
    have hnull : (root.assign (Element.ofType .NULL_VALUE)).isNull = true := by
      simp [Element.assign, Element.ofType, Element.isNull, Element.type]
    have hstep : ∃ p1, Leads ⟨c :: rest, .S_PRE_ELEMENT,
          root.assign (Element.ofType .NULL_VALUE), [[]], [], 1 + lineBreaks w, c1⟩ p1 ∧
        p1.root.type = (if c = 91 then .ARRAY else .OBJECT) := by
      rcases hc with rfl | rfl
      · refine ⟨⟨rest, .S_PRE_ELEMENT,
          (root.assign (Element.ofType .NULL_VALUE)).assign (Element.ofType .ARRAY), [[]], [],
          1 + lineBreaks w, 91⟩, ?_, ?_⟩
        · apply leads_of_body 91 rest rfl
          rw [body_pre _ _ _ _ _ _ (by decide) (by decide),
            preElement_null (deref_nil _) hnull, beginValue_array (deref_nil _) (by rw [store])]
          exact leadsNext_continue (Leads.refl _)
        · simp [Element.assign, Element.ofType, Element.type]
      · refine ⟨⟨rest, .S_PRE_KEY,
          (root.assign (Element.ofType .NULL_VALUE)).assign (Element.ofType .OBJECT), [[]], [],
          1 + lineBreaks w, 123⟩, ?_, ?_⟩
        · apply leads_of_body 123 rest rfl
          rw [body_pre _ _ _ _ _ _ (by decide) (by decide),
            preElement_null (deref_nil _) hnull, beginValue_object (deref_nil _) (by rw [store])]
          exact leadsNext_continue (Leads.refl _)
        · simp [Element.assign, Element.ofType, Element.type]
    obtain ⟨p1, hl1, ht⟩ := hstep
    have hcont : p1.root.type = .ARRAY ∨ p1.root.type = .OBJECT := by
      rw [ht]
      split
      · exact Or.inl rfl
      · exact Or.inr rfl
    have hne := (fuel_enough (3 * p1.stream.length + 1)).1 p1 (Nat.le_refl _)
    have hinv := (run_rootType (3 * p1.stream.length + 1) p1 hcont).1
    have hh : Halts (Parser.enter (w ++ c :: rest) root)
        (whileRead (3 * p1.stream.length + 1) p1) := hl _ (hl1 _ ⟨_, rfl, hne⟩)
    have hrun := whileRead_of_halts hh (n := 3 * (w ++ c :: rest).length + 1) (Nat.le_refl _)
    unfold Parser.enter at hrun
    unfold deserializeStream at h ⊢
    rw [hrun] at h ⊢
    cases hr : whileRead (3 * p1.stream.length + 1) p1 with
    | done p =>
      rw [hr] at h hinv
      have hp := hinv p.root rfl
      by_cases hcd : p.state = .S_POST_ELEMENT ∧ p.nodes = []
      · simp [hcd, Outcome.thrown] at h
      · refine ⟨p.root, ?_, by rw [hp, ht]⟩
        simp [hcd, Outcome.rootAfterThrow]
    | throw e1 q =>
      rw [hr] at hinv
      have hp := hinv q.root rfl
      exact ⟨q.root, rfl, by rw [hp, ht]⟩
    | undefined => rw [hr] at h; cases h
    | outOfFuel => rw [hr] at h; cases h
  · intro hroot
    subst hroot
    unfold deserialize
    cases hr : deserializeStream (w ++ c :: rest) (Element.ofType .NULL_VALUE) with
    | done p => rw [hr] at h; cases h
    | throw e1 q =>
      rw [hr] at h
      cases h
      rfl
    | undefined => rw [hr] at h; cases h
    | outOfFuel => rw [hr] at h; cases h

/-- C22 (amended) at the stream content ` [1 x`: the error is thrown, and `root`
is an Array afterwards. -/
theorem failed_parse_keeps_tree_witness :
    Blank (lit " ") ∧
    (deserializeStream (lit " " ++ 91 :: lit "1 x") (Element.ofType .NULL_VALUE)).thrown
      = some ⟨"Expected ',' or closing bracket.", 1, 120⟩ ∧
    (∃ T, (deserializeStream (lit " " ++ 91 :: lit "1 x")
        (Element.ofType .NULL_VALUE)).rootAfterThrow = some T ∧ T.type = .ARRAY) ∧
    deserialize (lit " " ++ 91 :: lit "1 x")
      = .syntaxError ⟨"Expected ',' or closing bracket.", 1, 120⟩ :=
  have hb : Blank (lit " ") := Blank.white 32 [] (by decide) Blank.nil
  have h := failed_parse_keeps_tree (lit " ") (lit "1 x") 91 (Element.ofType .NULL_VALUE)
    ⟨"Expected ',' or closing bracket.", 1, 120⟩ hb (Or.inl rfl) (by decide!)
  ⟨hb, by decide!, h.1, h.2 rfl⟩

/-! ## A primitive that is refused -/

/-- The character `parsePrimitive` returns, or the error it throws, does not
depend on the element it assigns to. -/
theorem parsePrimitive_snd (stream : List Nat) (first : Nat) (el el0 : Element) (line : Int) :
    (parsePrimitive stream first el line).2 = (parsePrimitive stream first el0 line).2 := by
  unfold parsePrimitive
  split
  · cases parseNull stream line with
    | error e => rfl
    | ok r => rfl
  · split
    · cases parseTrue stream line with
      | error e => rfl
      | ok r => rfl
    · split
      · cases parseFalse stream line with
        | error e => rfl
        | ok r => rfl
      · split
        · have e1 : el.assign (Element.ofType .STRING)
              = .mk .STRING [] [] [] Number.zero false := by
            simp [Element.ofType, Element.assign]
          have e2 : el0.assign (Element.ofType .STRING)
              = .mk .STRING [] [] [] Number.zero false := by
            simp [Element.ofType, Element.assign]
          rw [e1, e2]
        · split
          · have e1 : el.assign (Element.ofType .NUMBER)
                = .mk .NUMBER [] [] [] Number.zero false := by
              simp [Element.ofType, Element.assign]
            have e2 : el0.assign (Element.ofType .NUMBER)
                = .mk .NUMBER [] [] [] Number.zero false := by
              simp [Element.ofType, Element.assign]
            rw [e1, e2]
          · rfl

/-- When `parsePrimitive` throws, the statements of `S_PRE_ELEMENT` behind the
choice of the node throw its error. -/
theorem beginValue_throw {s : List Nat} {st : State} {root el : Element} {top : NodePtr}
    {below : List NodePtr} {key : JString} {line : Int} {c : Nat} {e : SyntaxError}
    (h1 : c ≠ 91) (h2 : c ≠ 123) (hd : deref root top = some el)
    (hp : (parsePrimitive s c (Element.ofType .NULL_VALUE) line).2 = .error e) :
    ∃ q, beginValue ⟨s, st, root, top :: below, key, line, c⟩ = .throw e q := by
  have hp1 := hp
  rw [parsePrimitive_snd s c _ (el.assign (Element.ofType .NULL_VALUE))] at hp1
  rcases hpp : parsePrimitive s c (el.assign (Element.ofType .NULL_VALUE)) line with ⟨el1, r⟩
  rw [hpp] at hp1
  simp only at hp1
  subst hp1
  obtain ⟨r1, hs⟩ := store_of_deref el1 top root el hd
  refine ⟨⟨s, st, r1, top :: below, key, line, c⟩, ?_⟩
  unfold beginValue
  simp only [hd, hpp, hs]
  rw [if_neg (show ¬ c = '['.toNat from h1), if_neg (show ¬ c = '\x7b'.toNat from h2)]

/-- When `parsePrimitive` throws on the text of an element, case `S_PRE_ELEMENT`
throws its error, whatever node is on top of the stack: the root, an Array
(the text does not start with `]`) or an Object. -/
theorem preElement_throw {s : List Nat} {st : State} {root el : Element} {top : NodePtr}
    {below : List NodePtr} {key : JString} {line : Int} {c : Nat} {e : SyntaxError}
    (h1 : c ≠ 91) (h2 : c ≠ 123) (hd : deref root top = some el)
    (h3 : el.isArray = true → c ≠ 93)
    (hp : (parsePrimitive s c (Element.ofType .NULL_VALUE) line).2 = .error e) :
    ∃ q, preElement ⟨s, st, root, top :: below, key, line, c⟩ = .throw e q := by
  obtain ⟨t, o, a, ss, n, b⟩ := el
  cases t with
  | NULL_VALUE =>
    rw [preElement_null hd (by rfl)]
    exact beginValue_throw h1 h2 hd hp
  | ARRAY =>
    obtain ⟨root1, hs⟩ := store_of_deref
      (.mk .ARRAY o (a ++ [Element.ofType .NULL_VALUE]) ss n b) top root _ hd
    rw [preElement_item hd (h3 (by rfl)) hs]
    have hd1 : deref root1 (top ++ [.index a.length]) = some (Element.ofType .NULL_VALUE) := by
      rw [deref_snoc _ top root1 _ (deref_store _ top root root1 hs)]
      simp [deref, Element._array, get_append_last]
    exact beginValue_throw h1 h2 hd1 hp
  | OBJECT =>
    obtain ⟨root1, hs⟩ := store_of_deref
      (.mk .OBJECT (mapModify key (fun x => x.assign (Element.ofType .NULL_VALUE)) o) a ss n b)
      top root _ hd
    rw [preElement_member hd hs]
    have hd1 : ∃ x, deref root1 (top ++ [.member key]) = some x := by
      rw [deref_snoc _ top root1 _ (deref_store _ top root root1 hs)]
      simp [deref, Element._object, mapFind_mapModify]
    obtain ⟨x, hd1⟩ := hd1
    exact beginValue_throw h1 h2 hd1 hp
  | STRING =>
    have e0 : preElement ⟨s, st, root, top :: below, key, line, c⟩
        = beginValue ⟨s, st, root, top :: below, key, line, c⟩ := by
      simp [preElement, hd, Element.isNull, Element.isArray, Element.isObject, Element.type]
    rw [e0]
    exact beginValue_throw h1 h2 hd hp
  | NUMBER =>
    have e0 : preElement ⟨s, st, root, top :: below, key, line, c⟩
        = beginValue ⟨s, st, root, top :: below, key, line, c⟩ := by
      simp [preElement, hd, Element.isNull, Element.isArray, Element.isObject, Element.type]
    rw [e0]
    exact beginValue_throw h1 h2 hd hp
  | BOOLEAN =>
    have e0 : preElement ⟨s, st, root, top :: below, key, line, c⟩
        = beginValue ⟨s, st, root, top :: below, key, line, c⟩ := by
      simp [preElement, hd, Element.isNull, Element.isArray, Element.isObject, Element.type]
    rw [e0]
    exact beginValue_throw h1 h2 hd hp

/-- A text whose first value is a primitive that `parsePrimitive` refuses:
`deserialize` throws the error of `parsePrimitive`. -/
theorem primitive_error_at_start (w s : List Nat) (c : Nat) (e : SyntaxError)
    (hw : ∀ b ∈ w, isWhite b = true) (h47 : c ≠ 47) (hc : isWhite c = false)
    (h1 : c ≠ 91) (h2 : c ≠ 123)
    (hp : (parsePrimitive s c (Element.ofType .NULL_VALUE) (1 + lineBreaks w)).2 = .error e) :
    deserialize (w ++ c :: s) = .syntaxError e := by
  obtain ⟨c1, hl⟩ := leads_white_line w hw (c :: s) .S_PRE_ELEMENT
    (Element.ofType .NULL_VALUE) [[]] [] 1 0
  have hb : ∃ q, body ⟨s, .S_PRE_ELEMENT, Element.ofType .NULL_VALUE, [[]], [],
      1 + lineBreaks w, c⟩ = .throw e q := by
    rw [body_pre _ _ _ _ _ _ h47 hc]
    exact preElement_throw h1 h2 (deref_nil _) (fun h => absurd h (by decide)) hp
  obtain ⟨q, hb⟩ := hb
  exact deserialize_of_throw (hl _ (halts_of_body_throw c1 hb))

/-! ## `std::stod` and the literal it reads -/

/-- The sign that `std::stod` takes off the text. -/
theorem sign_split (t : List Nat) :
    isSign (t.take (t.length
      - (if t.head? = some 45 ∨ t.head? = some 43 then t.drop 1 else t).length)) = true ∧
    t.take (t.length - (if t.head? = some 45 ∨ t.head? = some 43 then t.drop 1 else t).length)
      ++ (if t.head? = some 45 ∨ t.head? = some 43 then t.drop 1 else t) = t ∧
    (t.take (t.length - (if t.head? = some 45 ∨ t.head? = some 43 then t.drop 1 else t).length)
      = [45] ↔ t.head? = some 45) := by
  cases t with
  | nil => simp [isSign]
  | cons c rest =>
    by_cases h45 : c = 45
    · subst h45
      simp [isSign]
    · by_cases h43 : c = 43
      · subst h43
        simp [isSign]
      · simp [isSign, h45, h43]

theorem stod_scan (text : List Nat) :
    stod text = match scanLiteral text with
      | none => .invalid_argument
      | some (l, rest) => l.stodResult (text.length - rest.length) := by
  have hs := (sign_split text).2.2
  unfold stod scanLiteral
  simp only []
  generalize ht0 : (if text.head? = some 45 ∨ text.head? = some 43 then text.drop 1 else text)
    = t0 at hs
  rcases h1 : spanDigits t0 with ⟨ip, r1⟩
  simp only []
  rcases h2 : (if r1.head? = some 46 then spanDigits (r1.drop 1) else ([], r1)) with ⟨fp, r2⟩
  simp only []
  by_cases h0 : ip = [] ∧ fp = []
  · rw [if_pos h0, if_pos h0]
  · rw [if_neg h0, if_neg h0]
    have he := (sign_split (if r2.head? = some 101 ∨ r2.head? = some 69 then r2.drop 1
      else r2)).2.2
    generalize (if r2.head? = some 101 ∨ r2.head? = some 69 then r2.drop 1 else r2) = r3 at he
    generalize hr4 : (if r3.head? = some 45 ∨ r3.head? = some 43 then r3.drop 1 else r3) = r4
      at he
    rcases h5 : spanDigits r4 with ⟨ep, r5⟩
    simp only []
    have hd : decide (text.head? = some 45) = decide (text.take (text.length - t0.length) = [45]) :=
      decide_eq_decide.2 hs.symm
    by_cases hE : (r2.head? = some 101 ∨ r2.head? = some 69) ∧ ep ≠ []
    · simp only [hE, if_true, Literal.stodResult, Literal.exponent, and_self, ne_eq,
        not_false_eq_true, hd]
      by_cases h45 : r3.head? = some 45
      · simp only [h45, he.2 h45, if_true]
      · have : ¬ (r3.take (r3.length - r4.length) = [45]) := fun h => h45 (he.1 h)
        simp only [h45, this, if_false]
    · simp only [hE, if_false, Literal.stodResult, Literal.exponent, hd]

theorem spanDigits_digits : ∀ (ds rest : List Nat), ds.all isDigit = true →
    spanDigits (ds ++ rest) = (ds ++ (spanDigits rest).1, (spanDigits rest).2)
  | [], rest, _ => rfl
  | d :: ds, rest, h => by
    rw [List.all_cons, Bool.and_eq_true] at h
    rw [List.cons_append, spanDigits, if_pos h.1, spanDigits_digits ds rest h.2]
    rfl

theorem spanDigits_stop (rest : List Nat) (h : ∀ c, rest.head? = some c → isDigit c = false) :
    spanDigits rest = ([], rest) := by
  cases rest with
  | nil => rfl
  | cons c r =>
    rw [spanDigits, if_neg]
    rw [h c rfl]
    exact Bool.false_ne_true

theorem spanDigits_parts : ∀ (t : List Nat),
    (spanDigits t).1 ++ (spanDigits t).2 = t ∧ (spanDigits t).1.all isDigit = true ∧
    (∀ c, (spanDigits t).2.head? = some c → isDigit c = false)
  | [] => by simp [spanDigits]
  | c :: rest => by
    obtain ⟨h1, h2, h3⟩ := spanDigits_parts rest
    rw [spanDigits]
    by_cases hc : isDigit c = true
    · rw [if_pos hc]
      refine ⟨by simp [h1], by simp [hc, h2], h3⟩
    · rw [if_neg hc]
      refine ⟨rfl, rfl, ?_⟩
      intro d hd
      simp only [List.head?_cons, Option.some.injEq] at hd
      subst hd
      simpa using hc

/-- The literal `scanLiteral` finds is a literal, and the text is this literal
followed by the rest. -/
theorem scanLiteral_sound {t : List Nat} {l : Literal} {rest : List Nat}
    (h : scanLiteral t = some (l, rest)) : l.wf = true ∧ t = l.text ++ rest := by
  obtain ⟨s1, s2, _⟩ := sign_split t
  unfold scanLiteral at h
  simp only [] at h
  generalize ht0 : (if t.head? = some 45 ∨ t.head? = some 43 then t.drop 1 else t) = t0
    at h s1 s2
  obtain ⟨a1, a2, a3⟩ := spanDigits_parts t0
  rcases h1 : spanDigits t0 with ⟨ip, r1⟩
  rw [h1] at h a1 a2 a3
  simp only [] at h a1 a2 a3
  have hfp : ∀ fp r2, (if r1.head? = some 46 then spanDigits (r1.drop 1) else ([], r1)) = (fp, r2) →
      (if r1.head? = some 46 then 46 :: fp else []) ++ r2 = r1 ∧ fp.all isDigit = true ∧
      (r1.head? ≠ some 46 → fp = []) := by
    intro fp r2 h2
    by_cases hp : r1.head? = some 46
    · rw [if_pos hp] at h2
      obtain ⟨b1, b2, _⟩ := spanDigits_parts (r1.drop 1)
      rw [h2] at b1 b2
      rw [if_pos hp]
      refine ⟨?_, b2, fun hh => absurd hp hh⟩
      cases r1 with
      | nil => cases hp
      | cons c r =>
        simp only [List.head?_cons, Option.some.injEq] at hp
        subst hp
        simpa using b1
    · rw [if_neg hp] at h2
      cases h2
      rw [if_neg hp]
      exact ⟨rfl, rfl, fun _ => rfl⟩
  rcases h2 : (if r1.head? = some 46 then spanDigits (r1.drop 1) else ([], r1)) with ⟨fp, r2⟩
  obtain ⟨c1, c2, c3⟩ := hfp fp r2 h2
  rw [h2] at h
  simp only [] at h
  by_cases h0 : ip = [] ∧ fp = []
  · rw [if_pos h0] at h
    cases h
  · rw [if_neg h0] at h
    obtain ⟨e1, e2, _⟩ := sign_split (if r2.head? = some 101 ∨ r2.head? = some 69 then r2.drop 1
      else r2)
    generalize hr3 : (if r2.head? = some 101 ∨ r2.head? = some 69 then r2.drop 1 else r2) = r3
      at h e1 e2
    generalize hr4 : (if r3.head? = some 45 ∨ r3.head? = some 43 then r3.drop 1 else r3) = r4
      at h e1 e2
    obtain ⟨d1, d2, _⟩ := spanDigits_parts r4
    rcases h5 : spanDigits r4 with ⟨ep, r5⟩
    rw [h5] at h d1 d2
    simp only [] at h d1 d2
    have hne : (!ip.isEmpty || !fp.isEmpty) = true := by
      cases ip with
      | nil =>
        cases fp with
        | nil => exact absurd ⟨rfl, rfl⟩ h0
        | cons _ _ => rfl
      | cons _ _ => rfl
    have hpt : (decide (r1.head? = some 46) || fp.isEmpty) = true := by
      by_cases hp : r1.head? = some 46
      · simp [hp]
      · simp [c3 hp]
    have hc1 : (if decide (r1.head? = some 46) = true then 46 :: fp else []) ++ r2 = r1 := by
      by_cases hp : r1.head? = some 46
      · simpa [hp] using c1
      · simpa [hp] using c1
    by_cases hE : (r2.head? = some 101 ∨ r2.head? = some 69) ∧ ep ≠ []
    · rw [if_pos hE] at h
      simp only [Option.some.injEq, Prod.mk.injEq] at h
      obtain ⟨hl, hrest⟩ := h
      subst hl hrest
      have hr2 : r2 = r2.headD 0 :: r3 ∧ (r2.headD 0 = 101 ∨ r2.headD 0 = 69) := by
        cases r2 with
        | nil => simp at hE
        | cons c r =>
          simp only [List.head?_cons, Option.some.injEq] at hE hr3
          rw [if_pos hE.1] at hr3
          simp only [List.drop_succ_cons, List.drop_zero] at hr3
          subst hr3
          exact ⟨rfl, hE.1⟩
      have hep : (!ep.isEmpty) = true := by
        cases ep with
        | nil => exact absurd rfl hE.2
        | cons _ _ => rfl
      constructor
      · simp only [Literal.wf, s1, a2, c2, hpt, hne, e1, hep, d2, Bool.and_self, Bool.and_true,
          Bool.true_and, Bool.or_eq_true, beq_iff_eq]
        exact hr2.2
      · simp only [Literal.text]
        have : r2.headD 0 :: (r3.take (r3.length - r4.length) ++ ep) ++ r5 = r2 := by
          rw [List.cons_append, List.append_assoc, d1, e2]
          exact hr2.1.symm
        simp only [List.append_assoc, List.cons_append] at this ⊢
        rw [this, hc1, a1, s2]
    · rw [if_neg hE] at h
      simp only [Option.some.injEq, Prod.mk.injEq] at h
      obtain ⟨hl, hrest⟩ := h
      subst hl hrest
      constructor
      · simp only [Literal.wf, s1, a2, c2, hpt, hne, Bool.and_self]
      · simp only [Literal.text, List.append_nil, List.append_assoc]
        rw [hc1, a1, s2]

/-- The sign in front of a text that does not start with a sign is found by the
test of `std::stod`. -/
theorem sign_strip (s body : List Nat) (hs : isSign s = true)
    (hb : ∀ c, body.head? = some c → c ≠ 45 ∧ c ≠ 43) :
    (if (s ++ body).head? = some 45 ∨ (s ++ body).head? = some 43 then (s ++ body).drop 1
      else s ++ body) = body ∧
    (s ++ body).take ((s ++ body).length - body.length) = s := by
  have h3 : s = [] ∨ s = [43] ∨ s = [45] := by
    simpa [isSign, or_assoc] using hs
  rcases h3 with rfl | rfl | rfl
  · simp only [List.nil_append, Nat.sub_self, List.take_zero, and_true]
    rw [if_neg]
    rintro (h | h)
    · exact (hb 45 h).1 rfl
    · exact (hb 43 h).2 rfl
  · simp
  · simp

theorem wf_parts {l : Literal} (h : l.wf = true) :
    isSign l.sign = true ∧ l.ip.all isDigit = true ∧ l.fp.all isDigit = true ∧
    (l.point = false → l.fp = []) ∧ (l.ip = [] → l.fp ≠ []) ∧
    (∀ c s d, l.ex = some (c, s, d) →
      (c = 101 ∨ c = 69) ∧ isSign s = true ∧ d ≠ [] ∧ d.all isDigit = true) := by
  obtain ⟨sign, ip, point, fp, ex⟩ := l
  simp only [Literal.wf, Bool.and_eq_true, Bool.or_eq_true, Bool.not_eq_true',
    List.isEmpty_eq_false, List.isEmpty_iff] at h
  obtain ⟨⟨⟨⟨⟨h1, h2⟩, h3⟩, h4⟩, h5⟩, h6⟩ := h
  refine ⟨h1, h2, h3, ?_, ?_, ?_⟩
  · intro hp
    simp only at hp
    rcases h4 with h4 | h4
    · rw [hp] at h4; cases h4
    · exact h4
  · intro hi
    simp only at hi ⊢
    rcases h5 with h5 | h5
    · exact absurd hi h5
    · exact h5
  · intro c s d he
    simp only at he
    subst he
    simp only [Bool.and_eq_true, Bool.or_eq_true, beq_iff_eq, Bool.not_eq_true',
      List.isEmpty_eq_false] at h6
    exact ⟨h6.1.1.1, h6.1.1.2, by simpa using h6.1.2, h6.2⟩

theorem head_digit {d : List Nat} (hd : d.all isDigit = true) (c : Nat)
    (h : d.head? = some c) : isDigit c = true := by
  cases d with
  | nil => cases h
  | cons x r =>
    simp only [List.head?_cons, Option.some.injEq] at h
    subst h
    simp only [List.all_cons, Bool.and_eq_true] at hd
    exact hd.1

/-- The exponent part of a literal, read by `std::stod`. -/
theorem scan_exponent (c : Nat) (s d : List Nat) (hc : c = 101 ∨ c = 69)
    (hs : isSign s = true) (hdd : d.all isDigit = true) :
    (if (c :: (s ++ d)).head? = some 101 ∨ (c :: (s ++ d)).head? = some 69
      then (c :: (s ++ d)).drop 1 else c :: (s ++ d)) = s ++ d ∧
    (if (s ++ d).head? = some 45 ∨ (s ++ d).head? = some 43 then (s ++ d).drop 1 else s ++ d) = d ∧
    (s ++ d).take ((s ++ d).length - d.length) = s ∧
    spanDigits d = (d, []) ∧ (c :: (s ++ d)).headD 0 = c := by
  have hb : ∀ x, d.head? = some x → x ≠ 45 ∧ x ≠ 43 := by
    intro x hx
    have := head_digit hdd x hx
    constructor <;> (rintro rfl; exact absurd this (by decide))
  obtain ⟨k1, k2⟩ := sign_strip s d hs hb
  refine ⟨?_, k1, k2, ?_, rfl⟩
  · rw [if_pos]
    · rfl
    · simpa using hc
  · have := spanDigits_digits d [] hdd
    simpa [spanDigits] using this

/-- The literal `std::stod` reads from the text of a literal is the literal, and
nothing is left. -/
theorem scanLiteral_text (l : Literal) (h : l.wf = true) : scanLiteral l.text = some (l, []) := by
  obtain ⟨w1, w2, w3, w4, w5, w6⟩ := wf_parts h
  obtain ⟨sign, ip, point, fp, ex⟩ := l
  simp only at w1 w2 w3 w4 w5 w6
  -- the exponent part
  have hE : ∀ c, (match ex with
      | none => ([] : List Nat)
      | some (c, s, d) => c :: (s ++ d)).head? = some c → c = 101 ∨ c = 69 := by
    intro c hc
    cases ex with
    | none => cases hc
    | some v =>
      obtain ⟨c1, s, d⟩ := v
      simp only [List.head?_cons, Option.some.injEq] at hc
      subst hc
      exact (w6 _ _ _ rfl).1
  generalize hEd : (match ex with
      | none => ([] : List Nat)
      | some (c, s, d) => c :: (s ++ d)) = E at hE
  have hEdig : ∀ c, E.head? = some c → isDigit c = false := by
    intro c hc
    rcases hE c hc with rfl | rfl <;> rfl
  have hE46 : E.head? ≠ some 46 := by
    intro hc
    rcases hE 46 hc with h | h <;> cases h
  -- the part behind the digits before the point
  have hP : ∀ c, ((if point then 46 :: fp else []) ++ E).head? = some c →
      isDigit c = false ∧ c ≠ 45 ∧ c ≠ 43 := by
    intro c hc
    cases point with
    | true =>
      simp only [if_true, List.cons_append, List.head?_cons, Option.some.injEq] at hc
      subst hc
      decide
    | false =>
      simp only [Bool.false_eq_true, if_false, List.nil_append] at hc
      rcases hE c hc with rfl | rfl <;> decide
  have hbody : ∀ c, (ip ++ ((if point then 46 :: fp else []) ++ E)).head? = some c →
      c ≠ 45 ∧ c ≠ 43 := by
    intro c hc
    cases ip with
    | nil =>
      exact (hP c (by simpa using hc)).2
    | cons x r =>
      simp only [List.cons_append, List.head?_cons, Option.some.injEq] at hc
      subst hc
      have := head_digit w2 x rfl
      constructor <;> (rintro rfl; exact absurd this (by decide))
  obtain ⟨k1, k2⟩ := sign_strip sign (ip ++ ((if point then 46 :: fp else []) ++ E)) w1 hbody
  have hspan1 : spanDigits (ip ++ ((if point then 46 :: fp else []) ++ E))
      = (ip, (if point then 46 :: fp else []) ++ E) := by
    rw [spanDigits_digits ip _ w2, spanDigits_stop _ (fun c hc => (hP c hc).1)]
    simp
  have hspan2 : (if ((if point then 46 :: fp else []) ++ E).head? = some 46
      then spanDigits (((if point then 46 :: fp else []) ++ E).drop 1)
      else ([], (if point then 46 :: fp else []) ++ E)) = (fp, E) ∧
      decide (((if point then 46 :: fp else []) ++ E).head? = some 46) = point := by
    cases point with
    | true =>
      simp only [if_true, List.cons_append, List.head?_cons, List.drop_succ_cons, List.drop_zero,
        decide_True, and_true]
      rw [spanDigits_digits fp _ w3, spanDigits_stop _ hEdig]
      simp
    | false =>
      simp only [Bool.false_eq_true, if_false, List.nil_append, w4 rfl]
      rw [if_neg hE46]
      exact ⟨rfl, by simpa using hE46⟩
  have h0 : ¬ (ip = [] ∧ fp = []) := fun hh => w5 hh.1 hh.2
  unfold scanLiteral Literal.text
  simp only [List.append_assoc, hEd]
  rw [k1, k2, hspan1]
  simp only []
  rw [hspan2.1, hspan2.2]
  simp only []
  rw [if_neg h0]
  cases ex with
  | none =>
    simp only at hEd
    subst hEd
    simp [spanDigits]
  | some v =>
    obtain ⟨c, s, d⟩ := v
    simp only at hEd
    subst hEd
    obtain ⟨v1, v2, v3, v4⟩ := w6 c s d rfl
    obtain ⟨x1, x2, x3, x4, x5⟩ := scan_exponent c s d v1 v2 v4
    rw [x1, x2, x3, x4, x5]
    simp only []
    rw [if_pos]
    exact ⟨by simpa using v1, v3⟩

/-- Where a literal starts the text, `std::stod` finds a literal. -/
theorem scanLiteral_of_start {t : List Nat} (h : LiteralPrefix t) : scanLiteral t ≠ none := by
  obtain ⟨l, rest, hwf, rfl⟩ := h
  obtain ⟨w1, w2, w3, w4, w5, _⟩ := wf_parts hwf
  obtain ⟨sign, ip, point, fp, ex⟩ := l
  simp only at w1 w2 w3 w4 w5
  generalize hEd : (match ex with
      | none => ([] : List Nat)
      | some (c, s, d) => c :: (s ++ d)) = E
  have htext : (⟨sign, ip, point, fp, ex⟩ : Literal).text ++ rest
      = sign ++ (ip ++ ((if point then 46 :: fp else []) ++ (E ++ rest))) := by
    simp only [Literal.text, hEd, List.append_assoc]
  rw [htext]
  have hpoint : ip = [] → point = true ∧ fp ≠ [] := by
    intro hi
    have hf := w5 hi
    refine ⟨?_, hf⟩
    cases point with
    | true => rfl
    | false => exact absurd (w4 rfl) hf
  have hbody : ∀ c, (ip ++ ((if point then 46 :: fp else []) ++ (E ++ rest))).head? = some c →
      c ≠ 45 ∧ c ≠ 43 := by
    intro c hc
    cases ip with
    | nil =>
      rw [(hpoint rfl).1] at hc
      simp only [List.nil_append, if_true, List.cons_append, List.head?_cons,
        Option.some.injEq] at hc
      subst hc
      decide
    | cons x r =>
      simp only [List.cons_append, List.head?_cons, Option.some.injEq] at hc
      subst hc
      have := head_digit w2 x rfl
      constructor <;> (rintro rfl; exact absurd this (by decide))
  obtain ⟨k1, _⟩ := sign_strip sign _ w1 hbody
  unfold scanLiteral
  simp only []
  rw [k1, spanDigits_digits ip _ w2]
  simp only []
  have hnot : ¬ (ip ++ (spanDigits ((if point then 46 :: fp else []) ++ (E ++ rest))).1 = [] ∧
      (if (spanDigits ((if point then 46 :: fp else []) ++ (E ++ rest))).2.head? = some 46 then
        spanDigits ((spanDigits ((if point then 46 :: fp else []) ++ (E ++ rest))).2.drop 1)
       else ([], (spanDigits ((if point then 46 :: fp else []) ++ (E ++ rest))).2)).1 = []) := by
    rintro ⟨h1, h2⟩
    have hi : ip = [] := (List.append_eq_nil.1 h1).1
    obtain ⟨hp, hf⟩ := hpoint hi
    subst hp
    simp only [if_true, List.cons_append] at h2
    rw [spanDigits_stop (46 :: (fp ++ (E ++ rest))) (fun c hc => by
      simp only [List.head?_cons, Option.some.injEq] at hc
      subst hc
      rfl)] at h2
    simp only [List.head?_cons, if_true, List.drop_succ_cons, List.drop_zero] at h2
    rw [spanDigits_digits fp _ w3] at h2
    exact hf (List.append_eq_nil.1 h2).1
  rcases h2 : (if (spanDigits ((if point then 46 :: fp else []) ++ (E ++ rest))).2.head? = some 46
      then spanDigits ((spanDigits ((if point then 46 :: fp else []) ++ (E ++ rest))).2.drop 1)
      else ([], (spanDigits ((if point then 46 :: fp else []) ++ (E ++ rest))).2)) with ⟨fp1, r2⟩
  rw [h2] at hnot
  simp only [] at hnot ⊢
  rw [if_neg hnot]
  repeat' split
  all_goals simp

/-- A text is a literal exactly when `std::stod` reads it in full. -/
theorem floatLiteral_iff (t : List Nat) :
    FloatLiteral t ↔ (scanLiteral t).map Prod.snd = some [] := by
  constructor
  · rintro ⟨l, hl, rfl⟩
    rw [scanLiteral_text l hl]
    rfl
  · intro h
    cases hs : scanLiteral t with
    | none => rw [hs] at h; cases h
    | some v =>
      obtain ⟨l, rest⟩ := v
      rw [hs] at h
      simp only [Option.map_some', Option.some.injEq] at h
      subst h
      obtain ⟨h1, h2⟩ := scanLiteral_sound hs
      exact ⟨l, h1, by rw [h2, List.append_nil]⟩

/-- A text starts with a literal exactly when `std::stod` finds one. -/
theorem literalPrefix_iff (t : List Nat) : LiteralPrefix t ↔ (scanLiteral t).isSome = true := by
  constructor
  · intro h
    exact Option.isSome_iff_ne_none.2 (scanLiteral_of_start h)
  · intro h
    obtain ⟨v, hv⟩ := Option.isSome_iff_exists.1 h
    obtain ⟨l, rest⟩ := v
    obtain ⟨h1, h2⟩ := scanLiteral_sound hv
    exact ⟨l, rest, h1, h2⟩

/-- The function `parsePrimitive` on a run of characters of a number: the run goes
to `std::stod`. -/
theorem parsePrimitive_run (c : Nat) (cs rest : List Nat) (hc : c = 45 ∨ isDigit c = true)
    (hcs : cs.all isNumberChar = true) (he : endsNumber rest) (el : Element) (line : Int) :
    parsePrimitive (cs ++ rest) c el line
      = match stod (c :: cs) with
        | .ok val read =>
          if read ≠ (c :: cs).length then
            (.mk .NUMBER [] [] [] val false, .error ⟨"Illegal number format.", line, c⟩)
          else (.mk .NUMBER [] [] [] val false, .ok ((rest.head?).getD 32, rest.drop 1))
        | .invalid_argument =>
          (.mk .NUMBER [] [] [] Number.zero false, .error ⟨"Failed to parse number", line, c⟩)
        | .out_of_range =>
          (.mk .NUMBER [] [] [] Number.zero false,
            .error ⟨"Failed to parse number, value out of range", line, c⟩) := by
  have hl := parseNumberLoop_text cs hcs rest [c] he
  have e : el.assign (Element.ofType .NUMBER) = .mk .NUMBER [] [] [] Number.zero false := by
    simp [Element.ofType, Element.assign]
  have hfirst : c = 45 ∨ (48 ≤ c ∧ c ≤ 57) := by
    rcases hc with h | h
    · exact Or.inl h
    · right; simpa [isDigit] using h
  have h1 : c ≠ 110 := by omega
  have h2 : c ≠ 116 := by omega
  have h3 : c ≠ 102 := by omega
  have h4 : c ≠ 34 := by omega
  cases hst : stod (c :: cs) with
  | ok val read =>
    by_cases hr : read = cs.length + 1
    · simp [parsePrimitive, h1, h2, h3, h4, hfirst, e, parseNumber, hl, hst, hr]
    · simp [parsePrimitive, h1, h2, h3, h4, hfirst, e, parseNumber, hl, hst, hr]
  | invalid_argument =>
    simp [parsePrimitive, h1, h2, h3, h4, hfirst, e, parseNumber, hl, hst]
  | out_of_range =>
    simp [parsePrimitive, h1, h2, h3, h4, hfirst, e, parseNumber, hl, hst]

/-- What `std::stod` makes of a run that is not in full a literal: without a
literal at its start it throws `std::invalid_argument`, else it reads the
literal at the start and stops before the end of the run. -/
theorem stod_not_literal (t : List Nat) (h : ¬ FloatLiteral t) :
    (¬ LiteralPrefix t → stod t = .invalid_argument) ∧
    (LiteralPrefix t → ∃ (l : Literal) (rest : List Nat), l.wf = true ∧ t = l.text ++ rest ∧
      rest ≠ [] ∧ stod t = l.stodResult (t.length - rest.length) ∧
      t.length - rest.length ≠ t.length) := by
  rw [stod_scan]
  constructor
  · intro hp
    cases hs : scanLiteral t with
    | none => rfl
    | some v =>
      exact absurd ((literalPrefix_iff t).2 (by rw [hs]; rfl)) hp
  · intro hp
    cases hs : scanLiteral t with
    | none => exact absurd hs (scanLiteral_of_start hp)
    | some v =>
      obtain ⟨l, rest⟩ := v
      simp only []
      have hrest : rest ≠ [] := by
        intro hr
        subst hr
        exact h ((floatLiteral_iff t).2 (by rw [hs]; rfl))
      obtain ⟨h1, h2⟩ := scanLiteral_sound hs
      have hlen : t.length - rest.length ≠ t.length := by
        have h3 := congrArg List.length h2
        rw [List.length_append] at h3
        have : 0 < rest.length := List.length_pos.2 hrest
        omega
      exact ⟨l, rest, h1, h2, hrest, rfl, hlen⟩

/-! ## The literal `std::stod` reads is the longest -/

/-- The steps of `scanLiteral`, written out. -/
theorem scanLiteral_steps {t : List Nat} {l : Literal} {rest : List Nat}
    (h : scanLiteral t = some (l, rest)) :
    ∃ (ip r1 fp r2 ep r5 : List Nat),
      spanDigits (if t.head? = some 45 ∨ t.head? = some 43 then t.drop 1 else t) = (ip, r1) ∧
      (if r1.head? = some 46 then spanDigits (r1.drop 1) else ([], r1)) = (fp, r2) ∧
      spanDigits
        (if (if r2.head? = some 101 ∨ r2.head? = some 69 then r2.drop 1 else r2).head? = some 45 ∨
            (if r2.head? = some 101 ∨ r2.head? = some 69 then r2.drop 1 else r2).head? = some 43
          then (if r2.head? = some 101 ∨ r2.head? = some 69 then r2.drop 1 else r2).drop 1
          else (if r2.head? = some 101 ∨ r2.head? = some 69 then r2.drop 1 else r2)) = (ep, r5) ∧
      rest = if (r2.head? = some 101 ∨ r2.head? = some 69) ∧ ep ≠ [] then r5 else r2 := by
  unfold scanLiteral at h
  simp only [] at h
  rcases h1 : spanDigits (if t.head? = some 45 ∨ t.head? = some 43 then t.drop 1 else t)
    with ⟨ip, r1⟩
  rw [h1] at h
  simp only [] at h
  rcases h2 : (if r1.head? = some 46 then spanDigits (r1.drop 1) else ([], r1)) with ⟨fp, r2⟩
  rw [h2] at h
  simp only [] at h
  by_cases h0 : ip = [] ∧ fp = []
  · rw [if_pos h0] at h
    cases h
  · rw [if_neg h0] at h
    rcases h5 : spanDigits
        (if (if r2.head? = some 101 ∨ r2.head? = some 69 then r2.drop 1 else r2).head? = some 45 ∨
            (if r2.head? = some 101 ∨ r2.head? = some 69 then r2.drop 1 else r2).head? = some 43
          then (if r2.head? = some 101 ∨ r2.head? = some 69 then r2.drop 1 else r2).drop 1
          else (if r2.head? = some 101 ∨ r2.head? = some 69 then r2.drop 1 else r2))
      with ⟨ep, r5⟩
    rw [h5] at h
    simp only [] at h
    refine ⟨ip, r1, fp, r2, ep, r5, rfl, h2, h5, ?_⟩
    by_cases hE : (r2.head? = some 101 ∨ r2.head? = some 69) ∧ ep ≠ []
    · rw [if_pos hE] at h
      rw [if_pos hE]
      simp only [Option.some.injEq, Prod.mk.injEq] at h
      exact h.2.symm
    · rw [if_neg hE] at h
      rw [if_neg hE]
      simp only [Option.some.injEq, Prod.mk.injEq] at h
      exact h.2.symm

theorem spanDigits_suffix (t : List Nat) : (spanDigits t).2 <:+ t := by
  have h := (spanDigits_parts t).1
  exact ⟨(spanDigits t).1, h⟩

/-- The scan of a text made of the parts of a literal and a text `u` behind them
ends in `u`. -/
theorem scanLiteral_parts {sign ip2 fp2 E u : List Nat} {point : Bool} {l : Literal}
    {rest : List Nat} (w1 : isSign sign = true) (w2 : ip2.all isDigit = true)
    (w3 : fp2.all isDigit = true) (w4 : point = false → fp2 = []) (w5 : ip2 = [] → fp2 ≠ [])
    (hE : E = [] ∨ ∃ (c : Nat) (s d : List Nat), E = c :: (s ++ d) ∧ (c = 101 ∨ c = 69) ∧
      isSign s = true ∧ d ≠ [] ∧ d.all isDigit = true)
    (hs : scanLiteral (sign ++ (ip2 ++ ((if point then 46 :: fp2 else []) ++ (E ++ u))))
      = some (l, rest)) : rest <:+ u := by
  obtain ⟨ip, r1, fp, r2, ep, r5, s1, s2, s3, s4⟩ := scanLiteral_steps hs
  have hpoint : ip2 = [] → point = true ∧ fp2 ≠ [] := by
    intro hi
    have hf := w5 hi
    refine ⟨?_, hf⟩
    cases point with
    | true => rfl
    | false => exact absurd (w4 rfl) hf
  have hbody : ∀ c, (ip2 ++ ((if point then 46 :: fp2 else []) ++ (E ++ u))).head? = some c →
      c ≠ 45 ∧ c ≠ 43 := by
    intro c hc
    cases ip2 with
    | nil =>
      rw [(hpoint rfl).1] at hc
      simp only [List.nil_append, if_true, List.cons_append, List.head?_cons,
        Option.some.injEq] at hc
      subst hc
      decide
    | cons x r =>
      simp only [List.cons_append, List.head?_cons, Option.some.injEq] at hc
      subst hc
      have := head_digit w2 _ rfl
      constructor <;> (rintro rfl; exact absurd this (by decide))
  obtain ⟨k1, _⟩ := sign_strip sign _ w1 hbody
  rw [k1, spanDigits_digits ip2 _ w2] at s1
  simp only [Prod.mk.injEq] at s1
  obtain ⟨_, e1⟩ := s1
  -- the rest is behind the exponent, or the exponent is not read
  have hrest : rest <:+ r2 := by
    rw [s4]
    split
    · have h5 : r5 = (spanDigits
        (if (if r2.head? = some 101 ∨ r2.head? = some 69 then r2.drop 1 else r2).head? = some 45 ∨
            (if r2.head? = some 101 ∨ r2.head? = some 69 then r2.drop 1 else r2).head? = some 43
          then (if r2.head? = some 101 ∨ r2.head? = some 69 then r2.drop 1 else r2).drop 1
          else (if r2.head? = some 101 ∨ r2.head? = some 69 then r2.drop 1 else r2))).2 := by
        rw [s3]
      rw [h5]
      refine (spanDigits_suffix _).trans ?_
      have hd : ∀ (x : List Nat) (p : Prop) [Decidable p], (if p then x.drop 1 else x) <:+ x := by
        intro x p _
        split
        · exact List.drop_suffix _ _
        · exact List.suffix_refl _
      exact (hd _ _).trans (hd _ _)
    · exact List.suffix_refl _
  have h2suf : r2 <:+ r1 := by
    by_cases h46 : r1.head? = some 46
    · rw [if_pos h46] at s2
      have : r2 = (spanDigits (r1.drop 1)).2 := by rw [s2]
      rw [this]
      exact (spanDigits_suffix _).trans (List.drop_suffix _ _)
    · rw [if_neg h46] at s2
      simp only [Prod.mk.injEq] at s2
      rw [← s2.2]
  -- a complete exponent in front of `u` is read
  have hexp : ∀ (c : Nat) (s d : List Nat), (c = 101 ∨ c = 69) → isSign s = true → d ≠ [] →
      d.all isDigit = true → r2 = c :: (s ++ (d ++ u)) → rest <:+ u := by
    intro c s d hc hsg hd hdd hr2
    subst hr2
    have hh : (c :: (s ++ (d ++ u))).head? = some 101 ∨ (c :: (s ++ (d ++ u))).head? = some 69 := by
      simpa using hc
    have hb : ∀ x, (d ++ u).head? = some x → x ≠ 45 ∧ x ≠ 43 := by
      intro x hx
      cases d with
      | nil => exact absurd rfl hd
      | cons y r =>
        simp only [List.cons_append, List.head?_cons, Option.some.injEq] at hx
        subst hx
        have := head_digit hdd _ rfl
        constructor <;> (rintro rfl; exact absurd this (by decide))
    obtain ⟨k3, _⟩ := sign_strip s (d ++ u) hsg hb
    rw [if_pos hh] at s3
    simp only [List.drop_succ_cons, List.drop_zero] at s3
    rw [k3, spanDigits_digits d u hdd] at s3
    simp only [Prod.mk.injEq] at s3
    obtain ⟨e3, e4⟩ := s3
    have hep : ep ≠ [] := by
      rw [← e3]
      intro h
      exact hd (List.append_eq_nil.1 h).1
    rw [s4, if_pos ⟨hh, hep⟩, ← e4]
    exact spanDigits_suffix u
  have hEstop : ∀ (c : Nat) (s d : List Nat), (c = 101 ∨ c = 69) →
      spanDigits (c :: (s ++ d) ++ u) = ([], c :: (s ++ d) ++ u) := by
    intro c s d hc
    apply spanDigits_stop
    intro x hx
    simp only [List.cons_append, List.head?_cons, Option.some.injEq] at hx
    subst hx
    rcases hc with rfl | rfl <;> rfl
  cases point with
  | true =>
    simp only [if_true, List.cons_append] at e1
    rw [spanDigits_stop (46 :: (fp2 ++ (E ++ u))) (fun c hc => by
      simp only [List.head?_cons, Option.some.injEq] at hc
      subst hc
      rfl)] at e1
    simp only at e1
    subst e1
    simp only [List.head?_cons, if_true, List.drop_succ_cons, List.drop_zero] at s2
    rw [spanDigits_digits fp2 _ w3] at s2
    simp only [Prod.mk.injEq] at s2
    obtain ⟨_, e2⟩ := s2
    rcases hE with rfl | ⟨c, s, d, rfl, v1, v2, v3, v4⟩
    · simp only [List.nil_append] at e2
      rw [← e2] at hrest
      exact hrest.trans (spanDigits_suffix u)
    · rw [hEstop c s d v1] at e2
      simp only at e2
      exact hexp c s d v1 v2 v3 v4 (by rw [← e2]; simp)
  | false =>
    simp only [Bool.false_eq_true, if_false, List.nil_append] at e1
    rcases hE with rfl | ⟨c, s, d, rfl, v1, v2, v3, v4⟩
    · simp only [List.nil_append] at e1
      rw [← e1] at h2suf
      exact hrest.trans (h2suf.trans (spanDigits_suffix u))
    · rw [hEstop c s d v1] at e1
      simp only at e1
      subst e1
      have h46 : ¬ (c :: (s ++ d) ++ u).head? = some 46 := by
        simp only [List.cons_append, List.head?_cons, Option.some.injEq]
        rcases v1 with rfl | rfl <;> decide
      rw [if_neg h46] at s2
      simp only [Prod.mk.injEq] at s2
      exact hexp c s d v1 v2 v3 v4 (by rw [← s2.2]; simp)

/-- Behind the text of a literal, `std::stod` reads a literal that ends in the
text that follows. -/
theorem scanLiteral_append (l2 : Literal) (hw : l2.wf = true) (u : List Nat) :
    ∃ l r, scanLiteral (l2.text ++ u) = some (l, r) ∧ r <:+ u := by
  cases hs : scanLiteral (l2.text ++ u) with
  | none => exact absurd hs (scanLiteral_of_start ⟨l2, u, hw, rfl⟩)
  | some v =>
    obtain ⟨l, rest⟩ := v
    refine ⟨l, rest, rfl, ?_⟩
    obtain ⟨w1, w2, w3, w4, w5, w6⟩ := wf_parts hw
    obtain ⟨sign, ip2, point, fp2, ex⟩ := l2
    simp only at w1 w2 w3 w4 w5 w6
    cases ex with
    | none =>
      simp only [Literal.text, List.append_assoc, List.append_nil] at hs
      exact @scanLiteral_parts sign ip2 fp2 [] u point l rest w1 w2 w3 w4 w5 (Or.inl rfl)
        (by simpa using hs)
    | some v =>
      obtain ⟨c, s, d⟩ := v
      obtain ⟨v1, v2, v3, v4⟩ := w6 c s d rfl
      simp only [Literal.text, List.append_assoc] at hs
      exact @scanLiteral_parts sign ip2 fp2 (c :: (s ++ d)) u point l rest w1 w2 w3 w4 w5
        (Or.inr ⟨c, s, d, rfl, v1, v2, v3, v4⟩) (by simpa using hs)

/-- The literal `std::stod` reads at the start of a text is the longest literal
the text starts with. -/
theorem scanLiteral_longest {t : List Nat} {l : Literal} {rest : List Nat}
    (hs : scanLiteral t = some (l, rest)) (l2 : Literal) (r2 : List Nat)
    (hw : l2.wf = true) (ht : t = l2.text ++ r2) : l2.text.length ≤ l.text.length := by
  obtain ⟨l1, r1, e, hsuf⟩ := scanLiteral_append l2 hw r2
  rw [← ht, hs] at e
  simp only [Option.some.injEq, Prod.mk.injEq] at e
  obtain ⟨e1, e2⟩ := e
  subst e1 e2
  obtain ⟨_, h2⟩ := scanLiteral_sound hs
  have h3 := congrArg List.length (h2.symm.trans ht)
  rw [List.length_append, List.length_append] at h3
  have h4 := hsuf.length_le
  omega
/-- The literal `std::stod` reads from a run that is not in full a literal but
starts with one: it ends before the run does, it is the longest literal the run
starts with, and the result of `std::stod` is the one for this literal. -/
theorem stod_literal_part (t : List Nat) (h : ¬ FloatLiteral t) (hp : LiteralPrefix t) :
    ∃ (l : Literal) (rest : List Nat), scanLiteral t = some (l, rest) ∧ l.wf = true ∧
      t = l.text ++ rest ∧ rest ≠ [] ∧ stod t = l.stodResult l.text.length ∧
      (∀ (l2 : Literal) (r2 : List Nat), l2.wf = true → t = l2.text ++ r2 →
        l2.text.length ≤ l.text.length) ∧
      l.text.length ≠ t.length := by
  cases hs : scanLiteral t with
  | none => exact absurd hs (scanLiteral_of_start hp)
  | some v =>
    obtain ⟨l, rest⟩ := v
    have hrest : rest ≠ [] := by
      intro hr
      subst hr
      exact h ((floatLiteral_iff t).2 (by rw [hs]; rfl))
    obtain ⟨h1, h2⟩ := scanLiteral_sound hs
    have hlen : t.length - rest.length = l.text.length := by
      have h3 := congrArg List.length h2
      rw [List.length_append] at h3
      omega
    have hne : l.text.length ≠ t.length := by
      have h3 := congrArg List.length h2
      rw [List.length_append] at h3
      have : 0 < rest.length := List.length_pos.2 hrest
      omega
    refine ⟨l, rest, rfl, h1, h2, hrest, ?_,
      fun l2 r2 hw ht => scanLiteral_longest hs l2 r2 hw ht, hne⟩
    rw [stod_scan, hs]
    simp only []
    rw [hlen]

/-! ## The nearest `double` -/

theorem log2Floor_spec : ∀ (fuel n : Nat), 0 < n → n ≤ fuel →
    2 ^ log2Floor fuel n ≤ n ∧ n < 2 ^ (log2Floor fuel n + 1)
  | 0, n, h0, h => by omega
  | fuel + 1, n, h0, h => by
    rw [log2Floor]
    by_cases h2 : n < 2
    · rw [if_pos h2]
      simp only [pow_zero, zero_add, pow_one]
      omega
    · rw [if_neg h2]
      obtain ⟨i1, i2⟩ := log2Floor_spec fuel (n / 2) (by omega) (by omega)
      constructor
      · rw [pow_succ]
        omega
      · rw [pow_succ]
        omega

/-- The quotient rounded by `roundHalfEven` is within one half of the quotient. -/
theorem roundHalfEven_near (a d : Nat) (hd : 0 < d) :
    |((roundHalfEven a d : Nat) : ℚ) - (a : ℚ) / d| ≤ 1 / 2 := by
  have hdq : (0 : ℚ) < d := by exact_mod_cast hd
  have hdiv := Nat.div_add_mod a d
  have hmod := Nat.mod_lt a hd
  have key : ∀ m : Nat, (2 * (m * d) ≤ 2 * a + d ∧ 2 * a ≤ 2 * (m * d) + d) →
      |((m : Nat) : ℚ) - (a : ℚ) / d| ≤ 1 / 2 := by
    intro m hm
    rw [abs_le]
    have h1 : (2 * ((m : ℚ) * d) : ℚ) ≤ 2 * a + d := by exact_mod_cast hm.1
    have h2 : (2 * (a : ℚ)) ≤ 2 * ((m : ℚ) * d) + d := by exact_mod_cast hm.2
    have hq : (a : ℚ) / d * d = a := div_mul_cancel₀ _ hdq.ne'
    constructor
    · by_contra hlt
      push_neg at hlt
      have := mul_lt_mul_of_pos_right hlt hdq
      nlinarith
    · by_contra hlt
      push_neg at hlt
      have := mul_lt_mul_of_pos_right hlt hdq
      nlinarith
  apply key
  unfold roundHalfEven
  simp only []
  have hq : a / d * d = d * (a / d) := Nat.mul_comm _ _
  split
  · rename_i hc
    simp only [Bool.or_eq_true, decide_eq_true_eq, Bool.and_eq_true, beq_iff_eq] at hc
    have : (a / d + 1) * d = d * (a / d) + d := by ring
    rw [this]
    rcases hc with hc | hc
    · omega
    · omega
  · rename_i hc
    simp only [Bool.or_eq_true, decide_eq_true_eq, Bool.and_eq_true, beq_iff_eq, not_or,
      not_lt, not_and] at hc
    rw [hq]
    omega

/-- The quotient rounded by `roundHalfEven` is the quotient when the division
leaves no remainder. -/
theorem roundHalfEven_exact (a d : Nat) (hd : 0 < d) (h : a % d = 0) :
    ((roundHalfEven a d : Nat) : ℚ) = (a : ℚ) / d := by
  have hdq : (0 : ℚ) < d := by exact_mod_cast hd
  have hdiv := Nat.div_add_mod a d
  rw [h, Nat.add_zero] at hdiv
  have hr : roundHalfEven a d = a / d := by
    unfold roundHalfEven
    simp only [h]
    rw [if_neg]
    simp only [Nat.mul_zero, Bool.or_eq_true, decide_eq_true_eq, Bool.and_eq_true, beq_iff_eq,
      not_or, not_lt, not_and]
    omega
  rw [hr, eq_div_iff hdq.ne']
  have : (a / d) * d = a := by rw [Nat.mul_comm]; exact hdiv
  exact_mod_cast this

/-- No integer is nearer to the quotient than the one `roundHalfEven` gives. -/
theorem roundHalfEven_nearest (a d : Nat) (hd : 0 < d) (k : Int) :
    |((roundHalfEven a d : Nat) : ℚ) - (a : ℚ) / d| ≤ |(k : ℚ) - (a : ℚ) / d| := by
  have h1 := roundHalfEven_near a d hd
  by_cases hk : k = (roundHalfEven a d : Nat)
  · rw [hk]
    simp
  · have h2 : (1 : ℚ) ≤ |(k : ℚ) - ((roundHalfEven a d : Nat) : ℚ)| := by
      have : (1 : Int) ≤ |k - (roundHalfEven a d : Nat)| := by
        have : k - (roundHalfEven a d : Nat) ≠ 0 := sub_ne_zero.2 hk
        exact Int.one_le_abs this
      have h3 : ((1 : Int) : ℚ) ≤ ((|k - (roundHalfEven a d : Nat)| : Int) : ℚ) := by
        exact_mod_cast this
      simpa using h3
    have h3 : |(k : ℚ) - ((roundHalfEven a d : Nat) : ℚ)|
        ≤ |(k : ℚ) - (a : ℚ) / d| + |((roundHalfEven a d : Nat) : ℚ) - (a : ℚ) / d| := by
      have := abs_sub_le (k : ℚ) ((a : ℚ) / d) ((roundHalfEven a d : Nat) : ℚ)
      rw [abs_sub_comm ((a : ℚ) / d) _] at this
      exact this
    linarith

theorem oddMantissa_value : ∀ (fuel m : Nat) (e : Int),
    ((oddMantissa fuel m e).1 : ℚ) * (2 : ℚ) ^ (oddMantissa fuel m e).2 = (m : ℚ) * (2 : ℚ) ^ e
  | 0, m, e => rfl
  | fuel + 1, m, e => by
    rw [oddMantissa]
    split
    · rename_i h
      rw [oddMantissa_value fuel (m / 2) (e + 1)]
      have h2 : m = 2 * (m / 2) := by omega
      have h3 : (m : ℚ) = 2 * ((m / 2 : Nat) : ℚ) := by exact_mod_cast h2
      rw [zpow_add_one₀ (by norm_num : (2 : ℚ) ≠ 0), h3]
      ring
    · rfl

/-- The power of two with an integer exponent that is not negative is the power
with the natural exponent. -/
theorem zpow_toNat (e : Int) (h : 0 ≤ e) : (2 : ℚ) ^ e = ((2 ^ e.toNat : Nat) : ℚ) := by
  have : e = (e.toNat : Int) := (Int.toNat_of_nonneg h).symm
  nth_rewrite 1 [this]
  rw [zpow_natCast]
  push_cast
  rfl

theorem zpow_neg_toNat (e : Int) (h : e ≤ 0) :
    (2 : ℚ) ^ e = (((2 ^ (-e).toNat : Nat) : ℚ))⁻¹ := by
  have h1 : e = - (-e) := by ring
  nth_rewrite 1 [h1]
  rw [zpow_neg, zpow_toNat (-e) (by omega)]

theorem two_zpow_pos (e : Int) : (0 : ℚ) < (2 : ℚ) ^ e := zpow_pos (by norm_num) e

/-- The parts of `nearestDouble`: the binary exponent `b` of the quotient, the
exponent `e` of the last place, the quotient scaled to the last place, and
its rounding `m`. -/
theorem nearestDouble_parts (num den : Nat) (hn : 0 < num) (hd : 0 < den) :
    ∃ (b e : Int) (a d m : Nat),
      (2 : ℚ) ^ b ≤ (num : ℚ) / den ∧ (num : ℚ) / den < (2 : ℚ) ^ (b + 1) ∧
      e = max (b - 52) (-1074) ∧ 0 < d ∧ (a : ℚ) / d = (num : ℚ) / den / (2 : ℚ) ^ e ∧
      m = roundHalfEven a d ∧
      nearestDouble num den
        = if 971 < e ∨ (e = 971 ∧ m = 2 ^ 53) then none
          else if m < 2 ^ 52 ∧ a % d ≠ 0 then none
          else some (oddMantissa 64 m e) := by
  have hnq : (0 : ℚ) < num := by exact_mod_cast hn
  have hdq : (0 : ℚ) < den := by exact_mod_cast hd
  obtain ⟨n1, n2⟩ := log2Floor_spec num num hn (Nat.le_refl _)
  obtain ⟨d1, d2⟩ := log2Floor_spec den den hd (Nat.le_refl _)
  generalize hln : log2Floor num num = ln at n1 n2
  generalize hld : log2Floor den den = ld at d1 d2
  have n1q : ((2 : ℚ) ^ (ln : Int)) ≤ num := by
    rw [zpow_natCast]; exact_mod_cast n1
  have n2q : (num : ℚ) < (2 : ℚ) ^ ((ln : Int) + 1) := by
    rw [show ((ln : Int) + 1) = ((ln + 1 : Nat) : Int) by push_cast; ring, zpow_natCast]
    exact_mod_cast n2
  have d1q : ((2 : ℚ) ^ (ld : Int)) ≤ den := by
    rw [zpow_natCast]; exact_mod_cast d1
  have d2q : (den : ℚ) < (2 : ℚ) ^ ((ld : Int) + 1) := by
    rw [show ((ld : Int) + 1) = ((ld + 1 : Nat) : Int) by push_cast; ring, zpow_natCast]
    exact_mod_cast d2
  -- the estimate of the exponent is one off at most
  have g1 : (2 : ℚ) ^ ((ln : Int) - ld - 1) < (num : ℚ) / den := by
    rw [lt_div_iff₀ hdq, show ((ln : Int) - ld - 1) = (ln : Int) - ((ld : Int) + 1) by ring,
      zpow_sub₀ (by norm_num : (2 : ℚ) ≠ 0), div_mul_eq_mul_div, div_lt_iff₀ (two_zpow_pos _)]
    calc (2 : ℚ) ^ (ln : Int) * den < (2 : ℚ) ^ (ln : Int) * (2 : ℚ) ^ ((ld : Int) + 1) :=
          mul_lt_mul_of_pos_left d2q (two_zpow_pos _)
      _ ≤ num * (2 : ℚ) ^ ((ld : Int) + 1) :=
          mul_le_mul_of_nonneg_right n1q (two_zpow_pos _).le
  have g2 : (num : ℚ) / den < (2 : ℚ) ^ ((ln : Int) - ld + 1) := by
    rw [div_lt_iff₀ hdq, show ((ln : Int) - ld + 1) = ((ln : Int) + 1) - (ld : Int) by ring,
      zpow_sub₀ (by norm_num : (2 : ℚ) ≠ 0), div_mul_eq_mul_div, lt_div_iff₀ (two_zpow_pos _)]
    calc (num : ℚ) * (2 : ℚ) ^ (ld : Int) < (2 : ℚ) ^ ((ln : Int) + 1) * (2 : ℚ) ^ (ld : Int) :=
          mul_lt_mul_of_pos_right n2q (two_zpow_pos _)
      _ ≤ (2 : ℚ) ^ ((ln : Int) + 1) * den :=
          mul_le_mul_of_nonneg_left d1q (two_zpow_pos _).le
  -- the two tests compare the quotient with the power of the estimate
  have t1 : 0 ≤ (ln : Int) - ld →
      (den * 2 ^ ((ln : Int) - ld).toNat ≤ num ↔ (2 : ℚ) ^ ((ln : Int) - ld) ≤ (num : ℚ) / den) := by
    intro h
    rw [le_div_iff₀ hdq, zpow_toNat _ h]
    constructor
    · intro hh
      have : ((den * 2 ^ ((ln : Int) - ld).toNat : Nat) : ℚ) ≤ num := by exact_mod_cast hh
      push_cast at this ⊢
      linarith
    · intro hh
      have : ((den * 2 ^ ((ln : Int) - ld).toNat : Nat) : ℚ) ≤ num := by
        push_cast at hh ⊢
        linarith
      exact_mod_cast this
  have t2 : (ln : Int) - ld < 0 →
      (den ≤ num * 2 ^ (-((ln : Int) - ld)).toNat ↔ (2 : ℚ) ^ ((ln : Int) - ld) ≤ (num : ℚ) / den) := by
    intro h
    have hp : (0 : ℚ) < ((2 ^ (-((ln : Int) - ld)).toNat : Nat) : ℚ) := by positivity
    rw [le_div_iff₀ hdq, zpow_neg_toNat _ (by omega), inv_mul_le_iff₀ hp]
    constructor
    · intro hh
      have : ((den : Nat) : ℚ) ≤ ((num * 2 ^ (-((ln : Int) - ld)).toNat : Nat) : ℚ) := by
        exact_mod_cast hh
      push_cast at this ⊢
      linarith
    · intro hh
      have : ((den : Nat) : ℚ) ≤ ((num * 2 ^ (-((ln : Int) - ld)).toNat : Nat) : ℚ) := by
        push_cast at hh ⊢
        linarith
      exact_mod_cast this
  -- the exponent
  have hb : ∃ b : Int, (2 : ℚ) ^ b ≤ (num : ℚ) / den ∧ (num : ℚ) / den < (2 : ℚ) ^ (b + 1) ∧
      b = (if 0 ≤ (ln : Int) - ld then
            (if den * 2 ^ ((ln : Int) - ld).toNat ≤ num then (ln : Int) - ld
              else (ln : Int) - ld - 1)
          else (if den ≤ num * 2 ^ (-((ln : Int) - ld)).toNat then (ln : Int) - ld
              else (ln : Int) - ld - 1)) := by
    by_cases h0 : 0 ≤ (ln : Int) - ld
    · rw [if_pos h0]
      by_cases ht : den * 2 ^ ((ln : Int) - ld).toNat ≤ num
      · rw [if_pos ht]
        exact ⟨_, (t1 h0).1 ht, g2, rfl⟩
      · rw [if_neg ht]
        refine ⟨_, g1.le, ?_, rfl⟩
        rw [show (ln : Int) - ld - 1 + 1 = (ln : Int) - ld by ring]
        exact lt_of_not_le (fun hh => ht ((t1 h0).2 hh))
    · rw [if_neg h0]
      by_cases ht : den ≤ num * 2 ^ (-((ln : Int) - ld)).toNat
      · rw [if_pos ht]
        exact ⟨_, (t2 (by omega)).1 ht, g2, rfl⟩
      · rw [if_neg ht]
        refine ⟨_, g1.le, ?_, rfl⟩
        rw [show (ln : Int) - ld - 1 + 1 = (ln : Int) - ld by ring]
        exact lt_of_not_le (fun hh => ht ((t2 (by omega)).2 hh))
  obtain ⟨b, b1, b2, hbdef⟩ := hb
  refine ⟨b, max (b - 52) (-1074),
    if 0 ≤ max (b - 52) (-1074) then num else num * 2 ^ (-(max (b - 52) (-1074))).toNat,
    if 0 ≤ max (b - 52) (-1074) then den * 2 ^ (max (b - 52) (-1074)).toNat else den,
    roundHalfEven
      (if 0 ≤ max (b - 52) (-1074) then num else num * 2 ^ (-(max (b - 52) (-1074))).toNat)
      (if 0 ≤ max (b - 52) (-1074) then den * 2 ^ (max (b - 52) (-1074)).toNat else den),
    b1, b2, rfl, ?_, ?_, rfl, ?_⟩
  · split
    · positivity
    · exact hd
  · by_cases he : 0 ≤ max (b - 52) (-1074)
    · rw [if_pos he, if_pos he, zpow_toNat _ he]
      push_cast
      rw [div_div]
    · rw [if_neg he, if_neg he, zpow_neg_toNat _ (by omega)]
      push_cast
      rw [div_inv_eq_mul]
      ring
  · unfold nearestDouble
    simp only [hln, hld]
    rw [← hbdef]

theorem two_zpow_le {a b : Int} (h : a ≤ b) : (2 : ℚ) ^ a ≤ (2 : ℚ) ^ b :=
  (zpow_le_zpow_iff_right₀ (by norm_num : (1 : ℚ) < 2)).2 h

theorem two_zpow_lt {a b : Int} (h : (2 : ℚ) ^ a < (2 : ℚ) ^ b) : a < b :=
  (zpow_lt_zpow_iff_right₀ (by norm_num : (1 : ℚ) < 2)).1 h

theorem two_pow_mul (n : Nat) (e : Int) : (2 : ℚ) ^ n * (2 : ℚ) ^ e = (2 : ℚ) ^ ((n : Int) + e) := by
  rw [zpow_add₀ (by norm_num : (2 : ℚ) ≠ 0), zpow_natCast]

/-- What `nearestDouble` returns for the positive quotient `num / den`: a `double`
that no `double` is nearer to the quotient than; it returns one for every
quotient from `2^-1022` to below `2^1024 - 2^970`, and none for a quotient of
`2^1024` or more. -/
theorem nearestDouble_spec (num den : Nat) (hn : 0 < num) (hd : 0 < den) :
    (∀ m e, nearestDouble num den = some (m, e) →
      IsDouble ((m : ℚ) * (2 : ℚ) ^ e) ∧
      ∀ y : ℚ, IsDouble y → |(num : ℚ) / den - (m : ℚ) * (2 : ℚ) ^ e| ≤ |(num : ℚ) / den - y|) ∧
    ((2 : ℚ) ^ (-1022 : Int) ≤ (num : ℚ) / den →
      (num : ℚ) / den < (2 : ℚ) ^ (1024 : Int) - (2 : ℚ) ^ (970 : Int) →
      nearestDouble num den ≠ none) ∧
    ((2 : ℚ) ^ (1024 : Int) ≤ (num : ℚ) / den → nearestDouble num den = none) := by
  obtain ⟨b, e, a, d, m0, b1, b2, he, hdp, hr, hm, heq⟩ := nearestDouble_parts num den hn hd
  have hxpos : (0 : ℚ) < (num : ℚ) / den := by positivity
  have hg := two_zpow_pos e
  have hx : (num : ℚ) / den = (a : ℚ) / d * (2 : ℚ) ^ e := by
    rw [hr, div_mul_cancel₀ _ hg.ne']
  have hnear := roundHalfEven_near a d hdp
  rw [← hm] at hnear
  have hnearest : ∀ k : Int, |(m0 : ℚ) - (a : ℚ) / d| ≤ |(k : ℚ) - (a : ℚ) / d| := by
    intro k
    rw [hm]
    exact roundHalfEven_nearest a d hdp k
  have he1 : b - 52 ≤ e := by rw [he]; exact le_max_left _ _
  have he2 : -1074 ≤ e := by rw [he]; exact le_max_right _ _
  -- distance to a multiple of the last place
  have hdist : ∀ k : ℚ, |(num : ℚ) / den - k * (2 : ℚ) ^ e| = |k - (a : ℚ) / d| * (2 : ℚ) ^ e := by
    intro k
    rw [hx, ← sub_mul, abs_mul, abs_of_pos hg, abs_sub_comm]
  -- the scaled quotient is below 2^53
  have hr53 : (a : ℚ) / d < 2 ^ 53 := by
    rw [hr, div_lt_iff₀ hg]
    calc (num : ℚ) / den < (2 : ℚ) ^ (b + 1) := b2
      _ ≤ (2 : ℚ) ^ (((53 : Nat) : Int) + e) := two_zpow_le (by push_cast; omega)
      _ = 2 ^ 53 * (2 : ℚ) ^ e := (two_pow_mul 53 e).symm
  have hm53 : m0 ≤ 2 ^ 53 := by
    by_contra hc
    have : (2 ^ 53 + 1 : ℚ) ≤ m0 := by
      have : 2 ^ 53 + 1 ≤ m0 := by omega
      exact_mod_cast this
    have h2 := (abs_le.1 hnear).2
    linarith
  refine ⟨?_, ?_, ?_⟩
  · intro m e1 hsome
    rw [heq] at hsome
    split at hsome
    · cases hsome
    · rename_i hc1
      split at hsome
      · cases hsome
      · rename_i hc2
        have hval : (m : ℚ) * (2 : ℚ) ^ e1 = (m0 : ℚ) * (2 : ℚ) ^ e := by
          have := oddMantissa_value 64 m0 e
          rw [Option.some.injEq] at hsome
          rw [hsome] at this
          exact this
        rw [hval]
        have he971 : e ≤ 971 := by
          by_contra hh
          exact hc1 (Or.inl (by omega))
        constructor
        · by_cases h53 : m0 = 2 ^ 53
          · have he970 : e ≤ 970 := by
              by_contra hh
              exact hc1 (Or.inr ⟨by omega, h53⟩)
            refine ⟨2 ^ 52, e + 1, by norm_num, by omega, by omega, ?_⟩
            rw [abs_of_nonneg (by positivity), h53, zpow_add_one₀ (by norm_num : (2 : ℚ) ≠ 0)]
            push_cast
            ring
          · refine ⟨m0, e, by omega, he2, he971, ?_⟩
            rw [abs_of_nonneg (by positivity)]
        · intro y hy
          obtain ⟨M, E, hM, hE1, hE2, hyv⟩ := hy
          have h1 : |(num : ℚ) / den - (M : ℚ) * (2 : ℚ) ^ E| ≤ |(num : ℚ) / den - y| := by
            have := abs_abs_sub_abs_le (( num : ℚ) / den) y
            rw [abs_of_pos hxpos, hyv] at this
            exact this
          refine le_trans ?_ h1
          rw [hdist]
          by_cases hEe : e ≤ E
          · have hk : (M : ℚ) * (2 : ℚ) ^ E
                = ((M * 2 ^ (E - e).toNat : Nat) : ℚ) * (2 : ℚ) ^ e := by
              push_cast
              rw [mul_assoc]
              congr 1
              rw [← zpow_natCast, ← zpow_add₀ (by norm_num : (2 : ℚ) ≠ 0)]
              congr 1
              rw [Int.toNat_of_nonneg (by omega)]
              ring
            rw [hk, hdist]
            apply mul_le_mul_of_nonneg_right _ hg.le
            have := hnearest ((M * 2 ^ (E - e).toNat : Nat) : Int)
            simpa using this
          · have heb : e = b - 52 := by
              rw [he]
              apply max_eq_left
              rw [he] at hEe
              by_contra hh
              rw [max_eq_right (by omega)] at hEe
              omega
            have hlow : (M : ℚ) * (2 : ℚ) ^ E < (2 : ℚ) ^ b := by
              calc (M : ℚ) * (2 : ℚ) ^ E < 2 ^ 53 * (2 : ℚ) ^ E := by
                    apply mul_lt_mul_of_pos_right _ (two_zpow_pos E)
                    exact_mod_cast hM
                _ ≤ 2 ^ 53 * (2 : ℚ) ^ (e - 1) :=
                    mul_le_mul_of_nonneg_left (two_zpow_le (by omega)) (by positivity)
                _ = (2 : ℚ) ^ b := by
                    rw [two_pow_mul]
                    congr 1
                    push_cast
                    omega
            have h52 : (2 : ℚ) ^ b = ((2 ^ 52 : Nat) : ℚ) * (2 : ℚ) ^ e := by
              rw [Nat.cast_pow, Nat.cast_ofNat, two_pow_mul]
              congr 1
              push_cast
              omega
            have h3 : |(m0 : ℚ) - (a : ℚ) / d| * (2 : ℚ) ^ e
                ≤ |(num : ℚ) / den - (2 : ℚ) ^ b| := by
              rw [h52, hdist]
              apply mul_le_mul_of_nonneg_right _ hg.le
              have := hnearest ((2 ^ 52 : Nat) : Int)
              simpa using this
            refine le_trans h3 ?_
            rw [abs_of_nonneg (by linarith), abs_of_nonneg (by linarith)]
            linarith
  · intro hlo hhi
    have hb1 : -1022 ≤ b := by
      have := two_zpow_lt (lt_of_le_of_lt hlo b2)
      omega
    have hb2 : b ≤ 1023 := by
      have h1 : (num : ℚ) / den < (2 : ℚ) ^ (1024 : Int) := by
        have := two_zpow_pos 970
        linarith
      have := two_zpow_lt (lt_of_le_of_lt b1 h1)
      omega
    have heb : e = b - 52 := by
      rw [he]
      exact max_eq_left (by omega)
    have hm52 : 2 ^ 52 ≤ m0 := by
      by_contra hc
      have h1 : (m0 : ℚ) ≤ 2 ^ 52 - 1 := by
        have : m0 ≤ 2 ^ 52 - 1 := by omega
        have h2 : ((m0 : Nat) : ℚ) ≤ ((2 ^ 52 - 1 : Nat) : ℚ) := by exact_mod_cast this
        have h3 : ((2 ^ 52 - 1 : Nat) : ℚ) = 2 ^ 52 - 1 := by norm_num
        rw [h3] at h2
        exact h2
      have h2 : (2 : ℚ) ^ 52 ≤ (a : ℚ) / d := by
        rw [hr, le_div_iff₀ hg]
        calc (2 : ℚ) ^ 52 * (2 : ℚ) ^ e = (2 : ℚ) ^ b := by
              rw [two_pow_mul]
              congr 1
              push_cast
              omega
          _ ≤ (num : ℚ) / den := b1
      have h3 := (abs_le.1 hnear).1
      linarith
    rw [heq]
    have hc1 : ¬ (971 < e ∨ (e = 971 ∧ m0 = 2 ^ 53)) := by
      rintro (h | ⟨h1, h2⟩)
      · omega
      · have h3 := (abs_le.1 hnear).2
        have h4 : (m0 : ℚ) = 2 ^ 53 := by exact_mod_cast h2
        have h5 : (2 : ℚ) ^ 53 - 1 / 2 ≤ (a : ℚ) / d := by linarith
        have h6 : ((2 : ℚ) ^ 53 - 1 / 2) * (2 : ℚ) ^ e ≤ (num : ℚ) / den := by
          rw [hx]
          exact mul_le_mul_of_nonneg_right h5 hg.le
        rw [h1] at h6
        have h7 : ((2 : ℚ) ^ 53 - 1 / 2) * (2 : ℚ) ^ (971 : Int)
            = (2 : ℚ) ^ (1024 : Int) - (2 : ℚ) ^ (970 : Int) := by
          have e1 : (2 : ℚ) ^ (1024 : Int) = (2 : ℚ) ^ 53 * (2 : ℚ) ^ (971 : Int) := by
            rw [two_pow_mul]
            norm_num
          have e2 : (2 : ℚ) ^ (971 : Int) = 2 * (2 : ℚ) ^ (970 : Int) := by
            rw [show (971 : Int) = 970 + 1 by norm_num,
              zpow_add_one₀ (by norm_num : (2 : ℚ) ≠ 0)]
            ring
          rw [e1, sub_mul]
          congr 1
          rw [e2]
          ring
        rw [h7] at h6
        linarith
    rw [if_neg hc1, if_neg (by omega)]
    simp
  · intro hhi
    have := two_zpow_lt (lt_of_le_of_lt hhi b2)
    rw [heq, if_pos (Or.inl (by omega))]

/-- For a quotient that is the value of a `double`, `nearestDouble` returns a
`double`. -/
theorem nearestDouble_of_double (num den : Nat) (hn : 0 < num) (hd : 0 < den)
    (h : IsDouble ((num : ℚ) / den)) : nearestDouble num den ≠ none := by
  obtain ⟨b, e, a, d, m0, b1, b2, he, hdp, hr, hm, heq⟩ := nearestDouble_parts num den hn hd
  obtain ⟨M, E, hM, hE1, hE2, hv⟩ := h
  have hxpos : (0 : ℚ) < (num : ℚ) / den := by positivity
  rw [abs_of_pos hxpos] at hv
  have hg := two_zpow_pos e
  have hdq : (0 : ℚ) < d := by exact_mod_cast hdp
  have hEe : e ≤ E := by
    by_contra hc
    have heb : e = b - 52 := by
      rw [he]
      apply max_eq_left
      rw [he] at hc
      by_contra hh
      rw [max_eq_right (by omega)] at hc
      omega
    have hlow : (M : ℚ) * (2 : ℚ) ^ E < (2 : ℚ) ^ b := by
      calc (M : ℚ) * (2 : ℚ) ^ E < 2 ^ 53 * (2 : ℚ) ^ E := by
            apply mul_lt_mul_of_pos_right _ (two_zpow_pos E)
            exact_mod_cast hM
        _ ≤ 2 ^ 53 * (2 : ℚ) ^ (e - 1) :=
            mul_le_mul_of_nonneg_left (two_zpow_le (by omega)) (by positivity)
        _ = (2 : ℚ) ^ b := by
            rw [two_pow_mul]
            congr 1
            push_cast
            omega
    rw [← hv] at hlow
    linarith
  have hk : (a : ℚ) / d = ((M * 2 ^ (E - e).toNat : Nat) : ℚ) := by
    rw [hr, hv, div_eq_iff hg.ne']
    push_cast
    rw [mul_assoc]
    congr 1
    rw [← zpow_natCast, ← zpow_add₀ (by norm_num : (2 : ℚ) ≠ 0)]
    congr 1
    rw [Int.toNat_of_nonneg (by omega)]
    ring
  have hmod : a % d = 0 := by
    have h1 : (a : ℚ) = ((M * 2 ^ (E - e).toNat * d : Nat) : ℚ) := by
      rw [div_eq_iff hdq.ne'] at hk
      rw [hk]
      push_cast
      ring
    have h2 : a = M * 2 ^ (E - e).toNat * d := by exact_mod_cast h1
    rw [h2]
    exact Nat.mul_mod_left _ _
  have hm0 : m0 = M * 2 ^ (E - e).toNat := by
    have h1 := roundHalfEven_exact a d hdp hmod
    rw [← hm, hk] at h1
    exact_mod_cast h1
  rw [heq, if_neg, if_neg]
  · simp
  · rintro ⟨_, h2⟩
    exact h2 hmod
  · rintro (h1 | ⟨h1, h2⟩)
    · omega
    · have hE : E = e := by omega
      rw [hm0, hE] at h2
      simp only [sub_self, Int.toNat_zero, pow_zero, mul_one] at h2
      omega

/-- The magnitude of the value of a literal, as the quotient `std::stod` rounds. -/
theorem literal_abs (l : Literal) :
    |l.value| = (if 0 ≤ l.exponent - (l.fp.length : Int) then
        ((digitsVal (l.ip ++ l.fp) * 10 ^ (l.exponent - (l.fp.length : Int)).toNat : Nat) : ℚ)
          / ((1 : Nat) : ℚ)
      else ((digitsVal (l.ip ++ l.fp) : Nat) : ℚ)
          / ((10 ^ (-(l.exponent - (l.fp.length : Int))).toNat : Nat) : ℚ)) := by
  have h10 : ∀ k : Int, (0 : ℚ) < (10 : ℚ) ^ k := fun k => zpow_pos (by norm_num) k
  unfold Literal.value
  rw [abs_mul, abs_mul, abs_of_pos (h10 _)]
  have hs : |(if l.sign = [45] then (-1 : ℚ) else 1)| = 1 := by
    split <;> simp
  rw [hs, one_mul, abs_of_nonneg (Nat.cast_nonneg _)]
  generalize l.exponent - (l.fp.length : Int) = k
  by_cases hk : 0 ≤ k
  · rw [if_pos hk]
    have : k = (k.toNat : Int) := (Int.toNat_of_nonneg hk).symm
    nth_rewrite 1 [this]
    rw [zpow_natCast]
    push_cast
    ring
  · rw [if_neg hk]
    have : k = - ((-k).toNat : Int) := by
      rw [Int.toNat_of_nonneg (by omega)]
      ring
    nth_rewrite 1 [this]
    rw [zpow_neg, zpow_natCast]
    push_cast
    ring

theorem literal_value_sign (l : Literal) :
    l.value = (if l.sign = [45] then -1 else 1) * |l.value| := by
  have h10 : (0 : ℚ) < (10 : ℚ) ^ (l.exponent - (l.fp.length : Int)) := zpow_pos (by norm_num) _
  have hn : (0 : ℚ) ≤ (digitsVal (l.ip ++ l.fp) : ℚ) * (10 : ℚ) ^ (l.exponent - (l.fp.length : Int)) :=
    mul_nonneg (Nat.cast_nonneg _) h10.le
  unfold Literal.value
  split
  · rw [mul_assoc, abs_mul, abs_of_nonneg hn]
    simp
  · rw [mul_assoc, abs_mul, abs_of_nonneg hn]
    simp

theorem isDouble_neg {y : ℚ} (h : IsDouble y) : IsDouble (-y) := by
  obtain ⟨M, E, h1, h2, h3, h4⟩ := h
  exact ⟨M, E, h1, h2, h3, by rw [abs_neg]; exact h4⟩

/-- What `std::stod` returns for a literal: for the value 0 the zero with the sign
of the literal; else a `double` nearest to the value, with the sign of the
literal, or a range error.  A value that is a `double`, or of a magnitude
from `2^-1022` to below `2^1024 - 2^970`, gives no range error; a magnitude of
`2^1024` or more gives one. -/
theorem stodResult_spec (l : Literal) (n : Nat) :
    (l.stodResult n = .out_of_range ∨
      ∃ v, l.stodResult n = .ok v n ∧ Nearest l.value v ∧
        v.toRat = (if l.sign = [45] then -1 else 1) * |v.toRat|) ∧
    (IsDouble l.value ∨ ((2 : ℚ) ^ (-1022 : Int) ≤ |l.value| ∧
        |l.value| < (2 : ℚ) ^ (1024 : Int) - (2 : ℚ) ^ (970 : Int)) →
      l.stodResult n ≠ .out_of_range) ∧
    ((2 : ℚ) ^ (1024 : Int) ≤ |l.value| → l.stodResult n = .out_of_range) ∧
    (l.value = 0 → l.stodResult n = .ok (.finite (l.sign = [45]) 0 0) n) := by
  have habs := literal_abs l
  have hsign := literal_value_sign l
  unfold Literal.stodResult
  by_cases h0 : digitsVal (l.ip ++ l.fp) = 0
  · have hv : l.value = 0 := by
      unfold Literal.value
      rw [h0]
      simp
    simp only [h0, if_true]
    refine ⟨Or.inr ⟨_, rfl, ⟨rfl, ⟨0, 0, by norm_num, by norm_num, by norm_num, ?_⟩, ?_⟩, ?_⟩,
      ?_, ?_, ?_⟩
    · simp [Number.toRat]
    · intro y _
      rw [hv]
      simp [Number.toRat]
    · simp [Number.toRat]
    · intro _ h
      cases h
    · intro h
      rw [hv] at h
      have := two_zpow_pos 1024
      simp only [abs_zero] at h
      linarith
    · intro _
      trivial
  · rw [if_neg h0]
    have hmpos : 0 < digitsVal (l.ip ++ l.fp) := Nat.pos_of_ne_zero h0
    have hvne : l.value ≠ 0 := by
      intro hv
      have := habs
      rw [hv, abs_zero] at this
      split at this
      · have h1 : (0 : ℚ) < ((digitsVal (l.ip ++ l.fp)
            * 10 ^ (l.exponent - (l.fp.length : Int)).toNat : Nat) : ℚ) / ((1 : Nat) : ℚ) := by
          positivity
        linarith
      · have h1 : (0 : ℚ) < ((digitsVal (l.ip ++ l.fp) : Nat) : ℚ)
            / ((10 ^ (-(l.exponent - (l.fp.length : Int))).toNat : Nat) : ℚ) := by
          positivity
        linarith
    -- the two quotients are treated alike
    have key : ∀ (num den : Nat), 0 < num → 0 < den → |l.value| = (num : ℚ) / den →
        ((match nearestDouble num den with
          | some (m, e) => StodResult.ok (.finite (l.sign = [45]) m e) n
          | none => StodResult.out_of_range) = .out_of_range ∨
          ∃ v, (match nearestDouble num den with
            | some (m, e) => StodResult.ok (.finite (l.sign = [45]) m e) n
            | none => StodResult.out_of_range) = .ok v n ∧ Nearest l.value v ∧
            v.toRat = (if l.sign = [45] then -1 else 1) * |v.toRat|) ∧
        (IsDouble l.value ∨ ((2 : ℚ) ^ (-1022 : Int) ≤ |l.value| ∧
            |l.value| < (2 : ℚ) ^ (1024 : Int) - (2 : ℚ) ^ (970 : Int)) →
          (match nearestDouble num den with
            | some (m, e) => StodResult.ok (.finite (l.sign = [45]) m e) n
            | none => StodResult.out_of_range) ≠ .out_of_range) ∧
        ((2 : ℚ) ^ (1024 : Int) ≤ |l.value| →
          (match nearestDouble num den with
            | some (m, e) => StodResult.ok (.finite (l.sign = [45]) m e) n
            | none => StodResult.out_of_range) = .out_of_range) ∧
        (l.value = 0 →
          (match nearestDouble num den with
            | some (m, e) => StodResult.ok (.finite (l.sign = [45]) m e) n
            | none => StodResult.out_of_range) = .ok (.finite (l.sign = [45]) 0 0) n) := by
      intro num den hn hd hq
      obtain ⟨s1, s2, s3⟩ := nearestDouble_spec num den hn hd
      rw [← hq] at s1 s2 s3
      refine ⟨?_, ?_, ?_, fun h => absurd h hvne⟩
      · cases hnd : nearestDouble num den with
        | none => exact Or.inl rfl
        | some p =>
          obtain ⟨m, e⟩ := p
          obtain ⟨d1, d2⟩ := s1 m e hnd
          have hmn : (0 : ℚ) ≤ (m : ℚ) * (2 : ℚ) ^ e := by positivity
          refine Or.inr ⟨_, rfl, ⟨rfl, ?_, ?_⟩, ?_⟩
          · by_cases hs : l.sign = [45]
            · simp only [Number.toRat, hs, decide_True, if_true]
              have := isDouble_neg d1
              rw [show -((m : ℚ) * (2 : ℚ) ^ e) = -1 * (m : ℚ) * (2 : ℚ) ^ e by ring] at this
              exact this
            · simp only [Number.toRat, hs, decide_False, Bool.false_eq_true, if_false, one_mul]
              exact d1
          · intro y hy
            by_cases hs : l.sign = [45]
            · simp only [Number.toRat, hs, decide_True, if_true]
              rw [hsign, if_pos hs]
              have := d2 (-y) (isDouble_neg hy)
              rw [show -1 * |l.value| - -1 * (m : ℚ) * (2 : ℚ) ^ e
                  = -(|l.value| - (m : ℚ) * (2 : ℚ) ^ e) by ring, abs_neg,
                show -1 * |l.value| - y = -(|l.value| - -y) by ring, abs_neg]
              exact this
            · simp only [Number.toRat, hs, decide_False, Bool.false_eq_true, if_false, one_mul]
              rw [hsign, if_neg hs, one_mul]
              exact d2 y hy
          · by_cases hs : l.sign = [45]
            · simp only [Number.toRat, hs, decide_True, if_true]
              rw [mul_assoc, abs_mul, abs_of_nonneg hmn]
              simp
            · simp only [Number.toRat, hs, decide_False, Bool.false_eq_true, if_false, one_mul]
              rw [abs_of_nonneg hmn]
      · intro hr
        have hne : nearestDouble num den ≠ none := by
          rcases hr with hr | ⟨h1, h2⟩
          · apply nearestDouble_of_double num den hn hd
            rw [← hq]
            obtain ⟨M, E, a1, a2, a3, a4⟩ := hr
            exact ⟨M, E, a1, a2, a3, by rw [abs_abs]; exact a4⟩
          · exact s2 h1 h2
        cases hnd : nearestDouble num den with
        | none => exact absurd hnd hne
        | some p =>
          obtain ⟨m, e⟩ := p
          intro hh
          cases hh
      · intro hhi
        rw [s3 hhi]
    by_cases hk : 0 ≤ l.exponent - (l.fp.length : Int)
    · rw [if_pos hk] at habs ⊢
      exact key _ 1 (by positivity) Nat.one_pos habs
    · rw [if_neg hk] at habs ⊢
      exact key _ _ hmpos (by positivity) habs

/-! ## C23: the value of a number text -/

/-- A text of characters of a number that starts with `-` or a digit, as a whole
document: what `std::stod` makes of it decides. -/
theorem deserialize_number_text (c : Nat) (cs : List Nat) (hc : c = 45 ∨ isDigit c = true)
    (hcs : cs.all isNumberChar = true) :
    deserialize (c :: cs) = match stod (c :: cs) with
      | .ok val read =>
        if read ≠ (c :: cs).length then .syntaxError ⟨"Illegal number format.", 1, c⟩
        else .value (Element.ofNumber val)
      | .invalid_argument => .syntaxError ⟨"Failed to parse number", 1, c⟩
      | .out_of_range => .syntaxError ⟨"Failed to parse number, value out of range", 1, c⟩ := by
  have hchar : c ≠ 47 ∧ isWhite c = false ∧ c ≠ 91 ∧ c ≠ 123 ∧ c ≠ 93 := by
    rcases hc with rfl | h
    · decide
    · have h2 : 48 ≤ c ∧ c ≤ 57 := by simpa [isDigit] using h
      refine ⟨by omega, ?_, by omega, by omega, by omega⟩
      simp only [isWhite, Bool.or_eq_false_iff, beq_eq_false_iff_ne, ne_eq]
      omega
  have he : endsNumber [] := fun _ _ e => by cases e
  have hrun := parsePrimitive_run c cs [] hc hcs he (Element.ofType .NULL_VALUE) 1
  rw [List.append_nil] at hrun
  have herr : ∀ e, (parsePrimitive cs c (Element.ofType .NULL_VALUE) 1).2 = .error e →
      deserialize (c :: cs) = .syntaxError e := by
    intro e h
    have := primitive_error_at_start [] cs c e (fun _ hb => by cases hb) hchar.1 hchar.2.1
      hchar.2.2.1 hchar.2.2.2.1 (by simpa [lineBreaks] using h)
    simpa using this
  cases hst : stod (c :: cs) with
  | ok val read =>
    rw [hst] at hrun
    simp only [] at hrun ⊢
    by_cases hr : read ≠ (c :: cs).length
    · rw [if_pos hr] at hrun ⊢
      exact herr _ (by rw [hrun])
    · rw [if_neg hr] at hrun ⊢
      have hp : parsePrimitive cs c
          ((Element.ofType .NULL_VALUE).assign (Element.ofType .NULL_VALUE)) 1
          = (Element.ofNumber val, .ok (32, [])) := by
        rw [assign_fresh_null, hrun]
        rfl
      have hb : body ⟨cs, .S_PRE_ELEMENT, Element.ofType .NULL_VALUE, [[]], [], 1, c⟩
          = .redo ⟨[], .S_POST_ELEMENT, Element.ofNumber val, [], [], 1, 32⟩ := by
        rw [body_pre _ _ _ _ _ _ hchar.1 hchar.2.1, preElement_null (deref_nil _) (by rfl),
          beginValue_primitive hchar.2.2.1 hchar.2.2.2.1 (deref_nil _) hp (by rw [store])]
      have hl : Leads (Parser.start (c :: cs))
          ⟨[], .S_POST_ELEMENT, Element.ofNumber val, [], [], 1, 32⟩ := by
        unfold Parser.start
        apply leads_of_body c cs rfl
        rw [hb]
        exact leadsNext_blank _ _ _ _ _
      have hd : Halts ⟨[], .S_POST_ELEMENT, Element.ofNumber val, [], [], 1, 32⟩
          (.done ⟨[], .S_POST_ELEMENT, Element.ofNumber val, [], [], 1, 32⟩) :=
        ⟨1, whileRead_nil 0 _ rfl, by intro hh; cases hh⟩
      have := deserialize_of_done (hl _ hd)
      simpa using this
  | invalid_argument =>
    rw [hst] at hrun
    exact herr _ (by rw [hrun])
  | out_of_range =>
    rw [hst] at hrun
    exact herr _ (by rw [hrun])

/-- The characters of a literal are characters of a number. -/
theorem literal_chars (l : Literal) (h : l.wf = true) : l.text.all isNumberChar = true := by
  obtain ⟨w1, w2, w3, _, _, w6⟩ := wf_parts h
  have hs : ∀ s : List Nat, isSign s = true → s.all isNumberChar = true := by
    intro s hs
    have h3 : s = [] ∨ s = [43] ∨ s = [45] := by simpa [isSign, or_assoc] using hs
    rcases h3 with rfl | rfl | rfl <;> decide
  have hdig : ∀ d : List Nat, d.all isDigit = true → d.all isNumberChar = true := by
    intro d hd
    rw [List.all_eq_true] at hd ⊢
    exact fun x hx => isDigit_isNumberChar x (hd x hx)
  unfold Literal.text
  rw [List.all_append, List.all_append, List.all_append, hs _ w1, hdig _ w2]
  have hp : (if l.point = true then 46 :: l.fp else []).all isNumberChar = true := by
    split
    · rw [List.all_cons, hdig _ w3]
      decide
    · rfl
  rw [hp]
  cases hex : l.ex with
  | none => rfl
  | some v =>
    obtain ⟨c, s, d⟩ := v
    obtain ⟨v1, v2, _, v4⟩ := w6 c s d hex
    simp only [Bool.and_self, Bool.true_and, List.all_cons, List.all_append, hs _ v2, hdig _ v4,
      Bool.and_true]
    rcases v1 with rfl | rfl <;> decide

/-- A literal without a sign or with the sign `-` and with a digit before the
point starts with `-` or a digit. -/
theorem literal_head (l : Literal) (h : l.wf = true) (hs : l.sign = [] ∨ l.sign = [45])
    (hip : l.ip ≠ []) :
    ∃ c cs, l.text = c :: cs ∧ (c = 45 ∨ isDigit c = true) ∧ cs.all isNumberChar = true := by
  have hall := literal_chars l h
  obtain ⟨_, w2, _⟩ := wf_parts h
  cases ht : l.text with
  | nil =>
    unfold Literal.text at ht
    simp only [List.append_eq_nil] at ht
    exact absurd ht.1.1.2 hip
  | cons c cs =>
    rw [ht, List.all_cons, Bool.and_eq_true] at hall
    refine ⟨c, cs, rfl, ?_, hall.2⟩
    unfold Literal.text at ht
    rcases hs with hs | hs
    · rw [hs] at ht
      cases hi : l.ip with
      | nil => exact absurd hi hip
      | cons x r =>
        rw [hi] at ht w2
        simp only [List.nil_append, List.cons_append, List.cons.injEq] at ht
        rw [← ht.1]
        simp only [List.all_cons, Bool.and_eq_true] at w2
        exact Or.inr w2.1
    · rw [hs] at ht
      simp only [List.cons_append, List.cons.injEq] at ht
      exact Or.inl ht.1.symm

/-- C23 fails as stated: the number text `1e999` has a value that no `double`
has, and `deserialize` throws the range error of `std::stod`; so does the
text `1e-400`. -/
theorem numeric_fidelity_counterexample :
    (⟨[], lit "1", false, [], some (101, [], lit "999")⟩ : Literal).wf = true ∧
    (⟨[], lit "1", false, [], some (101, [], lit "999")⟩ : Literal).text = lit "1e999" ∧
    deserialize (lit "1e999")
      = .syntaxError ⟨"Failed to parse number, value out of range", 1, 49⟩ ∧
    deserialize (lit "1e-400")
      = .syntaxError ⟨"Failed to parse number, value out of range", 1, 49⟩ := by
  refine ⟨by decide, by decide, by decide!, by decide!⟩

/-- C23 (amended): a number text made of an optional `-`, decimal digits, an
optional fraction and an optional exponent.  `deserialize` returns a Number
nearest to the decimal value of the text, with the sign of the text, or
throws "Failed to parse number, value out of range".  It returns the Number
when the value is that of a `double`, which then is the value of the Number,
and when its magnitude is from `2^-1022` to below `2^1024 - 2^970`; it throws
when the magnitude is `2^1024` or more.  A text with the value 0 gives the
zero with the sign of the text. -/
theorem numeric_fidelity (l : Literal) (hwf : l.wf = true)
    (hs : l.sign = [] ∨ l.sign = [45]) (hip : l.ip ≠ []) :
    (deserialize l.text
        = .syntaxError ⟨"Failed to parse number, value out of range", 1, l.text.headD 0⟩ ∨
      ∃ v, deserialize l.text = .value (Element.ofNumber v) ∧ Nearest l.value v ∧
        v.toRat = (if l.sign = [45] then -1 else 1) * |v.toRat|) ∧
    (IsDouble l.value →
      ∃ v, deserialize l.text = .value (Element.ofNumber v) ∧ v.toRat = l.value) ∧
    ((2 : ℚ) ^ (-1022 : Int) ≤ |l.value| →
      |l.value| < (2 : ℚ) ^ (1024 : Int) - (2 : ℚ) ^ (970 : Int) →
      ∃ v, deserialize l.text = .value (Element.ofNumber v) ∧ Nearest l.value v) ∧
    ((2 : ℚ) ^ (1024 : Int) ≤ |l.value| →
      deserialize l.text
        = .syntaxError ⟨"Failed to parse number, value out of range", 1, l.text.headD 0⟩) ∧
    (l.value = 0 →
      deserialize l.text = .value (Element.ofNumber (.finite (l.sign = [45]) 0 0))) := by
  obtain ⟨c, cs, ht, hc, hcs⟩ := literal_head l hwf hs hip
  have hd := deserialize_number_text c cs hc hcs
  have hsc : stod (c :: cs) = l.stodResult (c :: cs).length := by
    rw [stod_scan, ← ht, scanLiteral_text l hwf]
    simp
  rw [hsc] at hd
  obtain ⟨s1, s2, s3, s4⟩ := stodResult_spec l (c :: cs).length
  rw [ht]
  simp only [List.headD_cons]
  have hok : ∀ v, l.stodResult (c :: cs).length = .ok v (c :: cs).length →
      deserialize (c :: cs) = .value (Element.ofNumber v) := by
    intro v hv
    rw [hd, hv]
    simp
  have hrange : l.stodResult (c :: cs).length = .out_of_range →
      deserialize (c :: cs)
        = .syntaxError ⟨"Failed to parse number, value out of range", 1, c⟩ := by
    intro hv
    rw [hd, hv]
  have hsome : l.stodResult (c :: cs).length ≠ .out_of_range →
      ∃ v, deserialize (c :: cs) = .value (Element.ofNumber v) ∧ Nearest l.value v := by
    intro hne
    rcases s1 with h | ⟨v, h1, h2, _⟩
    · exact absurd h hne
    · exact ⟨v, hok v h1, h2⟩
  refine ⟨?_, ?_, ?_, ?_, ?_⟩
  · rcases s1 with h | ⟨v, h1, h2, h3⟩
    · exact Or.inl (hrange h)
    · exact Or.inr ⟨v, hok v h1, h2, h3⟩
  · intro hdb
    obtain ⟨v, h1, h2⟩ := hsome (s2 (Or.inl hdb))
    refine ⟨v, h1, ?_⟩
    have := h2.2.2 l.value hdb
    rw [sub_self, abs_zero] at this
    have h0 := abs_nonneg (l.value - v.toRat)
    have h3 : |l.value - v.toRat| = 0 := le_antisymm this h0
    rw [abs_eq_zero, sub_eq_zero] at h3
    exact h3.symm
  · intro h1 h2
    exact hsome (s2 (Or.inr ⟨h1, h2⟩))
  · intro h
    exact hrange (s3 h)
  · intro h
    exact hok _ (s4 h)

/-- C23 (amended) at the text `-123.0`: its value -123 is that of a `double`, and
the Number returned has this value.  The texts `12e-1`, `0.1`, `-123.0`, `-0`
and `-0.0` give the Numbers 1.2, 0.1, -123 and the negative zero, and the
negative zero is `==` to zero. -/
theorem numeric_fidelity_witness :
    (⟨[45], lit "123", true, lit "0", none⟩ : Literal).wf = true ∧
    (⟨[45], lit "123", true, lit "0", none⟩ : Literal).text = lit "-123.0" ∧
    (⟨[45], lit "123", true, lit "0", none⟩ : Literal).value = -123 ∧
    (∃ v, deserialize (⟨[45], lit "123", true, lit "0", none⟩ : Literal).text
      = .value (Element.ofNumber v) ∧ v.toRat = -123) ∧
    deserialize (lit "-123.0") = .value (Element.ofNumber (.finite true 123 0)) ∧
    deserialize (lit "12e-1")
      = .value (Element.ofNumber (.finite false 5404319552844595 (-52))) ∧
    deserialize (lit "0.1")
      = .value (Element.ofNumber (.finite false 3602879701896397 (-55))) ∧
    deserialize (lit "-0") = .value (Element.ofNumber (.finite true 0 0)) ∧
    deserialize (lit "-0.0") = .value (Element.ofNumber (.finite true 0 0)) ∧
    (Element.ofNumber (.finite true 0 0)).eq (Element.ofNumber Number.zero) = true ∧
    (Element.ofNumber (.finite true 123 0)).eq (Element.ofNumber (.finite true 123 0)) = true :=
  have hv : (⟨[45], lit "123", true, lit "0", none⟩ : Literal).value = -123 := by
    simp [Literal.value, Literal.exponent, digitsVal, lit]
    norm_num
  have hd : IsDouble (⟨[45], lit "123", true, lit "0", none⟩ : Literal).value :=
    ⟨123, 0, by norm_num, by norm_num, by norm_num, by rw [hv]; norm_num⟩
  ⟨by decide, by decide, hv,
    by
      have h := (numeric_fidelity ⟨[45], lit "123", true, lit "0", none⟩ (by decide)
        (Or.inr rfl) (by decide)).2.1 hd
      rw [hv] at h
      exact h,
    by decide!, by decide!, by decide!, by decide!, by decide!, by decide, by decide⟩

/-! ## C24: a run of number characters that is not a literal -/

/-- C24 fails as stated: the run `1e999-` is not a literal and starts with the
literal `1e999`, and the message is not "Illegal number format." but that of
the range error, which `std::stod` throws before the length is compared. -/
theorem number_format_counterexample :
    ¬ FloatLiteral (lit "1e999-") ∧ LiteralPrefix (lit "1e999-") ∧
    deserialize (lit "1e999-")
      = .syntaxError ⟨"Failed to parse number, value out of range", 1, 49⟩ ∧
    deserialize (lit "[1e999-]")
      = .syntaxError ⟨"Failed to parse number, value out of range", 1, 49⟩ := by
  refine ⟨?_, ?_, ?_, ?_⟩
  · rw [floatLiteral_iff]
    decide
  · rw [literalPrefix_iff]
    decide
  · decide!
  · decide!

/-- C24 (amended): a run `c :: cs` of characters of the class `[0-9+-.eE]` that
starts with `-` or a digit, is followed by a text that does not continue it,
and is not in full a floating-point literal.  `parsePrimitive` throws a
`SyntaxError` with the first character of the run.  The message is "Failed to
parse number" when no literal starts the run.  When a literal starts the run,
the literal `l` that `std::stod` reads there (`scanLiteral`; it is the longest
literal the run starts with, and the result of `std::stod` is the one for `l`)
ends before the run does, and the message is
"Illegal number format." or "Failed to parse number, value out of range":
the first when the value of `l` is that of a `double` or has a magnitude from
`2^-1022` to below `2^1024 - 2^970`, the second when the magnitude is `2^1024`
or more.  The loop body throws this error in state
`S_PRE_ELEMENT` whatever node is on top of the stack, and `deserialize` throws
it for a text that starts with white space and the run: no Number comes from
a part of the run. -/
theorem number_run_refused (c : Nat) (cs rest : List Nat) (hc : c = 45 ∨ isDigit c = true)
    (hcs : cs.all isNumberChar = true) (he : endsNumber rest)
    (hl : ¬ FloatLiteral (c :: cs)) :
    ∃ msg : String,
      (¬ LiteralPrefix (c :: cs) → msg = "Failed to parse number") ∧
      (LiteralPrefix (c :: cs) → ∃ (l : Literal) (r : List Nat),
        scanLiteral (c :: cs) = some (l, r) ∧ l.wf = true ∧
        c :: cs = l.text ++ r ∧ r ≠ [] ∧
        stod (c :: cs) = l.stodResult l.text.length ∧
        (∀ (l2 : Literal) (r2 : List Nat), l2.wf = true → c :: cs = l2.text ++ r2 →
          l2.text.length ≤ l.text.length) ∧
        (msg = "Illegal number format." ∨
          msg = "Failed to parse number, value out of range") ∧
        (IsDouble l.value ∨ ((2 : ℚ) ^ (-1022 : Int) ≤ |l.value| ∧
            |l.value| < (2 : ℚ) ^ (1024 : Int) - (2 : ℚ) ^ (970 : Int)) →
          msg = "Illegal number format.") ∧
        ((2 : ℚ) ^ (1024 : Int) ≤ |l.value| →
          msg = "Failed to parse number, value out of range")) ∧
      (∀ (el : Element) (line : Int),
        (parsePrimitive (cs ++ rest) c el line).2 = .error ⟨msg, line, c⟩) ∧
      (∀ (root el : Element) (top : NodePtr) (below : List NodePtr) (key : JString)
        (line : Int), deref root top = some el →
        ∃ q, body ⟨cs ++ rest, .S_PRE_ELEMENT, root, top :: below, key, line, c⟩
          = .throw ⟨msg, line, c⟩ q) ∧
      (∀ w : List Nat, (∀ b ∈ w, isWhite b = true) →
        deserialize (w ++ c :: (cs ++ rest)) = .syntaxError ⟨msg, 1 + lineBreaks w, c⟩) := by
  obtain ⟨k1, _⟩ := stod_not_literal (c :: cs) hl
  have k2 := stod_literal_part (c :: cs) hl
  have hchar : c ≠ 47 ∧ isWhite c = false ∧ c ≠ 91 ∧ c ≠ 123 ∧ c ≠ 93 := by
    rcases hc with rfl | h
    · decide
    · have h2 : 48 ≤ c ∧ c ≤ 57 := by simpa [isDigit] using h
      refine ⟨by omega, ?_, by omega, by omega, by omega⟩
      simp only [isWhite, Bool.or_eq_false_iff, beq_eq_false_iff_ne, ne_eq]
      omega
  have key : ∃ msg : String,
      (¬ LiteralPrefix (c :: cs) → msg = "Failed to parse number") ∧
      (LiteralPrefix (c :: cs) → ∃ (l : Literal) (r : List Nat),
        scanLiteral (c :: cs) = some (l, r) ∧ l.wf = true ∧
        c :: cs = l.text ++ r ∧ r ≠ [] ∧
        stod (c :: cs) = l.stodResult l.text.length ∧
        (∀ (l2 : Literal) (r2 : List Nat), l2.wf = true → c :: cs = l2.text ++ r2 →
          l2.text.length ≤ l.text.length) ∧
        (msg = "Illegal number format." ∨
          msg = "Failed to parse number, value out of range") ∧
        (IsDouble l.value ∨ ((2 : ℚ) ^ (-1022 : Int) ≤ |l.value| ∧
            |l.value| < (2 : ℚ) ^ (1024 : Int) - (2 : ℚ) ^ (970 : Int)) →
          msg = "Illegal number format.") ∧
        ((2 : ℚ) ^ (1024 : Int) ≤ |l.value| →
          msg = "Failed to parse number, value out of range")) ∧
      (∀ (el : Element) (line : Int),
        (parsePrimitive (cs ++ rest) c el line).2 = .error ⟨msg, line, c⟩) := by
    by_cases hp : LiteralPrefix (c :: cs)
    · obtain ⟨l, r, l0, l1, l2, l3, l4, lmax, l5⟩ := k2 hp
      obtain ⟨s1, s2, s3, _⟩ := stodResult_spec l l.text.length
      rcases s1 with h | ⟨v, h, _⟩
      · refine ⟨"Failed to parse number, value out of range", fun h0 => absurd hp h0,
          fun _ => ⟨l, r, l0, l1, l2, l3, l4, lmax, Or.inr rfl, fun hr => absurd h (s2 hr),
            fun _ => rfl⟩, ?_⟩
        intro el line
        rw [parsePrimitive_run c cs rest hc hcs he, l4, h]
      · refine ⟨"Illegal number format.", fun h0 => absurd hp h0,
          fun _ => ⟨l, r, l0, l1, l2, l3, l4, lmax, Or.inl rfl, fun _ => rfl, fun hr => ?_⟩,
            ?_⟩
        · have := s3 hr
          rw [h] at this
          cases this
        · intro el line
          rw [parsePrimitive_run c cs rest hc hcs he, l4, h]
          simp only []
          rw [if_pos l5]
    · refine ⟨"Failed to parse number", fun _ => rfl, fun h0 => absurd h0 hp, ?_⟩
      intro el line
      rw [parsePrimitive_run c cs rest hc hcs he, k1 hp]
  obtain ⟨msg, m1, m2, m3⟩ := key
  refine ⟨msg, m1, m2, m3, ?_, ?_⟩
  · intro root el top below key line hd
    rw [body_pre _ _ _ _ _ _ hchar.1 hchar.2.1]
    exact preElement_throw hchar.2.2.1 hchar.2.2.2.1 hd (fun _ => hchar.2.2.2.2) (m3 _ _)
  · intro w hw
    exact primitive_error_at_start w (cs ++ rest) c _ hw hchar.1 hchar.2.1 hchar.2.2.1
      hchar.2.2.2.1 (m3 _ _)

/-- C24 (amended) at the runs `1-2` and `-`, the second behind white space and
followed by `x`, and at the run `1e999-`, where the literal that `std::stod`
reads is `1e999` and the theorem gives the message of the range error. -/
theorem number_run_refused_witness :
    ¬ FloatLiteral (lit "1-2") ∧ LiteralPrefix (lit "1-2") ∧
    deserialize (lit "1-2") = .syntaxError ⟨"Illegal number format.", 1, 49⟩ ∧
    deserialize (lit " \n-x") = .syntaxError ⟨"Failed to parse number", 2, 45⟩ ∧
    (∃ msg : String, (msg = "Illegal number format." ∨
        msg = "Failed to parse number, value out of range") ∧
      deserialize (lit "1-2") = .syntaxError ⟨msg, 1, 49⟩) ∧
    (∃ msg : String, msg = "Failed to parse number" ∧
      deserialize (lit " \n" ++ 45 :: ([] ++ lit "x")) = .syntaxError ⟨msg, 2, 45⟩) ∧
    (∃ msg : String, msg = "Failed to parse number, value out of range" ∧
      ∀ (el : Element) (line : Int),
        (parsePrimitive (lit "e999-" ++ []) 49 el line).2 = .error ⟨msg, line, 49⟩) :=
  have h1 : ¬ FloatLiteral (lit "1-2") := (floatLiteral_iff _).not.2 (by decide)
  have h2 : LiteralPrefix (lit "1-2") := (literalPrefix_iff _).2 (by decide)
  have h3 : ¬ FloatLiteral (lit "-") := (floatLiteral_iff _).not.2 (by decide)
  have h4 : ¬ LiteralPrefix (lit "-") := (literalPrefix_iff _).not.2 (by decide)
  have h5 : ¬ FloatLiteral (lit "1e999-") := (floatLiteral_iff _).not.2 (by decide)
  have h6 : LiteralPrefix (lit "1e999-") := (literalPrefix_iff _).2 (by decide)
  ⟨h1, h2, by decide!, by decide!,
    (number_run_refused 49 (lit "-2") [] (Or.inr (by decide)) (by decide)
      (fun _ _ e => by cases e) h1).elim
      (fun msg hm => ⟨msg,
        (hm.2.1 h2).elim (fun _ hx => hx.elim (fun _ hy => hy.2.2.2.2.2.2.1)),
        by simpa using hm.2.2.2.2 [] (fun _ hb => by cases hb)⟩),
    (number_run_refused 45 [] (lit "x") (Or.inl rfl) (by decide)
      (fun d r e => by cases e; decide) h3).elim
      (fun msg hm => ⟨msg, hm.1 h4, by
        have := hm.2.2.2.2 (lit " \n") (by decide)
        simpa using this⟩),
    (number_run_refused 49 (lit "e999-") [] (Or.inr (by decide)) (by decide)
      (fun _ _ e => by cases e) h5).elim
      (fun msg hm => ⟨msg, by
        obtain ⟨l, r, hs, _, _, _, _, _, _, _, hbig⟩ := hm.2.1 h6
        have e : scanLiteral (49 :: lit "e999-")
            = some (⟨[], [49], false, [], some (101, [], [57, 57, 57])⟩, [45]) := by decide
        rw [e] at hs
        simp only [Option.some.injEq, Prod.mk.injEq] at hs
        obtain ⟨hl, _⟩ := hs
        subst hl
        apply hbig
        have hv : (⟨[], [49], false, [], some (101, [], [57, 57, 57])⟩ : Literal).value
            = (10 : ℚ) ^ (999 : Int) := by
          simp [Literal.value, Literal.exponent, digitsVal]
        rw [hv]
        norm_num, hm.2.2.1⟩)⟩

/-! ## C25: the literals `null`, `true` and `false` -/

/-- The functions `parseNull`, `parseTrue` and `parseFalse` accept exactly the
rest of their literal. -/
theorem parseWord_iff (word : JString) (c : Nat) (cs : List Nat) (msg : String)
    (stream : List Nat) (line : Int) (h : word = c :: cs) :
    parseWord word msg stream line
      = if stream.take cs.length = cs then .ok ((), stream.drop cs.length)
        else .error ⟨msg, line, stream.headD 32⟩ := by
  subst h
  unfold parseWord
  simp only [List.length_cons, Nat.add_sub_cancel, List.take_succ_cons, List.take_zero,
    List.singleton_append, ne_eq, List.cons.injEq, true_and]
  by_cases ht : stream.take cs.length = cs
  · have hl : ¬ stream.length < cs.length := by
      intro hlt
      have := congrArg List.length ht
      rw [List.length_take] at this
      omega
    rw [if_pos ht, if_neg]
    rintro (h1 | h1)
    · exact hl h1
    · exact h1 ht
  · rw [if_neg ht, if_pos (Or.inr ht)]
    rfl

/-- C25: called with the first letter `n`, `t` or `f`, `parsePrimitive` assigns
Null, `true` or `false` exactly when the stream goes on with `ull`, `rue` or
`alse`; for every other continuation, the end of the input included, it throws
`Expected "null"`, `Expected "true"` or `Expected "false"` with the character
that follows the first letter (a space when there is none).  At the start of a
document `deserialize` throws this error, and in state `S_PRE_ELEMENT` the loop
body throws it whatever node is on top of the stack; `null`, `true` and `false`
are read as Null, `true` and `false`, also as the elements of an Array. -/
theorem literal_scanning :
    (∀ (stream : List Nat) (el : Element) (line : Int),
      parsePrimitive stream 110 el line
        = if stream.take 3 = lit "ull" then
            (el.assign (Element.ofType .NULL_VALUE), .ok (32, stream.drop 3))
          else (el, .error ⟨"Expected \"null\"", line, stream.headD 32⟩)) ∧
    (∀ (stream : List Nat) (el : Element) (line : Int),
      parsePrimitive stream 116 el line
        = if stream.take 3 = lit "rue" then
            (el.assign (Element.ofBool true), .ok (32, stream.drop 3))
          else (el, .error ⟨"Expected \"true\"", line, stream.headD 32⟩)) ∧
    (∀ (stream : List Nat) (el : Element) (line : Int),
      parsePrimitive stream 102 el line
        = if stream.take 4 = lit "alse" then
            (el.assign (Element.ofBool false), .ok (32, stream.drop 4))
          else (el, .error ⟨"Expected \"false\"", line, stream.headD 32⟩)) ∧
    (∀ (w stream : List Nat), (∀ b ∈ w, isWhite b = true) →
      (stream.take 3 ≠ lit "ull" → deserialize (w ++ 110 :: stream)
        = .syntaxError ⟨"Expected \"null\"", 1 + lineBreaks w, stream.headD 32⟩) ∧
      (stream.take 3 ≠ lit "rue" → deserialize (w ++ 116 :: stream)
        = .syntaxError ⟨"Expected \"true\"", 1 + lineBreaks w, stream.headD 32⟩) ∧
      (stream.take 4 ≠ lit "alse" → deserialize (w ++ 102 :: stream)
        = .syntaxError ⟨"Expected \"false\"", 1 + lineBreaks w, stream.headD 32⟩)) ∧
    (∀ (s : List Nat) (root el : Element) (top : NodePtr) (below : List NodePtr)
      (key : JString) (line : Int) (c : Nat) (e : SyntaxError),
      (c = 110 ∨ c = 116 ∨ c = 102) → deref root top = some el →
      (parsePrimitive s c (Element.ofType .NULL_VALUE) line).2 = .error e →
      ∃ q, body ⟨s, .S_PRE_ELEMENT, root, top :: below, key, line, c⟩ = .throw e q) ∧
    deserialize (lit "null") = .value (Element.ofType .NULL_VALUE) ∧
    deserialize (lit "true") = .value (Element.ofBool true) ∧
    deserialize (lit "false") = .value (Element.ofBool false) ∧
    deserialize (lit "[null,true,false]")
      = .value (.mk .ARRAY [] [Element.ofType .NULL_VALUE, Element.ofBool true,
          Element.ofBool false] [] Number.zero false) ∧
    deserialize (lit "n") = .syntaxError ⟨"Expected \"null\"", 1, 32⟩ ∧
    deserialize (lit "nul") = .syntaxError ⟨"Expected \"null\"", 1, 117⟩ ∧
    deserialize (lit "nulL") = .syntaxError ⟨"Expected \"null\"", 1, 117⟩ ∧
    deserialize (lit "[tru]") = .syntaxError ⟨"Expected \"true\"", 1, 114⟩ ∧
    deserialize (lit "\x7b\"a\":fals\x7d") = .syntaxError ⟨"Expected \"false\"", 1, 97⟩ := by
  have hn : ∀ (stream : List Nat) (el : Element) (line : Int),
      parsePrimitive stream 110 el line
        = if stream.take 3 = lit "ull" then
            (el.assign (Element.ofType .NULL_VALUE), .ok (32, stream.drop 3))
          else (el, .error ⟨"Expected \"null\"", line, stream.headD 32⟩) := by
    intro stream el line
    unfold parsePrimitive parseNull
    rw [parseWord_iff (lit "null") 110 (lit "ull") _ stream line rfl]
    by_cases h : stream.take 3 = lit "ull"
    · simp only [show (lit "ull").length = 3 from rfl, h, if_true]
      rfl
    · simp only [show (lit "ull").length = 3 from rfl, h, if_false]
      rfl
  have ht : ∀ (stream : List Nat) (el : Element) (line : Int),
      parsePrimitive stream 116 el line
        = if stream.take 3 = lit "rue" then
            (el.assign (Element.ofBool true), .ok (32, stream.drop 3))
          else (el, .error ⟨"Expected \"true\"", line, stream.headD 32⟩) := by
    intro stream el line
    unfold parsePrimitive parseTrue
    rw [parseWord_iff (lit "true") 116 (lit "rue") _ stream line rfl]
    by_cases h : stream.take 3 = lit "rue"
    · simp only [show (lit "rue").length = 3 from rfl, h, if_true]
      rfl
    · simp only [show (lit "rue").length = 3 from rfl, h, if_false]
      rfl
  have hf : ∀ (stream : List Nat) (el : Element) (line : Int),
      parsePrimitive stream 102 el line
        = if stream.take 4 = lit "alse" then
            (el.assign (Element.ofBool false), .ok (32, stream.drop 4))
          else (el, .error ⟨"Expected \"false\"", line, stream.headD 32⟩) := by
    intro stream el line
    unfold parsePrimitive parseFalse
    rw [parseWord_iff (lit "false") 102 (lit "alse") _ stream line rfl]
    by_cases h : stream.take 4 = lit "alse"
    · simp only [show (lit "alse").length = 4 from rfl, h, if_true]
      rfl
    · simp only [show (lit "alse").length = 4 from rfl, h, if_false]
      rfl
  refine ⟨hn, ht, hf, ?_, ?_, ?_, ?_, ?_, ?_, ?_, ?_, ?_, ?_, ?_⟩
  · intro w stream hw
    refine ⟨?_, ?_, ?_⟩
    · intro h
      refine primitive_error_at_start w stream 110 _ hw (by decide) (by decide) (by decide)
        (by decide) ?_
      rw [hn, if_neg h]
    · intro h
      refine primitive_error_at_start w stream 116 _ hw (by decide) (by decide) (by decide)
        (by decide) ?_
      rw [ht, if_neg h]
    · intro h
      refine primitive_error_at_start w stream 102 _ hw (by decide) (by decide) (by decide)
        (by decide) ?_
      rw [hf, if_neg h]
  · intro s root el top below key line c e hc hd hp
    have h4 : c ≠ 47 ∧ isWhite c = false ∧ c ≠ 91 ∧ c ≠ 123 ∧ c ≠ 93 := by
      rcases hc with rfl | rfl | rfl <;> decide
    rw [body_pre _ _ _ _ _ _ h4.1 h4.2.1]
    exact preElement_throw h4.2.2.1 h4.2.2.2.1 hd (fun _ => h4.2.2.2.2) hp
  all_goals decide!

/-! ## C26: numbers that are not finite -/

/-- C26: a Number that is not finite is written as `null`, at every indent, so at
the root and inside an Array or Object, in both modes; a finite Number is
never written as `null`. -/
theorem nonfinite_renders_null :
    (∀ (n : Number) (o : JObject) (a : JArray) (s : JString) (b : Bool) (indent : Int),
      n.isfinite = false → serialize (.mk .NUMBER o a s n b) indent = lit "null") ∧
    (∀ (n : Number) (mode : Bool), n.isfinite = false →
      serializeToString (Element.ofNumber n) mode = lit "null" ∧
      serializeToString (Element.ofArray [Element.ofNumber n]) mode
        = (if mode then lit "[\n  null\n]" else lit "[ null ]") ∧
      serializeToString (Element.ofObject [(lit "k", Element.ofNumber n)]) mode
        = (if mode then lit "\x7b\n  \"k\": null\n\x7d" else lit "\x7b \"k\": null \x7d")) ∧
    (∀ (n : Number) (o : JObject) (a : JArray) (s : JString) (b : Bool) (indent : Int),
      n.isfinite = true → serialize (.mk .NUMBER o a s n b) indent ≠ lit "null") ∧
    serializeToString (Element.ofNumber .nan) false = lit "null" ∧
    serializeToString (Element.ofNumber (.infinite false)) true = lit "null" ∧
    serializeToString (Element.ofNumber (.infinite true)) false = lit "null" ∧
    serializeToString (Element.ofNumber Number.zero) false = lit "0" := by
  have h1 : ∀ (n : Number) (o : JObject) (a : JArray) (s : JString) (b : Bool) (indent : Int),
      n.isfinite = false → serialize (.mk .NUMBER o a s n b) indent = lit "null" := by
    intro n o a s b indent hn
    rw [serialize]
    simp [hn]
  refine ⟨h1, ?_, ?_, ?_, ?_, ?_, ?_⟩
  · intro n mode hn
    have e : ∀ indent : Int, serialize (Element.ofNumber n) indent = lit "null" :=
      fun indent => h1 n [] [] [] false indent hn
    have ec : Element.assign (Element.ofType .NULL_VALUE) (Element.ofNumber n)
        = Element.ofNumber n := by
      simp [Element.ofNumber, Element.assign]
    refine ⟨e _, ?_, ?_⟩
    · cases mode
      · simp only [serializeToString, Element.ofArray, Element.copyArray, ec]
        rw [serialize]
        simp [serializeItems, e, lit, spaces]
      · simp only [serializeToString, Element.ofArray, Element.copyArray, ec]
        rw [serialize]
        simp [serializeItems, e, lit, spaces]
    · cases mode
      · simp only [serializeToString, Element.ofObject, Element.copyObject, ec]
        rw [serialize]
        simp [serializeMembers, lastKey, e, lit, spaces]
      · simp only [serializeToString, Element.ofObject, Element.copyObject, ec]
        rw [serialize]
        simp [serializeMembers, lastKey, e, lit, spaces]
  · intro n o a s b indent hn h
    rw [serialize] at h
    simp only [hn, if_true] at h
    simp only [show ¬ ElemType.NUMBER = .NULL_VALUE by decide,
      show ¬ ElemType.NUMBER = .BOOLEAN by decide, show ¬ ElemType.NUMBER = .STRING by decide,
      if_false, if_true] at h
    have hc := (showNumber_chars n hn).2 110 (by rw [h]; decide)
    exact absurd hc (by decide)
  all_goals decide

/-! ## C27: the compact text on one line -/

theorem oneLine_append (a b : List Nat) : oneLine (a ++ b) = (oneLine a && oneLine b) := by
  simp [oneLine, List.all_append]

theorem oneLine_iff (t : List Nat) : oneLine t = true ↔ ∀ c ∈ t, c ≠ 10 ∧ c ≠ 13 := by
  simp [oneLine, List.all_eq_true]

theorem hexDigits_ge : ∀ (fuel n : Nat), ∀ c ∈ hexDigits fuel n, 48 ≤ c
  | 0, _, c, h => by simp [hexDigits] at h
  | fuel + 1, n, c, h => by
    rw [hexDigits] at h
    have hc : ∀ d, 48 ≤ hexChar d := by
      intro d
      unfold hexChar
      split <;> omega
    split at h
    · rw [List.mem_singleton] at h
      rw [h]
      exact hc n
    · rcases List.mem_append.1 h with h | h
      · exact hexDigits_ge fuel _ c h
      · rw [List.mem_singleton] at h
        rw [h]
        exact hc _

/-- What `serializeString` writes for a character holds no line break. -/
theorem oneLine_serializeChar (c : Nat) : oneLine (serializeChar c) = true := by
  rw [oneLine_iff]
  intro x hx
  unfold serializeChar at hx
  split at hx
  · revert x; decide
  · split at hx
    · revert x; decide
    · split at hx
      · revert x; decide
      · split at hx
        · revert x; decide
        · split at hx
          · revert x; decide
          · split at hx
            · revert x; decide
            · split at hx
              · revert x; decide
              · split at hx
                · rcases List.mem_append.1 hx with h | h
                  · have hu : ∀ y ∈ lit "\\u", y ≠ 10 ∧ y ≠ 13 := by decide
                    exact hu x h
                  · unfold showHex4 at h
                    rcases List.mem_append.1 h with h | h
                    · rw [List.mem_replicate] at h
                      rw [h.2]
                      decide
                    · have := hexDigits_ge _ _ x h
                      omega
                · rw [List.mem_singleton] at hx
                  subst hx
                  rename_i _ _ h1 h2 _ _ _ _
                  exact ⟨h1, h2⟩

theorem oneLine_serializeChars : ∀ (s : JString), oneLine (serializeChars s) = true
  | [] => rfl
  | c :: rest => by
    rw [serializeChars, oneLine_append, oneLine_serializeChar, oneLine_serializeChars rest]
    rfl

theorem oneLine_showNumber (n : Number) (h : n.isfinite = true) :
    oneLine (showNumber n) = true := by
  rw [oneLine_iff]
  intro c hc
  have := (showNumber_chars n h).2 c hc
  constructor
  · rintro rfl
    exact absurd this (by decide)
  · rintro rfl
    exact absurd this (by decide)

mutual
theorem serialize_oneLine : ∀ (x : Element) (i : Int), i < 0 → x.oneLineKeys = true →
    oneLine (serialize x i) = true
  | .mk t o a s n b, i, hi, hk => by
    rw [serialize]
    cases t with
    | NULL_VALUE => simp [lit, oneLine]
    | BOOLEAN => cases b <;> simp [lit, oneLine]
    | STRING =>
      simp only [show ¬ ElemType.STRING = .NULL_VALUE by decide,
        show ¬ ElemType.STRING = .BOOLEAN by decide, if_false, if_true, serializeString,
        Element._string, oneLine_append, oneLine_serializeChars]
      rfl
    | NUMBER =>
      simp only [show ¬ ElemType.NUMBER = .NULL_VALUE by decide,
        show ¬ ElemType.NUMBER = .BOOLEAN by decide, show ¬ ElemType.NUMBER = .STRING by decide,
        if_false, if_true]
      cases hn : n.isfinite with
      | true => simpa using oneLine_showNumber n hn
      | false => simp [lit, oneLine]
    | OBJECT =>
      have hm : oneLineKeysMembers o = true := by simpa [Element.oneLineKeys] using hk
      have := serializeMembers_oneLine o (lastKey o) i hi hm
      simp only [show ¬ ElemType.OBJECT = .NULL_VALUE by decide,
        show ¬ ElemType.OBJECT = .BOOLEAN by decide, show ¬ ElemType.OBJECT = .STRING by decide,
        show ¬ ElemType.OBJECT = .NUMBER by decide, if_false, if_true, hi]
      split
      · simp [lit, oneLine]
      · simp only [oneLine_append, this, spaces]
        simp [oneLine]
    | ARRAY =>
      have hm : oneLineKeysItems a = true := by simpa [Element.oneLineKeys] using hk
      have := serializeItems_oneLine a i hi hm
      simp only [show ¬ ElemType.ARRAY = .NULL_VALUE by decide,
        show ¬ ElemType.ARRAY = .BOOLEAN by decide, show ¬ ElemType.ARRAY = .STRING by decide,
        show ¬ ElemType.ARRAY = .NUMBER by decide, show ¬ ElemType.ARRAY = .OBJECT by decide,
        if_false, if_true, hi]
      split
      · simp [lit, oneLine]
      · simp only [oneLine_append, this]
        simp [oneLine]
theorem serializeItems_oneLine : ∀ (xs : List Element) (i : Int), i < 0 →
    oneLineKeysItems xs = true → oneLine (serializeItems xs i) = true
  | [], _, _, _ => by simp [serializeItems, oneLine]
  | x :: rest, i, hi, hk => by
    rw [oneLineKeysItems, Bool.and_eq_true] at hk
    have hx := serialize_oneLine x (-2) (by omega) hk.1
    have hr := serializeItems_oneLine rest i hi hk.2
    rw [serializeItems]
    simp only [hi, if_true, oneLine_append, hx, hr]
    cases rest <;> simp [oneLine]
theorem serializeMembers_oneLine : ∀ (ms : JObject) (last : JString) (i : Int), i < 0 →
    oneLineKeysMembers ms = true → oneLine (serializeMembers ms last i) = true
  | [], _, _, _, _ => by simp [serializeMembers, oneLine]
  | (k, x) :: rest, last, i, hi, hk => by
    rw [oneLineKeysMembers, Bool.and_eq_true, Bool.and_eq_true] at hk
    have hx := serialize_oneLine x (-2) (by omega) hk.1.2
    have hr := serializeMembers_oneLine rest last i hi hk.2
    rw [serializeMembers]
    simp only [hi, if_true, oneLine_append, hx, hr, hk.1.1, spaces]
    by_cases hl : k = last <;> simp [hl, oneLine, lit]
end

/-- C27 fails for a key with a line break: `serialize` writes the keys of an
Object as they are, without the escapes of `serializeString`.  The text
`{"a\nb":1}` with the escape `\n` in the key parses to an Object whose key
holds a line feed, and its compact text holds this line feed.  For every value
whose keys hold no line feed and no carriage return, the compact text holds
neither. -/
theorem compact_single_line :
    deserialize (lit "\x7b\"a\\nb\":1\x7d")
      = .value (.mk .OBJECT [(lit "a\nb", Element.ofNumber (.finite false 1 0))] [] []
          Number.zero false) ∧
    serializeToString (.mk .OBJECT [(lit "a\nb", Element.ofNumber (.finite false 1 0))] [] []
        Number.zero false) false = lit "\x7b \"a\nb\": 1 \x7d" ∧
    10 ∈ serializeToString (.mk .OBJECT [(lit "a\nb", Element.ofNumber (.finite false 1 0))]
        [] [] Number.zero false) false ∧
    (∀ D : Element, D.oneLineKeys = true →
      ∀ c ∈ serializeToString D false, c ≠ 10 ∧ c ≠ 13) := by
  refine ⟨by decide!, by decide, by decide, ?_⟩
  intro D hD
  exact (oneLine_iff _).1 (serialize_oneLine D (-1) (by decide) hD)

/-! ## C28: type identifiers -/

theorem firstRequests_extends : ∀ (calls seen : List Nat), seen <+: firstRequests calls seen
  | [], seen => List.prefix_refl _
  | T :: rest, seen => by
    rw [firstRequests]
    by_cases h : T ∈ seen
    · rw [if_pos h]
      exact firstRequests_extends rest seen
    · rw [if_neg h]
      exact (List.prefix_append seen [T]).trans (firstRequests_extends rest _)

theorem indexOf_of_extends {l m : List Nat} (h : l <+: m) {T : Nat} (hT : T ∈ l) :
    m.indexOf T = l.indexOf T := by
  obtain ⟨r, rfl⟩ := h
  exact List.indexOf_append_of_mem hT

/-- The static variables after the instantiations `seen` have been requested, in
this order: the counter stands at their number and the `id` of the one
requested as number `i + 1` is `i + 1`. -/
theorem typeIdCalls_eq : ∀ (calls seen : List Nat) (st : TypeIds),
    st.lastId = seen.length →
    (∀ T, st.ids.lookup T = if T ∈ seen then some (seen.indexOf T + 1) else none) →
    (firstRequests calls seen).length < 2 ^ 32 →
    typeIdCalls calls st = calls.map (fun T => (firstRequests calls seen).indexOf T + 1)
  | [], _, _, _, _, _ => rfl
  | T :: rest, seen, st, h1, h2, h3 => by
    rw [typeIdCalls, List.map_cons, firstRequests]
    rw [firstRequests] at h3
    by_cases hT : T ∈ seen
    · rw [if_pos hT] at h3 ⊢
      have e : type_id T st = (seen.indexOf T + 1, st) := by
        unfold type_id
        rw [h2 T, if_pos hT]
      rw [e]
      simp only
      rw [typeIdCalls_eq rest seen st h1 h2 h3,
        indexOf_of_extends (firstRequests_extends rest seen) hT]
    · rw [if_neg hT] at h3 ⊢
      have hlen : seen.length + 1 < 2 ^ 32 := by
        have := (firstRequests_extends rest (seen ++ [T])).length_le
        rw [List.length_append, List.length_singleton] at this
        omega
      have hn : (st.lastId + 1) % 2 ^ 32 = seen.length + 1 := by
        rw [h1]
        exact Nat.mod_eq_of_lt hlen
      have e : type_id T st
          = (seen.length + 1, ⟨seen.length + 1, (T, seen.length + 1) :: st.ids⟩) := by
        unfold type_id
        rw [h2 T, if_neg hT]
        simp only [TypeIdGenerator.next, hn]
      rw [e]
      simp only
      have hmem : T ∈ seen ++ [T] := by simp
      have hidx : (seen ++ [T]).indexOf T = seen.length := by
        rw [List.indexOf_append_of_not_mem hT]
        simp
      rw [typeIdCalls_eq rest (seen ++ [T]) ⟨seen.length + 1, (T, seen.length + 1) :: st.ids⟩
        (by simp) ?_ h3,
        indexOf_of_extends (firstRequests_extends rest (seen ++ [T])) hmem, hidx]
      intro U
      simp only [List.lookup_cons]
      by_cases hU : U = T
      · subst hU
        simp [hidx]
      · have hb : (U == T) = false := by simpa using hU
        rw [hb]
        simp only
        rw [h2 U]
        by_cases hUs : U ∈ seen
        · rw [if_pos hUs, if_pos (List.mem_append_left _ hUs), List.indexOf_append_of_mem hUs]
        · rw [if_neg hUs, if_neg]
          simp [hUs, hU]

/-- The identifiers of instantiations: the counter starts at 0 and is incremented
before each hand-out.  For every sequence of calls in which fewer than `2^32`
different instantiations are requested, the call of the instantiation `T`
returns one more than the position of `T` in the order of first requests: the
identifiers handed out are 1, 2, 3, ... in this order.  So no call returns 0,
and two calls return the same value exactly when they are calls of the same
instantiation. -/
theorem type_id_values (calls : List Nat) (h : (firstRequests calls []).length < 2 ^ 32) :
    TypeIds.start.lastId = 0 ∧
    typeIdCalls calls TypeIds.start
      = calls.map (fun T => (firstRequests calls []).indexOf T + 1) ∧
    (∀ a ∈ typeIdCalls calls TypeIds.start, a ≠ 0) ∧
    (∀ (i j X Y a b : Nat), calls.get? i = some X → calls.get? j = some Y →
      (typeIdCalls calls TypeIds.start).get? i = some a →
      (typeIdCalls calls TypeIds.start).get? j = some b → (a = b ↔ X = Y)) := by
  have e := typeIdCalls_eq calls [] TypeIds.start rfl (fun T => by simp [TypeIds.start]) h
  have hsub : ∀ T ∈ calls, T ∈ firstRequests calls [] := by
    have gen : ∀ (cs seen : List Nat) (T : Nat), T ∈ cs ∨ T ∈ seen →
        T ∈ firstRequests cs seen := by
      intro cs
      induction cs with
      | nil =>
        intro seen T hT
        rcases hT with hT | hT
        · cases hT
        · exact hT
      | cons U rest ih =>
        intro seen T hT
        rw [firstRequests]
        apply ih
        rcases hT with hT | hT
        · rcases List.mem_cons.1 hT with rfl | hT
          · right
            by_cases hs : T ∈ seen
            · rw [if_pos hs]; exact hs
            · rw [if_neg hs]; simp
          · exact Or.inl hT
        · right
          by_cases hs : U ∈ seen
          · rw [if_pos hs]; exact hT
          · rw [if_neg hs]; exact List.mem_append_left _ hT
    intro T hT
    exact gen calls [] T (Or.inl hT)
  refine ⟨rfl, e, ?_, ?_⟩
  · intro a ha
    rw [e] at ha
    obtain ⟨T, _, rfl⟩ := List.mem_map.1 ha
    exact Nat.succ_ne_zero _
  · intro i j X Y a b hX hY ha hb
    rw [e, List.get?_eq_getElem?, List.getElem?_map, ← List.get?_eq_getElem?, hX] at ha
    rw [e, List.get?_eq_getElem?, List.getElem?_map, ← List.get?_eq_getElem?, hY] at hb
    simp only [Option.map_some', Option.some.injEq] at ha hb
    subst ha hb
    constructor
    · intro hab
      have hab1 : (firstRequests calls []).indexOf X = (firstRequests calls []).indexOf Y := by
        omega
      have hXm := hsub X (List.get?_mem hX)
      have hYm := hsub Y (List.get?_mem hY)
      have h3 := List.indexOf_get (List.indexOf_lt_length.2 hXm)
      have h4 := List.indexOf_get (List.indexOf_lt_length.2 hYm)
      rw [← h3, ← h4]
      congr 1
      exact Fin.ext hab1
    · intro hXY
      rw [hXY]

/-- The calls of the test, made in one translation unit: `X`, `Y`, `X`, `Y`, `X` get
1, 2, 1, 2, 1. -/
theorem type_id_values_witness :
    (firstRequests [7, 9, 7, 9, 7] []).length < 2 ^ 32 ∧
    typeIdCalls [7, 9, 7, 9, 7] TypeIds.start = [1, 2, 1, 2, 1] :=
  ⟨by decide, (type_id_values [7, 9, 7, 9, 7] (by decide)).2.1.trans (by decide)⟩

/-- C28: `type_id<X>()` does not return one value in every call: the template is
declared `static`, so the calls in two translation units run two instantiations,
each with a static `id` set from the one counter, and the second unit gets
another identifier for the same type `X` (1 and then 2 for the first two calls
of a program; 1, 2, 1 when the first unit calls again).  What holds is the claim
for the calls of one translation unit: the counter starts at 0 and is
incremented before each hand-out, and in every sequence of calls in which fewer
than `2^32` different instantiations are requested, the call for a type in a
unit returns one more than the position of this instantiation in the order of
first requests, so no call returns 0 and two calls return the same value exactly
when they are calls for the same type in the same translation unit. -/
theorem type_id_per_unit :
    (∀ u1 u2 X : Nat, u1 ≠ u2 → typeIdRun [⟨u1, X⟩, ⟨u2, X⟩] = [1, 2]) ∧
    typeIdRun [⟨0, 7⟩, ⟨1, 7⟩, ⟨0, 7⟩] = [1, 2, 1] ∧
    TypeIds.start.lastId = 0 ∧
    (∀ calls : List TypeIdCall,
      (firstRequests (calls.map TypeIdCall.instantiation) []).length < 2 ^ 32 →
      typeIdRun calls = calls.map (fun c =>
        (firstRequests (calls.map TypeIdCall.instantiation) []).indexOf c.instantiation + 1) ∧
      (∀ a ∈ typeIdRun calls, a ≠ 0) ∧
      (∀ (i j : Nat) (c d : TypeIdCall) (a b : Nat),
        calls.get? i = some c → calls.get? j = some d →
        (typeIdRun calls).get? i = some a → (typeIdRun calls).get? j = some b →
        (a = b ↔ c.unit = d.unit ∧ c.type = d.type))) := by
  refine ⟨?_, by decide, rfl, ?_⟩
  · intro u1 u2 X hu
    have hp : Nat.pair u2 X ≠ Nat.pair u1 X := by
      intro h
      exact hu (Nat.pair_eq_pair.1 h).1.symm
    have hb : (Nat.pair u2 X == Nat.pair u1 X) = false := by simpa using hp
    simp [typeIdRun, typeIdCalls, type_id, TypeIds.start, TypeIdGenerator.next,
      TypeIdCall.instantiation, List.lookup, hb]
  · intro calls h
    obtain ⟨_, e, h0, hij⟩ := type_id_values (calls.map TypeIdCall.instantiation) h
    refine ⟨?_, h0, ?_⟩
    · rw [typeIdRun, e, List.map_map]
      rfl
    · intro i j c d a b hc hd ha hb
      have hc1 : (calls.map TypeIdCall.instantiation).get? i = some c.instantiation := by
        rw [List.get?_eq_getElem?, List.getElem?_map, ← List.get?_eq_getElem?, hc]
        rfl
      have hd1 : (calls.map TypeIdCall.instantiation).get? j = some d.instantiation := by
        rw [List.get?_eq_getElem?, List.getElem?_map, ← List.get?_eq_getElem?, hd]
        rfl
      rw [hij i j _ _ a b hc1 hd1 ha hb]
      exact Nat.pair_eq_pair

/-! ## C29: the number of arguments of a bound method -/

theorem leafCount_eq {α : Type} : ∀ (idx count : Nat) (args : List α),
    args.length = idx + 1 → Binder.leafCount idx count args = count + idx + 1
  | 0, count, _, _ => rfl
  | idx + 1, count, [], h => by cases h
  | idx + 1, count, _ :: rest, h => by
    rw [Binder.leafCount, leafCount_eq idx (count + 1) rest (by simpa using h)]
    omega

/-- The `Caller` that `MethodReflector::call` reaches counts the parameters of
the method. -/
theorem count_eq {α : Type} (args : List α) : MethodReflector.count args = args.length := by
  cases args with
  | nil => rfl
  | cons a rest =>
    unfold MethodReflector.count
    simp only [List.length_cons, Nat.add_sub_cancel]
    rw [leafCount_eq rest.length 0 (a :: rest) rfl]
    omega

/-- C29: a bound method with `N` parameters, called with an Array of `k`
arguments.  When `k ≠ N`, the call throws the `TypeError` with the message
"TypeError: Incorrect number of arguments." and leaves the instance as it was,
whatever the conversions of the arguments and the method would do; when
`k = N`, `validate` passes and the call is the conversions followed by the
method.  The error has a message and the expected type `NULL_VALUE` of the
constructor; the `TypeError` of a typed accessor has no message and the
accessor's type as its expected type, so the two differ, also in `what()`. -/
theorem argument_count {β σ : Type} (m : Method β σ) (args : JArray) (inst : σ) :
    MethodReflector.count m.params = m.params.length ∧
    (Caller.validate m.params.length args.length
        = .error (TypeError.ofMsg "TypeError: Incorrect number of arguments.")
      ↔ args.length ≠ m.params.length) ∧
    (args.length ≠ m.params.length →
      MethodReflector.call m args inst
        = (.error (TypeError.ofMsg "TypeError: Incorrect number of arguments."), inst)) ∧
    (args.length = m.params.length →
      MethodReflector.call m args inst
        = match Caller.getAll args m.params.length m.params 0 with
          | .error e => (.error e, inst)
          | .ok vs => m.run vs inst) ∧
    (TypeError.ofMsg "TypeError: Incorrect number of arguments.").msg
      = some "TypeError: Incorrect number of arguments." ∧
    (TypeError.ofMsg "TypeError: Incorrect number of arguments.").expected = .NULL_VALUE ∧
    (TypeError.ofMsg "TypeError: Incorrect number of arguments.").what
      = "TypeError: Incorrect number of arguments." ∧
    (∀ (v : Element) (err : TypeError),
      (v.object = .error err ∨ v.array = .error err ∨ v.str = .error err ∨
        v.number = .error err ∨ v.boolean = .error err) →
      err.msg = none ∧ err.expected ≠ .NULL_VALUE ∧
      err ≠ TypeError.ofMsg "TypeError: Incorrect number of arguments." ∧
      err.what ≠ (TypeError.ofMsg "TypeError: Incorrect number of arguments.").what) := by
  refine ⟨count_eq _, ?_, ?_, ?_, rfl, rfl, rfl, ?_⟩
  · unfold Caller.validate
    by_cases h : args.length = m.params.length
    · simp [h]
    · simp [h]
  · intro h
    unfold MethodReflector.call Caller.validate
    rw [count_eq, if_pos h]
  · intro h
    unfold MethodReflector.call Caller.validate
    rw [count_eq, if_neg (by simpa using h)]
  · intro v err h
    have key : ∀ T : ElemType, T ≠ .NULL_VALUE → err = TypeError.ofType T →
        err.msg = none ∧ err.expected ≠ .NULL_VALUE ∧
        err ≠ TypeError.ofMsg "TypeError: Incorrect number of arguments." ∧
        err.what ≠ (TypeError.ofMsg "TypeError: Incorrect number of arguments.").what := by
      intro T hT e
      subst e
      refine ⟨rfl, hT, ?_, ?_⟩
      · intro hh
        have := congrArg TypeError.msg hh
        cases this
      · cases T <;> decide
    rcases h with h | h | h | h | h
    · unfold Element.object at h
      split at h
      · cases h; exact key _ (by decide) rfl
      · cases h
    · unfold Element.array at h
      split at h
      · cases h; exact key _ (by decide) rfl
      · cases h
    · unfold Element.str at h
      split at h
      · cases h; exact key _ (by decide) rfl
      · cases h
    · unfold Element.number at h
      split at h
      · cases h; exact key _ (by decide) rfl
      · cases h
    · unfold Element.boolean at h
      split at h
      · cases h; exact key _ (by decide) rfl
      · cases h

/-! ## C30: closing brackets -/

/-- A `]` read by the loop while the node on top of the stack is not an Array
ends the run with a `SyntaxError`, in every state. -/
theorem close_array_refused (s : List Nat) (st : State) (root el : Element) (top : NodePtr)
    (below : List NodePtr) (key : JString) (line : Int) (c0 : Nat)
    (hd : deref root top = some el) (ha : el.isArray = false) :
    ∃ e q, Halts ⟨93 :: s, st, root, top :: below, key, line, c0⟩ (.throw e q) := by
  have hb : ∃ e q, body ⟨s, st, root, top :: below, key, line, 93⟩ = .throw e q := by
    rw [body_state (show (93 : Nat) ≠ 47 by decide) (show isWhite 93 = false by decide)]
    cases st with
    | S_PRE_KEY =>
      exact ⟨⟨"Expected key or closing bracket.", line, 93⟩,
        ⟨s, .S_PRE_KEY, root, top :: below, key, line, 93⟩, by simp⟩
    | S_PRE_SEP =>
      exact ⟨⟨"Expected ':' separating key and value.", line, 93⟩,
        ⟨s, .S_PRE_SEP, root, top :: below, key, line, 93⟩, by simp⟩
    | S_PRE_ELEMENT =>
      obtain ⟨q, hq⟩ := @preElement_throw s .S_PRE_ELEMENT root el top below key line 93
        ⟨"Primitive must be one of null, true, false, number or quoted string.", line, 93⟩
        (show (93 : Nat) ≠ 91 by decide) (show (93 : Nat) ≠ 123 by decide) hd
        (fun h => by rw [ha] at h; cases h) (by simp [parsePrimitive])
      exact ⟨_, q, hq⟩
    | S_POST_ELEMENT =>
      refine ⟨⟨"Token ']' is illegal inside object.", line, 93⟩,
        ⟨s, .S_POST_ELEMENT, root, top :: below, key, line, 93⟩, ?_⟩
      simp only [postElement, hd, ha]
      simp
  obtain ⟨e, q, hb⟩ := hb
  exact ⟨e, q, halts_of_body_throw c0 hb⟩

/-- A `}` read by the loop while the node on top of the stack is not an Object
ends the run with a `SyntaxError`, in every state. -/
theorem close_object_refused (s : List Nat) (st : State) (root el : Element) (top : NodePtr)
    (below : List NodePtr) (key : JString) (line : Int) (c0 : Nat)
    (hd : deref root top = some el) (ho : el.isObject = false) :
    ∃ e q, Halts ⟨125 :: s, st, root, top :: below, key, line, c0⟩ (.throw e q) := by
  have hpost1 : body ⟨s, .S_POST_ELEMENT, root, top :: below, key, line, 125⟩
      = .throw ⟨"Token '\x7d' is illegal inside array.", line, 125⟩
          ⟨s, .S_POST_ELEMENT, root, top :: below, key, line, 125⟩ := by
    rw [body_state (show (125 : Nat) ≠ 47 by decide) (show isWhite 125 = false by decide)]
    simp only [postElement, hd, ho]
    simp
  cases st with
  | S_PRE_KEY =>
    refine ⟨⟨"Token '\x7d' is illegal inside array.", line, 125⟩,
      ⟨s, .S_POST_ELEMENT, root, top :: below, key, line, 125⟩, 3, ?_, by intro hh; cases hh⟩
    rw [whileRead_cons 2 _ 125 s rfl, redo_succ]
    have hb : body ⟨s, .S_PRE_KEY, root, top :: below, key, line, 125⟩
        = .redo ⟨s, .S_POST_ELEMENT, root, top :: below, key, line, 125⟩ := by
      rw [body_state (show (125 : Nat) ≠ 47 by decide) (show isWhite 125 = false by decide)]
      simp
    simp only [hb, Next.run]
    rw [redo_succ, hpost1]
    rfl
  | S_PRE_SEP =>
    have hb : body ⟨s, .S_PRE_SEP, root, top :: below, key, line, 125⟩
        = .throw ⟨"Expected ':' separating key and value.", line, 125⟩
            ⟨s, .S_PRE_SEP, root, top :: below, key, line, 125⟩ := by
      rw [body_state (show (125 : Nat) ≠ 47 by decide) (show isWhite 125 = false by decide)]
      simp
    exact ⟨_, _, halts_of_body_throw c0 hb⟩
  | S_PRE_ELEMENT =>
    obtain ⟨q, hq⟩ := @preElement_throw s .S_PRE_ELEMENT root el top below key line 125
      ⟨"Primitive must be one of null, true, false, number or quoted string.", line, 125⟩
      (show (125 : Nat) ≠ 91 by decide) (show (125 : Nat) ≠ 123 by decide) hd
      (fun _ => by decide) (by simp [parsePrimitive])
    have hb : body ⟨s, .S_PRE_ELEMENT, root, top :: below, key, line, 125⟩
        = .throw ⟨"Primitive must be one of null, true, false, number or quoted string.",
            line, 125⟩ q := by
      rw [body_state (show (125 : Nat) ≠ 47 by decide) (show isWhite 125 = false by decide)]
      exact hq
    exact ⟨_, q, halts_of_body_throw c0 hb⟩
  | S_POST_ELEMENT => exact ⟨_, _, halts_of_body_throw c0 hpost1⟩

/-- C30: behind a complete element (state `S_POST_ELEMENT`) a `]` is accepted
exactly when the node on top of the stack is an Array, and a `}` exactly when
it is an Object; otherwise the loop throws "Token ']' is illegal inside
object." or "Token '}' is illegal inside array.", and "Input after end." when
the stack is empty.  In every state, a `]` read while the top of the stack is
not an Array, or a `}` read while it is not an Object, ends the run with a
`SyntaxError`, so no text in which the loop comes to such a bracket parses.
`[1}` and `{"a":1]` fail with the two messages. -/
theorem brackets_match :
    (∀ (s : List Nat) (st : State) (root el : Element) (top : NodePtr) (below : List NodePtr)
      (key : JString) (line : Int), deref root top = some el →
      postElement ⟨s, st, root, top :: below, key, line, 93⟩
        = if el.isArray then .continue_ ⟨s, .S_POST_ELEMENT, root, below, key, line, 93⟩
          else .throw ⟨"Token ']' is illegal inside object.", line, 93⟩
            ⟨s, st, root, top :: below, key, line, 93⟩) ∧
    (∀ (s : List Nat) (st : State) (root el : Element) (top : NodePtr) (below : List NodePtr)
      (key : JString) (line : Int), deref root top = some el →
      postElement ⟨s, st, root, top :: below, key, line, 125⟩
        = if el.isObject then .continue_ ⟨s, .S_POST_ELEMENT, root, below, key, line, 125⟩
          else .throw ⟨"Token '\x7d' is illegal inside array.", line, 125⟩
            ⟨s, st, root, top :: below, key, line, 125⟩) ∧
    (∀ (s : List Nat) (st : State) (root : Element) (key : JString) (line : Int) (c : Nat),
      postElement ⟨s, st, root, [], key, line, c⟩
        = .throw ⟨"Input after end.", line, c⟩ ⟨s, st, root, [], key, line, c⟩) ∧
    (∀ (text s : List Nat) (st : State) (root el : Element) (top : NodePtr)
      (below : List NodePtr) (key : JString) (line : Int) (c0 : Nat),
      Leads (Parser.start text) ⟨93 :: s, st, root, top :: below, key, line, c0⟩ →
      deref root top = some el → el.isArray = false →
      ∃ e, deserialize text = .syntaxError e) ∧
    (∀ (text s : List Nat) (st : State) (root el : Element) (top : NodePtr)
      (below : List NodePtr) (key : JString) (line : Int) (c0 : Nat),
      Leads (Parser.start text) ⟨125 :: s, st, root, top :: below, key, line, c0⟩ →
      deref root top = some el → el.isObject = false →
      ∃ e, deserialize text = .syntaxError e) ∧
    deserialize (lit "[1\x7d") = .syntaxError ⟨"Token '\x7d' is illegal inside array.", 1, 125⟩ ∧
    deserialize (lit "\x7b\"a\":1]")
      = .syntaxError ⟨"Token ']' is illegal inside object.", 1, 93⟩ ∧
    deserialize (lit "[[1]\x7d")
      = .syntaxError ⟨"Token '\x7d' is illegal inside array.", 1, 125⟩ ∧
    deserialize (lit "[\x7b\"a\":[]]]")
      = .syntaxError ⟨"Token ']' is illegal inside object.", 1, 93⟩ ∧
    deserialize (lit "[\x7d")
      = .syntaxError ⟨"Primitive must be one of null, true, false, number or quoted string.",
          1, 125⟩ ∧
    deserialize (lit "\x7b]") = .syntaxError ⟨"Expected key or closing bracket.", 1, 93⟩ ∧
    deserialize (lit "[1]]") = .syntaxError ⟨"Input after end.", 1, 93⟩ ∧
    deserialize (lit "[1]") = .value (.mk .ARRAY [] [Element.ofNumber (.finite false 1 0)] []
      Number.zero false) := by
  refine ⟨?_, ?_, ?_, ?_, ?_, ?_, ?_, ?_, ?_, ?_, ?_, ?_, ?_⟩
  · intro s st root el top below key line hd
    simp only [postElement, hd]
    cases h : el.isArray <;> simp
  · intro s st root el top below key line hd
    simp only [postElement, hd]
    cases h : el.isObject <;> simp
  · intro s st root key line c
    rfl
  · intro text s st root el top below key line c0 hl hd ha
    obtain ⟨e, q, hh⟩ := close_array_refused s st root el top below key line c0 hd ha
    exact ⟨e, deserialize_of_throw (hl _ hh)⟩
  · intro text s st root el top below key line c0 hl hd ho
    obtain ⟨e, q, hh⟩ := close_object_refused s st root el top below key line c0 hd ho
    exact ⟨e, deserialize_of_throw (hl _ hh)⟩
  all_goals decide!

/-! ## The parser leaves the inactive stores empty -/

theorem tidy_mk {t : ElemType} {o : JObject} {a : JArray} {s : JString} {n : Number}
    {b : Bool} (h : (Element.mk t o a s n b).tidy = true) :
    (Element.mk t o a s n b).inactiveEmpty = true ∧ tidyMembers o = true ∧
      tidyItems a = true := by
  rw [Element.tidy] at h
  simp only [Bool.and_eq_true] at h
  refine ⟨?_, h.1.2, h.2⟩
  rw [Element.inactiveEmpty]
  simp only [Bool.and_eq_true]
  exact h.1.1

theorem tidy_of {t : ElemType} {o : JObject} {a : JArray} {s : JString} {n : Number}
    {b : Bool} (h0 : (Element.mk t o a s n b).inactiveEmpty = true)
    (ho : tidyMembers o = true) (ha : tidyItems a = true) :
    (Element.mk t o a s n b).tidy = true := by
  rw [Element.inactiveEmpty] at h0
  simp only [Bool.and_eq_true] at h0
  rw [Element.tidy]
  simp only [Bool.and_eq_true]
  exact ⟨⟨h0, ho⟩, ha⟩

theorem tidy_inactiveEmpty (x : Element) (h : x.tidy = true) : x.inactiveEmpty = true := by
  obtain ⟨t, o, a, s, n, b⟩ := x
  exact (tidy_mk h).1

theorem tidyItems_cons {x : Element} {rest : List Element}
    (h : tidyItems (x :: rest) = true) : x.tidy = true ∧ tidyItems rest = true := by
  rw [tidyItems] at h
  simpa using h

theorem tidyMembers_cons {k : JString} {x : Element} {rest : JObject}
    (h : tidyMembers ((k, x) :: rest) = true) : x.tidy = true ∧ tidyMembers rest = true := by
  rw [tidyMembers] at h
  simpa using h

theorem tidyItems_mem : ∀ {xs : List Element}, tidyItems xs = true →
    ∀ x ∈ xs, x.tidy = true
  | [], _, _, hx => by simp at hx
  | y :: ys, h, x, hx => by
    obtain ⟨h1, h2⟩ := tidyItems_cons h
    rcases List.mem_cons.1 hx with rfl | hin
    · exact h1
    · exact tidyItems_mem h2 x hin

theorem tidyMembers_mem : ∀ {xs : JObject}, tidyMembers xs = true →
    ∀ k x, (k, x) ∈ xs → x.tidy = true
  | [], _, _, _, hx => by simp at hx
  | (k1, y) :: ys, h, k, x, hx => by
    obtain ⟨h1, h2⟩ := tidyMembers_cons h
    rcases List.mem_cons.1 hx with heq | hin
    · cases heq; exact h1
    · exact tidyMembers_mem h2 k x hin

theorem deref_tidy : ∀ (p : NodePtr) (root e : Element),
    root.tidy = true → deref root p = some e → e.tidy = true
  | [], root, e, hw, h => by
    rw [deref] at h
    cases h
    exact hw
  | .index i :: p, .mk t o a s n b, e, hw, h => by
    rw [deref] at h
    simp only [Element._array] at h
    cases hg : a.get? i with
    | none => simp only [hg] at h; cases h
    | some c =>
      simp only [hg] at h
      exact deref_tidy p c e (tidyItems_mem (tidy_mk hw).2.2 c (List.get?_mem hg)) h
  | .member k :: p, .mk t o a s n b, e, hw, h => by
    rw [deref] at h
    simp only [Element._object] at h
    cases hg : mapFind k o with
    | none => simp only [hg] at h; cases h
    | some c =>
      simp only [hg] at h
      exact deref_tidy p c e (tidyMembers_mem (tidy_mk hw).2.1 k c (mapFind_mem k o c hg)) h

theorem tidyItems_listSet (v : Element) (hv : v.tidy = true) :
    ∀ (a : List Element) (i : Nat), tidyItems a = true → tidyItems (listSet a i v) = true
  | [], _, _ => by simp [listSet, tidyItems]
  | x :: rest, 0, h => by
    simp [listSet, tidyItems, hv, (tidyItems_cons h).2]
  | x :: rest, i + 1, h => by
    simp [listSet, tidyItems, (tidyItems_cons h).1,
      tidyItems_listSet v hv rest i (tidyItems_cons h).2]

theorem tidyMembers_mapSet (k : JString) (v : Element) (hv : v.tidy = true) :
    ∀ (o : JObject), tidyMembers o = true → tidyMembers (mapSet o k v) = true
  | [], _ => by simp [mapSet, tidyMembers]
  | (k1, x) :: rest, h => by
    obtain ⟨hx, hrest⟩ := tidyMembers_cons h
    rw [mapSet]
    by_cases h1 : strLess k k1 = true
    · simpa [h1] using h
    · by_cases h2 : strLess k1 k = true
      · simp [h1, h2, tidyMembers, hx, tidyMembers_mapSet k v hv rest hrest]
      · simp [h1, h2, tidyMembers, hv, hrest]

theorem tidyMembers_mapModify (k : JString) (f : Element → Element)
    (hf : ∀ x, x.tidy = true → (f x).tidy = true) : ∀ (o : JObject),
    tidyMembers o = true → tidyMembers (mapModify k f o) = true
  | [], _ => by
    have := hf (Element.ofType .NULL_VALUE) (by decide)
    simp [mapModify, tidyMembers, this]
  | (k1, x) :: rest, h => by
    obtain ⟨hx, hrest⟩ := tidyMembers_cons h
    have h0 := hf (Element.ofType .NULL_VALUE) (by decide)
    rw [mapModify]
    by_cases h1 : strLess k k1 = true
    · simp [h1, tidyMembers, h0, hx, hrest]
    · by_cases h2 : strLess k1 k = true
      · simp [h1, h2, tidyMembers, hx, tidyMembers_mapModify k f hf rest hrest]
      · simp [h1, h2, tidyMembers, hf x hx, hrest]

theorem listSet_isEmpty (a : List Element) (i : Nat) (v : Element) :
    (listSet a i v).isEmpty = a.isEmpty := by
  cases a with
  | nil => rfl
  | cons x rest => cases i <;> rfl

theorem mapSet_isEmpty (o : JObject) (k : JString) (v : Element) :
    (mapSet o k v).isEmpty = o.isEmpty := by
  cases o with
  | nil => rfl
  | cons p rest =>
    obtain ⟨k1, x⟩ := p
    rw [mapSet]
    split
    · rfl
    · split <;> rfl

theorem store_tidy (v : Element) (hv : v.tidy = true) :
    ∀ (p : NodePtr) (root r1 : Element), root.tidy = true →
      store root p v = some r1 → r1.tidy = true
  | [], root, r1, _, h => by
    rw [store] at h
    cases h
    exact hv
  | .index i :: p, .mk t o a s n b, r1, hw, h => by
    rw [store] at h
    obtain ⟨h0, hm, hi⟩ := tidy_mk hw
    cases hg : a.get? i with
    | none => simp only [hg] at h; cases h
    | some c =>
      simp only [hg] at h
      cases hs : store c p v with
      | none => simp only [hs] at h; cases h
      | some c1 =>
        simp only [hs, Option.some.injEq] at h
        have hc1 := store_tidy v hv p c c1 (tidyItems_mem hi c (List.get?_mem hg)) hs
        rw [← h]
        refine tidy_of ?_ hm (tidyItems_listSet c1 hc1 a i hi)
        rw [Element.inactiveEmpty] at h0 ⊢
        rw [listSet_isEmpty]
        exact h0
  | .member k :: p, .mk t o a s n b, r1, hw, h => by
    rw [store] at h
    obtain ⟨h0, hm, hi⟩ := tidy_mk hw
    cases hg : mapFind k o with
    | none => simp only [hg] at h; cases h
    | some c =>
      simp only [hg] at h
      cases hs : store c p v with
      | none => simp only [hs] at h; cases h
      | some c1 =>
        simp only [hs, Option.some.injEq] at h
        have hc1 := store_tidy v hv p c c1 (tidyMembers_mem hm k c (mapFind_mem k o c hg)) hs
        rw [← h]
        refine tidy_of ?_ (tidyMembers_mapSet k c1 hc1 o hm) hi
        rw [Element.inactiveEmpty] at h0 ⊢
        rw [mapSet_isEmpty]
        exact h0

theorem assign_ofType_tidy (el : Element) (t : ElemType) :
    (el.assign (Element.ofType t)).tidy = true := by
  cases t <;>
    simp [Element.assign, Element.ofType, Element.tidy, tidyMembers, tidyItems,
      Element.copyObject, Element.copyArray]

theorem assign_ofBool_tidy (el : Element) (b : Bool) :
    (el.assign (Element.ofBool b)).tidy = true := by
  rfl

theorem parsePrimitive_tidy (stream : List Nat) (first : Nat) (el : Element)
    (line : Int) (hw : el.tidy = true) :
    (parsePrimitive stream first el line).1.tidy = true := by
  unfold parsePrimitive
  split
  · split
    · exact hw
    · exact assign_ofType_tidy el .NULL_VALUE
  · split
    · split
      · exact hw
      · exact assign_ofBool_tidy el _
    · split
      · split
        · exact hw
        · exact assign_ofBool_tidy el _
      · split
        · have e : el.assign (Element.ofType .STRING)
              = .mk .STRING [] [] [] Number.zero false := by
            simp [Element.ofType, Element.assign]
          rw [e]
          cases parseString stream line with
          | error e => rfl
          | ok r => rfl
        · split
          · have e : el.assign (Element.ofType .NUMBER)
                = .mk .NUMBER [] [] [] Number.zero false := by
              simp [Element.ofType, Element.assign]
            rw [e]
            rfl
          · exact hw

theorem beginValue_tidy (p : Parser) (hw : p.root.tidy = true) :
    (beginValue p).tidy = true := by
  unfold beginValue
  cases hn : p.nodes with
  | nil => rfl
  | cons top below =>
    simp only
    cases hd : deref p.root top with
    | none => rfl
    | some el =>
      simp only
      split
      · cases hs : store p.root top (el.assign (Element.ofType .ARRAY)) with
        | none => rfl
        | some r1 =>
          exact store_tidy _ (assign_ofType_tidy _ _) top p.root r1 hw hs
      · split
        · cases hs : store p.root top (el.assign (Element.ofType .OBJECT)) with
          | none => rfl
          | some r1 =>
            exact store_tidy _ (assign_ofType_tidy _ _) top p.root r1 hw hs
        · have hp := parsePrimitive_tidy p.stream p.in_
            (el.assign (Element.ofType .NULL_VALUE)) p.line (assign_ofType_tidy _ _)
          rcases hpp : parsePrimitive p.stream p.in_ (el.assign (Element.ofType .NULL_VALUE))
            p.line with ⟨el1, r⟩
          rw [hpp] at hp
          simp only at hp
          cases r with
          | error e =>
            simp only
            cases hs : store p.root top el1 with
            | none => rfl
            | some r1 => exact store_tidy _ hp top p.root r1 hw hs
          | ok q =>
            obtain ⟨extra, rest⟩ := q
            simp only
            cases hs : store p.root top el1 with
            | none => rfl
            | some r1 => exact store_tidy _ hp top p.root r1 hw hs

theorem tidyItems_append_fresh : ∀ (a : List Element), tidyItems a = true →
    tidyItems (a ++ [Element.copy (Element.ofType .NULL_VALUE)]) = true
  | [], _ => rfl
  | x :: rest, h => by
    rw [List.cons_append, tidyItems, (tidyItems_cons h).1,
      tidyItems_append_fresh rest (tidyItems_cons h).2]
    rfl

theorem preElement_tidy (p : Parser) (hw : p.root.tidy = true) :
    (preElement p).tidy = true := by
  unfold preElement
  cases hn : p.nodes with
  | nil => rfl
  | cons top below =>
    simp only
    cases hd : deref p.root top with
    | none => rfl
    | some el =>
      have hel := deref_tidy top p.root el hw hd
      obtain ⟨t, o, a, s, n, b⟩ := el
      obtain ⟨h0, hm, hi⟩ := tidy_mk hel
      simp only
      split
      · exact beginValue_tidy p hw
      · split
        · rename_i harr
          split
          · exact hw
          · cases hs : store p.root top
                (.mk t o (a ++ [Element.copy (Element.ofType .NULL_VALUE)]) s n b) with
            | none => rfl
            | some r1 =>
              refine beginValue_tidy _ ?_
              refine store_tidy _ ?_ top p.root r1 hw hs
              refine tidy_of ?_ hm (tidyItems_append_fresh a hi)
              have ht : t = .ARRAY := by simpa [Element.isArray, Element.type] using harr
              subst ht
              rw [Element.inactiveEmpty] at h0 ⊢
              simpa using h0
        · split
          · rename_i hobj
            cases hs : store p.root top
                (.mk t (mapModify p.key (fun x => x.assign (Element.ofType .NULL_VALUE)) o)
                  a s n b) with
            | none => rfl
            | some r1 =>
              refine beginValue_tidy _ ?_
              refine store_tidy _ ?_ top p.root r1 hw hs
              refine tidy_of ?_ (tidyMembers_mapModify _ _
                  (fun x _ => assign_ofType_tidy x _) o hm) hi
              have ht : t = .OBJECT := by simpa [Element.isObject, Element.type] using hobj
              subst ht
              rw [Element.inactiveEmpty] at h0 ⊢
              simpa using h0
          · exact beginValue_tidy p hw

theorem postElement_tidy (p : Parser) (hw : p.root.tidy = true) :
    (postElement p).tidy = true := by
  unfold postElement
  cases hn : p.nodes with
  | nil => exact hw
  | cons top below =>
    simp only
    cases hd : deref p.root top with
    | none => rfl
    | some el =>
      simp only
      repeat' split
      all_goals exact hw

theorem body_tidy (p : Parser) (hw : p.root.tidy = true) : (body p).tidy = true := by
  unfold body
  split
  · cases skipLineComment p.stream p.line with
    | error e => exact hw
    | ok r => exact hw
  · have hq : (if p.in_ = '\n'.toNat ∨ p.in_ = '\r'.toNat then { p with line := p.line + 1 }
        else p).root.tidy = true := by
      split <;> exact hw
    simp only
    generalize (if p.in_ = '\n'.toNat ∨ p.in_ = '\r'.toNat then { p with line := p.line + 1 }
        else p) = q at hq
    split
    · exact hq
    · cases q.state with
      | S_PRE_ELEMENT => exact preElement_tidy q hq
      | S_POST_ELEMENT => exact postElement_tidy q hq
      | S_PRE_SEP =>
        simp only
        split <;> exact hq
      | S_PRE_KEY =>
        simp only
        split
        · cases parseString q.stream q.line with
          | error e => exact hq
          | ok r => exact hq
        · split <;> exact hq

theorem run_tidy : ∀ (fuel : Nat) (p : Parser), p.root.tidy = true →
    (whileRead fuel p).tidy = true ∧ (redo fuel p).tidy = true
  | 0, p, _ => ⟨by rw [whileRead]; rfl, by rw [redo]; rfl⟩
  | fuel + 1, p, hw => by
    constructor
    · rw [whileRead]
      cases hst : p.stream with
      | nil => exact hw
      | cons c rest =>
        exact (run_tidy fuel { p with in_ := c, stream := rest } hw).2
    · rw [redo]
      have hb := body_tidy p hw
      cases hbody : body p with
      | continue_ q =>
        rw [hbody] at hb
        exact (run_tidy fuel q hb).1
      | redo q =>
        rw [hbody] at hb
        exact (run_tidy fuel q hb).2
      | throw e q =>
        rw [hbody] at hb
        exact hb
      | undefined => rfl

/-- Every `Element` of the tree that `deserialize(std::istream &, Element &)`
leaves in the caller's root has empty inactive stores, whatever the root held
before. -/
theorem stream_tidy (s : List Nat) (root D : Element)
    (h : (deserializeStream s root).returned = some D) : D.tidy = true := by
  obtain ⟨p, hp, _, _, h3, _⟩ := stream_returned h
  have hf := (run_tidy (3 * s.length + 1) (Parser.enter s root)
    (assign_ofType_tidy root .NULL_VALUE)).1
  rw [hp] at hf
  rw [← h3]
  exact hf

/-- Every `Element` of a tree that `deserialize` returns has empty inactive
stores. -/
theorem deserialize_tidy {s : List Nat} {D : Element} (h : deserialize s = .value D) :
    D.tidy = true := by
  obtain ⟨r, hr, _, _, h3⟩ := deserialize_value h
  have hf := (run_tidy (3 * s.length + 1) (Parser.start s) (by rfl)).1
  rw [hr] at hf
  rw [← h3]
  exact hf

/-! ## C35: `empty` on values with empty inactive stores -/

/-- C35: for every value whose stores other than the one of the active variant
are empty, `empty()` returns false exactly when the value is a non-empty
String, a non-empty Array or a non-empty Object; it returns true for every Null,
every Boolean and every Number.  The values built by the constructors, by the
copy constructor, by an assignment from such a value that is no part of the
destination (or from the destination itself), by `swap` with such a value and by
the parser are values with empty inactive stores.  An assignment from an element
held in a container of the destination builds no value: its behaviour is
undefined, so `empty()` of the destination is not determined afterwards. -/
theorem empty_of_inactive_stores (v : Element) (h : v.inactiveEmpty = true) :
    (v.empty = false ↔
      (v.type = .STRING ∧ v._string ≠ []) ∨ (v.type = .ARRAY ∧ v._array ≠ []) ∨
        (v.type = .OBJECT ∧ v._object ≠ [])) ∧
    (v.type = .NULL_VALUE → v.empty = true) ∧
    (v.type = .BOOLEAN → v.empty = true) ∧
    (v.type = .NUMBER → v.empty = true) ∧
    (∀ t, (Element.ofType t).inactiveEmpty = true) ∧
    (∀ b, (Element.ofBool b).inactiveEmpty = true) ∧
    (∀ n, (Element.ofNumber n).inactiveEmpty = true) ∧
    (∀ s, (Element.ofString s).inactiveEmpty = true) ∧
    (∀ o, (Element.ofObject o).inactiveEmpty = true) ∧
    (∀ a, (Element.ofArray a).inactiveEmpty = true) ∧
    (Element.copy v).inactiveEmpty = true ∧
    (∀ a : Element, ∃ x, a.operator_assign (.other v) = .value x v ∧
      x.inactiveEmpty = true) ∧
    v.operator_assign (.part []) = .value v v ∧
    (∀ (a : Element) (st : Step) (p : NodePtr),
      a.operator_assign (.part (st :: p)) = .undefined) ∧
    (∀ w, w.inactiveEmpty = true →
      (Element.swap false v w).1.inactiveEmpty = true ∧
        (Element.swap false v w).2.inactiveEmpty = true) ∧
    (∀ s D, deserialize s = .value D → D.inactiveEmpty = true) ∧
    (∀ s root D, (deserializeStream s root).returned = some D → D.inactiveEmpty = true) := by
  have hassign : ∀ a : Element, (a.assign v).inactiveEmpty = true :=
    fun a => (assign_stores a v h).2.2.2.2.2.2.2
  refine ⟨?_, ?_, ?_, ?_, ?_, ?_, ?_, ?_, ?_, ?_, hassign _,
    fun a => ⟨a.assign v, rfl, hassign a⟩, rfl, fun _ _ _ => rfl, ?_, ?_, ?_⟩
  · obtain ⟨t, o, a, s, n, b⟩ := v
    cases t <;> cases o <;> cases a <;> cases s <;>
      simp_all [Element.inactiveEmpty, Element.empty, Element.isNull, Element.isBoolean,
        Element.isNumber, Element.type, Element._object, Element._array, Element._string]
  · obtain ⟨t, o, a, s, n, b⟩ := v
    intro ht
    simp only [Element.type] at ht
    subst ht
    simp [Element.empty, Element.isNull, Element.type]
  · obtain ⟨t, o, a, s, n, b⟩ := v
    intro ht
    simp only [Element.type] at ht
    subst ht
    cases o <;> cases a <;> cases s <;>
      simp_all [Element.inactiveEmpty, Element.empty, Element.isNull, Element.isBoolean,
        Element.isNumber, Element.type, Element._object, Element._array, Element._string]
  · obtain ⟨t, o, a, s, n, b⟩ := v
    intro ht
    simp only [Element.type] at ht
    subst ht
    cases o <;> cases a <;> cases s <;>
      simp_all [Element.inactiveEmpty, Element.empty, Element.isNull, Element.isBoolean,
        Element.isNumber, Element.type, Element._object, Element._array, Element._string]
  · intro t
    cases t <;> rfl
  · intro b
    rfl
  · intro n
    rfl
  · intro s
    simp [Element.ofString, Element.inactiveEmpty]
  · intro o
    simp [Element.ofObject, Element.inactiveEmpty]
  · intro a
    simp [Element.ofArray, Element.inactiveEmpty]
  · intro w hw
    have := swap_exchanges v w h hw
    exact ⟨this.2.1, this.2.2.1⟩
  · intro s D hd
    exact tidy_inactiveEmpty D (deserialize_tidy hd)
  · intro s root D hd
    exact tidy_inactiveEmpty D (stream_tidy s root D hd)

/-- C35 at the Number 1: its inactive stores are empty and `empty()` returns
true, as it does for the Boolean `true`; it returns false for the String
`"x"`. -/
theorem empty_of_inactive_stores_witness :
    (Element.ofNumber (.finite false 1 0)).inactiveEmpty = true ∧
    (Element.ofNumber (.finite false 1 0)).empty = true ∧
    (Element.ofBool true).empty = true ∧
    (Element.ofString [120]).empty = false :=
  ⟨by decide,
    (empty_of_inactive_stores (Element.ofNumber (.finite false 1 0)) (by decide)).2.2.2.1 rfl,
    by decide, by decide⟩

/-! ## C32: the line number of a `SyntaxError` -/

/-- The function `parsePrimitive` on a character that starts no primitive. -/
theorem parsePrimitive_refused (s : List Nat) (x : Nat) (el : Element) (line : Int)
    (hx : startsValue x = false) :
    (parsePrimitive s x el line).2
      = .error ⟨"Primitive must be one of null, true, false, number or quoted string.", line,
          x⟩ := by
  simp only [startsValue, isDigit, Bool.or_eq_false_iff, beq_eq_false_iff_ne, ne_eq,
    Bool.and_eq_false_iff, decide_eq_false_iff_not, not_le] at hx
  obtain ⟨⟨⟨⟨⟨⟨⟨h91, h123⟩, h34⟩, h45⟩, hd⟩, h110⟩, h116⟩, h102⟩ := hx
  have hnum : ¬ (x = '-'.toNat ∨ ('0'.toNat ≤ x ∧ x ≤ '9'.toNat)) := by
    intro h
    rcases h with h | ⟨h1, h2⟩
    · exact h45 h
    · have h1 : 48 ≤ x := h1
      have h2 : x ≤ 57 := h2
      omega
  unfold parsePrimitive
  rw [if_neg (show ¬ x = 'n'.toNat from h110), if_neg (show ¬ x = 't'.toNat from h116),
    if_neg (show ¬ x = 'f'.toNat from h102), if_neg (show ¬ x = '"'.toNat from h34),
    if_neg hnum]

/-- C32: an input made of white space and `//` comments that end with a line
break, `k` line-break bytes in all (every `\n` and every `\r` counts, also the one
that ends a comment), followed by a character that can start no value and no
comment: `deserialize` throws a `SyntaxError` with the line `k + 1` and that
character.  A `/` that starts no comment gives the same line.  A pair `\r\n`
counts for two.  (The counter is an `int` in the source; the model counts in
the integers, which is the same below `2^31` lines.) -/
theorem error_line_number (w rest : List Nat) (x : Nat) (hw : Blank w)
    (hx : startsValue x = false) (hwx : isWhite x = false) (h47 : x ≠ 47) :
    deserialize (w ++ x :: rest)
      = .syntaxError ⟨"Primitive must be one of null, true, false, number or quoted string.",
          (lineBreaks w : Int) + 1, x⟩ ∧
    (∀ y, y ≠ 47 → deserialize (w ++ 47 :: y :: rest)
      = .syntaxError ⟨"Expected second '/' to begin line comment.",
          (lineBreaks w : Int) + 1, y⟩) ∧
    deserialize (w ++ [47])
      = .syntaxError ⟨"Expected second '/' to begin line comment.",
          (lineBreaks w : Int) + 1, 0⟩ ∧
    (∀ w1 w2 : List Nat,
      lineBreaks (w1 ++ 13 :: 10 :: w2) = lineBreaks w1 + 2 + lineBreaks w2) ∧
    deserialize (lit "x")
      = .syntaxError ⟨"Primitive must be one of null, true, false, number or quoted string.",
          1, 120⟩ ∧
    deserialize (lit "\r\nx")
      = .syntaxError ⟨"Primitive must be one of null, true, false, number or quoted string.",
          3, 120⟩ ∧
    deserialize (lit " \t// c\r\n\n ]")
      = .syntaxError ⟨"Primitive must be one of null, true, false, number or quoted string.",
          4, 93⟩ := by
  have hline : (1 : Int) + (lineBreaks w : Int) = (lineBreaks w : Int) + 1 := by ring
  have h91 : x ≠ 91 := by
    intro h
    rw [h] at hx
    exact absurd hx (by decide)
  have h123 : x ≠ 123 := by
    intro h
    rw [h] at hx
    exact absurd hx (by decide)
  refine ⟨?_, ?_, ?_, ?_, by decide!, by decide!, by decide!⟩
  · obtain ⟨c1, hl⟩ := blank_leads hw (x :: rest) .S_PRE_ELEMENT
      (Element.ofType .NULL_VALUE) [[]] [] 1 0
    have hb : ∃ q, body ⟨rest, .S_PRE_ELEMENT, Element.ofType .NULL_VALUE, [[]], [],
        1 + lineBreaks w, x⟩
        = .throw ⟨"Primitive must be one of null, true, false, number or quoted string.",
            1 + lineBreaks w, x⟩ q := by
      rw [body_pre _ _ _ _ _ _ h47 hwx]
      exact preElement_throw h91 h123 (deref_nil _) (fun h => absurd h (by decide))
        (parsePrimitive_refused _ _ _ _ hx)
    obtain ⟨q, hb⟩ := hb
    rw [← hline]
    exact deserialize_of_throw (hl _ (halts_of_body_throw c1 hb))
  · intro y hy
    obtain ⟨c1, hl⟩ := blank_leads hw (47 :: y :: rest) .S_PRE_ELEMENT
      (Element.ofType .NULL_VALUE) [[]] [] 1 0
    have hb : body ⟨y :: rest, .S_PRE_ELEMENT, Element.ofType .NULL_VALUE, [[]], [],
        1 + lineBreaks w, 47⟩
        = .throw ⟨"Expected second '/' to begin line comment.", 1 + lineBreaks w, y⟩
            ⟨y :: rest, .S_PRE_ELEMENT, Element.ofType .NULL_VALUE, [[]], [],
              1 + lineBreaks w, 47⟩ := by
      apply body_slash_error rfl
      simp only [skipLineComment]
      rw [if_pos (show y ≠ '/'.toNat from hy)]
    rw [← hline]
    exact deserialize_of_throw (hl _ (halts_of_body_throw c1 hb))
  · obtain ⟨c1, hl⟩ := blank_leads hw [47] .S_PRE_ELEMENT
      (Element.ofType .NULL_VALUE) [[]] [] 1 0
    have hb : body ⟨[], .S_PRE_ELEMENT, Element.ofType .NULL_VALUE, [[]], [],
        1 + lineBreaks w, 47⟩
        = .throw ⟨"Expected second '/' to begin line comment.", 1 + lineBreaks w, 0⟩
            ⟨[], .S_PRE_ELEMENT, Element.ofType .NULL_VALUE, [[]], [],
              1 + lineBreaks w, 47⟩ := by
      apply body_slash_error rfl
      rfl
    rw [← hline]
    exact deserialize_of_throw (hl _ (halts_of_body_throw c1 hb))
  · intro w1 w2
    simp only [lineBreaks, List.countP_append, List.countP_cons]
    simp
    omega

/-- C32 at the input `// c`, `\r`, `\n`, space, `:`: two line breaks, line 3. -/
theorem error_line_number_witness :
    Blank (lit "// c\r\n ") ∧ lineBreaks (lit "// c\r\n ") = 2 ∧
    deserialize (lit "// c\r\n " ++ 58 :: lit "1")
      = .syntaxError ⟨"Primitive must be one of null, true, false, number or quoted string.",
          3, 58⟩ :=
  have hb : Blank (lit "// c\r\n ") :=
    Blank.comment (lit " c") 13 (lit "\n ") (by decide) (Or.inr rfl)
      (Blank.white 10 _ (by decide) (Blank.white 32 _ (by decide) Blank.nil))
  ⟨hb, by decide,
    (error_line_number (lit "// c\r\n ") (lit "1") 58 hb (by decide) (by decide)
      (by decide)).1⟩

/-! ## C31: the character read past a number -/

/-- The function `parseNumber` on a text that `std::stod` reads in full, followed
by a character outside the class `[0-9+-.eE]`: the character is returned. -/
theorem parseNumber_lookahead (c : Nat) (cs : List Nat) (x : Nat) (rest : List Nat)
    (v num : Number) (line : Int) (hcs : cs.all isNumberChar = true)
    (hx : isNumberChar x = false) (hst : stod (c :: cs) = .ok v (c :: cs).length) :
    parseNumber (cs ++ x :: rest) c num line = (v, .ok (x, rest)) := by
  unfold parseNumber
  rw [parseNumberLoop_text cs hcs (x :: rest) [c] (endsNumber_cons x rest hx)]
  simp only [List.singleton_append, hst, ne_eq, not_true_eq_false, if_false, List.head?_cons,
    Option.getD_some, List.drop_succ_cons, List.drop_zero]

/-- A text of characters of a number that `deserialize` reads as the Number `v`
starts with `-` or a digit, and `std::stod` reads all of it as `v`. -/
theorem number_text_parts (n : List Nat) (v : Number) (hn : n.all isNumberChar = true)
    (hd : deserialize n = .value (Element.ofNumber v)) :
    ∃ c cs, n = c :: cs ∧ (c = 45 ∨ isDigit c = true) ∧ cs.all isNumberChar = true ∧
      stod (c :: cs) = .ok v (c :: cs).length := by
  cases n with
  | nil =>
    have e : deserialize ([] : List Nat) = .syntaxError ⟨"Unexpected end of file.", 1, 0⟩ := by
      decide
    rw [e] at hd
    cases hd
  | cons c cs =>
    rw [List.all_cons, Bool.and_eq_true] at hn
    have hc : c = 45 ∨ isDigit c = true := by
      by_contra hcon
      push_neg at hcon
      have hsv : startsValue c = false := by
        have h1 := hn.1
        simp only [isNumberChar, Bool.not_eq_true', Bool.and_eq_false_iff, Bool.or_eq_false_iff,
          decide_eq_false_iff_not, not_lt, bne_eq_false_iff_eq] at h1
        simp only [isDigit] at hcon
        simp only [startsValue, isDigit, Bool.or_eq_false_iff, beq_eq_false_iff_ne, ne_eq,
          Bool.and_eq_false_iff, decide_eq_false_iff_not, not_le]
        have e1 : '0'.toNat = 48 := rfl
        have e2 : '9'.toNat = 57 := rfl
        have e3 : '-'.toNat = 45 := rfl
        have e4 : '+'.toNat = 43 := rfl
        have e5 : '.'.toNat = 46 := rfl
        have e6 : 'e'.toNat = 101 := rfl
        have e7 : 'E'.toNat = 69 := rfl
        rw [e1, e2, e3, e4, e5, e6, e7] at h1
        have hcon2 : ¬ (48 ≤ c ∧ c ≤ 57) := by
          intro hh
          apply hcon.2
          simp [hh.1, hh.2]
        have hcon1 := hcon.1
        omega
      have hw : isWhite c = false := by
        cases hwc : isWhite c with
        | false => rfl
        | true =>
          have := isNumberChar_of_white hwc
          rw [hn.1] at this
          cases this
      have h47 : c ≠ 47 := by
        intro h
        rw [h] at hn
        exact absurd hn.1 (by decide)
      have h91 : c ≠ 91 := by
        intro h
        rw [h] at hn
        exact absurd hn.1 (by decide)
      have h123 : c ≠ 123 := by
        intro h
        rw [h] at hn
        exact absurd hn.1 (by decide)
      have := primitive_error_at_start [] cs c _ (fun _ hb => by cases hb) h47 hw h91 h123
        (parsePrimitive_refused cs c _ _ hsv)
      rw [List.nil_append] at this
      rw [this] at hd
      cases hd
    refine ⟨c, cs, rfl, hc, hn.2, ?_⟩
    have hdt := deserialize_number_text c cs hc hn.2
    rw [hd] at hdt
    cases hst : stod (c :: cs) with
    | ok val read =>
      rw [hst] at hdt
      simp only [] at hdt
      by_cases hr : read ≠ (c :: cs).length
      · rw [if_pos hr] at hdt
        cases hdt
      · rw [if_neg hr] at hdt
        push_neg at hr
        have hv : Element.ofNumber v = Element.ofNumber val := by
          injection hdt
        have hv2 : v = val := by
          unfold Element.ofNumber at hv
          injection hv
        rw [hv2, hr]
    | invalid_argument =>
      rw [hst] at hdt
      cases hdt
    | out_of_range =>
      rw [hst] at hdt
      cases hdt

/-- A number as the next element of the array on top of the stack, followed by
a character `x` that is no character of a number: the run comes to the loop
head in state `S_POST_ELEMENT` with `x` as the next character to read. -/
theorem number_item (c : Nat) (cs : List Nat) (v : Number) (hc : c = 45 ∨ isDigit c = true)
    (hcs : cs.all isNumberChar = true) (hst : stod (c :: cs) = .ok v (c :: cs).length)
    (x : Nat) (hx : isNumberChar x = false) (rest : List Nat) (root : Element)
    (slot : NodePtr) (below : List NodePtr) (key : JString) (line : Int) (c0 : Nat)
    (o : JObject) (done : JArray) (s : JString) (n : Number) (b : Bool)
    (hd : deref root slot = some (.mk .ARRAY o done s n b)) :
    ∃ root1 c1,
      store root slot (.mk .ARRAY o (done ++ [Element.ofNumber v]) s n b) = some root1 ∧
      Leads ⟨(c :: cs) ++ x :: rest, .S_PRE_ELEMENT, root, slot :: below, key, line, c0⟩
        ⟨x :: rest, .S_POST_ELEMENT, root1, slot :: below, key, line, c1⟩ := by
  have hchar : c ≠ 47 ∧ isWhite c = false ∧ c ≠ 91 ∧ c ≠ 123 ∧ c ≠ 93 := by
    rcases hc with rfl | h
    · decide
    · have h2 : 48 ≤ c ∧ c ≤ 57 := by simpa [isDigit] using h
      refine ⟨by omega, ?_, by omega, by omega, by omega⟩
      simp only [isWhite, Bool.or_eq_false_iff, beq_eq_false_iff_ne, ne_eq]
      omega
  obtain ⟨roota, hsa⟩ := store_of_deref
    (.mk .ARRAY o (done ++ [Element.ofType .NULL_VALUE]) s n b) slot root _ hd
  have hda := deref_store _ slot root roota hsa
  have hdslot : deref roota (slot ++ [.index done.length])
      = some (Element.ofType .NULL_VALUE) := by
    rw [deref_snoc _ slot roota _ hda, deref]
    simp only [Element._array, get_append_last]
    rw [deref]
  have hstore : store roota (slot ++ [.index done.length]) (Element.ofNumber v)
      = store root slot (.mk .ARRAY o (done ++ [Element.ofNumber v]) s n b) := by
    rw [store_snoc _ _ slot roota _ (.mk .ARRAY o (done ++ [Element.ofNumber v]) s n b) hda
      (by
        rw [store]
        simp only [get_append_last]
        rw [store]
        simp only [listSet_append_last])]
    exact store_store _ _ slot root roota hsa
  obtain ⟨root1, hs1⟩ := store_of_deref (Element.ofNumber v) (slot ++ [.index done.length])
    roota _ hdslot
  refine ⟨root1, 0, by rw [← hstore]; exact hs1, ?_⟩
  apply leads_of_body c (cs ++ x :: rest) rfl
  rw [body_pre _ _ _ _ _ _ hchar.1 hchar.2.1, preElement_item hd hchar.2.2.2.2 hsa]
  have hp : parsePrimitive (cs ++ x :: rest) c
      ((Element.ofType .NULL_VALUE).assign (Element.ofType .NULL_VALUE)) line
      = (Element.ofNumber v, .ok (x, rest)) := by
    rw [parsePrimitive_run c cs (x :: rest) hc hcs (endsNumber_cons x rest hx), hst]
    simp only [ne_eq, not_true_eq_false, if_false, List.head?_cons, Option.getD_some,
      List.drop_succ_cons, List.drop_zero]
    rfl
  rw [beginValue_primitive hchar.2.2.1 hchar.2.2.2.1 hdslot hp hs1]
  exact leadsNext_lookahead x rest _ _ _ _ _ _

/-- The numbers of a list of texts, with `,` between neighbours, as the next
elements of the array on top of the stack, followed by `]`. -/
theorem number_items : ∀ (ns : List (List Nat)) (vs : List Number),
    List.Forall₂ (fun n v => n.all isNumberChar = true
      ∧ deserialize n = .value (Element.ofNumber v)) ns vs → ns ≠ [] →
    ∀ (rest : List Nat) (root : Element) (slot : NodePtr) (below : List NodePtr)
      (key : JString) (line : Int) (c0 : Nat) (o : JObject) (done : JArray) (s : JString)
      (n : Number) (b : Bool),
    deref root slot = some (.mk .ARRAY o done s n b) →
    ∃ root1 c1,
      store root slot (.mk .ARRAY o (done ++ vs.map Element.ofNumber) s n b) = some root1 ∧
      Leads ⟨joinWith [44] ns ++ 93 :: rest, .S_PRE_ELEMENT, root, slot :: below, key, line, c0⟩
        ⟨93 :: rest, .S_POST_ELEMENT, root1, slot :: below, key, line, c1⟩
  | [], _, _, hne => absurd rfl hne
  | [t], vs, h, _ => by
    intro rest root slot below key line c0 o done s n b hd
    cases h with
    | cons h1 h2 =>
      cases h2
      obtain ⟨c, cs, rfl, hc, hcs, hst⟩ := number_text_parts t _ h1.1 h1.2
      simp only [joinWith, List.map_cons, List.map_nil]
      exact number_item c cs _ hc hcs hst 93 (by decide) rest root slot below key line c0
        o done s n b hd
  | t :: t2 :: more, vs, h, _ => by
    intro rest root slot below key line c0 o done s n b hd
    cases h with
    | cons h1 h2 =>
      rename_i v vs2
      obtain ⟨c, cs, rfl, hc, hcs, hst⟩ := number_text_parts t _ h1.1 h1.2
      obtain ⟨roota, c1, hsa, hla⟩ := number_item c cs v hc hcs hst 44 (by decide)
        (joinWith [44] (t2 :: more) ++ 93 :: rest) root slot below key line c0 o done s n b hd
      have hda := deref_store _ slot root roota hsa
      obtain ⟨root1, c2, hs1, hl1⟩ := number_items (t2 :: more) vs2 h2 (by simp)
        rest roota slot below key line 44 o (done ++ [Element.ofNumber v]) s n b hda
      refine ⟨root1, c2, ?_, ?_⟩
      · rw [List.map_cons, ← store_store _ _ slot root roota hsa, ← hs1]
        simp
      · have e : joinWith [44] ((c :: cs) :: t2 :: more) ++ 93 :: rest
            = (c :: cs) ++ 44 :: (joinWith [44] (t2 :: more) ++ 93 :: rest) := by
          simp [joinWith]
        rw [e]
        refine Leads.trans hla (Leads.trans ?_ hl1)
        apply leads_of_body 44 _ rfl
        rw [body_post _ _ _ _ _ _ (by decide) (by decide), postElement_comma hda]
        exact leadsNext_continue (Leads.refl _)

theorem copyArray_numbers : ∀ (vs : List Number),
    Element.copyArray (vs.map Element.ofNumber) = vs.map Element.ofNumber
  | [] => by rw [List.map_nil, Element.copyArray]
  | v :: rest => by
    rw [List.map_cons, Element.copyArray, copyArray_numbers rest]
    rfl

/-- C31: a non-empty list of texts of characters of a number, each of which
`deserialize` reads as a Number, written between `[` and `]` with `,` between
neighbours and no white space: `deserialize` returns the Array of these
Numbers.  The function `parseNumber` returns the character that it reads past
the number, and with this character in `in` the loop body is entered again:
the run goes on as if the character were still unread.  The text
`  [ 1,2, 3  , 4] ` is read as the Array that is written `[ 1, 2, 3, 4 ]`. -/
theorem number_lookahead (ns : List (List Nat)) (vs : List Number) (hne : ns ≠ [])
    (h : List.Forall₂ (fun n v => n.all isNumberChar = true
      ∧ deserialize n = .value (Element.ofNumber v)) ns vs) :
    deserialize (91 :: (joinWith [44] ns ++ [93]))
      = .value (Element.ofArray (vs.map Element.ofNumber)) ∧
    (∀ (c : Nat) (cs : List Nat) (x : Nat) (rest : List Nat) (v num : Number) (line : Int),
      cs.all isNumberChar = true → isNumberChar x = false →
      stod (c :: cs) = .ok v (c :: cs).length →
      parseNumber (cs ++ x :: rest) c num line = (v, .ok (x, rest))) ∧
    (∀ (x : Nat) (rest : List Nat) (st : State) (root : Element) (nodes : List NodePtr)
      (key : JString) (line : Int) (c0 : Nat),
      LeadsNext (.redo ⟨rest, st, root, nodes, key, line, x⟩)
        ⟨x :: rest, st, root, nodes, key, line, c0⟩) ∧
    deserialize (lit "  [ 1,2, 3  , 4] ")
      = .value (Element.ofArray [Element.ofNumber (.finite false 1 0),
          Element.ofNumber (.finite false 1 1), Element.ofNumber (.finite false 3 0),
          Element.ofNumber (.finite false 1 2)]) ∧
    serializeToString (Element.ofArray [Element.ofNumber (.finite false 1 0),
        Element.ofNumber (.finite false 1 1), Element.ofNumber (.finite false 3 0),
        Element.ofNumber (.finite false 1 2)]) false = lit "[ 1, 2, 3, 4 ]" := by
  refine ⟨?_,
    fun c cs x rest v num line hcs hx hst =>
      parseNumber_lookahead c cs x rest v num line hcs hx hst,
    fun x rest st root nodes key line c0 => leadsNext_lookahead x rest st root nodes key line c0,
    by decide!, by decide⟩
  have hopen : Leads (Parser.start (91 :: (joinWith [44] ns ++ [93])))
      ⟨joinWith [44] ns ++ [93], .S_PRE_ELEMENT, .mk .ARRAY [] [] [] Number.zero false, [[]], [],
        1, 91⟩ := by
    unfold Parser.start
    apply leads_of_body 91 _ rfl
    rw [body_pre _ _ _ _ _ _ (by decide) (by decide), preElement_null (deref_nil _) (by rfl),
      beginValue_array (deref_nil _) (by rw [store, assign_fresh_array])]
    exact leadsNext_continue (Leads.refl _)
  obtain ⟨root1, c1, hs1, hl1⟩ := number_items ns vs h hne []
    (.mk .ARRAY [] [] [] Number.zero false) [] [] [] 1 91 [] [] [] Number.zero false (deref_nil _)
  rw [store] at hs1
  simp only [List.nil_append, Option.some.injEq] at hs1
  subst hs1
  have hclose : Leads ⟨[93], .S_POST_ELEMENT,
      .mk .ARRAY [] (vs.map Element.ofNumber) [] Number.zero false, [[]], [], 1, c1⟩
      ⟨[], .S_POST_ELEMENT, .mk .ARRAY [] (vs.map Element.ofNumber) [] Number.zero false, [], [],
        1, 93⟩ := by
    apply leads_of_body 93 _ rfl
    rw [body_post _ _ _ _ _ _ (by decide) (by decide), postElement_close_array (deref_nil _)]
    exact leadsNext_continue (Leads.refl _)
  have hd : Halts ⟨[], .S_POST_ELEMENT,
      .mk .ARRAY [] (vs.map Element.ofNumber) [] Number.zero false, [], [], 1, 93⟩
      (.done ⟨[], .S_POST_ELEMENT,
        .mk .ARRAY [] (vs.map Element.ofNumber) [] Number.zero false, [], [], 1, 93⟩) :=
    ⟨1, whileRead_nil 0 _ rfl, by intro hh; cases hh⟩
  have := deserialize_of_done (hopen _ (hl1 _ (hclose _ hd)))
  rw [this]
  simp [Element.ofArray, copyArray_numbers]

/-- C31 at the texts `1`, `-2.5e3` and `0.1`: the text `[1,-2.5e3,0.1]`. -/
theorem number_lookahead_witness :
    [lit "1", lit "-2.5e3", lit "0.1"] ≠ [] ∧
    deserialize (91 :: (joinWith [44] [lit "1", lit "-2.5e3", lit "0.1"] ++ [93]))
      = .value (Element.ofArray ([.finite false 1 0, .finite true 625 2,
          .finite false 3602879701896397 (-55)].map Element.ofNumber)) ∧
    91 :: (joinWith [44] [lit "1", lit "-2.5e3", lit "0.1"] ++ [93]) = lit "[1,-2.5e3,0.1]" :=
  ⟨by decide,
    (number_lookahead [lit "1", lit "-2.5e3", lit "0.1"]
      [.finite false 1 0, .finite true 625 2, .finite false 3602879701896397 (-55)] (by decide)
      (.cons ⟨by decide, by decide!⟩ (.cons ⟨by decide, by decide!⟩
        (.cons ⟨by decide, by decide!⟩ .nil)))).1,
    by decide⟩

/-! ## C33: nested arrays -/

/-- The members of nested Arrays: the copy that the constructor makes of the
inner Array is the inner Array. -/
theorem nested_succ : ∀ (n : Nat),
    nested (n + 1) = .mk .ARRAY [] [nested n] [] Number.zero false ∧
      Element.assign (Element.ofType .NULL_VALUE) (nested n) = nested n
  | 0 => by
    constructor
    · simp [nested, Element.ofArray, Element.copyArray, Element.assign, Element.ofType,
        Element._number, Element._boolean]
    · simp [nested, Element.assign, Element.ofType, Element.copyArray, Element._number,
        Element._boolean]
  | n + 1 => by
    obtain ⟨h1, h2⟩ := nested_succ n
    have h3 : Element.assign (Element.ofType .NULL_VALUE) (nested (n + 1)) = nested (n + 1) := by
      rw [h1, Element.assign, if_neg (by decide), if_pos rfl, Element.copyArray,
        Element.copyArray, h2]
      rfl
    refine ⟨?_, h3⟩
    rw [nested, Element.ofArray, Element.copyArray, Element.copyArray, h3]

/-- A `[` where an element of the array on top of the stack is expected: an empty
Array is added to the array and pushed on the stack. -/
theorem open_step (rest : List Nat) (root : Element) (slot : NodePtr) (below : List NodePtr)
    (key : JString) (line : Int) (c0 : Nat) (o : JObject) (a : JArray) (s : JString)
    (n : Number) (b : Bool) (hd : deref root slot = some (.mk .ARRAY o a s n b)) :
    ∃ root1, store root slot (.mk .ARRAY o (a ++ [Element.ofType .ARRAY]) s n b) = some root1 ∧
      deref root1 (slot ++ [.index a.length]) = some (Element.ofType .ARRAY) ∧
      Leads ⟨91 :: rest, .S_PRE_ELEMENT, root, slot :: below, key, line, c0⟩
        ⟨rest, .S_PRE_ELEMENT, root1, (slot ++ [.index a.length]) :: slot :: below, key, line,
          91⟩ := by
  obtain ⟨roota, hsa⟩ := store_of_deref
    (.mk .ARRAY o (a ++ [Element.ofType .NULL_VALUE]) s n b) slot root _ hd
  have hda := deref_store _ slot root roota hsa
  have hdslot : deref roota (slot ++ [.index a.length])
      = some (Element.ofType .NULL_VALUE) := by
    rw [deref_snoc _ slot roota _ hda, deref]
    simp only [Element._array, get_append_last]
    rw [deref]
  have hstore : store roota (slot ++ [.index a.length]) (Element.ofType .ARRAY)
      = store root slot (.mk .ARRAY o (a ++ [Element.ofType .ARRAY]) s n b) := by
    rw [store_snoc _ _ slot roota _ (.mk .ARRAY o (a ++ [Element.ofType .ARRAY]) s n b) hda
      (by
        rw [store]
        simp only [get_append_last]
        rw [store]
        simp only [listSet_append_last])]
    exact store_store _ _ slot root roota hsa
  obtain ⟨root1, hs1⟩ := store_of_deref (Element.ofType .ARRAY) (slot ++ [.index a.length])
    roota _ hdslot
  refine ⟨root1, by rw [← hstore]; exact hs1, deref_store _ _ roota root1 hs1, ?_⟩
  apply leads_of_body 91 rest rfl
  rw [body_pre _ _ _ _ _ _ (by decide) (by decide), preElement_item hd (by decide) hsa,
    beginValue_array hdslot (by rw [assign_fresh_array]; exact hs1)]
  exact leadsNext_continue (Leads.refl _)

/-- A `]` where an element of the array on top of the stack is expected: the
array is complete and popped. -/
theorem close_step (rest : List Nat) (root : Element) (slot : NodePtr) (below : List NodePtr)
    (key : JString) (line : Int) (c0 : Nat) (o : JObject) (a : JArray) (s : JString)
    (n : Number) (b : Bool) (hd : deref root slot = some (.mk .ARRAY o a s n b)) :
    Leads ⟨93 :: rest, .S_PRE_ELEMENT, root, slot :: below, key, line, c0⟩
      ⟨rest, .S_POST_ELEMENT, root, below, key, line, 93⟩ := by
  apply leads_of_body 93 rest rfl
  rw [body_pre _ _ _ _ _ _ (by decide) (by decide), preElement_close hd]
  apply leadsNext_redo
  rw [body_post _ _ _ _ _ _ (by decide) (by decide), postElement_close_array hd]
  exact leadsNext_continue (Leads.refl _)

/-- A `]` behind an element of the array on top of the stack: the array is
complete and popped. -/
theorem close_post (rest : List Nat) (root : Element) (slot : NodePtr) (below : List NodePtr)
    (key : JString) (line : Int) (c0 : Nat) (o : JObject) (a : JArray) (s : JString)
    (n : Number) (b : Bool) (hd : deref root slot = some (.mk .ARRAY o a s n b)) :
    Leads ⟨93 :: rest, .S_POST_ELEMENT, root, slot :: below, key, line, c0⟩
      ⟨rest, .S_POST_ELEMENT, root, below, key, line, 93⟩ := by
  apply leads_of_body 93 rest rfl
  rw [body_post _ _ _ _ _ _ (by decide) (by decide), postElement_close_array hd]
  exact leadsNext_continue (Leads.refl _)

theorem replicate_snoc (n : Nat) (c : Nat) (rest : List Nat) :
    List.replicate (n + 1) c ++ rest = List.replicate n c ++ c :: rest := by
  rw [List.replicate_succ', List.append_assoc]
  rfl

/-- The text of `n + 1` nested arrays as the next element of the array on top of
the stack. -/
theorem nested_item : ∀ (n : Nat) (rest : List Nat) (root : Element) (slot : NodePtr)
    (below : List NodePtr) (key : JString) (line : Int) (c0 : Nat) (o : JObject) (done : JArray)
    (s : JString) (nn : Number) (b : Bool),
    deref root slot = some (.mk .ARRAY o done s nn b) →
    ∃ root1, store root slot (.mk .ARRAY o (done ++ [nested n]) s nn b) = some root1 ∧
      Leads ⟨List.replicate (n + 1) 91 ++ (List.replicate (n + 1) 93 ++ rest), .S_PRE_ELEMENT,
          root, slot :: below, key, line, c0⟩
        ⟨rest, .S_POST_ELEMENT, root1, slot :: below, key, line, 93⟩
  | 0, rest, root, slot, below, key, line, c0, o, done, s, nn, b, hd => by
    obtain ⟨root1, hs1, hd1, hl1⟩ := open_step (93 :: rest) root slot below key line c0
      o done s nn b hd
    refine ⟨root1, hs1, ?_⟩
    exact Leads.trans hl1 (close_step rest root1 _ _ key line 91 [] [] [] Number.zero false hd1)
  | n + 1, rest, root, slot, below, key, line, c0, o, done, s, nn, b, hd => by
    obtain ⟨root1, hs1, hd1, hl1⟩ := open_step
      (List.replicate (n + 1) 91 ++ (List.replicate (n + 1) 93 ++ 93 :: rest))
      root slot below key line c0 o done s nn b hd
    obtain ⟨root2, hs2, hl2⟩ := nested_item n (93 :: rest) root1
      (slot ++ [.index done.length]) (slot :: below) key line 91 [] [] [] Number.zero false hd1
    rw [List.nil_append, ← (nested_succ n).1] at hs2
    have hd2 := deref_store _ _ root1 root2 hs2
    rw [(nested_succ n).1] at hd2
    have hl3 := close_post rest root2 (slot ++ [.index done.length]) (slot :: below) key line 93
      [] [nested n] [] Number.zero false hd2
    have hda := deref_store _ slot root root1 hs1
    have hstore : store root1 (slot ++ [.index done.length]) (nested (n + 1))
        = store root slot (.mk .ARRAY o (done ++ [nested (n + 1)]) s nn b) := by
      rw [store_snoc _ _ slot root1 _ (.mk .ARRAY o (done ++ [nested (n + 1)]) s nn b) hda
        (by
          rw [store]
          simp only [get_append_last]
          rw [store]
          simp only [listSet_append_last])]
      exact store_store _ _ slot root root1 hs1
    refine ⟨root2, by rw [← hstore]; exact hs2, ?_⟩
    have e : List.replicate (n + 1 + 1) 91 ++ (List.replicate (n + 1 + 1) 93 ++ rest)
        = 91 :: (List.replicate (n + 1) 91 ++ (List.replicate (n + 1) 93 ++ 93 :: rest)) := by
      rw [replicate_snoc (n + 1) 93 rest, List.replicate_succ (n := n + 1)]
      rfl
    rw [e]
    exact Leads.trans hl1 (Leads.trans hl2 hl3)

/-- The first `[` of a text: the root becomes an empty Array. -/
theorem open_root (rest : List Nat) :
    Leads (Parser.start (91 :: rest))
      ⟨rest, .S_PRE_ELEMENT, Element.ofType .ARRAY, [[]], [], 1, 91⟩ := by
  unfold Parser.start
  apply leads_of_body 91 _ rfl
  rw [body_pre _ _ _ _ _ _ (by decide) (by decide), preElement_null (deref_nil _) (by rfl),
    beginValue_array (deref_nil _) (by rw [store, assign_fresh_array])]
  exact leadsNext_continue (Leads.refl _)

/-- The text of `n + 1` nested arrays at the start of the input. -/
theorem nested_root : ∀ (n : Nat) (rest : List Nat),
    Leads (Parser.start (List.replicate (n + 1) 91 ++ (List.replicate (n + 1) 93 ++ rest)))
      ⟨rest, .S_POST_ELEMENT, nested n, [], [], 1, 93⟩
  | 0, rest =>
    Leads.trans (open_root (93 :: rest))
      (close_step rest _ [] [] [] 1 91 [] [] [] Number.zero false (deref_nil _))
  | n + 1, rest => by
    have e : List.replicate (n + 1 + 1) 91 ++ (List.replicate (n + 1 + 1) 93 ++ rest)
        = 91 :: (List.replicate (n + 1) 91 ++ (List.replicate (n + 1) 93 ++ 93 :: rest)) := by
      rw [replicate_snoc (n + 1) 93 rest, List.replicate_succ (n := n + 1)]
      rfl
    rw [e]
    obtain ⟨root1, hs1, hl1⟩ := nested_item n (93 :: rest) (Element.ofType .ARRAY) [] []
      [] 1 91 [] [] [] Number.zero false (deref_nil _)
    rw [store] at hs1
    simp only [List.nil_append, Option.some.injEq] at hs1
    rw [← (nested_succ n).1] at hs1
    subst hs1
    refine Leads.trans (open_root _) (Leads.trans hl1 ?_)
    exact close_post rest (nested (n + 1)) [] [] [] 1 93 [] [nested n] [] Number.zero false
      (by rw [(nested_succ n).1]; exact deref_nil _)

/-- The run on `d + 1` characters `[` at the start of the input: an Array is on
top of the stack and the next element is expected. -/
theorem opens_root : ∀ (d : Nat) (rest : List Nat),
    ∃ (root1 : Element) (slot1 : NodePtr) (below1 : List NodePtr),
      deref root1 slot1 = some (Element.ofType .ARRAY) ∧
      Leads (Parser.start (List.replicate (d + 1) 91 ++ rest))
        ⟨rest, .S_PRE_ELEMENT, root1, slot1 :: below1, [], 1, 91⟩
  | 0, rest => ⟨Element.ofType .ARRAY, [], [], deref_nil _, open_root rest⟩
  | d + 1, rest => by
    obtain ⟨root1, slot1, below1, hd1, hl1⟩ := opens_root d (91 :: rest)
    obtain ⟨root2, _, hd2, hl2⟩ := open_step rest root1 slot1 below1 [] 1 91 [] [] []
      Number.zero false hd1
    rw [replicate_snoc (d + 1) 91 rest]
    exact ⟨root2, _, _, hd2, Leads.trans hl1 hl2⟩

/-- C33: for every `n ≥ 1`, the text of `n` characters `[` followed by `m`
characters `]`.  With `m = n`, `deserialize` returns `n` Arrays nested inside
one another, the innermost empty and every other one with the next as its only
element.  With `m < n` it throws "Unexpected end of file.", with `m > n` "Input
after end."; both errors have the line 1 and the character read last. -/
theorem nested_arrays (n m : Nat) (hn : 1 ≤ n) :
    (m = n →
      deserialize (List.replicate n 91 ++ List.replicate m 93) = .value (nested (n - 1))) ∧
    (m < n →
      deserialize (List.replicate n 91 ++ List.replicate m 93)
        = .syntaxError ⟨"Unexpected end of file.", 1, if m = 0 then 91 else 93⟩) ∧
    (n < m →
      deserialize (List.replicate n 91 ++ List.replicate m 93)
        = .syntaxError ⟨"Input after end.", 1, 93⟩) ∧
    (∀ k, (nested k).type = .ARRAY) ∧
    (nested 0)._array = [] ∧
    (∀ k, (nested (k + 1))._array = [nested k]) ∧
    deserialize (lit "[[[]]]") = .value (Element.ofArray [Element.ofArray [Element.ofArray []]]) ∧
    nested 2 = Element.ofArray [Element.ofArray [Element.ofArray []]] := by
  have hdone : ∀ (st : State) (root : Element) (nodes : List NodePtr) (c : Nat),
      Halts ⟨[], st, root, nodes, [], 1, c⟩ (.done ⟨[], st, root, nodes, [], 1, c⟩) :=
    fun st root nodes c => ⟨1, whileRead_nil 0 _ rfl, by intro hh; cases hh⟩
  obtain ⟨j, rfl⟩ : ∃ j, n = j + 1 := ⟨n - 1, by omega⟩
  refine ⟨?_, ?_, ?_, ?_, rfl, fun k => by rw [(nested_succ k).1]; rfl, by decide!, by decide⟩
  · intro hm
    subst hm
    have hl := nested_root j []
    have := deserialize_of_done (hl _ (hdone _ _ _ _))
    simpa using this
  · intro hm
    obtain ⟨d, hd⟩ : ∃ d, j + 1 = d + 1 + m := ⟨j - m, by omega⟩
    have e : List.replicate (j + 1) 91 ++ List.replicate m 93
        = List.replicate (d + 1) 91 ++ (List.replicate m 91 ++ List.replicate m 93) := by
      rw [hd, List.replicate_add, List.append_assoc]
    rw [e]
    obtain ⟨root1, slot1, below1, hd1, hl1⟩ := opens_root d
      (List.replicate m 91 ++ List.replicate m 93)
    cases m with
    | zero =>
      have := deserialize_of_done (hl1 _ (hdone _ _ _ _))
      simpa using this
    | succ i =>
      obtain ⟨root2, _, hl2⟩ := nested_item i [] root1 slot1 below1 [] 1 91 [] [] []
        Number.zero false hd1
      rw [List.append_nil] at hl2
      have := deserialize_of_done (hl1 _ (hl2 _ (hdone _ _ _ _)))
      simpa using this
  · intro hm
    obtain ⟨i, hi⟩ : ∃ i, m = j + 1 + (i + 1) := ⟨m - (j + 1) - 1, by omega⟩
    have e : List.replicate m 93
        = List.replicate (j + 1) 93 ++ 93 :: List.replicate i 93 := by
      rw [hi, List.replicate_add]
      rfl
    rw [e]
    have hl := nested_root j (93 :: List.replicate i 93)
    have hb : body ⟨List.replicate i 93, .S_POST_ELEMENT, nested j, [], [], 1, 93⟩
        = .throw ⟨"Input after end.", 1, 93⟩
            ⟨List.replicate i 93, .S_POST_ELEMENT, nested j, [], [], 1, 93⟩ := by
      rw [body_post _ _ _ _ _ _ (by decide) (by decide)]
      rfl
    exact deserialize_of_throw (hl _ (halts_of_body_throw 93 hb))
  · intro k
    cases k with
    | zero => rfl
    | succ k => rw [(nested_succ k).1]; rfl

/-- C33 at `n = 3`: the texts `[[[]]]`, `[[[]` and `[[[]]]]]`. -/
theorem nested_arrays_witness :
    1 ≤ 3 ∧
    deserialize (lit "[[[]]]") = .value (nested 2) ∧
    deserialize (lit "[[[]") = .syntaxError ⟨"Unexpected end of file.", 1, 93⟩ ∧
    deserialize (lit "[[[") = .syntaxError ⟨"Unexpected end of file.", 1, 91⟩ ∧
    deserialize (lit "[[[]]]]]") = .syntaxError ⟨"Input after end.", 1, 93⟩ :=
  ⟨by decide, (nested_arrays 3 3 (by decide)).1 rfl,
    (nested_arrays 3 1 (by decide)).2.1 (by decide),
    (nested_arrays 3 0 (by decide)).2.1 (by decide),
    (nested_arrays 3 5 (by decide)).2.2.1 (by decide)⟩

/-! ## The printed text of an integer -/

theorem decDigits_fuel : ∀ (f g n : Nat), n < f → n < g → decDigits f n = decDigits g n
  | 0, _, _, h, _ => absurd h (Nat.not_lt_zero _)
  | _ + 1, 0, _, _, h => absurd h (Nat.not_lt_zero _)
  | f + 1, g + 1, n, hf, hg => by
    rw [decDigits, decDigits]
    by_cases h10 : n < 10
    · rw [if_pos h10, if_pos h10]
    · rw [if_neg h10, if_neg h10, decDigits_fuel f g (n / 10) (by omega) (by omega)]

theorem decimal_small (n : Nat) (h : n < 10) : decimal n = [48 + n] := by
  rw [decimal, decDigits, if_pos h]

theorem decimal_step (n d : Nat) (hn : 0 < n) (hd : d < 10) :
    decimal (10 * n + d) = decimal n ++ [48 + d] := by
  rw [decimal, decDigits, if_neg (by omega), decimal]
  rw [show (10 * n + d) / 10 = n by omega, show (10 * n + d) % 10 = d by omega,
    decDigits_fuel (10 * n + d) (n + 1) n (by omega) (by omega)]

theorem decimal_pow (m : Nat) (hm : 0 < m) : ∀ (j : Nat),
    decimal (m * 10 ^ j) = decimal m ++ List.replicate j 48
  | 0 => by simp
  | j + 1 => by
    have e : m * 10 ^ (j + 1) = 10 * (m * 10 ^ j) + 0 := by ring
    rw [e, decimal_step _ 0 (by positivity) (by decide), decimal_pow m hm j,
      List.replicate_succ', List.append_assoc]

theorem decimal_lt_pow : ∀ (f m : Nat), m < f → m < 10 ^ (decimal m).length
  | 0, _, h => absurd h (Nat.not_lt_zero _)
  | f + 1, m, hf => by
    by_cases h10 : m < 10
    · rw [decimal_small m h10]
      simp only [List.length_singleton, pow_one]
      exact h10
    · have e : m = 10 * (m / 10) + m % 10 := by omega
      have ih := decimal_lt_pow f (m / 10) (by omega)
      rw [e, decimal_step (m / 10) (m % 10) (by omega) (by omega), List.length_append,
        List.length_singleton, pow_succ, ← e]
      omega

theorem decimal_length_le : ∀ (k m : Nat), m < 10 ^ (k + 1) → (decimal m).length ≤ k + 1
  | 0, m, h => by
    rw [decimal_small m (by simpa using h)]
    simp
  | k + 1, m, h => by
    by_cases h10 : m < 10
    · rw [decimal_small m h10]
      simp
    · have e : m = 10 * (m / 10) + m % 10 := by omega
      have ih := decimal_length_le k (m / 10) (by rw [pow_succ] at h; omega)
      rw [e, decimal_step (m / 10) (m % 10) (by omega) (by omega), List.length_append,
        List.length_singleton]
      omega

theorem digitsVal_snoc (ds : List Nat) (d : Nat) :
    digitsVal (ds ++ [d]) = 10 * digitsVal ds + (d - 48) := by
  simp [digitsVal, List.foldl_append]

theorem digitsVal_decimal : ∀ (f m : Nat), m < f → digitsVal (decimal m) = m
  | 0, _, h => absurd h (Nat.not_lt_zero _)
  | f + 1, m, hf => by
    by_cases h10 : m < 10
    · rw [decimal_small m h10]
      simp [digitsVal]
    · have e : m = 10 * (m / 10) + m % 10 := by omega
      have ih := digitsVal_decimal f (m / 10) (by omega)
      rw [e, decimal_step (m / 10) (m % 10) (by omega) (by omega), digitsVal_snoc, ih]
      omega

theorem decimal_digits (m : Nat) : (decimal m).all isDigit = true := by
  rw [List.all_eq_true]
  exact decDigits_digits _ _

theorem stripZeros_zeros (j : Nat) : stripZeros (List.replicate j 48) = [] := by
  unfold stripZeros
  rw [List.reverse_replicate]
  have : List.dropWhile (fun d => d == 48) (List.replicate j 48) = [] := by
    induction j with
    | zero => rfl
    | succ j ih =>
      rw [List.replicate_succ, List.dropWhile_cons]
      simp [ih]
  rw [this]
  rfl

theorem roundHalfEven_one (a : Nat) : roundHalfEven a 1 = a := by
  simp [roundHalfEven, Nat.mod_one]

/-- The text that `operator<<` writes for a positive integer below `10^6` is its
decimal digits. -/
theorem showPositive_int (m : Nat) (hm : 0 < m) (h6 : m < 10 ^ 6) :
    showPositive m 1 = decimal m := by
  have hlen := decimal_length_le 5 m h6
  have hlt := decimal_lt_pow (m + 1) m (Nat.lt_succ_self _)
  have hne := decimal_ne_nil m
  obtain ⟨L, hL⟩ : ∃ L, (decimal m).length = L + 1 :=
    ⟨(decimal m).length - 1, by
      have : 0 < (decimal m).length := List.length_pos.2 hne
      omega⟩
  have hL5 : L ≤ 5 := by omega
  have hsix : sixDigits m 1 = (m * 10 ^ (5 - L), (L : Int)) := by
    have e1 : (((L + 1 : Nat) : Int) - 1) = (L : Int) := by push_cast; ring
    have e2 : ((5 : Int) - (L : Int)).toNat = 5 - L := by omega
    have hlt2 : m * 10 ^ (5 - L) < 1000000 := by
      rw [hL] at hlt
      calc m * 10 ^ (5 - L) < 10 ^ (L + 1) * 10 ^ (5 - L) :=
            Nat.mul_lt_mul_of_pos_right hlt (by positivity)
        _ = 10 ^ 6 := by rw [← pow_add]; congr 1; omega
        _ = 1000000 := by norm_num
    unfold sixDigits
    simp only [if_pos (show 1 ≤ m from hm), Nat.div_one, hL, e1,
      if_pos (show (L : Int) ≤ 5 by omega), e2, roundHalfEven_one,
      if_neg (show ¬ m * 10 ^ (5 - L) = 1000000 by omega)]
  unfold showPositive
  rw [hsix]
  simp only
  rw [if_neg (by omega), if_pos (by omega : (0 : Int) ≤ (L : Int))]
  rw [decimal_pow m hm, Int.toNat_ofNat]
  rw [List.drop_append_of_le_length (by omega), List.take_append_of_le_length (by omega)]
  rw [← hL, List.drop_length, List.take_length, List.nil_append, stripZeros_zeros]
  simp

/-- Two finite numbers of the same sign and the same magnitude are `==`. -/
theorem number_eq_of_value (neg : Bool) (m1 m2 : Nat) (e1 e2 : Int)
    (h : (m1 : ℚ) * (2 : ℚ) ^ e1 = (m2 : ℚ) * (2 : ℚ) ^ e2) :
    Number.eq (.finite neg m1 e1) (.finite neg m2 e2) = true := by
  unfold Number.eq
  simp only [beq_self_eq_true, Bool.or_true, Bool.and_true, beq_iff_eq]
  have h1 : (0 : Int) ≤ e1 - min e1 e2 := by omega
  have h2 : (0 : Int) ≤ e2 - min e1 e2 := by omega
  have hq : ((m1 * 2 ^ (e1 - min e1 e2).toNat : Nat) : ℚ)
      = ((m2 * 2 ^ (e2 - min e1 e2).toNat : Nat) : ℚ) := by
    push_cast
    rw [← zpow_natCast, ← zpow_natCast, Int.toNat_of_nonneg h1, Int.toNat_of_nonneg h2,
      zpow_sub₀ (by norm_num), zpow_sub₀ (by norm_num)]
    rw [← mul_div_assoc, ← mul_div_assoc, h]
  exact_mod_cast hq

/-- The text of a digit string with an optional `-` before it is read by
`std::stod` in full, as a number of its value when this is below `2^53`. -/
theorem stod_int (neg : Bool) (m : Nat) (h53 : m < 2 ^ 53) :
    ∃ v, stod ((if neg then [45] else []) ++ decimal m)
        = .ok v ((if neg then [45] else []) ++ decimal m).length ∧
      v.eq (.finite neg m 0) = true := by
  have hwf : (⟨if neg then [45] else [], decimal m, false, [], none⟩ : Literal).wf = true := by
    have h1 := decimal_digits m
    have h2 := decimal_ne_nil m
    cases hd : decimal m with
    | nil => exact absurd hd h2
    | cons c cs =>
      rw [hd] at h1
      cases neg <;> simp [Literal.wf, isSign, h1]
  have htext : (⟨if neg then [45] else [], decimal m, false, [], none⟩ : Literal).text
      = (if neg then [45] else []) ++ decimal m := by
    simp [Literal.text]
  have hsc := stod_scan ((if neg then [45] else []) ++ decimal m)
  rw [← htext, scanLiteral_text _ hwf] at hsc
  simp only [List.length_nil, Nat.sub_zero] at hsc
  rw [htext] at hsc
  rw [hsc]
  have hval : (⟨if neg then [45] else [], decimal m, false, [], none⟩ : Literal).value
      = (if neg then -1 else 1) * (m : ℚ) := by
    unfold Literal.value Literal.exponent
    simp only [List.append_nil, List.length_nil, Nat.cast_zero, sub_zero, zpow_zero, mul_one,
      digitsVal_decimal (m + 1) m (Nat.lt_succ_self _)]
    cases neg <;> simp
  have hdb : IsDouble (⟨if neg then [45] else [], decimal m, false, [], none⟩ : Literal).value := by
    refine ⟨m, 0, h53, by norm_num, by norm_num, ?_⟩
    rw [hval]
    cases neg <;> simp
  obtain ⟨s1, s2, _, _⟩ := stodResult_spec
    (⟨if neg then [45] else [], decimal m, false, [], none⟩ : Literal)
    ((if neg then [45] else []) ++ decimal m).length
  rcases s1 with hout | ⟨v, hv1, hv2, hv3⟩
  · exact absurd hout (s2 (Or.inl hdb))
  · refine ⟨v, hv1, ?_⟩
    have hex := hv2.2.2 _ hdb
    rw [sub_self, abs_zero] at hex
    have h3 : |(⟨if neg then [45] else [], decimal m, false, [], none⟩ : Literal).value - v.toRat|
        = 0 := le_antisymm hex (abs_nonneg _)
    rw [abs_eq_zero, sub_eq_zero, hval] at h3
    -- the form of the number `std::stod` returns
    have hform : ∃ m1 e1, v = .finite neg m1 e1 := by
      unfold Literal.stodResult at hv1
      have hsg : decide ((if neg then [45] else ([] : List Nat)) = [45]) = neg := by
        cases neg <;> simp
      simp only [hsg] at hv1
      split at hv1
      · injection hv1 with hv1
        exact ⟨0, 0, hv1.symm⟩
      · split at hv1
        · rename_i m1 e1 _
          injection hv1 with hv1
          exact ⟨m1, e1, hv1.symm⟩
        · cases hv1
    obtain ⟨m1, e1, rfl⟩ := hform
    apply number_eq_of_value
    simp only [Number.toRat] at h3
    rw [zpow_zero, mul_one]
    cases neg
    · simp only [Bool.false_eq_true, if_false, one_mul] at h3
      exact h3.symm
    · simp only [if_true] at h3
      linarith

/-- The Numbers of the integers of magnitude below `10^6` are Numbers whose
printed text reads back as the same Number. -/
theorem int_round_trips (k : Int) (hk : k.natAbs < 10 ^ 6) :
    numberRoundTrips (Number.ofInt k) = true := by
  unfold numberRoundTrips Number.ofInt
  have hshow : showNumber (.finite (decide (k < 0)) k.natAbs 0)
      = (if decide (k < 0) = true then [45] else []) ++ decimal k.natAbs := by
    unfold showNumber
    simp only
    congr 1
    by_cases h0 : k.natAbs = 0
    · rw [if_pos h0, h0]
      rfl
    · rw [if_neg h0, if_pos (le_refl _)]
      simp only [Int.toNat_zero, pow_zero, mul_one]
      exact showPositive_int _ (Nat.pos_of_ne_zero h0) hk
  have e : serializeToString (Element.ofNumber (.finite (decide (k < 0)) k.natAbs 0)) false
      = (if decide (k < 0) = true then [45] else []) ++ decimal k.natAbs := by
    rw [← hshow]
    simp [serializeToString, Element.ofNumber, serialize, Number.isfinite]
  rw [e]
  obtain ⟨v, hv1, hv2⟩ := stod_int (decide (k < 0)) k.natAbs
    (lt_trans hk (by norm_num))
  have hchars : ∃ c cs, (if decide (k < 0) = true then [45] else []) ++ decimal k.natAbs
      = c :: cs ∧ (c = 45 ∨ isDigit c = true) ∧ cs.all isNumberChar = true := by
    have h1 := decimal_digits k.natAbs
    have h2 := decimal_ne_nil k.natAbs
    have hnum : (decimal k.natAbs).all isNumberChar = true := by
      rw [List.all_eq_true] at h1 ⊢
      exact fun x hx => isDigit_isNumberChar x (h1 x hx)
    cases hd : decimal k.natAbs with
    | nil => exact absurd hd h2
    | cons c cs =>
      rw [hd] at h1 hnum
      rw [List.all_cons, Bool.and_eq_true] at h1 hnum
      by_cases hneg : decide (k < 0) = true
      · rw [if_pos hneg]
        exact ⟨45, c :: cs, rfl, Or.inl rfl, by rw [List.all_cons, hnum.1, hnum.2]; rfl⟩
      · rw [if_neg hneg]
        exact ⟨c, cs, rfl, Or.inr h1.1, hnum.2⟩
  obtain ⟨c, cs, hc, hc1, hc2⟩ := hchars
  rw [hc] at hv1 ⊢
  rw [deserialize_number_text c cs hc1 hc2, hv1]
  simp only [ne_eq, not_true_eq_false, if_false]
  simpa [Element.ofNumber, Element.eq] using hv2

/-! ## C34: the restricted round trip -/

/-- The keys the specification allows are the keys that are written and read as
they are. -/
theorem keyAllowed_eq (k : JString) : keyAllowed k = plainKey k := by
  unfold keyAllowed plainKey
  congr 1
  funext c
  by_cases h1 : c = 34 <;> by_cases h2 : c = 92 <;> by_cases h3 : c = 127 <;>
    by_cases h4 : c ≤ 31 <;> by_cases h5 : 128 ≤ c <;> by_cases h6 : c ≤ 159 <;>
    simp [isControl, bne, h1, h2, h3, h4, h5, h6]

/-- A Number whose printed text reads back as the same Number is finite, and
`std::stod` reads all of its printed text as a number `==` to it. -/
theorem numberRoundTrips_parts (n : Number) (h : numberRoundTrips n = true) :
    numberReads n = true ∧ numberReadsBack n = true := by
  unfold numberRoundTrips at h
  cases hf : n.isfinite with
  | false =>
    have e : serializeToString (Element.ofNumber n) false = lit "null" := by
      simp [serializeToString, Element.ofNumber, serialize, hf]
    rw [e] at h
    have e2 : deserialize (lit "null") = .value (Element.ofType .NULL_VALUE) := by decide
    rw [e2] at h
    simp only [] at h
    exact absurd h (by simp [Element.ofType, Element.ofNumber, Element.eq])
  | true =>
    have e : serializeToString (Element.ofNumber n) false = showNumber n := by
      simp [serializeToString, Element.ofNumber, serialize, hf]
    rw [e] at h
    obtain ⟨⟨c, cs, hc, hc1⟩, hall⟩ := showNumber_chars n hf
    rw [hc] at h hall
    have hcs : cs.all isNumberChar = true := by
      rw [List.all_eq_true]
      exact fun x hx => hall x (List.mem_cons_of_mem _ hx)
    rw [deserialize_number_text c cs hc1 hcs] at h
    cases hst : stod (c :: cs) with
    | ok val read =>
      rw [hst] at h
      simp only [] at h
      by_cases hr : read ≠ (c :: cs).length
      · rw [if_pos hr] at h
        cases h
      · rw [if_neg hr] at h
        push_neg at hr
        simp only [] at h
        have hv : val.eq n = true := by
          simpa [Element.ofNumber, Element.eq] using h
        have hre : reread n = val := by
          unfold reread
          rw [hc, hst]
        constructor
        · unfold numberReads
          rw [hf, hre, hc, hst, hr]
          simp
        · unfold numberReadsBack
          rw [hre]
          exact hv
    | invalid_argument =>
      rw [hst] at h
      cases h
    | out_of_range =>
      rw [hst] at h
      cases h

theorem keysDistinct_of_ascending (o : JObject) (h : keysAscending o = true) :
    keysDistinct o = true := by
  rw [keysDistinct_iff_nodup]
  have hp := keysAscending_keys o h
  refine hp.imp ?_
  intro a b hab heq
  rw [heq, strLess_irrefl] at hab
  cases hab

mutual
/-- A well-formed restricted value is a value whose text reads back, number by
number as a number `==` to the one written. -/
theorem restricted_readable : ∀ (x : Element), x.wellFormed = true → x.restricted = true →
    x.readable = true ∧ x.allNumbers numberReadsBack = true
  | .mk t o a s n b, hw, hr => by
    obtain ⟨w1, w2, w3⟩ := wellFormed_mk hw
    cases t with
    | NULL_VALUE => simp [Element.readable, Element.allNumbers]
    | BOOLEAN => simp [Element.readable, Element.allNumbers]
    | STRING =>
      simp only [Element.restricted] at hr
      simp [Element.readable, Element.allNumbers, hr]
    | NUMBER =>
      simp only [Element.restricted] at hr
      obtain ⟨h1, h2⟩ := numberRoundTrips_parts n hr
      simp [Element.readable, Element.allNumbers, h1, h2]
    | ARRAY =>
      simp only [Element.restricted] at hr
      obtain ⟨h1, h2⟩ := restrictedItems_readable a w3 hr
      simp [Element.readable, Element.allNumbers, h1, h2]
    | OBJECT =>
      simp only [Element.restricted] at hr
      obtain ⟨h1, h2⟩ := restrictedMembers_readable o w2 hr
      simp [Element.readable, Element.allNumbers, h1, h2, keysDistinct_of_ascending o w1]
theorem restrictedItems_readable : ∀ (xs : List Element), wellFormedItems xs = true →
    restrictedItems xs = true →
    readableItems xs = true ∧ allNumbersItems numberReadsBack xs = true
  | [], _, _ => by simp [readableItems, allNumbersItems]
  | x :: rest, hw, hr => by
    obtain ⟨w1, w2⟩ := wellFormedItems_cons hw
    rw [restrictedItems, Bool.and_eq_true] at hr
    obtain ⟨h1, h2⟩ := restricted_readable x w1 hr.1
    obtain ⟨h3, h4⟩ := restrictedItems_readable rest w2 hr.2
    simp [readableItems, allNumbersItems, h1, h2, h3, h4]
theorem restrictedMembers_readable : ∀ (ms : JObject), wellFormedMembers ms = true →
    restrictedMembers ms = true →
    readableMembers ms = true ∧ allNumbersMembers numberReadsBack ms = true
  | [], _, _ => by simp [readableMembers, allNumbersMembers]
  | (k, x) :: rest, hw, hr => by
    obtain ⟨w1, w2⟩ := wellFormedMembers_cons hw
    rw [restrictedMembers, Bool.and_eq_true, Bool.and_eq_true] at hr
    obtain ⟨h1, h2⟩ := restricted_readable x w1 hr.1.2
    obtain ⟨h3, h4⟩ := restrictedMembers_readable rest w2 hr.2
    have hk : plainKey k = true := by rw [← keyAllowed_eq]; exact hr.1.1
    simp [readableMembers, allNumbersMembers, h1, h2, h3, h4, hk]
end

/-- C34: a value in which every Object is a `std::map`, every key of an Object
holds no double quote, no backslash and no byte in `0x00`-`0x1F`, `0x7F` or
`0x80`-`0x9F`, every String is a string of bytes, and the printed text of every
Number reads back as the same Number.  `deserialize` reads the compact text and
the indented text of the value as a value `==` to it.  The Numbers of the
integers of magnitude below `10^6` are such Numbers. -/
theorem restricted_round_trip (D : Element) (hw : D.wellFormed = true)
    (hr : D.restricted = true) :
    (∃ D1, deserialize (serializeToString D false) = .value D1 ∧ D1.eq D = true) ∧
    (∃ D1, deserialize (serializeToString D true) = .value D1 ∧ D1.eq D = true) ∧
    (∀ k : Int, k.natAbs < 10 ^ 6 → numberRoundTrips (Number.ofInt k) = true) ∧
    (∀ k : Int, k.natAbs < 10 ^ 6 → (Element.ofNumber (Number.ofInt k)).wellFormed = true ∧
      (Element.ofNumber (Number.ofInt k)).restricted = true) := by
  obtain ⟨h1, h2⟩ := restricted_readable D hw hr
  refine ⟨⟨D.parsed, deserialize_serialize D _ h1, parsed_eq D hw h2⟩,
    ⟨D.parsed, deserialize_serialize D _ h1, parsed_eq D hw h2⟩, int_round_trips, ?_⟩
  intro k hk
  refine ⟨rfl, ?_⟩
  simp only [Element.ofNumber, Element.restricted]
  exact int_round_trips k hk

/-- C34 at the Object with the key `k` followed by the byte `0xA0` and, under
it, the Array of the String of the bytes `0x00`, `"`, `0xFF`, the Numbers 5 and
-123456, Null and `true`. -/
theorem restricted_round_trip_witness :
    (Element.mk .OBJECT [([107, 0xA0], .mk .ARRAY []
        [Element.ofString [0, 34, 255], Element.ofNumber (Number.ofInt 5),
          Element.ofNumber (Number.ofInt (-123456)), Element.ofType .NULL_VALUE,
          Element.ofBool true] [] Number.zero false)] [] [] Number.zero false).wellFormed
      = true ∧
    (Element.mk .OBJECT [([107, 0xA0], .mk .ARRAY []
        [Element.ofString [0, 34, 255], Element.ofNumber (Number.ofInt 5),
          Element.ofNumber (Number.ofInt (-123456)), Element.ofType .NULL_VALUE,
          Element.ofBool true] [] Number.zero false)] [] [] Number.zero false).restricted
      = true ∧
    (∃ D1, deserialize (serializeToString (Element.mk .OBJECT [([107, 0xA0], .mk .ARRAY []
        [Element.ofString [0, 34, 255], Element.ofNumber (Number.ofInt 5),
          Element.ofNumber (Number.ofInt (-123456)), Element.ofType .NULL_VALUE,
          Element.ofBool true] [] Number.zero false)] [] [] Number.zero false) true)
        = .value D1 ∧
      D1.eq (Element.mk .OBJECT [([107, 0xA0], .mk .ARRAY []
        [Element.ofString [0, 34, 255], Element.ofNumber (Number.ofInt 5),
          Element.ofNumber (Number.ofInt (-123456)), Element.ofType .NULL_VALUE,
          Element.ofBool true] [] Number.zero false)] [] [] Number.zero false) = true) ∧
    serializeToString (Element.mk .OBJECT [([107, 0xA0], .mk .ARRAY []
        [Element.ofString [0, 34, 255], Element.ofNumber (Number.ofInt 5),
          Element.ofNumber (Number.ofInt (-123456)), Element.ofType .NULL_VALUE,
          Element.ofBool true] [] Number.zero false)] [] [] Number.zero false) false
      = lit "\x7b \"k\xa0\": [ \"\\u0000\\\"\\u00ff\", 5, -123456, null, true ] \x7d" :=
  ⟨by decide, by decide!,
    (restricted_round_trip _ (by decide) (by decide!)).2.1, by decide⟩

/-! ## The stack of node pointers stays sound -/

/-- After a write through a pointer, every prefix of the pointer points into the
tree. -/
theorem deref_store_ancestor (v : Element) : ∀ (p q : NodePtr) (root r1 : Element),
    store root (p ++ q) v = some r1 → (deref r1 p).isSome = true
  | [], _, _, r1, _ => by rw [deref]; rfl
  | .index i :: p, q, .mk t o a s n b, r1, h => by
    rw [List.cons_append, store] at h
    cases hg : a.get? i with
    | none => simp only [hg] at h; cases h
    | some c =>
      simp only [hg] at h
      cases hs : store c (p ++ q) v with
      | none => simp only [hs] at h; cases h
      | some c1 =>
        simp only [hs, Option.some.injEq] at h
        rw [← h, deref]
        simp only [Element._array, listSet_get c1 a i c hg]
        exact deref_store_ancestor v p q c c1 hs
  | .member k :: p, q, .mk t o a s n b, r1, h => by
    rw [List.cons_append, store] at h
    cases hg : mapFind k o with
    | none => simp only [hg] at h; cases h
    | some c =>
      simp only [hg] at h
      cases hs : store c (p ++ q) v with
      | none => simp only [hs] at h; cases h
      | some c1 =>
        simp only [hs, Option.some.injEq] at h
        rw [← h, deref]
        simp only [Element._object, mapFind_mapSet k c1 o c hg]
        exact deref_store_ancestor v p q c c1 hs

/-- A write through the top of a sound stack leaves every pointer of the stack
pointing into the tree. -/
theorem store_sound {root r1 v : Element} {top : NodePtr} {below : List NodePtr}
    (hp : (top :: below).Pairwise (fun a b => b <+: a))
    (hs : store root top v = some r1) :
    ∀ ptr ∈ top :: below, (deref r1 ptr).isSome = true := by
  intro ptr hin
  rcases List.mem_cons.1 hin with rfl | hb
  · rw [deref_store v _ root r1 hs]
    rfl
  · obtain ⟨q, hq⟩ := (List.pairwise_cons.1 hp).1 ptr hb
    rw [← hq] at hs
    exact deref_store_ancestor v ptr q root r1 hs

theorem beginValue_sound (p : Parser) (top : NodePtr) (below : List NodePtr)
    (hn : p.nodes = top :: below) (hp : (top :: below).Pairwise (fun a b => b <+: a))
    (hv : (deref p.root top).isSome = true) : (beginValue p).sound := by
  unfold beginValue
  rw [hn]
  simp only
  cases hd : deref p.root top with
  | none => rw [hd] at hv; cases hv
  | some el =>
    simp only
    split
    · obtain ⟨r1, hs⟩ := store_of_deref (el.assign (Element.ofType .ARRAY)) top p.root el hd
      rw [hs]
      refine ⟨?_, ?_, ?_⟩
      · simp only [hn]; exact hp
      · simp only [hn]; exact store_sound hp hs
      · simp only [hn]; intro _ h; cases h
    · split
      · obtain ⟨r1, hs⟩ := store_of_deref (el.assign (Element.ofType .OBJECT)) top p.root el hd
        rw [hs]
        refine ⟨?_, ?_, ?_⟩
        · simp only [hn]; exact hp
        · simp only [hn]; exact store_sound hp hs
        · simp only [hn]; intro _ h; cases h
      · rcases hpp : parsePrimitive p.stream p.in_ (el.assign (Element.ofType .NULL_VALUE))
          p.line with ⟨el1, r⟩
        obtain ⟨r1, hs⟩ := store_of_deref el1 top p.root el hd
        cases r with
        | error e =>
          simp only [hs]
          trivial
        | ok q =>
          obtain ⟨extra, rest⟩ := q
          simp only [hs]
          refine ⟨(List.pairwise_cons.1 hp).2, ?_, ?_⟩
          · intro ptr hin
            exact store_sound hp hs ptr (List.mem_cons_of_mem _ hin)
          · intro h
            exact absurd rfl h

theorem preElement_sound (p : Parser) (hs : p.sound) (hst : p.state ≠ .S_POST_ELEMENT) :
    (preElement p).sound := by
  obtain ⟨hp, hv, hne⟩ := hs
  unfold preElement
  cases hn : p.nodes with
  | nil => exact absurd hn (hne hst)
  | cons top below =>
    rw [hn] at hp hv
    simp only
    have hvt := hv top (List.mem_cons_self _ _)
    cases hd : deref p.root top with
    | none => rw [hd] at hvt; cases hvt
    | some el =>
      obtain ⟨t, o, a, s, n, b⟩ := el
      simp only
      split
      · exact beginValue_sound p top below hn hp hvt
      · split
        · split
          · refine ⟨?_, ?_, ?_⟩
            · simp only [hn]; exact hp
            · simp only [hn]; exact hv
            · simp only [hn]; intro _ h; cases h
          · obtain ⟨r1, hs1⟩ := store_of_deref
              (.mk t o (a ++ [Element.copy (Element.ofType .NULL_VALUE)]) s n b)
              top p.root _ hd
            rw [hs1]
            simp only
            have hv1 := store_sound hp hs1
            refine beginValue_sound _ (top ++ [.index a.length]) (top :: below) rfl ?_ ?_
            · refine List.pairwise_cons.2 ⟨?_, hp⟩
              intro ptr hin
              rcases List.mem_cons.1 hin with rfl | hb
              · exact List.prefix_append _ _
              · exact ((List.pairwise_cons.1 hp).1 ptr hb).trans (List.prefix_append _ _)
            · simp only
              rw [deref_snoc _ top r1 _ (deref_store _ top p.root r1 hs1), deref]
              simp only [Element._array, get_append_last]
              rw [deref]
              rfl
        · split
          · obtain ⟨r1, hs1⟩ := store_of_deref
              (.mk t (mapModify p.key (fun x => x.assign (Element.ofType .NULL_VALUE)) o)
                a s n b) top p.root _ hd
            rw [hs1]
            simp only
            refine beginValue_sound _ (top ++ [.member p.key]) (top :: below) rfl ?_ ?_
            · refine List.pairwise_cons.2 ⟨?_, hp⟩
              intro ptr hin
              rcases List.mem_cons.1 hin with rfl | hb
              · exact List.prefix_append _ _
              · exact ((List.pairwise_cons.1 hp).1 ptr hb).trans (List.prefix_append _ _)
            · simp only
              rw [deref_snoc _ top r1 _ (deref_store _ top p.root r1 hs1), deref]
              simp only [Element._object, mapFind_mapModify]
              rw [deref]
              rfl
          · exact beginValue_sound p top below hn hp hvt

theorem postElement_sound (p : Parser) (hs : p.sound) : (postElement p).sound := by
  obtain ⟨hp, hv, hne⟩ := hs
  unfold postElement
  cases hn : p.nodes with
  | nil => trivial
  | cons top below =>
    rw [hn] at hp hv
    simp only
    have hvt := hv top (List.mem_cons_self _ _)
    cases hd : deref p.root top with
    | none => rw [hd] at hvt; cases hvt
    | some el =>
      simp only
      have hkeep : ∀ st : State,
          Parser.sound ⟨p.stream, st, p.root, top :: below, p.key, p.line, p.in_⟩ := by
        intro st
        refine ⟨hp, hv, ?_⟩
        intro _ h
        cases h
      have hpop :
          Parser.sound ⟨p.stream, .S_POST_ELEMENT, p.root, below, p.key, p.line, p.in_⟩ := by
        refine ⟨(List.pairwise_cons.1 hp).2, ?_, ?_⟩
        · intro ptr hin
          exact hv ptr (List.mem_cons_of_mem _ hin)
        · intro h
          exact absurd rfl h
      split
      · exact hkeep _
      · split
        · split
          · trivial
          · exact hpop
        · split
          · split
            · trivial
            · exact hpop
          · trivial

theorem body_sound (p : Parser) (hs : p.sound) : (body p).sound := by
  have hline : ∀ (line : Int), Parser.sound { p with line := line } := fun _ => hs
  unfold body
  split
  · cases hsk : skipLineComment p.stream p.line with
    | error e => trivial
    | ok r => exact hs
  · have hq : Parser.sound (if p.in_ = '\n'.toNat ∨ p.in_ = '\r'.toNat
        then { p with line := p.line + 1 } else p) := by
      split
      · exact hline _
      · exact hs
    simp only
    generalize (if p.in_ = '\n'.toNat ∨ p.in_ = '\r'.toNat then { p with line := p.line + 1 }
        else p) = q at hq
    split
    · exact hq
    · cases hst : q.state with
      | S_PRE_ELEMENT => exact preElement_sound q hq (by rw [hst]; intro h; cases h)
      | S_POST_ELEMENT => exact postElement_sound q hq
      | S_PRE_SEP =>
        simp only
        split
        · trivial
        · refine ⟨hq.1, hq.2.1, fun _ => hq.2.2 (by rw [hst]; intro h; cases h)⟩
      | S_PRE_KEY =>
        simp only
        split
        · cases parseString q.stream q.line with
          | error e => trivial
          | ok r => exact ⟨hq.1, hq.2.1, fun _ => hq.2.2 (by rw [hst]; intro h; cases h)⟩
        · split
          · exact ⟨hq.1, hq.2.1, fun h => absurd rfl h⟩
          · trivial

/-- From a sound stack, the run of the loop uses no dangling pointer and never
the top of an empty stack, whatever the fuel. -/
theorem run_defined : ∀ (fuel : Nat) (p : Parser), p.sound →
    whileRead fuel p ≠ .undefined ∧ redo fuel p ≠ .undefined
  | 0, p, _ => by
    rw [whileRead, redo]
    exact ⟨fun h => Outcome.noConfusion h, fun h => Outcome.noConfusion h⟩
  | fuel + 1, p, hs => by
    constructor
    · rw [whileRead]
      cases hst : p.stream with
      | nil => intro h; cases h
      | cons c rest => exact (run_defined fuel { p with in_ := c, stream := rest } hs).2
    · rw [redo]
      have hb := body_sound p hs
      cases hbody : body p with
      | continue_ q =>
        rw [hbody] at hb
        exact (run_defined fuel q hb).1
      | redo q =>
        rw [hbody] at hb
        exact (run_defined fuel q hb).2
      | throw e q => intro h; cases h
      | undefined =>
        rw [hbody] at hb
        exact absurd hb (by simp [Next.sound])

theorem enter_sound (s : List Nat) (root : Element) : (Parser.enter s root).sound := by
  refine ⟨?_, ?_, ?_⟩
  · simp [Parser.enter]
  · intro ptr hin
    simp only [Parser.enter, List.mem_singleton] at hin
    subst hin
    rfl
  · intro _ h
    simp [Parser.enter] at h

/-! ## C38: the parser is total -/

/-- C38: for every input, `deserialize` returns a value or throws a
`SyntaxError`, and so does the function on a stream, whatever the caller's root
holds: the loop ends within the fuel `3 * length + 1` (more fuel gives the same
result), and no run uses a dangling pointer or the top of an empty stack.  A
pass through the loop body that ends with `goto redo` leaves the state
`S_POST_ELEMENT`, gives no input back, and the pass that follows does not end
with `goto redo`: from a sound stack it ends the iteration, after which the loop
head reads the next character or the loop ends, or it throws.  Every pass from a
sound stack leaves a sound stack: no pointer on it is dangling, and it is
empty in state `S_POST_ELEMENT` only, where the source tests `nodes.empty()`
before it uses `nodes.top()`. -/
theorem parser_total (s : List Nat) :
    ((∃ D, deserialize s = .value D) ∨ ∃ e, deserialize s = .syntaxError e) ∧
    (∀ root : Element, (∃ p, deserializeStream s root = .done p) ∨
      ∃ e p, deserializeStream s root = .throw e p) ∧
    (∀ (root : Element) (n : Nat), 3 * s.length + 1 ≤ n →
      whileRead n (Parser.enter s root)
        = whileRead (3 * s.length + 1) (Parser.enter s root)) ∧
    (∀ (root : Element) (n : Nat), whileRead n (Parser.enter s root) ≠ .undefined) ∧
    (∀ root : Element, (Parser.enter s root).sound) ∧
    (∀ p : Parser, p.sound → (body p).sound) ∧
    (∀ p q : Parser, body p = .redo q →
      q.state = .S_POST_ELEMENT ∧ q.stream.length ≤ p.stream.length ∧
        (∀ q1, body q ≠ .redo q1) ∧
        (p.sound → (∃ q1, body q = .continue_ q1 ∧ q1.stream.length ≤ q.stream.length) ∨
          ∃ e q1, body q = .throw e q1)) ∧
    (∀ p q : Parser, body p = .continue_ q → q.stream.length ≤ p.stream.length) := by
  have hfuel : ∀ root : Element,
      whileRead (3 * s.length + 1) (Parser.enter s root) ≠ .outOfFuel :=
    fun root => (fuel_enough (3 * s.length + 1)).1 (Parser.enter s root) (le_refl _)
  have hdef : ∀ (root : Element) (n : Nat), whileRead n (Parser.enter s root) ≠ .undefined :=
    fun root n => (run_defined n (Parser.enter s root) (enter_sound s root)).1
  have hstream : ∀ root : Element, (∃ p, deserializeStream s root = .done p) ∨
      ∃ e p, deserializeStream s root = .throw e p := by
    intro root
    have h1 := hfuel root
    have h2 := hdef root (3 * s.length + 1)
    unfold deserializeStream
    unfold Parser.enter at h1 h2
    cases hr : whileRead (3 * s.length + 1)
        ⟨s, .S_PRE_ELEMENT, root.assign (Element.ofType .NULL_VALUE), [[]], [], 1, 0⟩ with
    | done p =>
      simp only
      split
      · exact Or.inr ⟨_, _, rfl⟩
      · exact Or.inl ⟨_, rfl⟩
    | throw e q => exact Or.inr ⟨e, q, rfl⟩
    | undefined => exact absurd hr h2
    | outOfFuel => exact absurd hr h1
  have hredo : ∀ p q : Parser, body p = .redo q → ∀ q1, body q ≠ .redo q1 := by
    intro p q hb q1 hb1
    exact ((body_stream q).2 q1 hb1).2.2 ((body_stream p).2 q hb).1
  refine ⟨?_, hstream, ?_, hdef, enter_sound s, body_sound, ?_,
    fun p q hb => (body_stream p).1 q hb⟩
  · unfold deserialize
    rcases hstream (Element.ofType .NULL_VALUE) with ⟨p, hp⟩ | ⟨e, p, hp⟩
    · rw [hp]
      exact Or.inl ⟨_, rfl⟩
    · rw [hp]
      exact Or.inr ⟨_, rfl⟩
  · intro root n hn
    exact whileRead_mono rfl (hfuel root) hn
  · intro p q hb
    obtain ⟨h1, h2, _⟩ := (body_stream p).2 q hb
    refine ⟨h1, h2, hredo p q hb, ?_⟩
    intro hs
    have hq : (body p).sound := body_sound p hs
    rw [hb] at hq
    have hq2 := body_sound q hq
    cases hbq : body q with
    | continue_ q1 => exact Or.inl ⟨q1, rfl, (body_stream q).1 q1 hbq⟩
    | redo q1 => exact absurd hbq (hredo p q hb q1)
    | throw e q1 => exact Or.inr ⟨e, q1, rfl⟩
    | undefined =>
      rw [hbq] at hq2
      exact absurd hq2 (by simp [Next.sound])

/-! ## The run of the loop on a text with any text behind it -/

theorem dropLine_cons (c : Nat) (t : List Nat) :
    dropLine (c :: t) = if c = 10 ∨ c = 13 then t else dropLine t := by
  unfold dropLine
  rw [skipToEol]
  split
  · rfl
  · rfl

theorem dropLine_plain_append : ∀ (c u : List Nat), (∀ b ∈ c, b ≠ 10 ∧ b ≠ 13) →
    dropLine (c ++ u) = dropLine u
  | [], _, _ => rfl
  | b :: c, u, h => by
    have hb := h b (List.mem_cons_self _ _)
    rw [List.cons_append, dropLine_cons, if_neg (by
      intro hh
      rcases hh with hh | hh
      · exact hb.1 hh
      · exact hb.2 hh)]
    exact dropLine_plain_append c u (fun d hd => h d (List.mem_cons_of_mem _ hd))

/-- The run of the loop on a text of `s` that ends normally, followed on the same
text with any text `u` behind it that does not start with a character of a
number: for every such `u` the run comes to the loop head in a like state with
`u` unread; or the text ended within a comment and for every such `u` the run
comes to the loop head in a like state with what the comment leaves of `u`. -/
theorem run_follows_all (s : List Nat) : ∀ (n : Nat),
    (∀ (t : List Nat) (st : State) (root : Element) (nodes : List NodePtr) (key : JString)
      (line : Int) (c0 : Nat) (r : Parser), t <:+ s →
      whileRead n ⟨t, st, root, nodes, key, line, c0⟩ = .done r →
      (∀ (u : List Nat) (line1 : Int) (c1 : Nat), endsNumber u →
        ∃ q, Leads ⟨t ++ u, st, root, nodes, key, line1, c1⟩ q ∧ r.alike q ∧ q.stream = u) ∨
      (endsInComment s ∧ ∀ (u : List Nat) (line1 : Int) (c1 : Nat), endsNumber u →
        ∃ q, Leads ⟨t ++ u, st, root, nodes, key, line1, c1⟩ q ∧ r.alike q ∧
          q.stream = dropLine u)) ∧
    (∀ (t : List Nat) (st : State) (root : Element) (nodes : List NodePtr) (key : JString)
      (line : Int) (c : Nat) (r : Parser), t <:+ s → (c = 47 → 47 :: t <:+ s) →
      redo n ⟨t, st, root, nodes, key, line, c⟩ = .done r →
      (∀ (u : List Nat) (line1 : Int), endsNumber u →
        ∃ q, LeadsNext (.redo ⟨t ++ u, st, root, nodes, key, line1, c⟩) q ∧ r.alike q ∧
          q.stream = u) ∨
      (endsInComment s ∧ ∀ (u : List Nat) (line1 : Int), endsNumber u →
        ∃ q, LeadsNext (.redo ⟨t ++ u, st, root, nodes, key, line1, c⟩) q ∧ r.alike q ∧
          q.stream = dropLine u))
  | 0 => by
    constructor
    · intro t st root nodes key line c0 r _ h
      rw [whileRead] at h; cases h
    · intro t st root nodes key line c r _ _ h
      rw [redo] at h; cases h
  | n + 1 => by
    obtain ⟨ihw, ihr⟩ := run_follows_all s n
    constructor
    · intro t st root nodes key line c0 r hsuf h
      cases t with
      | nil =>
        rw [whileRead_nil n _ rfl] at h
        cases h
        left
        intro u line1 c1 _
        exact ⟨⟨u, st, root, nodes, key, line1, c1⟩, Leads.refl _, ⟨rfl, rfl, rfl, rfl⟩, rfl⟩
      | cons c t =>
        rw [whileRead_cons n _ c t rfl] at h
        rcases ihr t st root nodes key line c r ((List.suffix_cons c t).trans hsuf)
          (fun e => by rw [← e]; exact hsuf) h with hA | ⟨hc, hB⟩
        · left
          intro u line1 c1 hu
          obtain ⟨q, hl, ha, hq⟩ := hA u line1 hu
          exact ⟨q, leads_of_redo hl, ha, hq⟩
        · right
          refine ⟨hc, ?_⟩
          intro u line1 c1 hu
          obtain ⟨q, hl, ha, hq⟩ := hB u line1 hu
          exact ⟨q, leads_of_redo hl, ha, hq⟩
    · intro t st root nodes key line c r hsuf h47 h
      rw [redo_succ] at h
      have hf0 := body_follows [] endsNumber_nil t st root nodes key line line c
      cases hb : body ⟨t, st, root, nodes, key, line, c⟩ with
      | throw e q => rw [hb] at h; cases h
      | undefined => rw [hb] at h; cases h
      | continue_ q =>
        rw [hb] at h hf0
        simp only [Next.run] at h
        obtain ⟨t2, st2, root2, nodes2, key2, line2, c2⟩ := q
        -- what the pass on a longer text gives
        have hpass : ∀ (u : List Nat) (line1 : Int), endsNumber u →
            ∃ t3 line3 c3, body ⟨t ++ u, st, root, nodes, key, line1, c⟩
                = .continue_ ⟨t3, st2, root2, nodes2, key2, line3, c3⟩ ∧ t2 <:+ t ∧
              (t3 = t2 ++ u ∨ (t2 = [] ∧ t3 = dropLine u ∧ c = 47 ∧
                ∃ r0, t = 47 :: r0 ∧ ∀ b ∈ r0, b ≠ 10 ∧ b ≠ 13)) := by
          intro u line1 hu
          have hf := body_follows u hu t st root nodes key line line1 c
          rw [hb] at hf
          cases hb1 : body ⟨t ++ u, st, root, nodes, key, line1, c⟩ with
          | throw e q1 => rw [hb1] at hf; exact absurd hf (by simp [Next.Follows])
          | undefined => rw [hb1] at hf; exact absurd hf (by simp [Next.Follows])
          | redo q1 => rw [hb1] at hf; exact absurd hf (by simp [Next.Follows])
          | continue_ q1 =>
            rw [hb1] at hf
            simp only [Next.Follows] at hf
            obtain ⟨ha, hs1, halt⟩ := hf
            obtain ⟨t3, st3, root3, nodes3, key3, line3, c3⟩ := q1
            obtain ⟨a1, a2, a3, a4⟩ := ha
            simp only at a1 a2 a3 a4 hs1 halt
            subst a1 a2 a3 a4
            exact ⟨t3, line3, c3, rfl, hs1, halt⟩
        by_cases hP : t2 = [] ∧ c = 47 ∧ ∃ r0, t = 47 :: r0 ∧ ∀ b ∈ r0, b ≠ 10 ∧ b ≠ 13
        · obtain ⟨e1, e2, r0, e4, e5⟩ := hP
          subst e1 e2 e4
          cases n with
          | zero => rw [whileRead] at h; cases h
          | succ m =>
            rw [whileRead_nil m _ rfl] at h
            cases h
            right
            constructor
            · obtain ⟨pre, hpre⟩ := h47 rfl
              exact ⟨pre, r0, hpre.symm, e5⟩
            · intro u line1 hu
              have hb1 : body ⟨47 :: r0 ++ u, st, root, nodes, key, line1, 47⟩
                  = .continue_ ⟨dropLine (r0 ++ u), st, root, nodes, key,
                      (skipToEol (r0 ++ u) line1).1, 47⟩ := body_comment _ _ _ _ _ _
              rw [body_comment] at hb
              injection hb with hb
              injection hb with _ b2 b3 b4 b5 _ _
              subst b2 b3 b4 b5
              refine ⟨⟨dropLine u, st, root, nodes, key, (skipToEol (r0 ++ u) line1).1, 47⟩,
                ?_, ⟨rfl, rfl, rfl, rfl⟩, rfl⟩
              apply leadsNext_of_body hb1
              rw [dropLine_plain_append r0 u e5]
              exact leadsNext_continue (Leads.refl _)
        · have hpass2 : ∀ (u : List Nat) (line1 : Int), endsNumber u →
              ∃ line3 c3, body ⟨t ++ u, st, root, nodes, key, line1, c⟩
                = .continue_ ⟨t2 ++ u, st2, root2, nodes2, key2, line3, c3⟩ := by
            intro u line1 hu
            obtain ⟨t3, line3, c3, hb1, _, halt⟩ := hpass u line1 hu
            rcases halt with e | ⟨e1, _, e3, e4⟩
            · subst e
              exact ⟨line3, c3, hb1⟩
            · exact absurd ⟨e1, e3, e4⟩ hP
          obtain ⟨_, _, _, _, hs1, _⟩ := hpass [] line endsNumber_nil
          rcases ihw t2 st2 root2 nodes2 key2 line2 c2 r (hs1.trans hsuf) h with hA | ⟨hc, hB⟩
          · left
            intro u line1 hu
            obtain ⟨line3, c3, hb1⟩ := hpass2 u line1 hu
            obtain ⟨q, hl, ha, hq⟩ := hA u line3 c3 hu
            exact ⟨q, leadsNext_of_body hb1 (leadsNext_continue hl), ha, hq⟩
          · right
            refine ⟨hc, ?_⟩
            intro u line1 hu
            obtain ⟨line3, c3, hb1⟩ := hpass2 u line1 hu
            obtain ⟨q, hl, ha, hq⟩ := hB u line3 c3 hu
            exact ⟨q, leadsNext_of_body hb1 (leadsNext_continue hl), ha, hq⟩
      | redo q =>
        rw [hb] at h hf0
        simp only [Next.run] at h
        obtain ⟨t2, st2, root2, nodes2, key2, line2, c2⟩ := q
        have hpass : ∀ (u : List Nat) (line1 : Int), endsNumber u →
            ∃ t3 line3 c3, body ⟨t ++ u, st, root, nodes, key, line1, c⟩
                = .redo ⟨t3, st2, root2, nodes2, key2, line3, c3⟩ ∧ t2 <:+ t ∧
              (c2 = 47 → 47 :: t2 <:+ t) ∧
              ((t3 = t2 ++ u ∧ c3 = c2) ∨ (t2 = [] ∧ c2 = 32 ∧ u = c3 :: t3)) := by
          intro u line1 hu
          have hf := body_follows u hu t st root nodes key line line1 c
          rw [hb] at hf
          cases hb1 : body ⟨t ++ u, st, root, nodes, key, line1, c⟩ with
          | throw e q1 => rw [hb1] at hf; exact absurd hf (by simp [Next.Follows])
          | undefined => rw [hb1] at hf; exact absurd hf (by simp [Next.Follows])
          | continue_ q1 => rw [hb1] at hf; exact absurd hf (by simp [Next.Follows])
          | redo q1 =>
            rw [hb1] at hf
            simp only [Next.Follows] at hf
            obtain ⟨ha, hs1, hs47, halt⟩ := hf
            obtain ⟨t3, st3, root3, nodes3, key3, line3, c3⟩ := q1
            obtain ⟨a1, a2, a3, a4⟩ := ha
            simp only at a1 a2 a3 a4 hs1 hs47 halt
            subst a1 a2 a3 a4
            exact ⟨t3, line3, c3, rfl, hs1, hs47, halt⟩
        by_cases hP : t2 = [] ∧ c2 = 32
        · obtain ⟨e1, e2⟩ := hP
          subst e1 e2
          cases n with
          | zero => rw [redo] at h; cases h
          | succ m =>
            rw [redo_succ, body_white (show isWhite 32 = true by decide)] at h
            simp only [Next.run] at h
            cases m with
            | zero => rw [whileRead] at h; cases h
            | succ k =>
              rw [whileRead_nil k _ rfl] at h
              cases h
              left
              intro u line1 hu
              obtain ⟨t3, line3, c3, hb1, _, _, halt⟩ := hpass u line1 hu
              rcases halt with ⟨e3, e4⟩ | ⟨_, _, e5⟩
              · rw [List.nil_append] at e3
                rw [e3, e4] at hb1
                refine ⟨⟨u, st2, root2, nodes2, key2, line3, 32⟩, ?_, ⟨rfl, rfl, rfl, rfl⟩, rfl⟩
                apply leadsNext_of_body hb1
                apply leadsNext_redo
                rw [body_white (show isWhite 32 = true by decide)]
                simp only [show ¬ ((32 : Nat) = 10 ∨ (32 : Nat) = 13) by decide, if_false]
                exact leadsNext_continue (Leads.refl _)
              · refine ⟨⟨u, st2, root2, nodes2, key2, line3, 0⟩, ?_, ⟨rfl, rfl, rfl, rfl⟩, rfl⟩
                apply leadsNext_of_body hb1
                rw [e5]
                exact leadsNext_lookahead c3 t3 st2 root2 nodes2 key2 line3 0
        · have hpass2 : ∀ (u : List Nat) (line1 : Int), endsNumber u →
              ∃ line3, body ⟨t ++ u, st, root, nodes, key, line1, c⟩
                = .redo ⟨t2 ++ u, st2, root2, nodes2, key2, line3, c2⟩ := by
            intro u line1 hu
            obtain ⟨t3, line3, c3, hb1, _, _, halt⟩ := hpass u line1 hu
            rcases halt with ⟨e3, e4⟩ | ⟨e1, e2, _⟩
            · subst e3 e4
              exact ⟨line3, hb1⟩
            · exact absurd ⟨e1, e2⟩ hP
          obtain ⟨_, _, _, _, hs1, hs47, _⟩ := hpass [] line endsNumber_nil
          rcases ihr t2 st2 root2 nodes2 key2 line2 c2 r (hs1.trans hsuf)
            (fun e => (hs47 e).trans hsuf) h with hA | ⟨hc, hB⟩
          · left
            intro u line1 hu
            obtain ⟨line3, hb1⟩ := hpass2 u line1 hu
            obtain ⟨q, hl, ha, hq⟩ := hA u line3 hu
            exact ⟨q, leadsNext_of_body hb1 hl, ha, hq⟩
          · right
            refine ⟨hc, ?_⟩
            intro u line1 hu
            obtain ⟨line3, hb1⟩ := hpass2 u line1 hu
            obtain ⟨q, hl, ha, hq⟩ := hB u line3 hu
            exact ⟨q, leadsNext_of_body hb1 hl, ha, hq⟩

/-! ## Runs that end -/

/-- The loop ends in one way only. -/
theorem halts_unique {p : Parser} {x y : Outcome} (hx : Halts p x) (hy : Halts p y) : x = y := by
  obtain ⟨n, hn, hnx⟩ := hx
  obtain ⟨m, hm, hmy⟩ := hy
  have h1 := whileRead_mono hn hnx (Nat.le_max_left n m)
  have h2 := whileRead_mono hm hmy (Nat.le_max_right n m)
  rw [← h1, ← h2]

/-- The loop ends from every state. -/
theorem halts_some (p : Parser) : ∃ x, Halts p x :=
  ⟨_, 3 * p.stream.length + 1, rfl, (fuel_enough _).1 p (le_refl _)⟩

/-- When the run from `p` comes to `q`, the run from `q` ends as the run from `p`. -/
theorem halts_of_leads {p q : Parser} {x : Outcome} (hl : Leads p q) (hx : Halts p x) :
    Halts q x := by
  obtain ⟨y, hy⟩ := halts_some q
  have := halts_unique hx (hl y hy)
  rw [this]
  exact hy

/-- A run that ends normally ends normally in a like state, whatever the line
number and the character read last are at its start. -/
theorem halts_alike {t : List Nat} {st : State} {root : Element} {nodes : List NodePtr}
    {key : JString} {line : Int} {c0 : Nat} {r : Parser}
    (h : Halts ⟨t, st, root, nodes, key, line, c0⟩ (.done r)) (line1 : Int) (c1 : Nat) :
    ∃ r1, Halts ⟨t, st, root, nodes, key, line1, c1⟩ (.done r1) ∧ r.alike r1 := by
  obtain ⟨n, hn, _⟩ := h
  obtain ⟨q, hl, ha, hq⟩ := (run_follows [] endsNumber_nil t n).1 t st root nodes key line line1
    c0 c1 r (List.suffix_refl _) hn
  rw [List.append_nil] at hl
  have hs : q.stream = [] := by
    rcases hq with hq | ⟨hq, _⟩
    · exact hq
    · exact hq
  exact ⟨q, hl _ ⟨1, whileRead_nil 0 q hs, fun hh => by cases hh⟩, ha⟩

/-! ## C36: a comma before a closing bracket -/

/-- A `,` and a closing bracket behind an element: the run comes to the state to
which the bracket alone leads, up to the line number. -/
theorem comma_close (c : Nat) (hc : c = 93 ∨ c = 125) (post : List Nat) (root : Element)
    (nodes : List NodePtr) (key : JString) (line line1 : Int) (c0 c1 : Nat) (r : Parser)
    (h : Halts ⟨c :: post, .S_POST_ELEMENT, root, nodes, key, line, c0⟩ (.done r)) :
    ∃ r1, Halts ⟨44 :: c :: post, .S_POST_ELEMENT, root, nodes, key, line1, c1⟩ (.done r1) ∧
      r.alike r1 := by
  have hc47 : c ≠ 47 ∧ isWhite c = false := by
    rcases hc with rfl | rfl <;> exact ⟨by decide, by decide⟩
  obtain ⟨n, hn, _⟩ := h
  cases n with
  | zero => rw [whileRead] at hn; cases hn
  | succ n =>
    rw [whileRead_cons n _ c post rfl] at hn
    cases n with
    | zero => rw [redo] at hn; cases hn
    | succ n =>
      rw [redo_succ, body_post _ _ _ _ _ _ hc47.1 hc47.2] at hn
      cases nodes with
      | nil =>
        simp only [postElement, Next.run] at hn
        cases hn
      | cons top below =>
        cases hd : deref root top with
        | none =>
          simp only [postElement, hd, Next.run] at hn
          cases hn
        | some el =>
          obtain ⟨t, o, a, s, nn, b⟩ := el
          -- the run behind the bracket
          have key1 : ∀ (st1 : State),
              Leads ⟨c :: post, st1, root, top :: below, key, line1, 44⟩
                ⟨post, .S_POST_ELEMENT, root, below, key, line1, c⟩ →
              whileRead n ⟨post, .S_POST_ELEMENT, root, below, key, line, c⟩ = .done r →
              (if (Element.mk t o a s nn b).isArray then State.S_PRE_ELEMENT else .S_PRE_KEY)
                = st1 →
              ∃ r1, Halts ⟨44 :: c :: post, .S_POST_ELEMENT, root, top :: below, key, line1, c1⟩
                  (.done r1) ∧ r.alike r1 := by
            intro st1 hl hrun hst
            obtain ⟨r1, hr1, ha⟩ := halts_alike ⟨n, hrun, fun hh => by cases hh⟩ line1 c
            refine ⟨r1, ?_, ha⟩
            refine (Leads.trans ?_ hl) _ hr1
            apply leads_of_body 44 _ rfl
            rw [body_post _ _ _ _ _ _ (by decide) (by decide), postElement_comma hd, hst]
            exact leadsNext_continue (Leads.refl _)
          rcases hc with rfl | rfl
          · by_cases harr : (Element.mk t o a s nn b).isArray = true
            · have ht : t = .ARRAY := by simpa [Element.isArray, Element.type] using harr
              subst ht
              rw [postElement_close_array hd] at hn
              exact key1 .S_PRE_ELEMENT (close_step post root top below key line1 44 o a s nn b hd)
                hn (by rw [if_pos harr])
            · exfalso
              have hp : postElement ⟨post, .S_POST_ELEMENT, root, top :: below, key, line, 93⟩
                  = .throw ⟨"Token ']' is illegal inside object.", line, 93⟩
                      ⟨post, .S_POST_ELEMENT, root, top :: below, key, line, 93⟩ := by
                simp [postElement, hd, harr]
              rw [hp] at hn
              cases hn
          · by_cases hobj : (Element.mk t o a s nn b).isObject = true
            · have ht : t = .OBJECT := by simpa [Element.isObject, Element.type] using hobj
              subst ht
              rw [postElement_close_object hd] at hn
              have hl : Leads ⟨125 :: post, .S_PRE_KEY, root, top :: below, key, line1, 44⟩
                  ⟨post, .S_POST_ELEMENT, root, below, key, line1, 125⟩ := by
                apply leads_of_body 125 _ rfl
                rw [body_key_close]
                apply leadsNext_redo
                rw [body_post _ _ _ _ _ _ (by decide) (by decide), postElement_close_object hd]
                exact leadsNext_continue (Leads.refl _)
              exact key1 .S_PRE_KEY hl hn (by simp [Element.isArray, Element.type])
            · exfalso
              have hp : postElement ⟨post, .S_POST_ELEMENT, root, top :: below, key, line, 125⟩
                  = .throw ⟨"Token '\x7d' is illegal inside array.", line, 125⟩
                      ⟨post, .S_POST_ELEMENT, root, top :: below, key, line, 125⟩ := by
                simp [postElement, hd, hobj]
              rw [hp] at hn
              cases hn

/-- C36 fails as stated: `deserialize` reads the text `[1,]` as the Array of the
Number 1, and with one `,` put in directly before its closing bracket the text
is `[1,,]`, which is refused; in the same way the text with a `,` before the
closing bracket of `{"a":1,}` is refused. -/
theorem trailing_comma_counterexample :
    deserialize (lit "[1,]") = .value (Element.ofArray [Element.ofNumber (.finite false 1 0)]) ∧
    deserialize (lit "[1," ++ 44 :: lit "]")
      = .syntaxError ⟨"Primitive must be one of null, true, false, number or quoted string.",
          1, 44⟩ ∧
    deserialize (lit "\x7b\"a\":1,\x7d")
      = .value (Element.ofObject [([97], Element.ofNumber (.finite false 1 0))]) ∧
    deserialize (lit "\x7b\"a\":1," ++ 44 :: lit "\x7d")
      = .syntaxError ⟨"Expected key or closing bracket.", 1, 44⟩ := by
  refine ⟨?_, ?_, ?_, ?_⟩ <;> decide!

/-- C36 (amended): a text `pre ++ c :: post` that `deserialize` reads as the value `D`,
where `c` is a closing bracket and the text `pre` in front of it, read on its
own, leaves the loop in state `S_POST_ELEMENT`: an element has just been
completed, so the bracket stands neither behind the opening bracket nor behind a
comma.  With one `,` put in before the bracket, `deserialize` returns `D` as
well.  This holds for a closing bracket at any depth: in state
`S_POST_ELEMENT`, a run on `,` and the bracket ends like the run on the
bracket alone.  A `,` directly behind the opening bracket, with or without
white space and comments around the bracket, is refused, as is a second `,`. -/
theorem trailing_comma (pre post : List Nat) (c : Nat) (D : Element) (r : Parser)
    (hc : c = 93 ∨ c = 125) (hD : deserialize (pre ++ c :: post) = .value D)
    (hrun : Halts (Parser.start pre) (.done r)) (hst : r.state = .S_POST_ELEMENT) :
    deserialize (pre ++ 44 :: c :: post) = .value D ∧
    (∀ (c : Nat) (post : List Nat) (root : Element) (nodes : List NodePtr) (key : JString)
      (line line1 : Int) (c0 c1 : Nat) (r : Parser), c = 93 ∨ c = 125 →
      Halts ⟨c :: post, .S_POST_ELEMENT, root, nodes, key, line, c0⟩ (.done r) →
      ∃ r1, Halts ⟨44 :: c :: post, .S_POST_ELEMENT, root, nodes, key, line1, c1⟩ (.done r1) ∧
        r1.state = r.state ∧ r1.root = r.root ∧ r1.nodes = r.nodes) ∧
    (∀ w1 w2 rest : List Nat, Blank w1 → Blank w2 →
      deserialize (w1 ++ 91 :: (w2 ++ 44 :: rest))
        = .syntaxError ⟨"Primitive must be one of null, true, false, number or quoted string.",
            1 + lineBreaks w1 + lineBreaks w2, 44⟩) ∧
    (∀ w1 w2 rest : List Nat, Blank w1 → Blank w2 →
      deserialize (w1 ++ 123 :: (w2 ++ 44 :: rest))
        = .syntaxError ⟨"Expected key or closing bracket.",
            1 + lineBreaks w1 + lineBreaks w2, 44⟩) ∧
    deserialize (lit "[1,]") = deserialize (lit "[1]") ∧
    deserialize (lit "[1]") = .value (Element.ofArray [Element.ofNumber (.finite false 1 0)]) ∧
    deserialize (lit "\x7b\"a\":1,\x7d") = deserialize (lit "\x7b\"a\":1\x7d") ∧
    deserialize (lit "\x7b\"a\":1\x7d")
      = .value (Element.ofObject [([97], Element.ofNumber (.finite false 1 0))]) ∧
    deserialize (lit "[,]")
      = .syntaxError ⟨"Primitive must be one of null, true, false, number or quoted string.",
          1, 44⟩ ∧
    deserialize (lit "\x7b,\x7d") = .syntaxError ⟨"Expected key or closing bracket.", 1, 44⟩ ∧
    deserialize (lit "[1,,]")
      = .syntaxError ⟨"Primitive must be one of null, true, false, number or quoted string.",
          1, 44⟩ ∧
    deserialize (lit "\x7b\"a\":1,,\x7d")
      = .syntaxError ⟨"Expected key or closing bracket.", 1, 44⟩ := by
  refine ⟨?_, ?_, ?_, ?_, by decide!, by decide!, by decide!, by decide!, by decide!, by decide!,
    by decide!, by decide!⟩
  · have hcn : isNumberChar c = false := by
      rcases hc with rfl | rfl <;> decide
    have hu1 : endsNumber (c :: post) := endsNumber_cons c post hcn
    have hu2 : endsNumber (44 :: c :: post) := endsNumber_cons 44 _ (by decide)
    obtain ⟨rr, hrr, h1, h2, h3⟩ := deserialize_value hD
    have hfull : Halts (Parser.start (pre ++ c :: post)) (.done rr) :=
      ⟨_, hrr, fun hh => by cases hh⟩
    obtain ⟨n, hn, _⟩ := hrun
    unfold Parser.start at hn hfull
    have hend : ∀ (q2 : Parser) (r1 : Parser),
        Leads ⟨pre ++ 44 :: c :: post, .S_PRE_ELEMENT, Element.ofType .NULL_VALUE, [[]], [], 1, 0⟩
          q2 → Halts q2 (.done r1) → rr.alike r1 →
        deserialize (pre ++ 44 :: c :: post) = .value D := by
      intro q2 r1 hl hh ha
      have := deserialize_of_done (s := pre ++ 44 :: c :: post) (hl _ hh)
      rw [this, if_pos ⟨by rw [ha.1, h1], by rw [ha.2.2.1, h2]⟩, ha.2.1, h3]
    rcases (run_follows_all pre n).1 pre .S_PRE_ELEMENT (Element.ofType .NULL_VALUE) [[]] [] 1 0
      r (List.suffix_refl _) hn with hA | ⟨_, hB⟩
    · obtain ⟨q1, hl1, ha1, hq1⟩ := hA (c :: post) 1 0 hu1
      obtain ⟨q2, hl2, ha2, hq2⟩ := hA (44 :: c :: post) 1 0 hu2
      have hh1 := halts_of_leads hl1 hfull
      obtain ⟨t1, st1, root1, nodes1, key1, line1, c1⟩ := q1
      obtain ⟨t2, st2, root2, nodes2, key2, line2, c2⟩ := q2
      obtain ⟨a1, a2, a3, a4⟩ := ha1
      obtain ⟨b1, b2, b3, b4⟩ := ha2
      simp only at a1 a2 a3 a4 b1 b2 b3 b4 hq1 hq2
      subst a1 a2 a3 a4 b1 b2 b3 b4 hq1 hq2
      rw [hst] at hh1 hl2
      obtain ⟨r1, hr1, har⟩ := comma_close c hc post r.root r.nodes r.key line1 line2 c1 c2 rr
        (by rw [← hst]; rw [hst]; exact hh1)
      exact hend _ r1 hl2 hr1 har
    · obtain ⟨q1, hl1, ha1, hq1⟩ := hB (c :: post) 1 0 hu1
      obtain ⟨q2, hl2, ha2, hq2⟩ := hB (44 :: c :: post) 1 0 hu2
      have hh1 := halts_of_leads hl1 hfull
      have hdl : dropLine (44 :: c :: post) = dropLine (c :: post) := by
        rw [dropLine_cons, if_neg (by decide)]
      obtain ⟨t1, st1, root1, nodes1, key1, line1, c1⟩ := q1
      obtain ⟨t2, st2, root2, nodes2, key2, line2, c2⟩ := q2
      obtain ⟨a1, a2, a3, a4⟩ := ha1
      obtain ⟨b1, b2, b3, b4⟩ := ha2
      simp only at a1 a2 a3 a4 b1 b2 b3 b4 hq1 hq2
      rw [hdl] at hq2
      subst a1 a2 a3 a4 b1 b2 b3 b4 hq1 hq2
      obtain ⟨r1, hr1, har⟩ := halts_alike hh1 line2 c2
      exact hend _ r1 hl2 hr1 har
  · intro c post root nodes key line line1 c0 c1 r hc h
    obtain ⟨r1, hr1, a1, a2, a3, _⟩ := comma_close c hc post root nodes key line line1 c0 c1 r h
    exact ⟨r1, hr1, a1, a2, a3⟩
  · intro w1 w2 rest hw1 hw2
    obtain ⟨c1, hl1⟩ := blank_leads hw1 (91 :: (w2 ++ 44 :: rest)) .S_PRE_ELEMENT
      (Element.ofType .NULL_VALUE) [[]] [] 1 0
    have hopen : Leads ⟨91 :: (w2 ++ 44 :: rest), .S_PRE_ELEMENT, Element.ofType .NULL_VALUE,
          [[]], [], 1 + lineBreaks w1, c1⟩
        ⟨w2 ++ 44 :: rest, .S_PRE_ELEMENT, .mk .ARRAY [] [] [] Number.zero false, [[]], [],
          1 + lineBreaks w1, 91⟩ := by
      apply leads_of_body 91 _ rfl
      rw [body_pre _ _ _ _ _ _ (by decide) (by decide), preElement_null (deref_nil _) (by rfl),
        beginValue_array (deref_nil _) (by rw [store, assign_fresh_array])]
      exact leadsNext_continue (Leads.refl _)
    obtain ⟨c2, hl2⟩ := blank_leads hw2 (44 :: rest) .S_PRE_ELEMENT
      (.mk .ARRAY [] [] [] Number.zero false) [[]] [] (1 + lineBreaks w1) 91
    have hb : ∃ q, body ⟨rest, .S_PRE_ELEMENT, .mk .ARRAY [] [] [] Number.zero false, [[]], [],
        1 + lineBreaks w1 + lineBreaks w2, 44⟩
        = .throw ⟨"Primitive must be one of null, true, false, number or quoted string.",
            1 + lineBreaks w1 + lineBreaks w2, 44⟩ q := by
      rw [body_pre _ _ _ _ _ _ (by decide) (by decide)]
      exact preElement_throw (by decide) (by decide) (deref_nil _) (fun _ => by decide)
        (parsePrimitive_refused _ _ _ _ (by decide))
    obtain ⟨q, hb⟩ := hb
    exact deserialize_of_throw (hl1 _ (hopen _ (hl2 _ (halts_of_body_throw c2 hb))))
  · intro w1 w2 rest hw1 hw2
    obtain ⟨c1, hl1⟩ := blank_leads hw1 (123 :: (w2 ++ 44 :: rest)) .S_PRE_ELEMENT
      (Element.ofType .NULL_VALUE) [[]] [] 1 0
    have hopen : Leads ⟨123 :: (w2 ++ 44 :: rest), .S_PRE_ELEMENT, Element.ofType .NULL_VALUE,
          [[]], [], 1 + lineBreaks w1, c1⟩
        ⟨w2 ++ 44 :: rest, .S_PRE_KEY, .mk .OBJECT [] [] [] Number.zero false, [[]], [],
          1 + lineBreaks w1, 123⟩ := by
      apply leads_of_body 123 _ rfl
      rw [body_pre _ _ _ _ _ _ (by decide) (by decide), preElement_null (deref_nil _) (by rfl),
        beginValue_object (deref_nil _) (by rw [store, assign_fresh_object])]
      exact leadsNext_continue (Leads.refl _)
    obtain ⟨c2, hl2⟩ := blank_leads hw2 (44 :: rest) .S_PRE_KEY
      (.mk .OBJECT [] [] [] Number.zero false) [[]] [] (1 + lineBreaks w1) 123
    have hb : body ⟨rest, .S_PRE_KEY, .mk .OBJECT [] [] [] Number.zero false, [[]], [],
        1 + lineBreaks w1 + lineBreaks w2, 44⟩
        = .throw ⟨"Expected key or closing bracket.", 1 + lineBreaks w1 + lineBreaks w2, 44⟩
            ⟨rest, .S_PRE_KEY, .mk .OBJECT [] [] [] Number.zero false, [[]], [],
              1 + lineBreaks w1 + lineBreaks w2, 44⟩ := by
      rw [body_state (show (44 : Nat) ≠ 47 from by decide) (show isWhite 44 = false from rfl)]
      rfl
    exact deserialize_of_throw (hl1 _ (hopen _ (hl2 _ (halts_of_body_throw c2 hb))))

/-- C36 (amended) at the text `[1]`: the text `[1` in front of the bracket leaves the loop
in state `S_POST_ELEMENT`, and `[1,]` is read as the Array of the Number 1. -/
theorem trailing_comma_witness :
    deserialize (lit "[1" ++ 93 :: [])
      = .value (Element.ofArray [Element.ofNumber (.finite false 1 0)]) ∧
    Halts (Parser.start (lit "[1"))
      (.done ⟨[], .S_POST_ELEMENT, Element.ofArray [Element.ofNumber (.finite false 1 0)],
        [[]], [], 1, 32⟩) ∧
    deserialize (lit "[1" ++ 44 :: 93 :: [])
      = .value (Element.ofArray [Element.ofNumber (.finite false 1 0)]) :=
  have hrun : Halts (Parser.start (lit "[1"))
      (.done ⟨[], .S_POST_ELEMENT, Element.ofArray [Element.ofNumber (.finite false 1 0)],
        [[]], [], 1, 32⟩) := ⟨7, by decide!, by decide⟩
  ⟨by decide!, hrun,
    (trailing_comma (lit "[1") [] 93 _ _ (Or.inl rfl) (by decide!) hrun rfl).1⟩

/-! ## Pointers below a node -/

theorem deref_append (q : NodePtr) : ∀ (p : NodePtr) (root e : Element),
    deref root p = some e → deref root (p ++ q) = deref e q
  | [], root, e, h => by
    rw [deref] at h
    cases h
    rfl
  | .index i :: p, .mk t o a s n b, e, h => by
    rw [deref] at h
    simp only [Element._array] at h
    rw [List.cons_append, deref]
    simp only [Element._array]
    cases hg : a.get? i with
    | none => simp only [hg] at h; cases h
    | some c =>
      simp only [hg] at h ⊢
      exact deref_append q p c e h
  | .member k :: p, .mk t o a s n b, e, h => by
    rw [deref] at h
    simp only [Element._object] at h
    rw [List.cons_append, deref]
    simp only [Element._object]
    cases hg : mapFind k o with
    | none => simp only [hg] at h; cases h
    | some c =>
      simp only [hg] at h ⊢
      exact deref_append q p c e h

theorem store_append (q : NodePtr) (v : Element) : ∀ (p : NodePtr) (root e e1 : Element),
    deref root p = some e → store e q v = some e1 →
    store root (p ++ q) v = store root p e1
  | [], root, e, e1, h, hs => by
    rw [deref] at h
    cases h
    rw [List.nil_append, hs, store]
  | .index i :: p, .mk t o a s n b, e, e1, h, hs => by
    rw [deref] at h
    simp only [Element._array] at h
    rw [List.cons_append, store, store]
    cases hg : a.get? i with
    | none => simp only [hg] at h; cases h
    | some c =>
      simp only [hg] at h ⊢
      rw [store_append q v p c e e1 h hs]
  | .member k :: p, .mk t o a s n b, e, e1, h, hs => by
    rw [deref] at h
    simp only [Element._object] at h
    rw [List.cons_append, store, store]
    cases hg : mapFind k o with
    | none => simp only [hg] at h; cases h
    | some c =>
      simp only [hg] at h ⊢
      rw [store_append q v p c e e1 h hs]

theorem holds_refl (e : Element) : e.holds e :=
  ⟨rfl, rfl, rfl, rfl, fun _ => ⟨rfl, rfl⟩⟩

theorem holds_mk {t t1 : ElemType} {o o1 : JObject} {a a1 : JArray} {s s1 : JString}
    {n n1 : Number} {b b1 : Bool}
    (h : (Element.mk t1 o1 a1 s1 n1 b1).holds (.mk t o a s n b)) :
    t1 = t ∧ o1 = o ∧ a1 = a ∧ s1 = s ∧
      ((t = .STRING ∨ t = .NUMBER ∨ t = .BOOLEAN) → n1 = n ∧ b1 = b) := h

/-- The node below `slot` in the tree of the run in the member is the node of the
run at the root. -/
theorem deref_framed {base roote roots es : Element} {slot : NodePtr}
    (hb : store base slot es = some roote) (hh : es.holds roots) :
    ∀ (p : NodePtr) (el : Element), deref roots p = some el →
      ∃ el1, deref roote (slot ++ p) = some el1 ∧ el1.holds el ∧ (p ≠ [] → el1 = el) := by
  intro p el hd
  have hs := deref_store es slot base roote hb
  rw [deref_append p slot roote es hs]
  obtain ⟨t, o, a, s, n, b⟩ := roots
  obtain ⟨t1, o1, a1, s1, n1, b1⟩ := es
  obtain ⟨e1, e2, e3, e4, e5⟩ := holds_mk hh
  subst e1 e2 e3 e4
  cases p with
  | nil =>
    rw [deref] at hd ⊢
    cases hd
    exact ⟨_, rfl, hh, fun h => absurd rfl h⟩
  | cons st p =>
    cases st with
    | index i =>
      rw [deref] at hd ⊢
      simp only [Element._array] at hd ⊢
      exact ⟨el, hd, holds_refl _, fun _ => rfl⟩
    | member k =>
      rw [deref] at hd ⊢
      simp only [Element._object] at hd ⊢
      exact ⟨el, hd, holds_refl _, fun _ => rfl⟩

/-- A write through a pointer below `slot` in the tree of the run in the member
is the write of the run at the root. -/
theorem store_framed {base roote roots es : Element} {slot : NodePtr}
    (hb : store base slot es = some roote) (hh : es.holds roots) :
    ∀ (p : NodePtr) (v v1 rs1 : Element), v1.holds v → (p ≠ [] → v1 = v) →
      store roots p v = some rs1 →
      ∃ roote1 es1, store roote (slot ++ p) v1 = some roote1 ∧
        store base slot es1 = some roote1 ∧ es1.holds rs1 := by
  intro p v v1 rs1 hv hne hst
  have hs := deref_store es slot base roote hb
  obtain ⟨t, o, a, s, n, b⟩ := roots
  obtain ⟨t1, o1, a1, s1, n1, b1⟩ := es
  obtain ⟨e1, e2, e3, e4, e5⟩ := holds_mk hh
  subst e1 e2 e3 e4
  cases p with
  | nil =>
    rw [store] at hst
    cases hst
    obtain ⟨r1, hr1⟩ := store_of_deref v1 slot roote _ hs
    refine ⟨r1, v1, by rw [List.append_nil]; exact hr1, ?_, hv⟩
    rw [← store_store _ v1 slot base roote hb]
    exact hr1
  | cons st p =>
    have hvv := hne (by simp)
    subst hvv
    cases st with
    | index i =>
      rw [store] at hst
      cases hg : a1.get? i with
      | none => simp only [hg] at hst; cases hst
      | some c =>
        simp only [hg] at hst
        cases hc : store c p v1 with
        | none => simp only [hc] at hst; cases hst
        | some c1 =>
          simp only [hc, Option.some.injEq] at hst
          subst hst
          have hse : store (Element.mk t1 o1 a1 s1 n1 b1) (.index i :: p) v1
              = some (.mk t1 o1 (listSet a1 i c1) s1 n1 b1) := by
            rw [store]
            simp only [hg, hc]
          obtain ⟨r1, hr1⟩ := store_of_deref (.mk t1 o1 (listSet a1 i c1) s1 n1 b1) slot roote _ hs
          refine ⟨r1, .mk t1 o1 (listSet a1 i c1) s1 n1 b1, ?_, ?_, ⟨rfl, rfl, rfl, rfl, e5⟩⟩
          · rw [store_append _ v1 slot roote _ _ hs hse]
            exact hr1
          · rw [← store_store _ _ slot base roote hb]
            exact hr1
    | member k =>
      rw [store] at hst
      cases hg : mapFind k o1 with
      | none => simp only [hg] at hst; cases hst
      | some c =>
        simp only [hg] at hst
        cases hc : store c p v1 with
        | none => simp only [hc] at hst; cases hst
        | some c1 =>
          simp only [hc, Option.some.injEq] at hst
          subst hst
          have hse : store (Element.mk t1 o1 a1 s1 n1 b1) (.member k :: p) v1
              = some (.mk t1 (mapSet o1 k c1) a1 s1 n1 b1) := by
            rw [store]
            simp only [hg, hc]
          obtain ⟨r1, hr1⟩ := store_of_deref (.mk t1 (mapSet o1 k c1) a1 s1 n1 b1) slot roote _ hs
          refine ⟨r1, .mk t1 (mapSet o1 k c1) a1 s1 n1 b1, ?_, ?_, ⟨rfl, rfl, rfl, rfl, e5⟩⟩
          · rw [store_append _ v1 slot roote _ _ hs hse]
            exact hr1
          · rw [← store_store _ _ slot base roote hb]
            exact hr1

/-! ## One pass through the loop body within a member -/

theorem listSet_self : ∀ (a : List Element) (i : Nat) (c : Element),
    a.get? i = some c → listSet a i c = a
  | [], _, _, h => by simp at h
  | x :: rest, 0, c, h => by
    simp only [List.get?_cons_zero, Option.some.injEq] at h
    rw [listSet, h]
  | x :: rest, i + 1, c, h => by
    simp only [List.get?_cons_succ] at h
    rw [listSet, listSet_self rest i c h]

theorem mapSet_self (k : JString) : ∀ (o : JObject) (c : Element),
    mapFind k o = some c → mapSet o k c = o
  | [], _, h => by simp [mapFind] at h
  | (k1, x) :: rest, c, h => by
    rw [mapFind] at h
    rw [mapSet]
    by_cases h1 : strLess k k1 = true
    · simp [h1] at h
    · by_cases h2 : strLess k1 k = true
      · simp only [h1, h2, if_true, if_false, Bool.false_eq_true] at h ⊢
        rw [mapSet_self k rest c h]
      · simp only [h1, h2, if_false, Bool.false_eq_true, Option.some.injEq] at h ⊢
        rw [h]

/-- Writing to a node what it holds leaves the tree as it is. -/
theorem store_deref_self : ∀ (p : NodePtr) (root e : Element),
    deref root p = some e → store root p e = some root
  | [], root, e, h => by
    rw [deref] at h
    cases h
    rw [store]
  | .index i :: p, .mk t o a s n b, e, h => by
    rw [deref] at h
    simp only [Element._array] at h
    rw [store]
    cases hg : a.get? i with
    | none => simp only [hg] at h; cases h
    | some c =>
      simp only [hg] at h ⊢
      rw [store_deref_self p c e h]
      simp only [listSet_self a i c hg]
  | .member k :: p, .mk t o a s n b, e, h => by
    rw [deref] at h
    simp only [Element._object] at h
    rw [store]
    cases hg : mapFind k o with
    | none => simp only [hg] at h; cases h
    | some c =>
      simp only [hg] at h ⊢
      rw [store_deref_self p c e h]
      simp only [mapSet_self k o c hg]

theorem assign_ofType_mk (el : Element) (t : ElemType) :
    el.assign (Element.ofType t) = .mk t [] [] []
      (if t = .STRING ∨ t = .NUMBER ∨ t = .BOOLEAN then Number.zero else el._number)
      (if t = .STRING ∨ t = .NUMBER ∨ t = .BOOLEAN then false else el._boolean) := by
  cases t <;> simp [Element.assign, Element.ofType, Element.copyObject, Element.copyArray]

theorem assign_ofBool_mk (el : Element) (x : Bool) :
    el.assign (Element.ofBool x) = .mk .BOOLEAN [] [] [] Number.zero x := by
  simp [Element.assign, Element.ofBool]

theorem holds_assign_ofType {el el1 : Element} (t : ElemType) (p : NodePtr)
    (hp : p ≠ [] → el1 = el) :
    (el1.assign (Element.ofType t)).holds (el.assign (Element.ofType t)) ∧
      (p ≠ [] → el1.assign (Element.ofType t) = el.assign (Element.ofType t)) := by
  refine ⟨?_, fun h => by rw [hp h]⟩
  rw [assign_ofType_mk, assign_ofType_mk]
  refine ⟨rfl, rfl, rfl, rfl, ?_⟩
  intro h
  simp only [Element.type] at h
  simp only [Element._number, Element._boolean, if_pos h, and_self]

/-- The primitive is read in the same way whatever the line number is and
whatever `_number` and `_boolean` of the fresh element are. -/
theorem parsePrimitive_holds {t : List Nat} {c : Nat} {n1 n2 : Number} {b1 b2 : Bool}
    {l1 : Int} {el1 : Element} {r : Nat × List Nat}
    (h : parsePrimitive t c (.mk .NULL_VALUE [] [] [] n1 b1) l1 = (el1, .ok r)) (l2 : Int) :
    ∃ el2, parsePrimitive t c (.mk .NULL_VALUE [] [] [] n2 b2) l2 = (el2, .ok r) ∧
      el2.holds el1 ∧ (n2 = n1 → b2 = b1 → el2 = el1) := by
  obtain ⟨extra, rest⟩ := r
  have h2 : parsePrimitive t c (.mk .NULL_VALUE [] [] [] n1 b1) l2 = (el1, .ok (extra, rest)) := by
    rcases (parsePrimitive_ext [] endsNumber_nil h).2.2 l2 with h3 | ⟨_, _, c1, v, e3, _⟩
    · simpa using h3
    · cases e3
  clear h
  unfold parsePrimitive at h2 ⊢
  by_cases hn : c = 'n'.toNat
  · rw [if_pos hn] at h2 ⊢
    cases hw : parseNull t l2 with
    | error e => rw [hw] at h2; cases h2
    | ok x =>
      obtain ⟨u, rest1⟩ := x
      rw [hw] at h2
      simp only [Prod.mk.injEq, Except.ok.injEq] at h2 ⊢
      obtain ⟨e1, e2, e3⟩ := h2
      subst e1 e2 e3
      refine ⟨_, ⟨rfl, rfl, rfl⟩, ?_, ?_⟩
      · exact (holds_assign_ofType .NULL_VALUE [] (fun h => absurd rfl h)).1
      · intro e1 e2; subst e1 e2; rfl
  · rw [if_neg hn] at h2 ⊢
    by_cases ht : c = 't'.toNat
    · rw [if_pos ht] at h2 ⊢
      cases hw : parseTrue t l2 with
      | error e => rw [hw] at h2; cases h2
      | ok x =>
        obtain ⟨u, rest1⟩ := x
        rw [hw] at h2
        simp only [Prod.mk.injEq, Except.ok.injEq] at h2 ⊢
        obtain ⟨e1, e2, e3⟩ := h2
        subst e1 e2 e3
        refine ⟨_, ⟨rfl, rfl, rfl⟩, ?_, ?_⟩
        · rw [assign_ofBool_mk, assign_ofBool_mk]; exact holds_refl _
        · intro _ _; rw [assign_ofBool_mk, assign_ofBool_mk]
    · rw [if_neg ht] at h2 ⊢
      by_cases hf : c = 'f'.toNat
      · rw [if_pos hf] at h2 ⊢
        cases hw : parseFalse t l2 with
        | error e => rw [hw] at h2; cases h2
        | ok x =>
          obtain ⟨u, rest1⟩ := x
          rw [hw] at h2
          simp only [Prod.mk.injEq, Except.ok.injEq] at h2 ⊢
          obtain ⟨e1, e2, e3⟩ := h2
          subst e1 e2 e3
          refine ⟨_, ⟨rfl, rfl, rfl⟩, ?_, ?_⟩
          · rw [assign_ofBool_mk, assign_ofBool_mk]; exact holds_refl _
          · intro _ _; rw [assign_ofBool_mk, assign_ofBool_mk]
      · rw [if_neg hf] at h2 ⊢
        by_cases hq : c = '"'.toNat
        · rw [if_pos hq, assign_ofType_mk] at h2
          rw [if_pos hq, assign_ofType_mk]
          simp only [true_or, or_true, if_true] at h2 ⊢
          cases hw : parseString t l2 with
          | error e => rw [hw] at h2; cases h2
          | ok x =>
            obtain ⟨str, rest1⟩ := x
            rw [hw] at h2
            simp only [Prod.mk.injEq, Except.ok.injEq] at h2 ⊢
            obtain ⟨e1, e2, e3⟩ := h2
            subst e1 e2 e3
            exact ⟨_, ⟨rfl, rfl, rfl⟩, holds_refl _, fun _ _ => rfl⟩
        · rw [if_neg hq] at h2 ⊢
          by_cases hd : c = '-'.toNat ∨ ('0'.toNat ≤ c ∧ c ≤ '9'.toNat)
          · rw [if_pos hd, assign_ofType_mk] at h2
            rw [if_pos hd, assign_ofType_mk]
            simp only [true_or, or_true, if_true] at h2 ⊢
            simp only [Prod.mk.injEq] at h2
            obtain ⟨e1, e2⟩ := h2
            subst e1
            exact ⟨_, Prod.ext rfl e2, holds_refl _, fun _ _ => rfl⟩
          · rw [if_neg hd] at h2
            cases h2

theorem beginValue_framed {base : Element} {slot : NodePtr} {frame : List NodePtr}
    (t : List Nat) (sts ste : State) (roots roote : Element) (tops : NodePtr)
    (rests nodese : List NodePtr) (keys keye : JString) (ls le : Int) (c : Nat)
    (hroot : ∃ es, store base slot es = some roote ∧ es.holds roots)
    (hn : nodese = (slot ++ tops) :: (rests.map (fun p => slot ++ p) ++ frame)) :
    Next.Embedded (Framed base slot frame)
      (beginValue ⟨t, sts, roots, tops :: rests, keys, ls, c⟩)
      (beginValue ⟨t, ste, roote, nodese, keye, le, c⟩) := by
  subst hn
  obtain ⟨es, hb, hh⟩ := hroot
  unfold beginValue
  simp only
  cases hd : deref roots tops with
  | none => trivial
  | some el =>
    obtain ⟨el1, hd1, hel, hne⟩ := deref_framed hb hh tops el hd
    rw [hd1]
    simp only
    have hfr : ∀ (st : State) (rs re : Element) (ns : List NodePtr) (k1 k2 : JString)
        (l1 l2 : Int) (c1 c2 : Nat) (t1 : List Nat),
        (∃ es, store base slot es = some re ∧ es.holds rs) →
        (ns = [] → st = .S_POST_ELEMENT) →
        (st ≠ .S_PRE_SEP ∧ (st = .S_PRE_ELEMENT →
          ∃ top rest el, ns = top :: rest ∧ deref rs top = some el ∧ el.isArray = true)) →
        Framed base slot frame ⟨t1, st, rs, ns, k1, l1, c1⟩
          ⟨t1, st, re, ns.map (fun p => slot ++ p) ++ frame, k2, l2, c2⟩ :=
      fun st rs re ns k1 k2 l1 l2 c1 c2 t1 h1 h2 h3 => ⟨rfl, rfl, rfl, h1, h2, Or.inr h3⟩
    by_cases h91 : c = '['.toNat
    · rw [if_pos h91, if_pos h91]
      cases hs : store roots tops (el.assign (Element.ofType .ARRAY)) with
      | none => trivial
      | some rs1 =>
        obtain ⟨h1, h2⟩ := @holds_assign_ofType el el1 .ARRAY tops hne
        obtain ⟨re1, es1, hs1, hb1, hh1⟩ := store_framed hb hh tops _ _ rs1 h1 h2 hs
        rw [hs1]
        refine ⟨_, rfl, hfr _ _ _ (tops :: rests) _ _ _ _ _ _ _ ⟨es1, hb1, hh1⟩
          (fun h => by cases h) ⟨(fun h => by cases h), fun _ => ⟨tops, rests, _, rfl,
            deref_store _ _ _ _ hs, ?_⟩⟩⟩
        rw [assign_ofType_mk]
        rfl
    · rw [if_neg h91, if_neg h91]
      by_cases h123 : c = '{'.toNat
      · rw [if_pos h123, if_pos h123]
        cases hs : store roots tops (el.assign (Element.ofType .OBJECT)) with
        | none => trivial
        | some rs1 =>
          obtain ⟨h1, h2⟩ := @holds_assign_ofType el el1 .OBJECT tops hne
          obtain ⟨re1, es1, hs1, hb1, hh1⟩ := store_framed hb hh tops _ _ rs1 h1 h2 hs
          rw [hs1]
          exact ⟨_, rfl, hfr _ _ _ (tops :: rests) _ _ _ _ _ _ _ ⟨es1, hb1, hh1⟩
            (fun h => by cases h) ⟨(fun h => by cases h), fun h => by cases h⟩⟩
      · rw [if_neg h123, if_neg h123]
        rcases hp : parsePrimitive t c (el.assign (Element.ofType .NULL_VALUE)) ls
          with ⟨v, res⟩
        cases res with
        | error e =>
          simp only
          cases store roots tops v with
          | none => trivial
          | some rs1 => exact Or.inl (by simp)
        | ok r =>
          obtain ⟨extra, rest⟩ := r
          simp only
          cases hs : store roots tops v with
          | none => trivial
          | some rs1 =>
            rw [assign_ofType_mk] at hp
            simp only [show ¬ (ElemType.NULL_VALUE = .STRING ∨ ElemType.NULL_VALUE = .NUMBER ∨
              ElemType.NULL_VALUE = .BOOLEAN) from by decide, if_false] at hp
            obtain ⟨v1, hp1, hv1, hv2⟩ := @parsePrimitive_holds _ _ _ el1._number _
              el1._boolean _ _ _ hp le
            have hv3 : tops ≠ [] → v1 = v := by
              intro h
              have := hne h
              subst this
              exact hv2 rfl rfl
            obtain ⟨re1, es1, hs1, hb1, hh1⟩ := store_framed hb hh tops _ _ rs1 hv1 hv3 hs
            rw [assign_ofType_mk]
            simp only [show ¬ (ElemType.NULL_VALUE = .STRING ∨ ElemType.NULL_VALUE = .NUMBER ∨
              ElemType.NULL_VALUE = .BOOLEAN) from by decide, if_false]
            rw [hp1]
            simp only [hs1]
            exact ⟨_, rfl, hfr _ _ _ rests _ _ _ _ _ _ _ ⟨es1, hb1, hh1⟩
              (fun _ => rfl) ⟨(fun h => by cases h), fun h => by cases h⟩, rfl⟩

theorem preElement_other {s : List Nat} {st : State} {root el : Element}
    {top : NodePtr} {below : List NodePtr} {key : JString} {line : Int} {c : Nat}
    (hd : deref root top = some el) (h1 : el.isNull = false) (h2 : el.isArray = false)
    (h3 : el.isObject = false) :
    preElement ⟨s, st, root, top :: below, key, line, c⟩
      = beginValue ⟨s, st, root, top :: below, key, line, c⟩ := by
  simp [preElement, hd, h1, h2, h3]

theorem preElement_framed {base : Element} {slot : NodePtr} {frame : List NodePtr}
    (t : List Nat) (roots roote : Element) (nodess nodese : List NodePtr)
    (keys keye : JString) (ls le : Int) (c : Nat)
    (hF : Framed base slot frame ⟨t, .S_PRE_ELEMENT, roots, nodess, keys, ls, c⟩
      ⟨t, .S_PRE_ELEMENT, roote, nodese, keye, le, c⟩) :
    Next.Embedded (Framed base slot frame)
      (preElement ⟨t, .S_PRE_ELEMENT, roots, nodess, keys, ls, c⟩)
      (preElement ⟨t, .S_PRE_ELEMENT, roote, nodese, keye, le, c⟩) := by
  obtain ⟨_, _, hn, ⟨es, hb, hh⟩, hpost, hkey⟩ := hF
  simp only at hn hb hh hpost hkey
  cases nodess with
  | nil => simp only [preElement]; trivial
  | cons tops rests =>
    subst hn
    cases hd : deref roots tops with
    | none => simp only [preElement, hd]; trivial
    | some el =>
      obtain ⟨el1, hd1, hel, hne⟩ := deref_framed hb hh tops el hd
      obtain ⟨ty, o, a, s, n, b⟩ := el
      obtain ⟨ty1, o1, a1, s1, n1, b1⟩ := el1
      obtain ⟨e1, e2, e3, e4, e5⟩ := holds_mk hel
      subst e1 e2 e3 e4
      have hbegin : Next.Embedded (Framed base slot frame)
          (beginValue ⟨t, .S_PRE_ELEMENT, roots, tops :: rests, keys, ls, c⟩)
          (beginValue ⟨t, .S_PRE_ELEMENT, roote,
            (slot ++ tops) :: (rests.map (fun p => slot ++ p) ++ frame), keye, le, c⟩) :=
        beginValue_framed t _ _ roots roote tops rests _ keys keye ls le c ⟨es, hb, hh⟩ rfl
      simp only [List.map_cons, List.cons_append]
      cases ty1 with
      | NULL_VALUE =>
        rw [preElement_null hd rfl, preElement_null hd1 rfl]
        exact hbegin
      | STRING =>
        rw [preElement_other hd rfl rfl rfl, preElement_other hd1 rfl rfl rfl]
        exact hbegin
      | NUMBER =>
        rw [preElement_other hd rfl rfl rfl, preElement_other hd1 rfl rfl rfl]
        exact hbegin
      | BOOLEAN =>
        rw [preElement_other hd rfl rfl rfl, preElement_other hd1 rfl rfl rfl]
        exact hbegin
      | ARRAY =>
        by_cases h93 : c = 93
        · subst h93
          rw [preElement_close hd, preElement_close hd1]
          exact ⟨_, rfl, ⟨rfl, rfl, rfl, ⟨es, hb, hh⟩, fun _ => rfl,
            Or.inr ⟨(fun h => by cases h), fun h => by cases h⟩⟩, rfl⟩
        · obtain ⟨rs1, hs⟩ := store_of_deref
            (.mk .ARRAY o1 (a1 ++ [Element.ofType .NULL_VALUE]) s1 n b) tops roots _ hd
          obtain ⟨re1, es1, hs1, hb1, hh1⟩ := store_framed hb hh tops
            (.mk .ARRAY o1 (a1 ++ [Element.ofType .NULL_VALUE]) s1 n b)
            (.mk .ARRAY o1 (a1 ++ [Element.ofType .NULL_VALUE]) s1 n1 b1) rs1
            ⟨rfl, rfl, rfl, rfl, e5⟩
            (fun h => by
              have := hne h
              simp only [Element.mk.injEq, true_and] at this
              rw [this.1, this.2]) hs
          rw [preElement_item hd h93 hs, preElement_item hd1 h93 hs1, List.append_assoc]
          exact beginValue_framed t _ _ rs1 re1 (tops ++ [.index a1.length]) (tops :: rests) _
            keys keye ls le c ⟨es1, hb1, hh1⟩ rfl
      | OBJECT =>
        have hk : keys = keye := by
          rcases hkey with h | ⟨_, h⟩
          · exact h
          · obtain ⟨top, rest, el, h1, h2, h3⟩ := h trivial
            cases h1
            rw [hd] at h2
            cases h2
            cases h3
        subst hk
        obtain ⟨rs1, hs⟩ := store_of_deref
          (.mk .OBJECT (mapModify keys (fun x => x.assign (Element.ofType .NULL_VALUE)) o1)
            a1 s1 n b) tops roots _ hd
        obtain ⟨re1, es1, hs1, hb1, hh1⟩ := store_framed hb hh tops
          (.mk .OBJECT (mapModify keys (fun x => x.assign (Element.ofType .NULL_VALUE)) o1)
            a1 s1 n b)
          (.mk .OBJECT (mapModify keys (fun x => x.assign (Element.ofType .NULL_VALUE)) o1)
            a1 s1 n1 b1) rs1
          ⟨rfl, rfl, rfl, rfl, e5⟩
          (fun h => by
            have := hne h
            simp only [Element.mk.injEq, true_and] at this
            rw [this.1, this.2]) hs
        rw [preElement_member hd hs, preElement_member hd1 hs1, List.append_assoc]
        exact beginValue_framed t _ _ rs1 re1 (tops ++ [.member keys]) (tops :: rests) _
          keys keys ls le c ⟨es1, hb1, hh1⟩ rfl

theorem postElement_framed {base : Element} {slot : NodePtr} {frame : List NodePtr}
    (t : List Nat) (roots roote : Element) (nodess nodese : List NodePtr)
    (keys keye : JString) (ls le : Int) (c : Nat) (hne : nodess ≠ [])
    (hF : Framed base slot frame ⟨t, .S_POST_ELEMENT, roots, nodess, keys, ls, c⟩
      ⟨t, .S_POST_ELEMENT, roote, nodese, keye, le, c⟩) :
    Next.Embedded (Framed base slot frame)
      (postElement ⟨t, .S_POST_ELEMENT, roots, nodess, keys, ls, c⟩)
      (postElement ⟨t, .S_POST_ELEMENT, roote, nodese, keye, le, c⟩) := by
  obtain ⟨_, _, hn, ⟨es, hb, hh⟩, hpost, hkey⟩ := hF
  simp only at hn hb hh hpost hkey
  cases nodess with
  | nil => exact absurd rfl hne
  | cons tops rests =>
    subst hn
    unfold postElement
    simp only [List.map_cons, List.cons_append]
    cases hd : deref roots tops with
    | none => trivial
    | some el =>
      obtain ⟨el1, hd1, hel, _⟩ := deref_framed hb hh tops el hd
      rw [hd1]
      simp only
      have ha : el1.isArray = el.isArray := by
        simp only [Element.isArray, hel.1]
      have ho : el1.isObject = el.isObject := by
        simp only [Element.isObject, hel.1]
      rw [ha, ho]
      by_cases h44 : c = ','.toNat
      · rw [if_pos h44, if_pos h44]
        refine ⟨_, rfl, rfl, rfl, rfl, ⟨es, hb, hh⟩, (fun h => by cases h), Or.inr ⟨?_, ?_⟩⟩
        · simp only
          split <;> decide
        · intro h
          simp only at h
          refine ⟨tops, rests, el, rfl, hd, ?_⟩
          by_contra hc
          rw [if_neg hc] at h
          cases h
      · rw [if_neg h44, if_neg h44]
        by_cases h93 : c = ']'.toNat
        · rw [if_pos h93, if_pos h93]
          cases hA : el.isArray with
          | false => exact Or.inl (by simp)
          | true =>
            exact ⟨_, rfl, rfl, rfl, rfl, ⟨es, hb, hh⟩, fun _ => rfl,
              Or.inr ⟨(fun h => by cases h), fun h => by cases h⟩⟩
        · rw [if_neg h93, if_neg h93]
          by_cases h125 : c = '}'.toNat
          · rw [if_pos h125, if_pos h125]
            cases hO : el.isObject with
            | false => exact Or.inl (by simp)
            | true =>
              exact ⟨_, rfl, rfl, rfl, rfl, ⟨es, hb, hh⟩, fun _ => rfl,
                Or.inr ⟨(fun h => by cases h), fun h => by cases h⟩⟩
          · rw [if_neg h125, if_neg h125]
            exact Or.inl (by simp)

theorem skipLineComment_error {t : List Nat} {line : Int} {e : SyntaxError}
    (h : skipLineComment t line = .error e) :
    e.msg = "Expected second '/' to begin line comment." := by
  unfold skipLineComment at h
  cases t with
  | nil => cases h; rfl
  | cons c rest =>
    simp only at h
    split at h
    · cases h; rfl
    · cases h

theorem skipLineComment_line {t rest : List Nat} {line line1 : Int}
    (h : skipLineComment t line = .ok (line1, rest)) (line2 : Int) :
    ∃ line3, skipLineComment t line2 = .ok (line3, rest) := by
  obtain ⟨_, line3, h3⟩ := skipLineComment_ext h [] line2
  rw [List.append_nil, List.append_nil] at h3
  rcases h3 with h3 | ⟨e1, _, h3⟩
  · exact ⟨line3, h3⟩
  · refine ⟨line3, ?_⟩
    rw [h3, e1]
    rfl

theorem embedded_text {root0 root1 : Element} {top : NodePtr} {below : List NodePtr}
    {key0 : JString} {t : List Nat} {sts ste : State} {roots roote : Element}
    {nodess nodese : List NodePtr} {keys keye : JString} {ls le : Int} {cs ce : Nat}
    (h : Embedded root0 root1 top below key0 ⟨t, sts, roots, nodess, keys, ls, cs⟩
      ⟨t, ste, roote, nodese, keye, le, ce⟩)
    (t1 : List Nat) (ls1 le1 : Int) (cs1 ce1 : Nat) :
    Embedded root0 root1 top below key0 ⟨t1, sts, roots, nodess, keys, ls1, cs1⟩
      ⟨t1, ste, roote, nodese, keye, le1, ce1⟩ := by
  simp only [Embedded, Entering, Framed, true_and] at h ⊢
  exact h

/-- One pass through the loop body of the run in the member goes with the pass of
the run at the root. -/
theorem body_embedded {root0 root1 : Element} {top : NodePtr} {below : List NodePtr}
    {key0 : JString} {o : JObject} {a : JArray} {s : JString} {n : Number} {b : Bool}
    (h0 : deref root0 top = some (.mk .OBJECT o a s n b))
    (h1 : store root0 top
      (.mk .OBJECT (mapModify key0 (fun x => x.assign (Element.ofType .NULL_VALUE)) o) a s n b)
        = some root1)
    (ps pe : Parser) (hE : Embedded root0 root1 top below key0 ps pe) (hin : pe.in_ = ps.in_)
    (hstop : ¬ (ps.nodes = [] ∧ ps.in_ ≠ 47 ∧ isWhite ps.in_ = false)) :
    Next.Embedded (Embedded root0 root1 top below key0) (body ps) (body pe) := by
  obtain ⟨ts, sts, roots, nodess, keys, ls, cs⟩ := ps
  obtain ⟨te, ste, roote, nodese, keye, le, ce⟩ := pe
  simp only at hin hstop
  subst hin
  have hte : te = ts := by
    rcases hE with h | h
    · exact h.1
    · exact h.1
  subst hte
  by_cases h47 : ce = 47
  · cases hs : skipLineComment te ls with
    | error e =>
      rw [body_slash_error h47 hs]
      exact Or.inr (skipLineComment_error hs)
    | ok r =>
      obtain ⟨l1, rest⟩ := r
      obtain ⟨l2, hs2⟩ := skipLineComment_line hs le
      rw [body_slash_ok h47 hs, body_slash_ok h47 hs2]
      exact ⟨_, rfl, embedded_text hE _ _ _ _ _⟩
  · by_cases hw : isWhite ce = true
    · rw [body_white hw, body_white hw]
      exact ⟨_, rfl, embedded_text hE _ _ _ _ _⟩
    · have hw1 : isWhite ce = false := by simpa using hw
      rw [body_state (by exact h47) (by exact hw1), body_state (by exact h47) (by exact hw1)]
      have hlift : ∀ nx nxe, Next.Embedded (Framed root1 (top ++ [.member key0]) (top :: below))
          nx nxe → Next.Embedded (Embedded root0 root1 top below key0) nx nxe := by
        intro nx nxe h
        cases nx with
        | continue_ q =>
          obtain ⟨qe, hq, hF⟩ := h
          exact ⟨qe, hq, Or.inr hF⟩
        | redo q =>
          obtain ⟨qe, hq, hF, hi⟩ := h
          exact ⟨qe, hq, Or.inr hF, hi⟩
        | throw e q => exact h
        | undefined => exact h
      rcases hE with hEnt | hF
      · obtain ⟨_, e1, e2, e3, e4, e5, e6, e7⟩ := hEnt
        simp only at e1 e2 e3 e4 e5 e6 e7
        subst e1 e2 e3 e4 e5 e6 e7
        simp only
        rw [preElement_null (deref_nil _) (by rfl), preElement_member h0 h1]
        have hd1 : deref root1 (top ++ [.member keye])
            = some ((((mapFind keye o).getD (Element.ofType .NULL_VALUE))).assign
                (Element.ofType .NULL_VALUE)) := by
          rw [deref_snoc _ top root1 _ (deref_store _ _ _ _ h1), deref]
          simp only [Element._object, mapFind_mapModify]
          rfl
        have hb := store_deref_self _ _ _ hd1
        exact hlift _ _ (@beginValue_framed root1 (top ++ [.member keye])
          (top :: below) te .S_PRE_ELEMENT .S_PRE_ELEMENT (Element.ofType .NULL_VALUE)
          root1 [] [] ((top ++ [.member keye]) :: top :: below) keys keye ls le ce
          ⟨_, hb, by
            rw [assign_ofType_mk]
            exact ⟨rfl, rfl, rfl, rfl, fun h => by rcases h with h | h | h <;> cases h⟩⟩
          (by simp))
      · have hst : ste = sts := hF.2.1
        subst hst
        have hnodes : ste ≠ .S_POST_ELEMENT → nodess ≠ [] := fun h1 h2 => h1 (hF.2.2.2.2.1 h2)
        cases ste with
        | S_PRE_ELEMENT =>
          simp only
          exact hlift _ _ (preElement_framed te roots roote nodess nodese keys keye ls le ce hF)
        | S_POST_ELEMENT =>
          simp only
          have hne : nodess ≠ [] := fun h => hstop ⟨h, h47, hw1⟩
          exact hlift _ _
            (postElement_framed te roots roote nodess nodese keys keye ls le ce hne hF)
        | S_PRE_SEP =>
          simp only
          by_cases h58 : ce = 58
          · rw [if_neg (by simpa using h58), if_neg (by simpa using h58)]
            obtain ⟨_, _, hn, hr, hp, hk⟩ := hF
            refine ⟨_, rfl, Or.inr ⟨rfl, rfl, hn, hr, fun h => absurd h (hnodes (by decide)), ?_⟩⟩
            rcases hk with hk | ⟨hk, _⟩
            · exact Or.inl hk
            · exact absurd rfl hk
          · rw [if_pos (by simpa using h58)]
            exact Or.inl (hnodes (by decide))
        | S_PRE_KEY =>
          simp only
          obtain ⟨_, _, hn, hr, hp, hk⟩ := hF
          by_cases h34 : ce = 34
          · rw [if_pos h34, if_pos h34]
            cases hps : parseString te ls with
            | error e => exact Or.inl (hnodes (by decide))
            | ok r =>
              obtain ⟨k, rest⟩ := r
              have hps2 := (parseString_ext hps).2 le []
              rw [List.append_nil, List.append_nil] at hps2
              rw [hps2]
              exact ⟨_, rfl, Or.inr ⟨rfl, rfl, hn, hr,
                fun h => absurd h (hnodes (by decide)), Or.inl rfl⟩⟩
          · rw [if_neg h34, if_neg h34]
            by_cases h125 : ce = 125
            · rw [if_pos h125, if_pos h125]
              exact ⟨_, rfl, Or.inr ⟨rfl, rfl, hn, hr, fun _ => rfl,
                Or.inr ⟨(fun h => by cases h), (fun h => by cases h)⟩⟩, rfl⟩
            · rw [if_neg h125, if_neg h125]
              exact Or.inl (hnodes (by decide))

/-! ## The run of the loop within a member -/

/-- The run in the member goes with the run at the root until the latter finds a
character behind its value. -/
theorem run_embedded {root0 root1 : Element} {top : NodePtr} {below : List NodePtr}
    {key0 : JString} {o : JObject} {a : JArray} {s : JString} {n : Number} {b : Bool}
    (h0 : deref root0 top = some (.mk .OBJECT o a s n b))
    (h1 : store root0 top
      (.mk .OBJECT (mapModify key0 (fun x => x.assign (Element.ofType .NULL_VALUE)) o) a s n b)
        = some root1) : ∀ (fuel : Nat),
    (∀ ps pe x, Embedded root0 root1 top below key0 ps pe → whileRead fuel ps = x →
      x ≠ .outOfFuel →
      x.early ∨ ∃ qs qe, Embedded root0 root1 top below key0 qs qe ∧ qe.in_ = qs.in_ ∧
        qs.nodes = [] ∧ x = .throw ⟨"Input after end.", qs.line, qs.in_⟩ qs ∧
        ∀ y, HaltsNext (.redo qe) y → Halts pe y) ∧
    (∀ ps pe x, Embedded root0 root1 top below key0 ps pe → pe.in_ = ps.in_ →
      redo fuel ps = x → x ≠ .outOfFuel →
      x.early ∨ ∃ qs qe, Embedded root0 root1 top below key0 qs qe ∧ qe.in_ = qs.in_ ∧
        qs.nodes = [] ∧ x = .throw ⟨"Input after end.", qs.line, qs.in_⟩ qs ∧
        ∀ y, HaltsNext (.redo qe) y → HaltsNext (.redo pe) y)
  | 0 => by
    constructor
    · intro ps pe x _ h hx
      rw [whileRead] at h
      exact absurd h.symm hx
    · intro ps pe x _ _ h hx
      rw [redo] at h
      exact absurd h.symm hx
  | fuel + 1 => by
    obtain ⟨ihw, ihr⟩ := run_embedded h0 h1 fuel
    constructor
    · intro ps pe x hE h hx
      obtain ⟨ts, sts, roots, nodess, keys, ls, cs⟩ := ps
      obtain ⟨te, ste, roote, nodese, keye, le, ce⟩ := pe
      have hte : te = ts := by
        rcases hE with h | h
        · exact h.1
        · exact h.1
      subst hte
      cases te with
      | nil =>
        rw [whileRead_nil _ _ rfl] at h
        subst h
        exact Or.inl trivial
      | cons c rest =>
        rw [whileRead_cons _ _ c rest rfl] at h
        rcases ihr _ ⟨rest, ste, roote, nodese, keye, le, c⟩ x
          (embedded_text hE rest ls le c c) rfl h hx with he | ⟨qs, qe, hq, hi, hn, hxq, hy⟩
        · exact Or.inl he
        · refine Or.inr ⟨qs, qe, hq, hi, hn, hxq, ?_⟩
          intro y hh
          obtain ⟨m, hm, hne⟩ := hy y hh
          exact ⟨m + 1, by rw [whileRead_cons _ _ c rest rfl]; exact hm, hne⟩
    · intro ps pe x hE hin h hx
      rw [redo_succ] at h
      by_cases hstop : ps.nodes = [] ∧ ps.in_ ≠ 47 ∧ isWhite ps.in_ = false
      · refine Or.inr ⟨ps, pe, hE, hin, hstop.1, ?_, fun y hy => hy⟩
        obtain ⟨ts, sts, roots, nodess, keys, ls, cs⟩ := ps
        obtain ⟨hn, h47, hw⟩ := hstop
        simp only at hn h47 hw
        subst hn
        have hst : sts = .S_POST_ELEMENT := by
          rcases hE with hE | hE
          · have := hE.2.2.2.2.1
            cases this
          · exact hE.2.2.2.2.1 rfl
        subst hst
        rw [body_post _ _ _ _ _ _ h47 hw] at h
        rw [← h]
        rfl
      · have hb := body_embedded h0 h1 ps pe hE hin hstop
        cases hbs : body ps with
        | continue_ q =>
          rw [hbs] at hb h
          obtain ⟨qe, hqe, hEq⟩ := hb
          rcases ihw q qe x hEq h hx with he | ⟨qs, qe1, hq, hi, hn, hxq, hy⟩
          · exact Or.inl he
          · refine Or.inr ⟨qs, qe1, hq, hi, hn, hxq, ?_⟩
            intro y hh
            obtain ⟨m, hm, hne⟩ := hy y hh
            exact ⟨m + 1, by simp only [Next.run]; rw [redo_succ, hqe]; exact hm, hne⟩
        | redo q =>
          rw [hbs] at hb h
          obtain ⟨qe, hqe, hEq, hiq⟩ := hb
          rcases ihr q qe x hEq hiq h hx with he | ⟨qs, qe1, hq, hi, hn, hxq, hy⟩
          · exact Or.inl he
          · refine Or.inr ⟨qs, qe1, hq, hi, hn, hxq, ?_⟩
            intro y hh
            obtain ⟨m, hm, hne⟩ := hy y hh
            exact ⟨m + 1, by simp only [Next.run]; rw [redo_succ, hqe]; exact hm, hne⟩
        | throw e q =>
          rw [hbs] at hb h
          rw [← h]
          exact Or.inl hb
        | undefined =>
          rw [hbs] at h
          rw [← h]
          exact Or.inl trivial

/-- A value text that `deserialize` reads as `D`, with a `,` or a `}` behind it, is
read into the member `key` of the object on top of the stack as an element that
holds `D`, whatever the member held before; the run comes to the loop head in
front of the `,` or `}`, in state `S_POST_ELEMENT`. -/
theorem value_in_slot {vt : List Nat} {D : Element} (hD : deserialize vt = .value D)
    (hclosed : ∃ line, deserialize (vt ++ [44]) = .syntaxError ⟨"Input after end.", line, 44⟩)
    (c : Nat) (rest : List Nat) (hc : c = 44 ∨ c = 125)
    (root : Element) (top : NodePtr) (below : List NodePtr) (key : JString) (line : Int)
    (c0 : Nat) {o : JObject} {a : JArray} {s : JString} {n : Number} {b : Bool}
    (hd : deref root top = some (.mk .OBJECT o a s n b)) :
    ∃ e root1 key1 line1, e.holds D ∧
      store root top (.mk .OBJECT (mapModify key (fun _ => e) o) a s n b) = some root1 ∧
      ∀ c1, Leads ⟨vt ++ c :: rest, .S_PRE_ELEMENT, root, top :: below, key, line, c0⟩
        ⟨c :: rest, .S_POST_ELEMENT, root1, top :: below, key1, line1, c1⟩ := by
  have hcn : isNumberChar c = false ∧ c ≠ 47 ∧ isWhite c = false := by
    rcases hc with rfl | rfl <;> exact ⟨by decide, by decide, by decide⟩
  obtain ⟨rr, hrr, hr1, hr2, hr3⟩ := deserialize_value hD
  -- the run at the root, with the text behind the value
  have hA : ∀ u line1 c1, endsNumber u → ∃ q,
      Leads ⟨vt ++ u, .S_PRE_ELEMENT, Element.ofType .NULL_VALUE, [[]], [], line1, c1⟩ q ∧
        rr.alike q ∧ q.stream = u := by
    rcases (run_follows_all vt _).1 vt .S_PRE_ELEMENT (Element.ofType .NULL_VALUE) [[]] [] 1 0
      rr (List.suffix_refl _) hrr with hA | ⟨_, hB⟩
    · exact hA
    · exfalso
      obtain ⟨q, hl, ha, hq⟩ := hB [44] 1 0 (endsNumber_cons 44 [] (by decide))
      have hq2 : q.stream = [] := by rw [hq]; rfl
      have hh : Halts (Parser.start (vt ++ [44])) (.done q) :=
        hl _ ⟨1, whileRead_nil 0 q hq2, fun h => by cases h⟩
      have := deserialize_of_done hh
      rw [if_pos ⟨by rw [ha.1, hr1], by rw [ha.2.2.1, hr2]⟩] at this
      obtain ⟨l, hl2⟩ := hclosed
      rw [hl2] at this
      cases this
  obtain ⟨q, hl, ha, hq⟩ := hA (c :: rest) 1 0 (endsNumber_cons c rest hcn.1)
  obtain ⟨tq, stq, rootq, nodesq, keyq, lineq, cq⟩ := q
  obtain ⟨a1, a2, a3, a4⟩ := ha
  simp only at a1 a2 a3 a4 hq
  subst a1 a2 a3 a4 hq
  rw [hr1, hr2, hr3] at hl
  have hthrow : Halts ⟨vt ++ c :: rest, .S_PRE_ELEMENT, Element.ofType .NULL_VALUE, [[]], [],
      1, 0⟩ (.throw ⟨"Input after end.", lineq, c⟩
        ⟨rest, .S_POST_ELEMENT, D, [], rr.key, lineq, c⟩) := by
    apply hl
    apply halts_of_body_throw cq
    rw [body_post _ _ _ _ _ _ hcn.2.1 hcn.2.2]
    rfl
  obtain ⟨fuel, hf, hfne⟩ := hthrow
  -- the run in the member
  obtain ⟨root1, hs1⟩ := store_of_deref
    (.mk .OBJECT (mapModify key (fun x => x.assign (Element.ofType .NULL_VALUE)) o) a s n b)
    top root _ hd
  have hE : Embedded root root1 top below key
      ⟨vt ++ c :: rest, .S_PRE_ELEMENT, Element.ofType .NULL_VALUE, [[]], [], 1, 0⟩
      ⟨vt ++ c :: rest, .S_PRE_ELEMENT, root, top :: below, key, line, c0⟩ :=
    Or.inl ⟨rfl, rfl, rfl, rfl, rfl, rfl, rfl, rfl⟩
  rcases (run_embedded hd hs1 fuel).1 _ _ _ hE hf hfne with he | ⟨qs, qe, hq, hi, hn, hxq, hy⟩
  · exfalso
    rcases he with he | he
    · exact he rfl
    · simp only at he
      exact absurd he (by decide)
  · obtain ⟨ts, sts, roots, nodess, keys, ls, cs⟩ := qs
    obtain ⟨te, ste, roote, nodese, keye, le, ce⟩ := qe
    simp only [Outcome.throw.injEq, SyntaxError.mk.injEq, true_and, Parser.mk.injEq] at hxq
    obtain ⟨⟨e1, e2⟩, e3, e4, e5, e6, e7, e8, e9⟩ := hxq
    simp only at hi hn
    subst hi
    subst e3 e4 e5 e6 e7
    subst e2
    rcases hq with hq | hq
    · have := hq.2.2.2.2.1
      cases this
    · obtain ⟨f1, f2, f3, ⟨es, hb, hh⟩, _, _⟩ := hq
      simp only [List.map_nil, List.nil_append] at f1 f2 f3 hb hh
      subst f1 f2 f3
      refine ⟨es, roote, keye, le, hh, ?_, ?_⟩
      · have hdo := deref_store _ _ _ _ hs1
        have hse : store (Element.mk .OBJECT
              (mapModify key (fun x => x.assign (Element.ofType .NULL_VALUE)) o) a s n b)
              [.member key] es
            = some (.mk .OBJECT (mapModify key (fun _ => es) o) a s n b) := by
          rw [store]
          simp only [mapFind_mapModify, store, mapSet_mapModify]
        rw [store_snoc _ es top root1 _ _ hdo hse] at hb
        rw [← store_store _ _ top root root1 hs1]
        exact hb
      · intro c1 y hh2
        apply hy
        obtain ⟨m, hm, hne⟩ := hh2
        cases m with
        | zero => rw [whileRead] at hm; exact absurd hm.symm hne
        | succ m =>
          rw [whileRead_cons _ _ c te rfl] at hm
          exact ⟨m, hm, hne⟩

/-! ## The members of an object text -/

/-- The text of a member is read into the object on top of the stack. -/
theorem member_leads {m : MemberText} {k : JString} {D : Element} (hm : m.reads k D)
    (c : Nat) (rest : List Nat) (hc : c = 44 ∨ c = 125)
    (root : Element) (top : NodePtr) (below : List NodePtr) (key : JString) (line : Int)
    (c0 : Nat) {o : JObject} {a : JArray} {s : JString} {n : Number} {b : Bool}
    (hd : deref root top = some (.mk .OBJECT o a s n b)) :
    ∃ e root1 key1 line1, e.holds D ∧
      store root top (.mk .OBJECT (mapModify k (fun _ => e) o) a s n b) = some root1 ∧
      ∀ c1, Leads ⟨m.text ++ c :: rest, .S_PRE_KEY, root, top :: below, key, line, c0⟩
        ⟨c :: rest, .S_POST_ELEMENT, root1, top :: below, key1, line1, c1⟩ := by
  obtain ⟨hb1, hk, hb2, hD, hclosed⟩ := hm
  have ht : m.text ++ c :: rest
      = m.before ++ 34 :: (m.keyText ++ (m.between ++ 58 :: (m.valueText ++ c :: rest))) := by
    simp [MemberText.text, List.append_assoc]
  rw [ht]
  obtain ⟨c1, hl1⟩ := blank_leads hb1
    (34 :: (m.keyText ++ (m.between ++ 58 :: (m.valueText ++ c :: rest)))) .S_PRE_KEY root
    (top :: below) key line c0
  have hl2 : Leads ⟨34 :: (m.keyText ++ (m.between ++ 58 :: (m.valueText ++ c :: rest))),
        .S_PRE_KEY, root, top :: below, key, line + lineBreaks m.before, c1⟩
      ⟨m.between ++ 58 :: (m.valueText ++ c :: rest), .S_PRE_SEP, root, top :: below, k,
        line + lineBreaks m.before, 34⟩ := by
    apply leads_of_body 34 _ rfl
    have hp := (parseString_ext hk).2 (line + lineBreaks m.before)
      (m.between ++ 58 :: (m.valueText ++ c :: rest))
    rw [List.nil_append] at hp
    rw [body_key hp]
    exact leadsNext_continue (Leads.refl _)
  obtain ⟨c2, hl3⟩ := blank_leads hb2 (58 :: (m.valueText ++ c :: rest)) .S_PRE_SEP root
    (top :: below) k (line + lineBreaks m.before) 34
  have hl4 : Leads ⟨58 :: (m.valueText ++ c :: rest), .S_PRE_SEP, root, top :: below, k,
        line + lineBreaks m.before + lineBreaks m.between, c2⟩
      ⟨m.valueText ++ c :: rest, .S_PRE_ELEMENT, root, top :: below, k,
        line + lineBreaks m.before + lineBreaks m.between, 58⟩ := by
    apply leads_of_body 58 _ rfl
    rw [body_sep]
    exact leadsNext_continue (Leads.refl _)
  obtain ⟨e, root1, key1, line1, he, hs, hl5⟩ := value_in_slot hD hclosed c rest hc root top
    below k (line + lineBreaks m.before + lineBreaks m.between) 58 hd
  exact ⟨e, root1, key1, line1, he, hs, fun c3 =>
    hl1.trans (hl2.trans (hl3.trans (hl4.trans (hl5 c3))))⟩

/-- The members of an object text and the closing bracket are read into the
object on top of the stack, one member after the other. -/
theorem members_lead : ∀ (ms : List MemberText) (kvs : List (JString × Element)), ms ≠ [] →
    List.Forall₂ (fun m kv => m.reads kv.1 kv.2) ms kvs →
    ∀ (rest : List Nat) (root : Element) (top : NodePtr) (below : List NodePtr)
      (key : JString) (line : Int) (c0 : Nat) (o : JObject) (a : JArray) (s : JString)
      (n : Number) (b : Bool),
    deref root top = some (.mk .OBJECT o a s n b) →
    ∃ o1 root1 key1 line1, ObjectAfter o kvs o1 ∧
      store root top (.mk .OBJECT o1 a s n b) = some root1 ∧
      Leads ⟨joinWith [44] (ms.map MemberText.text) ++ 125 :: rest, .S_PRE_KEY, root,
          top :: below, key, line, c0⟩
        ⟨rest, .S_POST_ELEMENT, root1, below, key1, line1, 125⟩
  | [], _, h, _ => fun _ _ _ _ _ _ _ _ _ _ _ _ _ => absurd rfl h
  | [m], kvs, _, hf => by
    intro rest root top below key line c0 o a s n b hd
    cases hf with
    | cons hm hrest =>
      cases hrest
      rename_i kv
      obtain ⟨e, root1, key1, line1, he, hs, hl⟩ := member_leads hm 125 rest (Or.inr rfl) root
        top below key line c0 hd
      refine ⟨_, root1, key1, line1, ⟨e, he, rfl⟩, hs, ?_⟩
      simp only [List.map_cons, List.map_nil, joinWith]
      refine (hl 0).trans ?_
      apply leads_of_body 125 _ rfl
      rw [body_post _ _ _ _ _ _ (by decide) (by decide),
        postElement_close_object (deref_store _ _ _ _ hs)]
      exact leadsNext_continue (Leads.refl _)
  | m :: m2 :: ms, kvs, _, hf => by
    intro rest root top below key line c0 o a s n b hd
    cases hf with
    | cons hm hrest =>
      rename_i kv kvs1
      obtain ⟨e, root1, key1, line1, he, hs, hl⟩ := member_leads hm 44
        (joinWith [44] ((m2 :: ms).map MemberText.text) ++ 125 :: rest) (Or.inl rfl) root
        top below key line c0 hd
      have hd1 := deref_store _ _ _ _ hs
      obtain ⟨o1, root2, key2, line2, ho, hs2, hl2⟩ := members_lead (m2 :: ms) kvs1
        (by simp) hrest rest root1 top below key1 line1 44 _ a s n b hd1
      refine ⟨o1, root2, key2, line2, ⟨e, he, ho⟩, ?_, ?_⟩
      · rw [← store_store _ _ top root root1 hs]
        exact hs2
      · have ht : joinWith [44] ((m :: m2 :: ms).map MemberText.text) ++ 125 :: rest
            = m.text ++ 44 :: (joinWith [44] ((m2 :: ms).map MemberText.text) ++ 125 :: rest) := by
          simp [joinWith, List.append_assoc]
        rw [ht]
        refine (hl 0).trans (Leads.trans ?_ hl2)
        apply leads_of_body 44 _ rfl
        rw [body_post _ _ _ _ _ _ (by decide) (by decide), postElement_comma hd1]
        exact leadsNext_continue (Leads.refl _)

theorem objectAfter_ascending : ∀ (kvs : List (JString × Element)) (o o1 : JObject),
    ObjectAfter o kvs o1 → keysAscending o = true → keysAscending o1 = true
  | [], o, o1, h, ha => by
    rw [ObjectAfter] at h
    rw [h]
    exact ha
  | (k, D) :: rest, o, o1, h, ha => by
    rw [ObjectAfter] at h
    obtain ⟨e, _, h2⟩ := h
    exact objectAfter_ascending rest _ o1 h2 (keysAscending_mapModify k _ o ha)

theorem objectAfter_find (k : JString) : ∀ (kvs : List (JString × Element)) (o o1 : JObject),
    ObjectAfter o kvs o1 →
    (∀ D, lastValue k kvs = some D → ∃ e, mapFind k o1 = some e ∧ e.holds D) ∧
    (lastValue k kvs = none → mapFind k o1 = mapFind k o)
  | [], o, o1, h => by
    rw [ObjectAfter] at h
    rw [h]
    exact ⟨fun D hD => (by rw [lastValue] at hD; cases hD), fun _ => rfl⟩
  | (k1, D1) :: rest, o, o1, h => by
    rw [ObjectAfter] at h
    obtain ⟨e, he, h2⟩ := h
    obtain ⟨ih1, ih2⟩ := objectAfter_find k rest _ o1 h2
    rw [lastValue]
    cases hl : lastValue k rest with
    | some v =>
      simp only
      exact ⟨fun D hD => ih1 D (hl.trans hD), fun h => by cases h⟩
    | none =>
      simp only
      by_cases hk : k1 = k
      · subst hk
        rw [if_pos rfl]
        refine ⟨fun D hD => ?_, fun h => by cases h⟩
        cases hD
        refine ⟨e, ?_, he⟩
        rw [ih2 hl, mapFind_mapModify]
      · rw [if_neg hk]
        refine ⟨fun D hD => (by cases hD), fun _ => ?_⟩
        rw [ih2 hl, mapFind_mapModify_ne k1 k _ (fun h => hk h.symm)]

theorem lastValue_mem (k : JString) : ∀ (kvs : List (JString × Element)),
    k ∈ kvs.map Prod.fst → ∃ D, lastValue k kvs = some D
  | [], h => by simp at h
  | (k1, D1) :: rest, h => by
    rw [lastValue]
    cases hl : lastValue k rest with
    | some v => exact ⟨v, rfl⟩
    | none =>
      simp only
      by_cases hk : k1 = k
      · exact ⟨D1, by rw [if_pos hk]⟩
      · exfalso
        simp only [List.map_cons, List.mem_cons] at h
        rcases h with h | h
        · exact hk h.symm
        · obtain ⟨D, hD⟩ := lastValue_mem k rest h
          rw [hl] at hD
          cases hD

theorem lastValue_last (k : JString) (D : Element) (post : List (JString × Element))
    (hp : ∀ p ∈ post, p.1 ≠ k) : ∀ (pre : List (JString × Element)),
    lastValue k (pre ++ (k, D) :: post) = some D
  | [] => by
    have hn : ∀ (post : List (JString × Element)), (∀ p ∈ post, p.1 ≠ k) →
        lastValue k post = none := by
      intro post
      induction post with
      | nil => intro _; rfl
      | cons p post ih =>
        intro hp
        obtain ⟨k1, D1⟩ := p
        rw [lastValue, ih (fun p hpm => hp p (List.mem_cons_of_mem _ hpm))]
        simp only
        rw [if_neg (hp (k1, D1) (List.mem_cons_self _ _))]
    rw [List.nil_append, lastValue, hn post hp]
    simp
  | (k1, D1) :: pre => by
    rw [List.cons_append, lastValue, lastValue_last k D post hp pre]

/-- An element that holds a value is `==` to it. -/
theorem eq_of_holds {e D : Element} (h : e.holds D) : e.eq D = D.eq D := by
  obtain ⟨t, o, a, s, n, b⟩ := D
  obtain ⟨t1, o1, a1, s1, n1, b1⟩ := e
  obtain ⟨e1, e2, e3, e4, e5⟩ := holds_mk h
  subst e1 e2 e3 e4
  cases t1 with
  | NULL_VALUE => rfl
  | OBJECT => simp [Element.eq]
  | ARRAY => simp [Element.eq]
  | STRING => simp [Element.eq]
  | NUMBER =>
    obtain ⟨e6, e7⟩ := e5 (Or.inr (Or.inl rfl))
    rw [e6, e7]
  | BOOLEAN =>
    obtain ⟨e6, e7⟩ := e5 (Or.inr (Or.inr rfl))
    rw [e6, e7]

theorem objectAfter_keys : ∀ (kvs : List (JString × Element)) (o o1 : JObject),
    ObjectAfter o kvs o1 → ∀ q ∈ o1, q.1 ∈ kvs.map Prod.fst ∨ ∃ y, (q.1, y) ∈ o
  | [], o, o1, h, q, hq => by
    rw [ObjectAfter] at h
    rw [h] at hq
    exact Or.inr ⟨q.2, hq⟩
  | (k, D) :: rest, o, o1, h, q, hq => by
    rw [ObjectAfter] at h
    obtain ⟨e, _, h2⟩ := h
    rcases objectAfter_keys rest _ o1 h2 q hq with h3 | ⟨y, h3⟩
    · exact Or.inl (List.mem_cons_of_mem _ h3)
    · rcases mapModify_keys_mem k _ o (q.1, y) h3 with h4 | h4
      · left
        simp only at h4
        rw [h4]
        exact List.mem_cons_self _ _
      · exact Or.inr h4

/-- A value text whose last line holds no `//` is closed: a `,` behind it is input
after the end. -/
theorem closed_of_no_comment {vt : List Nat} {D : Element} (hD : deserialize vt = .value D)
    (hc : ¬ endsInComment vt) :
    ∃ line, deserialize (vt ++ [44]) = .syntaxError ⟨"Input after end.", line, 44⟩ := by
  obtain ⟨rr, hrr, hr1, hr2, hr3⟩ := deserialize_value hD
  rcases (run_follows_all vt _).1 vt .S_PRE_ELEMENT (Element.ofType .NULL_VALUE) [[]] [] 1 0
    rr (List.suffix_refl _) hrr with hA | ⟨hB, _⟩
  · obtain ⟨q, hl, ha, hq⟩ := hA [44] 1 0 (endsNumber_cons 44 [] (by decide))
    obtain ⟨tq, stq, rootq, nodesq, keyq, lineq, cq⟩ := q
    obtain ⟨a1, a2, a3, a4⟩ := ha
    simp only at a1 a2 a3 a4 hq
    subst a1 a2 a3 a4 hq
    rw [hr1, hr2] at hl
    have hb : body ⟨[], .S_POST_ELEMENT, rr.root, [], rr.key, lineq, 44⟩
        = .throw ⟨"Input after end.", lineq, 44⟩
            ⟨[], .S_POST_ELEMENT, rr.root, [], rr.key, lineq, 44⟩ := by
      rw [body_post _ _ _ _ _ _ (by decide) (by decide)]
      rfl
    exact ⟨lineq, deserialize_of_throw (hl _ (halts_of_body_throw cq hb))⟩
  · exact absurd hB hc

/-- An object text of one or more members is read as the empty Object with the
members put in one after the other. -/
theorem object_text_read (ms : List MemberText) (kvs : List (JString × Element))
    (hne : ms ≠ []) (h : List.Forall₂ (fun m kv => m.reads kv.1 kv.2) ms kvs) :
    ∃ o, deserialize (objectText ms) = .value (.mk .OBJECT o [] [] Number.zero false) ∧
      ObjectAfter [] kvs o := by
  obtain ⟨o1, root1, key1, line1, ho, hs, hl⟩ := members_lead ms kvs hne h []
    (.mk .OBJECT [] [] [] Number.zero false) [] [] [] 1 123 [] [] [] Number.zero false
    (deref_nil _)
  rw [store] at hs
  cases hs
  have hopen : Leads (Parser.start (objectText ms))
      ⟨joinWith [44] (ms.map MemberText.text) ++ [125], .S_PRE_KEY,
        .mk .OBJECT [] [] [] Number.zero false, [[]], [], 1, 123⟩ := by
    unfold Parser.start objectText
    apply leads_of_body 123 _ rfl
    rw [body_pre _ _ _ _ _ _ (by decide) (by decide), preElement_null (deref_nil _) (by rfl),
      beginValue_object (deref_nil _) (by rw [store, assign_fresh_object])]
    exact leadsNext_continue (Leads.refl _)
  have hh : Halts (Parser.start (objectText ms))
      (.done ⟨[], .S_POST_ELEMENT, .mk .OBJECT o1 [] [] Number.zero false, [], key1, line1,
        125⟩) :=
    hopen _ (hl _ ⟨1, whileRead_nil 0 _ rfl, fun hx => by cases hx⟩)
  refine ⟨o1, ?_, ho⟩
  rw [deserialize_of_done hh, if_pos ⟨rfl, rfl⟩]

/-- The members `"a":[1]` and `"a":2`. -/
theorem example_members_read :
    List.Forall₂ (fun (m : MemberText) (kv : JString × Element) => m.reads kv.1 kv.2)
      [⟨[], lit "a\"", [], lit "[1]"⟩, ⟨[], lit "a\"", [], lit "2"⟩]
      [(lit "a", Element.ofArray [Element.ofNumber (.finite false 1 0)]),
        (lit "a", Element.ofNumber (.finite false 1 1))] :=
  .cons ⟨Blank.nil, by rfl, Blank.nil, by decide!, 1, by decide!⟩
    (.cons ⟨Blank.nil, by rfl, Blank.nil, by decide!, 1, by decide!⟩ .nil)

/-- The text `{"a":[1],"a":2}` is read as the Object with the one entry `a: 2`. -/
theorem example_duplicate :
    deserialize (lit "\x7b\"a\":[1],\"a\":2\x7d")
      = .value (Element.ofObject [(lit "a", Element.ofNumber (.finite false 1 1))]) := by
  obtain ⟨o, h1, h2⟩ := object_text_read _ _ (by simp) example_members_read
  have ht : objectText [⟨[], lit "a\"", [], lit "[1]"⟩, ⟨[], lit "a\"", [], lit "2"⟩]
      = lit "\x7b\"a\":[1],\"a\":2\x7d" := by decide
  rw [ht] at h1
  rw [h1]
  simp only [ObjectAfter] at h2
  obtain ⟨e1, _, e2, he2, ho⟩ := h2
  obtain ⟨t2, o2, a2, s2, n2, b2⟩ := e2
  obtain ⟨f1, f2, f3, f4, f5⟩ := holds_mk he2
  obtain ⟨f6, f7⟩ := f5 (Or.inr (Or.inl rfl))
  subst f1 f2 f3 f4 f6 f7
  rw [ho]
  have hm : mapModify (lit "a") (fun _ => Element.mk .NUMBER [] [] [] (.finite false 1 1) false)
      (mapModify (lit "a") (fun _ => e1) [])
      = [(lit "a", .mk .NUMBER [] [] [] (.finite false 1 1) false)] := by
    simp [mapModify, strLess_irrefl]
  rw [hm]
  rfl

/-! ## C37: a key that occurs more than once -/

/-- C37: for every object text of one or more members, each a key between quotes,
a colon and the text of a value, with white space and comments around the
key: `deserialize` returns an Object, which is the empty Object with the
members put in one after the other by `object[key]`.  No two entries of the
Object have the same key, it has an entry for every key of the text and no
other entry, and the entry of a key
holds the value of the last member with that key: it has the type and the
`_object`, `_array` and `_string` stores of that value and is `==` to it,
so that nothing of the values of the earlier members is left in the stores.
(When that value is a Null, an Array or an Object, `_number` and `_boolean`
of the entry are what the earlier member left there, which no accessor
reads: the text `{"a":true,"a":[]}` gives an empty Array with `_boolean` set.) -/
theorem duplicate_keys (ms : List MemberText) (kvs : List (JString × Element)) (hne : ms ≠ [])
    (h : List.Forall₂ (fun m kv => m.reads kv.1 kv.2) ms kvs) :
    (∃ o, deserialize (objectText ms) = .value (.mk .OBJECT o [] [] Number.zero false) ∧
      ObjectAfter [] kvs o ∧ keysAscending o = true ∧ (o.map Prod.fst).Nodup ∧
      (∀ q ∈ o, q.1 ∈ kvs.map Prod.fst) ∧
      ∀ k, k ∈ kvs.map Prod.fst → ∃ D e, lastValue k kvs = some D ∧
        mapFind k o = some e ∧ (k, e) ∈ o ∧ e.holds D ∧ e.eq D = true) ∧
    (∀ (k : JString) (D : Element) (pre post : List (JString × Element)),
      (∀ p ∈ post, p.1 ≠ k) → lastValue k (pre ++ (k, D) :: post) = some D) ∧
    (∀ (vt : List Nat) (D : Element), deserialize vt = .value D → ¬ endsInComment vt →
      ∃ line, deserialize (vt ++ [44]) = .syntaxError ⟨"Input after end.", line, 44⟩) ∧
    deserialize (lit "\x7b\"a\":[1],\"a\":2\x7d")
      = .value (Element.ofObject [(lit "a", Element.ofNumber (.finite false 1 1))]) ∧
    deserialize (lit "\x7b\"a\":true,\"a\":[]\x7d")
      = .value (.mk .OBJECT [(lit "a", .mk .ARRAY [] [] [] Number.zero true)] [] []
          Number.zero false) ∧
    (Element.mk .OBJECT [(lit "a", .mk .ARRAY [] [] [] Number.zero true)] [] []
        Number.zero false).eq (Element.ofObject [(lit "a", Element.ofArray [])]) = true := by
  refine ⟨?_, fun k D pre post hp => lastValue_last k D post hp pre,
    fun vt D hD hc => closed_of_no_comment hD hc, example_duplicate, by decide!, by decide!⟩
  obtain ⟨o1, hval1, ho⟩ := object_text_read ms kvs hne h
  have hasc := objectAfter_ascending kvs [] o1 ho (by rfl)
  have hnd : (o1.map Prod.fst).Nodup := by
    refine (keysAscending_keys o1 hasc).imp ?_
    intro x y hxy he
    rw [he, strLess_irrefl] at hxy
    cases hxy
  refine ⟨o1, hval1, ho, hasc, hnd, ?_, ?_⟩
  · intro q hq
    rcases objectAfter_keys kvs [] o1 ho q hq with h1 | ⟨y, h1⟩
    · exact h1
    · cases h1
  · intro k hk
    obtain ⟨D, hD⟩ := lastValue_mem k kvs hk
    obtain ⟨e, he, hhold⟩ := (objectAfter_find k kvs [] o1 ho).1 D hD
    have hmem := mapFind_mem k o1 e he
    -- the value is one of the values of the text, which `deserialize` returned
    have hval : ∀ (kvs : List (JString × Element)) (ms : List MemberText),
        List.Forall₂ (fun (m : MemberText) (kv : JString × Element) => m.reads kv.1 kv.2)
          ms kvs →
        lastValue k kvs = some D → D.eq D = true := by
      intro kvs
      induction kvs with
      | nil => intro ms _ hl; rw [lastValue] at hl; cases hl
      | cons kv kvs ih =>
        intro ms hf hl
        cases hf with
        | cons hm hrest =>
          obtain ⟨k1, D1⟩ := kv
          rw [lastValue] at hl
          cases hv : lastValue k kvs with
          | some v =>
            rw [hv] at hl
            simp only [Option.some.injEq] at hl
            subst hl
            exact ih _ hrest hv
          | none =>
            rw [hv] at hl
            simp only at hl
            by_cases hk1 : k1 = k
            · rw [if_pos hk1] at hl
              cases hl
              exact (deserialize_eq_self hm.2.2.2.1).2
            · rw [if_neg hk1] at hl
              cases hl
    refine ⟨D, e, hD, he, hmem, hhold, ?_⟩
    rw [eq_of_holds hhold]
    exact hval kvs ms h hD

/-- C37 at the text `{"a":[1],"a":2}`: the Object has one entry for the key `a`,
which holds the Number 2. -/
theorem duplicate_keys_witness :
    List.Forall₂ (fun (m : MemberText) (kv : JString × Element) => m.reads kv.1 kv.2)
      [⟨[], lit "a\"", [], lit "[1]"⟩, ⟨[], lit "a\"", [], lit "2"⟩]
      [(lit "a", Element.ofArray [Element.ofNumber (.finite false 1 0)]),
        (lit "a", Element.ofNumber (.finite false 1 1))] ∧
    ∃ o, deserialize (objectText
          [⟨[], lit "a\"", [], lit "[1]"⟩, ⟨[], lit "a\"", [], lit "2"⟩])
        = .value (.mk .OBJECT o [] [] Number.zero false) ∧
      (o.map Prod.fst).Nodup ∧
      ∃ e, mapFind (lit "a") o = some e ∧ e.holds (Element.ofNumber (.finite false 1 1)) := by
  refine ⟨example_members_read, ?_⟩
  obtain ⟨o, h1, _, _, hc, _, h2⟩ := (duplicate_keys _ _ (by simp) example_members_read).1
  obtain ⟨D, e, hD, he, _, hh, _⟩ := h2 (lit "a") (by simp)
  have hD2 : D = Element.ofNumber (.finite false 1 1) := by
    have : lastValue (lit "a")
        [(lit "a", Element.ofArray [Element.ofNumber (.finite false 1 0)]),
          (lit "a", Element.ofNumber (.finite false 1 1))]
        = some (Element.ofNumber (.finite false 1 1)) := by
      simp [lastValue]
    rw [this] at hD
    cases hD
    rfl
  subst hD2
  exact ⟨o, h1, hc, e, he, hh⟩

/-! ## C7: the order of the members of an object text -/

/-- The loop of `parseNumber` on a text with more text behind it: it stops where it
stopped, or, if it reached the end of the text, at the first character behind
it, which is then no character of a number. -/
theorem parseNumberLoop_any (u : List Nat) : ∀ (t os : List Nat),
    (t.all isNumberChar = true → endsNumber u) →
    (parseNumberLoop t os).2.2 <:+ t ∧
    ((parseNumberLoop t os).2.1 = 47 → 47 :: (parseNumberLoop t os).2.2 <:+ t) ∧
    (parseNumberLoop (t ++ u) os
        = ((parseNumberLoop t os).1, (parseNumberLoop t os).2.1, (parseNumberLoop t os).2.2 ++ u) ∨
      ((parseNumberLoop t os).2.2 = [] ∧ (parseNumberLoop t os).2.1 = 32 ∧
        ∃ c v, u = c :: v ∧ parseNumberLoop (t ++ u) os = ((parseNumberLoop t os).1, c, v)))
  | [], os, hu => by
    refine ⟨List.suffix_refl _, by simp [parseNumberLoop], ?_⟩
    cases u with
    | nil => left; simp [parseNumberLoop]
    | cons c v =>
      right
      have hc := hu rfl c v rfl
      refine ⟨rfl, rfl, c, v, rfl, ?_⟩
      simp [parseNumberLoop, hc]
  | c :: t, os, hu => by
    by_cases hc : isNumberChar c = true
    · obtain ⟨h1, h2, h3⟩ := parseNumberLoop_any u t (os ++ [c])
        (fun ht => hu (by rw [List.all_cons, hc, ht]; rfl))
      have e : parseNumberLoop (c :: t) os = parseNumberLoop t (os ++ [c]) := by
        rw [parseNumberLoop, if_pos hc]
      have e2 : parseNumberLoop (c :: t ++ u) os = parseNumberLoop (t ++ u) (os ++ [c]) := by
        rw [List.cons_append, parseNumberLoop, if_pos hc]
      rw [e, e2]
      exact ⟨h1.trans (List.suffix_cons _ _), fun h => (h2 h).trans (List.suffix_cons _ _), h3⟩
    · have e : parseNumberLoop (c :: t) os = (os, c, t) := by
        rw [parseNumberLoop, if_neg hc]
      have e2 : parseNumberLoop (c :: t ++ u) os = (os, c, t ++ u) := by
        rw [List.cons_append, parseNumberLoop, if_neg hc]
      rw [e, e2]
      refine ⟨List.suffix_cons _ _, ?_, Or.inl rfl⟩
      intro h
      simp only at h
      rw [h]

theorem parseNumber_any (u : List Nat) {t : List Nat} (hu : t.all isNumberChar = true → endsNumber u)
    {first : Nat}
    {num num1 : Number} {line : Int} {extra : Nat} {rest : List Nat}
    (h : parseNumber t first num line = (num1, .ok (extra, rest))) :
    rest <:+ t ∧ (extra = 47 → 47 :: rest <:+ t) ∧
    ∀ line1 : Int,
      parseNumber (t ++ u) first num line1 = (num1, .ok (extra, rest ++ u)) ∨
      (rest = [] ∧ extra = 32 ∧
        ∃ c v, u = c :: v ∧ parseNumber (t ++ u) first num line1 = (num1, .ok (c, v))) := by
  obtain ⟨h1, h2, h3⟩ := parseNumberLoop_any u t [first] hu
  unfold parseNumber at h
  rcases hp : parseNumberLoop t [first] with ⟨os, ex, r⟩
  rw [hp] at h h1 h2 h3
  simp only at h h1 h2 h3
  cases hs : stod os with
  | invalid_argument => rw [hs] at h; cases h
  | out_of_range => rw [hs] at h; cases h
  | ok val read =>
    rw [hs] at h
    simp only at h
    by_cases hr : read ≠ os.length
    · rw [if_pos hr] at h; cases h
    · rw [if_neg hr] at h
      cases h
      refine ⟨h1, h2, ?_⟩
      intro line1
      rcases h3 with h3 | ⟨e1, e2, c, v, e3, h3⟩
      · left
        unfold parseNumber
        rw [h3]
        simp only [hs, if_neg hr]
      · right
        refine ⟨e1, e2, c, v, e3, ?_⟩
        unfold parseNumber
        rw [h3]
        simp only [hs, if_neg hr]

/-- A primitive the parser reads is read the same way with more text behind it,
if that text does not start with a character of a number where a number runs
to the end of the text. -/
theorem parsePrimitive_any (u : List Nat) {t : List Nat} {first : Nat}
    (hu : (first = 45 ∨ (48 ≤ first ∧ first ≤ 57)) → t.all isNumberChar = true → endsNumber u)
    {el el1 : Element} {line : Int} {extra : Nat} {rest : List Nat}
    (h : parsePrimitive t first el line = (el1, .ok (extra, rest))) :
    rest <:+ t ∧ (extra = 47 → 47 :: rest <:+ t) ∧
    ∀ line1 : Int,
      parsePrimitive (t ++ u) first el line1 = (el1, .ok (extra, rest ++ u)) ∨
      (rest = [] ∧ extra = 32 ∧
        ∃ c v, u = c :: v ∧ parsePrimitive (t ++ u) first el line1 = (el1, .ok (c, v))) := by
  unfold parsePrimitive at h
  split at h
  · rename_i hf
    cases hw : parseNull t line with
    | error e => rw [hw] at h; cases h
    | ok r =>
      rw [hw] at h
      obtain ⟨x, r⟩ := r
      cases h
      obtain ⟨hs, he⟩ := parseWord_ext hw
      refine ⟨hs, fun hh => absurd hh (by decide), fun line1 => Or.inl ?_⟩
      unfold parsePrimitive
      rw [if_pos hf]
      unfold parseNull
      rw [he]
  · rename_i hf1
    split at h
    · rename_i hf
      cases hw : parseTrue t line with
      | error e => rw [hw] at h; cases h
      | ok r =>
        rw [hw] at h
        obtain ⟨x, r⟩ := r
        cases h
        obtain ⟨hs, he⟩ := parseWord_ext hw
        refine ⟨hs, fun hh => absurd hh (by decide), fun line1 => Or.inl ?_⟩
        unfold parsePrimitive
        rw [if_neg hf1, if_pos hf]
        unfold parseTrue
        rw [he]
    · rename_i hf2
      split at h
      · rename_i hf
        cases hw : parseFalse t line with
        | error e => rw [hw] at h; cases h
        | ok r =>
          rw [hw] at h
          obtain ⟨x, r⟩ := r
          cases h
          obtain ⟨hs, he⟩ := parseWord_ext hw
          refine ⟨hs, fun hh => absurd hh (by decide), fun line1 => Or.inl ?_⟩
          unfold parsePrimitive
          rw [if_neg hf1, if_neg hf2, if_pos hf]
          unfold parseFalse
          rw [he]
      · rename_i hf3
        split at h
        · rename_i hf
          rcases hel : el.assign (Element.ofType .STRING) with ⟨ty, o, a, ss, n, b⟩
          rw [hel] at h
          simp only at h
          cases hw : parseString t line with
          | error e => rw [hw] at h; cases h
          | ok r =>
            rw [hw] at h
            obtain ⟨x, r⟩ := r
            cases h
            obtain ⟨hs, he⟩ := parseString_ext hw
            refine ⟨hs, fun hh => absurd hh (by decide), fun line1 => Or.inl ?_⟩
            unfold parsePrimitive
            rw [if_neg hf1, if_neg hf2, if_neg hf3, if_pos hf, hel]
            simp only [he]
        · rename_i hf4
          split at h
          · rename_i hf
            rcases hel : el.assign (Element.ofType .NUMBER) with ⟨ty, o, a, ss, n, b⟩
            rw [hel] at h
            simp only at h
            rcases hw : parseNumber t first n line with ⟨num, r⟩
            rw [hw] at h
            simp only [Prod.mk.injEq] at h
            obtain ⟨h1, h2⟩ := h
            subst h2
            obtain ⟨hs, hx, he⟩ := parseNumber_any u (hu hf) hw
            refine ⟨hs, hx, ?_⟩
            intro line1
            rcases he line1 with he | ⟨e1, e2, c, v, e3, he⟩
            · left
              unfold parsePrimitive
              rw [if_neg hf1, if_neg hf2, if_neg hf3, if_neg hf4, if_pos hf, hel]
              simp only [he, h1]
            · right
              refine ⟨e1, e2, c, v, e3, ?_⟩
              unfold parsePrimitive
              rw [if_neg hf1, if_neg hf2, if_neg hf3, if_neg hf4, if_pos hf, hel]
              simp only [he, h1]
          · cases h

theorem beginValue_follows_any (u t : List Nat) (st st1 : State)
    (root : Element) (nodes : List NodePtr) (key : JString) (line line1 : Int) (c : Nat)
    (hu : (c = 45 ∨ (48 ≤ c ∧ c ≤ 57)) → t.all isNumberChar = true → endsNumber u) :
    Next.Follows u t c (beginValue ⟨t, st, root, nodes, key, line, c⟩)
      (beginValue ⟨t ++ u, st1, root, nodes, key, line1, c⟩) := by
  unfold beginValue
  cases nodes with
  | nil => trivial
  | cons top below =>
    simp only
    cases hd : deref root top with
    | none => trivial
    | some el =>
      simp only
      by_cases h91 : c = '['.toNat
      · rw [if_pos h91, if_pos h91]
        cases hs : store root top (el.assign (Element.ofType .ARRAY)) with
        | none => trivial
        | some r =>
          simp only [Next.Follows, Parser.alike, List.suffix_refl, true_and, and_self, true_or]
      · rw [if_neg h91, if_neg h91]
        by_cases h123 : c = '{'.toNat
        · rw [if_pos h123, if_pos h123]
          cases hs : store root top (el.assign (Element.ofType .OBJECT)) with
          | none => trivial
          | some r =>
            simp only [Next.Follows, Parser.alike, List.suffix_refl, true_and, and_self, true_or]
        · rw [if_neg h123, if_neg h123]
          rcases hp : parsePrimitive t c (el.assign (Element.ofType .NULL_VALUE)) line
            with ⟨el1, res⟩
          cases res with
          | error e =>
            simp only
            cases store root top el1 <;> trivial
          | ok r =>
            obtain ⟨extra, rest⟩ := r
            obtain ⟨h1, h2, h3⟩ := parsePrimitive_any u hu hp
            simp only
            cases hs : store root top el1 with
            | none => trivial
            | some r1 =>
              rcases h3 line1 with h3 | ⟨e1, e2, c1, v, e3, h3⟩
              · rw [h3]
                simp only [hs, Next.Follows, Parser.alike, true_and, and_self, true_or, and_true]
                exact ⟨h1, h2⟩
              · rw [h3]
                simp only [hs, Next.Follows, Parser.alike, true_and, and_self]
                refine ⟨h1, h2, Or.inr ⟨e1, e2, e3⟩⟩

theorem preElement_follows_any (u t : List Nat) (st st1 : State)
    (root : Element) (nodes : List NodePtr) (key : JString) (line line1 : Int) (c : Nat)
    (hu : (c = 45 ∨ (48 ≤ c ∧ c ≤ 57)) → t.all isNumberChar = true → endsNumber u) :
    Next.Follows u t c (preElement ⟨t, st, root, nodes, key, line, c⟩)
      (preElement ⟨t ++ u, st1, root, nodes, key, line1, c⟩) := by
  unfold preElement
  cases nodes with
  | nil => trivial
  | cons top below =>
    simp only
    cases hd : deref root top with
    | none => trivial
    | some el =>
      obtain ⟨ty, o, a, s, n, b⟩ := el
      simp only
      split
      · exact beginValue_follows_any u t _ _ _ _ _ _ _ c hu
      · split
        · split
          · simp only [Next.Follows, Parser.alike, List.suffix_refl, true_and, and_self, true_or,
              and_true]
            rename_i h93
            intro h47
            rw [h93] at h47
            exact absurd h47 (by decide)
          · cases hs : store root top
                (.mk ty o (a ++ [Element.copy (Element.ofType .NULL_VALUE)]) s n b) with
            | none => trivial
            | some r1 => exact beginValue_follows_any u t _ _ _ _ _ _ _ c hu
        · split
          · cases hs : store root top
                (.mk ty (mapModify key (fun x => x.assign (Element.ofType .NULL_VALUE)) o)
                  a s n b) with
            | none => trivial
            | some r1 => exact beginValue_follows_any u t _ _ _ _ _ _ _ c hu
          · exact beginValue_follows_any u t _ _ _ _ _ _ _ c hu

/-- One pass through the loop body on a text with `u` behind it follows the pass
on the text alone, unless the pass reads a number that runs to the end of the
text and `u` goes on with a character of a number. -/
theorem body_follows_any (u t : List Nat) (st : State)
    (root : Element) (nodes : List NodePtr) (key : JString) (line line1 : Int) (c : Nat)
    (hu : st = .S_PRE_ELEMENT → (c = 45 ∨ (48 ≤ c ∧ c ≤ 57)) → t.all isNumberChar = true →
      endsNumber u) :
    Next.Follows u t c (body ⟨t, st, root, nodes, key, line, c⟩)
      (body ⟨t ++ u, st, root, nodes, key, line1, c⟩) := by
  by_cases h47 : c = 47
  · subst h47
    cases hs : skipLineComment t line with
    | error e =>
      rw [body_slash_error rfl hs]
      trivial
    | ok r =>
      obtain ⟨l2, rest⟩ := r
      obtain ⟨hsuf, l3, hx⟩ := skipLineComment_ext hs u line1
      rw [body_slash_ok rfl hs]
      rcases hx with hx | ⟨e1, e2, hx⟩
      · rw [body_slash_ok rfl hx]
        simp only [Next.Follows, Parser.alike, true_and, and_self, true_or, and_true]
        exact hsuf
      · rw [body_slash_ok rfl hx]
        simp only [Next.Follows, Parser.alike, true_and, and_self]
        exact ⟨hsuf, Or.inr ⟨e1, e2⟩⟩
  · cases hw : isWhite c with
    | true =>
      rw [body_white (by exact hw), body_white (by exact hw)]
      simp only [Next.Follows, Parser.alike, List.suffix_refl, true_and, and_self, true_or]
    | false =>
      rw [body_state (by exact h47) (by exact hw), body_state (by exact h47) (by exact hw)]
      cases st with
      | S_PRE_ELEMENT => exact preElement_follows_any u t _ _ root nodes key line line1 c (hu rfl)
      | S_POST_ELEMENT => exact postElement_follows u t _ _ root nodes key line line1 c
      | S_PRE_SEP =>
        simp only
        split
        · trivial
        · simp only [Next.Follows, Parser.alike, List.suffix_refl, true_and, and_self, true_or]
      | S_PRE_KEY =>
        simp only
        split
        · cases hp : parseString t line with
          | error e => trivial
          | ok r =>
            obtain ⟨k, rest⟩ := r
            obtain ⟨hsuf, he⟩ := parseString_ext hp
            simp only [he line1 u, Next.Follows, Parser.alike, true_and, and_self, true_or,
              and_true]
            exact hsuf
        · split
          · rename_i h125
            simp only [Next.Follows, Parser.alike, List.suffix_refl, true_and, and_self, true_or,
              and_true]
            intro h
            exact absurd h h47
          · trivial


/-! ## The bottom of the stack -/

theorem rooted_tail {top : NodePtr} {below : List NodePtr} (h : Rooted (top :: below)) :
    Rooted below := by
  intro x hx
  apply h
  cases below with
  | nil => cases hx
  | cons b l =>
    rw [List.getLast?_cons_cons]
    exact hx

theorem rooted_push {x top : NodePtr} {below : List NodePtr} (h : Rooted (top :: below)) :
    Rooted (x :: top :: below) := by
  intro y hy
  rw [List.getLast?_cons_cons] at hy
  exact h y hy

theorem beginValue_rooted (p : Parser) (h : Rooted p.nodes) : (beginValue p).Rooted := by
  unfold beginValue
  cases hn : p.nodes with
  | nil => trivial
  | cons top below =>
    rw [hn] at h
    simp only
    cases hd : deref p.root top with
    | none => trivial
    | some el =>
      simp only
      split
      · cases store p.root top (el.assign (Element.ofType .ARRAY)) with
        | none => trivial
        | some r =>
          simp only [Next.Rooted, hn]
          exact h
      · split
        · cases store p.root top (el.assign (Element.ofType .OBJECT)) with
          | none => trivial
          | some r =>
            simp only [Next.Rooted, hn]
            exact h
        · rcases hpp : parsePrimitive p.stream p.in_ (el.assign (Element.ofType .NULL_VALUE))
            p.line with ⟨el1, r⟩
          cases r with
          | error e =>
            simp only
            cases store p.root top el1 <;> trivial
          | ok q =>
            obtain ⟨extra, rest⟩ := q
            simp only
            cases store p.root top el1 with
            | none => trivial
            | some r1 => exact rooted_tail h

theorem preElement_rooted (p : Parser) (h0 : Rooted p.nodes) : (preElement p).Rooted := by
  unfold preElement
  cases hn : p.nodes with
  | nil => trivial
  | cons top below =>
    have h : Rooted (top :: below) := hn ▸ h0
    simp only
    cases hd : deref p.root top with
    | none => trivial
    | some el =>
      obtain ⟨t, o, a, s, n, b⟩ := el
      simp only
      split
      · exact beginValue_rooted p h0
      · split
        · split
          · simp only [Next.Rooted, hn]
            exact h
          · cases store p.root top
                (.mk t o (a ++ [Element.copy (Element.ofType .NULL_VALUE)]) s n b) with
            | none => trivial
            | some r1 =>
              simp only
              apply beginValue_rooted
              exact rooted_push h
        · split
          · cases store p.root top
                (.mk t (mapModify p.key (fun x => x.assign (Element.ofType .NULL_VALUE)) o)
                  a s n b) with
            | none => trivial
            | some r1 =>
              simp only
              apply beginValue_rooted
              exact rooted_push h
          · exact beginValue_rooted p h0

theorem postElement_rooted (p : Parser) (h : Rooted p.nodes) : (postElement p).Rooted := by
  unfold postElement
  cases hn : p.nodes with
  | nil => trivial
  | cons top below =>
    rw [hn] at h
    simp only
    cases hd : deref p.root top with
    | none => trivial
    | some el =>
      simp only
      repeat' split
      all_goals
        simp only [Next.Rooted]
        first
          | done
          | exact h
          | exact rooted_tail h

/-- A pass through the loop body leaves the pointer to the root at the bottom of
the stack. -/
theorem body_rooted (p : Parser) (h : Rooted p.nodes) : (body p).Rooted := by
  unfold body
  split
  · cases hsk : skipLineComment p.stream p.line with
    | error e => trivial
    | ok r => exact h
  · have hq : Rooted (if p.in_ = '\n'.toNat ∨ p.in_ = '\r'.toNat
        then { p with line := p.line + 1 } else p).nodes := by
      split
      · exact h
      · exact h
    simp only
    generalize (if p.in_ = '\n'.toNat ∨ p.in_ = '\r'.toNat then { p with line := p.line + 1 }
        else p) = q at hq
    split
    · exact hq
    · cases hst : q.state with
      | S_PRE_ELEMENT => exact preElement_rooted q hq
      | S_POST_ELEMENT => exact postElement_rooted q hq
      | S_PRE_SEP =>
        simp only
        split
        · trivial
        · exact hq
      | S_PRE_KEY =>
        simp only
        split
        · cases parseString q.stream q.line with
          | error e => trivial
          | ok r => exact hq
        · split
          · exact hq
          · trivial

/-! ## A number that runs to the end of the text -/

/-- The function `parsePrimitive` on a number that runs to the end of the text: it
leaves a Number in the element and, when it returns, nothing of the text. -/
theorem parsePrimitive_number_end (c : Nat) (t : List Nat) (hc : c = 45 ∨ (48 ≤ c ∧ c ≤ 57))
    (ht : t.all isNumberChar = true) (el : Element) (line : Int) :
    (parsePrimitive t c el line).1.type = .NUMBER ∧
    ∀ extra rest, (parsePrimitive t c el line).2 = .ok (extra, rest) → extra = 32 ∧ rest = [] := by
  have hc1 : c = 45 ∨ isDigit c = true := by
    rcases hc with h | h
    · exact Or.inl h
    · right
      simp [isDigit, h.1, h.2]
  have h := parsePrimitive_run c t [] hc1 ht endsNumber_nil el line
  rw [List.append_nil] at h
  rw [h]
  cases stod (c :: t) with
  | ok val read =>
    simp only
    split
    · exact ⟨rfl, fun _ _ e => by cases e⟩
    · refine ⟨rfl, fun extra rest e => ?_⟩
      simp only [List.head?_nil, Option.getD_none, List.drop_nil, Except.ok.injEq,
        Prod.mk.injEq] at e
      exact ⟨e.1.symm, e.2.symm⟩
  | invalid_argument => exact ⟨rfl, fun _ _ e => by cases e⟩
  | out_of_range => exact ⟨rfl, fun _ _ e => by cases e⟩

theorem beginValue_number_end {t : List Nat} {st : State} {root : Element} {top : NodePtr}
    {below : List NodePtr} {key : JString} {line : Int} {c : Nat}
    (hc : c = 45 ∨ (48 ≤ c ∧ c ≤ 57)) (ht : t.all isNumberChar = true) :
    match beginValue ⟨t, st, root, top :: below, key, line, c⟩ with
    | .redo q => q.stream = [] ∧ q.in_ = 32 ∧ q.nodes = below ∧
        ∃ el1 : Element, el1.type = .NUMBER ∧ store root top el1 = some q.root
    | .continue_ _ => False
    | _ => True := by
  have h91 : c ≠ '['.toNat := by
    intro h
    have : c = 91 := h
    omega
  have h123 : c ≠ '{'.toNat := by
    intro h
    have : c = 123 := h
    omega
  unfold beginValue
  simp only
  cases hd : deref root top with
  | none => trivial
  | some el =>
    simp only
    rw [if_neg h91, if_neg h123]
    obtain ⟨k1, k2⟩ := parsePrimitive_number_end c t hc ht
      (el.assign (Element.ofType .NULL_VALUE)) line
    rcases hpp : parsePrimitive t c (el.assign (Element.ofType .NULL_VALUE)) line with ⟨el1, r⟩
    rw [hpp] at k1 k2
    simp only at k1 k2
    cases r with
    | error e =>
      simp only
      cases store root top el1 <;> trivial
    | ok v =>
      obtain ⟨extra, rest⟩ := v
      obtain ⟨e1, e2⟩ := k2 extra rest rfl
      subst e1 e2
      simp only
      cases hs : store root top el1 with
      | none => trivial
      | some r1 => exact ⟨rfl, rfl, rfl, el1, k1, hs⟩

/-- The pass through the loop body that reads a number which runs to the end of
the text: when the run goes on, nothing of the text is left, and when the stack
is empty after it, the root is a Number. -/
theorem number_step {t : List Nat} {root : Element} {nodes : List NodePtr} {key : JString}
    {line : Int} {c : Nat} (hc : c = 45 ∨ (48 ≤ c ∧ c ≤ 57))
    (ht : t.all isNumberChar = true) (hr : Rooted nodes) :
    match body ⟨t, .S_PRE_ELEMENT, root, nodes, key, line, c⟩ with
    | .redo q => q.stream = [] ∧ q.in_ = 32 ∧ (q.nodes = [] → q.root.type = .NUMBER)
    | .continue_ _ => False
    | _ => True := by
  have h47 : c ≠ 47 := by omega
  have hw : isWhite c = false := by
    simp only [isWhite, Bool.or_eq_false_iff, beq_eq_false_iff_ne, ne_eq]
    omega
  have h93 : c ≠ ']'.toNat := by
    intro h
    have : c = 93 := h
    omega
  rw [body_state (by exact h47) (by exact hw)]
  simp only
  unfold preElement
  cases nodes with
  | nil => trivial
  | cons top below =>
    simp only
    cases hd : deref root top with
    | none => trivial
    | some el =>
      obtain ⟨ty, o, a, s, n, b⟩ := el
      have hbase : match beginValue ⟨t, .S_PRE_ELEMENT, root, top :: below, key, line, c⟩ with
          | .redo q => q.stream = [] ∧ q.in_ = 32 ∧ (q.nodes = [] → q.root.type = .NUMBER)
          | .continue_ _ => False
          | _ => True := by
        have hb := @beginValue_number_end t .S_PRE_ELEMENT root top below key line c hc ht
        cases hbv : beginValue ⟨t, .S_PRE_ELEMENT, root, top :: below, key, line, c⟩ with
        | redo q =>
          rw [hbv] at hb
          obtain ⟨b1, b2, b3, el1, b4, b5⟩ := hb
          refine ⟨b1, b2, ?_⟩
          intro hn
          rw [hn] at b3
          subst b3
          have htop : top = [] := hr top rfl
          subst htop
          rw [store] at b5
          cases b5
          exact b4
        | continue_ q => rw [hbv] at hb; exact hb
        | throw e q => trivial
        | undefined => trivial
      have hpush : ∀ (r1 : Element) (x : NodePtr),
          match beginValue ⟨t, .S_PRE_ELEMENT, r1, x :: top :: below, key, line, c⟩ with
          | .redo q => q.stream = [] ∧ q.in_ = 32 ∧ (q.nodes = [] → q.root.type = .NUMBER)
          | .continue_ _ => False
          | _ => True := by
        intro r1 x
        have hb := @beginValue_number_end t .S_PRE_ELEMENT r1 x (top :: below) key line c hc ht
        cases hbv : beginValue ⟨t, .S_PRE_ELEMENT, r1, x :: top :: below, key, line, c⟩ with
        | redo q =>
          rw [hbv] at hb
          obtain ⟨b1, b2, b3, _⟩ := hb
          refine ⟨b1, b2, ?_⟩
          intro hn
          rw [hn] at b3
          cases b3
        | continue_ q => rw [hbv] at hb; exact hb
        | throw e q => trivial
        | undefined => trivial
      simp only
      by_cases h1 : (Element.mk ty o a s n b).isNull = true
      · rw [if_pos h1]
        exact hbase
      · rw [if_neg h1]
        by_cases h2 : (Element.mk ty o a s n b).isArray = true
        · rw [if_pos h2, if_neg h93]
          cases store root top
              (.mk ty o (a ++ [Element.copy (Element.ofType .NULL_VALUE)]) s n b) with
          | none => trivial
          | some r1 => exact hpush r1 _
        · rw [if_neg h2]
          by_cases h3 : (Element.mk ty o a s n b).isObject = true
          · rw [if_pos h3]
            cases store root top
                (.mk ty (mapModify key (fun x => x.assign (Element.ofType .NULL_VALUE)) o)
                  a s n b) with
            | none => trivial
            | some r1 => exact hpush r1 _
          · rw [if_neg h3]
            exact hbase

/-! ## The run of the loop on a text with any text behind it -/

/-- The run of the loop on a text of `s` that ends normally, followed on the same
text with any text `u` behind it: for every `u` the run comes to the loop head
in a like state with `u` unread; or the text ended within a comment and for
every `u` the run comes to the loop head in a like state with what the comment
leaves of `u`; or the last value of the text is a number that runs to its end,
which is the root when the stack is empty. -/
theorem run_follows_any (s : List Nat) : ∀ (n : Nat),
    (∀ (t : List Nat) (st : State) (root : Element) (nodes : List NodePtr) (key : JString)
      (line : Int) (c0 : Nat) (r : Parser), t <:+ s → Rooted nodes →
      whileRead n ⟨t, st, root, nodes, key, line, c0⟩ = .done r →
      (∀ (u : List Nat) (line1 : Int) (c1 : Nat),
        ∃ q, Leads ⟨t ++ u, st, root, nodes, key, line1, c1⟩ q ∧ r.alike q ∧ q.stream = u) ∨
      (endsInComment s ∧ ∀ (u : List Nat) (line1 : Int) (c1 : Nat),
        ∃ q, Leads ⟨t ++ u, st, root, nodes, key, line1, c1⟩ q ∧ r.alike q ∧
          q.stream = dropLine u) ∨
      (r.nodes = [] → r.root.type = .NUMBER)) ∧
    (∀ (t : List Nat) (st : State) (root : Element) (nodes : List NodePtr) (key : JString)
      (line : Int) (c : Nat) (r : Parser), t <:+ s → (c = 47 → 47 :: t <:+ s) → Rooted nodes →
      redo n ⟨t, st, root, nodes, key, line, c⟩ = .done r →
      (∀ (u : List Nat) (line1 : Int),
        ∃ q, LeadsNext (.redo ⟨t ++ u, st, root, nodes, key, line1, c⟩) q ∧ r.alike q ∧
          q.stream = u) ∨
      (endsInComment s ∧ ∀ (u : List Nat) (line1 : Int),
        ∃ q, LeadsNext (.redo ⟨t ++ u, st, root, nodes, key, line1, c⟩) q ∧ r.alike q ∧
          q.stream = dropLine u) ∨
      (r.nodes = [] → r.root.type = .NUMBER))
  | 0 => by
    constructor
    · intro t st root nodes key line c0 r _ _ h
      rw [whileRead] at h; cases h
    · intro t st root nodes key line c r _ _ _ h
      rw [redo] at h; cases h
  | n + 1 => by
    obtain ⟨ihw, ihr⟩ := run_follows_any s n
    constructor
    · intro t st root nodes key line c0 r hsuf hroot h
      cases t with
      | nil =>
        rw [whileRead_nil n _ rfl] at h
        cases h
        left
        intro u line1 c1
        exact ⟨⟨u, st, root, nodes, key, line1, c1⟩, Leads.refl _, ⟨rfl, rfl, rfl, rfl⟩, rfl⟩
      | cons c t =>
        rw [whileRead_cons n _ c t rfl] at h
        rcases ihr t st root nodes key line c r ((List.suffix_cons c t).trans hsuf)
          (fun e => by rw [← e]; exact hsuf) hroot h with hA | ⟨hc, hB⟩ | hC
        · left
          intro u line1 c1
          obtain ⟨q, hl, ha, hq⟩ := hA u line1
          exact ⟨q, leads_of_redo hl, ha, hq⟩
        · right
          left
          refine ⟨hc, ?_⟩
          intro u line1 c1
          obtain ⟨q, hl, ha, hq⟩ := hB u line1
          exact ⟨q, leads_of_redo hl, ha, hq⟩
        · exact Or.inr (Or.inr hC)
    · intro t st root nodes key line c r hsuf h47 hroot h
      rw [redo_succ] at h
      have hr2 := body_rooted ⟨t, st, root, nodes, key, line, c⟩ hroot
      by_cases hN : st = .S_PRE_ELEMENT ∧ (c = 45 ∨ (48 ≤ c ∧ c ≤ 57)) ∧
          t.all isNumberChar = true
      · obtain ⟨e1, hc, ht⟩ := hN
        subst e1
        right
        right
        have hs := @number_step t root nodes key line c hc ht hroot
        cases hb : body ⟨t, .S_PRE_ELEMENT, root, nodes, key, line, c⟩ with
        | throw e q => rw [hb] at h; cases h
        | undefined => rw [hb] at h; cases h
        | continue_ q => rw [hb] at hs; exact hs.elim
        | redo q =>
          rw [hb] at h hs
          simp only [Next.run] at h
          obtain ⟨t2, st2, root2, nodes2, key2, line2, c2⟩ := q
          obtain ⟨s1, s2, s3⟩ := hs
          simp only at s1 s2 s3
          subst s1 s2
          cases n with
          | zero => rw [redo] at h; cases h
          | succ m =>
            rw [redo_succ, body_white (show isWhite 32 = true by decide)] at h
            simp only [Next.run] at h
            cases m with
            | zero => rw [whileRead] at h; cases h
            | succ k =>
              rw [whileRead_nil k _ rfl] at h
              cases h
              exact s3
      · have hu : ∀ u : List Nat, st = .S_PRE_ELEMENT → (c = 45 ∨ (48 ≤ c ∧ c ≤ 57)) →
            t.all isNumberChar = true → endsNumber u :=
          fun _ a b d => absurd ⟨a, b, d⟩ hN
        cases hb : body ⟨t, st, root, nodes, key, line, c⟩ with
        | throw e q => rw [hb] at h; cases h
        | undefined => rw [hb] at h; cases h
        | continue_ q =>
          rw [hb] at h hr2
          simp only [Next.run] at h
          obtain ⟨t2, st2, root2, nodes2, key2, line2, c2⟩ := q
          have hroot2 : Rooted nodes2 := hr2
          -- what the pass on a longer text gives
          have hpass : ∀ (u : List Nat) (line1 : Int),
              ∃ t3 line3 c3, body ⟨t ++ u, st, root, nodes, key, line1, c⟩
                  = .continue_ ⟨t3, st2, root2, nodes2, key2, line3, c3⟩ ∧ t2 <:+ t ∧
                (t3 = t2 ++ u ∨ (t2 = [] ∧ t3 = dropLine u ∧ c = 47 ∧
                  ∃ r0, t = 47 :: r0 ∧ ∀ b ∈ r0, b ≠ 10 ∧ b ≠ 13)) := by
            intro u line1
            have hf := body_follows_any u t st root nodes key line line1 c (hu u)
            rw [hb] at hf
            cases hb1 : body ⟨t ++ u, st, root, nodes, key, line1, c⟩ with
            | throw e q1 => rw [hb1] at hf; exact absurd hf (by simp [Next.Follows])
            | undefined => rw [hb1] at hf; exact absurd hf (by simp [Next.Follows])
            | redo q1 => rw [hb1] at hf; exact absurd hf (by simp [Next.Follows])
            | continue_ q1 =>
              rw [hb1] at hf
              simp only [Next.Follows] at hf
              obtain ⟨ha, hs1, halt⟩ := hf
              obtain ⟨t3, st3, root3, nodes3, key3, line3, c3⟩ := q1
              obtain ⟨a1, a2, a3, a4⟩ := ha
              simp only at a1 a2 a3 a4 hs1 halt
              subst a1 a2 a3 a4
              exact ⟨t3, line3, c3, rfl, hs1, halt⟩
          by_cases hP : t2 = [] ∧ c = 47 ∧ ∃ r0, t = 47 :: r0 ∧ ∀ b ∈ r0, b ≠ 10 ∧ b ≠ 13
          · obtain ⟨e1, e2, r0, e4, e5⟩ := hP
            subst e1 e2 e4
            cases n with
            | zero => rw [whileRead] at h; cases h
            | succ m =>
              rw [whileRead_nil m _ rfl] at h
              cases h
              right
              left
              constructor
              · obtain ⟨pre, hpre⟩ := h47 rfl
                exact ⟨pre, r0, hpre.symm, e5⟩
              · intro u line1
                have hb1 : body ⟨47 :: r0 ++ u, st, root, nodes, key, line1, 47⟩
                    = .continue_ ⟨dropLine (r0 ++ u), st, root, nodes, key,
                        (skipToEol (r0 ++ u) line1).1, 47⟩ := body_comment _ _ _ _ _ _
                rw [body_comment] at hb
                injection hb with hb
                injection hb with _ b2 b3 b4 b5 _ _
                subst b2 b3 b4 b5
                refine ⟨⟨dropLine u, st, root, nodes, key, (skipToEol (r0 ++ u) line1).1, 47⟩,
                  ?_, ⟨rfl, rfl, rfl, rfl⟩, rfl⟩
                apply leadsNext_of_body hb1
                rw [dropLine_plain_append r0 u e5]
                exact leadsNext_continue (Leads.refl _)
          · have hpass2 : ∀ (u : List Nat) (line1 : Int),
                ∃ line3 c3, body ⟨t ++ u, st, root, nodes, key, line1, c⟩
                  = .continue_ ⟨t2 ++ u, st2, root2, nodes2, key2, line3, c3⟩ := by
              intro u line1
              obtain ⟨t3, line3, c3, hb1, _, halt⟩ := hpass u line1
              rcases halt with e | ⟨e1, _, e3, e4⟩
              · subst e
                exact ⟨line3, c3, hb1⟩
              · exact absurd ⟨e1, e3, e4⟩ hP
            obtain ⟨_, _, _, _, hs1, _⟩ := hpass [] line
            rcases ihw t2 st2 root2 nodes2 key2 line2 c2 r (hs1.trans hsuf) hroot2 h
              with hA | ⟨hc, hB⟩ | hC
            · left
              intro u line1
              obtain ⟨line3, c3, hb1⟩ := hpass2 u line1
              obtain ⟨q, hl, ha, hq⟩ := hA u line3 c3
              exact ⟨q, leadsNext_of_body hb1 (leadsNext_continue hl), ha, hq⟩
            · right
              left
              refine ⟨hc, ?_⟩
              intro u line1
              obtain ⟨line3, c3, hb1⟩ := hpass2 u line1
              obtain ⟨q, hl, ha, hq⟩ := hB u line3 c3
              exact ⟨q, leadsNext_of_body hb1 (leadsNext_continue hl), ha, hq⟩
            · exact Or.inr (Or.inr hC)
        | redo q =>
          rw [hb] at h hr2
          simp only [Next.run] at h
          obtain ⟨t2, st2, root2, nodes2, key2, line2, c2⟩ := q
          have hroot2 : Rooted nodes2 := hr2
          have hpass : ∀ (u : List Nat) (line1 : Int),
              ∃ t3 line3 c3, body ⟨t ++ u, st, root, nodes, key, line1, c⟩
                  = .redo ⟨t3, st2, root2, nodes2, key2, line3, c3⟩ ∧ t2 <:+ t ∧
                (c2 = 47 → 47 :: t2 <:+ t) ∧
                ((t3 = t2 ++ u ∧ c3 = c2) ∨ (t2 = [] ∧ c2 = 32 ∧ u = c3 :: t3)) := by
            intro u line1
            have hf := body_follows_any u t st root nodes key line line1 c (hu u)
            rw [hb] at hf
            cases hb1 : body ⟨t ++ u, st, root, nodes, key, line1, c⟩ with
            | throw e q1 => rw [hb1] at hf; exact absurd hf (by simp [Next.Follows])
            | undefined => rw [hb1] at hf; exact absurd hf (by simp [Next.Follows])
            | continue_ q1 => rw [hb1] at hf; exact absurd hf (by simp [Next.Follows])
            | redo q1 =>
              rw [hb1] at hf
              simp only [Next.Follows] at hf
              obtain ⟨ha, hs1, hs47, halt⟩ := hf
              obtain ⟨t3, st3, root3, nodes3, key3, line3, c3⟩ := q1
              obtain ⟨a1, a2, a3, a4⟩ := ha
              simp only at a1 a2 a3 a4 hs1 hs47 halt
              subst a1 a2 a3 a4
              exact ⟨t3, line3, c3, rfl, hs1, hs47, halt⟩
          by_cases hP : t2 = [] ∧ c2 = 32
          · obtain ⟨e1, e2⟩ := hP
            subst e1 e2
            cases n with
            | zero => rw [redo] at h; cases h
            | succ m =>
              rw [redo_succ, body_white (show isWhite 32 = true by decide)] at h
              simp only [Next.run] at h
              cases m with
              | zero => rw [whileRead] at h; cases h
              | succ k =>
                rw [whileRead_nil k _ rfl] at h
                cases h
                left
                intro u line1
                obtain ⟨t3, line3, c3, hb1, _, _, halt⟩ := hpass u line1
                rcases halt with ⟨e3, e4⟩ | ⟨_, _, e5⟩
                · rw [List.nil_append] at e3
                  rw [e3, e4] at hb1
                  refine ⟨⟨u, st2, root2, nodes2, key2, line3, 32⟩, ?_, ⟨rfl, rfl, rfl, rfl⟩, rfl⟩
                  apply leadsNext_of_body hb1
                  apply leadsNext_redo
                  rw [body_white (show isWhite 32 = true by decide)]
                  simp only [show ¬ ((32 : Nat) = 10 ∨ (32 : Nat) = 13) by decide, if_false]
                  exact leadsNext_continue (Leads.refl _)
                · refine ⟨⟨u, st2, root2, nodes2, key2, line3, 0⟩, ?_, ⟨rfl, rfl, rfl, rfl⟩, rfl⟩
                  apply leadsNext_of_body hb1
                  rw [e5]
                  exact leadsNext_lookahead c3 t3 st2 root2 nodes2 key2 line3 0
          · have hpass2 : ∀ (u : List Nat) (line1 : Int),
                ∃ line3, body ⟨t ++ u, st, root, nodes, key, line1, c⟩
                  = .redo ⟨t2 ++ u, st2, root2, nodes2, key2, line3, c2⟩ := by
              intro u line1
              obtain ⟨t3, line3, c3, hb1, _, _, halt⟩ := hpass u line1
              rcases halt with ⟨e3, e4⟩ | ⟨e1, e2, _⟩
              · subst e3 e4
                exact ⟨line3, hb1⟩
              · exact absurd ⟨e1, e2⟩ hP
            obtain ⟨_, _, _, _, hs1, hs47, _⟩ := hpass [] line
            rcases ihr t2 st2 root2 nodes2 key2 line2 c2 r (hs1.trans hsuf)
              (fun e => (hs47 e).trans hsuf) hroot2 h with hA | ⟨hc, hB⟩ | hC
            · left
              intro u line1
              obtain ⟨line3, hb1⟩ := hpass2 u line1
              obtain ⟨q, hl, ha, hq⟩ := hA u line3
              exact ⟨q, leadsNext_of_body hb1 hl, ha, hq⟩
            · right
              left
              refine ⟨hc, ?_⟩
              intro u line1
              obtain ⟨line3, hb1⟩ := hpass2 u line1
              obtain ⟨q, hl, ha, hq⟩ := hB u line3
              exact ⟨q, leadsNext_of_body hb1 hl, ha, hq⟩
            · exact Or.inr (Or.inr hC)

/-! ## C20: input after the end of the document -/

/-- C20 (amended): for every text `d` that `deserialize` reads as a value `D` and
that does not end within a comment (its last line holds no `//`, or `,` behind
it is input after the end), followed by any white space and complete `//`
comments `w`, followed by a byte `x` that is neither white space nor `/` and,
when `D` is a Number and `x` follows `d` directly, not one of the characters
`[0-9+-.eE]`, followed by anything: `deserialize` throws "Input after end." with
the byte `x`. -/
theorem input_after_end (d w rest : List Nat) (x : Nat) (D : Element)
    (h : deserialize d = .value D)
    (hd : ¬ endsInComment d ∨
      ∃ line, deserialize (d ++ [44]) = .syntaxError ⟨"Input after end.", line, 44⟩)
    (hw : Blank w) (hx : isWhite x = false) (h47 : x ≠ 47)
    (hn : D.type = .NUMBER → w = [] → isNumberChar x = false) :
    ∃ line, deserialize (d ++ (w ++ x :: rest)) = .syntaxError ⟨"Input after end.", line, x⟩ := by
  have hclosed : ∃ line, deserialize (d ++ [44])
      = .syntaxError ⟨"Input after end.", line, 44⟩ := hd.elim (closed_of_no_comment h) id
  obtain ⟨r, hr, h1, h2, h3⟩ := deserialize_value h
  unfold Parser.start at hr
  -- a run that takes what is behind `d` for the rest of a comment reads `d,` as a value
  have hopen : ∀ q : Parser,
      Leads ⟨d ++ [44], .S_PRE_ELEMENT, Element.ofType .NULL_VALUE, [[]], [], 1, 0⟩ q →
      r.alike q → q.stream = dropLine [44] → False := by
    intro q hl ha hq
    have hq2 : q.stream = [] := hq
    have hh : Halts q (.done q) := ⟨1, whileRead_nil 0 q hq2, fun e => by cases e⟩
    have hv := deserialize_of_done (s := d ++ [44]) (hl _ hh)
    obtain ⟨a1, _, a3, _⟩ := ha
    rw [if_pos ⟨a1.trans h1, a3.trans h2⟩] at hv
    obtain ⟨line, hc⟩ := hclosed
    rw [hv] at hc
    cases hc
  have key : ∃ q, Leads ⟨d ++ (w ++ x :: rest), .S_PRE_ELEMENT, Element.ofType .NULL_VALUE,
      [[]], [], 1, 0⟩ q ∧ r.alike q ∧ q.stream = w ++ x :: rest := by
    rcases (run_follows_any d _).1 d .S_PRE_ELEMENT (Element.ofType .NULL_VALUE) [[]] [] 1 0 r
      (List.suffix_refl _) (fun y hy => by cases hy; rfl) hr with hA | ⟨_, hB⟩ | hC
    · exact hA _ 1 0
    · obtain ⟨q, hl, ha, hq⟩ := hB [44] 1 0
      exact (hopen q hl ha hq).elim
    · have ht : D.type = .NUMBER := by
        rw [← h3]
        exact hC h2
      have hu := blank_endsNumber_append hw rest (hn ht)
      rcases (run_follows_all d _).1 d .S_PRE_ELEMENT (Element.ofType .NULL_VALUE) [[]] [] 1 0 r
        (List.suffix_refl _) hr with hA | ⟨_, hB⟩
      · exact hA _ 1 0 hu
      · obtain ⟨q, hl, ha, hq⟩ := hB [44] 1 0 (endsNumber_cons 44 [] (by decide))
        exact (hopen q hl ha hq).elim
  obtain ⟨q, hl, ha, hq⟩ := key
  obtain ⟨t, st, root, nodes, key, line, c⟩ := q
  obtain ⟨a1, a2, a3, a4⟩ := ha
  simp only at a1 a2 a3 a4 hq
  rw [h1] at a1
  rw [h2] at a3
  subst a1 a3 hq
  obtain ⟨c1, hl2⟩ := (blank_leads hw) (x :: rest) .S_POST_ELEMENT root [] key line c
  refine ⟨line + lineBreaks w, ?_⟩
  have hb : body ⟨rest, .S_POST_ELEMENT, root, [], key, line + lineBreaks w, x⟩
      = .throw ⟨"Input after end.", line + lineBreaks w, x⟩
          ⟨rest, .S_POST_ELEMENT, root, [], key, line + lineBreaks w, x⟩ := by
    rw [body_post _ _ _ _ _ _ h47 hx]
    rfl
  exact deserialize_of_throw (hl _ (hl2 _ (halts_of_body_throw c1 hb)))

/-- C20 (amended) at the document `{}` followed by `x`, by `1`, and by a comment, a
line break and `]`; at the document `"//"` followed by `x`; at the document
`true` followed by `e5`; and at the document `1` followed by a space and
`2`. -/
theorem input_after_end_witness :
    deserialize (lit "\x7b\x7d") = .value (Element.ofType .OBJECT) ∧
    ¬ endsInComment (lit "\x7b\x7d") ∧ Blank (lit " // c\n") ∧
    (∃ line, deserialize (lit "\x7b\x7d" ++ ([] ++ 120 :: []))
      = .syntaxError ⟨"Input after end.", line, 120⟩) ∧
    (∃ line, deserialize (lit "\x7b\x7d" ++ ([] ++ 49 :: []))
      = .syntaxError ⟨"Input after end.", line, 49⟩) ∧
    (∃ line, deserialize (lit "\x7b\x7d" ++ (lit " // c\n" ++ 93 :: lit "1"))
      = .syntaxError ⟨"Input after end.", line, 93⟩) ∧
    (∃ line, deserialize (lit "\"//\"" ++ ([] ++ 120 :: []))
      = .syntaxError ⟨"Input after end.", line, 120⟩) ∧
    (∃ line, deserialize (lit "true" ++ ([] ++ 101 :: lit "5"))
      = .syntaxError ⟨"Input after end.", line, 101⟩) ∧
    (∃ line, deserialize (lit "1" ++ (lit " " ++ 50 :: []))
      = .syntaxError ⟨"Input after end.", line, 50⟩) :=
  ⟨by decide!, not_endsInComment_of_no_slash (by decide),
    Blank.white 32 _ (by decide) (Blank.comment (lit " c") 10 [] (by decide) (Or.inl rfl) Blank.nil),
    input_after_end (lit "\x7b\x7d") [] [] 120 (Element.ofType .OBJECT) (by decide!)
      (Or.inl (not_endsInComment_of_no_slash (by decide))) Blank.nil (by decide) (by decide)
      (fun e => by cases e),
    input_after_end (lit "\x7b\x7d") [] [] 49 (Element.ofType .OBJECT) (by decide!)
      (Or.inl (not_endsInComment_of_no_slash (by decide))) Blank.nil (by decide) (by decide)
      (fun e => by cases e),
    input_after_end (lit "\x7b\x7d") (lit " // c\n") (lit "1") 93 (Element.ofType .OBJECT)
      (by decide!)
      (Or.inl (not_endsInComment_of_no_slash (by decide)))
      (Blank.white 32 _ (by decide)
        (Blank.comment (lit " c") 10 [] (by decide) (Or.inl rfl) Blank.nil))
      (by decide) (by decide) (fun e => by cases e),
    input_after_end (lit "\"//\"") [] [] 120 (Element.ofString (lit "//")) (by decide!)
      (Or.inr ⟨1, by decide!⟩) Blank.nil (by decide) (by decide) (fun e => by cases e),
    input_after_end (lit "true") [] (lit "5") 101 (Element.ofBool true) (by decide!)
      (Or.inl (not_endsInComment_of_no_slash (by decide))) Blank.nil (by decide) (by decide)
      (fun e => by cases e),
    input_after_end (lit "1") (lit " ") [] 50 (Element.ofNumber (.finite false 1 0)) (by decide!)
      (Or.inl (not_endsInComment_of_no_slash (by decide)))
      (Blank.white 32 _ (by decide) Blank.nil) (by decide) (by decide)
      (fun _ e => by cases e)⟩

end xyz.json
